import Mathlib

/-! Panoramix half-edge mesh (`src/core/mesh.hpp`): embedding and verification

The mesh class of `mesh.hpp` is embedded as pure functions over three tables
(`_verts`, `_halfs`, `_faces`).  A handle is its integer `id`; a table access
`_table[h.id]` outside the table and a failed `assert` end the call with a
`Fault` (the spec: precondition violations are fatal contract violations).
-/

namespace Panoramix

/-- The two ways a call can stop without returning: a failed `assert`, or an
index outside a `std::vector` (undefined behaviour in the source). -/
inductive Fault where
  | assertion
  | outOfBounds
deriving DecidableEq

deriving instance DecidableEq for Except

/-! A handle (`Handle<Tag>` of the absent `handle.hpp`, the spec's "opaque integer
handle") is represented by its `int id`, an `Int`; `VertHandle`, `HalfHandle`
and `FaceHandle` are all `Int` here. -/

/-- Modelled from the spec: `Handle::valid()` of the absent `handle.hpp`, `id >= 0`. -/
def Handle.valid (h : Int) : Bool := decide (0 ≤ h)

/-- Modelled from the spec: `Handle::invalid()` of the absent `handle.hpp`, `id < 0`. -/
def Handle.invalid (h : Int) : Bool := decide (h < 0)

/-- Modelled from the spec: the default-constructed handle `Handle()` of the absent
`handle.hpp` (also the value after `reset()`), the invalid handle of id `-1`. -/
def Handle.none : Int := -1

/-- `struct VertTopo`. -/
structure VertTopo where
  hd : Int
  halfedges : List Int
deriving DecidableEq

/-- `struct HalfTopo`; `efrom` and `eto` are `endVertices[0]` and `endVertices[1]`
(`from()` and `to()` in the source). -/
structure HalfTopo where
  hd : Int
  efrom : Int
  eto : Int
  opposite : Int
  face : Int
deriving DecidableEq

/-- `struct FaceTopo`. -/
structure FaceTopo where
  hd : Int
  halfedges : List Int
deriving DecidableEq

/-- Modelled from the spec: `Triplet<TopoT, DataT>` of the absent `handle.hpp`: the
topology record, the user payload and the tombstone flag `exists`. -/
structure Triplet (T : Type) (D : Type) where
  topo : T
  data : D
  exists_ : Bool
deriving DecidableEq

/-- `class Mesh`: the three tables `_verts`, `_halfs`, `_faces`. -/
structure Mesh (VD HD FD : Type) where
  verts : List (Triplet VertTopo VD)
  halfs : List (Triplet HalfTopo HD)
  faces : List (Triplet FaceTopo FD)
deriving DecidableEq

section Ops

variable {VD HD FD : Type}

/-- The state after `clear()` (and of a default-constructed mesh). -/
def Mesh.empty : Mesh VD HD FD := ⟨[], [], []⟩

/-- A vector access `v[h.id]`. -/
def getAt {α : Type} (xs : List α) (h : Int) : Except Fault α :=
  if h < 0 then .error .outOfBounds
  else match xs[h.toNat]? with
    | some x => .ok x
    | none => .error .outOfBounds

/-- An in-place update `v[h.id].field = ...` of one table entry. -/
def modifyAt {α : Type} (xs : List α) (h : Int) (f : α → α) : Except Fault (List α) :=
  if h < 0 then .error .outOfBounds
  else match xs[h.toNat]? with
    | some x => .ok (xs.set h.toNat (f x))
    | none => .error .outOfBounds

/-- `Mesh::addVertex`. -/
def Mesh.addVertex (m : Mesh VD HD FD) (vd : VD) : Mesh VD HD FD × Int :=
  ({ m with verts := m.verts ++ [⟨⟨(m.verts.length : Int), []⟩, vd, true⟩] },
    (m.verts.length : Int))

/-- The loop of `Mesh::findEdge` over the outgoing list of `vfrom`. -/
def findEdgeLoop (halfs : List (Triplet HalfTopo HD)) (vfrom vto : Int) :
    List Int → Except Fault Int
  | [] => .ok Handle.none
  | hh :: rest =>
    match getAt halfs hh with
    | .error e => .error e
    | .ok ht =>
      if ht.topo.efrom ≠ vfrom then .error .assertion
      else if ht.topo.eto = vto then .ok hh
      else findEdgeLoop halfs vfrom vto rest

/-- `Mesh::findEdge`. -/
def Mesh.findEdge (m : Mesh VD HD FD) (vfrom vto : Int) : Except Fault Int :=
  match getAt m.verts vfrom with
  | .error e => .error e
  | .ok vt => findEdgeLoop m.halfs vfrom vto vt.topo.halfedges

/-- The scan of `Mesh::findEdge` as a build with `NDEBUG` runs it: the `assert`
is compiled out, the comparison of `endVertices[1]` stays. -/
def findEdgeLoopNDEBUG (halfs : List (Triplet HalfTopo HD)) (vto : Int) :
    List Int → Except Fault Int
  | [] => .ok Handle.none
  | hh :: rest =>
    match getAt halfs hh with
    | .error e => .error e
    | .ok ht =>
      if ht.topo.eto = vto then .ok hh
      else findEdgeLoopNDEBUG halfs vto rest

/-- `Mesh::findEdge` with `NDEBUG`. -/
def Mesh.findEdgeNDEBUG (m : Mesh VD HD FD) (vfrom vto : Int) :
    Except Fault Int :=
  match getAt m.verts vfrom with
  | .error e => .error e
  | .ok vt => findEdgeLoopNDEBUG m.halfs vto vt.topo.halfedges

/-- The call `_verts[v.id].topo.halfedges.push_back(hh)`. -/
def pushOut (hh : Int) (vt : Triplet VertTopo VD) : Triplet VertTopo VD :=
  { vt with topo := { vt.topo with halfedges := vt.topo.halfedges ++ [hh] } }

/-- The write `ht.topo.opposite = o`. -/
def setOpp (o : Int) (ht : Triplet HalfTopo HD) : Triplet HalfTopo HD :=
  { ht with topo := { ht.topo with opposite := o } }

/-- The write `ht.topo.face = f`. -/
def setFace (f : Int) (ht : Triplet HalfTopo HD) : Triplet HalfTopo HD :=
  { ht with topo := { ht.topo with face := f } }

/-- The block of `Mesh::addEdge` that creates one half-edge `vfrom -> vto`: push
the triplet on `_halfs`, then push its handle on `_verts[vfrom.id]`'s list. -/
def Mesh.pushHalf (m : Mesh VD HD FD) (vfrom vto : Int) (hd : HD) :
    Except Fault (Mesh VD HD FD × Int) :=
  let hh : Int := (m.halfs.length : Int)
  let ht : Triplet HalfTopo HD :=
    ⟨⟨hh, vfrom, vto, Handle.none, Handle.none⟩, hd, true⟩
  match modifyAt m.verts vfrom (pushOut hh) with
  | .error e => .error e
  | .ok verts => .ok ({ m with halfs := m.halfs ++ [ht], verts := verts }, hh)

/-- The assignment `_halfs[h.id].topo.opposite = o`. -/
def Mesh.setOpposite (m : Mesh VD HD FD) (h o : Int) : Except Fault (Mesh VD HD FD) :=
  match modifyAt m.halfs h (setOpp o) with
  | .error e => .error e
  | .ok halfs => .ok { m with halfs := halfs }

/-- `Mesh::addEdge(from, to, hd, hdrev, mergeDuplicateEdge)`: `f1`, `f2` are `hh1`,
`hh2` after the `if (mergeDuplicateEdge)` block, `p1`, `p2` the mesh and the handle
after each of the two `if (hh.invalid())` blocks. -/
def Mesh.addEdge (m : Mesh VD HD FD) (vfrom vto : Int) (hd hdrev : HD)
    (mergeDuplicateEdge : Bool) : Except Fault (Mesh VD HD FD × Int) :=
  if vfrom = vto then .ok (m, Handle.none)
  else
    (if mergeDuplicateEdge then m.findEdge vfrom vto else .ok Handle.none) >>= fun f1 =>
    (if mergeDuplicateEdge then m.findEdge vto vfrom else .ok Handle.none) >>= fun f2 =>
    (if Handle.invalid f1 then m.pushHalf vfrom vto hd else .ok (m, f1)) >>= fun p1 =>
    (if Handle.invalid f2 then p1.1.pushHalf vto vfrom hdrev else .ok (p1.1, f2)) >>= fun p2 =>
    p2.1.setOpposite p1.2 p2.2 >>= fun m3 =>
    m3.setOpposite p2.2 p1.2 >>= fun m4 =>
    .ok (m4, p1.2)

/-- The loop `for (HalfHandle hh : halfedges) _halfs[hh.id].topo.face = f`. -/
def setFaces (f : Int) :
    List (Triplet HalfTopo HD) → List Int → Except Fault (List (Triplet HalfTopo HD))
  | halfs, [] => .ok halfs
  | halfs, hh :: rest =>
    match modifyAt halfs hh (setFace f) with
    | .error e => .error e
    | .ok halfs1 => setFaces f halfs1 rest

/-- `Mesh::addFace(const HandleArray<HalfTopo>&, fd)`. -/
def Mesh.addFace (m : Mesh VD HD FD) (halfedges : List Int) (fd : FD) :
    Except Fault (Mesh VD HD FD × Int) :=
  let fh : Int := (m.faces.length : Int)
  let ft : Triplet FaceTopo FD := ⟨⟨fh, halfedges⟩, fd, true⟩
  match setFaces fh m.halfs halfedges with
  | .error e => .error e
  | .ok halfs => .ok ({ m with faces := m.faces ++ [ft], halfs := halfs }, fh)

/-- The vertex pair `(verts[i], verts[(i + 1) % verts.size()])` of a cycle. -/
def cyclePair (verts : List Int) (i : Nat) : Int × Int :=
  (verts.getD i Handle.none, verts.getD ((i + 1) % verts.length) Handle.none)

/-- The autoflip loop of `Mesh::addFace(const HandleArray<VertTopo>&, ...)`, run
over the indices `is`: `true` when some `findEdge(verts[i], verts[inext])` is a
valid half-edge whose `face` is valid (the loop then reverses `verts` and breaks). -/
def autoflipLoop (m : Mesh VD HD FD) (verts : List Int) :
    List Nat → Except Fault Bool
  | [] => .ok false
  | i :: is =>
    match m.findEdge (cyclePair verts i).1 (cyclePair verts i).2 with
    | .error e => .error e
    | .ok hh =>
      if Handle.valid hh then
        match getAt m.halfs hh with
        | .error e => .error e
        | .ok ht => if Handle.valid ht.topo.face then .ok true else autoflipLoop m verts is
      else autoflipLoop m verts is

/-- The second loop of `Mesh::addFace(const HandleArray<VertTopo>&, ...)`:
`halfs.push_back(addEdge(verts[i], verts[inext]))` over the indices `is`. -/
def addEdgesLoop [Inhabited HD] (verts : List Int) :
    Mesh VD HD FD → List Nat → Except Fault (Mesh VD HD FD × List Int)
  | m, [] => .ok (m, [])
  | m, i :: is =>
    match m.addEdge (cyclePair verts i).1 (cyclePair verts i).2 default default true with
    | .error e => .error e
    | .ok (m1, hh) =>
      match addEdgesLoop verts m1 is with
      | .error e => .error e
      | .ok (m2, hs) => .ok (m2, hh :: hs)

/-- The vertex order `verts` on which `Mesh::addFace(const HandleArray<VertTopo>&,
autoflip, fd)` builds the face. -/
def Mesh.faceWinding (m : Mesh VD HD FD) (vertices : List Int) (autoflip : Bool) :
    Except Fault (List Int) :=
  if autoflip then
    match autoflipLoop m vertices (List.range vertices.length) with
    | .error e => .error e
    | .ok flip => .ok (if flip then vertices.reverse else vertices)
  else .ok vertices

/-- `Mesh::addFace(const HandleArray<VertTopo>& vertices, autoflip, fd)`. -/
def Mesh.addFaceVerts [Inhabited HD] (m : Mesh VD HD FD) (vertices : List Int)
    (autoflip : Bool) (fd : FD) : Except Fault (Mesh VD HD FD × Int) :=
  if vertices.length < 3 then .error .assertion
  else
    match m.faceWinding vertices autoflip with
    | .error e => .error e
    | .ok verts =>
      match addEdgesLoop verts m (List.range verts.length) with
      | .error e => .error e
      | .ok (m1, halfs) => m1.addFace halfs fd

/-- `Mesh::removed(FaceHandle)`. -/
def Mesh.removedFace (m : Mesh VD HD FD) (f : Int) : Except Fault Bool :=
  match getAt m.faces f with
  | .error e => .error e
  | .ok ft => .ok (!ft.exists_)

/-- `Mesh::removed(HalfHandle)`. -/
def Mesh.removedHalf (m : Mesh VD HD FD) (h : Int) : Except Fault Bool :=
  match getAt m.halfs h with
  | .error e => .error e
  | .ok ht => .ok (!ht.exists_)

/-- `Mesh::removed(VertHandle)`. -/
def Mesh.removedVert (m : Mesh VD HD FD) (v : Int) : Except Fault Bool :=
  match getAt m.verts v with
  | .error e => .error e
  | .ok vt => .ok (!vt.exists_)

/-- The two writes of `Mesh::remove(FaceHandle)` on the triplet of the face:
`exists = false`, and `reset()` on every handle of its half-edge list. -/
def killFace (ft : Triplet FaceTopo FD) : Triplet FaceTopo FD :=
  { ft with
    exists_ := false
    topo := { ft.topo with halfedges := ft.topo.halfedges.map (fun _ => Handle.none) } }

/-- `Mesh::remove(FaceHandle)`. -/
def Mesh.removeFace (m : Mesh VD HD FD) (f : Int) : Except Fault (Mesh VD HD FD) :=
  if Handle.invalid f then .ok m
  else
    match m.removedFace f with
    | .error e => .error e
    | .ok true => .ok m
    | .ok false =>
      match modifyAt m.faces f killFace with
      | .error e => .error e
      | .ok faces => .ok { m with faces := faces }

/-- An in-place update of one half-edge triplet. -/
def Mesh.modifyHalf (m : Mesh VD HD FD) (h : Int)
    (f : Triplet HalfTopo HD → Triplet HalfTopo HD) : Except Fault (Mesh VD HD FD) :=
  match modifyAt m.halfs h f with
  | .error e => .error e
  | .ok halfs => .ok { m with halfs := halfs }

/-- `Mesh::remove(HalfHandle)` (the source names the parameter `e` and uses `h`). -/
def Mesh.removeHalf (m : Mesh VD HD FD) (h : Int) : Except Fault (Mesh VD HD FD) :=
  if Handle.invalid h then .ok m
  else
    match m.removedHalf h with
    | .error e => .error e
    | .ok true => .ok m
    | .ok false => do
      let hop := (← getAt m.halfs h).topo.opposite
      let m ← m.modifyHalf h (fun ht => { ht with exists_ := false })
      let m ← m.modifyHalf hop (fun ht => { ht with exists_ := false })
      let m ← m.removeFace (← getAt m.halfs h).topo.face
      let m ← m.removeFace (← getAt m.halfs hop).topo.face
      let m ← m.modifyHalf h (fun ht => { ht with topo := { ht.topo with efrom := Handle.none } })
      let m ← m.modifyHalf hop (fun ht => { ht with topo := { ht.topo with eto := Handle.none } })
      let m ← m.modifyHalf h (fun ht => { ht with topo := { ht.topo with face := Handle.none } })
      m.modifyHalf hop (fun ht => { ht with topo := { ht.topo with face := Handle.none } })

/-- The loop `for (HalfHandle hh : _verts[v.id].topo.halfedges) remove(hh)`. -/
def removeHalfs : Mesh VD HD FD → List Int → Except Fault (Mesh VD HD FD)
  | m, [] => .ok m
  | m, hh :: rest =>
    match m.removeHalf hh with
    | .error e => .error e
    | .ok m1 => removeHalfs m1 rest

/-- The write `_verts[v.id].exists = false` of `Mesh::remove(VertHandle)`. -/
def killVert (vt : Triplet VertTopo VD) : Triplet VertTopo VD :=
  { vt with exists_ := false }

/-- The call `_verts[v.id].topo.halfedges.clear()` of `Mesh::remove(VertHandle)`. -/
def clearVert (vt : Triplet VertTopo VD) : Triplet VertTopo VD :=
  { vt with topo := { vt.topo with halfedges := [] } }

/-- `Mesh::remove(VertHandle)`. -/
def Mesh.removeVert (m : Mesh VD HD FD) (v : Int) : Except Fault (Mesh VD HD FD) :=
  if Handle.invalid v then .ok m
  else
    match getAt m.verts v with
    | .error e => .error e
    | .ok vt =>
      if !vt.exists_ then .ok m
      else
        match modifyAt m.verts v killVert with
        | .error e => .error e
        | .ok verts =>
          match removeHalfs { m with verts := verts } vt.topo.halfedges with
          | .error e => .error e
          | .ok m1 =>
            match modifyAt m1.verts v clearVert with
            | .error e => .error e
            | .ok verts1 => .ok { m1 with verts := verts1 }

/-- Modelled from the spec: the new locations computed by `RemoveAndMap` of the
absent `handle.hpp`: gc "compacts storage and remaps all handles", so a
non-removed entry is sent to its position in the compacted table (`index` counts
the non-removed entries met so far) and a removed entry to the invalid handle. -/
def newLocations {T D : Type} : List (Triplet T D) → Int → List Int
  | [], _ => []
  | t :: ts, index =>
    if t.exists_ then index :: newLocations ts (index + 1)
    else Handle.none :: newLocations ts index

/-- Modelled from the spec: `RemoveAndMap(table, newlocations)` of the absent
`handle.hpp`: erase the removed entries, keeping the others in order, and fill the
table of new locations. -/
def RemoveAndMap {T D : Type} (v : List (Triplet T D)) : List (Triplet T D) × List Int :=
  (v.filter (fun t => t.exists_), newLocations v 0)

/-- Modelled from the spec: `UpdateOldHandle(newlocations, h)` of the absent
`handle.hpp`: a valid handle is replaced by its new location, an invalid one stays. -/
def UpdateOldHandle (nlocs : List Int) (h : Int) : Except Fault Int :=
  if Handle.invalid h then .ok h else getAt nlocs h

/-- Modelled from the spec: `UpdateOldHandleContainer(newlocations, hs)` of the absent
`handle.hpp`: `UpdateOldHandle` on every element. -/
def UpdateOldHandleContainer (nlocs : List Int) : List Int → Except Fault (List Int)
  | [] => .ok []
  | h :: hs =>
    match UpdateOldHandle nlocs h with
    | .error e => .error e
    | .ok h1 =>
      match UpdateOldHandleContainer nlocs hs with
      | .error e => .error e
      | .ok hs1 => .ok (h1 :: hs1)

/-- Modelled from the spec: `RemoveInValidHandleFromContainer(hs)` of the absent
`handle.hpp`: erase the invalid handles. -/
def RemoveInValidHandleFromContainer (hs : List Int) : List Int :=
  hs.filter (fun h => Handle.valid h)

/-- One round of the first loop of `Mesh::gc`, on `_verts[i]`. -/
def gcVert (vnlocs hnlocs : List Int) (vt : Triplet VertTopo VD) :
    Except Fault (Triplet VertTopo VD) :=
  match UpdateOldHandle vnlocs vt.topo.hd with
  | .error e => .error e
  | .ok hd =>
    match UpdateOldHandleContainer hnlocs vt.topo.halfedges with
    | .error e => .error e
    | .ok hs =>
      .ok { vt with topo := ⟨hd, RemoveInValidHandleFromContainer hs⟩ }

/-- One round of the second loop of `Mesh::gc`, on `_halfs[i]`;
`UpdateOldHandleContainer(vnlocs, endVertices)` is `UpdateOldHandle` on
`endVertices[0]` and on `endVertices[1]`. -/
def gcHalf (vnlocs hnlocs fnlocs : List Int) (ht : Triplet HalfTopo HD) :
    Except Fault (Triplet HalfTopo HD) :=
  match UpdateOldHandle hnlocs ht.topo.hd with
  | .error e => .error e
  | .ok hd =>
    match UpdateOldHandle vnlocs ht.topo.efrom with
    | .error e => .error e
    | .ok vfrom =>
      match UpdateOldHandle vnlocs ht.topo.eto with
      | .error e => .error e
      | .ok vto =>
        match UpdateOldHandle hnlocs ht.topo.opposite with
        | .error e => .error e
        | .ok opp =>
          match UpdateOldHandle fnlocs ht.topo.face with
          | .error e => .error e
          | .ok face => .ok { ht with topo := ⟨hd, vfrom, vto, opp, face⟩ }

/-- One round of the third loop of `Mesh::gc`, on `_faces[i]`. -/
def gcFace (hnlocs fnlocs : List Int) (ft : Triplet FaceTopo FD) :
    Except Fault (Triplet FaceTopo FD) :=
  match UpdateOldHandle fnlocs ft.topo.hd with
  | .error e => .error e
  | .ok hd =>
    match UpdateOldHandleContainer hnlocs ft.topo.halfedges with
    | .error e => .error e
    | .ok hs =>
      .ok { ft with topo := ⟨hd, RemoveInValidHandleFromContainer hs⟩ }

/-- A loop `for (i = 0; i < table.size(); i++)` that rewrites every entry. -/
def forEachEntry {α : Type} (f : α → Except Fault α) : List α → Except Fault (List α)
  | [] => .ok []
  | x :: xs =>
    match f x with
    | .error e => .error e
    | .ok y =>
      match forEachEntry f xs with
      | .error e => .error e
      | .ok ys => .ok (y :: ys)

/-- The result of `Mesh::gc`: the compacted mesh and the rewritten external
handles (`vps`, `hps`, `fps` point at handles the caller holds). -/
structure GcResult (VD HD FD : Type) where
  mesh : Mesh VD HD FD
  vps : List Int
  hps : List Int
  fps : List Int
deriving DecidableEq

/-- `Mesh::gc(vps, hps, fps)`. -/
def Mesh.gcWith (m : Mesh VD HD FD) (vps : List Int) (hps : List Int)
    (fps : List Int) : Except Fault (GcResult VD HD FD) :=
  let vnlocs := (RemoveAndMap m.verts).2
  let hnlocs := (RemoveAndMap m.halfs).2
  let fnlocs := (RemoveAndMap m.faces).2
  match forEachEntry (gcVert vnlocs hnlocs) (RemoveAndMap m.verts).1 with
  | .error e => .error e
  | .ok verts =>
    match forEachEntry (gcHalf vnlocs hnlocs fnlocs) (RemoveAndMap m.halfs).1 with
    | .error e => .error e
    | .ok halfs =>
      match forEachEntry (gcFace hnlocs fnlocs) (RemoveAndMap m.faces).1 with
      | .error e => .error e
      | .ok faces =>
        match UpdateOldHandleContainer vnlocs vps with
        | .error e => .error e
        | .ok vps1 =>
          match UpdateOldHandleContainer hnlocs hps with
          | .error e => .error e
          | .ok hps1 =>
            match UpdateOldHandleContainer fnlocs fps with
            | .error e => .error e
            | .ok fps1 => .ok ⟨⟨verts, halfs, faces⟩, vps1, hps1, fps1⟩

/-- `Mesh::gc()` with the default (empty) containers of external handles. -/
def Mesh.gc (m : Mesh VD HD FD) : Except Fault (Mesh VD HD FD) :=
  match m.gcWith [] [] [] with
  | .error e => .error e
  | .ok r => .ok r.mesh

/-- Modelled from the spec: `Contains(container, x)` of the absent `algorithms.hpp`:
whether `x` occurs in the container. -/
def Contains (c : List Int) (x : Int) : Bool := c.contains x

/-- The asserted condition of `AssertEdgesAreStiched` for one half-edge `ht`
(`&&` evaluates left to right and stops at the first false operand). -/
def stitchedAt (m : Mesh VD HD FD) (ht : Triplet HalfTopo HD) : Except Fault Bool :=
  if !(Handle.valid ht.topo.opposite && Handle.valid ht.topo.face && Handle.valid ht.topo.efrom
      && Handle.valid ht.topo.eto) then .ok false
  else
    match getAt m.verts ht.topo.efrom with
    | .error e => .error e
    | .ok vt =>
      if !(Contains vt.topo.halfedges ht.topo.hd) then .ok false
      else
        match getAt m.faces ht.topo.face with
        | .error e => .error e
        | .ok ft =>
          if !(Contains ft.topo.halfedges ht.topo.hd) then .ok false
          else
            match getAt m.halfs ht.topo.opposite with
            | .error e => .error e
            | .ok ot => .ok (decide (ot.topo.opposite = ht.topo.hd))

/-- The loop of `AssertEdgesAreStiched` over `mesh.halfedges()`, the non-removed
entries of `_halfs`. -/
def assertStitchedLoop (m : Mesh VD HD FD) : List (Triplet HalfTopo HD) → Except Fault Unit
  | [] => .ok ()
  | ht :: rest =>
    if ht.exists_ then
      match stitchedAt m ht with
      | .error e => .error e
      | .ok false => .error .assertion
      | .ok true => assertStitchedLoop m rest
    else assertStitchedLoop m rest

/-- `AssertEdgesAreStiched(mesh)`: returns normally when every assertion holds. -/
def AssertEdgesAreStiched (m : Mesh VD HD FD) : Except Fault Unit :=
  assertStitchedLoop m m.halfs

/-- The folded sequence of statements `mesh.addFace({..})` of the mesh makers. -/
def addFacesSeq [Inhabited HD] [Inhabited FD] :
    Mesh VD HD FD → List (List Int) → Except Fault (Mesh VD HD FD)
  | m, [] => .ok m
  | m, vs :: rest =>
    match m.addFaceVerts vs true default with
    | .error e => .error e
    | .ok (m1, _) => addFacesSeq m1 rest

/-- `MakeQuadFacedCube(mesh)`; `vd i` is the payload of the `i`-th `addVertex`
(the corners `VertDataT(0,1,1)`, ... of the source), `v1 .. v8` are the handles
`0 .. 7` the eight `addVertex` calls return. -/
def MakeQuadFacedCube [Inhabited HD] [Inhabited FD] (vd : Nat → VD) :
    Except Fault (Mesh VD HD FD) :=
  let m0 : Mesh VD HD FD := Mesh.empty
  let m8 := (List.range 8).foldl (fun m i => (m.addVertex (vd i)).1) m0
  addFacesSeq m8
    [[0, 1, 2, 3], [1, 5, 6, 2], [5, 4, 7, 6], [4, 0, 3, 7], [4, 5, 1, 0], [3, 2, 6, 7]]

/-- The number of non-removed entries of a table (the size of `mesh.vertices()`,
`mesh.halfedges()`, `mesh.faces()`). -/
def liveCount {T D : Type} (xs : List (Triplet T D)) : Nat :=
  (xs.filter (fun t => t.exists_)).length

/-- The numbers of non-removed vertices, half-edges and faces. -/
def Mesh.counts (m : Mesh VD HD FD) : Nat × Nat × Nat :=
  (liveCount m.verts, liveCount m.halfs, liveCount m.faces)

/-- The table `xs` after `xs[i] = f(xs[i])` (unchanged when `i` is outside). -/
def updAt {α : Type} (xs : List α) (i : Nat) (f : α → α) : List α :=
  match xs[i]? with
  | some x => xs.set i (f x)
  | none => xs

/-- What `Mesh::remove(FaceHandle)` does to the triplet in the slot of its
argument: nothing when the face is already removed. -/
def killFaceIfLive (ft : Triplet FaceTopo FD) : Triplet FaceTopo FD :=
  if ft.exists_ then killFace ft else ft

/-- The writes of `Mesh::remove(HalfHandle h)` on the triplet of `h` itself. -/
def killHalfFrom (ht : Triplet HalfTopo HD) : Triplet HalfTopo HD :=
  { ht with
    exists_ := false
    topo := { ht.topo with efrom := Handle.none, face := Handle.none } }

/-- The writes of `Mesh::remove(HalfHandle h)` on the triplet of `hop`, the
opposite of `h`. -/
def killHalfTo (ht : Triplet HalfTopo HD) : Triplet HalfTopo HD :=
  { ht with
    exists_ := false
    topo := { ht.topo with eto := Handle.none, face := Handle.none } }

/-- The face table after `remove(f)` on it. -/
def facesRemove (faces : List (Triplet FaceTopo FD)) (f : Int) : List (Triplet FaceTopo FD) :=
  if f < 0 then faces else updAt faces f.toNat killFaceIfLive

end Ops

/-- `Dummy`, the default half-edge and face payload of `Mesh`. -/
abbrev Dummy := Unit

/-- The corner coordinates `VertDataT(x, y, z)` that `MakeQuadFacedCube` passes to
its eight `addVertex` calls, in call order. -/
def cubeCorner (i : Nat) : Int × Int × Int :=
  [(0, 1, 1), (1, 1, 1), (1, 1, 0), (0, 1, 0), (0, 0, 1), (1, 0, 1), (1, 0, 0), (0, 0, 0)].getD i (0, 0, 0)

/-- The mesh `MakeQuadFacedCube` builds. -/
def quadCube : Except Fault (Mesh (Int × Int × Int) Dummy Dummy) :=
  MakeQuadFacedCube cubeCorner

/-- The two-vertex mesh with one edge `0 - 1`: `addVertex`, `addVertex`,
`addEdge(0, 1)`. -/
def oneEdgeMesh : Except Fault (Mesh Unit Dummy Dummy × Int) :=
  (((Mesh.empty : Mesh Unit Dummy Dummy).addVertex ()).1.addVertex ()).1.addEdge 0 1 () () true

section Witnesses

/-- The mesh of a construction that returned (the empty mesh had it faulted). -/
def meshOf {VD HD FD : Type} (r : Except Fault (Mesh VD HD FD)) : Mesh VD HD FD :=
  match r with
  | .ok m => m
  | .error _ => Mesh.empty

/-- The cube of `MakeQuadFacedCube`, as a mesh. -/
def quadCubeMesh : Mesh (Int × Int × Int) Dummy Dummy := meshOf quadCube

/-- The cube after `remove(VertHandle(0))`. -/
def cubeMinusVertex : Mesh (Int × Int × Int) Dummy Dummy := meshOf (quadCubeMesh.removeVert 0)

end Witnesses

section WellFormed

variable {VD HD FD : Type}

/-- Whether `hh` is a non-removed half-edge that ends at vertex `b`. -/
def Mesh.liveTo (m : Mesh VD HD FD) (b : Int) (hh : Int) : Bool :=
  match getAt m.halfs hh with
  | .ok t => t.exists_ && decide (t.topo.eto = b)
  | .error _ => false

/-- The `opposite` field of half-edge `hh` (invalid when `hh` is no slot). -/
def Mesh.oppOf (m : Mesh VD HD FD) (hh : Int) : Int :=
  match getAt m.halfs hh with
  | .ok t => t.topo.opposite
  | .error _ => Handle.none

/-- The representation invariant of a mesh ("well-formed mesh"): what the tables of
every mesh built through the member functions satisfy. -/
structure Mesh.WF (m : Mesh VD HD FD) : Prop where
  /-- every handle in a vertex's outgoing list is a slot of `_halfs` -/
  listInRange : ∀ v vt, getAt m.verts v = .ok vt → ∀ hh ∈ vt.topo.halfedges,
    ∃ t, getAt m.halfs hh = .ok t
  /-- a non-removed half-edge in the outgoing list of `v` leaves `v` -/
  listFrom : ∀ v vt, getAt m.verts v = .ok vt → ∀ hh ∈ vt.topo.halfedges,
    ∀ t, getAt m.halfs hh = .ok t → t.exists_ = true → t.topo.efrom = v
  /-- a non-removed half-edge has a non-removed opposite, paired back, with the end
  vertices swapped -/
  pairing : ∀ h t, getAt m.halfs h = .ok t → t.exists_ = true →
    ∃ t2, getAt m.halfs t.topo.opposite = .ok t2 ∧ t2.exists_ = true ∧
      t2.topo.opposite = h ∧ t2.topo.efrom = t.topo.eto ∧ t2.topo.eto = t.topo.efrom
  /-- the end vertices of a non-removed half-edge are slots of `_verts` or invalid -/
  endsInRange : ∀ h t, getAt m.halfs h = .ok t → t.exists_ = true →
    t.topo.efrom < m.verts.length ∧ t.topo.eto < m.verts.length
  /-- the face of a non-removed half-edge is a slot of `_faces` or invalid -/
  faceInRange : ∀ h t, getAt m.halfs h = .ok t → t.exists_ = true →
    t.topo.face < m.faces.length
  /-- a non-removed half-edge with a valid `from` is in the outgoing list of `from` -/
  inList : ∀ h t, getAt m.halfs h = .ok t → t.exists_ = true → 0 ≤ t.topo.efrom →
    ∃ vt, getAt m.verts t.topo.efrom = .ok vt ∧ h ∈ vt.topo.halfedges
  /-- a removed half-edge has had `from` or `to` reset -/
  deadReset : ∀ h t, getAt m.halfs h = .ok t → t.exists_ = false →
    t.topo.efrom < 0 ∨ t.topo.eto < 0
  /-- between two vertices, the non-removed half-edges `a -> b` in the list of `a`
  and the non-removed half-edges `b -> a` in the list of `b` come in the same order,
  each opposite to its counterpart -/
  order : ∀ a b va vb, a ≠ b → getAt m.verts a = .ok va → getAt m.verts b = .ok vb →
    (va.topo.halfedges.filter (m.liveTo b)).map m.oppOf
      = vb.topo.halfedges.filter (m.liveTo a)
  /-- the stored handle of a half-edge is its position -/
  halfHd : ∀ h t, getAt m.halfs h = .ok t → t.topo.hd = h

/-- The meshes a program can reach from the empty mesh through calls of
`addVertex`, `addEdge`, the two `addFace` overloads, the three `remove` overloads
and `gc` that return. -/
inductive Reachable [Inhabited HD] : Mesh VD HD FD → Prop where
  | empty : Reachable Mesh.empty
  | addVertex {m : Mesh VD HD FD} (vd : VD) : Reachable m → Reachable (m.addVertex vd).1
  | addEdge {m m' : Mesh VD HD FD} {h : Int} (a b : Int) (hd hdrev : HD) (merge : Bool) :
      Reachable m → m.addEdge a b hd hdrev merge = .ok (m', h) → Reachable m'
  | addFace {m m' : Mesh VD HD FD} {f : Int} (hs : List Int) (fd : FD) :
      Reachable m → m.addFace hs fd = .ok (m', f) → Reachable m'
  | addFaceVerts {m m' : Mesh VD HD FD} {f : Int} (vs : List Int) (autoflip : Bool) (fd : FD) :
      Reachable m → m.addFaceVerts vs autoflip fd = .ok (m', f) → Reachable m'
  | removeFace {m m' : Mesh VD HD FD} (f : Int) :
      Reachable m → m.removeFace f = .ok m' → Reachable m'
  | removeHalf {m m' : Mesh VD HD FD} (h : Int) :
      Reachable m → m.removeHalf h = .ok m' → Reachable m'
  | removeVert {m m' : Mesh VD HD FD} (v : Int) :
      Reachable m → m.removeVert v = .ok m' → Reachable m'
  | gc {m : Mesh VD HD FD} {r : GcResult VD HD FD} (vps hps fps : List Int) :
      Reachable m → m.gcWith vps hps fps = .ok r → Reachable r.mesh

end WellFormed

section NewEdge

variable {VD HD FD : Type}

/-- The mesh after `addEdge(a, b, hd, hdrev, ..)` has created both half-edges:
`a -> b` in the slot `_halfs.size()` and `b -> a` in the next one, each the
opposite of the other and appended to the list of its `from` vertex. -/
def Mesh.withNewEdge (m : Mesh VD HD FD) (a b : Int) (hd hdrev : HD) : Mesh VD HD FD :=
  { verts := updAt (updAt m.verts a.toNat (pushOut (m.halfs.length : Int))) b.toNat
      (pushOut ((m.halfs.length : Int) + 1))
    halfs := m.halfs ++
      [⟨⟨(m.halfs.length : Int), a, b, (m.halfs.length : Int) + 1, Handle.none⟩, hd, true⟩,
       ⟨⟨(m.halfs.length : Int) + 1, b, a, (m.halfs.length : Int), Handle.none⟩, hdrev, true⟩]
    faces := m.faces }

end NewEdge

section KillStepDef

variable {VD HD FD : Type}

/-- How the tables of `m'` come from those of `m` when half-edges were removed, in
opposite pairs, and nothing else happened to `_verts` and `_halfs`: every half-edge
triplet is either untouched or left removed with `from` or `to` reset, and a
non-removed half-edge that got removed had its opposite removed with it. -/
structure KillStep (m m' : Mesh VD HD FD) : Prop where
  verts : m'.verts = m.verts
  faces : m'.faces.length = m.faces.length
  fwd : ∀ h t, getAt m.halfs h = .ok t →
    ∃ t', getAt m'.halfs h = .ok t' ∧ t'.topo.opposite = t.topo.opposite ∧
      t'.topo.hd = t.topo.hd ∧
      (t' = t ∨ (t'.exists_ = false ∧ (t'.topo.efrom < 0 ∨ t'.topo.eto < 0)))
  bwd : ∀ h t', getAt m'.halfs h = .ok t' → ∃ t, getAt m.halfs h = .ok t
  paired : ∀ h t t', getAt m.halfs h = .ok t → t.exists_ = true →
    getAt m'.halfs h = .ok t' → t'.exists_ = false →
    ∃ t2', getAt m'.halfs t.topo.opposite = .ok t2' ∧ t2'.exists_ = false

end KillStepDef

section Compaction

variable {VD HD FD : Type}

/-- The number of non-removed entries of a table before slot `i`: the position
of slot `i` in the compacted table. -/
def rank {T D : Type} (xs : List (Triplet T D)) (i : Nat) : Nat :=
  liveCount (xs.take i)

/-- The handle that `gc` writes in place of `h`, for the table `xs` that `h` refers
to: an invalid handle stays, the handle of a non-removed entry becomes its
position in the compacted table, the handle of a removed entry becomes invalid. -/
def remap {T D : Type} (xs : List (Triplet T D)) (h : Int) : Int :=
  if h < 0 then h
  else match xs[h.toNat]? with
    | some t => if t.exists_ then (rank xs h.toNat : Int) else Handle.none
    | none => Handle.none

/-- The vertex triplet after its round of the first loop of `gc`. -/
def gcVertPure (m : Mesh VD HD FD) (vt : Triplet VertTopo VD) : Triplet VertTopo VD :=
  { vt with topo := ⟨remap m.verts vt.topo.hd,
      (vt.topo.halfedges.map (remap m.halfs)).filter (fun h => Handle.valid h)⟩ }

/-- The half-edge triplet after its round of the second loop of `gc`. -/
def gcHalfPure (m : Mesh VD HD FD) (ht : Triplet HalfTopo HD) : Triplet HalfTopo HD :=
  { ht with topo := ⟨remap m.halfs ht.topo.hd, remap m.verts ht.topo.efrom,
      remap m.verts ht.topo.eto, remap m.halfs ht.topo.opposite, remap m.faces ht.topo.face⟩ }

/-- The face triplet after its round of the third loop of `gc`. -/
def gcFacePure (m : Mesh VD HD FD) (ft : Triplet FaceTopo FD) : Triplet FaceTopo FD :=
  { ft with topo := ⟨remap m.faces ft.topo.hd,
      (ft.topo.halfedges.map (remap m.halfs)).filter (fun h => Handle.valid h)⟩ }

/-- The mesh `gc` leaves when it returns. -/
def Mesh.compacted (m : Mesh VD HD FD) : Mesh VD HD FD :=
  ⟨(m.verts.filter (fun t => t.exists_)).map (gcVertPure m),
   (m.halfs.filter (fun t => t.exists_)).map (gcHalfPure m),
   (m.faces.filter (fun t => t.exists_)).map (gcFacePure m)⟩

end Compaction

section CascadeDefs

variable {VD HD FD : Type}

/-- The face `g` is a slot of `_faces` and removed. -/
def deadFaceAt (faces : List (Triplet FaceTopo FD)) (g : Int) : Prop :=
  ∃ ft, getAt faces g = .ok ft ∧ ft.exists_ = false

/-- The half-edge `h` is a slot of `_halfs` and removed. -/
def deadHalfAt (halfs : List (Triplet HalfTopo HD)) (h : Int) : Prop :=
  ∃ t, getAt halfs h = .ok t ∧ t.exists_ = false

/-- The cascade from `m` to `m'`: a half-edge that was removed on the way took its
opposite and the faces of both with it. -/
def Cascaded (m m' : Mesh VD HD FD) : Prop :=
  ∀ h t, getAt m.halfs h = .ok t → t.exists_ = true → deadHalfAt m'.halfs h →
    ∃ t2, getAt m.halfs t.topo.opposite = .ok t2 ∧ deadHalfAt m'.halfs t.topo.opposite ∧
      (0 ≤ t.topo.face → deadFaceAt m'.faces t.topo.face) ∧
      (0 ≤ t2.topo.face → deadFaceAt m'.faces t2.topo.face)

end CascadeDefs

section BuiltDefs

variable {VD HD FD : Type}

/-- The meshes built from the empty mesh by calls of `addVertex` and `addEdge` that
return. -/
inductive Built : Mesh VD HD FD → Prop where
  | empty : Built Mesh.empty
  | addVertex {m : Mesh VD HD FD} (vd : VD) : Built m → Built (m.addVertex vd).1
  | addEdge {m m' : Mesh VD HD FD} {h : Int} (a b : Int) (hd hdrev : HD) (merge : Bool) :
      Built m → m.addEdge a b hd hdrev merge = .ok (m', h) → Built m'

/-- No slot of `_halfs` holds a removed half-edge. -/
def Mesh.NoDeadHalf (m : Mesh VD HD FD) : Prop :=
  ∀ h t, getAt m.halfs h = .ok t → t.exists_ = true

/-- The mesh has no removed element: every slot of the three tables is in use. -/
def Mesh.NoRemoved (m : Mesh VD HD FD) : Prop :=
  (∀ t ∈ m.verts, t.exists_ = true) ∧ (∀ t ∈ m.halfs, t.exists_ = true) ∧
    (∀ t ∈ m.faces, t.exists_ = true)

end BuiltDefs

section JoinedDef

variable {VD HD FD : Type}

/-- The vertices `a` and `b` are joined by an edge: `_halfs` holds a half-edge from
one to the other (`a -> b` or `b -> a`). -/
def Mesh.Joined (m : Mesh VD HD FD) (a b : Int) : Prop :=
  ∃ h t, getAt m.halfs h = .ok t ∧
    ((t.topo.efrom = a ∧ t.topo.eto = b) ∨ (t.topo.efrom = b ∧ t.topo.eto = a))

end JoinedDef

section ExtDefs

variable {VD HD FD : Type}

/-- How `m'` comes from `m` through `addEdge` calls: the old half-edge triplets keep
their slots (only new ones are appended), the outgoing lists only grow, by handles of
new half-edges, and `_faces` is untouched. -/
structure Ext (m m' : Mesh VD HD FD) : Prop where
  faces : m'.faces = m.faces
  vlen : m'.verts.length = m.verts.length
  hlen : m.halfs.length ≤ m'.halfs.length
  halfs : ∀ h t, getAt m.halfs h = .ok t → getAt m'.halfs h = .ok t
  lists : ∀ v vt, getAt m.verts v = .ok vt → ∃ vt' ext, getAt m'.verts v = .ok vt' ∧
    vt'.topo.halfedges = vt.topo.halfedges ++ ext ∧ ∀ x ∈ ext, (m.halfs.length : Int) ≤ x

/-- What the loop of `addFace(vertices)` gets from `addEdge(a, b)` on the mesh `m'`
it has built so far from `m0`: the invalid handle when `a == b`; otherwise a
half-edge `h` from `a` to `b`, which is the one `findEdge(a, b)` finds in `m0` if it
finds one there, and a half-edge created since `m0` if not. -/
def EdgeOK (m0 m' : Mesh VD HD FD) (a b h : Int) : Prop :=
  (a = b ∧ h = Handle.none) ∨
  (a ≠ b ∧ ∃ t, getAt m'.halfs h = .ok t ∧ t.topo.efrom = a ∧ t.topo.eto = b ∧
    ∃ g, m0.findEdge a b = .ok g ∧ ((0 ≤ g ∧ h = g) ∨ (g < 0 ∧ (m0.halfs.length : Int) ≤ h)))

/-- The winding `vs` is claimed: for some `i`, `findEdge(vs[i], vs[inext])` is a
half-edge owned by a face (its `face` is valid), the test of the autoflip loop. -/
def Mesh.windingClaimed (m : Mesh VD HD FD) (vs : List Int) : Prop :=
  ∃ i, i < vs.length ∧ ∃ h t, m.findEdge (cyclePair vs i).1 (cyclePair vs i).2 = .ok h ∧
    getAt m.halfs h = .ok t ∧ 0 ≤ t.topo.face

/-- The face `ft`, of handle `f`, is built on the winding `w` in the mesh `m'`: its
`i`-th half-edge goes from `w[i]` to `w[(i + 1) % n]` and is owned by `f`. -/
def BuiltOn (m' : Mesh VD HD FD) (f : Int) (ft : Triplet FaceTopo FD) (w : List Int) : Prop :=
  ft.topo.halfedges.length = w.length ∧
  ∀ i, i < w.length → ∃ t, getAt m'.halfs (ft.topo.halfedges.getD i Handle.none) = .ok t ∧
    t.topo.efrom = (cyclePair w i).1 ∧ t.topo.eto = (cyclePair w i).2 ∧ t.topo.face = f

end ExtDefs

/-- The mesh of two vertices and no edge: `addVertex`, `addVertex`. -/
def twoVertexMesh : Mesh Unit Dummy Dummy :=
  (((Mesh.empty : Mesh Unit Dummy Dummy).addVertex ()).1.addVertex ()).1

/-- The mesh of three vertices and nothing else: `addVertex` three times. -/
def threeVertexMesh : Mesh Unit Dummy Dummy :=
  (twoVertexMesh.addVertex ()).1

/-- The one-triangle mesh: `threeVertexMesh` after `addFace({0, 1, 2})`. -/
def triangleMesh : Mesh Unit Dummy Dummy :=
  meshOf ((threeVertexMesh.addFaceVerts [0, 1, 2] true ()).map Prod.fst)

/-- The mesh of two triangles on the same three vertices: `triangleMesh` after a
second `addFace({0, 1, 2})`. -/
def twoTriangleMesh : Mesh Unit Dummy Dummy :=
  meshOf ((triangleMesh.addFaceVerts [0, 1, 2] true ()).map Prod.fst)

section StitchedDefs

variable {VD HD FD : Type}

/-- The condition that `AssertEdgesAreStiched` asserts for the half-edge `t`, as a
proposition: valid `opposite`, `face`, `from` and `to`; `hd` in the list of the
`from` vertex and in the list of the face; `opposite` of the opposite is `hd`. -/
def Mesh.StitchedHalf (m : Mesh VD HD FD) (t : Triplet HalfTopo HD) : Prop :=
  0 ≤ t.topo.opposite ∧ 0 ≤ t.topo.face ∧ 0 ≤ t.topo.efrom ∧ 0 ≤ t.topo.eto ∧
  (∃ vt, getAt m.verts t.topo.efrom = .ok vt ∧ t.topo.hd ∈ vt.topo.halfedges) ∧
  (∃ ft, getAt m.faces t.topo.face = .ok ft ∧ t.topo.hd ∈ ft.topo.halfedges) ∧
  (∃ ot, getAt m.halfs t.topo.opposite = .ok ot ∧ ot.topo.opposite = t.topo.hd)

/-- Whether the handle `h` does not refer to a removed entry of the table `xs`. -/
def notRemovedIn {T D : Type} (xs : List (Triplet T D)) (h : Int) : Bool :=
  match getAt xs h with
  | .ok x => x.exists_
  | .error _ => true

/-- No non-removed half-edge refers to a removed vertex or to a removed face. -/
def Mesh.Closed (m : Mesh VD HD FD) : Prop :=
  ∀ t ∈ m.halfs, t.exists_ = true →
    (notRemovedIn m.verts t.topo.efrom && notRemovedIn m.verts t.topo.eto
      && notRemovedIn m.faces t.topo.face) = true

/-- The meshes that come from `m` through calls of `addFace(halfedges, fd)` and
`gc(vps, hps, fps)` that return. -/
inductive FaceGcSteps : Mesh VD HD FD → Mesh VD HD FD → Prop where
  | refl (m : Mesh VD HD FD) : FaceGcSteps m m
  | addFace {m m1 m' : Mesh VD HD FD} {f : Int} (hs : List Int) (fd : FD) :
      FaceGcSteps m m1 → m1.addFace hs fd = .ok (m', f) → FaceGcSteps m m'
  | gc {m m1 : Mesh VD HD FD} {r : GcResult VD HD FD} (vps hps fps : List Int) :
      FaceGcSteps m m1 → m1.gcWith vps hps fps = .ok r → FaceGcSteps m r.mesh

end StitchedDefs

/-- Four vertices of which vertex 0 is removed: `addVertex` four times, then
`remove(VertHandle(0))`. -/
def holeMesh : Mesh Unit Dummy Dummy :=
  meshOf ((threeVertexMesh.addVertex ()).1.removeVert 0)

/-- The mesh `holeMesh` after `addFace({1, 2, 3})` over vertices. -/
def oneTriangleAndHole : Mesh Unit Dummy Dummy :=
  meshOf ((holeMesh.addFaceVerts [1, 2, 3] true ()).map Prod.fst)

/-- The mesh `oneTriangleAndHole` after a second `addFace({1, 2, 3})` over vertices,
which autoflip lays on the reversed winding. -/
def twoTrianglesAndHole : Mesh Unit Dummy Dummy :=
  meshOf ((oneTriangleAndHole.addFaceVerts [1, 2, 3] true ()).map Prod.fst)

/-- The mesh `twoTrianglesAndHole` after `addFace({0, 2, 4})` over half-edges. -/
def twoTrianglesRefaced : Mesh Unit Dummy Dummy :=
  meshOf ((twoTrianglesAndHole.addFace [0, 2, 4] ()).map Prod.fst)

/-- The mesh `twoTrianglesRefaced` after `gc()`. -/
def twoTrianglesCollected : Mesh Unit Dummy Dummy :=
  meshOf twoTrianglesRefaced.gc

/-- A mesh whose only edge leaves a removed vertex: `addVertex` twice,
`remove(VertHandle(0))`, `addEdge(0, 1)`, `addFace({0, 1})` over its half-edges. -/
def danglingEdgeMesh : Mesh Unit Dummy Dummy :=
  meshOf (do
    let m1 ← twoVertexMesh.removeVert 0
    let m2 ← m1.addEdge 0 1 () () true
    let m3 ← m2.1.addFace [0, 1] ()
    pure m3.1)

section GcClaimDefs

variable {VD HD FD : Type}

/-- The handle `h` is invalid or the index of a slot of the table `xs`. -/
abbrev inTable {α : Type} (xs : List α) (h : Int) : Prop := h < 0 ∨ h.toNat < xs.length

/-- Each entry's own handle `topo.hd` equals its position in its table. -/
def Mesh.HdIsPos (m : Mesh VD HD FD) : Prop :=
  m.verts.map (fun t => t.topo.hd) = (List.range m.verts.length).map Int.ofNat ∧
  m.halfs.map (fun t => t.topo.hd) = (List.range m.halfs.length).map Int.ofNat ∧
  m.faces.map (fun t => t.topo.hd) = (List.range m.faces.length).map Int.ofNat

/-- Every handle stored in a non-removed entry, its own handle included, is invalid
or the index of a slot of the table it refers to. -/
def Mesh.RefsInRange (m : Mesh VD HD FD) : Prop :=
  (∀ t ∈ m.verts, t.exists_ = true →
    inTable m.verts t.topo.hd ∧ ∀ x ∈ t.topo.halfedges, inTable m.halfs x) ∧
  (∀ t ∈ m.halfs, t.exists_ = true →
    inTable m.halfs t.topo.hd ∧ inTable m.verts t.topo.efrom ∧ inTable m.verts t.topo.eto ∧
      inTable m.halfs t.topo.opposite ∧ inTable m.faces t.topo.face) ∧
  (∀ t ∈ m.faces, t.exists_ = true →
    inTable m.faces t.topo.hd ∧ ∀ x ∈ t.topo.halfedges, inTable m.halfs x)

/-- What `gc` does to a handle `h` into the table `xs`, of which `ys` is the
compacted form and `g` the rewriting of an entry's own handles: when `h` is the slot
of a non-removed entry `t`, the new handle is a slot of `ys` that holds `g t`; when
it is the slot of a removed entry, the new handle is invalid. -/
def Moved {T D : Type} (xs ys : List (Triplet T D)) (g : Triplet T D → Triplet T D) : Prop :=
  ∀ h t, getAt xs h = .ok t →
    (t.exists_ = true → getAt ys (remap xs h) = .ok (g t)) ∧
    (t.exists_ = false → remap xs h < 0)

end GcClaimDefs

section TidyDefs

variable {VD HD FD : Type}

/-- The part of the representation invariant that `gc` needs besides `Mesh.WF`: the
stored handle of a vertex and of a face is its position, and the half-edge list of a
face holds invalid handles or slots of `_halfs`. -/
structure Mesh.Tidy (m : Mesh VD HD FD) : Prop where
  vertHd : ∀ v vt, getAt m.verts v = .ok vt → vt.topo.hd = v
  faceHd : ∀ f ft, getAt m.faces f = .ok ft → ft.topo.hd = f
  faceList : ∀ f ft, getAt m.faces f = .ok ft → ∀ x ∈ ft.topo.halfedges, inTable m.halfs x

/-- A step from `m` to `m'` that appends no vertex and no face, keeps the stored
handles of vertices and faces, loses no slot of `_halfs`, and leaves the half-edge
list of a face as it was or all invalid. -/
structure TidyStep (m m' : Mesh VD HD FD) : Prop where
  verts : ∀ v vt', getAt m'.verts v = .ok vt' →
    ∃ vt, getAt m.verts v = .ok vt ∧ vt'.topo.hd = vt.topo.hd
  halfs : m.halfs.length ≤ m'.halfs.length
  faces : ∀ f ft', getAt m'.faces f = .ok ft' →
    ∃ ft, getAt m.faces f = .ok ft ∧ ft'.topo.hd = ft.topo.hd ∧
      (ft'.topo.halfedges = ft.topo.halfedges ∨ ∀ x ∈ ft'.topo.halfedges, x < 0)

end TidyDefs

section UniteDefs

variable {VD HD FD : Type}

/-- Modelled from the spec: `Vertices()`, which `Mesh::unite` calls on its argument and
`Mesh` does not declare: the vertex table, as `internalVertices()`. -/
def Mesh.Vertices (m : Mesh VD HD FD) : List (Triplet VertTopo VD) := m.verts

/-- Modelled from the spec: `HalfEdges()`, which `Mesh::unite` calls on its argument
and `Mesh` does not declare: the half-edge table, as `internalHalfEdges()`. -/
def Mesh.HalfEdges (m : Mesh VD HD FD) : List (Triplet HalfTopo HD) := m.halfs

/-- Modelled from the spec: `Faces()`, which `Mesh::unite` calls on its argument and
`Mesh` does not declare: the face table, as `internalFaces()`. -/
def Mesh.Faces (m : Mesh VD HD FD) : List (Triplet FaceTopo FD) := m.faces

/-- The assignment `table[h.id] = v` on a `std::vector` of handles. -/
def setAt (table : List Int) (h v : Int) : Except Fault (List Int) :=
  modifyAt table h (fun _ => v)

/-- The first loop of `Mesh::unite`, over the non-removed vertices of the argument:
`vtable[v.topo.hd.id] = addVertex(v.data)`. -/
def uniteVerts : Mesh VD HD FD → List Int → List (Triplet VertTopo VD) →
    Except Fault (Mesh VD HD FD × List Int)
  | s, vtable, [] => .ok (s, vtable)
  | s, vtable, v :: rest =>
    match setAt vtable v.topo.hd (s.addVertex v.data).2 with
    | .error e => .error e
    | .ok vtable1 => uniteVerts (s.addVertex v.data).1 vtable1 rest

/-- The second loop of `Mesh::unite`, over the non-removed half-edges of the
argument `m`: `htable[h.topo.hd.id] = addEdge(vtable[from], vtable[to], h.data,
m.data(h.topo.opposite))`, with the default `mergeDuplicateEdge = true`. -/
def uniteHalfs (m : Mesh VD HD FD) (vtable : List Int) : Mesh VD HD FD → List Int →
    List (Triplet HalfTopo HD) → Except Fault (Mesh VD HD FD × List Int)
  | s, htable, [] => .ok (s, htable)
  | s, htable, h :: rest =>
    match getAt vtable h.topo.efrom with
    | .error e => .error e
    | .ok newfrom =>
      match getAt vtable h.topo.eto with
      | .error e => .error e
      | .ok newto =>
        match getAt m.halfs h.topo.opposite with
        | .error e => .error e
        | .ok ho =>
          match s.addEdge newfrom newto h.data ho.data true with
          | .error e => .error e
          | .ok (s1, hh) =>
            match setAt htable h.topo.hd hh with
            | .error e => .error e
            | .ok htable1 => uniteHalfs m vtable s1 htable1 rest

/-- The inner loop of the third loop of `Mesh::unite`:
`hs.push_back(htable[hh.id])` for every `hh` of the face. -/
def lookupAll (table : List Int) : List Int → Except Fault (List Int)
  | [] => .ok []
  | hh :: rest =>
    match getAt table hh with
    | .error e => .error e
    | .ok x =>
      match lookupAll table rest with
      | .error e => .error e
      | .ok xs => .ok (x :: xs)

/-- The third loop of `Mesh::unite`, over the non-removed faces of the argument:
`ftable[f.topo.hd.id] = addFace(hs, f.data)`. -/
def uniteFaces (htable : List Int) : Mesh VD HD FD → List Int →
    List (Triplet FaceTopo FD) → Except Fault (Mesh VD HD FD × List Int)
  | s, ftable, [] => .ok (s, ftable)
  | s, ftable, f :: rest =>
    match lookupAll htable f.topo.halfedges with
    | .error e => .error e
    | .ok hs =>
      match s.addFace hs f.data with
      | .error e => .error e
      | .ok (s1, fh) =>
        match setAt ftable f.topo.hd fh with
        | .error e => .error e
        | .ok ftable1 => uniteFaces htable s1 ftable1 rest

/-- `Mesh::unite(m)`, on the mesh `s`; the three tables start filled with
default-constructed (invalid) handles. -/
def Mesh.unite (s m : Mesh VD HD FD) : Except Fault (Mesh VD HD FD) :=
  match uniteVerts s (List.replicate m.Vertices.length Handle.none)
      (m.verts.filter (fun t => t.exists_)) with
  | .error e => .error e
  | .ok (s1, vtable) =>
    match uniteHalfs m vtable s1 (List.replicate m.HalfEdges.length Handle.none)
        (m.halfs.filter (fun t => t.exists_)) with
    | .error e => .error e
    | .ok (s2, htable) =>
      match uniteFaces htable s2 (List.replicate m.Faces.length Handle.none)
          (m.faces.filter (fun t => t.exists_)) with
      | .error e => .error e
      | .ok (s3, _) => .ok s3

/-- Whether `h` is the slot of a non-removed entry of the table `xs`. -/
def liveIn {T D : Type} (xs : List (Triplet T D)) (h : Int) : Bool :=
  match getAt xs h with
  | .ok x => x.exists_
  | .error _ => false

/-- A well-formed mesh: the representation invariant of the reachable meshes
(`Mesh.WF`, `Mesh.Tidy`), every non-removed half-edge joins two different
non-removed vertices, and the half-edge list of a non-removed face holds
non-removed half-edges. -/
structure Mesh.WellFormed (m : Mesh VD HD FD) : Prop where
  wf : m.WF
  tidy : m.Tidy
  ends : ∀ t ∈ m.halfs, t.exists_ = true →
    (liveIn m.verts t.topo.efrom && liveIn m.verts t.topo.eto) = true ∧
      t.topo.efrom ≠ t.topo.eto
  faceLists : ∀ ft ∈ m.faces, ft.exists_ = true →
    ∀ x ∈ ft.topo.halfedges, liveIn m.halfs x = true

/-- The mesh has no parallel duplicate edges: two non-removed half-edges with the
same `from` and the same `to` are one half-edge. -/
def Mesh.NoParallel (m : Mesh VD HD FD) : Prop :=
  ∀ t1 ∈ m.halfs, ∀ t2 ∈ m.halfs, t1.exists_ = true → t2.exists_ = true →
    t1.topo.efrom = t2.topo.efrom → t1.topo.eto = t2.topo.eto → t1.topo.hd = t2.topo.hd

end UniteDefs

section UniteProofDefs

variable {VD HD FD : Type}

/-- The vertices that the first loop of `unite` appends for the vertices `vs` when
`_verts` holds `n` entries: fresh vertices without half-edges, with the payloads
of `vs`. -/
def copiedVerts (n : Nat) : List (Triplet VertTopo VD) → List (Triplet VertTopo VD)
  | [] => []
  | v :: rest => ⟨⟨(n : Int), []⟩, v.data, true⟩ :: copiedVerts (n + 1) rest

end UniteProofDefs

section UniteStateDefs

variable {VD HD FD : Type}

/-- The `opposite` of the half-edge in slot `j` of `m` (invalid when there is none). -/
def oppAt (m : Mesh VD HD FD) (j : Nat) : Int :=
  match m.halfs[j]? with
  | some t => t.topo.opposite
  | none => Handle.none

/-- The number of slots before `k` whose half-edge has its opposite in a later slot:
the number of edges that the second loop of `unite` has created after `k` rounds. -/
def upCount (m : Mesh VD HD FD) (k : Nat) : Nat :=
  ((List.range k).filter (fun (j : Nat) => decide ((j : Int) < oppAt m j))).length

/-- What the loops of `unite` use of the argument `m`, a well-formed mesh without
removed element and without parallel duplicate edges. -/
structure UniteSrc (m : Mesh VD HD FD) : Prop where
  live : m.NoRemoved
  vertHd : ∀ (k : Nat) (v : Triplet VertTopo VD), m.verts[k]? = some v → v.topo.hd = (k : Int)
  hd : ∀ j tj, getAt m.halfs j = .ok tj → tj.topo.hd = j
  ends : ∀ j tj, getAt m.halfs j = .ok tj →
    0 ≤ tj.topo.efrom ∧ tj.topo.efrom < m.verts.length ∧
    0 ≤ tj.topo.eto ∧ tj.topo.eto < m.verts.length ∧ tj.topo.efrom ≠ tj.topo.eto
  opp : ∀ j tj, getAt m.halfs j = .ok tj →
    ∃ to_, getAt m.halfs tj.topo.opposite = .ok to_ ∧ to_.topo.opposite = j ∧
      to_.topo.efrom = tj.topo.eto ∧ to_.topo.eto = tj.topo.efrom
  nopar : ∀ i j ti tj, getAt m.halfs i = .ok ti → getAt m.halfs j = .ok tj →
    ti.topo.efrom = tj.topo.efrom → ti.topo.eto = tj.topo.eto → i = j
  faceHd : ∀ f ft, getAt m.faces f = .ok ft → ft.topo.hd = f
  faceList : ∀ f ft, getAt m.faces f = .ok ft →
    ∀ x ∈ ft.topo.halfedges, ∃ t, getAt m.halfs x = .ok t

/-- The state of the second loop of `s0.unite(m)` after `k` rounds, `s` being the
mesh and `htable` the table of the copied half-edges. -/
structure UniteState (s0 m s : Mesh VD HD FD) (k : Nat) (htable : List Int) : Prop where
  wf : s.WF
  verts : ∃ newV, s.verts = s0.verts ++ newV ∧ newV.length = m.verts.length ∧
    ∀ t ∈ newV, t.exists_ = true
  halfs : ∃ newH, s.halfs = s0.halfs ++ newH ∧ newH.length = 2 * upCount m k ∧
    ∀ t ∈ newH, t.exists_ = true
  faces : s.faces = s0.faces
  lists : ∀ v vt, getAt s.verts v = .ok vt → (s0.verts.length : Int) ≤ v →
    ∀ x ∈ vt.topo.halfedges, ∃ t, getAt s.halfs x = .ok t ∧ t.exists_ = true
  tableLen : htable.length = m.halfs.length
  done : ∀ j tj, getAt m.halfs j = .ok tj → j < k →
    ∃ e t, getAt htable j = .ok e ∧ getAt s.halfs e = .ok t ∧ t.exists_ = true ∧
      (s0.halfs.length : Int) ≤ e ∧
      t.topo.efrom = s0.verts.length + tj.topo.efrom ∧
      t.topo.eto = s0.verts.length + tj.topo.eto
  only : ∀ e t, getAt s.halfs e = .ok t → (s0.halfs.length : Int) ≤ e →
    ∃ j tj, getAt m.halfs j = .ok tj ∧ (j < k ∨ tj.topo.opposite < k) ∧
      t.topo.efrom = s0.verts.length + tj.topo.efrom ∧
      t.topo.eto = s0.verts.length + tj.topo.eto

end UniteStateDefs

section UniteFacesDefs

variable {VD HD FD : Type}

/-- The state of the third loop of `s0.unite(m)` after `k` rounds: `s2` is the mesh
the second loop left, `s` the mesh now, `ftable` the table of the copied faces. -/
structure UniteFaces (s0 m s2 s : Mesh VD HD FD) (k : Nat) (ftable : List Int) : Prop where
  verts : s.verts = s2.verts
  hlen : s.halfs.length = s2.halfs.length
  halfs : ∀ h t, getAt s2.halfs h = .ok t → ∃ t', getAt s.halfs h = .ok t' ∧
    t'.exists_ = t.exists_ ∧ t'.topo.efrom = t.topo.efrom ∧ t'.topo.eto = t.topo.eto ∧
    (h < s0.halfs.length → t' = t)
  faces : ∃ newF, s.faces = s0.faces ++ newF ∧ newF.length = k ∧ ∀ t ∈ newF, t.exists_ = true
  tableLen : ftable.length = m.faces.length

end UniteFacesDefs

section TraversalDefs

variable {VD HD FD : Type}

/-- The state of a traversal: the vector `visited` and the calls of the callback so
far, oldest first. -/
structure DfsState where
  visited : List Bool
  calls : List Int
deriving DecidableEq

/-- The loop `for (auto hh : halves)` of the functor `depthFirstSearchOneTree` of
`DepthFirstSearch`; `again` is the functor itself, for the recursive call. The result
is `none` when the recursion ran out of depth, and else the state with the `bool`
that the functor returns (`false`: the callback asked to stop). -/
def dfsHalves (m : Mesh VD HD FD)
    (again : Int → DfsState → Except Fault (Option (DfsState × Bool))) :
    List Int → DfsState → Except Fault (Option (DfsState × Bool))
  | [], st => .ok (some (st, true))
  | hh :: rest, st =>
    match m.removedHalf hh with
    | .error e => .error e
    | .ok true => dfsHalves m again rest st
    | .ok false =>
      match getAt m.halfs hh with
      | .error e => .error e
      | .ok ht =>
        match again ht.topo.eto st with
        | .error e => .error e
        | .ok none => .ok none
        | .ok (some (st1, false)) => .ok (some (st1, false))
        | .ok (some (st1, true)) => dfsHalves m again rest st1

/-- The functor `depthFirstSearchOneTree` of `DepthFirstSearch(Mesh&, callback)`,
with the depth of the recursion bounded by the first argument. -/
def dfsTree (m : Mesh VD HD FD) (vCallBack : Int → Bool) :
    Nat → Int → DfsState → Except Fault (Option (DfsState × Bool))
  | 0, _, _ => .ok none
  | d + 1, root, st =>
    if !(Handle.valid root) then .error .assertion
    else
      match m.removedVert root with
      | .error e => .error e
      | .ok true => .error .assertion
      | .ok false =>
        match getAt st.visited root with
        | .error e => .error e
        | .ok true => .ok (some (st, true))
        | .ok false =>
          if !(vCallBack root) then .ok (some (⟨st.visited, st.calls ++ [root]⟩, false))
          else
            match modifyAt st.visited root (fun _ => true) with
            | .error e => .error e
            | .ok visited =>
              match getAt m.verts root with
              | .error e => .error e
              | .ok vt =>
                dfsHalves m (dfsTree m vCallBack d) vt.topo.halfedges
                  ⟨visited, st.calls ++ [root]⟩

/-- The loop `for (auto &h : mesh.vertices())` that picks the next root: the stored
handle of the first non-removed vertex `h` with `!visited[h.topo.hd.id]`, the
invalid handle when there is none. -/
def firstUnvisited (visited : List Bool) : List (Triplet VertTopo VD) → Except Fault Int
  | [] => .ok Handle.none
  | h :: rest =>
    if h.exists_ then
      match getAt visited h.topo.hd with
      | .error e => .error e
      | .ok false => .ok h.topo.hd
      | .ok true => firstUnvisited visited rest
    else firstUnvisited visited rest

/-- The loop `while (true)` of `DepthFirstSearch`, with the number of rounds bounded
by the second argument and the depth of each tree by `depth`. -/
def dfsLoop (m : Mesh VD HD FD) (vCallBack : Int → Bool) (depth : Nat) :
    Nat → DfsState → Except Fault (Option DfsState)
  | 0, _ => .ok none
  | n + 1, st =>
    match firstUnvisited st.visited m.verts with
    | .error e => .error e
    | .ok root =>
      if Handle.invalid root then .ok (some st)
      else
        match dfsTree m vCallBack depth root st with
        | .error e => .error e
        | .ok none => .ok none
        | .ok (some (st1, false)) => .ok (some st1)
        | .ok (some (st1, true)) => dfsLoop m vCallBack depth n st1

/-- `DepthFirstSearch(Mesh &mesh, vCallBack)`, run with the bound `fuel` on the rounds
and on the depth: the calls of the callback, in order, or `none` when the bound was
reached. (The source declares the result `bool` and returns nothing.) -/
def DepthFirstSearch (m : Mesh VD HD FD) (vCallBack : Int → Bool) (fuel : Nat) :
    Except Fault (Option (List Int)) :=
  match dfsLoop m vCallBack fuel fuel ⟨List.replicate m.verts.length false, []⟩ with
  | .error e => .error e
  | .ok none => .ok none
  | .ok (some st) => .ok (some st.calls)

end TraversalDefs

section TraversalSpecDefs

variable {VD HD FD : Type}

/-- The number of `false` entries of `visited`. -/
def unmarkedCount (visited : List Bool) : Nat := visited.countP (fun b => !b)

/-- A non-removed half-edge goes from `a` to `b`. -/
def Mesh.Adj (m : Mesh VD HD FD) (a b : Int) : Prop :=
  ∃ hh t, getAt m.halfs hh = .ok t ∧ t.exists_ = true ∧ t.topo.efrom = a ∧ t.topo.eto = b

/-- A path of non-removed half-edges leads from `a` to `b` (`a` itself included). -/
def Mesh.Connected (m : Mesh VD HD FD) (a b : Int) : Prop :=
  Relation.ReflTransGen m.Adj a b

/-- What a run of the traversal from `src` does to the state: `visited` keeps its
size and its `true` entries; the callback is called once on each vertex that gets
marked, a non-removed vertex that a path of non-removed half-edges from `src`
reaches; and every neighbour of such a vertex is marked at the end. -/
structure Grow (m : Mesh VD HD FD) (src : Int) (st st' : DfsState) : Prop where
  len : st'.visited.length = st.visited.length
  mono : ∀ v, getAt st.visited v = .ok true → getAt st'.visited v = .ok true
  count : unmarkedCount st'.visited ≤ unmarkedCount st.visited
  calls : ∃ new, st'.calls = st.calls ++ new ∧ new.Nodup ∧
    (∀ v, v ∈ new ↔ (getAt st.visited v ≠ .ok true ∧ getAt st'.visited v = .ok true)) ∧
    (∀ v ∈ new, liveIn m.verts v = true ∧ m.Connected src v) ∧
    (∀ v ∈ new, ∀ w, m.Adj v w → getAt st'.visited w = .ok true)

end TraversalSpecDefs

section ComponentsDefs

variable {VD HD FD : Type}

/-- The state of `ConnectedComponents`: the vector `visited` and the calls
`vtr(mesh, v, cid)` of the recorder so far, as pairs `(v, cid)`, oldest first. -/
structure CcState where
  visited : List Bool
  records : List (Int × Int)
deriving DecidableEq

/-- The loop `for (auto hh : halves)` of the functor `depthFirstSearchOneTree` of
`ConnectedComponents`; `again` is the functor itself. -/
def ccHalves (m : Mesh VD HD FD)
    (again : Int → CcState → Except Fault (Option (CcState × Bool))) :
    List Int → CcState → Except Fault (Option (CcState × Bool))
  | [], st => .ok (some (st, true))
  | hh :: rest, st =>
    match m.removedHalf hh with
    | .error e => .error e
    | .ok true => ccHalves m again rest st
    | .ok false =>
      match getAt m.halfs hh with
      | .error e => .error e
      | .ok ht =>
        match again ht.topo.eto st with
        | .error e => .error e
        | .ok none => .ok none
        | .ok (some (st1, false)) => .ok (some (st1, false))
        | .ok (some (st1, true)) => ccHalves m again rest st1

/-- The functor `depthFirstSearchOneTree` of `ConnectedComponents`, with the depth of
the recursion bounded by the first argument: `vtr(mesh, root, cid)` on every vertex
it marks. -/
def ccTree (m : Mesh VD HD FD) (cid : Int) :
    Nat → Int → CcState → Except Fault (Option (CcState × Bool))
  | 0, _, _ => .ok none
  | d + 1, root, st =>
    if !(Handle.valid root) then .error .assertion
    else
      match m.removedVert root with
      | .error e => .error e
      | .ok true => .error .assertion
      | .ok false =>
        match getAt st.visited root with
        | .error e => .error e
        | .ok true => .ok (some (st, true))
        | .ok false =>
          match modifyAt st.visited root (fun _ => true) with
          | .error e => .error e
          | .ok visited =>
            match getAt m.verts root with
            | .error e => .error e
            | .ok vt =>
              ccHalves m (ccTree m cid d) vt.topo.halfedges
                ⟨visited, st.records ++ [(root, cid)]⟩

/-- The loop `while (true)` of `ConnectedComponents`, with the number of rounds bounded
by the second argument: the state and `cid` when the loop breaks. -/
def ccLoop (m : Mesh VD HD FD) (depth : Nat) :
    Nat → Int → CcState → Except Fault (Option (CcState × Int))
  | 0, _, _ => .ok none
  | n + 1, cid, st =>
    match firstUnvisited st.visited m.verts with
    | .error e => .error e
    | .ok root =>
      if Handle.invalid root then .ok (some (st, cid))
      else
        match ccTree m cid depth root st with
        | .error e => .error e
        | .ok none => .ok none
        | .ok (some (st1, _)) => ccLoop m depth n (cid + 1) st1

/-- `ConnectedComponents(mesh, vtr)`, run with the bound `fuel` on the rounds and on
the depth: the returned `cid` and the calls of the recorder, in order. -/
def ConnectedComponents (m : Mesh VD HD FD) (fuel : Nat) :
    Except Fault (Option (Int × List (Int × Int))) :=
  match ccLoop m fuel fuel 0 ⟨List.replicate m.verts.length false, []⟩ with
  | .error e => .error e
  | .ok none => .ok none
  | .ok (some (st, cid)) => .ok (some (cid, st.records))

/-- The state of `ConnectedComponents` that goes with the state `st` of a
`DepthFirstSearch` tree started on `base` with the component id `cid`. -/
def tagState (cid : Int) (base : List (Int × Int)) (st : DfsState) : CcState :=
  ⟨st.visited, base ++ st.calls.map (fun v => (v, cid))⟩

/-- The result of the functor of `ConnectedComponents` that goes with a result of the
functor of `DepthFirstSearch`. -/
def tagResult (cid : Int) (base : List (Int × Int)) :
    Except Fault (Option (DfsState × Bool)) → Except Fault (Option (CcState × Bool))
  | .error e => .error e
  | .ok none => .ok none
  | .ok (some (st, b)) => .ok (some (tagState cid base st, b))

end ComponentsDefs

section ComponentsSpecDefs

variable {VD HD FD : Type}

/-- The state of the loop `while (true)` of `ConnectedComponents` after `k` rounds. -/
structure CcInv (m : Mesh VD HD FD) (k : Nat) (st : CcState) : Prop where
  len : st.visited.length = m.verts.length
  nodup : (st.records.map Prod.fst).Nodup
  mem : ∀ v, v ∈ st.records.map Prod.fst ↔ getAt st.visited v = .ok true
  live : ∀ v ∈ st.records.map Prod.fst, liveIn m.verts v = true
  closed : ∀ v, getAt st.visited v = .ok true → ∀ w, m.Adj v w →
    getAt st.visited w = .ok true
  ids : ∀ p ∈ st.records, 0 ≤ p.2 ∧ p.2 < k
  used : ∀ c : Nat, c < k → ∃ v, (v, (c : Int)) ∈ st.records
  same : ∀ p ∈ st.records, ∀ q ∈ st.records, (p.2 = q.2 ↔ m.Connected p.1 q.1)
  sorted : (st.records.map Prod.snd).Pairwise (fun a b => a ≤ b)

end ComponentsSpecDefs

section DanglingDefs

variable {VD HD FD : Type}

/-- The loop `for (auto &he : mesh.halfedges()) cdegrees[he.topo.from().id]++` of
`RemoveDanglingComponents`, over the entries of `_halfs`. -/
def countDegrees : List Int → List (Triplet HalfTopo HD) → Except Fault (List Int)
  | cdegrees, [] => .ok cdegrees
  | cdegrees, he :: rest =>
    if he.exists_ then
      match modifyAt cdegrees he.topo.efrom (fun c => c + 1) with
      | .error e => .error e
      | .ok cdegrees1 => countDegrees cdegrees1 rest
    else countDegrees cdegrees rest

/-- The loop that fills `danglcs`: every index `i` of `cdegrees` with
`cdegrees[i] < 2`, in increasing order. -/
def danglingOf (cdegrees : List Int) : List Int :=
  ((List.range cdegrees.length).filter (fun i => decide (cdegrees.getD i 0 < 2))).map
    Int.ofNat

/-- The loop `for (int danglc : danglcs) mesh.remove(VertH(danglc))`. -/
def removeVerts : Mesh VD HD FD → List Int → Except Fault (Mesh VD HD FD)
  | m, [] => .ok m
  | m, v :: rest =>
    match m.removeVert v with
    | .error e => .error e
    | .ok m1 => removeVerts m1 rest

/-- The loop `while (true)` of `RemoveDanglingComponents`, with the number of rounds
bounded by the first argument (`none`: the bound was reached); `size` is the size of
`cdegrees`, fixed before the loop. -/
def removeDanglingLoop (size : Nat) : Nat → Mesh VD HD FD → Except Fault (Option (Mesh VD HD FD))
  | 0, _ => .ok none
  | n + 1, m =>
    match countDegrees (List.replicate size 0) m.halfs with
    | .error e => .error e
    | .ok cdegrees =>
      if (danglingOf cdegrees).isEmpty then .ok (some m)
      else
        match removeVerts m (danglingOf cdegrees) with
        | .error e => .error e
        | .ok m1 => removeDanglingLoop size n m1

/-- `RemoveDanglingComponents(mesh)`, run for at most `fuel` rounds of its loop. -/
def RemoveDanglingComponents (m : Mesh VD HD FD) (fuel : Nat) :
    Except Fault (Option (Mesh VD HD FD)) :=
  removeDanglingLoop m.verts.length fuel m

end DanglingDefs

/-- The mesh of two vertices joined by a single edge, the mesh of `oneEdgeMesh`. -/
def edgeMesh : Mesh Unit Dummy Dummy := meshOf (oneEdgeMesh.map Prod.fst)

/-- The mesh `edgeMesh` after `remove(VertHandle(0))` and `remove(VertHandle(1))`. -/
def edgeMeshRemoved : Mesh Unit Dummy Dummy :=
  meshOf (removeVerts edgeMesh [0, 1])

section LoopDefs

variable {VD HD FD : Type}

/-- `Mesh::degree(VertHandle)`. -/
def Mesh.degree (m : Mesh VD HD FD) (v : Int) : Except Fault Nat :=
  match getAt m.verts v with
  | .error e => .error e
  | .ok vt => .ok vt.topo.halfedges.length

/-- The loop "next end vertex should not lie on current path" of
`ConstructInternalLoopFrom`: `hasSharedVert` for the end vertex `vh`, with the
assertion `v != startV` on every half-edge the loop reaches. -/
def sharedVertLoop (m : Mesh VD HD FD) (startV vh : Int) : List Int → Except Fault Bool
  | [] => .ok false
  | h :: rest =>
    match getAt m.halfs h with
    | .error e => .error e
    | .ok t =>
      if t.topo.eto = startV then .error .assertion
      else if t.topo.eto = vh then .ok true
      else sharedVertLoop m startV vh rest

/-- The loop "next edge should not share any face with current path":
`hasSharedFace` for the two faces `fh`, `fhoppo` of the next half-edge. -/
def sharedFaceLoop (m : Mesh VD HD FD) (fh fhoppo : Int) : List Int → Except Fault Bool
  | [] => .ok false
  | h :: rest =>
    match getAt m.halfs h with
    | .error e => .error e
    | .ok t =>
      match getAt m.halfs t.topo.opposite with
      | .error e => .error e
      | .ok o =>
        if fh = t.topo.face ∨ fh = o.topo.face ∨ fhoppo = t.topo.face ∨ fhoppo = o.topo.face
        then .ok true
        else sharedFaceLoop m fh fhoppo rest

/-- The loop "next edge should not intersect current path": `hasIntersection`. -/
def intersectLoop (intersectFun : Int → Int → Bool) (nexth : Int) : List Int → Bool
  | [] => false
  | h :: rest => if intersectFun h nexth then true else intersectLoop intersectFun nexth rest

/-- The body of the loop over `nexth` in `ConstructInternalLoopFrom`: whether
`nexth` reaches `validNextHs.push_back(nexth)` (`false`: one of the `continue`s). -/
def validNext (m : Mesh VD HD FD) (intersectFun : Int → Int → Bool) (startV : Int)
    (curPath : List Int) (nexth : Int) : Except Fault Bool :=
  if Contains curPath nexth then .ok false
  else
    match getAt m.halfs nexth with
    | .error e => .error e
    | .ok tn =>
      if Contains curPath tn.topo.opposite then .ok false
      else
        match m.degree tn.topo.eto with
        | .error e => .error e
        | .ok d =>
          if d < 4 then .ok false
          else
            match sharedVertLoop m startV tn.topo.eto curPath with
            | .error e => .error e
            | .ok true => .ok false
            | .ok false =>
              match getAt m.halfs tn.topo.opposite with
              | .error e => .error e
              | .ok tno =>
                match sharedFaceLoop m tn.topo.face tno.topo.face curPath with
                | .error e => .error e
                | .ok true => .ok false
                | .ok false => .ok (!(intersectLoop intersectFun nexth curPath))

/-- The loop `for (HalfHandle nexth : mesh.topo(endV).halfedges)`: the list
`validNextHs` it builds. -/
def validNextHs (m : Mesh VD HD FD) (intersectFun : Int → Int → Bool) (startV : Int)
    (curPath : List Int) : List Int → Except Fault (List Int)
  | [] => .ok []
  | nexth :: rest =>
    match validNext m intersectFun startV curPath nexth with
    | .error e => .error e
    | .ok b =>
      match validNextHs m intersectFun startV curPath rest with
      | .error e => .error e
      | .ok vs => .ok (if b then nexth :: vs else vs)

/-- The loop `while (!Q.empty())` of `ConstructInternalLoopFrom` on the queue `Q`
(front first), run for at most as many rounds as the first argument says (`none`:
the bound was reached); the empty list is the `return` after the loop. -/
def loopSearch (m : Mesh VD HD FD) (intersectFun : Int → Int → Bool) (startV : Int) :
    Nat → List (List Int) → Except Fault (Option (List Int))
  | 0, _ => .ok none
  | _ + 1, [] => .ok (some ([] : List Int))
  | n + 1, curPath :: Q =>
    match curPath.getLast? with
    | none => .error .outOfBounds
    | some back =>
      match getAt m.halfs back with
      | .error e => .error e
      | .ok tb =>
        if tb.topo.eto = startV then .ok (some curPath)
        else
          match getAt m.verts tb.topo.eto with
          | .error e => .error e
          | .ok vt =>
            match validNextHs m intersectFun startV curPath vt.topo.halfedges with
            | .error e => .error e
            | .ok valid =>
              if valid.length = 1 then
                loopSearch m intersectFun startV n (Q ++ [curPath ++ [valid.headD Handle.none]])
              else
                loopSearch m intersectFun startV n
                  (Q ++ valid.map (fun nexth => curPath ++ [nexth]))

/-- `ConstructInternalLoopFrom(mesh, initial, intersectFun)`, with the rounds of its
loop bounded by `fuel`. -/
def ConstructInternalLoopFrom (m : Mesh VD HD FD) (initial : Int)
    (intersectFun : Int → Int → Bool) (fuel : Nat) : Except Fault (Option (List Int)) :=
  match getAt m.halfs initial with
  | .error e => .error e
  | .ok ti =>
    match m.degree ti.topo.efrom with
    | .error e => .error e
    | .ok dfrom =>
      if dfrom < 4 then .ok (some [])
      else
        match m.degree ti.topo.eto with
        | .error e => .error e
        | .ok dto =>
          if dto < 4 then .ok (some [])
          else loopSearch m intersectFun ti.topo.efrom fuel [[initial]]

end LoopDefs

/-- The octahedron: apexes `0` and `1`, equator `2, 3, 4, 5`, built by six
`addVertex` and the eight triangles `addFace({a, b, c})`. -/
def octahedron : Mesh Unit Dummy Dummy :=
  meshOf (addFacesSeq ((List.range 6).foldl (fun m _ => (m.addVertex ()).1) Mesh.empty)
    [[0, 2, 3], [0, 3, 4], [0, 4, 5], [0, 5, 2], [1, 3, 2], [1, 4, 3], [1, 5, 4], [1, 2, 5]])

/-- The calls `addEdge(0, 1, hd, hdrev, false)`, `n` times. -/
def addParallel : Nat → Mesh Unit Dummy Dummy → Except Fault (Mesh Unit Dummy Dummy)
  | 0, m => .ok m
  | n + 1, m =>
    match m.addEdge 0 1 () () false with
    | .error e => .error e
    | .ok (m1, _) => addParallel n m1

/-- The calls `addFace({h, h + 1})` on the pairs of half-edges of the list. -/
def addPairFaces : Mesh Unit Dummy Dummy → List Int → Except Fault (Mesh Unit Dummy Dummy)
  | m, [] => .ok m
  | m, h :: rest =>
    match m.addFace [h, h + 1] () with
    | .error e => .error e
    | .ok (m1, _) => addPairFaces m1 rest

/-- Two vertices joined by four edges, `addEdge(0, 1, hd, hdrev, false)` four times:
the half-edges `0, 2, 4, 6` go from `0` to `1`, and `1, 3, 5, 7` back. -/
def fourEdges : Mesh Unit Dummy Dummy := meshOf (addParallel 4 twoVertexMesh)

/-- The mesh `fourEdges` with a face on each edge: `addFace({0, 1})`,
`addFace({2, 3})`, `addFace({4, 5})`, `addFace({6, 7})`. -/
def fourEdgeMesh : Mesh Unit Dummy Dummy := meshOf (addPairFaces fourEdges [0, 2, 4, 6])

/-- The mesh `fourEdges` with the face `addFace({0, 1})`. -/
def oneFaceMesh : Mesh Unit Dummy Dummy := meshOf (addPairFaces fourEdges [0])

/-- The mesh `oneFaceMesh` after `remove(HalfHandle(3))`, `remove(HalfHandle(5))`,
`remove(HalfHandle(7))`: only the edge with the face is left. -/
def staleEdgeMesh : Mesh Unit Dummy Dummy := meshOf (removeHalfs oneFaceMesh [3, 5, 7])

/-- The mesh `fourEdges` with the faces `addFace({2, 3})`, `addFace({4, 5})`,
`addFace({6, 7})`. -/
def threeFaceMesh : Mesh Unit Dummy Dummy := meshOf (addPairFaces fourEdges [2, 4, 6])

/-- The mesh `threeFaceMesh` after `remove(HalfHandle(1))`: the edge without a face
is removed. -/
def staleStartMesh : Mesh Unit Dummy Dummy := meshOf (threeFaceMesh.removeHalf 1)

section LoopSpecDefs

variable {VD HD FD : Type}

/-- The `from()` of half-edge `hh` (invalid when `hh` is no slot). -/
def Mesh.fromOf (m : Mesh VD HD FD) (hh : Int) : Int :=
  match getAt m.halfs hh with
  | .ok t => t.topo.efrom
  | .error _ => Handle.none

/-- The `to()` of half-edge `hh` (invalid when `hh` is no slot). -/
def Mesh.toOf (m : Mesh VD HD FD) (hh : Int) : Int :=
  match getAt m.halfs hh with
  | .ok t => t.topo.eto
  | .error _ => Handle.none

/-- The `face` of half-edge `hh` (invalid when `hh` is no slot). -/
def Mesh.faceOf (m : Mesh VD HD FD) (hh : Int) : Int :=
  match getAt m.halfs hh with
  | .ok t => t.topo.face
  | .error _ => Handle.none

/-- No outgoing list of a vertex holds the handle of a removed half-edge. -/
def Mesh.ListsLive (m : Mesh VD HD FD) : Prop :=
  ∀ vt ∈ m.verts, ∀ hh ∈ vt.topo.halfedges, liveIn m.halfs hh = true

/-- The test at the head of `ConstructInternalLoopFrom` lets `initial` through:
`from` and `to` of `initial` both have degree at least 4. -/
def StartOK (m : Mesh VD HD FD) (initial : Int) : Prop :=
  ∃ ti d1 d2, getAt m.halfs initial = .ok ti ∧ m.degree ti.topo.efrom = .ok d1 ∧ 4 ≤ d1 ∧
    m.degree ti.topo.eto = .ok d2 ∧ 4 ≤ d2

/-- The paths that the extension rule of `ConstructInternalLoopFrom` builds from
`initial`: `[initial]` when the head test passes, and a path `p` extended by a
half-edge `x` of the outgoing list of the end vertex of `p` that passes every test
of the loop body (`validNext`). -/
inductive Admissible (m : Mesh VD HD FD) (intersectFun : Int → Int → Bool) (initial : Int) :
    List Int → Prop where
  | start : StartOK m initial → Admissible m intersectFun initial [initial]
  | extend {p : List Int} {back x : Int} {vt : Triplet VertTopo VD} :
      Admissible m intersectFun initial p → p.getLast? = some back →
      getAt m.verts (m.toOf back) = .ok vt → x ∈ vt.topo.halfedges →
      validNext m intersectFun (m.fromOf initial) p x = .ok true →
      Admissible m intersectFun initial (p ++ [x])

/-- The path `p` is closed: its last half-edge ends at `from(initial)`. -/
def Mesh.Closes (m : Mesh VD HD FD) (initial : Int) (p : List Int) : Prop :=
  ∃ back, p.getLast? = some back ∧ m.toOf back = m.fromOf initial

/-- The half-edges `a` and `b` have no face in common, the faces on both sides of
each counted: the four comparisons of `hasSharedFace` all fail. -/
def NoSharedFace (m : Mesh VD HD FD) (a b : Int) : Prop :=
  m.faceOf b ≠ m.faceOf a ∧ m.faceOf b ≠ m.faceOf (m.oppOf a) ∧
    m.faceOf (m.oppOf b) ≠ m.faceOf a ∧ m.faceOf (m.oppOf b) ≠ m.faceOf (m.oppOf a)

/-- What the search keeps true of every path `p` in its queue. -/
structure PathInv (m : Mesh VD HD FD) (intersectFun : Int → Int → Bool) (initial : Int)
    (p : List Int) : Prop where
  head : p.head? = some initial
  live : ∀ h ∈ p, liveIn m.halfs h = true
  chain : p.Chain' (fun a b => m.toOf a = m.fromOf b)
  nodup : (p.map m.toOf).Nodup
  degree : ∀ h ∈ p, ∃ d, m.degree (m.toOf h) = .ok d ∧ 4 ≤ d
  inner : ∀ h ∈ p.dropLast, m.toOf h ≠ m.fromOf initial
  faces : p.Pairwise (NoSharedFace m)
  inter : p.Pairwise (fun a b => intersectFun a b = false)

end LoopSpecDefs

section LoopBoundDefs

variable {VD HD FD : Type}

/-- The largest size of an outgoing list of the mesh. -/
def Mesh.maxDegree (m : Mesh VD HD FD) : Nat :=
  (m.verts.map (fun vt => vt.topo.halfedges.length)).foldr max 0

/-- The number of paths that extend a given path by at most `r` half-edges, when
every path has at most `D` extensions by one half-edge. -/
def treeSize (D : Nat) : Nat → Nat
  | 0 => 1
  | r + 1 => 1 + D * treeSize D r

/-- A number of rounds within which the loop of `ConstructInternalLoopFrom` ends. -/
def searchBound (m : Mesh VD HD FD) : Nat :=
  treeSize m.maxDegree (m.verts.length - 1) + 1

/-- The rounds the search may still need for the queue `Q`. -/
def queueWeight (m : Mesh VD HD FD) (Q : List (List Int)) : Nat :=
  (Q.map (fun p => treeSize m.maxDegree (m.verts.length - p.length))).sum

/-- The queue of a breadth-first search: the paths come in the order of their
lengths, which differ by at most one. -/
def BfsOrdered (Q : List (List Int)) : Prop :=
  Q.Pairwise (fun a b => a.length ≤ b.length) ∧ ∀ a ∈ Q, ∀ b ∈ Q, b.length ≤ a.length + 1

end LoopBoundDefs

section DecomposeDefs

variable {VD HD FD : Type}

/-- Modelled from the spec: `std::set<HalfHandle>::insert` on the set kept as the
list of its elements in increasing order of `id` (the order of the handles of the
absent `handle.hpp`): nothing changes when the handle is already there. -/
def setInsert (x : Int) : List Int → List Int
  | [] => [x]
  | y :: ys => if x < y then x :: y :: ys else if x = y then y :: ys else y :: setInsert x ys

/-- The innermost loop of `DecomposeOnInternalLoop`, over the set
`relatedHsNotOnLoopSide`: whether the face across `relatedH` is the face of one of
its half-edges (the loop then inserts `relatedH` and breaks). -/
def faceAcross (m : Mesh VD HD FD) (relatedH : Int) : List Int → Except Fault Bool
  | [] => .ok false
  | hNotOnLoopSide :: rest =>
    match getAt m.halfs relatedH with
    | .error e => .error e
    | .ok tr =>
      match getAt m.halfs tr.topo.opposite with
      | .error e => .error e
      | .ok topp =>
        match getAt m.halfs hNotOnLoopSide with
        | .error e => .error e
        | .ok tn =>
          if topp.topo.face = tn.topo.face then .ok true
          else faceAcross m relatedH rest

/-- One pass `for (HalfHandle relatedH : mesh.topo(vh).halfedges)` over the rest of
the outgoing list of `vh`: the set after the pass and the flag `newHFound`. -/
def relatedPass (m : Mesh VD HD FD) (loop : List Int) :
    List Int → List Int → Bool → Except Fault (List Int × Bool)
  | [], related, newHFound => .ok (related, newHFound)
  | relatedH :: rest, related, newHFound =>
    if Contains related relatedH then relatedPass m loop rest related newHFound
    else if Contains loop relatedH then relatedPass m loop rest related newHFound
    else
      match faceAcross m relatedH related with
      | .error e => .error e
      | .ok true => relatedPass m loop rest (setInsert relatedH related) true
      | .ok false => relatedPass m loop rest related newHFound

/-- The loop `while (true)` that grows `relatedHsNotOnLoopSide` until a pass finds
nothing new, run for at most as many passes as the first argument says (`none`: the
bound was reached). -/
def relatedFix (m : Mesh VD HD FD) (loop halfedges : List Int) :
    Nat → List Int → Except Fault (Option (List Int))
  | 0, _ => .ok none
  | n + 1, related =>
    match relatedPass m loop halfedges related false with
    | .error e => .error e
    | .ok (related1, true) => relatedFix m loop halfedges n related1
    | .ok (related1, false) => .ok (some related1)

/-- The write `ht.topo.from() = v`. -/
def setFrom (v : Int) (ht : Triplet HalfTopo HD) : Triplet HalfTopo HD :=
  { ht with topo := { ht.topo with efrom := v } }

/-- The write `ht.topo.to() = v`. -/
def setTo (v : Int) (ht : Triplet HalfTopo HD) : Triplet HalfTopo HD :=
  { ht with topo := { ht.topo with eto := v } }

/-- The loop "redirect the relatedHsNotOnLoopSide to the newly added vh2". -/
def redirectLoop (vh vh2 hh : Int) : Mesh VD HD FD → List Int → Except Fault (Mesh VD HD FD)
  | m, [] => .ok m
  | m, hNotOnLoopSide :: rest =>
    match getAt m.halfs hNotOnLoopSide with
    | .error e => .error e
    | .ok tn =>
      if tn.topo.efrom ≠ vh then .error .assertion
      else
        match m.modifyHalf hNotOnLoopSide (setFrom vh2) with
        | .error e => .error e
        | .ok m1 =>
          match getAt m1.halfs tn.topo.opposite with
          | .error e => .error e
          | .ok topp =>
            if topp.topo.eto ≠ vh then .error .assertion
            else
              match (if tn.topo.opposite ≠ hh then m1.modifyHalf tn.topo.opposite (setTo vh2)
                  else .ok m1) with
              | .error e => .error e
              | .ok m2 => redirectLoop vh vh2 hh m2 rest

/-- An in-place update of one vertex triplet. -/
def Mesh.modifyVert (m : Mesh VD HD FD) (v : Int)
    (f : Triplet VertTopo VD → Triplet VertTopo VD) : Except Fault (Mesh VD HD FD) :=
  match modifyAt m.verts v f with
  | .error e => .error e
  | .ok verts => .ok { m with verts := verts }

/-- The `erase(remove_if(..))` on the outgoing list of `vh`: the handles of
`related` go. -/
def eraseRelated (related : List Int) (vt : Triplet VertTopo VD) : Triplet VertTopo VD :=
  { vt with topo := { vt.topo with
      halfedges := vt.topo.halfedges.filter (fun h => !(Contains related h)) } }

/-- The `insert(begin(), related.begin(), related.end())` on the outgoing list of
`vh2`. -/
def insertRelated (related : List Int) (vt : Triplet VertTopo VD) : Triplet VertTopo VD :=
  { vt with topo := { vt.topo with halfedges := related ++ vt.topo.halfedges } }

/-- The state of the first loop of `DecomposeOnInternalLoop`: the mesh and the two
vectors `thisVhs`, `anotherVhs`. -/
structure Cut (VD HD FD : Type) where
  mesh : Mesh VD HD FD
  thisVhs : List Int
  anotherVhs : List Int

/-- The body of the first loop of `DecomposeOnInternalLoop` for the index `i`. -/
def cutStep (fuel : Nat) (loop : List Int) (i : Nat) (st : Cut VD HD FD) :
    Except Fault (Option (Cut VD HD FD)) :=
  let hh := loop.getD i Handle.none
  let nexth := loop.getD ((i + 1) % loop.length) Handle.none
  match getAt st.mesh.halfs hh with
  | .error e => .error e
  | .ok th =>
    let vh := th.topo.eto
    match getAt st.mesh.verts vh with
    | .error e => .error e
    | .ok vt =>
      if vt.topo.halfedges.length < 4 then .error .assertion
      else
        let m1 := (st.mesh.addVertex vt.data).1
        let vh2 := (st.mesh.addVertex vt.data).2
        match relatedFix m1 loop vt.topo.halfedges fuel [th.topo.opposite] with
        | .error e => .error e
        | .ok none => .ok none
        | .ok (some related) =>
          match redirectLoop vh vh2 hh m1 related with
          | .error e => .error e
          | .ok m2 =>
            match getAt m2.halfs nexth with
            | .error e => .error e
            | .ok tn =>
              match m2.modifyHalf tn.topo.opposite (setTo vh2) with
              | .error e => .error e
              | .ok m3 =>
                match m3.modifyVert vh (eraseRelated related) with
                | .error e => .error e
                | .ok m4 =>
                  match m4.modifyVert vh2 (insertRelated related) with
                  | .error e => .error e
                  | .ok m5 => .ok (some ⟨m5, st.thisVhs ++ [vh], st.anotherVhs ++ [vh2]⟩)

/-- The first loop of `DecomposeOnInternalLoop`, over the indices `is`. -/
def cutLoop (fuel : Nat) (loop : List Int) :
    List Nat → Cut VD HD FD → Except Fault (Option (Cut VD HD FD))
  | [], st => .ok (some st)
  | i :: is, st =>
    match cutStep fuel loop i st with
    | .error e => .error e
    | .ok none => .ok none
    | .ok (some st1) => cutLoop fuel loop is st1

/-- The loop "detach opposites" of `DecomposeOnInternalLoop`. -/
def detachLoop : Mesh VD HD FD → List Int → Except Fault (Mesh VD HD FD)
  | m, [] => .ok m
  | m, hh :: rest =>
    match getAt m.halfs hh with
    | .error e => .error e
    | .ok th =>
      match m.modifyHalf th.topo.opposite (setOpp Handle.none) with
      | .error e => .error e
      | .ok m1 =>
        match m1.modifyHalf hh (setOpp Handle.none) with
        | .error e => .error e
        | .ok m2 => detachLoop m2 rest

/-- The scan `for (HalfHandle hh : mesh.topo(v1).halfedges) if (mesh.topo(hh).to()
== v2) ..` of the last loop: the first half-edge of the list that ends at `v2`, the
invalid handle when there is none. -/
def firstTo (m : Mesh VD HD FD) (v2 : Int) : List Int → Except Fault Int
  | [] => .ok Handle.none
  | hh :: rest =>
    match getAt m.halfs hh with
    | .error e => .error e
    | .ok th => if th.topo.eto = v2 then .ok hh else firstTo m v2 rest

/-- The half-edge between `v1` and `v2` that the last loop works on: the one found
in the list of `v1`, replaced by its opposite when its face is neither `fh1` nor
`fh2`, and asserted to have one of them as its face. -/
def cutHalf (m : Mesh VD HD FD) (fh1 fh2 v1 v2 : Int) : Except Fault Int :=
  match getAt m.verts v1 with
  | .error e => .error e
  | .ok vt =>
    match firstTo m v2 vt.topo.halfedges with
    | .error e => .error e
    | .ok found =>
      match getAt m.halfs found with
      | .error e => .error e
      | .ok tf =>
        let hh := if tf.topo.face ≠ fh1 ∧ tf.topo.face ≠ fh2 then tf.topo.opposite else found
        match getAt m.halfs hh with
        | .error e => .error e
        | .ok th =>
          if th.topo.face = fh1 ∨ th.topo.face = fh2 then .ok hh else .error .assertion

/-- The assignment `mesh.data(dst) = mesh.data(mesh.topo(src).opposite)`. -/
def copyData (m : Mesh VD HD FD) (dst src : Int) : Except Fault (Mesh VD HD FD) :=
  match getAt m.halfs src with
  | .error e => .error e
  | .ok ts =>
    match getAt m.halfs ts.topo.opposite with
    | .error e => .error e
    | .ok topp => m.modifyHalf dst (fun ht => { ht with data := topp.data })

/-- The loop "copy halfedge data" of `DecomposeOnInternalLoop`, over the indices
`is`. -/
def copyLoop (thisVhs anotherVhs : List Int) (fh1 fh2 : Int) :
    Mesh VD HD FD → List Nat → Except Fault (Mesh VD HD FD)
  | m, [] => .ok m
  | m, i :: is =>
    match cutHalf m fh1 fh2 (cyclePair anotherVhs i).1 (cyclePair anotherVhs i).2 with
    | .error e => .error e
    | .ok anotherHH =>
      match cutHalf m fh1 fh2 (cyclePair thisVhs i).1 (cyclePair thisVhs i).2 with
      | .error e => .error e
      | .ok thisHH =>
        if !(Handle.valid anotherHH && Handle.valid thisHH) then .error .assertion
        else
          match copyData m anotherHH thisHH with
          | .error e => .error e
          | .ok m1 =>
            match copyData m1 thisHH anotherHH with
            | .error e => .error e
            | .ok m2 => copyLoop thisVhs anotherVhs fh1 fh2 m2 is

/-- `DecomposeOnInternalLoop(mesh, loopBegin, loopEnd, faceData, oppoFaceData)` on the
handles `loop` of the range, with the passes of each `while (true)` bounded by
`fuel` (`none`: a bound was reached): the mesh after the call and the returned pair
of face handles. -/
def DecomposeOnInternalLoop [Inhabited HD] (m : Mesh VD HD FD) (loop : List Int)
    (faceData oppoFaceData : FD) (fuel : Nat) :
    Except Fault (Option (Mesh VD HD FD × Int × Int)) :=
  if loop.isEmpty then .ok (some (m, Handle.none, Handle.none))
  else
    if m.fromOf (loop.headD Handle.none) ≠ m.toOf (loop.getLastD Handle.none) then
      .error .assertion
    else
      match cutLoop fuel loop (List.range loop.length) ⟨m, [], []⟩ with
      | .error e => .error e
      | .ok none => .ok none
      | .ok (some st) =>
        match detachLoop st.mesh loop with
        | .error e => .error e
        | .ok m1 =>
          match m1.addFaceVerts st.thisVhs true faceData with
          | .error e => .error e
          | .ok (m2, fh1) =>
            match m2.addFaceVerts st.anotherVhs true oppoFaceData with
            | .error e => .error e
            | .ok (m3, fh2) =>
              if st.thisVhs.length ≠ st.anotherVhs.length then .error .assertion
              else
                match copyLoop st.thisVhs st.anotherVhs fh1 fh2 m3
                    (List.range st.anotherVhs.length) with
                | .error e => .error e
                | .ok m4 => .ok (some (m4, fh1, fh2))

end DecomposeDefs

section DecomposeSpecDefs

variable {VD HD FD : Type}

/-- Every handle in the outgoing list of a vertex is a slot of `_halfs` whose
`from()` is that vertex (what the assertion of `findEdge` checks). -/
def Mesh.ListsFrom (m : Mesh VD HD FD) : Prop :=
  ∀ u vt, getAt m.verts u = .ok vt → ∀ x ∈ vt.topo.halfedges,
    ∃ t, getAt m.halfs x = .ok t ∧ t.topo.efrom = u

/-- What `DecomposeOnInternalLoop` uses of a loop `p` that
`ConstructInternalLoopFrom` has returned: non-removed half-edges that chain around
(`from` of the next one, cyclically, is `to` of this one), with pairwise different
end vertices of degree at least 4, no two of them opposite to each other. -/
structure LoopFacts (m : Mesh VD HD FD) (p : List Int) : Prop where
  live : ∀ x ∈ p, liveIn m.halfs x = true
  nodupTo : (p.map m.toOf).Nodup
  degree : ∀ x ∈ p, ∃ d, m.degree (m.toOf x) = .ok d ∧ 4 ≤ d
  noOpp : ∀ x ∈ p, m.oppOf x ∉ p
  next : ∀ i, i < p.length →
    m.fromOf (p.getD ((i + 1) % p.length) Handle.none) = m.toOf (p.getD i Handle.none)
  closes : m.fromOf (p.headD Handle.none) = m.toOf (p.getLastD Handle.none)

/-- The state `st` of the first loop of `DecomposeOnInternalLoop` after `i` rounds on
the loop `p` of the mesh `m`: one new vertex per round; `_faces` and the size of
`_halfs` as in `m`; every half-edge keeps its `opposite`, keeps its `from` unless
that was one of the `i` end vertices handled so far, and likewise its `to`; the
vertices not handled so far are untouched; and the outgoing lists agree with the
`from` fields. -/
structure CutInv (m : Mesh VD HD FD) (p : List Int) (i : Nat) (st : Cut VD HD FD) : Prop where
  thisVhs : st.thisVhs = (p.take i).map m.toOf
  anotherVhs : st.anotherVhs
    = (List.range i).map (fun (j : Nat) => (m.verts.length : Int) + (j : Int))
  faces : st.mesh.faces = m.faces
  vlen : st.mesh.verts.length = m.verts.length + i
  exs : st.mesh.verts.map (fun t => t.exists_)
    = m.verts.map (fun t => t.exists_) ++ List.replicate i true
  hlen : st.mesh.halfs.length = m.halfs.length
  halfs : ∀ x t, getAt m.halfs x = .ok t → ∃ t2, getAt st.mesh.halfs x = .ok t2 ∧
    t2.topo.opposite = t.topo.opposite ∧
    (t.topo.efrom ∉ (p.take i).map m.toOf → t2.topo.efrom = t.topo.efrom) ∧
    (t.topo.eto ∉ (p.take i).map m.toOf → t2.topo.eto = t.topo.eto)
  verts : ∀ u vt, getAt m.verts u = .ok vt → u ∉ (p.take i).map m.toOf →
    getAt st.mesh.verts u = .ok vt
  lists : st.mesh.ListsFrom

end DecomposeSpecDefs

section SewDefs

variable {VD HD FD : Type}

/-- How `m2` comes from `m` through `addEdge`, `addFace` and payload writes: every
half-edge slot of `m` is a slot of `m2` with the same `from` and `to`, and every
outgoing list has only grown at its end. -/
structure Stretch (m m2 : Mesh VD HD FD) : Prop where
  halfs : ∀ x t, getAt m.halfs x = .ok t → ∃ t2, getAt m2.halfs x = .ok t2 ∧
    t2.topo.efrom = t.topo.efrom ∧ t2.topo.eto = t.topo.eto
  verts : ∀ u vt, getAt m.verts u = .ok vt → ∃ vt2 ext, getAt m2.verts u = .ok vt2 ∧
    vt2.topo.halfedges = vt.topo.halfedges ++ ext

/-- The half-edges `q1` (`a -> b`) and `q2` (`b -> a`) are sewn together: each is the
`opposite` of the other, and each is the first half-edge in the outgoing list of its
`from` vertex that ends at the other vertex. -/
def Paired (m : Mesh VD HD FD) (a b q1 q2 : Int) : Prop :=
  ∃ t1 t2 va vb, getAt m.halfs q1 = .ok t1 ∧ t1.topo.efrom = a ∧ t1.topo.eto = b ∧
    t1.topo.opposite = q2 ∧ getAt m.halfs q2 = .ok t2 ∧ t2.topo.efrom = b ∧
    t2.topo.eto = a ∧ t2.topo.opposite = q1 ∧
    getAt m.verts a = .ok va ∧ firstTo m b va.topo.halfedges = .ok q1 ∧
    getAt m.verts b = .ok vb ∧ firstTo m a vb.topo.halfedges = .ok q2

end SewDefs

section SewnDefs

variable {VD HD FD : Type}

/-- Between `a` and `b` there are two half-edges sewn together, one of them on the
face `fh1` or on the face `fh2`: what the last loop of `DecomposeOnInternalLoop`
asserts of the half-edge it finds from `a` to `b`. -/
def SewnOn (m : Mesh VD HD FD) (fh1 fh2 a b : Int) : Prop :=
  ∃ q1 q2, Paired m a b q1 q2 ∧
    (m.faceOf q1 = fh1 ∨ m.faceOf q1 = fh2 ∨ m.faceOf q2 = fh1 ∨ m.faceOf q2 = fh2)

end SewnDefs

section DecomposeAllDefs

variable {VD HD FD : Type}

/-- `CompareLoopDefault`: `l1.size() < l2.size()`. -/
def CompareLoopDefault (l1 l2 : List Int) : Bool := decide (l1.length < l2.length)

/-- The loop `for (int i = 0; i < mesh.internalHalfEdges().size(); i++)` of one round
of `DecomposeAll`, on the indices still to come and the current `minLoop`: the
`minLoop` after the loop. Each search runs for at most `fuel` rounds (`none`: a
search reached the bound). -/
def minLoopScan (m : Mesh VD HD FD) (intersectFun : Int → Int → Bool)
    (compareLoop : List Int → List Int → Bool) (fuel : Nat) :
    List Nat → List Int → Except Fault (Option (List Int))
  | [], minLoop => .ok (some minLoop)
  | i :: rest, minLoop =>
    match m.removedHalf (i : Int) with
    | .error e => .error e
    | .ok true => minLoopScan m intersectFun compareLoop fuel rest minLoop
    | .ok false =>
      match ConstructInternalLoopFrom m (i : Int) intersectFun fuel with
      | .error e => .error e
      | .ok none => .ok none
      | .ok (some loop) =>
        if !loop.isEmpty && (minLoop.isEmpty || compareLoop loop minLoop) then
          minLoopScan m intersectFun compareLoop fuel rest loop
        else minLoopScan m intersectFun compareLoop fuel rest minLoop

/-- The `minLoop` that one round of `DecomposeAll` finds on the mesh `m`. -/
def findMinLoop (m : Mesh VD HD FD) (intersectFun : Int → Int → Bool)
    (compareLoop : List Int → List Int → Bool) (fuel : Nat) :
    Except Fault (Option (List Int)) :=
  minLoopScan m intersectFun compareLoop fuel (List.range m.halfs.length) []

/-- The loop `while (true)` of `DecomposeAll`, run for at most as many rounds as the
first numeric argument says, from the mesh `m` and the list `cutFaces`; the inner loops
of a round are bounded by `fuel` (`none`: a bound was reached). -/
def decomposeRounds [Inhabited HD] [Inhabited FD] (intersectFun : Int → Int → Bool)
    (compareLoop : List Int → List Int → Bool) (fuel : Nat) :
    Nat → Mesh VD HD FD → List (Int × Int) →
      Except Fault (Option (Mesh VD HD FD × List (Int × Int)))
  | 0, _, _ => .ok none
  | n + 1, m, cutFaces =>
    match findMinLoop m intersectFun compareLoop fuel with
    | .error e => .error e
    | .ok none => .ok none
    | .ok (some minLoop) =>
      if !minLoop.isEmpty then
        match DecomposeOnInternalLoop m minLoop default default fuel with
        | .error e => .error e
        | .ok none => .ok none
        | .ok (some (m1, fh1, fh2)) =>
          if Handle.valid fh1 && Handle.valid fh2 then
            decomposeRounds intersectFun compareLoop fuel n m1 (cutFaces ++ [(fh1, fh2)])
          else decomposeRounds intersectFun compareLoop fuel n m1 cutFaces
      else .ok (some (m, cutFaces))

/-- `DecomposeAll(mesh, intersectFun, compareLoop)`: the mesh after the call and the
returned list `cutFaces`; `rounds` bounds the rounds of its loop and `fuel` the inner
loops of a round. -/
def DecomposeAll [Inhabited HD] [Inhabited FD] (m : Mesh VD HD FD)
    (intersectFun : Int → Int → Bool) (compareLoop : List Int → List Int → Bool)
    (fuel rounds : Nat) : Except Fault (Option (Mesh VD HD FD × List (Int × Int))) :=
  match AssertEdgesAreStiched m with
  | .error e => .error e
  | .ok () => decomposeRounds intersectFun compareLoop fuel rounds m []

end DecomposeAllDefs

section TrialDefs

/-- Modelled from the spec: `Scored<T>` of the absent `basic_types.hpp`, a component
with a score; scored values are ordered by their scores. The scores, `double` in the
source, are taken as integers: only their order is used. -/
structure Scored (C : Type) where
  score : Int
  component : C

variable {C : Type}

end TrialDefs

section MixedGraphDefs

/-- The field `MixedGraphVertex::type`. -/
inductive VertType where
  | RegionCC
  | LineCC
  | None
  deriving DecidableEq

/-- The field `MixedGraphEdge::type`. -/
inductive EdgeType where
  | RegionRegion
  | RegionLine
  deriving DecidableEq

/-- `MixedGraphVertex` together with the `RegionCCVertexData` or `LineCCVertexData` it
points to, as far as the solver uses them: `candidatePlanesByRoot` holds the planes of
the entries in the order of iteration, `candidateDepthFactors` the keys of the entries
in the order of iteration. -/
structure MixedGraphVertex (Plane Depth : Type) where
  type : VertType
  ccId : Int
  candidatePlanesByRoot : List Plane
  candidateDepthFactors : List Depth
  determined : Bool

/-- `MixedGraphEdge`; a `RegionIndex` or `LineIndex` is an integer key here. -/
structure MixedGraphEdge (Point : Type) where
  type : EdgeType
  riri : Int × Int
  rili : Int × Int
  determined : Bool
  anchors : List Point

/-- Modelled from the spec: a vertex of the graph container `HomogeneousGraph02` of the
absent `graph.hpp`; `topo(vh).uppers` holds the handles of the edges incident to the
vertex. -/
structure GraphVert (V : Type) where
  uppers : List Int
  data : V

/-- Modelled from the spec: an edge of the graph container; `topo(eh).lowers` holds the
handles of its end vertices. -/
structure GraphEdge (E : Type) where
  lowers : List Int
  data : E

/-- Modelled from the spec: `MixedGraph`, the container
`HomogeneousGraph02<MixedGraphVertex, MixedGraphEdge>`, as its table of vertices and its
table of edges; a handle is the position in its table. -/
structure MixedGraph (Point Plane Depth : Type) where
  verts : List (GraphVert (MixedGraphVertex Plane Depth))
  edges : List (GraphEdge (MixedGraphEdge Point))

/-- The maps of `RecContext` that `pickChoice` reads with `.at(..)`: `none` is a key
that is absent (`.at` then throws). -/
structure RecContext (Line : Type) where
  regionConnectedComponentIds : Int → Option Int
  lineConnectedComponentIds : Int → Option Int
  reconstructedLines : Int → Option Line

/-- Modelled from the spec: the two geometric computations of `pickChoice`, from the
absent geometry headers. `onPlane plane anchor` is
`IntersectionOfLineAndPlane(InfiniteLine3(Point3(0, 0, 0), anchor), plane).position`,
`onLine line depthFactor anchor` is
`DistanceBetweenTwoLines(line.infinieLine(), InfiniteLine3(Point3(0, 0, 0), anchor))
.second.second * depthFactor`. -/
structure Geometry (Point Plane Line Depth : Type) where
  onPlane : Plane → Point → Point
  onLine : Line → Depth → Point → Point

/-- The struct `Choice`. -/
structure Choice where
  vertHandle : Int
  choiceId : Int
  deriving DecidableEq

variable {Point Plane Line Depth : Type}

/-- `map.at(key)`: a fault when the key is absent. -/
def mapAt {V : Type} (map : Int → Option V) (key : Int) : Except Fault V :=
  match map key with
  | some v => .ok v
  | none => .error .outOfBounds

/-- The writes of the loop body of `pickChoice` to the edge data `ed`:
`anchor = f(anchor)` for every anchor of `ed.anchors`, then `ed.determined = true`. -/
def resolveAnchors (f : Point → Point) (et : GraphEdge (MixedGraphEdge Point)) :
    GraphEdge (MixedGraphEdge Point) :=
  { et with data := { et.data with anchors := et.data.anchors.map f, determined := true } }

/-- The condition asserted in the loop of `RegionCCVertexData::pickChoice`, evaluated
left to right as `&&` and `||` do. -/
def regionEdgeAsserted (context : RecContext Line) (ccId : Int) (ed : MixedGraphEdge Point) :
    Except Fault Bool :=
  match (if ed.type = EdgeType.RegionLine then
      (mapAt context.regionConnectedComponentIds ed.rili.1).map (fun c => decide (c = ccId))
    else .ok false) with
  | .error e => .error e
  | .ok true => .ok true
  | .ok false =>
    if ed.type = EdgeType.RegionRegion then
      match mapAt context.regionConnectedComponentIds ed.riri.1 with
      | .error e => .error e
      | .ok c1 =>
        if c1 = ccId then .ok true
        else (mapAt context.regionConnectedComponentIds ed.riri.2).map
          (fun c2 => decide (c2 = ccId))
    else .ok false

/-- The loop `for (const MixedGraphEdgeHandle & eh : g.topo(selfHandle).uppers)` of
`RegionCCVertexData::pickChoice`, on the handles still to come and the table of
edges. -/
def pickRegionEdges (context : RecContext Line) (geom : Geometry Point Plane Line Depth)
    (ccId : Int) (plane : Plane) :
    List Int → List (GraphEdge (MixedGraphEdge Point)) →
      Except Fault (List (GraphEdge (MixedGraphEdge Point)))
  | [], edges => .ok edges
  | eh :: rest, edges =>
    match getAt edges eh with
    | .error e => .error e
    | .ok et =>
      match regionEdgeAsserted context ccId et.data with
      | .error e => .error e
      | .ok false => .error .assertion
      | .ok true =>
        match modifyAt edges eh (resolveAnchors (geom.onPlane plane)) with
        | .error e => .error e
        | .ok edges1 => pickRegionEdges context geom ccId plane rest edges1

/-- `RegionCCVertexData::pickChoice(context, g, selfHandle, choice, plane)` on the
vertex data `self`: the graph after the call and the value written to `plane`. -/
def RegionCCVertexData.pickChoice (self : MixedGraphVertex Plane Depth)
    (context : RecContext Line) (geom : Geometry Point Plane Line Depth)
    (g : MixedGraph Point Plane Depth) (selfHandle : Int) (choice : Choice) :
    Except Fault (MixedGraph Point Plane Depth × Plane) :=
  if choice.vertHandle ≠ selfHandle then .error .assertion
  else
    match getAt self.candidatePlanesByRoot choice.choiceId with
    | .error e => .error e
    | .ok plane =>
      match getAt g.verts selfHandle with
      | .error e => .error e
      | .ok vt =>
        match pickRegionEdges context geom self.ccId plane vt.uppers g.edges with
        | .error e => .error e
        | .ok edges1 => .ok ({ g with edges := edges1 }, plane)

/-- The loop `for (const MixedGraphEdgeHandle & eh : g.topo(selfHandle).uppers)` of
`LineCCVertexData::pickChoice`, on the handles still to come and the table of edges. -/
def pickLineEdges (context : RecContext Line) (geom : Geometry Point Plane Line Depth)
    (ccId : Int) (depthFactor : Depth) :
    List Int → List (GraphEdge (MixedGraphEdge Point)) →
      Except Fault (List (GraphEdge (MixedGraphEdge Point)))
  | [], edges => .ok edges
  | eh :: rest, edges =>
    match getAt edges eh with
    | .error e => .error e
    | .ok et =>
      if et.data.type ≠ EdgeType.RegionLine then .error .assertion
      else
        match mapAt context.lineConnectedComponentIds et.data.rili.2 with
        | .error e => .error e
        | .ok c =>
          if c ≠ ccId then .error .assertion
          else
            match mapAt context.reconstructedLines et.data.rili.2 with
            | .error e => .error e
            | .ok line =>
              match modifyAt edges eh (resolveAnchors (geom.onLine line depthFactor)) with
              | .error e => .error e
              | .ok edges1 => pickLineEdges context geom ccId depthFactor rest edges1

/-- `LineCCVertexData::pickChoice(context, g, selfHandle, choice, depthFactor)` on the
vertex data `self`: the graph after the call and the value written to `depthFactor`. -/
def LineCCVertexData.pickChoice (self : MixedGraphVertex Plane Depth)
    (context : RecContext Line) (geom : Geometry Point Plane Line Depth)
    (g : MixedGraph Point Plane Depth) (selfHandle : Int) (choice : Choice) :
    Except Fault (MixedGraph Point Plane Depth × Depth) :=
  if choice.vertHandle ≠ selfHandle then .error .assertion
  else
    match getAt self.candidateDepthFactors choice.choiceId with
    | .error e => .error e
    | .ok depthFactor =>
      match getAt g.verts selfHandle with
      | .error e => .error e
      | .ok vt =>
        match pickLineEdges context geom self.ccId depthFactor vt.uppers g.edges with
        | .error e => .error e
        | .ok edges1 => .ok ({ g with edges := edges1 }, depthFactor)

end MixedGraphDefs

section PickSpecDefs

variable {Point Plane Depth : Type}

/-- What `pickChoice` keeps of an edge: its end vertices, its type and index pairs, the
number of its anchors, and a set flag `determined`. -/
def EdgeKept (e e2 : GraphEdge (MixedGraphEdge Point)) : Prop :=
  e2.lowers = e.lowers ∧ e2.data.type = e.data.type ∧ e2.data.riri = e.data.riri ∧
    e2.data.rili = e.data.rili ∧ e2.data.anchors.length = e.data.anchors.length ∧
    (e.data.determined = true → e2.data.determined = true)

/-- The table `edges2` comes from the table `edges` by changes that keep every edge
(`EdgeKept`), set the flag `determined` of the edges with a handle in `l` and leave
every other edge as it was. -/
def EdgesPicked (l : List Int) (edges edges2 : List (GraphEdge (MixedGraphEdge Point))) :
    Prop :=
  edges2.length = edges.length ∧
    ∀ eh e, getAt edges eh = .ok e → ∃ e2, getAt edges2 eh = .ok e2 ∧ EdgeKept e e2 ∧
      (eh ∈ l → e2.data.determined = true) ∧ (eh ∉ l → e2 = e)

/-- The effect of `pickChoice` on the vertex `v` of the graph `g`, giving `g2`: the
vertices are as before; every edge incident to `v` is an edge slot; every edge keeps
the number of its anchors; the flag `determined` of every edge incident to `v` is set;
every edge not incident to `v` is as it was. -/
def PickFrame (g g2 : MixedGraph Point Plane Depth) (v : Int) : Prop :=
  g2.verts = g.verts ∧ ∃ vt, getAt g.verts v = .ok vt ∧
    (∀ eh ∈ vt.uppers, ∃ e, getAt g.edges eh = .ok e) ∧
    EdgesPicked vt.uppers g.edges g2.edges

/-- A graph of one region vertex `0` and one line vertex `1`: the edge `0` joins them,
the edge `1` joins the region vertex to itself (two regions of the component). -/
def tinyGraph : MixedGraph Int Int Int :=
  ⟨[⟨[0, 1], ⟨VertType.RegionCC, 0, [5], [], false⟩⟩,
    ⟨[0], ⟨VertType.LineCC, 0, [], [3], false⟩⟩],
   [⟨[0, 1], ⟨EdgeType.RegionLine, (0, 0), (0, 0), false, [1, 2]⟩⟩,
    ⟨[0, 0], ⟨EdgeType.RegionRegion, (0, 1), (0, 0), false, [4]⟩⟩]⟩

/-- The context of `tinyGraph`: the regions `0` and `1` are in the region component
`0`, the line `0` in the line component `0`. -/
def tinyContext : RecContext Int :=
  ⟨fun k => if k = 0 ∨ k = 1 then some 0 else none,
   fun k => if k = 0 then some 0 else none,
   fun k => if k = 0 then some 7 else none⟩

/-- A stand-in for the geometry on integers. -/
def tinyGeometry : Geometry Int Int Int Int :=
  ⟨fun plane anchor => plane + anchor, fun line depthFactor anchor => line * depthFactor + anchor⟩

end PickSpecDefs

section SolverDefs

variable {Point Plane Line Depth : Type}

/-- What the vertices produce in a trial, left open: `regionCandidates g vh` and
`lineCandidates g vh` are the candidates that `buildCandidates` computes for the vertex
`vh` in the graph `g`; `regionProbability g vh i` and `lineProbability g vh i` are the
scores `probability + baseProb` that `registerChoices` gives the `i`-th candidate; `draw
g probabilities` is the value `distribution(gen)` of the weighted random selection. The
probabilities, `double` in the source, are taken as integers: only their sum's being
zero and the position of a largest one are used. -/
structure Oracles (Point Plane Depth : Type) where
  regionCandidates : MixedGraph Point Plane Depth → Int → List Plane
  lineCandidates : MixedGraph Point Plane Depth → Int → List Depth
  regionProbability : MixedGraph Point Plane Depth → Int → Nat → Int
  lineProbability : MixedGraph Point Plane Depth → Int → Nat → Int
  draw : MixedGraph Point Plane Depth → List Int → Nat

/-- The state of a trial: the copy `g` of the graph, the two sets of component ids not
determined yet (their elements in increasing order), and the two vectors of
`candidate.component`. -/
structure Trial (Point Plane Depth : Type) where
  g : MixedGraph Point Plane Depth
  regionCCIdsNotDeterminedYet : List Int
  lineCCIdsNotDeterminedYet : List Int
  planes : List Plane
  depthFactors : List Depth

/-- The end of `registerChoices` (of both vertex kinds): the new choices
`{selfHandle, i}` with their scores are sorted by falling score, and the first
`min(maxChoiceNum, newChoices.size())` of them are pushed to `choices` and
`probabilities`. -/
def registerChoices (scores : List Int) (selfHandle : Int) (maxChoiceNum : Nat)
    (choices : List Choice) (probabilities : List Int) : List Choice × List Int :=
  let newChoices : List (Scored Choice) :=
    (List.range scores.length).map (fun i => ⟨scores.getD i 0, ⟨selfHandle, (i : Int)⟩⟩)
  let sorted := newChoices.insertionSort (fun a b => b.score ≤ a.score)
  let best := sorted.take (min maxChoiceNum sorted.length)
  (choices ++ best.map (fun c => c.component), probabilities ++ best.map (fun c => c.score))

/-- The write of `buildCandidates` to the data of a region component vertex. -/
def setPlanes (planes : List Plane) (vt : GraphVert (MixedGraphVertex Plane Depth)) :
    GraphVert (MixedGraphVertex Plane Depth) :=
  { vt with data := { vt.data with candidatePlanesByRoot := planes } }

/-- The write of `buildCandidates` to the data of a line component vertex. -/
def setDepths (depths : List Depth) (vt : GraphVert (MixedGraphVertex Plane Depth)) :
    GraphVert (MixedGraphVertex Plane Depth) :=
  { vt with data := { vt.data with candidateDepthFactors := depths } }

/-- The write `exeVD.determined = true`. -/
def setDetermined (vt : GraphVert (MixedGraphVertex Plane Depth)) :
    GraphVert (MixedGraphVertex Plane Depth) :=
  { vt with data := { vt.data with determined := true } }

/-- The loop `for (int regionCCId : regionCCIdsNotDeterminedYet)` of a round, on the
ids still to come: the graph, `choices` and `choiceProbabilities` after it. -/
def collectRegionChoices (oracles : Oracles Point Plane Depth) (regionCCIdToVHandles : List Int) :
    List Int → MixedGraph Point Plane Depth → List Choice → List Int →
      Except Fault (MixedGraph Point Plane Depth × List Choice × List Int)
  | [], g, choices, probabilities => .ok (g, choices, probabilities)
  | regionCCId :: rest, g, choices, probabilities =>
    match getAt regionCCIdToVHandles regionCCId with
    | .error e => .error e
    | .ok vh =>
      match getAt g.verts vh with
      | .error e => .error e
      | .ok vt =>
        if vt.data.determined then
          collectRegionChoices oracles regionCCIdToVHandles rest g choices probabilities
        else if vt.data.type ≠ VertType.RegionCC then .error .assertion
        else
          let planes := oracles.regionCandidates g vh
          match modifyAt g.verts vh (setPlanes planes) with
          | .error e => .error e
          | .ok verts1 =>
            let g1 : MixedGraph Point Plane Depth := { g with verts := verts1 }
            let r := registerChoices
              ((List.range planes.length).map (oracles.regionProbability g1 vh)) vh 1
              choices probabilities
            collectRegionChoices oracles regionCCIdToVHandles rest g1 r.1 r.2

/-- The loop `for (int lineCCId : lineCCIdsNotDeterminedYet)` of a round, on the ids
still to come: the graph, `choices` and `choiceProbabilities` after it. -/
def collectLineChoices (oracles : Oracles Point Plane Depth) (lineCCidToVHandles : List Int) :
    List Int → MixedGraph Point Plane Depth → List Choice → List Int →
      Except Fault (MixedGraph Point Plane Depth × List Choice × List Int)
  | [], g, choices, probabilities => .ok (g, choices, probabilities)
  | lineCCId :: rest, g, choices, probabilities =>
    match getAt lineCCidToVHandles lineCCId with
    | .error e => .error e
    | .ok vh =>
      match getAt g.verts vh with
      | .error e => .error e
      | .ok vt =>
        if vt.data.determined then
          collectLineChoices oracles lineCCidToVHandles rest g choices probabilities
        else if vt.data.type ≠ VertType.LineCC then .error .assertion
        else
          let depths := oracles.lineCandidates g vh
          match modifyAt g.verts vh (setDepths depths) with
          | .error e => .error e
          | .ok verts1 =>
            let g1 : MixedGraph Point Plane Depth := { g with verts := verts1 }
            let r := registerChoices
              ((List.range depths.length).map (oracles.lineProbability g1 vh)) vh 1
              choices probabilities
            collectLineChoices oracles lineCCidToVHandles rest g1 r.1 r.2

/-- `std::distance(v.begin(), std::max_element(v.begin(), v.end()))`: the position of
the first largest element (`0` for an empty vector). -/
def maxIndexFrom (best : Int) (bestAt : Nat) : Nat → List Int → Nat
  | _, [] => bestAt
  | i, p :: rest =>
    if best < p then maxIndexFrom p i (i + 1) rest else maxIndexFrom best bestAt (i + 1) rest

/-- The position `selected` of the choice made in a round. -/
def selectChoice (oracles : Oracles Point Plane Depth) (useWeightedRandomSelection : Bool)
    (g : MixedGraph Point Plane Depth) (probabilities : List Int) : Nat :=
  if useWeightedRandomSelection then oracles.draw g probabilities
  else
    match probabilities with
    | [] => 0
    | p :: rest => maxIndexFrom p 0 1 rest

/-- The part "made choice" of a round: `pickChoice` of the chosen vertex writes to
`candidate.component`, the id of the component is erased from its set, and the vertex
becomes determined. -/
def makeChoice (context : RecContext Line) (geom : Geometry Point Plane Line Depth)
    (st : Trial Point Plane Depth) (choice : Choice) : Except Fault (Trial Point Plane Depth) :=
  match getAt st.g.verts choice.vertHandle with
  | .error e => .error e
  | .ok exeVD =>
    let picked : Except Fault (Trial Point Plane Depth) :=
      if exeVD.data.type = VertType.RegionCC then
        match getAt st.planes exeVD.data.ccId with
        | .error e => .error e
        | .ok _ =>
          match RegionCCVertexData.pickChoice exeVD.data context geom st.g choice.vertHandle
              choice with
          | .error e => .error e
          | .ok (g1, plane) =>
            match modifyAt st.planes exeVD.data.ccId (fun _ => plane) with
            | .error e => .error e
            | .ok planes1 =>
              .ok { st with
                g := g1, planes := planes1,
                regionCCIdsNotDeterminedYet :=
                  st.regionCCIdsNotDeterminedYet.erase exeVD.data.ccId }
      else if exeVD.data.type = VertType.LineCC then
        match getAt st.depthFactors exeVD.data.ccId with
        | .error e => .error e
        | .ok _ =>
          match LineCCVertexData.pickChoice exeVD.data context geom st.g choice.vertHandle
              choice with
          | .error e => .error e
          | .ok (g1, depthFactor) =>
            match modifyAt st.depthFactors exeVD.data.ccId (fun _ => depthFactor) with
            | .error e => .error e
            | .ok depths1 =>
              .ok { st with
                g := g1, depthFactors := depths1,
                lineCCIdsNotDeterminedYet :=
                  st.lineCCIdsNotDeterminedYet.erase exeVD.data.ccId }
      else .ok st
    match picked with
    | .error e => .error e
    | .ok st1 =>
      match modifyAt st1.g.verts choice.vertHandle setDetermined with
      | .error e => .error e
      | .ok verts1 => .ok { st1 with g := { st1.g with verts := verts1 } }

/-- The body of the loop "start expansion" of a trial: the state after the round, and
whether the loop goes on (`false` is the `break` on all-zero probabilities). -/
def expansionRound (context : RecContext Line) (geom : Geometry Point Plane Line Depth)
    (oracles : Oracles Point Plane Depth) (useWeightedRandomSelection : Bool)
    (regionCCIdToVHandles lineCCidToVHandles : List Int) (st : Trial Point Plane Depth) :
    Except Fault (Bool × Trial Point Plane Depth) :=
  match collectRegionChoices oracles regionCCIdToVHandles st.regionCCIdsNotDeterminedYet
      st.g [] [] with
  | .error e => .error e
  | .ok (g1, choices1, probabilities1) =>
    match collectLineChoices oracles lineCCidToVHandles st.lineCCIdsNotDeterminedYet
        g1 choices1 probabilities1 with
    | .error e => .error e
    | .ok (g2, choices, choiceProbabilities) =>
      if choices.length ≠ choiceProbabilities.length then .error .assertion
      else if choiceProbabilities.sum = 0 then .ok (false, { st with g := g2 })
      else
        let selected := selectChoice oracles useWeightedRandomSelection g2 choiceProbabilities
        match getAt choices (selected : Int) with
        | .error e => .error e
        | .ok choice =>
          match makeChoice context geom { st with g := g2 } choice with
          | .error e => .error e
          | .ok st1 => .ok (true, st1)

/-- The loop `while ((regionCCIdsNotDeterminedYet.size() +
lineCCIdsNotDeterminedYet.size()) > 0)` of a trial, run for at most as many rounds as
the first argument says (`none`: the bound was reached): the state after the loop and
the number of rounds it ran. -/
def expansion (context : RecContext Line) (geom : Geometry Point Plane Line Depth)
    (oracles : Oracles Point Plane Depth) (useWeightedRandomSelection : Bool)
    (regionCCIdToVHandles lineCCidToVHandles : List Int) :
    Nat → Trial Point Plane Depth → Except Fault (Option (Trial Point Plane Depth × Nat))
  | 0, _ => .ok none
  | n + 1, st =>
    if st.regionCCIdsNotDeterminedYet.length + st.lineCCIdsNotDeterminedYet.length > 0 then
      match expansionRound context geom oracles useWeightedRandomSelection
          regionCCIdToVHandles lineCCidToVHandles st with
      | .error e => .error e
      | .ok (false, st1) => .ok (some (st1, 1))
      | .ok (true, st1) =>
        match expansion context geom oracles useWeightedRandomSelection
            regionCCIdToVHandles lineCCidToVHandles n st1 with
        | .error e => .error e
        | .ok none => .ok none
        | .ok (some (st2, k)) => .ok (some (st2, k + 1))
    else .ok (some (st, 0))

/-- The state at the start of a trial: the graph copied (every vertex undetermined,
as the copy constructor of `MixedGraphVertex` leaves it), the two sets filled with the
ids `0 .. n - 1`, the two vectors of the candidate as initialized. -/
def initialTrial (g : MixedGraph Point Plane Depth) (regionConnectedComponentsNum
    lineConnectedComponentsNum : Nat) (planes : List Plane) (depthFactors : List Depth) :
    Trial Point Plane Depth :=
  ⟨⟨g.verts.map (fun vt => { vt with data := { vt.data with determined := false } }),
      g.edges⟩,
    (List.range regionConnectedComponentsNum).map (fun (i : Nat) => (i : Int)),
    (List.range lineConnectedComponentsNum).map (fun (i : Nat) => (i : Int)), planes, depthFactors⟩

end SolverDefs

section SolverSpecDefs

variable {Point Plane Depth : Type}

/-- The types and component ids of the vertices of the graph, by handle. -/
def vertKeys (g : MixedGraph Point Plane Depth) : List (VertType × Int) :=
  g.verts.map (fun vt => (vt.data.type, vt.data.ccId))

/-- The flags `determined` of the vertices of the graph, by handle. -/
def vertFlags (g : MixedGraph Point Plane Depth) : List Bool :=
  g.verts.map (fun vt => vt.data.determined)

/-- The two handle tables are those of the graph, as the caller of
`InitializSpatialRegionPlanes` fills them: `regionCCIdToVHandles[i]` is a region
component vertex with the component id `i`, `lineCCidToVHandles[i]` is a line
component vertex with the component id `i`. -/
def TablesOK (g : MixedGraph Point Plane Depth) (regionCCIdToVHandles
    lineCCidToVHandles : List Int) : Prop :=
  (∀ i, i < regionCCIdToVHandles.length →
    getAt (vertKeys g) (regionCCIdToVHandles.getD i Handle.none)
      = .ok (VertType.RegionCC, (i : Int))) ∧
  ∀ i, i < lineCCidToVHandles.length →
    getAt (vertKeys g) (lineCCidToVHandles.getD i Handle.none)
      = .ok (VertType.LineCC, (i : Int))

/-- What a round does to the flags `determined` of the vertices: a round that ends the
loop leaves them as they are; a round after which the loop goes on sets the flag of one
vertex that was not determined and leaves every other flag as it is. -/
def RoundFlags (b : Bool) (g g1 : MixedGraph Point Plane Depth) : Prop :=
  vertKeys g1 = vertKeys g ∧
  (b = false → vertFlags g1 = vertFlags g) ∧
  (b = true → ∃ vh : Int, getAt (vertFlags g) vh = .ok false ∧
    vertFlags g1 = (vertFlags g).set vh.toNat true)

/-- Oracles for `tinyGraph`: one candidate for each vertex, every score 1. -/
def tinyOracles : Oracles Int Int Int :=
  ⟨fun _ _ => [5], fun _ _ => [3], fun _ _ _ => 1, fun _ _ _ => 1, fun _ _ => 0⟩

end SolverSpecDefs

section SolverWitnessDefs

/-- The state of the trial on `tinyGraph` after its first round: the region component
vertex `0` is determined. -/
def tinyAfterRound : Trial Int Int Int :=
  ⟨⟨[⟨[0, 1], ⟨VertType.RegionCC, 0, [5], [], true⟩⟩,
      ⟨[0], ⟨VertType.LineCC, 0, [], [3], false⟩⟩],
     [⟨[0, 1], ⟨EdgeType.RegionLine, (0, 0), (0, 0), true, [6, 7]⟩⟩,
      ⟨[0, 0], ⟨EdgeType.RegionRegion, (0, 1), (0, 0), true, [9]⟩⟩]⟩,
    [], [0], [5], [0]⟩

/-- The state of the trial on `tinyGraph` after its loop: both vertices are
determined. -/
def tinyAfterLoop : Trial Int Int Int :=
  ⟨⟨[⟨[0, 1], ⟨VertType.RegionCC, 0, [5], [], true⟩⟩,
      ⟨[0], ⟨VertType.LineCC, 0, [], [3], true⟩⟩],
     [⟨[0, 1], ⟨EdgeType.RegionLine, (0, 0), (0, 0), true, [27, 28]⟩⟩,
      ⟨[0, 0], ⟨EdgeType.RegionRegion, (0, 1), (0, 0), true, [9]⟩⟩]⟩,
    [], [], [5], [3]⟩

end SolverWitnessDefs

/-! ## SearchAndAddFaces -/

section SearchDefs

variable {VD HD FD : Type}

/-- A value of type `double`, modelled by an exact fraction `num / den`; a zero
denominator stands for a value that is no number, for which every comparison is
false. -/
structure Frac where
  num : Int
  den : Nat
  deriving DecidableEq

/-- The comparison `a < b` of two `double`. -/
def Frac.lt (a b : Frac) : Bool :=
  a.den != 0 && b.den != 0 && decide (a.num * (b.den : Int) < b.num * (a.den : Int))

/-- The comparison `a == 0` of a `double` (a `double` converts to `false` exactly when
this holds). -/
def Frac.isZero (a : Frac) : Bool := a.den != 0 && a.num == 0

/-- The sum of two `double`. -/
def Frac.add (a b : Frac) : Frac :=
  ⟨a.num * (b.den : Int) + b.num * (a.den : Int), a.den * b.den⟩

/-- The product of two `double`. -/
def Frac.mul (a b : Frac) : Frac := ⟨a.num * b.num, a.den * b.den⟩

/-- The quotient of a `double` by a count. -/
def Frac.divNat (a : Frac) (n : Nat) : Frac := ⟨a.num, a.den * n⟩

/-- The power `std::pow(v, 10.0)`. -/
def Frac.pow10 (a : Frac) : Frac := ⟨a.num ^ 10, a.den ^ 10⟩

/-- The conversion `(int) x`, which drops the fraction. -/
def Frac.toInt (a : Frac) : Int := Int.tdiv a.num (a.den : Int)

/-- `std::accumulate(first, last, 0.0)`. -/
def Frac.sum (l : List Frac) : Frac := l.foldl Frac.add ⟨0, 1⟩

/-- The `Loop` objects that `SearchAndAddFaces` allocates, and the table `half2loop`.
A `LoopPtr` is the position of its object in the two tables `halfArr` and `priority`
(the two fields of `Loop`), in the order of allocation; the null pointer is `none`. -/
structure Loops where
  halfArr : List (List Int)
  priority : List Int
  half2loop : List (Option Nat)

/-- `PRIORITY_INIT`. -/
def PRIORITY_INIT : Int := 100

/-- `PRIORITY_TRI_LOOP`. -/
def PRIORITY_TRI_LOOP : Int := 110

/-- `PRIORITY_QUA_LOOP`. -/
def PRIORITY_QUA_LOOP : Int := 150

/-- `PRIORITY_2QUA_LOOP`. -/
def PRIORITY_2QUA_LOOP : Int := 200

/-- The test `mesh.removed(h) || !emsk(mesh, h)` that skips a half-edge. -/
def skipped (m : Mesh VD HD FD) (emsk : Int → Bool) (h : Int) : Except Fault Bool :=
  match m.removedHalf h with
  | .error e => .error e
  | .ok r => .ok (r || !emsk h)

/-- `mesh.topo(h).from()`. -/
def fromE (m : Mesh VD HD FD) (h : Int) : Except Fault Int :=
  match getAt m.halfs h with
  | .error e => .error e
  | .ok t => .ok t.topo.efrom

/-- `mesh.topo(h).to()`. -/
def toE (m : Mesh VD HD FD) (h : Int) : Except Fault Int :=
  match getAt m.halfs h with
  | .error e => .error e
  | .ok t => .ok t.topo.eto

/-- `mesh.topo(h).opposite`. -/
def oppositeE (m : Mesh VD HD FD) (h : Int) : Except Fault Int :=
  match getAt m.halfs h with
  | .error e => .error e
  | .ok t => .ok t.topo.opposite

/-- `mesh.topo(v).halfedges`. -/
def halfedgesE (m : Mesh VD HD FD) (v : Int) : Except Fault (List Int) :=
  match getAt m.verts v with
  | .error e => .error e
  | .ok vt => .ok vt.topo.halfedges

/-- The pointer `half2loop[h.id]` where the source dereferences it: a fault when it is
null. -/
def loopOf (half2loop : List (Option Nat)) (h : Int) : Except Fault Nat :=
  match getAt half2loop h with
  | .error e => .error e
  | .ok none => .error .outOfBounds
  | .ok (some p) => .ok p

/-- The write `half2loop[h.id]->priority = v`. -/
def setPriorityOf (half2loop : List (Option Nat)) (priority : List Int) (h : Int) (v : Int) :
    Except Fault (List Int) :=
  match loopOf half2loop h with
  | .error e => .error e
  | .ok p => modifyAt priority (p : Int) (fun _ => v)

/-- The first loop of `SearchAndAddFaces`, on the slots of `_halfs` from position `i`
on: a `Loop` holding the half-edge, with `PRIORITY_INIT`, is allocated for every
non-removed half-edge that the mask lets through. -/
def seedLoops (emsk : Int → Bool) : List (Triplet HalfTopo HD) → Nat → Loops → Loops
  | [], _, L => L
  | t :: rest, i, L =>
    if !t.exists_ || !emsk (i : Int) then
      seedLoops emsk rest (i + 1) { L with half2loop := L.half2loop ++ [none] }
    else
      seedLoops emsk rest (i + 1)
        ⟨L.halfArr ++ [[t.topo.hd]], L.priority ++ [PRIORITY_INIT],
          L.half2loop ++ [some L.halfArr.length]⟩

end SearchDefs
section TriSearchDefs

variable {VD HD FD : Type}

/-- The read `half2loop[h.id]->priority`. -/
def getPriorityOf (half2loop : List (Option Nat)) (priority : List Int) (h : Int) :
    Except Fault Int :=
  match loopOf half2loop h with
  | .error e => .error e
  | .ok p => getAt priority (p : Int)

/-- The writes `half2loop[h.id]->priority = v` for the half-edges `h` of a list, in
order. -/
def setPriorities (half2loop : List (Option Nat)) (v : Int) :
    List Int → List Int → Except Fault (List Int)
  | [], priority => .ok priority
  | h :: rest, priority =>
    match setPriorityOf half2loop priority h v with
    | .error e => .error e
    | .ok priority1 => setPriorities half2loop v rest priority1

/-- The loop `for (auto h3cand : h3cands)` of the search for a triangle, on the
candidates still to come: the priorities and the last triangle found (`none` while
`triLoopFound` is false). -/
def triLoopH3 (m : Mesh VD HD FD) (emsk : Int → Bool) (half2loop : List (Option Nat))
    (h1 h2 h2to : Int) :
    List Int → List Int × Option (Int × Int × Int) →
      Except Fault (List Int × Option (Int × Int × Int))
  | [], s => .ok s
  | h3cand :: rest, s =>
    match skipped m emsk h3cand with
    | .error e => .error e
    | .ok true => triLoopH3 m emsk half2loop h1 h2 h2to rest s
    | .ok false =>
      match toE m h3cand with
      | .error e => .error e
      | .ok h3candto =>
        if h2to = h3candto then
          match oppositeE m h1 with
          | .error e => .error e
          | .ok h1op =>
            match oppositeE m h2 with
            | .error e => .error e
            | .ok h2op =>
              match oppositeE m h3cand with
              | .error e => .error e
              | .ok h3op =>
                match setPriorities half2loop PRIORITY_TRI_LOOP
                    [h1, h2, h3cand, h1op, h2op, h3op] s.1 with
                | .error e => .error e
                | .ok priority1 =>
                  triLoopH3 m emsk half2loop h1 h2 h2to rest
                    (priority1, some (h1, h3cand, h2op))
        else triLoopH3 m emsk half2loop h1 h2 h2to rest s

/-- The loop `for (size_t j = 0; ..)` of the search for a triangle, from the position
`j` on; the list argument holds `v.topo.halfedges` from that position. -/
def triLoopJ (m : Mesh VD HD FD) (emsk : Int → Bool) (half2loop : List (Option Nat))
    (i : Nat) (h1 : Int) (h3cands : List Int) :
    Nat → List Int → List Int × Option (Int × Int × Int) →
      Except Fault (List Int × Option (Int × Int × Int))
  | _, [], s => .ok s
  | j, h2 :: rest, s =>
    if i = j then triLoopJ m emsk half2loop i h1 h3cands (j + 1) rest s
    else
      match skipped m emsk h2 with
      | .error e => .error e
      | .ok true => triLoopJ m emsk half2loop i h1 h3cands (j + 1) rest s
      | .ok false =>
        match toE m h2 with
        | .error e => .error e
        | .ok h2to =>
          match triLoopH3 m emsk half2loop h1 h2 h2to h3cands s with
          | .error e => .error e
          | .ok s1 => triLoopJ m emsk half2loop i h1 h3cands (j + 1) rest s1

/-- The loop `for (size_t i = 0; ..)` of the search for a triangle, from the position
`i` on; `halfedges` is `v.topo.halfedges`, the list argument holds it from that
position. -/
def triLoopI (m : Mesh VD HD FD) (emsk : Int → Bool) (half2loop : List (Option Nat))
    (halfedges : List Int) :
    Nat → List Int → List Int × Option (Int × Int × Int) →
      Except Fault (List Int × Option (Int × Int × Int))
  | _, [], s => .ok s
  | i, h1 :: rest, s =>
    match skipped m emsk h1 with
    | .error e => .error e
    | .ok true => triLoopI m emsk half2loop halfedges (i + 1) rest s
    | .ok false =>
      match toE m h1 with
      | .error e => .error e
      | .ok h1to =>
        match halfedgesE m h1to with
        | .error e => .error e
        | .ok h3cands =>
          match getPriorityOf half2loop s.1 h1 with
          | .error e => .error e
          | .ok p =>
            if p > PRIORITY_INIT then triLoopI m emsk half2loop halfedges (i + 1) rest s
            else
              match triLoopJ m emsk half2loop i h1 h3cands 0 halfedges s with
              | .error e => .error e
              | .ok s1 => triLoopI m emsk half2loop halfedges (i + 1) rest s1

/-- The loop `for (auto &v : mesh.vertices())` of the search for a triangle, over the
non-removed vertices. -/
def triLoopV (m : Mesh VD HD FD) (emsk : Int → Bool) (half2loop : List (Option Nat)) :
    List (Triplet VertTopo VD) → List Int × Option (Int × Int × Int) →
      Except Fault (List Int × Option (Int × Int × Int))
  | [], s => .ok s
  | v :: rest, s =>
    if v.exists_ then
      match triLoopI m emsk half2loop v.topo.halfedges 0 v.topo.halfedges s with
      | .error e => .error e
      | .ok s1 => triLoopV m emsk half2loop rest s1
    else triLoopV m emsk half2loop rest s

end TriSearchDefs
section QuadSearchDefs

variable {VD HD FD : Type}

/-- `set.insert(q)` on a set of loop ids kept as the list of its elements. -/
def insertId (q : Nat) (s : List Nat) : List Nat := if q ∈ s then s else s ++ [q]

/-- The loop `for (HalfH hinLoop : quadLoops.back())`: the id `quadid` is inserted into
the sets of each half-edge of the loop and of its opposite. -/
def markQuad (m : Mesh VD HD FD) (quadid : Nat) :
    List Int → List (List Nat) → Except Fault (List (List Nat))
  | [], ids => .ok ids
  | hinLoop :: rest, ids =>
    match oppositeE m hinLoop with
    | .error e => .error e
    | .ok hinLoopOp =>
      match modifyAt ids hinLoop (insertId quadid) with
      | .error e => .error e
      | .ok ids1 =>
        match modifyAt ids1 hinLoopOp (insertId quadid) with
        | .error e => .error e
        | .ok ids2 => markQuad m quadid rest ids2

/-- The loop `for (HalfH h1endh : mesh.topo(h1end).halfedges)` of the search for
quadrilaterals: the number of loops in `quadLoops` and the table
`half2quadloopids`. -/
def quadLoopEnd (m : Mesh VD HD FD) (epj : Int → Int → Frac) (emsk : Int → Bool)
    (h1 h2 h1starth endVert : Int) :
    List Int → Nat × List (List Nat) → Except Fault (Nat × List (List Nat))
  | [], s => .ok s
  | h1endh :: rest, s =>
    match skipped m emsk h1endh with
    | .error e => .error e
    | .ok true => quadLoopEnd m epj emsk h1 h2 h1starth endVert rest s
    | .ok false =>
      if h1endh = h1 then quadLoopEnd m epj emsk h1 h2 h1starth endVert rest s
      else
        match toE m h1endh with
        | .error e => .error e
        | .ok t =>
          if t = endVert then
            if (epj h1endh h1starth).isZero then
              quadLoopEnd m epj emsk h1 h2 h1starth endVert rest s
            else
              match markQuad m s.1 [h1, h1starth, h2, h1endh] s.2 with
              | .error e => .error e
              | .ok ids1 => quadLoopEnd m epj emsk h1 h2 h1starth endVert rest (s.1 + 1, ids1)
          else quadLoopEnd m epj emsk h1 h2 h1starth endVert rest s

/-- The loop `for (HalfH h1starth : mesh.topo(h1start).halfedges)` of the search for
quadrilaterals; `h1endhs` is `mesh.topo(h1end).halfedges`. -/
def quadLoopStart (m : Mesh VD HD FD) (epj : Int → Int → Frac) (emsk : Int → Bool)
    (h1 h2 : Int) (h1endhs : List Int) :
    List Int → Nat × List (List Nat) → Except Fault (Nat × List (List Nat))
  | [], s => .ok s
  | h1starth :: rest, s =>
    match skipped m emsk h1starth with
    | .error e => .error e
    | .ok true => quadLoopStart m epj emsk h1 h2 h1endhs rest s
    | .ok false =>
      if h1starth = h1 then quadLoopStart m epj emsk h1 h2 h1endhs rest s
      else
        match toE m h1starth with
        | .error e => .error e
        | .ok t =>
          match fromE m h2 with
          | .error e => .error e
          | .ok h2from =>
            match toE m h2 with
            | .error e => .error e
            | .ok h2to =>
              if t = h2from then
                match quadLoopEnd m epj emsk h1 h2 h1starth h2to h1endhs s with
                | .error e => .error e
                | .ok s1 => quadLoopStart m epj emsk h1 h2 h1endhs rest s1
              else if t = h2to then
                match quadLoopEnd m epj emsk h1 h2 h1starth h2from h1endhs s with
                | .error e => .error e
                | .ok s1 => quadLoopStart m epj emsk h1 h2 h1endhs rest s1
              else quadLoopStart m epj emsk h1 h2 h1endhs rest s

/-- The loop `for (size_t j = i + 1; ..)` of the search for quadrilaterals, on the
positions still to come. -/
def quadLoopJ (m : Mesh VD HD FD) (epj : Int → Int → Frac) (emsk : Int → Bool) (h1 : Int) :
    List Nat → Nat × List (List Nat) → Except Fault (Nat × List (List Nat))
  | [], s => .ok s
  | j :: rest, s =>
    match skipped m emsk (j : Int) with
    | .error e => .error e
    | .ok true => quadLoopJ m epj emsk h1 rest s
    | .ok false =>
      if (epj h1 (j : Int)).lt ⟨9, 10⟩ then quadLoopJ m epj emsk h1 rest s
      else
        match getAt s.2 h1 with
        | .error e => .error e
        | .ok qlh1 =>
          match getAt s.2 (j : Int) with
          | .error e => .error e
          | .ok qlh2 =>
            if qlh1.any (fun ql1 => qlh2.contains ql1) then quadLoopJ m epj emsk h1 rest s
            else
              match fromE m h1 with
              | .error e => .error e
              | .ok h1start =>
                match toE m h1 with
                | .error e => .error e
                | .ok h1end =>
                  match halfedgesE m h1start with
                  | .error e => .error e
                  | .ok h1starths =>
                    match halfedgesE m h1end with
                    | .error e => .error e
                    | .ok h1endhs =>
                      match quadLoopStart m epj emsk h1 (j : Int) h1endhs h1starths s with
                      | .error e => .error e
                      | .ok s1 => quadLoopJ m epj emsk h1 rest s1

/-- The loop `for (size_t i = 0; ..)` of the search for quadrilaterals, on the positions
still to come; `size` is `mesh.internalHalfEdges().size()`. -/
def quadLoopI (m : Mesh VD HD FD) (epj : Int → Int → Frac) (emsk : Int → Bool) (size : Nat) :
    List Nat → Nat × List (List Nat) → Except Fault (Nat × List (List Nat))
  | [], s => .ok s
  | i :: rest, s =>
    match skipped m emsk (i : Int) with
    | .error e => .error e
    | .ok true => quadLoopI m epj emsk size rest s
    | .ok false =>
      match quadLoopJ m epj emsk (i : Int) (List.range' (i + 1) (size - (i + 1))) s with
      | .error e => .error e
      | .ok s1 => quadLoopI m epj emsk size rest s1

/-- The loop "set priorities for half edges" over `mesh.halfedges()`, the non-removed
half-edges: the priorities after it. -/
def quadPriorities (half2loop : List (Option Nat)) (ids : List (List Nat)) :
    List (Triplet HalfTopo HD) → List Int → Except Fault (List Int)
  | [], priority => .ok priority
  | h :: rest, priority =>
    if !h.exists_ then quadPriorities half2loop ids rest priority
    else if Int.tmod h.topo.hd 2 = 1 then quadPriorities half2loop ids rest priority
    else
      match getAt ids h.topo.hd with
      | .error e => .error e
      | .ok s =>
        if s.length > 1 then
          match setPriorities half2loop PRIORITY_2QUA_LOOP [h.topo.hd, h.topo.opposite]
              priority with
          | .error e => .error e
          | .ok priority1 => quadPriorities half2loop ids rest priority1
        else if s.length = 1 then
          match setPriorities half2loop PRIORITY_QUA_LOOP [h.topo.hd, h.topo.opposite]
              priority with
          | .error e => .error e
          | .ok priority1 => quadPriorities half2loop ids rest priority1
        else quadPriorities half2loop ids rest priority

end QuadSearchDefs
section SearchMoveDefs

variable {VD HD FD : Type}

/-- The read `p->priority` through a non-null pointer `p`. -/
def priorityAt (priority : List Int) (p : Nat) : Int := priority.getD p 0

/-- The read `p->halfArr` through a non-null pointer `p`. -/
def halfArrAt (halfArr : List (List Int)) (p : Nat) : List Int := halfArr.getD p []

/-- The lambda `insertIntoMasterList`: `nLoop` goes before the first loop of lower
priority, or to the end. -/
def insertIntoMasterList (priority : List Int) (nLoop : Nat) : List Nat → List Nat
  | [] => [nLoop]
  | i :: rest =>
    if priorityAt priority i < priorityAt priority nLoop then nLoop :: i :: rest
    else i :: insertIntoMasterList priority nLoop rest

/-- The list `masterList` after its construction from `half2loop`, `remove(0)` and the
sort by descending priority; `std::list::sort` is stable, which is what inserting the
loops one by one behind the loops of the same priority gives. -/
def sortMasterList (L : Loops) : List Nat :=
  (L.half2loop.filterMap id).foldl (fun l p => insertIntoMasterList L.priority p l) []

/-- `masterList.remove(loop)`: every occurrence of the pointer goes. -/
def removeLoop (loop : Nat) (l : List Nat) : List Nat := l.filter (fun q => q != loop)

/-- The lambda `mattingValue`, on the two `halfArr`. -/
def mattingValue (epj : Int → Int → Frac) (arr0 arr1 : List Int) : Frac :=
  if arr0.length = 1 ∧ arr1.length = 1 then ⟨1, 1⟩
  else
    let values := (arr0.map (fun h0 => arr1.map (fun h1 => (epj h0 h1).pow10))).flatten
    let avg := (Frac.sum values).divNat values.length
    let kept := values.filter (fun v => !(v.lt avg))
    let result := (Frac.sum kept).divNat kept.length
    if result.isZero then ⟨1, 10⟩ else result

/-- The writes `half2loop[h.id] = loop0` for the half-edges `h` of a list, in order. -/
def setLoops (loop0 : Nat) : List Int → List (Option Nat) → Except Fault (List (Option Nat))
  | [], half2loop => .ok half2loop
  | h :: rest, half2loop =>
    match modifyAt half2loop h (fun _ => some loop0) with
    | .error e => .error e
    | .ok half2loop1 => setLoops loop0 rest half2loop1

/-- The test "is closed" on a `halfArr`:
`mesh.topo(halfArr.front()).from() == mesh.topo(halfArr.back()).to()`. -/
def closedE (m : Mesh VD HD FD) (arr : List Int) : Except Fault Bool :=
  match arr.head?, arr.getLast? with
  | some f, some b =>
    match fromE m f with
    | .error e => .error e
    | .ok vf =>
      match toE m b with
      | .error e => .error e
      | .ok vb => .ok (decide (vf = vb))
  | _, _ => .error .outOfBounds

/-- The lambda `connectLoop`. With `loop0 == loop1` the source appends to the vector
it is iterating over, which is a fault here. -/
def connectLoop (m : Mesh VD HD FD) (epj : Int → Int → Frac) (L : Loops) (loop0 loop1 : Nat) :
    Except Fault Loops :=
  if loop0 = loop1 then .error .outOfBounds
  else
    match (halfArrAt L.halfArr loop0).getLast?, (halfArrAt L.halfArr loop1).head? with
    | some b, some f =>
      match toE m b with
      | .error e => .error e
      | .ok vb =>
        match fromE m f with
        | .error e => .error e
        | .ok vf =>
          if vb = vf then
            let mab := mattingValue epj (halfArrAt L.halfArr loop0) (halfArrAt L.halfArr loop1)
            let p : Int := (((⟨4, 10⟩ : Frac).mul mab).mul
              ⟨priorityAt L.priority loop0 + priorityAt L.priority loop1, 1⟩).toInt
            match setLoops loop0 (halfArrAt L.halfArr loop1) L.half2loop with
            | .error e => .error e
            | .ok half2loop1 =>
              .ok ⟨L.halfArr.set loop0 (halfArrAt L.halfArr loop0 ++ halfArrAt L.halfArr loop1),
                L.priority.set loop0 p, half2loop1⟩
          else .error .assertion
    | _, _ => .error .outOfBounds

/-- What a lambda of `SearchAndAddFaces` works on: the `Loop` objects with `half2loop`,
the list it was handed (`masterList` or `workingCopy`) and `faceLoopArr`. -/
structure Work where
  loops : Loops
  list : List Nat
  faceLoopArr : List Nat

/-- The common tail of the moves, after `connectLoop` returned `nLoop`: a closed loop
gets priority 0 and goes to `faceLoopArr` (result 2), an open one goes back into the
list (result 1). -/
def closeOrInsert (m : Mesh VD HD FD) (w : Work) (nLoop : Nat) : Except Fault (Int × Work) :=
  match closedE m (halfArrAt w.loops.halfArr nLoop) with
  | .error e => .error e
  | .ok true =>
    .ok (2, ⟨⟨w.loops.halfArr, w.loops.priority.set nLoop 0, w.loops.half2loop⟩, w.list,
      w.faceLoopArr ++ [nLoop]⟩)
  | .ok false =>
    .ok (1, ⟨w.loops, insertIntoMasterList w.loops.priority nLoop w.list, w.faceLoopArr⟩)

/-- The two `remove`, `connectLoop(loop0, loop1)` and the common tail of the moves. -/
def connectMove (m : Mesh VD HD FD) (epj : Int → Int → Frac) (w : Work) (loop0 loop1 : Nat) :
    Except Fault (Int × Work) :=
  match connectLoop m epj w.loops loop0 loop1 with
  | .error e => .error e
  | .ok L1 => closeOrInsert m ⟨L1, removeLoop loop1 (removeLoop loop0 w.list), w.faceLoopArr⟩ loop0

/-- The half-edges of a list that are not removed and that the mask lets through, in
order (`halfsarr` of `firstMove`; its length is the count `c`). -/
def maskedOf (m : Mesh VD HD FD) (emsk : Int → Bool) : List Int → Except Fault (List Int)
  | [] => .ok []
  | h :: rest =>
    match skipped m emsk h with
    | .error e => .error e
    | .ok s =>
      match maskedOf m emsk rest with
      | .error e => .error e
      | .ok l => .ok (if s then l else h :: l)

/-- The search of `firstMove` for a vertex with three masked half-edges: `v3`, invalid
when there is none. -/
def findV3 (m : Mesh VD HD FD) (emsk : Int → Bool) :
    List (Triplet VertTopo VD) → Except Fault Int
  | [] => .ok Handle.none
  | v :: rest =>
    if !v.exists_ then findV3 m emsk rest
    else
      match maskedOf m emsk v.topo.halfedges with
      | .error e => .error e
      | .ok l => if l.length = 3 then .ok v.topo.hd else findV3 m emsk rest

/-- The loop `for (size_t j = 0; j < 3; j++)` of `firstMove`, on the values of `j`
still to come. -/
def firstMoveJ (m : Mesh VD HD FD) (epj : Int → Int → Frac) (halfsarr : List Int) :
    List Nat → Work → Except Fault (Int × Work)
  | [], w => .ok (0, w)
  | j :: rest, w =>
    match getAt halfsarr (j : Int) with
    | .error e => .error e
    | .ok hj =>
      match getAt halfsarr (((j + 1) % 3 : Nat) : Int) with
      | .error e => .error e
      | .ok hjnext =>
        match oppositeE m hj with
        | .error e => .error e
        | .ok hpos =>
          match getAt m.halfs hjnext with
          | .error e => .error e
          | .ok tnext =>
            match loopOf w.loops.half2loop hpos with
            | .error e => .error e
            | .ok loop0 =>
              match loopOf w.loops.half2loop tnext.topo.hd with
              | .error e => .error e
              | .ok loop1 =>
                match connectMove m epj w loop0 loop1 with
                | .error e => .error e
                | .ok r => if r.1 = 2 then .ok (2, r.2) else firstMoveJ m epj halfsarr rest r.2

/-- The loop `masterList.remove(loops[i])` of `firstMove` over the triangle. -/
def removeLoopsOf (half2loop : List (Option Nat)) : List Int → List Nat → Except Fault (List Nat)
  | [], l => .ok l
  | h :: rest, l =>
    match getAt half2loop h with
    | .error e => .error e
    | .ok none => removeLoopsOf half2loop rest l
    | .ok (some p) => removeLoopsOf half2loop rest (removeLoop p l)

/-- The lambda `firstMove`; `triLoop` is `none` while `triLoopFound` is false. -/
def firstMove (m : Mesh VD HD FD) (epj : Int → Int → Frac) (emsk : Int → Bool)
    (triLoop : Option (Int × Int × Int)) (w : Work) : Except Fault (Int × Work) :=
  match findV3 m emsk m.verts with
  | .error e => .error e
  | .ok v3 =>
    if Handle.valid v3 then
      match halfedgesE m v3 with
      | .error e => .error e
      | .ok halfs =>
        match maskedOf m emsk halfs with
        | .error e => .error e
        | .ok halfsarr =>
          if halfsarr.length = 3 then firstMoveJ m epj halfsarr [0, 1, 2] w
          else .error .assertion
    else
      match triLoop with
      | some t =>
        match removeLoopsOf w.loops.half2loop [t.1, t.2.1, t.2.2] w.list with
        | .error e => .error e
        | .ok list1 =>
          match setLoops w.loops.halfArr.length [t.1, t.2.1, t.2.2] w.loops.half2loop with
          | .error e => .error e
          | .ok half2loop1 =>
            .ok (0, ⟨⟨w.loops.halfArr ++ [[t.1, t.2.1, t.2.2]], w.loops.priority ++ [0],
              half2loop1⟩, list1, w.faceLoopArr ++ [w.loops.halfArr.length]⟩)
      | none => .ok (0, w)

end SearchMoveDefs
section SearchPassDefs

variable {VD HD FD : Type}

/-- The tests that the three passes share on a half-edge `endvh` leaving the end vertex
of a loop that ends in `endh`: whether `endvh` is passed over (removed or masked out,
the opposite of `endh`, on a loop of priority 0, or not the first of its loop). -/
def passedOver (m : Mesh VD HD FD) (emsk : Int → Bool) (L : Loops) (endh endvh : Int) :
    Except Fault Bool :=
  match skipped m emsk endvh with
  | .error e => .error e
  | .ok true => .ok true
  | .ok false =>
    match oppositeE m endvh with
    | .error e => .error e
    | .ok o =>
      if o = endh then .ok true
      else
        match loopOf L.half2loop endvh with
        | .error e => .error e
        | .ok p =>
          if priorityAt L.priority p = 0 then .ok true
          else
            match (halfArrAt L.halfArr p).head? with
            | none => .error .outOfBounds
            | some f => .ok (decide (f ≠ endvh))

/-- The loop `for (HalfH endvh : mesh.topo(endv).halfedges)` of
`detectAndPerformForceConnectionOnce`: `nextLoop` and `connectNum`. -/
def forceScan (m : Mesh VD HD FD) (emsk : Int → Bool) (L : Loops) (endh : Int) :
    List Int → Option Nat × Nat → Except Fault (Option Nat × Nat)
  | [], s => .ok s
  | endvh :: rest, s =>
    match passedOver m emsk L endh endvh with
    | .error e => .error e
    | .ok true => forceScan m emsk L endh rest s
    | .ok false =>
      match loopOf L.half2loop endvh with
      | .error e => .error e
      | .ok p =>
        if s.2 + 1 > 1 then .ok (if s.2 = 0 then some p else s.1, s.2 + 1)
        else forceScan m emsk L endh rest (if s.2 = 0 then some p else s.1, s.2 + 1)

/-- The loop `for (LoopPtr loop : masterList)` of `detectAndPerformForceConnectionOnce`,
on the loops still to come. -/
def forceLoop (m : Mesh VD HD FD) (epj : Int → Int → Frac) (emsk : Int → Bool) (w : Work) :
    List Nat → Except Fault (Int × Work)
  | [] => .ok (0, w)
  | loop :: rest =>
    match (halfArrAt w.loops.halfArr loop).getLast? with
    | none => .error .outOfBounds
    | some endh =>
      match toE m endh with
      | .error e => .error e
      | .ok endv =>
        match halfedgesE m endv with
        | .error e => .error e
        | .ok hs =>
          match forceScan m emsk w.loops endh hs (none, 0) with
          | .error e => .error e
          | .ok s =>
            if s.2 ≠ 1 then forceLoop m epj emsk w rest
            else
              match s.1 with
              | none => .error .outOfBounds
              | some nextLoop => connectMove m epj w loop nextLoop

/-- The lambda `detectAndPerformForceConnectionOnce` (an empty list gives 0). -/
def detectAndPerformForceConnectionOnce (m : Mesh VD HD FD) (epj : Int → Int → Frac)
    (emsk : Int → Bool) (w : Work) : Except Fault (Int × Work) :=
  forceLoop m epj emsk w w.list

/-- The test "opposite loops of loop and loop1 should not be the same", a comparison of
two pointers of `half2loop`. -/
def sameOppositeLoop (m : Mesh VD HD FD) (L : Loops) (loop loop1 : Nat) : Except Fault Bool :=
  match (halfArrAt L.halfArr loop).getLast?, (halfArrAt L.halfArr loop1).head? with
  | some b, some f =>
    match oppositeE m b with
    | .error e => .error e
    | .ok bo =>
      match oppositeE m f with
      | .error e => .error e
      | .ok fo =>
        match getAt L.half2loop bo with
        | .error e => .error e
        | .ok p =>
          match getAt L.half2loop fo with
          | .error e => .error e
          | .ok q => .ok (decide (p = q))
  | _, _ => .error .outOfBounds

/-- The loop `for (HalfH endvh : mesh.topo(endv).halfedges)` of
`detectAndPerformMergeOnce`: the first `loop1` that closes `loop`, if any. -/
def mergeScan (m : Mesh VD HD FD) (emsk : Int → Bool) (L : Loops) (loop : Nat) (endh : Int) :
    List Int → Except Fault (Option Nat)
  | [] => .ok none
  | endvh :: rest =>
    match passedOver m emsk L endh endvh with
    | .error e => .error e
    | .ok true => mergeScan m emsk L loop endh rest
    | .ok false =>
      match loopOf L.half2loop endvh with
      | .error e => .error e
      | .ok loop1 =>
        match (halfArrAt L.halfArr loop).head?, (halfArrAt L.halfArr loop1).getLast? with
        | some f, some b =>
          match fromE m f with
          | .error e => .error e
          | .ok vf =>
            match toE m b with
            | .error e => .error e
            | .ok vb =>
              if vf ≠ vb then mergeScan m emsk L loop endh rest
              else
                match sameOppositeLoop m L loop loop1 with
                | .error e => .error e
                | .ok true => mergeScan m emsk L loop endh rest
                | .ok false => .ok (some loop1)
        | _, _ => .error .outOfBounds

/-- The state after a closed loop of the list went to `faceLoopArr`. -/
def closeLoop (w : Work) (loop : Nat) : Work :=
  ⟨⟨w.loops.halfArr, w.loops.priority.set loop 0, w.loops.half2loop⟩, removeLoop loop w.list,
    w.faceLoopArr ++ [loop]⟩

/-- The loop `for (LoopPtr loop : masterList)` of `detectAndPerformMergeOnce`, on the
loops still to come. -/
def mergeLoop (m : Mesh VD HD FD) (epj : Int → Int → Frac) (emsk : Int → Bool) (w : Work) :
    List Nat → Except Fault (Int × Work)
  | [] => .ok (0, w)
  | loop :: rest =>
    match closedE m (halfArrAt w.loops.halfArr loop) with
    | .error e => .error e
    | .ok true => .ok (2, closeLoop w loop)
    | .ok false =>
      match (halfArrAt w.loops.halfArr loop).getLast? with
      | none => .error .outOfBounds
      | some endh =>
        match toE m endh with
        | .error e => .error e
        | .ok endv =>
          match halfedgesE m endv with
          | .error e => .error e
          | .ok hs =>
            match mergeScan m emsk w.loops loop endh hs with
            | .error e => .error e
            | .ok none => mergeLoop m epj emsk w rest
            | .ok (some loop1) =>
              match connectLoop m epj w.loops loop loop1 with
              | .error e => .error e
              | .ok L1 =>
                match closedE m (halfArrAt L1.halfArr loop) with
                | .error e => .error e
                | .ok false => .error .assertion
                | .ok true =>
                  .ok (2, ⟨⟨L1.halfArr, L1.priority.set loop 0, L1.half2loop⟩,
                    removeLoop loop1 (removeLoop loop w.list), w.faceLoopArr ++ [loop]⟩)

/-- The lambda `detectAndPerformMergeOnce` (an empty list gives 0). -/
def detectAndPerformMergeOnce (m : Mesh VD HD FD) (epj : Int → Int → Frac)
    (emsk : Int → Bool) (w : Work) : Except Fault (Int × Work) :=
  mergeLoop m epj emsk w w.list

/-- The loop `for (LoopPtr l : masterList)` of `performBestMergeOnce`: the first loop of
more than one half-edge, or the last loop; `cur` is `loop` before the round. -/
def lastOrLong (halfArr : List (List Int)) : List Nat → Nat → Nat
  | [], cur => cur
  | l :: rest, _ => if (halfArrAt halfArr l).length > 1 then l else lastOrLong halfArr rest l

/-- The loop `for (HalfH endvh : mesh.topo(endv).halfedges)` of `performBestMergeOnce`:
`bestEndvh`, `bestMattingValue` and `bestLoop1`. -/
def bestScan (m : Mesh VD HD FD) (epj : Int → Int → Frac) (emsk : Int → Bool) (L : Loops)
    (loop : Nat) (endh : Int) :
    List Int → Int × Frac × Option Nat → Except Fault (Int × Frac × Option Nat)
  | [], s => .ok s
  | endvh :: rest, s =>
    match passedOver m emsk L endh endvh with
    | .error e => .error e
    | .ok true => bestScan m epj emsk L loop endh rest s
    | .ok false =>
      match loopOf L.half2loop endvh with
      | .error e => .error e
      | .ok loop1 =>
        match sameOppositeLoop m L loop loop1 with
        | .error e => .error e
        | .ok true => bestScan m epj emsk L loop endh rest s
        | .ok false =>
          if s.2.1.lt (mattingValue epj (halfArrAt L.halfArr loop) (halfArrAt L.halfArr loop1))
          then
            bestScan m epj emsk L loop endh rest
              (endvh, mattingValue epj (halfArrAt L.halfArr loop) (halfArrAt L.halfArr loop1),
                some loop1)
          else bestScan m epj emsk L loop endh rest s

/-- The lambda `performBestMergeOnce`. -/
def performBestMergeOnce (m : Mesh VD HD FD) (epj : Int → Int → Frac) (emsk : Int → Bool)
    (w : Work) : Except Fault (Int × Work) :=
  match w.list with
  | [] => .ok (0, w)
  | front :: rest =>
    let l := lastOrLong w.loops.halfArr (front :: rest) front
    let loop := if (halfArrAt w.loops.halfArr l).length = 1 then front else l
    match closedE m (halfArrAt w.loops.halfArr loop) with
    | .error e => .error e
    | .ok true => .ok (2, closeLoop w loop)
    | .ok false =>
      match (halfArrAt w.loops.halfArr loop).getLast? with
      | none => .error .outOfBounds
      | some endh =>
        match toE m endh with
        | .error e => .error e
        | .ok endv =>
          match halfedgesE m endv with
          | .error e => .error e
          | .ok hs =>
            match bestScan m epj emsk w.loops loop endh hs (Handle.none, ⟨-1, 1⟩, none) with
            | .error e => .error e
            | .ok s =>
              if Handle.invalid s.1 then .ok (0, w)
              else
                match s.2.2 with
                | none => .error .outOfBounds
                | some bestLoop1 => connectMove m epj w loop bestLoop1

end SearchPassDefs
section SearchFlowDefs

variable {VD HD FD : Type}

/-- The labels of the workflow of `SearchAndAddFaces`. -/
inductive Label where
  | TopForce
  | TopMerge
  | SubMatting
  | SubForce
  | SubMerge
  | End
deriving DecidableEq

/-- The variables of the workflow: the `Loop` objects with `half2loop`, and the three
lists `masterList`, `workingCopy` and `faceLoopArr`. -/
structure Search where
  loops : Loops
  masterList : List Nat
  workingCopy : List Nat
  faceLoopArr : List Nat

/-- One label of the workflow, from its test to its `goto`: the next label and the
variables there. -/
def workflowStep (m : Mesh VD HD FD) (epj : Int → Int → Frac) (emsk : Int → Bool) :
    Label → Search → Except Fault (Label × Search)
  | .End, s => .ok (.End, s)
  | .TopForce, s =>
    if s.masterList.isEmpty then .ok (.End, s)
    else
      match detectAndPerformForceConnectionOnce m epj emsk
          ⟨s.loops, s.masterList, s.faceLoopArr⟩ with
      | .error e => .error e
      | .ok r =>
        .ok (if r.1 = 0 then .TopMerge else .TopForce,
          ⟨r.2.loops, r.2.list, s.workingCopy, r.2.faceLoopArr⟩)
  | .TopMerge, s =>
    if s.masterList.isEmpty then .ok (.End, s)
    else
      match detectAndPerformMergeOnce m epj emsk ⟨s.loops, s.masterList, s.faceLoopArr⟩ with
      | .error e => .error e
      | .ok r =>
        if r.1 = 0 then .ok (.SubMatting, ⟨r.2.loops, r.2.list, r.2.list, r.2.faceLoopArr⟩)
        else .ok (.TopForce, ⟨r.2.loops, r.2.list, s.workingCopy, r.2.faceLoopArr⟩)
  | .SubMatting, s =>
    if s.masterList.isEmpty then .ok (.End, s)
    else
      match performBestMergeOnce m epj emsk ⟨s.loops, s.workingCopy, s.faceLoopArr⟩ with
      | .error e => .error e
      | .ok r =>
        if r.1 = 2 then .ok (.TopForce, ⟨r.2.loops, r.2.list, r.2.list, r.2.faceLoopArr⟩)
        else .ok (.SubForce, ⟨r.2.loops, s.masterList, r.2.list, r.2.faceLoopArr⟩)
  | .SubForce, s =>
    if s.masterList.isEmpty then .ok (.End, s)
    else
      match detectAndPerformForceConnectionOnce m epj emsk
          ⟨s.loops, s.workingCopy, s.faceLoopArr⟩ with
      | .error e => .error e
      | .ok r =>
        if r.1 = 2 then .ok (.TopForce, ⟨r.2.loops, r.2.list, r.2.list, r.2.faceLoopArr⟩)
        else
          .ok (if r.1 = 0 then .SubMerge else .SubForce,
            ⟨r.2.loops, s.masterList, r.2.list, r.2.faceLoopArr⟩)
  | .SubMerge, s =>
    if s.masterList.isEmpty then .ok (.End, s)
    else
      match detectAndPerformMergeOnce m epj emsk ⟨s.loops, s.workingCopy, s.faceLoopArr⟩ with
      | .error e => .error e
      | .ok r =>
        if r.1 = 2 then .ok (.TopForce, ⟨r.2.loops, r.2.list, r.2.list, r.2.faceLoopArr⟩)
        else .ok (.SubMatting, ⟨r.2.loops, s.masterList, r.2.list, r.2.faceLoopArr⟩)

/-- The workflow from a label on, for at most `fuel` labels: the variables at
`Label_End`, or `none` when `Label_End` was not reached. -/
def workflow (m : Mesh VD HD FD) (epj : Int → Int → Frac) (emsk : Int → Bool) :
    Nat → Label → Search → Except Fault (Option Search)
  | _, .End, s => .ok (some s)
  | 0, _, _ => .ok none
  | fuel + 1, l, s =>
    match workflowStep m epj emsk l s with
    | .error e => .error e
    | .ok r => workflow m epj emsk fuel r.1 r.2

/-- The state in which `SearchAndAddFaces` calls `firstMove`: the loops of the
half-edges with their priorities, the triangle found, and the sorted `masterList`. -/
def searchStart (m : Mesh VD HD FD) (epj : Int → Int → Frac) (emsk : Int → Bool) :
    Except Fault (Option (Int × Int × Int) × Work) :=
  match triLoopV m emsk (seedLoops emsk m.halfs 0 ⟨[], [], []⟩).half2loop m.verts
      ((seedLoops emsk m.halfs 0 ⟨[], [], []⟩).priority, none) with
  | .error e => .error e
  | .ok tri =>
    match quadLoopI m epj emsk m.halfs.length (List.range m.halfs.length)
        (0, List.replicate m.halfs.length []) with
    | .error e => .error e
    | .ok quad =>
      match quadPriorities (seedLoops emsk m.halfs 0 ⟨[], [], []⟩).half2loop quad.2 m.halfs
          tri.1 with
      | .error e => .error e
      | .ok priority =>
        .ok (tri.2,
          ⟨⟨(seedLoops emsk m.halfs 0 ⟨[], [], []⟩).halfArr, priority,
              (seedLoops emsk m.halfs 0 ⟨[], [], []⟩).half2loop⟩,
            sortMasterList ⟨(seedLoops emsk m.halfs 0 ⟨[], [], []⟩).halfArr, priority,
              (seedLoops emsk m.halfs 0 ⟨[], [], []⟩).half2loop⟩, []⟩)

/-- `SearchAndAddFaces` up to `Label_End`: the variables there, or `none` when the
workflow has not reached `Label_End` within `fuel` labels. -/
def searchLoops (m : Mesh VD HD FD) (epj : Int → Int → Frac) (emsk : Int → Bool)
    (fuel : Nat) : Except Fault (Option Search) :=
  match searchStart m epj emsk with
  | .error e => .error e
  | .ok st =>
    match firstMove m epj emsk st.1 st.2 with
    | .error e => .error e
    | .ok r =>
      workflow m epj emsk fuel (if r.1 = 2 then .TopMerge else .TopForce)
        ⟨r.2.loops, r.2.list, [], r.2.faceLoopArr⟩

/-- The loop `for (LoopPtr loop : faceLoopArr) mesh.addFace(loop->halfArr)`. -/
def addFaceLoops [Inhabited FD] : Mesh VD HD FD → List (List Int) → Except Fault (Mesh VD HD FD)
  | m, [] => .ok m
  | m, arr :: rest =>
    match m.addFace arr default with
    | .error e => .error e
    | .ok r => addFaceLoops r.1 rest

/-- `SearchAndAddFaces(mesh, epj, emsk)`: the mesh after the call, or `none` when the
workflow has not reached `Label_End` within `fuel` labels. -/
def SearchAndAddFaces [Inhabited FD] (m : Mesh VD HD FD) (epj : Int → Int → Frac)
    (emsk : Int → Bool) (fuel : Nat) : Except Fault (Option (Mesh VD HD FD)) :=
  match searchLoops m epj emsk fuel with
  | .error e => .error e
  | .ok none => .ok none
  | .ok (some s) =>
    match addFaceLoops m (s.faceLoopArr.map (halfArrAt s.loops.halfArr)) with
    | .error e => .error e
    | .ok m1 => .ok (some m1)

/-- The wire triangle: three vertices and the edges `0 - 1`, `1 - 2`, `2 - 0`, no
face. -/
def wireTriangle : Mesh Unit Dummy Dummy :=
  meshOf ((threeVertexMesh.addEdge 0 1 () () true).bind fun r1 =>
    (r1.1.addEdge 1 2 () () true).bind fun r2 =>
      (r2.1.addEdge 2 0 () () true).map Prod.fst)

/-- The wire triangle with the two faces `addFace({0, 2, 4})` and
`addFace({3, 1, 5})`. -/
def facedTriangle : Mesh Unit Dummy Dummy :=
  meshOf ((wireTriangle.addFace [0, 2, 4] ()).bind fun r =>
    (r.1.addFace [3, 1, 5] ()).map Prod.fst)

/-- The wire edge: two vertices and the edge `0 - 1`, no face. -/
def wireEdge : Mesh Unit Dummy Dummy := meshOf (oneEdgeMesh.map Prod.fst)

/-- The variables of the workflow on `wireEdge` after `firstMove`: the two loops of one
half-edge each, both in `masterList`. -/
def wireEdgeTop : Search := ⟨⟨[[0], [1]], [100, 100], [some 0, some 1]⟩, [0, 1], [], []⟩

/-- The variables of the workflow on `wireEdge` after `workingCopy = masterList`. -/
def wireEdgeSub : Search := ⟨⟨[[0], [1]], [100, 100], [some 0, some 1]⟩, [0, 1], [0, 1], []⟩

end SearchFlowDefs
section SearchInvDefs

variable {VD HD FD : Type}

/-- The pointer `p` is the loop of some half-edge in `half2loop`. -/
def Loops.Cur (L : Loops) (p : Nat) : Prop := ∃ h, getAt L.half2loop h = .ok (some p)

/-- Consecutive half-edges of the list share a vertex: `to(h_i) == from(h_{i+1})`. -/
def Mesh.Linked (m : Mesh VD HD FD) (arr : List Int) : Prop :=
  arr.Chain' (fun a b => m.toOf a = m.fromOf b)

/-- The list is not empty and its last half-edge ends at the from-vertex of its
first. -/
def Mesh.ClosedLoop (m : Mesh VD HD FD) (arr : List Int) : Prop :=
  ∃ f b, arr.head? = some f ∧ arr.getLast? = some b ∧ m.toOf b = m.fromOf f

/-- The loops partition the masked half-edges: every non-removed half-edge that the
mask lets through has a loop, a half-edge with a loop is such a half-edge and is in the
`halfArr` of its loop, and the `halfArr` of the loop of a half-edge holds, once each and
linked, half-edges of that very loop. -/
structure LoopInv (m : Mesh VD HD FD) (emsk : Int → Bool) (L : Loops) : Prop where
  len : L.priority.length = L.halfArr.length
  total : ∀ h, liveIn m.halfs h = true → emsk h = true →
    ∃ p, getAt L.half2loop h = .ok (some p)
  seeded : ∀ h p, getAt L.half2loop h = .ok (some p) →
    liveIn m.halfs h = true ∧ emsk h = true ∧ p < L.halfArr.length ∧
      h ∈ halfArrAt L.halfArr p
  own : ∀ p, L.Cur p → ∀ x ∈ halfArrAt L.halfArr p, getAt L.half2loop x = .ok (some p)
  nodup : ∀ p, L.Cur p → (halfArrAt L.halfArr p).Nodup
  linked : ∀ p, L.Cur p → m.Linked (halfArrAt L.halfArr p)

/-- What holds of the loops, of the list a lambda of `SearchAndAddFaces` works on and of
`faceLoopArr`: the loops partition the masked half-edges; the loops of `faceLoopArr` are
different loops of half-edges, closed and of priority 0; the loops of the list are loops
of half-edges and not in `faceLoopArr`. -/
structure WorkInv (m : Mesh VD HD FD) (emsk : Int → Bool) (w : Work) : Prop where
  loops : LoopInv m emsk w.loops
  faceNodup : w.faceLoopArr.Nodup
  faceCur : ∀ p ∈ w.faceLoopArr, w.loops.Cur p
  faceClosed : ∀ p ∈ w.faceLoopArr, m.ClosedLoop (halfArrAt w.loops.halfArr p)
  faceZero : ∀ p ∈ w.faceLoopArr, priorityAt w.loops.priority p = 0
  listCur : ∀ p ∈ w.list, w.loops.Cur p
  listOpen : ∀ p ∈ w.list, p ∉ w.faceLoopArr

/-- What holds of the loops while the first loop of `SearchAndAddFaces` has seen the
first `i` slots of `_halfs`, and of the loops from then up to `firstMove`: a slot has a
loop exactly when it is a non-removed half-edge that the mask lets through, and that
loop holds this half-edge alone. -/
structure SeedInv (m : Mesh VD HD FD) (emsk : Int → Bool) (i : Nat) (L : Loops) : Prop where
  len : L.priority.length = L.halfArr.length
  size : L.half2loop.length = i
  total : ∀ h : Int, h.toNat < i → liveIn m.halfs h = true → emsk h = true →
    ∃ p, getAt L.half2loop h = .ok (some p)
  seeded : ∀ h p, getAt L.half2loop h = .ok (some p) →
    liveIn m.halfs h = true ∧ emsk h = true ∧ p < L.halfArr.length ∧
      halfArrAt L.halfArr p = [h]

/-- The triangle that the search for a triangle has recorded is one: its three
half-edges have loops, each ends where the next starts, and the last ends where the
first starts. -/
def TriOK (m : Mesh VD HD FD) (half2loop : List (Option Nat)) (t : Int × Int × Int) : Prop :=
  (∀ x ∈ [t.1, t.2.1, t.2.2], ∃ p, getAt half2loop x = .ok (some p)) ∧
    m.toOf t.1 = m.fromOf t.2.1 ∧ m.toOf t.2.1 = m.fromOf t.2.2 ∧
    m.toOf t.2.2 = m.fromOf t.1

/-- What holds of the variables of the workflow at a label: `WorkInv`, for the list
that the lambdas are handed from that label on (`masterList` at the two top labels,
`workingCopy` at the three sub labels, no list at `Label_End`). -/
def SearchInv (m : Mesh VD HD FD) (emsk : Int → Bool) (l : Label) (s : Search) : Prop :=
  match l with
  | .TopForce => WorkInv m emsk ⟨s.loops, s.masterList, s.faceLoopArr⟩
  | .TopMerge => WorkInv m emsk ⟨s.loops, s.masterList, s.faceLoopArr⟩
  | .SubMatting => WorkInv m emsk ⟨s.loops, s.workingCopy, s.faceLoopArr⟩
  | .SubForce => WorkInv m emsk ⟨s.loops, s.workingCopy, s.faceLoopArr⟩
  | .SubMerge => WorkInv m emsk ⟨s.loops, s.workingCopy, s.faceLoopArr⟩
  | .End => WorkInv m emsk ⟨s.loops, [], s.faceLoopArr⟩

end SearchInvDefs

section StitchKeptDefs

variable {VD HD FD : Type}

/-- How the table `ys` comes from the table `xs` of half-edges through the loop that
redirects the set `R` from `vh` to `vh2`: the half-edges of `R` leave `vh2`, a
half-edge whose `to` has changed ended at `vh`, ends at `vh2` and is not `hh`, and no
other field has changed. -/
def EndsMoved (vh vh2 hh : Int) (R : List Int) (xs ys : List (Triplet HalfTopo HD)) : Prop :=
  ys.length = xs.length ∧ ∀ x t, getAt xs x = .ok t → ∃ t2, getAt ys x = .ok t2 ∧
    t2.topo.hd = t.topo.hd ∧ t2.topo.opposite = t.topo.opposite ∧
    t2.topo.face = t.topo.face ∧ t2.exists_ = t.exists_ ∧
    t2.topo.efrom = (if x ∈ R then vh2 else t.topo.efrom) ∧
    (t2.topo.eto = t.topo.eto ∨ (t.topo.eto = vh ∧ t2.topo.eto = vh2 ∧ x ≠ hh))

/-- What the state `st` of the first loop of `DecomposeOnInternalLoop` after `i` rounds
on the loop `p` of the mesh `m` keeps, besides `CutInv`: a half-edge keeps its handle,
face and tombstone flag, and an end of it has moved only from the end vertex of a round
to the new vertex of that round; a non-removed half-edge is in the outgoing list of its
`from` vertex; the loop half-edges keep their ends; the opposite of the loop half-edge of
a round leaves the new vertex of the round, and the opposite of the next loop half-edge
ends there. -/
structure CutMore (m : Mesh VD HD FD) (p : List Int) (i : Nat) (st : Cut VD HD FD) : Prop where
  fields : ∀ x t, getAt m.halfs x = .ok t → ∃ t2, getAt st.mesh.halfs x = .ok t2 ∧
    t2.topo.hd = t.topo.hd ∧ t2.topo.face = t.topo.face ∧ t2.exists_ = t.exists_ ∧
    (t2.topo.efrom = t.topo.efrom ∨ ∃ j, j < i ∧
      t.topo.efrom = m.toOf (p.getD j Handle.none) ∧
      t2.topo.efrom = (m.verts.length : Int) + (j : Int)) ∧
    (t2.topo.eto = t.topo.eto ∨ ∃ j, j < i ∧
      t.topo.eto = m.toOf (p.getD j Handle.none) ∧
      t2.topo.eto = (m.verts.length : Int) + (j : Int))
  inList : ∀ x, liveIn m.halfs x = true →
    ∃ vt, getAt st.mesh.verts (st.mesh.fromOf x) = .ok vt ∧ x ∈ vt.topo.halfedges
  loopEnds : ∀ x ∈ p, st.mesh.fromOf x = m.fromOf x ∧ st.mesh.toOf x = m.toOf x
  oppFrom : ∀ j, j < i →
    st.mesh.fromOf (m.oppOf (p.getD j Handle.none)) = (m.verts.length : Int) + (j : Int)
  oppTo : ∀ j, j < i →
    st.mesh.toOf (m.oppOf (p.getD ((j + 1) % p.length) Handle.none))
      = (m.verts.length : Int) + (j : Int)

/-- Between the vertices `a` and `b` of the mesh one half-edge waits to be sewn: no
half-edge in the outgoing list of `a` ends at `b`, and `e` is the one half-edge in the
outgoing list of `b` that ends at `a`. On such a pair `addEdge(a, b)` with merging creates
the half-edge `a -> b` and makes it and `e` the opposite of each other. -/
def Mesh.Sewable (M : Mesh VD HD FD) (a b e : Int) : Prop :=
  a ≠ b ∧ ∃ va vb, getAt M.verts a = .ok va ∧ getAt M.verts b = .ok vb ∧
    (∀ y ∈ va.topo.halfedges, M.toOf y ≠ b) ∧ e ∈ vb.topo.halfedges ∧ M.toOf e = a ∧
    ∀ y ∈ vb.topo.halfedges, M.toOf y = a → y = e

/-- The mesh `Mk` after `k` rounds of the second loop of `addFace(vertices)` on the
winding `w` of the mesh `M`, when round `j` has created one half-edge and sewn it to the
half-edge `e j`: `k` new half-edges, round `j` the one from `w[j]` to the next vertex with
opposite `e j`, at the end of the outgoing list of `w[j]`; of an old half-edge only the
`opposite` has changed, and only that of `e j`, to the half-edge of round `j`. -/
structure SewnTo [Inhabited HD] (M : Mesh VD HD FD) (w : List Int) (e : Nat → Int) (k : Nat)
    (Mk : Mesh VD HD FD) : Prop where
  faces : Mk.faces = M.faces
  hlen : Mk.halfs.length = M.halfs.length + k
  vlen : Mk.verts.length = M.verts.length
  old : ∀ x t, getAt M.halfs x = .ok t → ∃ t2, getAt Mk.halfs x = .ok t2 ∧
    t2.topo.hd = t.topo.hd ∧ t2.topo.efrom = t.topo.efrom ∧ t2.topo.eto = t.topo.eto ∧
    t2.topo.face = t.topo.face ∧ t2.exists_ = t.exists_ ∧
    (∀ j, j < k → x = e j → t2.topo.opposite = (M.halfs.length : Int) + (j : Int)) ∧
    ((∀ j, j < k → x ≠ e j) → t2.topo.opposite = t.topo.opposite)
  fresh : ∀ j, j < k → getAt Mk.halfs ((M.halfs.length : Int) + (j : Int))
    = .ok ⟨⟨(M.halfs.length : Int) + (j : Int), (cyclePair w j).1, (cyclePair w j).2,
        e j, Handle.none⟩, default, true⟩
  verts : ∀ u vt, getAt M.verts u = .ok vt → ∃ vt2, getAt Mk.verts u = .ok vt2 ∧
    vt2.topo.hd = vt.topo.hd ∧ vt2.exists_ = vt.exists_ ∧
    (∀ j, j < k → u = w.getD j Handle.none →
      vt2.topo.halfedges = vt.topo.halfedges ++ [(M.halfs.length : Int) + (j : Int)]) ∧
    ((∀ j, j < k → u ≠ w.getD j Handle.none) → vt2.topo.halfedges = vt.topo.halfedges)

/-- The condition of `AssertEdgesAreStiched` on every non-removed half-edge, but for the
pairing of the half-edges of the set `S` (the ones detached and not yet sewn again): the
stored handle is the position; `face`, `from` and `to` are valid; the half-edge is in the
list of its `from` vertex and of its face; and one outside `S` has its opposite outside
`S`, paired back. -/
def Mesh.StitchedBut (M : Mesh VD HD FD) (S : Int → Prop) : Prop :=
  ∀ x t, getAt M.halfs x = .ok t → t.exists_ = true →
    t.topo.hd = x ∧ 0 ≤ t.topo.face ∧ 0 ≤ t.topo.efrom ∧ 0 ≤ t.topo.eto ∧
    (∃ vt, getAt M.verts t.topo.efrom = .ok vt ∧ x ∈ vt.topo.halfedges) ∧
    (∃ ft, getAt M.faces t.topo.face = .ok ft ∧ x ∈ ft.topo.halfedges) ∧
    (¬ S x → ¬ S t.topo.opposite ∧
      ∃ ot, getAt M.halfs t.topo.opposite = .ok ot ∧ ot.topo.opposite = x)

/-- The octahedron with a second edge between the vertices `2` and `3`:
`addEdge(2, 3, hd, hdrev, false)` appends the half-edges `24` (`2 -> 3`) and `25`
(`3 -> 2`) beside the half-edges of the edge the octahedron has between the two. -/
def octEdgeMesh : Mesh Unit Dummy Dummy :=
  meshOf ((octahedron.addEdge 2 3 () () false).map Prod.fst)

/-- The mesh `octEdgeMesh` with the face `addFace({24, 25})` on the two half-edges of
the second edge. -/
def octParMesh : Mesh Unit Dummy Dummy :=
  meshOf ((octEdgeMesh.addFace [24, 25] ()).map Prod.fst)

/-- The mesh that `DecomposeOnInternalLoop` leaves of `octParMesh` on the loop
`[6, 10, 14, 2]`. -/
def octParCut : Mesh Unit Dummy Dummy :=
  match DecomposeOnInternalLoop octParMesh [6, 10, 14, 2] () () 20 with
  | .ok (some r) => r.1
  | _ => Mesh.empty

end StitchKeptDefs

/-! ## Table accesses -/

section Basics

variable {VD HD FD : Type} {α : Type}

theorem getAt_eq_ok {xs : List α} {h : Int} {x : α} :
    getAt xs h = .ok x ↔ 0 ≤ h ∧ xs[h.toNat]? = some x := by
  unfold getAt
  by_cases hneg : h < 0
  · simp [hneg]
  · cases hx : xs[h.toNat]? <;> simp [hneg, hx, Int.not_lt.mp hneg]

theorem getAt_natCast {xs : List α} {i : Nat} : getAt xs (i : Int) =
    match xs[i]? with
    | some x => .ok x
    | none => .error .outOfBounds := by
  unfold getAt
  have : ¬ ((i : Int) < 0) := by omega
  simp [this]

theorem modifyAt_eq_ok {xs ys : List α} {h : Int} {f : α → α} :
    modifyAt xs h f = .ok ys ↔
      ∃ x, 0 ≤ h ∧ xs[h.toNat]? = some x ∧ ys = xs.set h.toNat (f x) := by
  unfold modifyAt
  by_cases hneg : h < 0
  · simp [hneg]
  · cases hx : xs[h.toNat]? <;> simp [hneg, hx, Int.not_lt.mp hneg, eq_comm]

theorem modifyAt_length {xs ys : List α} {h : Int} {f : α → α}
    (hm : modifyAt xs h f = .ok ys) : ys.length = xs.length := by
  obtain ⟨x, _, _, rfl⟩ := modifyAt_eq_ok.mp hm
  simp

theorem modifyAt_getElem? {xs ys : List α} {h : Int} {f : α → α}
    (hm : modifyAt xs h f = .ok ys) (j : Nat) :
    ys[j]? = if j = h.toNat then (xs[j]?).map f else xs[j]? := by
  obtain ⟨x, h0, hx, rfl⟩ := modifyAt_eq_ok.mp hm
  by_cases hj : j = h.toNat
  · subst hj
    have hlt : h.toNat < xs.length := by
      rcases List.getElem?_eq_some_iff.mp hx with ⟨hl, _⟩
      exact hl
    simp [hx, List.getElem?_set_self hlt]
  · have hne : h.toNat ≠ j := fun e => hj e.symm
    simp [hj, List.getElem?_set_ne hne]

theorem getElem?_updAt (xs : List α) (i : Nat) (f : α → α) (j : Nat) :
    (updAt xs i f)[j]? = if j = i then (xs[j]?).map f else xs[j]? := by
  unfold updAt
  cases hx : xs[i]? with
  | none =>
    by_cases hj : j = i
    · subst hj
      simp [hx]
    · simp [hj]
  | some x =>
    by_cases hj : j = i
    · subst hj
      have hlt : j < xs.length := (List.getElem?_eq_some_iff.mp hx).1
      simp [hx, List.getElem?_set_self hlt]
    · have hne : i ≠ j := fun e => hj e.symm
      simp [hj, List.getElem?_set_ne hne]

@[simp] theorem length_updAt (xs : List α) (i : Nat) (f : α → α) :
    (updAt xs i f).length = xs.length := by
  unfold updAt
  cases xs[i]? <;> simp

theorem modifyAt_eq_ok_updAt {xs ys : List α} {h : Int} {f : α → α} :
    modifyAt xs h f = .ok ys ↔ 0 ≤ h ∧ h.toNat < xs.length ∧ ys = updAt xs h.toNat f := by
  rw [modifyAt_eq_ok]
  constructor
  · rintro ⟨x, h0, hx, rfl⟩
    refine ⟨h0, (List.getElem?_eq_some_iff.mp hx).1, ?_⟩
    simp [updAt, hx]
  · rintro ⟨h0, hlt, rfl⟩
    refine ⟨xs[h.toNat], h0, List.getElem?_eq_getElem hlt, ?_⟩
    simp [updAt, List.getElem?_eq_getElem hlt]

theorem getAt_isOk_iff {xs : List α} {h : Int} :
    (∃ x, getAt xs h = .ok x) ↔ 0 ≤ h ∧ h.toNat < xs.length := by
  constructor
  · rintro ⟨x, hx⟩
    obtain ⟨h0, hx⟩ := getAt_eq_ok.mp hx
    exact ⟨h0, (List.getElem?_eq_some_iff.mp hx).1⟩
  · rintro ⟨h0, hlt⟩
    exact ⟨xs[h.toNat], getAt_eq_ok.mpr ⟨h0, List.getElem?_eq_getElem hlt⟩⟩

theorem modifyAt_isOk {xs : List α} {h : Int} {f : α → α} {x : α}
    (hx : getAt xs h = .ok x) : modifyAt xs h f = .ok (xs.set h.toNat (f x)) := by
  obtain ⟨h0, hx⟩ := getAt_eq_ok.mp hx
  exact modifyAt_eq_ok.mpr ⟨x, h0, hx, rfl⟩

end Basics

/-! ## Frame lemmas for `remove` -/

section RemoveFrame

variable {VD HD FD : Type} {α β : Type}

theorem bind_eq_ok {x : Except Fault α} {f : α → Except Fault β} {b : β} :
    (x >>= f) = .ok b ↔ ∃ a, x = .ok a ∧ f a = .ok b := by
  cases x <;> simp [bind, Except.bind]

theorem modifyHalf_eq_ok {m m' : Mesh VD HD FD} {h : Int}
    {f : Triplet HalfTopo HD → Triplet HalfTopo HD} :
    m.modifyHalf h f = .ok m' ↔
      ∃ halfs, modifyAt m.halfs h f = .ok halfs ∧ m' = { m with halfs := halfs } := by
  unfold Mesh.modifyHalf
  cases hm : modifyAt m.halfs h f <;> simp [eq_comm]

theorem modifyHalf_frame {m m' : Mesh VD HD FD} {h : Int}
    {f : Triplet HalfTopo HD → Triplet HalfTopo HD} (hm : m.modifyHalf h f = .ok m') :
    m'.verts = m.verts ∧ m'.faces = m.faces ∧ m'.halfs.length = m.halfs.length := by
  obtain ⟨halfs, hh, rfl⟩ := modifyHalf_eq_ok.mp hm
  exact ⟨rfl, rfl, modifyAt_length hh⟩

theorem modifyHalf_getElem? {m m' : Mesh VD HD FD} {h : Int}
    {f : Triplet HalfTopo HD → Triplet HalfTopo HD} (hm : m.modifyHalf h f = .ok m')
    (j : Nat) : m'.halfs[j]? = if j = h.toNat then (m.halfs[j]?).map f else m.halfs[j]? := by
  obtain ⟨halfs, hh, rfl⟩ := modifyHalf_eq_ok.mp hm
  exact modifyAt_getElem? hh j

theorem removedFace_eq_ok {m : Mesh VD HD FD} {f : Int} {b : Bool} :
    m.removedFace f = .ok b ↔ ∃ ft, getAt m.faces f = .ok ft ∧ b = !ft.exists_ := by
  unfold Mesh.removedFace
  cases hg : getAt m.faces f <;> simp [eq_comm]

theorem removedHalf_eq_ok {m : Mesh VD HD FD} {h : Int} {b : Bool} :
    m.removedHalf h = .ok b ↔ ∃ ht, getAt m.halfs h = .ok ht ∧ b = !ht.exists_ := by
  unfold Mesh.removedHalf
  cases hg : getAt m.halfs h <;> simp [eq_comm]

theorem removedVert_eq_ok {m : Mesh VD HD FD} {v : Int} {b : Bool} :
    m.removedVert v = .ok b ↔ ∃ vt, getAt m.verts v = .ok vt ∧ b = !vt.exists_ := by
  unfold Mesh.removedVert
  cases hg : getAt m.verts v <;> simp [eq_comm]

/-- The triplet `remove(FaceHandle)` leaves in the slot of the face. -/
theorem removeFace_live {m : Mesh VD HD FD} {f : Int} {ft : Triplet FaceTopo FD}
    (hf : getAt m.faces f = .ok ft) (hex : ft.exists_ = true) :
    m.removeFace f = .ok { m with faces := m.faces.set f.toNat (killFace ft) } := by
  have h0 : ¬ f < 0 := by
    have := (getAt_eq_ok.mp hf).1
    omega
  unfold Mesh.removeFace
  simp [Handle.invalid, h0, Mesh.removedFace, hf, hex, modifyAt_isOk hf]

theorem removeFace_invalid (m : Mesh VD HD FD) {f : Int} (hf : Handle.invalid f = true) :
    m.removeFace f = .ok m := by
  simp [Mesh.removeFace, hf]

theorem removeFace_removed {m : Mesh VD HD FD} {f : Int}
    (hf : m.removedFace f = .ok true) : m.removeFace f = .ok m := by
  unfold Mesh.removeFace
  split
  · rfl
  · simp [hf]

theorem removeFace_cases {m m' : Mesh VD HD FD} {f : Int}
    (hr : m.removeFace f = .ok m') :
    m' = m ∨ ∃ ft, getAt m.faces f = .ok ft ∧ ft.exists_ = true ∧
      m' = { m with faces := m.faces.set f.toNat (killFace ft) } := by
  by_cases hinv : Handle.invalid f = true
  · rw [removeFace_invalid m hinv] at hr
    left
    exact (Except.ok.inj hr).symm
  · cases hg : getAt m.faces f with
    | error e => simp [Mesh.removeFace, hinv, Mesh.removedFace, hg] at hr
    | ok ft =>
      cases hex : ft.exists_ with
      | false =>
        have : m.removedFace f = .ok true := removedFace_eq_ok.mpr ⟨ft, hg, by simp [hex]⟩
        rw [removeFace_removed this] at hr
        left
        exact (Except.ok.inj hr).symm
      | true =>
        rw [removeFace_live hg hex] at hr
        right
        exact ⟨ft, rfl, hex, (Except.ok.inj hr).symm⟩

theorem removeFace_frame {m m' : Mesh VD HD FD} {f : Int}
    (hr : m.removeFace f = .ok m') :
    m'.verts = m.verts ∧ m'.halfs = m.halfs ∧ m'.faces.length = m.faces.length := by
  rcases removeFace_cases hr with rfl | ⟨ft, _, _, rfl⟩
  · exact ⟨rfl, rfl, rfl⟩
  · exact ⟨rfl, rfl, by simp⟩

end RemoveFrame

/-! ## The result of `remove`, explicitly -/

section RemoveSpec

variable {VD HD FD : Type} {α β : Type}

theorem modifyHalf_eq_ok_updAt {m m' : Mesh VD HD FD} {h : Int}
    {f : Triplet HalfTopo HD → Triplet HalfTopo HD} :
    m.modifyHalf h f = .ok m' ↔
      0 ≤ h ∧ h.toNat < m.halfs.length ∧ m' = { m with halfs := updAt m.halfs h.toNat f } := by
  rw [modifyHalf_eq_ok]
  constructor
  · rintro ⟨halfs, hh, rfl⟩
    obtain ⟨h0, hlt, rfl⟩ := modifyAt_eq_ok_updAt.mp hh
    exact ⟨h0, hlt, rfl⟩
  · rintro ⟨h0, hlt, rfl⟩
    exact ⟨_, modifyAt_eq_ok_updAt.mpr ⟨h0, hlt, rfl⟩, rfl⟩

theorem updAt_self_id (xs : List α) (i : Nat) (f : α → α)
    (hf : ∀ x, xs[i]? = some x → f x = x) : updAt xs i f = xs := by
  apply List.ext_getElem?
  intro j
  rw [getElem?_updAt]
  by_cases hj : j = i
  · subst hj
    cases hx : xs[j]? with
    | none => simp
    | some x => simp [hf x hx]
  · simp [hj]

theorem removeFace_eq_ok {m m' : Mesh VD HD FD} {f : Int} :
    m.removeFace f = .ok m' ↔
      (f < 0 ∨ f.toNat < m.faces.length) ∧ m' = { m with faces := facesRemove m.faces f } := by
  by_cases hneg : f < 0
  · have hinv : Handle.invalid f = true := by simp [Handle.invalid, hneg]
    rw [removeFace_invalid m hinv]
    simp only [facesRemove, hneg, if_true, true_or, true_and, Except.ok.injEq]
    show m = m' ↔ m' = m
    exact eq_comm
  · have h0 : 0 ≤ f := Int.not_lt.mp hneg
    cases hg : getAt m.faces f with
    | error e =>
      have hlt : ¬ f.toNat < m.faces.length := by
        intro hlt
        obtain ⟨x, hx⟩ := getAt_isOk_iff.mpr ⟨h0, hlt⟩
        rw [hx] at hg
        cases hg
      simp [Mesh.removeFace, Handle.invalid, hneg, Mesh.removedFace, hg, hlt]
    | ok ft =>
      have hlt : f.toNat < m.faces.length := (getAt_isOk_iff.mp ⟨ft, hg⟩).2
      have hft := (getAt_eq_ok.mp hg).2
      cases hex : ft.exists_ with
      | false =>
        have : m.removedFace f = .ok true := removedFace_eq_ok.mpr ⟨ft, hg, by simp [hex]⟩
        rw [removeFace_removed this]
        have hid : updAt m.faces f.toNat killFaceIfLive = m.faces := by
          apply updAt_self_id
          intro x hx
          rw [hft] at hx
          cases hx
          simp [killFaceIfLive, hex]
        simp only [facesRemove, hneg, if_false, hlt, hid, or_true, true_and, Except.ok.injEq]
        show m = m' ↔ m' = m
        exact eq_comm
      | true =>
        rw [removeFace_live hg hex]
        simp [facesRemove, hneg, hlt, updAt, hft, killFaceIfLive, hex, eq_comm]

@[simp] theorem facesRemove_length (faces : List (Triplet FaceTopo FD)) (f : Int) :
    (facesRemove faces f).length = faces.length := by
  unfold facesRemove
  split <;> simp

theorem removeHalf_halfs_eq (xs : List (Triplet HalfTopo HD)) (i o : Nat) :
    updAt (updAt (updAt (updAt (updAt (updAt xs i (fun ht => { ht with exists_ := false }))
      o (fun ht => { ht with exists_ := false }))
      i (fun ht => { ht with topo := { ht.topo with efrom := Handle.none } }))
      o (fun ht => { ht with topo := { ht.topo with eto := Handle.none } }))
      i (fun ht => { ht with topo := { ht.topo with face := Handle.none } }))
      o (fun ht => { ht with topo := { ht.topo with face := Handle.none } })
    = updAt (updAt xs i killHalfFrom) o killHalfTo := by
  apply List.ext_getElem?
  intro j
  simp only [getElem?_updAt]
  by_cases hi : j = i
  · subst hi
    by_cases ho : j = o
    · subst ho
      cases xs[j]? <;> simp [killHalfFrom, killHalfTo]
    · cases xs[j]? <;> simp [ho, killHalfFrom, killHalfTo]
  · by_cases ho : j = o
    · subst ho
      cases xs[j]? <;> simp [hi, killHalfFrom, killHalfTo]
    · cases xs[j]? <;> simp [hi, ho, killHalfFrom, killHalfTo]

/-- `remove(HalfHandle h)` on a non-removed `h`: it returns exactly when the
opposite and the two face handles can be dereferenced, and then the tables are
these. -/
theorem removeHalf_live_eq_ok {m m' : Mesh VD HD FD} {h : Int} {t : Triplet HalfTopo HD}
    (ht : getAt m.halfs h = .ok t) (hex : t.exists_ = true) :
    m.removeHalf h = .ok m' ↔
      ∃ t2, getAt m.halfs t.topo.opposite = .ok t2 ∧
        (t.topo.face < 0 ∨ t.topo.face.toNat < m.faces.length) ∧
        (t2.topo.face < 0 ∨ t2.topo.face.toNat < m.faces.length) ∧
        m' = { verts := m.verts
               halfs := updAt (updAt m.halfs h.toNat killHalfFrom) t.topo.opposite.toNat killHalfTo
               faces := facesRemove (facesRemove m.faces t.topo.face) t2.topo.face } := by
  obtain ⟨h0, hlt⟩ := getAt_isOk_iff.mp ⟨t, ht⟩
  have hth := (getAt_eq_ok.mp ht).2
  have hninv : ¬ Handle.invalid h = true := by simp [Handle.invalid, h0]
  have hrem : m.removedHalf h = .ok false := removedHalf_eq_ok.mpr ⟨t, ht, by simp [hex]⟩
  -- the face handles read back after the two `exists = false` writes
  have hread1 : ∀ a, (updAt (updAt m.halfs h.toNat (fun ht => { ht with exists_ := false }))
      t.topo.opposite.toNat (fun ht => { ht with exists_ := false }))[h.toNat]? = some a →
      a.topo.face = t.topo.face := by
    intro a ha
    simp only [getElem?_updAt, hth, if_true] at ha
    by_cases ho : h.toNat = t.topo.opposite.toNat
    · simp [ho] at ha
      rw [← ha]
    · simp [ho] at ha
      rw [← ha]
  have hread2 : ∀ a t2, m.halfs[t.topo.opposite.toNat]? = some t2 →
      (updAt (updAt m.halfs h.toNat (fun ht => { ht with exists_ := false }))
      t.topo.opposite.toNat (fun ht => { ht with exists_ := false }))[t.topo.opposite.toNat]? = some a →
      a.topo.face = t2.topo.face := by
    intro a t2 ht2 ha
    simp only [getElem?_updAt, ht2, if_true] at ha
    by_cases ho : t.topo.opposite.toNat = h.toNat
    · simp [ho] at ha
      rw [← ha]
    · simp [ho] at ha
      rw [← ha]
  unfold Mesh.removeHalf
  simp only [hninv, if_false, hrem, Bool.false_eq_true]
  simp only [bind_eq_ok, ht, Except.ok.injEq, exists_eq_left',
    modifyHalf_eq_ok_updAt, removeFace_eq_ok, getAt_eq_ok]
  constructor
  · rintro ⟨a1, ⟨-, -, rfl⟩, a2, ⟨ho0, holt, rfl⟩, b1, ⟨-, hb1⟩, a3, ⟨hf1, rfl⟩,
      b2, ⟨-, hb2⟩, a4, ⟨hf2, rfl⟩, a5, ⟨-, -, rfl⟩, a6, ⟨-, -, rfl⟩, a7, ⟨-, -, rfl⟩,
      -, -, rfl⟩
    simp only [length_updAt] at holt
    have hf1' := hread1 b1 hb1
    have hf2' := hread2 b2 _ (List.getElem?_eq_getElem holt) hb2
    refine ⟨m.halfs[t.topo.opposite.toNat], ⟨ho0, List.getElem?_eq_getElem holt⟩, ?_, ?_, ?_⟩
    · rw [← hf1']
      simpa using hf1
    · rw [← hf2']
      simpa using hf2
    · simp only [removeHalf_halfs_eq, hf1', hf2']
  · rintro ⟨t2, ⟨ho0, ht2⟩, hf1, hf2, rfl⟩
    have holt : t.topo.opposite.toNat < m.halfs.length := (List.getElem?_eq_some_iff.mp ht2).1
    refine ⟨_, ⟨h0, hlt, rfl⟩, _, ⟨ho0, by simpa using holt, rfl⟩, ?_⟩
    obtain ⟨b1, hb1⟩ : ∃ b1, (updAt (updAt m.halfs h.toNat (fun ht => { ht with exists_ := false }))
      t.topo.opposite.toNat (fun ht => { ht with exists_ := false }))[h.toNat]? = some b1 :=
      ⟨_, List.getElem?_eq_getElem (by simpa using hlt)⟩
    obtain ⟨b2, hb2⟩ : ∃ b2, (updAt (updAt m.halfs h.toNat (fun ht => { ht with exists_ := false }))
      t.topo.opposite.toNat (fun ht => { ht with exists_ := false }))[t.topo.opposite.toNat]? = some b2 :=
      ⟨_, List.getElem?_eq_getElem (by simpa using holt)⟩
    have hf1' := hread1 b1 hb1
    have hf2' := hread2 b2 t2 ht2 hb2
    refine ⟨b1, ⟨h0, hb1⟩, _, ⟨by rw [hf1']; simpa using hf1, rfl⟩, b2, ⟨ho0, hb2⟩, _,
      ⟨by rw [hf2']; simpa using hf2, rfl⟩, _, ⟨h0, by simpa using hlt, rfl⟩, _,
      ⟨ho0, by simpa using holt, rfl⟩, _, ⟨h0, by simpa using hlt, rfl⟩, ho0,
      by simpa using holt, ?_⟩
    simp only [removeHalf_halfs_eq, hf1', hf2']

end RemoveSpec

section RemoveMore

variable {VD HD FD : Type} {α β : Type}

theorem removeHalf_invalid (m : Mesh VD HD FD) {h : Int} (hh : Handle.invalid h = true) :
    m.removeHalf h = .ok m := by
  simp [Mesh.removeHalf, hh]

theorem removeHalf_removed {m : Mesh VD HD FD} {h : Int}
    (hh : m.removedHalf h = .ok true) : m.removeHalf h = .ok m := by
  unfold Mesh.removeHalf
  split
  · rfl
  · simp [hh]

theorem removeHalf_cases {m m' : Mesh VD HD FD} {h : Int} (hr : m.removeHalf h = .ok m') :
    m' = m ∨ ∃ t t2, getAt m.halfs h = .ok t ∧ t.exists_ = true ∧
      getAt m.halfs t.topo.opposite = .ok t2 ∧
      (t.topo.face < 0 ∨ t.topo.face.toNat < m.faces.length) ∧
      (t2.topo.face < 0 ∨ t2.topo.face.toNat < m.faces.length) ∧
      m' = { verts := m.verts
             halfs := updAt (updAt m.halfs h.toNat killHalfFrom) t.topo.opposite.toNat killHalfTo
             faces := facesRemove (facesRemove m.faces t.topo.face) t2.topo.face } := by
  by_cases hinv : Handle.invalid h = true
  · rw [removeHalf_invalid m hinv] at hr
    exact Or.inl (Except.ok.inj hr).symm
  · cases hg : getAt m.halfs h with
    | error e => simp [Mesh.removeHalf, hinv, Mesh.removedHalf, hg] at hr
    | ok t =>
      cases hex : t.exists_ with
      | false =>
        have : m.removedHalf h = .ok true := removedHalf_eq_ok.mpr ⟨t, hg, by simp [hex]⟩
        rw [removeHalf_removed this] at hr
        exact Or.inl (Except.ok.inj hr).symm
      | true =>
        obtain ⟨t2, h2, hf1, hf2, rfl⟩ := (removeHalf_live_eq_ok hg hex).mp hr
        exact Or.inr ⟨t, t2, rfl, hex, h2, hf1, hf2, rfl⟩

theorem removeHalf_frame {m m' : Mesh VD HD FD} {h : Int} (hr : m.removeHalf h = .ok m') :
    m'.verts = m.verts ∧ m'.halfs.length = m.halfs.length ∧ m'.faces.length = m.faces.length := by
  rcases removeHalf_cases hr with rfl | ⟨t, t2, _, _, _, _, _, rfl⟩
  · exact ⟨rfl, rfl, rfl⟩
  · exact ⟨rfl, by simp, by simp⟩

theorem removeHalfs_frame {l : List Int} : ∀ {m m' : Mesh VD HD FD},
    removeHalfs m l = .ok m' →
    m'.verts = m.verts ∧ m'.halfs.length = m.halfs.length ∧ m'.faces.length = m.faces.length := by
  induction l with
  | nil =>
    intro m m' hr
    simp only [removeHalfs, Except.ok.injEq] at hr
    subst hr
    exact ⟨rfl, rfl, rfl⟩
  | cons hh rest ih =>
    intro m m' hr
    unfold removeHalfs at hr
    cases h1 : m.removeHalf hh with
    | error e => simp [h1] at hr
    | ok m1 =>
      simp only [h1] at hr
      obtain ⟨a, b, c⟩ := removeHalf_frame h1
      obtain ⟨a', b', c'⟩ := ih hr
      exact ⟨a'.trans a, b'.trans b, c'.trans c⟩

theorem removeVert_invalid (m : Mesh VD HD FD) {v : Int} (hv : Handle.invalid v = true) :
    m.removeVert v = .ok m := by
  simp [Mesh.removeVert, hv]

theorem removeVert_removed {m : Mesh VD HD FD} {v : Int}
    (hv : m.removedVert v = .ok true) : m.removeVert v = .ok m := by
  obtain ⟨vt, hg, hb⟩ := removedVert_eq_ok.mp hv
  unfold Mesh.removeVert
  split
  · rfl
  · simp only [hg]
    have : vt.exists_ = false := by simpa using hb.symm
    simp [this]

/-- `remove(VertHandle v)` on a non-removed `v`. -/
theorem removeVert_live_eq_ok {m m' : Mesh VD HD FD} {v : Int} {vt : Triplet VertTopo VD}
    (hg : getAt m.verts v = .ok vt) (hex : vt.exists_ = true) :
    m.removeVert v = .ok m' ↔
      ∃ m1, removeHalfs { m with verts := updAt m.verts v.toNat killVert }
          vt.topo.halfedges = .ok m1 ∧
        m' = { m1 with verts := updAt m1.verts v.toNat clearVert } := by
  obtain ⟨h0, hlt⟩ := getAt_isOk_iff.mp ⟨vt, hg⟩
  have hninv : ¬ Handle.invalid v = true := by simp [Handle.invalid, h0]
  unfold Mesh.removeVert
  simp only [hninv, if_false, hg, hex, Bool.not_true, Bool.false_eq_true]
  rw [modifyAt_eq_ok_updAt.mpr ⟨h0, hlt, rfl⟩]
  simp only
  cases hr : removeHalfs { m with verts := updAt m.verts v.toNat killVert }
      vt.topo.halfedges with
  | error e => simp
  | ok m1 =>
    have hv1 := (removeHalfs_frame hr).1
    have hlt1 : v.toNat < m1.verts.length := by
      rw [hv1]
      simpa using hlt
    simp only [modifyAt_eq_ok_updAt.mpr ⟨h0, hlt1, rfl⟩, Except.ok.injEq, exists_eq_left']
    exact eq_comm

end RemoveMore

/-! ## Claims on `addEdge(v, v)` and on `remove` -/

section RemoveClaims

variable {VD HD FD : Type}

theorem removeFace_twice {m m' : Mesh VD HD FD} {f : Int} (hr : m.removeFace f = .ok m') :
    m'.removeFace f = .ok m' := by
  rcases removeFace_cases hr with rfl | ⟨ft, hg, hex, rfl⟩
  · exact hr
  · apply removeFace_removed
    obtain ⟨h0, hft⟩ := getAt_eq_ok.mp hg
    have hlt : f.toNat < m.faces.length := (List.getElem?_eq_some_iff.mp hft).1
    refine removedFace_eq_ok.mpr ⟨killFace ft, getAt_eq_ok.mpr ⟨h0, ?_⟩, by simp [killFace]⟩
    simp [List.getElem?_set_self hlt]

theorem removeHalf_twice {m m' : Mesh VD HD FD} {h : Int} (hr : m.removeHalf h = .ok m') :
    m'.removeHalf h = .ok m' := by
  rcases removeHalf_cases hr with rfl | ⟨t, t2, hg, hex, hg2, hf1, hf2, rfl⟩
  · exact hr
  · apply removeHalf_removed
    obtain ⟨h0, hth⟩ := getAt_eq_ok.mp hg
    by_cases ho : h.toNat = t.topo.opposite.toNat
    · refine removedHalf_eq_ok.mpr ⟨killHalfTo (killHalfFrom t), getAt_eq_ok.mpr ⟨h0, ?_⟩,
        by simp [killHalfTo]⟩
      simp [getElem?_updAt, hth, ← ho]
    · refine removedHalf_eq_ok.mpr ⟨killHalfFrom t, getAt_eq_ok.mpr ⟨h0, ?_⟩,
        by simp [killHalfFrom]⟩
      simp [getElem?_updAt, hth, ho]

theorem removeVert_twice {m m' : Mesh VD HD FD} {v : Int} (hr : m.removeVert v = .ok m') :
    m'.removeVert v = .ok m' := by
  by_cases hinv : Handle.invalid v = true
  · exact removeVert_invalid m' hinv
  · cases hg : getAt m.verts v with
    | error e => simp [Mesh.removeVert, hinv, hg] at hr
    | ok vt =>
      cases hex : vt.exists_ with
      | false =>
        have hrm : m.removedVert v = .ok true := removedVert_eq_ok.mpr ⟨vt, hg, by simp [hex]⟩
        rw [removeVert_removed hrm] at hr
        cases hr
        exact removeVert_removed hrm
      | true =>
        obtain ⟨m1, h1, rfl⟩ := (removeVert_live_eq_ok hg hex).mp hr
        have hv1 := (removeHalfs_frame h1).1
        obtain ⟨h0, hvt⟩ := getAt_eq_ok.mp hg
        apply removeVert_removed
        refine removedVert_eq_ok.mpr ⟨clearVert (killVert vt), getAt_eq_ok.mpr ⟨h0, ?_⟩,
          by simp [clearVert, killVert]⟩
        simp [hv1, getElem?_updAt, hvt]

theorem bind_self_of_twice {α : Type} (x : Except Fault α) (f : α → Except Fault α)
    (h : ∀ a, x = .ok a → f a = .ok a) : (x >>= f) = x := by
  cases x with
  | error e => rfl
  | ok a => exact h a rfl

/-- C4: for every mesh and every vertex handle `v`, `addEdge(v, v, ...)` returns the
invalid half-edge handle and leaves the three tables exactly as they were, whatever
the merge flag. -/
theorem addEdge_same_vertex (m : Mesh VD HD FD) (v : Int) (hd hdrev : HD) (merge : Bool) :
    ∃ r, m.addEdge v v hd hdrev merge = .ok (m, r) ∧ Handle.invalid r = true :=
  ⟨Handle.none, by simp [Mesh.addEdge], by decide⟩

/-- C9: `remove` is idempotent: for every mesh and every handle `x`, used as a
vertex, half-edge or face handle, `remove(x)` followed by `remove(x)` is the same as
a single `remove(x)`; `remove` of an invalid handle and `remove` of an already
removed element return with the mesh unchanged. -/
theorem remove_idempotent (m : Mesh VD HD FD) (x : Int) :
    ((m.removeVert x >>= fun m1 => m1.removeVert x) = m.removeVert x) ∧
    ((m.removeHalf x >>= fun m1 => m1.removeHalf x) = m.removeHalf x) ∧
    ((m.removeFace x >>= fun m1 => m1.removeFace x) = m.removeFace x) ∧
    (Handle.invalid x = true →
      m.removeVert x = .ok m ∧ m.removeHalf x = .ok m ∧ m.removeFace x = .ok m) ∧
    (m.removedVert x = .ok true → m.removeVert x = .ok m) ∧
    (m.removedHalf x = .ok true → m.removeHalf x = .ok m) ∧
    (m.removedFace x = .ok true → m.removeFace x = .ok m) :=
  ⟨bind_self_of_twice _ _ (fun _ h => removeVert_twice h),
   bind_self_of_twice _ _ (fun _ h => removeHalf_twice h),
   bind_self_of_twice _ _ (fun _ h => removeFace_twice h),
   fun hinv => ⟨removeVert_invalid m hinv, removeHalf_invalid m hinv, removeFace_invalid m hinv⟩,
   removeVert_removed, removeHalf_removed, removeFace_removed⟩

end RemoveClaims

section CountClaims

variable {VD HD FD : Type}

theorem liveCount_set_dead {T D : Type} : ∀ (xs : List (Triplet T D)) (i : Nat) (x y : Triplet T D),
    xs[i]? = some x → x.exists_ = true → y.exists_ = false →
    liveCount (xs.set i y) + 1 = liveCount xs := by
  intro xs
  induction xs with
  | nil => intro i x y hx; simp at hx
  | cons a as ih =>
    intro i x y hx hxe hye
    cases i with
    | zero =>
      simp only [List.getElem?_cons_zero, Option.some.injEq] at hx
      subst hx
      simp [liveCount, List.filter_cons, hxe, hye]
    | succ n =>
      simp only [List.getElem?_cons_succ] at hx
      have := ih n x y hx hxe hye
      simp only [liveCount, List.set_cons_succ, List.filter_cons] at this ⊢
      split
      · simp only [List.length_cons]
        omega
      · exact this

theorem remove_idempotent_witness :
    (Handle.invalid (-1) = true ∧ quadCubeMesh.removeVert (-1) = .ok quadCubeMesh ∧
      quadCubeMesh.removeHalf (-1) = .ok quadCubeMesh ∧
      quadCubeMesh.removeFace (-1) = .ok quadCubeMesh) ∧
    (cubeMinusVertex.removedVert 0 = .ok true ∧ cubeMinusVertex.removeVert 0 = .ok cubeMinusVertex) ∧
    (cubeMinusVertex.removedHalf 0 = .ok true ∧ cubeMinusVertex.removeHalf 0 = .ok cubeMinusVertex) ∧
    (cubeMinusVertex.removedFace 0 = .ok true ∧ cubeMinusVertex.removeFace 0 = .ok cubeMinusVertex) ∧
    ((quadCubeMesh.removeVert 0 >>= fun m1 => m1.removeVert 0) = .ok cubeMinusVertex) :=
  ⟨⟨by decide, (remove_idempotent quadCubeMesh (-1)).2.2.2.1 (by decide)⟩,
   ⟨by decide, (remove_idempotent cubeMinusVertex 0).2.2.2.2.1 (by decide)⟩,
   ⟨by decide, (remove_idempotent cubeMinusVertex 0).2.2.2.2.2.1 (by decide)⟩,
   ⟨by decide, (remove_idempotent cubeMinusVertex 0).2.2.2.2.2.2 (by decide)⟩,
   (remove_idempotent quadCubeMesh 0).1.trans (by decide)⟩

/-- C10: for every mesh and non-removed face `f`, `remove(f)` returns, leaves the
vertex and half-edge tables as they were (it removes no vertex and no half-edge) and
lowers the number of non-removed faces by exactly 1; the mesh of `MakeQuadFacedCube`
has 8 vertices, 24 half-edges and 6 faces, and removing any one of its faces leaves
8 vertices, 24 half-edges and 5 faces. -/
theorem removeFace_counts :
    (∀ (VD HD FD : Type) (m : Mesh VD HD FD) (f : Int), m.removedFace f = .ok false →
      ∃ m', m.removeFace f = .ok m' ∧ m'.verts = m.verts ∧ m'.halfs = m.halfs ∧
        liveCount m'.faces + 1 = liveCount m.faces) ∧
    quadCube.map Mesh.counts = .ok (8, 24, 6) ∧
    (∀ f ∈ [(0 : Int), 1, 2, 3, 4, 5],
      (quadCube >>= fun m => m.removeFace f).map Mesh.counts = .ok (8, 24, 5)) := by
  refine ⟨?_, by decide, by decide⟩
  intro VD HD FD m f hf
  obtain ⟨ft, hg, hb⟩ := removedFace_eq_ok.mp hf
  have hex : ft.exists_ = true := by simpa using hb
  refine ⟨_, removeFace_live hg hex, rfl, rfl, ?_⟩
  exact liveCount_set_dead _ _ ft _ (getAt_eq_ok.mp hg).2 hex (by simp [killFace])

theorem removeFace_counts_witness :
    quadCubeMesh.removedFace 3 = .ok false ∧
    ∃ m', quadCubeMesh.removeFace 3 = .ok m' ∧ m'.verts = quadCubeMesh.verts ∧
      m'.halfs = quadCubeMesh.halfs ∧ liveCount m'.faces + 1 = liveCount quadCubeMesh.faces :=
  ⟨by decide, removeFace_counts.1 _ _ _ quadCubeMesh 3 (by decide)⟩

/-- C7 (the code at the failing input): in the mesh of two vertices `0`, `1` joined
by the one edge `addEdge(0, 1)` returns as half-edge `0`, after `remove` of that
half-edge `findEdge(1, 0)` returns the invalid handle, but `findEdge(0, 1)` stops at
its `assert` on the removed half-edge `0`, which is still in the list of vertex `0`
with its `from` reset; with the `assert` compiled out it returns the removed
half-edge `0`. -/
theorem findEdge_after_removeHalf :
    oneEdgeMesh.map (fun r => r.2) = .ok 0 ∧
    (oneEdgeMesh >>= fun r => r.1.removeHalf r.2 >>= fun m =>
        pure (m.findEdge 0 1, m.findEdge 1 0, m.findEdgeNDEBUG 0 1, m.removedHalf 0)) =
      .ok (.error .assertion, .ok Handle.none, .ok 0, .ok true) := by
  decide

end CountClaims

section WFBasics

variable {VD HD FD : Type} {α : Type}

theorem getAt_append_left {xs ys : List α} {h : Int} {x : α} (hx : getAt xs h = .ok x) :
    getAt (xs ++ ys) h = .ok x := by
  obtain ⟨h0, hx⟩ := getAt_eq_ok.mp hx
  refine getAt_eq_ok.mpr ⟨h0, ?_⟩
  rw [List.getElem?_append_left (List.getElem?_eq_some_iff.mp hx).1]
  exact hx

theorem getAt_lt_length {xs : List α} {h : Int} {x : α} (hx : getAt xs h = .ok x) :
    0 ≤ h ∧ h < xs.length := by
  obtain ⟨h0, hlt⟩ := getAt_isOk_iff.mp ⟨x, hx⟩
  exact ⟨h0, by omega⟩

theorem getAt_of_lt (xs : List α) {h : Int} (h0 : 0 ≤ h) (hlt : h < xs.length) :
    ∃ x, getAt xs h = .ok x :=
  getAt_isOk_iff.mpr ⟨h0, by omega⟩

theorem getAt_append_cases {xs ys : List α} {h : Int} {x : α}
    (hx : getAt (xs ++ ys) h = .ok x) :
    getAt xs h = .ok x ∨ (xs.length ≤ h ∧ getAt ys (h - xs.length) = .ok x) := by
  obtain ⟨h0, hx⟩ := getAt_eq_ok.mp hx
  by_cases hlt : h.toNat < xs.length
  · left
    rw [List.getElem?_append_left hlt] at hx
    exact getAt_eq_ok.mpr ⟨h0, hx⟩
  · right
    have hge : xs.length ≤ h.toNat := Nat.le_of_not_lt hlt
    rw [List.getElem?_append_right hge] at hx
    refine ⟨by omega, getAt_eq_ok.mpr ⟨by omega, ?_⟩⟩
    have : (h - (xs.length : Int)).toNat = h.toNat - xs.length := by omega
    rw [this]
    exact hx

theorem liveTo_eq_true {m : Mesh VD HD FD} {b hh : Int} :
    m.liveTo b hh = true ↔
      ∃ t, getAt m.halfs hh = .ok t ∧ t.exists_ = true ∧ t.topo.eto = b := by
  unfold Mesh.liveTo
  cases hg : getAt m.halfs hh <;> simp

theorem oppOf_eq {m : Mesh VD HD FD} {hh : Int} {t : Triplet HalfTopo HD}
    (ht : getAt m.halfs hh = .ok t) : m.oppOf hh = t.topo.opposite := by
  simp [Mesh.oppOf, ht]

theorem wf_empty : (Mesh.empty : Mesh VD HD FD).WF := by
  constructor <;> intros <;> simp_all [Mesh.empty, getAt]

theorem wf_addVertex {m : Mesh VD HD FD} (hw : m.WF) (vd : VD) : (m.addVertex vd).1.WF := by
  have hnew : ∀ {v : Int} {vt : Triplet VertTopo VD},
      getAt (m.verts ++ [⟨⟨(m.verts.length : Int), []⟩, vd, true⟩]) v = .ok vt →
      getAt m.verts v = .ok vt ∨ (v = m.verts.length ∧ vt.topo.halfedges = []) := by
    intro v vt hv
    rcases getAt_append_cases hv with h | ⟨hge, h⟩
    · exact Or.inl h
    · right
      obtain ⟨h0, hx⟩ := getAt_eq_ok.mp h
      have hlt := (List.getElem?_eq_some_iff.mp hx).1
      simp only [List.length_singleton] at hlt
      have hz : (v - (m.verts.length : Int)).toNat = 0 := by omega
      rw [hz] at hx
      simp only [List.getElem?_cons_zero, Option.some.injEq] at hx
      subst hx
      exact ⟨by omega, rfl⟩
  have hnoTo : ∀ (hh : Int), m.liveTo (m.verts.length : Int) hh = false := by
    intro hh
    cases hl : m.liveTo (m.verts.length : Int) hh with
    | false => rfl
    | true =>
      obtain ⟨t, ht, hex, hto⟩ := liveTo_eq_true.mp hl
      have := (hw.endsInRange hh t ht hex).2
      omega
  constructor
  · intro v vt hv hh hmem
    rcases hnew hv with h | ⟨_, h⟩
    · exact hw.listInRange v vt h hh hmem
    · simp [h] at hmem
  · intro v vt hv hh hmem
    rcases hnew hv with h | ⟨_, h⟩
    · exact hw.listFrom v vt h hh hmem
    · simp [h] at hmem
  · exact hw.pairing
  · intro h t ht hex
    have := hw.endsInRange h t ht hex
    simp only [Mesh.addVertex, List.length_append, List.length_singleton]
    omega
  · exact hw.faceInRange
  · intro h t ht hex h0
    obtain ⟨vt, hvt, hmem⟩ := hw.inList h t ht hex h0
    exact ⟨vt, getAt_append_left hvt, hmem⟩
  · exact hw.deadReset
  · intro a b va vb hab hva hvb
    show (va.topo.halfedges.filter (m.liveTo b)).map m.oppOf
      = vb.topo.halfedges.filter (m.liveTo a)
    rcases hnew hva with ha | ⟨ha, hla⟩
    · rcases hnew hvb with hb | ⟨hb, hlb⟩
      · exact hw.order a b va vb hab ha hb
      · subst hb
        rw [hlb]
        have : va.topo.halfedges.filter (m.liveTo (m.verts.length : Int)) = [] := by
          apply List.filter_eq_nil_iff.mpr
          intro x _
          simp [hnoTo x]
        simp [this]
    · subst ha
      rw [hla]
      have : vb.topo.halfedges.filter (m.liveTo (m.verts.length : Int)) = [] := by
        apply List.filter_eq_nil_iff.mpr
        intro x _
        simp [hnoTo x]
      simp [this]
  · exact hw.halfHd

end WFBasics

/-! ## `findEdge` -/

section FindEdge

variable {VD HD FD : Type}

theorem findEdgeLoop_spec {halfs : List (Triplet HalfTopo HD)} {a b : Int} :
    ∀ {l : List Int} {h : Int}, findEdgeLoop halfs a b l = .ok h →
    (h = Handle.none ∧
      ∀ x ∈ l, ∃ t, getAt halfs x = .ok t ∧ t.topo.efrom = a ∧ t.topo.eto ≠ b) ∨
    (∃ pre post t, l = pre ++ h :: post ∧ getAt halfs h = .ok t ∧ t.topo.efrom = a ∧
      t.topo.eto = b ∧
      ∀ x ∈ pre, ∃ t, getAt halfs x = .ok t ∧ t.topo.efrom = a ∧ t.topo.eto ≠ b) := by
  intro l
  induction l with
  | nil =>
    intro h hr
    simp only [findEdgeLoop, Except.ok.injEq] at hr
    left
    exact ⟨hr.symm, by simp⟩
  | cons x rest ih =>
    intro h hr
    unfold findEdgeLoop at hr
    cases hg : getAt halfs x with
    | error e => simp [hg] at hr
    | ok t =>
      simp only [hg] at hr
      by_cases hfrom : t.topo.efrom = a
      · by_cases hto : t.topo.eto = b
        · simp only [hfrom, ne_eq, not_true_eq_false, if_false, hto, if_true,
            Except.ok.injEq] at hr
          subst hr
          right
          exact ⟨[], rest, t, rfl, hg, hfrom, hto, by simp⟩
        · simp only [hfrom, ne_eq, not_true_eq_false, if_false, hto] at hr
          rcases ih hr with ⟨hn, hall⟩ | ⟨pre, post, t', hl, hg', hf', ht', hall⟩
          · left
            refine ⟨hn, ?_⟩
            intro y hy
            rcases List.mem_cons.mp hy with rfl | hy
            · exact ⟨t, hg, hfrom, hto⟩
            · exact hall y hy
          · right
            refine ⟨x :: pre, post, t', by simp [hl], hg', hf', ht', ?_⟩
            intro y hy
            rcases List.mem_cons.mp hy with rfl | hy
            · exact ⟨t, hg, hfrom, hto⟩
            · exact hall y hy
      · simp [hfrom] at hr

theorem findEdgeLoop_total {halfs : List (Triplet HalfTopo HD)} {a b : Int} :
    ∀ {l : List Int}, (∀ x ∈ l, ∃ t, getAt halfs x = .ok t ∧ t.topo.efrom = a) →
    ∃ h, findEdgeLoop halfs a b l = .ok h := by
  intro l
  induction l with
  | nil => intro _; exact ⟨_, rfl⟩
  | cons x rest ih =>
    intro hall
    obtain ⟨t, hg, hfrom⟩ := hall x (List.mem_cons_self _ _)
    obtain ⟨h, hh⟩ := ih (fun y hy => hall y (List.mem_cons_of_mem _ hy))
    unfold findEdgeLoop
    simp only [hg, hfrom, ne_eq, not_true_eq_false, if_false]
    by_cases hto : t.topo.eto = b
    · exact ⟨x, by simp [hto]⟩
    · exact ⟨h, by simp [hto, hh]⟩

theorem findEdge_eq_ok {m : Mesh VD HD FD} {a b h : Int} :
    m.findEdge a b = .ok h ↔
      ∃ vt, getAt m.verts a = .ok vt ∧ findEdgeLoop m.halfs a b vt.topo.halfedges = .ok h := by
  unfold Mesh.findEdge
  cases hg : getAt m.verts a <;> simp

/-- What a returned `findEdge(a, b)` found. -/
theorem findEdge_found {m : Mesh VD HD FD} {a b h : Int} (hr : m.findEdge a b = .ok h) :
    h = Handle.none ∨ ∃ t, getAt m.halfs h = .ok t ∧ t.topo.efrom = a ∧ t.topo.eto = b := by
  obtain ⟨vt, _, hl⟩ := findEdge_eq_ok.mp hr
  rcases findEdgeLoop_spec hl with ⟨hn, _⟩ | ⟨_, _, t, _, hg, hf, ht, _⟩
  · exact Or.inl hn
  · exact Or.inr ⟨t, hg, hf, ht⟩

/-- In a well-formed mesh `findEdge(a, b)`, for two slots `a`, `b` of `_verts`,
returns the first non-removed half-edge `a -> b` of the list of `a`. -/
theorem findEdge_head {m : Mesh VD HD FD} (hw : m.WF) {a b h : Int}
    {va : Triplet VertTopo VD} (hva : getAt m.verts a = .ok va) (hb : 0 ≤ b)
    (hr : m.findEdge a b = .ok h) :
    (va.topo.halfedges.filter (m.liveTo b)).head? =
      if h = Handle.none then none else some h := by
  obtain ⟨vt, hvt, hl⟩ := findEdge_eq_ok.mp hr
  rw [hva] at hvt
  cases hvt
  have ha : 0 ≤ a := (getAt_lt_length hva).1
  have hdead : ∀ x t, getAt m.halfs x = .ok t → t.topo.efrom = a → t.topo.eto ≠ b →
      m.liveTo b x = false := by
    intro x t hg _ hto
    simp [Mesh.liveTo, hg, hto]
  rcases findEdgeLoop_spec hl with ⟨hn, hall⟩ | ⟨pre, post, t, hlist, hg, hf, ht, hall⟩
  · have : va.topo.halfedges.filter (m.liveTo b) = [] := by
      apply List.filter_eq_nil_iff.mpr
      intro x hx
      obtain ⟨t, hg, hf, hto⟩ := hall x hx
      simp [hdead x t hg hf hto]
    simp [this, hn]
  · have hpre : pre.filter (m.liveTo b) = [] := by
      apply List.filter_eq_nil_iff.mpr
      intro x hx
      obtain ⟨t, hg, hf, hto⟩ := hall x hx
      simp [hdead x t hg hf hto]
    have hex : t.exists_ = true := by
      cases hex : t.exists_ with
      | true => rfl
      | false =>
        rcases hw.deadReset h t hg hex with h1 | h1 <;> omega
    have hlive : m.liveTo b h = true := liveTo_eq_true.mpr ⟨t, hg, hex, ht⟩
    have hne : h ≠ Handle.none := by
      have := (getAt_lt_length hg).1
      simp only [Handle.none]
      omega
    rw [hlist, List.filter_append, hpre, List.nil_append, List.filter_cons_of_pos hlive]
    simp [hne]

end FindEdge

/-! ## `addEdge` -/

section AddEdge

variable {VD HD FD : Type}

theorem pushHalf_eq_ok {m m' : Mesh VD HD FD} {a b h : Int} {hd : HD} :
    m.pushHalf a b hd = .ok (m', h) ↔
      0 ≤ a ∧ a.toNat < m.verts.length ∧ h = m.halfs.length ∧
      m' = { verts := updAt m.verts a.toNat (pushOut (m.halfs.length : Int))
             halfs := m.halfs ++ [⟨⟨(m.halfs.length : Int), a, b, Handle.none, Handle.none⟩, hd, true⟩]
             faces := m.faces } := by
  simp only [Mesh.pushHalf]
  cases hm : modifyAt m.verts a (pushOut (m.halfs.length : Int)) with
  | error e =>
    simp only [false_iff, not_and, reduceCtorEq]
    intro h0 hlt
    rw [modifyAt_eq_ok_updAt.mpr ⟨h0, hlt, rfl⟩] at hm
    cases hm
  | ok verts =>
    obtain ⟨h0, hlt, rfl⟩ := modifyAt_eq_ok_updAt.mp hm
    simp only [Except.ok.injEq, Prod.mk.injEq, h0, hlt, true_and]
    constructor
    · rintro ⟨rfl, rfl⟩
      exact ⟨rfl, rfl⟩
    · rintro ⟨rfl, rfl⟩
      exact ⟨rfl, rfl⟩

theorem setOpposite_eq_ok {m m' : Mesh VD HD FD} {h o : Int} :
    m.setOpposite h o = .ok m' ↔
      0 ≤ h ∧ h.toNat < m.halfs.length ∧ m' = { m with halfs := updAt m.halfs h.toNat (setOpp o) } := by
  simp only [Mesh.setOpposite]
  cases hm : modifyAt m.halfs h (setOpp o) with
  | error e =>
    simp only [false_iff, not_and, reduceCtorEq]
    intro h0 hlt
    rw [modifyAt_eq_ok_updAt.mpr ⟨h0, hlt, rfl⟩] at hm
    cases hm
  | ok halfs =>
    obtain ⟨h0, hlt, rfl⟩ := modifyAt_eq_ok_updAt.mp hm
    simp [h0, hlt, eq_comm]

theorem getAt_updAt {α : Type} {xs : List α} {i : Nat} {f : α → α} {h : Int} {y : α} :
    getAt (updAt xs i f) h = .ok y ↔
      ∃ x, getAt xs h = .ok x ∧ y = if h.toNat = i then f x else x := by
  simp only [getAt_eq_ok, getElem?_updAt]
  constructor
  · rintro ⟨h0, hy⟩
    by_cases hi : h.toNat = i
    · simp only [hi, if_true, Option.map_eq_some'] at hy
      obtain ⟨x, hx, rfl⟩ := hy
      exact ⟨x, ⟨h0, by rw [hi]; exact hx⟩, by simp [hi]⟩
    · simp only [hi, if_false] at hy
      exact ⟨y, ⟨h0, hy⟩, by simp [hi]⟩
  · rintro ⟨x, ⟨h0, hx⟩, rfl⟩
    refine ⟨h0, ?_⟩
    by_cases hi : h.toNat = i
    · subst hi
      simp [hx]
    · simp [hi, hx]

theorem updAt_cons_zero {α : Type} (x : α) (xs : List α) (f : α → α) :
    updAt (x :: xs) 0 f = f x :: xs := by
  simp [updAt]

theorem updAt_cons_succ {α : Type} (x : α) (xs : List α) (k : Nat) (f : α → α) :
    updAt (x :: xs) (k + 1) f = x :: updAt xs k f := by
  unfold updAt
  cases h : xs[k]? <;> simp [h]

theorem updAt_append_right {α : Type} (xs ys : List α) (k : Nat) (f : α → α) :
    updAt (xs ++ ys) (xs.length + k) f = xs ++ updAt ys k f := by
  induction xs with
  | nil => simp
  | cons x xs ih =>
    have : (x :: xs).length + k = (xs.length + k) + 1 := by
      simp only [List.length_cons]
      omega
    rw [this, List.cons_append, updAt_cons_succ, ih, List.cons_append]

/-- The three ways a returned `addEdge(a, b)`, `a != b`, can have run: it created
both half-edges, it found both, or it found exactly one. -/
theorem addEdge_cases {m m' : Mesh VD HD FD} {a b h : Int} {hd hdrev : HD} {merge : Bool}
    (hab : a ≠ b) (hr : m.addEdge a b hd hdrev merge = .ok (m', h)) :
    ∃ f1 f2, (if merge then m.findEdge a b else .ok Handle.none) = .ok f1 ∧
      (if merge then m.findEdge b a else .ok Handle.none) = .ok f2 ∧
      ((f1 < 0 ∧ f2 < 0 ∧ 0 ≤ a ∧ a.toNat < m.verts.length ∧ 0 ≤ b ∧
          b.toNat < m.verts.length ∧ h = m.halfs.length ∧ m' = m.withNewEdge a b hd hdrev) ∨
       (0 ≤ f1 ∧ 0 ≤ f2 ∧ h = f1 ∧ f1.toNat < m.halfs.length ∧ f2.toNat < m.halfs.length ∧
          m' = ⟨m.verts, updAt (updAt m.halfs f1.toNat (setOpp f2)) f2.toNat (setOpp f1),
            m.faces⟩) ∨
       (f1 < 0 ∧ 0 ≤ f2) ∨ (0 ≤ f1 ∧ f2 < 0)) := by
  unfold Mesh.addEdge at hr
  simp only [hab, if_false, bind_eq_ok] at hr
  obtain ⟨f1, hf1, f2, hf2, p1, hp1, p2, hp2, m3, hm3, m4, hm4, hres⟩ := hr
  simp only [Except.ok.injEq, Prod.mk.injEq] at hres
  obtain ⟨rfl, rfl⟩ := hres
  refine ⟨f1, f2, hf1, hf2, ?_⟩
  by_cases h1 : f1 < 0
  · by_cases h2 : f2 < 0
    · left
      simp only [Handle.invalid, h1, decide_True, if_true] at hp1
      simp only [Handle.invalid, h2, decide_True, if_true] at hp2
      obtain ⟨m1, k1⟩ := p1
      obtain ⟨m2, k2⟩ := p2
      obtain ⟨ha0, halt, rfl, rfl⟩ := pushHalf_eq_ok.mp hp1
      obtain ⟨hb0, hblt, rfl, rfl⟩ := pushHalf_eq_ok.mp hp2
      obtain ⟨-, -, rfl⟩ := setOpposite_eq_ok.mp hm3
      obtain ⟨-, -, rfl⟩ := setOpposite_eq_ok.mp hm4
      simp only [length_updAt] at hblt
      refine ⟨h1, h2, ha0, halt, hb0, hblt, rfl, ?_⟩
      simp only [Mesh.withNewEdge, List.length_append, List.length_singleton, Nat.cast_add,
        Nat.cast_one, Mesh.mk.injEq, and_true, true_and, List.append_assoc,
        List.singleton_append]
      have e1 : ((m.halfs.length : Int) + 1).toNat = m.halfs.length + 1 := by omega
      have e2 : ((m.halfs.length : Int)).toNat = m.halfs.length + 0 := by omega
      rw [e1, e2, updAt_append_right, updAt_cons_zero, updAt_append_right, updAt_cons_succ,
        updAt_cons_zero]
      simp [setOpp]
    · right; right; left
      exact ⟨h1, Int.not_lt.mp h2⟩
  · by_cases h2 : f2 < 0
    · right; right; right
      exact ⟨Int.not_lt.mp h1, h2⟩
    · right; left
      simp only [Handle.invalid, h1, decide_False, if_false, Bool.false_eq_true,
        Except.ok.injEq] at hp1
      simp only [Handle.invalid, h2, decide_False, if_false, Bool.false_eq_true,
        Except.ok.injEq] at hp2
      subst hp1
      subst hp2
      obtain ⟨-, hlt1, rfl⟩ := setOpposite_eq_ok.mp hm3
      obtain ⟨-, hlt2, rfl⟩ := setOpposite_eq_ok.mp hm4
      simp only [length_updAt] at hlt2
      exact ⟨Int.not_lt.mp h1, Int.not_lt.mp h2, rfl, hlt1, hlt2, rfl⟩

end AddEdge

section AddEdgeWF

variable {VD HD FD : Type}

theorem getAt_halfs_withNewEdge {m : Mesh VD HD FD} {a b : Int} {hd hdrev : HD} {h : Int}
    {t : Triplet HalfTopo HD} :
    getAt (m.withNewEdge a b hd hdrev).halfs h = .ok t ↔
      getAt m.halfs h = .ok t ∨
      (h = m.halfs.length ∧
        t = ⟨⟨(m.halfs.length : Int), a, b, (m.halfs.length : Int) + 1, Handle.none⟩, hd, true⟩) ∨
      (h = (m.halfs.length : Int) + 1 ∧
        t = ⟨⟨(m.halfs.length : Int) + 1, b, a, (m.halfs.length : Int), Handle.none⟩, hdrev, true⟩) := by
  simp only [Mesh.withNewEdge]
  constructor
  · intro hg
    rcases getAt_append_cases hg with h1 | ⟨hge, h2⟩
    · exact Or.inl h1
    · right
      obtain ⟨h0, hx⟩ := getAt_eq_ok.mp h2
      have hlt := (List.getElem?_eq_some_iff.mp hx).1
      simp only [List.length_cons, List.length_singleton, List.length_nil] at hlt
      by_cases hz : (h - (m.halfs.length : Int)).toNat = 0
      · rw [hz] at hx
        simp only [List.getElem?_cons_zero, Option.some.injEq] at hx
        exact Or.inl ⟨by omega, hx.symm⟩
      · have h1 : (h - (m.halfs.length : Int)).toNat = 1 := by omega
        rw [h1] at hx
        simp only [List.getElem?_cons_succ, List.getElem?_cons_zero, Option.some.injEq] at hx
        exact Or.inr ⟨by omega, hx.symm⟩
  · rintro (h1 | ⟨rfl, rfl⟩ | ⟨rfl, rfl⟩)
    · exact getAt_append_left h1
    · refine getAt_eq_ok.mpr ⟨by omega, ?_⟩
      have : ((m.halfs.length : Int)).toNat = m.halfs.length := by omega
      rw [this, List.getElem?_append_right (Nat.le_refl _)]
      simp
    · refine getAt_eq_ok.mpr ⟨by omega, ?_⟩
      have : ((m.halfs.length : Int) + 1).toNat = m.halfs.length + 1 := by omega
      rw [this, List.getElem?_append_right (by omega)]
      simp

theorem getAt_verts_withNewEdge {m : Mesh VD HD FD} {a b : Int} {hd hdrev : HD}
    (ha : 0 ≤ a) (hb : 0 ≤ b) {v : Int} {vt' : Triplet VertTopo VD} :
    getAt (m.withNewEdge a b hd hdrev).verts v = .ok vt' ↔
      ∃ vt, getAt m.verts v = .ok vt ∧ vt'.data = vt.data ∧ vt'.exists_ = vt.exists_ ∧
        vt'.topo.hd = vt.topo.hd ∧
        vt'.topo.halfedges = vt.topo.halfedges
          ++ (if v = a then [(m.halfs.length : Int)] else [])
          ++ (if v = b then [(m.halfs.length : Int) + 1] else []) ∧
        vt' = (if v = b then pushOut ((m.halfs.length : Int) + 1) else id)
          ((if v = a then pushOut (m.halfs.length : Int) else id) vt) := by
  simp only [Mesh.withNewEdge, getAt_updAt]
  constructor
  · rintro ⟨x, ⟨vt, hvt, rfl⟩, rfl⟩
    have hv0 := (getAt_lt_length hvt).1
    have e1 : (v.toNat = a.toNat) ↔ v = a := by omega
    have e2 : (v.toNat = b.toNat) ↔ v = b := by omega
    refine ⟨vt, hvt, ?_⟩
    simp only [e1, e2]
    by_cases h1 : v = a
    · subst h1
      by_cases h2 : v = b
      · subst h2
        simp [pushOut]
      · simp [h2, pushOut]
    · by_cases h2 : v = b
      · subst h2
        simp [h1, pushOut]
      · simp [h1, h2, pushOut]
  · rintro ⟨vt, hvt, -, -, -, -, rfl⟩
    have hv0 := (getAt_lt_length hvt).1
    have e1 : (v.toNat = a.toNat) ↔ v = a := by omega
    have e2 : (v.toNat = b.toNat) ↔ v = b := by omega
    refine ⟨_, ⟨vt, hvt, rfl⟩, ?_⟩
    simp only [e1, e2]
    by_cases h1 : v = a
    · subst h1
      by_cases h2 : v = b
      · subst h2
        simp
      · simp [h2]
    · by_cases h2 : v = b
      · subst h2
        simp [h1]
      · simp [h1, h2]

end AddEdgeWF

section AddEdgeWF2

variable {VD HD FD : Type}

theorem getAt_verts_withNewEdge_of {m : Mesh VD HD FD} {a b : Int} (hd hdrev : HD)
    (ha : 0 ≤ a) (hb : 0 ≤ b) {v : Int} {vt : Triplet VertTopo VD}
    (hvt : getAt m.verts v = .ok vt) :
    ∃ vt', getAt (m.withNewEdge a b hd hdrev).verts v = .ok vt' ∧
      vt'.topo.halfedges = vt.topo.halfedges
          ++ (if v = a then [(m.halfs.length : Int)] else [])
          ++ (if v = b then [(m.halfs.length : Int) + 1] else []) := by
  have hv0 := (getAt_lt_length hvt).1
  refine ⟨(if v = b then pushOut ((m.halfs.length : Int) + 1) else id)
          ((if v = a then pushOut (m.halfs.length : Int) else id) vt), ?_, ?_⟩
  · simp only [Mesh.withNewEdge, getAt_updAt]
    have e1 : (v.toNat = a.toNat) ↔ v = a := by omega
    have e2 : (v.toNat = b.toNat) ↔ v = b := by omega
    refine ⟨_, ⟨vt, hvt, rfl⟩, ?_⟩
    simp only [e1, e2]
    by_cases h1 : v = a
    · subst h1
      by_cases h2 : v = b
      · subst h2
        simp
      · simp [h2]
    · by_cases h2 : v = b
      · subst h2
        simp [h1]
      · simp [h1, h2]
  · by_cases h1 : v = a
    · subst h1
      by_cases h2 : v = b
      · subst h2
        simp [pushOut]
      · simp [h2, pushOut]
    · by_cases h2 : v = b
      · subst h2
        simp [h1, pushOut]
      · simp [h1, h2, pushOut]

theorem wf_withNewEdge {m : Mesh VD HD FD} (hw : m.WF) {a b : Int} (hd hdrev : HD)
    (ha : 0 ≤ a) (halt : a.toNat < m.verts.length) (hb : 0 ≤ b)
    (hblt : b.toNat < m.verts.length) (hab : a ≠ b) : (m.withNewEdge a b hd hdrev).WF := by
  have hold : ∀ {h : Int} {t : Triplet HalfTopo HD}, getAt m.halfs h = .ok t →
      getAt (m.withNewEdge a b hd hdrev).halfs h = .ok t :=
    fun hg => getAt_halfs_withNewEdge.mpr (Or.inl hg)
  have hn1 : getAt (m.withNewEdge a b hd hdrev).halfs (m.halfs.length : Int) =
      .ok ⟨⟨(m.halfs.length : Int), a, b, (m.halfs.length : Int) + 1, Handle.none⟩, hd, true⟩ :=
    getAt_halfs_withNewEdge.mpr (Or.inr (Or.inl ⟨rfl, rfl⟩))
  have hn2 : getAt (m.withNewEdge a b hd hdrev).halfs ((m.halfs.length : Int) + 1) =
      .ok ⟨⟨(m.halfs.length : Int) + 1, b, a, (m.halfs.length : Int), Handle.none⟩, hdrev, true⟩ :=
    getAt_halfs_withNewEdge.mpr (Or.inr (Or.inr ⟨rfl, rfl⟩))
  have hvlen : (m.withNewEdge a b hd hdrev).verts.length = m.verts.length := by
    simp [Mesh.withNewEdge]
  -- `liveTo` and `oppOf` on the old outgoing lists
  have hliveOld : ∀ (y : Int) (v : Int) (vt : Triplet VertTopo VD), getAt m.verts v = .ok vt →
      vt.topo.halfedges.filter ((m.withNewEdge a b hd hdrev).liveTo y)
        = vt.topo.halfedges.filter (m.liveTo y) := by
    intro y v vt hvt
    apply List.filter_congr
    intro x hx
    obtain ⟨t, ht⟩ := hw.listInRange v vt hvt x hx
    simp [Mesh.liveTo, ht, hold ht]
  have hoppOld : ∀ (y : Int) (v : Int) (vt : Triplet VertTopo VD), getAt m.verts v = .ok vt →
      (vt.topo.halfedges.filter (m.liveTo y)).map (m.withNewEdge a b hd hdrev).oppOf
        = (vt.topo.halfedges.filter (m.liveTo y)).map m.oppOf := by
    intro y v vt hvt
    apply List.map_congr_left
    intro x hx
    obtain ⟨t, ht⟩ := hw.listInRange v vt hvt x (List.mem_of_mem_filter hx)
    simp [Mesh.oppOf, ht, hold ht]
  have hl1 : ∀ y : Int, (m.withNewEdge a b hd hdrev).liveTo y (m.halfs.length : Int)
      = decide (b = y) := by
    intro y
    simp [Mesh.liveTo, hn1]
  have hl2 : ∀ y : Int, (m.withNewEdge a b hd hdrev).liveTo y ((m.halfs.length : Int) + 1)
      = decide (a = y) := by
    intro y
    simp [Mesh.liveTo, hn2]
  have ho1 : (m.withNewEdge a b hd hdrev).oppOf (m.halfs.length : Int)
      = (m.halfs.length : Int) + 1 := by
    simp [Mesh.oppOf, hn1]
  have ho2 : (m.withNewEdge a b hd hdrev).oppOf ((m.halfs.length : Int) + 1)
      = (m.halfs.length : Int) := by
    simp [Mesh.oppOf, hn2]
  constructor
  · -- listInRange
    intro v vt' hv hh hmem
    obtain ⟨vt, hvt, -, -, -, hl, -⟩ := (getAt_verts_withNewEdge ha hb).mp hv
    rw [hl] at hmem
    simp only [List.mem_append] at hmem
    rcases hmem with (hmem | hmem) | hmem
    · obtain ⟨t, ht⟩ := hw.listInRange v vt hvt hh hmem
      exact ⟨t, hold ht⟩
    · split at hmem
      · simp only [List.mem_singleton] at hmem
        subst hmem
        exact ⟨_, hn1⟩
      · simp at hmem
    · split at hmem
      · simp only [List.mem_singleton] at hmem
        subst hmem
        exact ⟨_, hn2⟩
      · simp at hmem
  · -- listFrom
    intro v vt' hv hh hmem t ht hex
    obtain ⟨vt, hvt, -, -, -, hl, -⟩ := (getAt_verts_withNewEdge ha hb).mp hv
    rw [hl] at hmem
    simp only [List.mem_append] at hmem
    rcases hmem with (hmem | hmem) | hmem
    · obtain ⟨t0, ht0⟩ := hw.listInRange v vt hvt hh hmem
      have hEq : t0 = t := by
        rw [hold ht0] at ht
        exact Except.ok.inj ht
      subst hEq
      exact hw.listFrom v vt hvt hh hmem t0 ht0 hex
    · split at hmem
      · rename_i hva
        simp only [List.mem_singleton] at hmem
        subst hmem
        rw [hn1] at ht
        cases ht
        exact hva.symm
      · simp at hmem
    · split at hmem
      · rename_i hvb
        simp only [List.mem_singleton] at hmem
        subst hmem
        rw [hn2] at ht
        cases ht
        exact hvb.symm
      · simp at hmem
  · -- pairing
    intro h t ht hex
    rcases getAt_halfs_withNewEdge.mp ht with h0 | ⟨rfl, rfl⟩ | ⟨rfl, rfl⟩
    · obtain ⟨t2, ht2, hex2, hop, hf, hto⟩ := hw.pairing h t h0 hex
      exact ⟨t2, hold ht2, hex2, hop, hf, hto⟩
    · exact ⟨_, hn2, rfl, rfl, rfl, rfl⟩
    · exact ⟨_, hn1, rfl, rfl, rfl, rfl⟩
  · -- endsInRange
    intro h t ht hex
    rw [hvlen]
    rcases getAt_halfs_withNewEdge.mp ht with h0 | ⟨rfl, rfl⟩ | ⟨rfl, rfl⟩
    · exact hw.endsInRange h t h0 hex
    · simp only
      omega
    · simp only
      omega
  · -- faceInRange
    intro h t ht hex
    rcases getAt_halfs_withNewEdge.mp ht with h0 | ⟨rfl, rfl⟩ | ⟨rfl, rfl⟩
    · exact hw.faceInRange h t h0 hex
    · simp only [Mesh.withNewEdge, Handle.none]
      omega
    · simp only [Mesh.withNewEdge, Handle.none]
      omega
  · -- inList
    intro h t ht hex h0
    rcases getAt_halfs_withNewEdge.mp ht with hg | ⟨rfl, rfl⟩ | ⟨rfl, rfl⟩
    · obtain ⟨vt, hvt, hmem⟩ := hw.inList h t hg hex h0
      obtain ⟨vt', hvt', hl⟩ := getAt_verts_withNewEdge_of hd hdrev ha hb hvt
      refine ⟨vt', hvt', ?_⟩
      rw [hl]
      simp [hmem]
    · obtain ⟨va, hva⟩ := getAt_isOk_iff.mpr ⟨ha, halt⟩
      obtain ⟨vt', hvt', hl⟩ := getAt_verts_withNewEdge_of hd hdrev ha hb hva
      refine ⟨vt', hvt', ?_⟩
      rw [hl]
      simp
    · obtain ⟨vb, hvb⟩ := getAt_isOk_iff.mpr ⟨hb, hblt⟩
      obtain ⟨vt', hvt', hl⟩ := getAt_verts_withNewEdge_of hd hdrev ha hb hvb
      refine ⟨vt', hvt', ?_⟩
      rw [hl]
      simp
  · -- deadReset
    intro h t ht hex
    rcases getAt_halfs_withNewEdge.mp ht with hg | ⟨rfl, rfl⟩ | ⟨rfl, rfl⟩
    · exact hw.deadReset h t hg hex
    · simp at hex
    · simp at hex
  · -- order
    intro x y vx' vy' hxy hvx hvy
    obtain ⟨vx, hx, -, -, -, hlx, -⟩ := (getAt_verts_withNewEdge ha hb).mp hvx
    obtain ⟨vy, hy, -, -, -, hly, -⟩ := (getAt_verts_withNewEdge ha hb).mp hvy
    have hord := hw.order x y vx vy hxy hx hy
    rw [hlx, hly]
    simp only [List.filter_append, List.map_append, hliveOld y x vx hx, hliveOld x y vy hy,
      hoppOld y x vx hx, hord]
    by_cases hxa : x = a
    · subst hxa
      by_cases hyb : y = b
      · subst hyb
        simp [hl1, hl2, ho1, ho2, hab, Ne.symm hab]
      · have hya : ¬ y = x := fun e => hxy e.symm
        simp [hl1, hl2, ho1, ho2, hab, Ne.symm hab, hyb, hya, Ne.symm hyb, hxy]
    · by_cases hxb : x = b
      · subst hxb
        by_cases hya : y = a
        · subst hya
          simp [hl1, hl2, ho1, ho2, hab, Ne.symm hab]
        · have hyx : ¬ y = x := fun e => hxy e.symm
          simp [hl1, hl2, ho1, ho2, hxa, hya, hyx, Ne.symm hya, hxy]
      · by_cases hya : y = a
        · subst hya
          simp [hl1, hl2, ho1, ho2, hxa, hxb, hab, Ne.symm hxb, Ne.symm hxa]
        · by_cases hyb : y = b
          · subst hyb
            simp [hl1, hl2, ho1, ho2, hxa, hxb, hya, Ne.symm hxb, Ne.symm hxa]
          · simp [hl1, hl2, ho1, ho2, hxa, hxb, hya, hyb]
  · -- halfHd
    intro h t ht
    rcases getAt_halfs_withNewEdge.mp ht with hg | ⟨rfl, rfl⟩ | ⟨rfl, rfl⟩
    · exact hw.halfHd h t hg
    · rfl
    · rfl

end AddEdgeWF2

section AddEdgeWF3

variable {VD HD FD : Type}

/-- In a well-formed mesh the two scans of a merging `addEdge(a, b)` agree: both
find nothing, or they find a half-edge and its opposite. -/
theorem findEdge_pair {m : Mesh VD HD FD} (hw : m.WF) {a b f1 f2 : Int} (hab : a ≠ b)
    (h1 : m.findEdge a b = .ok f1) (h2 : m.findEdge b a = .ok f2) :
    (f1 = Handle.none ∧ f2 = Handle.none) ∨
    (∃ t1 t2, getAt m.halfs f1 = .ok t1 ∧ getAt m.halfs f2 = .ok t2 ∧
      t1.exists_ = true ∧ t2.exists_ = true ∧
      t1.topo.efrom = a ∧ t1.topo.eto = b ∧ t2.topo.efrom = b ∧ t2.topo.eto = a ∧
      t1.topo.opposite = f2 ∧ t2.topo.opposite = f1) := by
  obtain ⟨va, hva, -⟩ := findEdge_eq_ok.mp h1
  obtain ⟨vb, hvb, -⟩ := findEdge_eq_ok.mp h2
  have ha0 := (getAt_lt_length hva).1
  have hb0 := (getAt_lt_length hvb).1
  have e1 := findEdge_head hw hva hb0 h1
  have e2 := findEdge_head hw hvb ha0 h2
  have hord := congrArg List.head? (hw.order a b va vb hab hva hvb)
  rw [List.head?_map, e1, e2] at hord
  rcases findEdge_found h1 with hn | ⟨t1, hg1, hf1, ht1⟩
  · left
    simp only [hn, if_true, Option.map_none'] at hord
    refine ⟨hn, ?_⟩
    by_contra hne
    simp [hne] at hord
  · right
    have hne1 : f1 ≠ Handle.none := by
      have := (getAt_lt_length hg1).1
      simp only [Handle.none]
      omega
    simp only [hne1, if_false, Option.map_some', oppOf_eq hg1] at hord
    have hf2 : f2 = t1.topo.opposite := by
      by_cases hn2 : f2 = Handle.none
      · simp [hn2] at hord
      · simp only [hn2, if_false, Option.some.injEq] at hord
        exact hord.symm
    have hex1 : t1.exists_ = true := by
      cases hex : t1.exists_ with
      | true => rfl
      | false => rcases hw.deadReset f1 t1 hg1 hex with h | h <;> omega
    obtain ⟨t2, hg2, hex2, hop2, hfr2, hto2⟩ := hw.pairing f1 t1 hg1 hex1
    rw [← hf2] at hg2
    exact ⟨t1, t2, hg1, hg2, hex1, hex2, hf1, ht1, by rw [hfr2, ht1], by rw [hto2, hf1],
      hf2.symm, hop2⟩

/-- A returned `addEdge(a, b)`, `a != b`, on a well-formed mesh either found the
edge and changed nothing, or created both half-edges. -/
theorem addEdge_wf_cases {m m' : Mesh VD HD FD} (hw : m.WF) {a b h : Int} {hd hdrev : HD}
    {merge : Bool} (hab : a ≠ b) (hr : m.addEdge a b hd hdrev merge = .ok (m', h)) :
    (m' = m ∧ merge = true ∧ m.findEdge a b = .ok h ∧
      ∃ t1 t2, getAt m.halfs h = .ok t1 ∧ getAt m.halfs t1.topo.opposite = .ok t2 ∧
        t1.exists_ = true ∧ t1.topo.efrom = a ∧ t1.topo.eto = b ∧
        m.findEdge b a = .ok t1.topo.opposite) ∨
    (0 ≤ a ∧ a.toNat < m.verts.length ∧ 0 ≤ b ∧ b.toNat < m.verts.length ∧
      h = m.halfs.length ∧ m' = m.withNewEdge a b hd hdrev ∧
      (merge = true → m.findEdge a b = .ok Handle.none ∧ m.findEdge b a = .ok Handle.none)) := by
  obtain ⟨f1, f2, hf1, hf2, hcases⟩ := addEdge_cases hab hr
  cases merge with
  | false =>
    simp only [Bool.false_eq_true, if_false, Except.ok.injEq] at hf1 hf2
    subst hf1
    subst hf2
    right
    rcases hcases with ⟨-, -, h1, h2, h3, h4, h5, h6⟩ | ⟨h1, -⟩ | ⟨-, h1⟩ | ⟨h1, -⟩
    · exact ⟨h1, h2, h3, h4, h5, h6, by simp⟩
    · simp [Handle.none] at h1
    · simp [Handle.none] at h1
    · simp [Handle.none] at h1
  | true =>
    simp only [if_true] at hf1 hf2
    rcases findEdge_pair hw hab hf1 hf2 with ⟨rfl, rfl⟩ |
      ⟨t1, t2, hg1, hg2, hex1, hex2, hfr1, hto1, hfr2, hto2, hop1, hop2⟩
    · right
      rcases hcases with ⟨-, -, h1, h2, h3, h4, h5, h6⟩ | ⟨h1, -⟩ | ⟨-, h1⟩ | ⟨h1, -⟩
      · exact ⟨h1, h2, h3, h4, h5, h6, fun _ => ⟨hf1, hf2⟩⟩
      · simp [Handle.none] at h1
      · simp [Handle.none] at h1
      · simp [Handle.none] at h1
    · left
      have p1 := (getAt_lt_length hg1).1
      have p2 := (getAt_lt_length hg2).1
      rcases hcases with ⟨h1, -⟩ | ⟨-, -, rfl, -, -, rfl⟩ | ⟨h1, -⟩ | ⟨-, h1⟩
      · omega
      · refine ⟨?_, rfl, hf1, t1, t2, hg1, by rw [hop1]; exact hg2, hex1, hfr1, hto1,
          by rw [hop1]; exact hf2⟩
        have e1 : updAt m.halfs h.toNat (setOpp f2) = m.halfs := by
          apply updAt_self_id
          intro x hx
          rw [(getAt_eq_ok.mp hg1).2] at hx
          cases hx
          simp only [setOpp]
          rw [← hop1]
        have e2 : updAt m.halfs f2.toNat (setOpp h) = m.halfs := by
          apply updAt_self_id
          intro x hx
          rw [(getAt_eq_ok.mp hg2).2] at hx
          cases hx
          simp only [setOpp]
          rw [← hop2]
        rw [e1, e2]
      · omega
      · omega

theorem wf_addEdge {m m' : Mesh VD HD FD} (hw : m.WF) {a b h : Int} {hd hdrev : HD}
    {merge : Bool} (hr : m.addEdge a b hd hdrev merge = .ok (m', h)) : m'.WF := by
  by_cases hab : a = b
  · simp only [Mesh.addEdge, hab, if_true, Except.ok.injEq, Prod.mk.injEq] at hr
    rw [← hr.1]
    exact hw
  · rcases addEdge_wf_cases hw hab hr with ⟨rfl, -⟩ | ⟨h1, h2, h3, h4, -, rfl, -⟩
    · exact hw
    · exact wf_withNewEdge hw hd hdrev h1 h2 h3 h4 hab

end AddEdgeWF3

/-! ## Removing half-edges keeps the mesh well formed -/

section Kill

variable {VD HD FD : Type}

theorem filter_map_comm {α β : Type} (f : α → β) (p : α → Bool) (q : β → Bool) (l : List α)
    (h : ∀ x ∈ l, p x = q (f x)) : (l.filter p).map f = (l.map f).filter q := by
  induction l with
  | nil => rfl
  | cons x xs ih =>
    have hx := h x (List.mem_cons_self _ _)
    have ih' := ih (fun y hy => h y (List.mem_cons_of_mem _ hy))
    cases hp : p x with
    | true =>
      have hq : q (f x) = true := by rw [← hx, hp]
      simp [List.filter_cons, hp, hq, ih']
    | false =>
      have hq : q (f x) = false := by rw [← hx, hp]
      simp [List.filter_cons, hp, hq, ih']

theorem KillStep.live_eq {m m' : Mesh VD HD FD} (hk : KillStep m m') {h : Int}
    {t' : Triplet HalfTopo HD} (ht' : getAt m'.halfs h = .ok t') (hex : t'.exists_ = true) :
    getAt m.halfs h = .ok t' := by
  obtain ⟨t, ht⟩ := hk.bwd h t' ht'
  obtain ⟨t'', ht'', -, -, hor⟩ := hk.fwd h t ht
  rw [ht'] at ht''
  cases ht''
  rcases hor with rfl | ⟨hd, -⟩
  · exact ht
  · rw [hex] at hd
    cases hd

theorem KillStep.oppOf_same {m m' : Mesh VD HD FD} (hk : KillStep m m') (h : Int) :
    m'.oppOf h = m.oppOf h := by
  unfold Mesh.oppOf
  cases hg : getAt m.halfs h with
  | error e =>
    cases hg' : getAt m'.halfs h with
    | error e' => rfl
    | ok t' =>
      obtain ⟨t, ht⟩ := hk.bwd h t' hg'
      rw [ht] at hg
      cases hg
  | ok t =>
    obtain ⟨t', ht', hop, -⟩ := hk.fwd h t hg
    simp [ht', hop]

theorem wf_of_kill {m m' : Mesh VD HD FD} (hw : m.WF) (hk : KillStep m m') : m'.WF := by
  -- a half-edge of `m` that is no more live in `m'` has an opposite of the same kind
  have hpair : ∀ h t, getAt m.halfs h = .ok t → t.exists_ = true →
      ∀ b : Int, (m'.liveTo b h = m.liveTo b h) ∨ (m'.liveTo b h = false ∧
        ∀ c : Int, m'.liveTo c t.topo.opposite = false) := by
    intro h t ht hex b
    obtain ⟨t', ht', -, -, hor⟩ := hk.fwd h t ht
    rcases hor with rfl | ⟨hd, -⟩
    · left
      simp [Mesh.liveTo, ht, ht']
    · right
      obtain ⟨t2', ht2', hd2⟩ := hk.paired h t t' ht hex ht' hd
      exact ⟨by simp [Mesh.liveTo, ht', hd], fun c => by simp [Mesh.liveTo, ht2', hd2]⟩
  have hlive_sub : ∀ (b h : Int), m'.liveTo b h = true → m.liveTo b h = true := by
    intro b h hl
    obtain ⟨t', ht', hex, hto⟩ := liveTo_eq_true.mp hl
    exact liveTo_eq_true.mpr ⟨t', hk.live_eq ht' hex, hex, hto⟩
  constructor
  · intro v vt hv hh hmem
    rw [hk.verts] at hv
    obtain ⟨t, ht⟩ := hw.listInRange v vt hv hh hmem
    obtain ⟨t', ht', -⟩ := hk.fwd hh t ht
    exact ⟨t', ht'⟩
  · intro v vt hv hh hmem t' ht' hex
    rw [hk.verts] at hv
    exact hw.listFrom v vt hv hh hmem t' (hk.live_eq ht' hex) hex
  · intro h t' ht' hex
    have ht := hk.live_eq ht' hex
    obtain ⟨t2, ht2, hex2, hop, hf, hto⟩ := hw.pairing h t' ht hex
    obtain ⟨t2', ht2', -, -, hor⟩ := hk.fwd _ t2 ht2
    rcases hor with rfl | ⟨hd, -⟩
    · exact ⟨t2', ht2', hex2, hop, hf, hto⟩
    · obtain ⟨t3, ht3, hd3⟩ := hk.paired _ t2 t2' ht2 hex2 ht2' hd
      rw [hop, ht'] at ht3
      cases ht3
      rw [hex] at hd3
      cases hd3
  · intro h t' ht' hex
    rw [hk.verts]
    exact hw.endsInRange h t' (hk.live_eq ht' hex) hex
  · intro h t' ht' hex
    rw [hk.faces]
    exact hw.faceInRange h t' (hk.live_eq ht' hex) hex
  · intro h t' ht' hex h0
    rw [hk.verts]
    exact hw.inList h t' (hk.live_eq ht' hex) hex h0
  · intro h t' ht' hex
    obtain ⟨t, ht⟩ := hk.bwd h t' ht'
    obtain ⟨t'', ht'', -, -, hor⟩ := hk.fwd h t ht
    rw [ht'] at ht''
    cases ht''
    rcases hor with rfl | ⟨-, hr⟩
    · exact hw.deadReset h t' ht hex
    · exact hr
  · intro a b va vb hab hva hvb
    rw [hk.verts] at hva hvb
    have hord := hw.order a b va vb hab hva hvb
    -- the live half-edges of `m'` are those of `m` that were not removed
    have hsplit : ∀ (y : Int) (l : List Int),
        l.filter (m'.liveTo y) = (l.filter (m.liveTo y)).filter (m'.liveTo y) := by
      intro y l
      rw [List.filter_filter]
      apply List.filter_congr
      intro x _
      cases hl : m'.liveTo y x with
      | false => simp
      | true => simp [hlive_sub y x hl]
    rw [hsplit b, hsplit a, ← hord]
    have hfun : (fun h => m'.oppOf h) = (fun h => m.oppOf h) := funext hk.oppOf_same
    show List.map (fun h => m'.oppOf h) _ = _
    rw [hfun]
    apply filter_map_comm
    intro x hx
    obtain ⟨t, ht, hex, hto⟩ := liveTo_eq_true.mp (List.mem_filter.mp hx).2
    have hfrom : t.topo.efrom = a :=
      hw.listFrom a va hva x (List.mem_filter.mp hx).1 t ht hex
    obtain ⟨t2, ht2, hex2, hop2, hf2, hto2⟩ := hw.pairing x t ht hex
    rw [oppOf_eq ht]
    have hl2 : m.liveTo a t.topo.opposite = true :=
      liveTo_eq_true.mpr ⟨t2, ht2, hex2, by rw [hto2, hfrom]⟩
    have hl1 : m.liveTo b x = true := (List.mem_filter.mp hx).2
    rcases hpair x t ht hex b with h1 | ⟨h1, h1'⟩
    · rcases hpair _ t2 ht2 hex2 a with h2 | ⟨h2, h2'⟩
      · rw [h1, h2, hl1, hl2]
      · have := h2' b
        rw [hop2, h1, hl1] at this
        cases this
    · rw [h1, h1' a]
  · intro h t' ht'
    obtain ⟨t, ht⟩ := hk.bwd h t' ht'
    obtain ⟨t'', ht'', -, hhd, -⟩ := hk.fwd h t ht
    rw [ht'] at ht''
    cases ht''
    rw [hhd]
    exact hw.halfHd h t ht

end Kill

section KillRemove

variable {VD HD FD : Type}

theorem KillStep.of_same {m m' : Mesh VD HD FD} (hv : m'.verts = m.verts)
    (hh : m'.halfs = m.halfs) (hf : m'.faces.length = m.faces.length) : KillStep m m' := by
  constructor
  · exact hv
  · exact hf
  · intro h t ht
    exact ⟨t, by rw [hh]; exact ht, rfl, rfl, Or.inl rfl⟩
  · intro h t' ht'
    exact ⟨t', by rw [← hh]; exact ht'⟩
  · intro h t t' ht hex ht' hd
    rw [hh, ht] at ht'
    cases ht'
    rw [hex] at hd
    cases hd

theorem wf_removeFace {m m' : Mesh VD HD FD} (hw : m.WF) {f : Int}
    (hr : m.removeFace f = .ok m') : m'.WF := by
  obtain ⟨a, b, c⟩ := removeFace_frame hr
  exact wf_of_kill hw (KillStep.of_same a b c)

theorem killStep_removeHalf {m m' : Mesh VD HD FD} (hw : m.WF) {h : Int}
    (hr : m.removeHalf h = .ok m') : KillStep m m' := by
  rcases removeHalf_cases hr with rfl | ⟨t, t2, hg, hex, hg2, hf1, hf2, rfl⟩
  · exact KillStep.of_same rfl rfl rfl
  · have h0 := (getAt_lt_length hg).1
    have ho0 := (getAt_lt_length hg2).1
    obtain ⟨t2', hg2', hex2, hop2, -, -⟩ := hw.pairing h t hg hex
    rw [hg2] at hg2'
    cases hg2'
    constructor
    · rfl
    · simp
    · intro x tx hx
      have hx0 := (getAt_lt_length hx).1
      refine ⟨_, getAt_updAt.mpr ⟨_, getAt_updAt.mpr ⟨tx, hx, rfl⟩, rfl⟩, ?_⟩
      split_ifs <;> simp [killHalfFrom, killHalfTo, Handle.none]
    · intro x tx' hx'
      obtain ⟨y, hy, -⟩ := getAt_updAt.mp hx'
      obtain ⟨z, hz, -⟩ := getAt_updAt.mp hy
      exact ⟨z, hz⟩
    · intro x tx tx' hx hexx hx' hd
      have hx0 := (getAt_lt_length hx).1
      obtain ⟨y, hy, rfl⟩ := getAt_updAt.mp hx'
      obtain ⟨z, hz, rfl⟩ := getAt_updAt.mp hy
      rw [hx] at hz
      cases hz
      have hdeadH : ∃ t', getAt (updAt (updAt m.halfs h.toNat killHalfFrom)
          t.topo.opposite.toNat killHalfTo) h = .ok t' ∧ t'.exists_ = false := by
        refine ⟨_, getAt_updAt.mpr ⟨_, getAt_updAt.mpr ⟨t, hg, rfl⟩, rfl⟩, ?_⟩
        split_ifs <;> first | contradiction | simp [killHalfFrom, killHalfTo]
      have hdeadO : ∃ t', getAt (updAt (updAt m.halfs h.toNat killHalfFrom)
          t.topo.opposite.toNat killHalfTo) t.topo.opposite = .ok t' ∧ t'.exists_ = false := by
        refine ⟨_, getAt_updAt.mpr ⟨_, getAt_updAt.mpr ⟨t2, hg2, rfl⟩, rfl⟩, ?_⟩
        simp [killHalfTo]
      by_cases e1 : x.toNat = h.toNat
      · have : x = h := by omega
        subst this
        rw [hg] at hx
        cases hx
        exact hdeadO
      · by_cases e2 : x.toNat = t.topo.opposite.toNat
        · have : x = t.topo.opposite := by omega
          subst this
          rw [hg2] at hx
          cases hx
          rw [hop2]
          exact hdeadH
        · simp [e1, e2, hexx] at hd

theorem wf_removeHalf {m m' : Mesh VD HD FD} (hw : m.WF) {h : Int}
    (hr : m.removeHalf h = .ok m') : m'.WF :=
  wf_of_kill hw (killStep_removeHalf hw hr)

theorem wf_removeHalfs {l : List Int} : ∀ {m m' : Mesh VD HD FD}, m.WF →
    removeHalfs m l = .ok m' → m'.WF := by
  induction l with
  | nil =>
    intro m m' hw hr
    simp only [removeHalfs, Except.ok.injEq] at hr
    subst hr
    exact hw
  | cons hh rest ih =>
    intro m m' hw hr
    unfold removeHalfs at hr
    cases h1 : m.removeHalf hh with
    | error e => simp [h1] at hr
    | ok m1 =>
      simp only [h1] at hr
      exact ih (wf_removeHalf hw h1) hr

/-- After `remove(hh)` returned, `hh` is removed, if it is a slot at all. -/
theorem removeHalf_dead {m m' : Mesh VD HD FD} {h : Int} (hr : m.removeHalf h = .ok m')
    {t : Triplet HalfTopo HD} (hg : getAt m.halfs h = .ok t) :
    ∃ t', getAt m'.halfs h = .ok t' ∧ t'.exists_ = false := by
  have h2 := removeHalf_twice hr
  have h0 := (getAt_lt_length hg).1
  have hlen := (removeHalf_frame hr).2.1
  obtain ⟨t', ht'⟩ := getAt_isOk_iff.mpr
    ⟨h0, by rw [hlen]; exact (getAt_isOk_iff.mp ⟨t, hg⟩).2⟩
  refine ⟨t', ht', ?_⟩
  cases hex : t'.exists_ with
  | false => rfl
  | true =>
    obtain ⟨t2, -, -, -, he⟩ := (removeHalf_live_eq_ok ht' hex).mp h2
    have := congrArg (fun x => getAt x.halfs h) he
    simp only at this
    rw [ht'] at this
    obtain ⟨y, hy, hyt⟩ := getAt_updAt.mp this.symm
    obtain ⟨z, hz, rfl⟩ := getAt_updAt.mp hy
    rw [ht'] at hz
    cases hz
    have : t'.exists_ = false := by
      rw [hyt]
      split_ifs <;> first | contradiction | simp [killHalfFrom, killHalfTo]
    rw [hex] at this
    cases this

theorem removeHalfs_dead {l : List Int} : ∀ {m m' : Mesh VD HD FD}, m.WF →
    removeHalfs m l = .ok m' →
    ∀ hh ∈ l, ∀ t, getAt m.halfs hh = .ok t →
      ∃ t', getAt m'.halfs hh = .ok t' ∧ t'.exists_ = false := by
  induction l with
  | nil => intro m m' _ _ hh hmem; simp at hmem
  | cons x rest ih =>
    intro m m' hw hr hh hmem t ht
    unfold removeHalfs at hr
    cases h1 : m.removeHalf x with
    | error e => simp [h1] at hr
    | ok m1 =>
      simp only [h1] at hr
      have hk := killStep_removeHalf hw h1
      have hw1 := wf_of_kill hw hk
      obtain ⟨t1, ht1, -⟩ := hk.fwd hh t ht
      by_cases hin : hh ∈ rest
      · exact ih hw1 hr hh hin t1 ht1
      · have hx : hh = x := by
          rcases List.mem_cons.mp hmem with h | h
          · exact h
          · exact absurd h hin
        subst hx
        obtain ⟨t1', ht1', hd1⟩ := removeHalf_dead h1 ht
        -- it stays removed through the rest of the loop
        have hstay : ∀ {l : List Int} {ma mb : Mesh VD HD FD}, ma.WF → removeHalfs ma l = .ok mb →
            ∀ ta, getAt ma.halfs hh = .ok ta → ta.exists_ = false →
            ∃ tb, getAt mb.halfs hh = .ok tb ∧ tb.exists_ = false := by
          intro l
          induction l with
          | nil =>
            intro ma mb _ hrr ta hta hda
            simp only [removeHalfs, Except.ok.injEq] at hrr
            subst hrr
            exact ⟨ta, hta, hda⟩
          | cons y ys ihy =>
            intro ma mb hwa hrr ta hta hda
            unfold removeHalfs at hrr
            cases h2 : ma.removeHalf y with
            | error e => simp [h2] at hrr
            | ok mc =>
              simp only [h2] at hrr
              have hkc := killStep_removeHalf hwa h2
              obtain ⟨tc, htc, -, -, hor⟩ := hkc.fwd hh ta hta
              have hdc : tc.exists_ = false := by
                rcases hor with rfl | ⟨hd, -⟩
                · exact hda
                · exact hd
              exact ihy (wf_of_kill hwa hkc) hrr tc htc hdc
        exact hstay hw1 hr t1' ht1' hd1

end KillRemove

section RemoveVertWF

variable {VD HD FD : Type}

/-- A change of `_verts` alone that leaves every outgoing list as it was, or clears
a list whose half-edges are all removed, keeps the mesh well formed. -/
theorem wf_of_verts {m m' : Mesh VD HD FD} (hw : m.WF) (hh : m'.halfs = m.halfs)
    (hf : m'.faces.length = m.faces.length) (hl : m'.verts.length = m.verts.length)
    (hfwd : ∀ v vt, getAt m.verts v = .ok vt → ∃ vt', getAt m'.verts v = .ok vt' ∧
      (vt'.topo.halfedges = vt.topo.halfedges ∨
        (vt'.topo.halfedges = [] ∧
          ∀ x ∈ vt.topo.halfedges, ∀ t, getAt m.halfs x = .ok t → t.exists_ = false))) :
    m'.WF := by
  have hbwd : ∀ v vt', getAt m'.verts v = .ok vt' → ∃ vt, getAt m.verts v = .ok vt ∧
      (vt'.topo.halfedges = vt.topo.halfedges ∨
        (vt'.topo.halfedges = [] ∧
          ∀ x ∈ vt.topo.halfedges, ∀ t, getAt m.halfs x = .ok t → t.exists_ = false)) := by
    intro v vt' hv'
    obtain ⟨h0, hlt⟩ := getAt_lt_length hv'
    obtain ⟨vt, hvt⟩ := getAt_of_lt m.verts h0 (by omega)
    obtain ⟨vt'', hv'', hor⟩ := hfwd v vt hvt
    rw [hv'] at hv''
    cases hv''
    exact ⟨vt, hvt, hor⟩
  have hsub : ∀ v vt', getAt m'.verts v = .ok vt' → ∃ vt, getAt m.verts v = .ok vt ∧
      ∀ x ∈ vt'.topo.halfedges, x ∈ vt.topo.halfedges := by
    intro v vt' hv'
    obtain ⟨vt, hvt, hor⟩ := hbwd v vt' hv'
    refine ⟨vt, hvt, ?_⟩
    rcases hor with e | ⟨e, -⟩
    · rw [e]
      exact fun _ h => h
    · rw [e]
      intro x hx
      simp at hx
  have hlive : ∀ (b : Int) (x : Int), m'.liveTo b x = m.liveTo b x := by
    intro b x
    simp [Mesh.liveTo, hh]
  have hopp : ∀ x : Int, m'.oppOf x = m.oppOf x := by
    intro x
    simp [Mesh.oppOf, hh]
  have hfilter : ∀ (b v : Int) (vt : Triplet VertTopo VD) (vt' : Triplet VertTopo VD),
      getAt m.verts v = .ok vt →
      (vt'.topo.halfedges = vt.topo.halfedges ∨
        (vt'.topo.halfedges = [] ∧
          ∀ x ∈ vt.topo.halfedges, ∀ t, getAt m.halfs x = .ok t → t.exists_ = false)) →
      vt'.topo.halfedges.filter (m'.liveTo b) = vt.topo.halfedges.filter (m.liveTo b) := by
    intro b v vt vt' hvt hor
    have hfun : m'.liveTo b = m.liveTo b := funext (hlive b)
    rw [hfun]
    rcases hor with e | ⟨e, hdead⟩
    · rw [e]
    · rw [e]
      symm
      simp only [List.filter_nil]
      apply List.filter_eq_nil_iff.mpr
      intro x hx hl
      obtain ⟨t, ht, hex, -⟩ := liveTo_eq_true.mp hl
      rw [hdead x hx t ht] at hex
      cases hex
  constructor
  · intro v vt' hv x hx
    obtain ⟨vt, hvt, hs⟩ := hsub v vt' hv
    rw [hh]
    exact hw.listInRange v vt hvt x (hs x hx)
  · intro v vt' hv x hx t ht hex
    obtain ⟨vt, hvt, hs⟩ := hsub v vt' hv
    rw [hh] at ht
    exact hw.listFrom v vt hvt x (hs x hx) t ht hex
  · rw [hh]
    exact hw.pairing
  · rw [hh, hl]
    exact hw.endsInRange
  · rw [hh, hf]
    exact hw.faceInRange
  · intro h t ht hex h0
    rw [hh] at ht
    obtain ⟨vt, hvt, hmem⟩ := hw.inList h t ht hex h0
    obtain ⟨vt', hvt', hor⟩ := hfwd _ vt hvt
    refine ⟨vt', hvt', ?_⟩
    rcases hor with e | ⟨-, hdead⟩
    · rw [e]
      exact hmem
    · rw [hdead h hmem t ht] at hex
      cases hex
  · rw [hh]
    exact hw.deadReset
  · intro a b va' vb' hab hva hvb
    obtain ⟨va, hva0, hora⟩ := hbwd a va' hva
    obtain ⟨vb, hvb0, horb⟩ := hbwd b vb' hvb
    rw [hfilter b a va va' hva0 hora, hfilter a b vb vb' hvb0 horb]
    have hfun : m'.oppOf = m.oppOf := funext hopp
    rw [hfun]
    exact hw.order a b va vb hab hva0 hvb0
  · rw [hh]
    exact hw.halfHd

theorem wf_removeVert {m m' : Mesh VD HD FD} (hw : m.WF) {v : Int}
    (hr : m.removeVert v = .ok m') : m'.WF := by
  by_cases hinv : Handle.invalid v = true
  · rw [removeVert_invalid m hinv] at hr
    cases hr
    exact hw
  · cases hg : getAt m.verts v with
    | error e => simp [Mesh.removeVert, hinv, hg] at hr
    | ok vt =>
      cases hex : vt.exists_ with
      | false =>
        have hrm : m.removedVert v = .ok true := removedVert_eq_ok.mpr ⟨vt, hg, by simp [hex]⟩
        rw [removeVert_removed hrm] at hr
        cases hr
        exact hw
      | true =>
        obtain ⟨m1, h1, rfl⟩ := (removeVert_live_eq_ok hg hex).mp hr
        have hv0 := (getAt_lt_length hg).1
        -- the mesh after `_verts[v.id].exists = false`
        have hw0 : (⟨updAt m.verts v.toNat killVert, m.halfs, m.faces⟩ : Mesh VD HD FD).WF := by
          refine wf_of_verts hw rfl rfl (by simp) ?_
          intro u ut hu
          refine ⟨_, getAt_updAt.mpr ⟨ut, hu, rfl⟩, Or.inl ?_⟩
          split_ifs <;> simp [killVert]
        have hw1 := wf_removeHalfs hw0 h1
        have hv1 := (removeHalfs_frame h1).1
        have hg0 : getAt (⟨updAt m.verts v.toNat killVert, m.halfs, m.faces⟩ :
            Mesh VD HD FD).verts v = .ok (killVert vt) :=
          getAt_updAt.mpr ⟨vt, hg, by simp⟩
        have hg1 : getAt m1.verts v = .ok (killVert vt) := by
          rw [hv1]
          exact hg0
        have hdead := removeHalfs_dead hw0 h1
        refine wf_of_verts hw1 rfl rfl (by simp) ?_
        intro u ut hu
        refine ⟨_, getAt_updAt.mpr ⟨ut, hu, rfl⟩, ?_⟩
        by_cases e : u.toNat = v.toNat
        · have huv : u = v := by
            have := (getAt_lt_length hu).1
            omega
          subst huv
          rw [hg1] at hu
          cases hu
          right
          refine ⟨by simp [clearVert], ?_⟩
          intro x hx t ht
          have hx' : x ∈ vt.topo.halfedges := by simpa [killVert] using hx
          obtain ⟨t0, ht0⟩ := hw0.listInRange u (killVert vt) hg0 x hx
          obtain ⟨t1, ht1, hd1⟩ := hdead x hx' t0 ht0
          rw [ht] at ht1
          cases ht1
          exact hd1
        · left
          simp [e]

end RemoveVertWF

/-! ## `addFace` -/

section AddFace

variable {VD HD FD : Type}

theorem setFaces_spec {f : Int} {l : List Int} : ∀ {halfs halfs' : List (Triplet HalfTopo HD)},
    setFaces f halfs l = .ok halfs' →
    halfs'.length = halfs.length ∧ (∀ x ∈ l, 0 ≤ x ∧ x.toNat < halfs.length) ∧
    ∀ h t, getAt halfs h = .ok t →
      getAt halfs' h = .ok (if h ∈ l then setFace f t else t) := by
  induction l with
  | nil =>
    intro halfs halfs' hr
    simp only [setFaces, Except.ok.injEq] at hr
    subst hr
    exact ⟨rfl, by simp, by simp⟩
  | cons x rest ih =>
    intro halfs halfs' hr
    unfold setFaces at hr
    cases h1 : modifyAt halfs x (setFace f) with
    | error e => simp [h1] at hr
    | ok halfs1 =>
      simp only [h1] at hr
      obtain ⟨hx0, hxlt, rfl⟩ := modifyAt_eq_ok_updAt.mp h1
      obtain ⟨hlen, hrange, hpt⟩ := ih hr
      simp only [length_updAt] at hlen hrange
      refine ⟨hlen, ?_, ?_⟩
      · intro y hy
        rcases List.mem_cons.mp hy with rfl | hy
        · exact ⟨hx0, hxlt⟩
        · exact hrange y hy
      · intro h t ht
        have h0 := (getAt_lt_length ht).1
        have := hpt h _ (getAt_updAt.mpr ⟨t, ht, rfl⟩)
        rw [this]
        congr 1
        by_cases e : h.toNat = x.toNat
        · have hx : h = x := by omega
          subst hx
          simp [setFace]
        · have hx : h ≠ x := fun e' => e (by rw [e'])
          simp [e, hx]

theorem setFaces_total {f : Int} {l : List Int} : ∀ {halfs : List (Triplet HalfTopo HD)},
    (∀ x ∈ l, 0 ≤ x ∧ x.toNat < halfs.length) → ∃ halfs', setFaces f halfs l = .ok halfs' := by
  induction l with
  | nil => intro halfs _; exact ⟨halfs, rfl⟩
  | cons x rest ih =>
    intro halfs hall
    obtain ⟨hx0, hxlt⟩ := hall x (List.mem_cons_self _ _)
    unfold setFaces
    rw [modifyAt_eq_ok_updAt.mpr ⟨hx0, hxlt, rfl⟩]
    simp only
    apply ih
    intro y hy
    simpa using hall y (List.mem_cons_of_mem _ hy)

theorem addFace_eq_ok {m m' : Mesh VD HD FD} {hs : List Int} {fd : FD} {f : Int} :
    m.addFace hs fd = .ok (m', f) ↔
      ∃ halfs, setFaces (m.faces.length : Int) m.halfs hs = .ok halfs ∧ f = m.faces.length ∧
        m' = ⟨m.verts, halfs, m.faces ++ [⟨⟨(m.faces.length : Int), hs⟩, fd, true⟩]⟩ := by
  simp only [Mesh.addFace]
  cases h1 : setFaces (m.faces.length : Int) m.halfs hs with
  | error e => simp
  | ok halfs =>
    simp only [Except.ok.injEq, Prod.mk.injEq, exists_eq_left']
    constructor
    · rintro ⟨rfl, rfl⟩
      exact ⟨rfl, rfl⟩
    · rintro ⟨rfl, rfl⟩
      exact ⟨rfl, rfl⟩

/-- A change of `face` fields alone keeps the mesh well formed. -/
theorem wf_of_faces {m m' : Mesh VD HD FD} (hw : m.WF) (hv : m'.verts = m.verts)
    (hlen : m'.halfs.length = m.halfs.length)
    (hfwd : ∀ h t, getAt m.halfs h = .ok t → ∃ t', getAt m'.halfs h = .ok t' ∧
      t'.exists_ = t.exists_ ∧ t'.topo.hd = t.topo.hd ∧ t'.topo.efrom = t.topo.efrom ∧
      t'.topo.eto = t.topo.eto ∧ t'.topo.opposite = t.topo.opposite)
    (hface : ∀ h t', getAt m'.halfs h = .ok t' → t'.exists_ = true →
      t'.topo.face < m'.faces.length) : m'.WF := by
  have hbwd : ∀ h t', getAt m'.halfs h = .ok t' → ∃ t, getAt m.halfs h = .ok t ∧
      t'.exists_ = t.exists_ ∧ t'.topo.hd = t.topo.hd ∧ t'.topo.efrom = t.topo.efrom ∧
      t'.topo.eto = t.topo.eto ∧ t'.topo.opposite = t.topo.opposite := by
    intro h t' ht'
    obtain ⟨h0, hlt⟩ := getAt_lt_length ht'
    obtain ⟨t, ht⟩ := getAt_of_lt m.halfs h0 (by omega)
    obtain ⟨t'', ht'', hrest⟩ := hfwd h t ht
    rw [ht'] at ht''
    cases ht''
    exact ⟨t, ht, hrest⟩
  have hlive : ∀ (b : Int) (x : Int), m'.liveTo b x = m.liveTo b x := by
    intro b x
    unfold Mesh.liveTo
    cases hg : getAt m.halfs x with
    | error e =>
      cases hg' : getAt m'.halfs x with
      | error e' => rfl
      | ok t' =>
        obtain ⟨t, ht, -⟩ := hbwd x t' hg'
        rw [ht] at hg
        cases hg
    | ok t =>
      obtain ⟨t', ht', hex, -, -, hto, -⟩ := hfwd x t hg
      simp [ht', hex, hto]
  have hopp : ∀ x : Int, m'.oppOf x = m.oppOf x := by
    intro x
    unfold Mesh.oppOf
    cases hg : getAt m.halfs x with
    | error e =>
      cases hg' : getAt m'.halfs x with
      | error e' => rfl
      | ok t' =>
        obtain ⟨t, ht, -⟩ := hbwd x t' hg'
        rw [ht] at hg
        cases hg
    | ok t =>
      obtain ⟨t', ht', -, -, -, -, hop⟩ := hfwd x t hg
      simp [ht', hop]
  constructor
  · intro v vt hvt x hx
    rw [hv] at hvt
    obtain ⟨t, ht⟩ := hw.listInRange v vt hvt x hx
    obtain ⟨t', ht', -⟩ := hfwd x t ht
    exact ⟨t', ht'⟩
  · intro v vt hvt x hx t' ht' hex
    rw [hv] at hvt
    obtain ⟨t, ht, he, -, hf, -⟩ := hbwd x t' ht'
    rw [hf]
    exact hw.listFrom v vt hvt x hx t ht (by rw [← he]; exact hex)
  · intro h t' ht' hex
    obtain ⟨t, ht, he, -, hf, hto, hop⟩ := hbwd h t' ht'
    obtain ⟨t2, ht2, hex2, hop2, hf2, hto2⟩ := hw.pairing h t ht (by rw [← he]; exact hex)
    obtain ⟨t2', ht2', he2, -, hf2', hto2', hop2'⟩ := hfwd _ t2 ht2
    refine ⟨t2', by rw [hop]; exact ht2', by rw [he2]; exact hex2, by rw [hop2']; exact hop2,
      by rw [hf2', hto, hf2], by rw [hto2', hf, hto2]⟩
  · intro h t' ht' hex
    obtain ⟨t, ht, he, -, hf, hto, -⟩ := hbwd h t' ht'
    rw [hv, hf, hto]
    exact hw.endsInRange h t ht (by rw [← he]; exact hex)
  · exact hface
  · intro h t' ht' hex h0
    obtain ⟨t, ht, he, -, hf, -⟩ := hbwd h t' ht'
    rw [hv, hf]
    exact hw.inList h t ht (by rw [← he]; exact hex) (by rw [← hf]; exact h0)
  · intro h t' ht' hex
    obtain ⟨t, ht, he, -, hf, hto, -⟩ := hbwd h t' ht'
    rw [hf, hto]
    exact hw.deadReset h t ht (by rw [← he]; exact hex)
  · intro a b va vb hab hva hvb
    rw [hv] at hva hvb
    have e1 : m'.liveTo b = m.liveTo b := funext (hlive b)
    have e2 : m'.liveTo a = m.liveTo a := funext (hlive a)
    have e3 : m'.oppOf = m.oppOf := funext hopp
    rw [e1, e2, e3]
    exact hw.order a b va vb hab hva hvb
  · intro h t' ht'
    obtain ⟨t, ht, -, hhd, -⟩ := hbwd h t' ht'
    rw [hhd]
    exact hw.halfHd h t ht

theorem wf_addFace {m m' : Mesh VD HD FD} (hw : m.WF) {hs : List Int} {fd : FD} {f : Int}
    (hr : m.addFace hs fd = .ok (m', f)) : m'.WF := by
  obtain ⟨halfs, hs', rfl, rfl⟩ := addFace_eq_ok.mp hr
  obtain ⟨hlen, -, hpt⟩ := setFaces_spec hs'
  refine wf_of_faces hw rfl hlen ?_ ?_
  · intro h t ht
    refine ⟨_, hpt h t ht, ?_⟩
    split_ifs <;> simp [setFace]
  · intro h t' ht' hex
    obtain ⟨h0, hlt⟩ := getAt_lt_length ht'
    obtain ⟨t, ht⟩ := getAt_of_lt m.halfs h0 (by simp only at hlt; omega)
    have := hpt h t ht
    simp only at ht'
    rw [ht'] at this
    have he : t' = if h ∈ hs then setFace (m.faces.length : Int) t else t := Except.ok.inj this
    simp only [List.length_append, List.length_singleton, Nat.cast_add, Nat.cast_one]
    by_cases hin : h ∈ hs
    · rw [he]
      simp only [hin, if_true, setFace]
      omega
    · simp only [hin, if_false] at he
      subst he
      have := hw.faceInRange h t' ht hex
      omega

end AddFace

section AddFaceVertsWF

variable {VD HD FD : Type}

theorem addEdgesLoop_cons [Inhabited HD] {verts : List Int} {m m' : Mesh VD HD FD} {i : Nat}
    {is : List Nat} {hs : List Int} :
    addEdgesLoop verts m (i :: is) = .ok (m', hs) ↔
      ∃ m1 hh rest, m.addEdge (cyclePair verts i).1 (cyclePair verts i).2 default default true
          = .ok (m1, hh) ∧
        addEdgesLoop verts m1 is = .ok (m', rest) ∧ hs = hh :: rest := by
  simp only [addEdgesLoop]
  cases h1 : m.addEdge (cyclePair verts i).1 (cyclePair verts i).2 default default true with
  | error e => simp
  | ok p =>
    obtain ⟨m1, hh⟩ := p
    simp only
    cases h2 : addEdgesLoop verts m1 is with
    | error e => simp [h2]
    | ok q =>
      obtain ⟨m2, rest⟩ := q
      simp only [Except.ok.injEq, Prod.mk.injEq]
      constructor
      · rintro ⟨rfl, rfl⟩
        exact ⟨m1, hh, rest, ⟨rfl, rfl⟩, h2, rfl⟩
      · rintro ⟨m1', hh', rest', ⟨rfl, rfl⟩, h2', rfl⟩
        rw [h2] at h2'
        simp only [Except.ok.injEq, Prod.mk.injEq] at h2'
        obtain ⟨rfl, rfl⟩ := h2'
        exact ⟨rfl, rfl⟩

theorem wf_addEdgesLoop [Inhabited HD] {verts : List Int} {is : List Nat} :
    ∀ {m m' : Mesh VD HD FD} {hs : List Int}, m.WF →
      addEdgesLoop verts m is = .ok (m', hs) → m'.WF := by
  induction is with
  | nil =>
    intro m m' hs hw hr
    simp only [addEdgesLoop, Except.ok.injEq, Prod.mk.injEq] at hr
    rw [← hr.1]
    exact hw
  | cons i is ih =>
    intro m m' hs hw hr
    obtain ⟨m1, hh, rest, h1, h2, -⟩ := addEdgesLoop_cons.mp hr
    exact ih (wf_addEdge hw h1) h2

theorem addFaceVerts_eq_ok [Inhabited HD] {m m' : Mesh VD HD FD} {vs : List Int}
    {autoflip : Bool} {fd : FD} {f : Int} :
    m.addFaceVerts vs autoflip fd = .ok (m', f) ↔
      3 ≤ vs.length ∧ ∃ verts m1 halfs, m.faceWinding vs autoflip = .ok verts ∧
        addEdgesLoop verts m (List.range verts.length) = .ok (m1, halfs) ∧
        m1.addFace halfs fd = .ok (m', f) := by
  constructor
  · intro hr
    simp only [Mesh.addFaceVerts] at hr
    by_cases hlen : vs.length < 3
    · simp [hlen] at hr
    · simp only [hlen, if_false] at hr
      cases h1 : m.faceWinding vs autoflip with
      | error e => simp [h1] at hr
      | ok verts =>
        simp only [h1] at hr
        cases h2 : addEdgesLoop verts m (List.range verts.length) with
        | error e => simp [h2] at hr
        | ok q =>
          obtain ⟨m1, halfs⟩ := q
          simp only [h2] at hr
          exact ⟨by omega, verts, m1, halfs, rfl, h2, hr⟩
  · rintro ⟨h3, verts, m1, halfs, h1, h2, hr⟩
    have hlen : ¬ vs.length < 3 := by omega
    simp only [Mesh.addFaceVerts, hlen, if_false, h1, h2]
    exact hr

theorem wf_addFaceVerts [Inhabited HD] {m m' : Mesh VD HD FD} (hw : m.WF) {vs : List Int}
    {autoflip : Bool} {fd : FD} {f : Int}
    (hr : m.addFaceVerts vs autoflip fd = .ok (m', f)) : m'.WF := by
  obtain ⟨-, verts, m1, halfs, -, h2, h3⟩ := addFaceVerts_eq_ok.mp hr
  exact wf_addFace (wf_addEdgesLoop hw h2) h3

end AddFaceVertsWF

/-! ## Compaction (`RemoveAndMap`, `UpdateOldHandle`) -/

section CompactionLemmas

variable {T D : Type}

theorem rank_zero (xs : List (Triplet T D)) : rank xs 0 = 0 := by
  simp [rank, liveCount]

theorem rank_cons_succ (x : Triplet T D) (xs : List (Triplet T D)) (i : Nat) :
    rank (x :: xs) (i + 1) = (if x.exists_ then 1 else 0) + rank xs i := by
  simp only [rank, liveCount, List.take_succ_cons, List.filter_cons]
  split
  · simp only [List.length_cons]
    omega
  · omega

theorem rank_succ : ∀ (xs : List (Triplet T D)) (i : Nat) (t : Triplet T D),
    xs[i]? = some t → rank xs (i + 1) = rank xs i + (if t.exists_ then 1 else 0) := by
  intro xs
  induction xs with
  | nil => intro i t h; simp at h
  | cons x xs ih =>
    intro i t h
    cases i with
    | zero =>
      simp only [List.getElem?_cons_zero, Option.some.injEq] at h
      subst h
      rw [rank_cons_succ, rank_zero, rank_zero]
      omega
    | succ n =>
      simp only [List.getElem?_cons_succ] at h
      rw [rank_cons_succ, rank_cons_succ, ih n t h]
      omega

theorem rank_mono (xs : List (Triplet T D)) {i j : Nat} (h : i ≤ j) : rank xs i ≤ rank xs j := by
  induction xs generalizing i j with
  | nil => simp [rank, liveCount]
  | cons x xs ih =>
    cases i with
    | zero => rw [rank_zero]; omega
    | succ i' =>
      cases j with
      | zero => omega
      | succ j' =>
        rw [rank_cons_succ, rank_cons_succ]
        have := ih (i := i') (j := j') (by omega)
        omega

theorem rank_le_liveCount (xs : List (Triplet T D)) (i : Nat) : rank xs i ≤ liveCount xs := by
  induction xs generalizing i with
  | nil => simp [rank, liveCount]
  | cons x xs ih =>
    cases i with
    | zero => rw [rank_zero]; omega
    | succ i' =>
      rw [rank_cons_succ]
      have := ih i'
      simp only [liveCount, List.filter_cons] at this ⊢
      split
      · simp only [List.length_cons]
        omega
      · omega

theorem rank_lt_liveCount (xs : List (Triplet T D)) (i : Nat) (t : Triplet T D)
    (h : xs[i]? = some t) (hex : t.exists_ = true) : rank xs i < liveCount xs := by
  have h1 := rank_succ xs i t h
  have h2 := rank_le_liveCount xs (i + 1)
  simp only [hex, if_true] at h1
  omega

/-- A non-removed entry sits at its rank in the compacted table. -/
theorem filter_getElem?_rank : ∀ (xs : List (Triplet T D)) (i : Nat) (t : Triplet T D),
    xs[i]? = some t → t.exists_ = true →
    (xs.filter (fun t => t.exists_))[rank xs i]? = some t := by
  intro xs
  induction xs with
  | nil => intro i t h; simp at h
  | cons x xs ih =>
    intro i t h hex
    cases i with
    | zero =>
      simp only [List.getElem?_cons_zero, Option.some.injEq] at h
      subst h
      simp [rank_zero, List.filter_cons, hex]
    | succ n =>
      simp only [List.getElem?_cons_succ] at h
      rw [rank_cons_succ]
      cases hx : x.exists_ with
      | true =>
        simp only [List.filter_cons, hx, if_true]
        rw [Nat.add_comm, List.getElem?_cons_succ]
        exact ih n t h hex
      | false =>
        simp only [List.filter_cons, hx, Bool.false_eq_true, if_false, Nat.zero_add]
        exact ih n t h hex

/-- Every entry of the compacted table is a non-removed entry, at its rank. -/
theorem filter_getElem?_inv : ∀ (xs : List (Triplet T D)) (j : Nat) (t : Triplet T D),
    (xs.filter (fun t => t.exists_))[j]? = some t →
    ∃ i, xs[i]? = some t ∧ t.exists_ = true ∧ rank xs i = j := by
  intro xs
  induction xs with
  | nil => intro j t h; simp at h
  | cons x xs ih =>
    intro j t h
    cases hx : x.exists_ with
    | true =>
      simp only [List.filter_cons, hx, if_true] at h
      cases j with
      | zero =>
        simp only [List.getElem?_cons_zero, Option.some.injEq] at h
        subst h
        exact ⟨0, by simp, hx, rank_zero _⟩
      | succ n =>
        simp only [List.getElem?_cons_succ] at h
        obtain ⟨i, hi, hex, hr⟩ := ih n t h
        refine ⟨i + 1, by simpa using hi, hex, ?_⟩
        rw [rank_cons_succ, hx, hr]
        simp only [if_true]
        omega
    | false =>
      simp only [List.filter_cons, hx, Bool.false_eq_true, if_false] at h
      obtain ⟨i, hi, hex, hr⟩ := ih j t h
      refine ⟨i + 1, by simpa using hi, hex, ?_⟩
      rw [rank_cons_succ, hx, hr]
      simp

theorem rank_inj (xs : List (Triplet T D)) {i j : Nat} {t u : Triplet T D}
    (hi : xs[i]? = some t) (hj : xs[j]? = some u) (ht : t.exists_ = true)
    (hu : u.exists_ = true) (h : rank xs i = rank xs j) : i = j := by
  by_contra hne
  rcases Nat.lt_or_gt_of_ne hne with hlt | hgt
  · have h1 := rank_succ xs i t hi
    have h2 := rank_mono xs (i := i + 1) (j := j) (by omega)
    simp only [ht, if_true] at h1
    omega
  · have h1 := rank_succ xs j u hj
    have h2 := rank_mono xs (i := j + 1) (j := i) (by omega)
    simp only [hu, if_true] at h1
    omega

theorem remap_neg (xs : List (Triplet T D)) {h : Int} (hn : h < 0) : remap xs h = h := by
  simp [remap, hn]

theorem remap_live (xs : List (Triplet T D)) {h : Int} {t : Triplet T D}
    (ht : getAt xs h = .ok t) (hex : t.exists_ = true) : remap xs h = rank xs h.toNat := by
  obtain ⟨h0, ht⟩ := getAt_eq_ok.mp ht
  have : ¬ h < 0 := by omega
  simp [remap, this, ht, hex]

theorem remap_dead (xs : List (Triplet T D)) {h : Int} {t : Triplet T D}
    (ht : getAt xs h = .ok t) (hex : t.exists_ = false) : remap xs h = Handle.none := by
  obtain ⟨h0, ht⟩ := getAt_eq_ok.mp ht
  have : ¬ h < 0 := by omega
  simp [remap, this, ht, hex]

theorem remap_nonneg (xs : List (Triplet T D)) {h : Int} (h0 : 0 ≤ remap xs h) :
    ∃ t, getAt xs h = .ok t ∧ t.exists_ = true := by
  unfold remap at h0
  by_cases hn : h < 0
  · simp only [hn, if_true] at h0
    omega
  · simp only [hn, if_false] at h0
    cases hx : xs[h.toNat]? with
    | none => simp [hx, Handle.none] at h0
    | some t =>
      cases hex : t.exists_ with
      | false => simp [hx, hex, Handle.none] at h0
      | true => exact ⟨t, getAt_eq_ok.mpr ⟨by omega, hx⟩, hex⟩

theorem remap_lt (xs : List (Triplet T D)) (h : Int) :
    remap xs h < ((xs.filter (fun t => t.exists_)).length : Int) := by
  by_cases h0 : 0 ≤ remap xs h
  · obtain ⟨t, ht, hex⟩ := remap_nonneg xs h0
    rw [remap_live xs ht hex]
    have := rank_lt_liveCount xs h.toNat t (getAt_eq_ok.mp ht).2 hex
    simp only [liveCount] at this
    omega
  · omega

theorem remap_inj (xs : List (Triplet T D)) {h h' : Int} (h0 : 0 ≤ remap xs h)
    (he : remap xs h = remap xs h') : h = h' := by
  obtain ⟨t, ht, hex⟩ := remap_nonneg xs h0
  obtain ⟨t', ht', hex'⟩ := remap_nonneg xs (h := h') (by rw [← he]; exact h0)
  rw [remap_live xs ht hex, remap_live xs ht' hex'] at he
  have := rank_inj xs (getAt_eq_ok.mp ht).2 (getAt_eq_ok.mp ht').2 hex hex' (by omega)
  have a := (getAt_eq_ok.mp ht).1
  have b := (getAt_eq_ok.mp ht').1
  omega

/-- Reading the compacted table: slot `j` holds `g t` exactly when `t` is a
non-removed entry of the old table whose new location is `j`. -/
theorem getAt_compact {β : Type} {xs : List (Triplet T D)} {g : Triplet T D → β} {j : Int}
    {y : β} :
    getAt ((xs.filter (fun t => t.exists_)).map g) j = .ok y ↔
      ∃ i t, getAt xs i = .ok t ∧ t.exists_ = true ∧ remap xs i = j ∧ y = g t := by
  constructor
  · intro hg
    obtain ⟨j0, hj⟩ := getAt_eq_ok.mp hg
    simp only [List.getElem?_map, Option.map_eq_some'] at hj
    obtain ⟨t, ht, rfl⟩ := hj
    obtain ⟨i, hi, hex, hr⟩ := filter_getElem?_inv xs _ t ht
    refine ⟨(i : Int), t, getAt_eq_ok.mpr ⟨by omega, by simpa using hi⟩, hex, ?_, rfl⟩
    have hgi : getAt xs (i : Int) = .ok t := getAt_eq_ok.mpr ⟨by omega, by simpa using hi⟩
    rw [remap_live xs hgi hex]
    simp only [Int.toNat_ofNat, hr]
    omega
  · rintro ⟨i, t, hi, hex, rfl, rfl⟩
    rw [remap_live xs hi hex]
    refine getAt_eq_ok.mpr ⟨by omega, ?_⟩
    simp only [Int.toNat_ofNat, List.getElem?_map, Option.map_eq_some']
    exact ⟨t, filter_getElem?_rank xs _ t (getAt_eq_ok.mp hi).2 hex, rfl⟩

end CompactionLemmas

/-! ## `gc` -/

section GcSpec

variable {VD HD FD : Type} {T D : Type}

theorem newLocations_getElem? : ∀ (xs : List (Triplet T D)) (k : Int) (i : Nat),
    (newLocations xs k)[i]? =
      (xs[i]?).map (fun t => if t.exists_ then k + (rank xs i : Int) else Handle.none) := by
  intro xs
  induction xs with
  | nil => intro k i; simp [newLocations]
  | cons x xs ih =>
    intro k i
    cases hx : x.exists_ with
    | true =>
      cases i with
      | zero => simp [newLocations, hx, rank_zero]
      | succ n =>
        simp only [newLocations, hx, if_true, List.getElem?_cons_succ, ih, rank_cons_succ]
        cases xs[n]? with
        | none => rfl
        | some t =>
          simp only [Option.map_some', Option.some.injEq]
          split
          · push_cast
            ring
          · rfl
    | false =>
      cases i with
      | zero => simp [newLocations, hx]
      | succ n =>
        simp only [newLocations, hx, Bool.false_eq_true, if_false, List.getElem?_cons_succ, ih,
          rank_cons_succ]
        cases xs[n]? with
        | none => rfl
        | some t =>
          simp only [Option.map_some', Option.some.injEq]
          split
          · push_cast
            ring
          · rfl

theorem newLocations_length : ∀ (xs : List (Triplet T D)) (k : Int),
    (newLocations xs k).length = xs.length := by
  intro xs
  induction xs with
  | nil => intro k; rfl
  | cons x xs ih =>
    intro k
    simp only [newLocations]
    split <;> simp [ih]

theorem UpdateOldHandle_eq_ok {xs : List (Triplet T D)} {h h' : Int} :
    UpdateOldHandle (RemoveAndMap xs).2 h = .ok h' ↔
      (h < 0 ∨ h.toNat < xs.length) ∧ h' = remap xs h := by
  simp only [UpdateOldHandle, RemoveAndMap, Handle.invalid]
  by_cases hn : h < 0
  · simp [hn, remap, eq_comm]
  · simp only [hn, decide_False, Bool.false_eq_true, if_false, false_or]
    rw [getAt_eq_ok, newLocations_getElem?]
    have h0 : 0 ≤ h := by omega
    cases hx : xs[h.toNat]? with
    | none =>
      have : ¬ h.toNat < xs.length := by
        intro hlt
        rw [List.getElem?_eq_getElem hlt] at hx
        cases hx
      simp [this]
    | some t =>
      have hlt : h.toNat < xs.length := (List.getElem?_eq_some_iff.mp hx).1
      simp only [h0, Option.map_some', Option.some.injEq, true_and, hlt, remap, hn, if_false, hx]
      cases t.exists_ <;> simp [eq_comm]

theorem UpdateOldHandleContainer_eq_ok {xs : List (Triplet T D)} :
    ∀ {l l' : List Int}, UpdateOldHandleContainer (RemoveAndMap xs).2 l = .ok l' ↔
      (∀ h ∈ l, h < 0 ∨ h.toNat < xs.length) ∧ l' = l.map (remap xs) := by
  intro l
  induction l with
  | nil =>
    intro l'
    simp [UpdateOldHandleContainer, eq_comm]
  | cons h hs ih =>
    intro l'
    simp only [UpdateOldHandleContainer]
    cases h1 : UpdateOldHandle (RemoveAndMap xs).2 h with
    | error e =>
      simp only [reduceCtorEq, List.mem_cons, forall_eq_or_imp, List.map_cons, false_iff,
        not_and, and_imp]
      intro hr
      exfalso
      have := (UpdateOldHandle_eq_ok :
        UpdateOldHandle (RemoveAndMap xs).2 h = .ok (remap xs h) ↔ _).mpr ⟨hr, rfl⟩
      rw [h1] at this
      cases this
    | ok h1' =>
      obtain ⟨hr, rfl⟩ := UpdateOldHandle_eq_ok.mp h1
      simp only
      cases h2 : UpdateOldHandleContainer (RemoveAndMap xs).2 hs with
      | error e =>
        simp only [reduceCtorEq, List.mem_cons, forall_eq_or_imp, List.map_cons, false_iff,
          not_and, and_imp]
        intro _ hall
        exfalso
        have := (ih : UpdateOldHandleContainer (RemoveAndMap xs).2 hs
          = .ok (hs.map (remap xs)) ↔ _).mpr ⟨hall, rfl⟩
        rw [h2] at this
        cases this
      | ok hs' =>
        obtain ⟨hall, rfl⟩ := ih.mp h2
        simp only [Except.ok.injEq, List.mem_cons, forall_eq_or_imp, hr, true_and, List.map_cons]
        constructor
        · intro h
          exact ⟨hall, h.symm⟩
        · intro h
          exact h.2.symm

theorem forEachEntry_map {α : Type} {f : α → Except Fault α} {g : α → α} :
    ∀ {xs ys : List α}, (∀ x ∈ xs, ∀ y, f x = .ok y → y = g x) →
      forEachEntry f xs = .ok ys → ys = xs.map g := by
  intro xs
  induction xs with
  | nil =>
    intro ys _ h
    simp only [forEachEntry, Except.ok.injEq] at h
    simp [← h]
  | cons x xs ih =>
    intro ys hall h
    simp only [forEachEntry] at h
    cases h1 : f x with
    | error e => simp [h1] at h
    | ok y =>
      simp only [h1] at h
      cases h2 : forEachEntry f xs with
      | error e => simp [h2] at h
      | ok ys' =>
        simp only [h2, Except.ok.injEq] at h
        have e1 := hall x (List.mem_cons_self _ _) y h1
        have e2 := ih (fun z hz => hall z (List.mem_cons_of_mem _ hz)) h2
        simp [← h, e1, e2]

theorem forEachEntry_total {α : Type} {f : α → Except Fault α} :
    ∀ {xs : List α}, (∀ x ∈ xs, ∃ y, f x = .ok y) → ∃ ys, forEachEntry f xs = .ok ys := by
  intro xs
  induction xs with
  | nil => intro _; exact ⟨[], rfl⟩
  | cons x xs ih =>
    intro hall
    obtain ⟨y, hy⟩ := hall x (List.mem_cons_self _ _)
    obtain ⟨ys, hys⟩ := ih (fun z hz => hall z (List.mem_cons_of_mem _ hz))
    exact ⟨y :: ys, by simp [forEachEntry, hy, hys]⟩

theorem gcVert_eq_ok {m : Mesh VD HD FD} {vt vt' : Triplet VertTopo VD}
    (h : gcVert (RemoveAndMap m.verts).2 (RemoveAndMap m.halfs).2 vt = .ok vt') :
    vt' = gcVertPure m vt := by
  simp only [gcVert] at h
  cases h1 : UpdateOldHandle (RemoveAndMap m.verts).2 vt.topo.hd with
  | error e => simp [h1] at h
  | ok hd =>
    simp only [h1] at h
    cases h2 : UpdateOldHandleContainer (RemoveAndMap m.halfs).2 vt.topo.halfedges with
    | error e => simp [h2] at h
    | ok hs =>
      simp only [h2, Except.ok.injEq] at h
      obtain ⟨-, rfl⟩ := UpdateOldHandle_eq_ok.mp h1
      obtain ⟨-, rfl⟩ := UpdateOldHandleContainer_eq_ok.mp h2
      rw [← h]
      rfl

theorem gcFace_eq_ok {m : Mesh VD HD FD} {ft ft' : Triplet FaceTopo FD}
    (h : gcFace (RemoveAndMap m.halfs).2 (RemoveAndMap m.faces).2 ft = .ok ft') :
    ft' = gcFacePure m ft := by
  simp only [gcFace] at h
  cases h1 : UpdateOldHandle (RemoveAndMap m.faces).2 ft.topo.hd with
  | error e => simp [h1] at h
  | ok hd =>
    simp only [h1] at h
    cases h2 : UpdateOldHandleContainer (RemoveAndMap m.halfs).2 ft.topo.halfedges with
    | error e => simp [h2] at h
    | ok hs =>
      simp only [h2, Except.ok.injEq] at h
      obtain ⟨-, rfl⟩ := UpdateOldHandle_eq_ok.mp h1
      obtain ⟨-, rfl⟩ := UpdateOldHandleContainer_eq_ok.mp h2
      rw [← h]
      rfl

theorem gcHalf_eq_ok {m : Mesh VD HD FD} {ht ht' : Triplet HalfTopo HD}
    (h : gcHalf (RemoveAndMap m.verts).2 (RemoveAndMap m.halfs).2 (RemoveAndMap m.faces).2 ht
      = .ok ht') : ht' = gcHalfPure m ht := by
  simp only [gcHalf] at h
  cases h1 : UpdateOldHandle (RemoveAndMap m.halfs).2 ht.topo.hd with
  | error e => simp [h1] at h
  | ok hd =>
    simp only [h1] at h
    cases h2 : UpdateOldHandle (RemoveAndMap m.verts).2 ht.topo.efrom with
    | error e => simp [h2] at h
    | ok vf =>
      simp only [h2] at h
      cases h3 : UpdateOldHandle (RemoveAndMap m.verts).2 ht.topo.eto with
      | error e => simp [h3] at h
      | ok vto =>
        simp only [h3] at h
        cases h4 : UpdateOldHandle (RemoveAndMap m.halfs).2 ht.topo.opposite with
        | error e => simp [h4] at h
        | ok opp =>
          simp only [h4] at h
          cases h5 : UpdateOldHandle (RemoveAndMap m.faces).2 ht.topo.face with
          | error e => simp [h5] at h
          | ok fc =>
            simp only [h5, Except.ok.injEq] at h
            obtain ⟨-, rfl⟩ := UpdateOldHandle_eq_ok.mp h1
            obtain ⟨-, rfl⟩ := UpdateOldHandle_eq_ok.mp h2
            obtain ⟨-, rfl⟩ := UpdateOldHandle_eq_ok.mp h3
            obtain ⟨-, rfl⟩ := UpdateOldHandle_eq_ok.mp h4
            obtain ⟨-, rfl⟩ := UpdateOldHandle_eq_ok.mp h5
            rw [← h]
            rfl

/-- A returned `gc` leaves the compacted mesh and the remapped external handles. -/
theorem gcWith_eq_ok {m : Mesh VD HD FD} {vps hps fps : List Int} {r : GcResult VD HD FD}
    (h : m.gcWith vps hps fps = .ok r) :
    r.mesh = m.compacted ∧ r.vps = vps.map (remap m.verts) ∧
      r.hps = hps.map (remap m.halfs) ∧ r.fps = fps.map (remap m.faces) := by
  simp only [Mesh.gcWith] at h
  cases h1 : forEachEntry (gcVert (RemoveAndMap m.verts).2 (RemoveAndMap m.halfs).2)
      (RemoveAndMap m.verts).1 with
  | error e => simp [h1] at h
  | ok verts =>
    simp only [h1] at h
    cases h2 : forEachEntry (gcHalf (RemoveAndMap m.verts).2 (RemoveAndMap m.halfs).2
        (RemoveAndMap m.faces).2) (RemoveAndMap m.halfs).1 with
    | error e => simp [h2] at h
    | ok halfs =>
      simp only [h2] at h
      cases h3 : forEachEntry (gcFace (RemoveAndMap m.halfs).2 (RemoveAndMap m.faces).2)
          (RemoveAndMap m.faces).1 with
      | error e => simp [h3] at h
      | ok faces =>
        simp only [h3] at h
        cases h4 : UpdateOldHandleContainer (RemoveAndMap m.verts).2 vps with
        | error e => simp [h4] at h
        | ok vps1 =>
          simp only [h4] at h
          cases h5 : UpdateOldHandleContainer (RemoveAndMap m.halfs).2 hps with
          | error e => simp [h5] at h
          | ok hps1 =>
            simp only [h5] at h
            cases h6 : UpdateOldHandleContainer (RemoveAndMap m.faces).2 fps with
            | error e => simp [h6] at h
            | ok fps1 =>
              simp only [h6, Except.ok.injEq] at h
              subst h
              have e1 := forEachEntry_map (g := gcVertPure m) (fun x _ y hy => gcVert_eq_ok hy) h1
              have e2 := forEachEntry_map (g := gcHalfPure m) (fun x _ y hy => gcHalf_eq_ok hy) h2
              have e3 := forEachEntry_map (g := gcFacePure m) (fun x _ y hy => gcFace_eq_ok hy) h3
              refine ⟨?_, (UpdateOldHandleContainer_eq_ok.mp h4).2,
                (UpdateOldHandleContainer_eq_ok.mp h5).2, (UpdateOldHandleContainer_eq_ok.mp h6).2⟩
              simp only [Mesh.compacted, e1, e2, e3, RemoveAndMap]

end GcSpec

section GcWF

variable {VD HD FD : Type}

theorem mem_gc_list {xs : List (Triplet HalfTopo HD)} {l : List Int} {x' : Int} :
    x' ∈ (l.map (remap xs)).filter (fun h => Handle.valid h) ↔
      ∃ x ∈ l, remap xs x = x' ∧ 0 ≤ x' := by
  simp only [List.mem_filter, List.mem_map, Handle.valid, decide_eq_true_eq]
  constructor
  · rintro ⟨⟨x, hx, rfl⟩, h0⟩
    exact ⟨x, hx, rfl, h0⟩
  · rintro ⟨x, hx, rfl, h0⟩
    exact ⟨⟨x, hx, rfl⟩, h0⟩

theorem wf_compacted {m : Mesh VD HD FD} (hw : m.WF) : m.compacted.WF := by
  have hH : ∀ {j : Int} {t' : Triplet HalfTopo HD},
      getAt m.compacted.halfs j = .ok t' ↔
        ∃ i t, getAt m.halfs i = .ok t ∧ t.exists_ = true ∧ remap m.halfs i = j ∧
          t' = gcHalfPure m t := getAt_compact
  have hV : ∀ {j : Int} {t' : Triplet VertTopo VD},
      getAt m.compacted.verts j = .ok t' ↔
        ∃ i t, getAt m.verts i = .ok t ∧ t.exists_ = true ∧ remap m.verts i = j ∧
          t' = gcVertPure m t := getAt_compact
  -- `liveTo` and `oppOf` of the compacted mesh, at the new place of an old handle
  have hlive : ∀ (b x : Int) (vb : Triplet VertTopo VD), getAt m.verts b = .ok vb →
      vb.exists_ = true → (∃ t, getAt m.halfs x = .ok t) →
      (Handle.valid (remap m.halfs x) && m.compacted.liveTo (remap m.verts b) (remap m.halfs x))
        = m.liveTo b x := by
    intro b x vb hb hbex hx
    obtain ⟨t, ht⟩ := hx
    have hb0 : 0 ≤ remap m.verts b := by
      rw [remap_live m.verts hb hbex]
      omega
    cases hex : t.exists_ with
    | false =>
      have : m.liveTo b x = false := by simp [Mesh.liveTo, ht, hex]
      rw [this, remap_dead m.halfs ht hex]
      simp [Handle.valid, Handle.none]
    | true =>
      have h0 : 0 ≤ remap m.halfs x := by
        rw [remap_live m.halfs ht hex]
        omega
      have hnew : getAt m.compacted.halfs (remap m.halfs x) = .ok (gcHalfPure m t) :=
        hH.mpr ⟨x, t, ht, hex, rfl, rfl⟩
      simp only [Handle.valid, h0, decide_True, Bool.true_and, Mesh.liveTo, hnew, ht,
        gcHalfPure, hex]
      by_cases hto : t.topo.eto = b
      · simp [hto]
      · have : remap m.verts t.topo.eto ≠ remap m.verts b := by
          intro e
          exact hto (remap_inj m.verts (by rw [e]; exact hb0) e)
        simp [hto, this]
  have hopp : ∀ (x : Int) (t : Triplet HalfTopo HD), getAt m.halfs x = .ok t →
      t.exists_ = true →
      m.compacted.oppOf (remap m.halfs x) = remap m.halfs (m.oppOf x) := by
    intro x t ht hex
    have hnew : getAt m.compacted.halfs (remap m.halfs x) = .ok (gcHalfPure m t) :=
      hH.mpr ⟨x, t, ht, hex, rfl, rfl⟩
    simp [Mesh.oppOf, hnew, ht, gcHalfPure]
  have hfilter : ∀ (a b : Int) (va vb : Triplet VertTopo VD), getAt m.verts a = .ok va →
      getAt m.verts b = .ok vb → vb.exists_ = true →
      (gcVertPure m va).topo.halfedges.filter (m.compacted.liveTo (remap m.verts b))
        = (va.topo.halfedges.filter (m.liveTo b)).map (remap m.halfs) := by
    intro a b va vb ha hb hbex
    simp only [gcVertPure, List.filter_filter, List.filter_map]
    congr 1
    apply List.filter_congr
    intro x hx
    have := hlive b x vb hb hbex (hw.listInRange a va ha x hx)
    simp only [Function.comp]
    rw [← this, Bool.and_comm]
  constructor
  · -- listInRange
    intro v' vt' hv' x' hx'
    obtain ⟨v, vt, hv, hvex, rfl, rfl⟩ := hV.mp hv'
    obtain ⟨x, hx, rfl, h0⟩ := mem_gc_list.mp hx'
    obtain ⟨t, ht, hex⟩ := remap_nonneg m.halfs h0
    exact ⟨_, hH.mpr ⟨x, t, ht, hex, rfl, rfl⟩⟩
  · -- listFrom
    intro v' vt' hv' x' hx' t' ht' hex'
    obtain ⟨v, vt, hv, hvex, rfl, rfl⟩ := hV.mp hv'
    obtain ⟨x, hx, rfl, h0⟩ := mem_gc_list.mp hx'
    obtain ⟨i, t, ht, hex, hi, rfl⟩ := hH.mp ht'
    have : i = x := remap_inj m.halfs (by rw [hi]; exact h0) hi
    subst this
    simp only [gcHalfPure]
    rw [hw.listFrom v vt hv i hx t ht hex]
  · -- pairing
    intro h' t' ht' hex'
    obtain ⟨h, t, ht, hex, rfl, rfl⟩ := hH.mp ht'
    obtain ⟨t2, ht2, hex2, hop2, hf2, hto2⟩ := hw.pairing h t ht hex
    refine ⟨gcHalfPure m t2, hH.mpr ⟨_, t2, ht2, hex2, rfl, rfl⟩, hex2, ?_, ?_, ?_⟩
    · simp [gcHalfPure, hop2]
    · simp [gcHalfPure, hf2]
    · simp [gcHalfPure, hto2]
  · -- endsInRange
    intro h' t' ht' hex'
    obtain ⟨h, t, ht, hex, rfl, rfl⟩ := hH.mp ht'
    simp only [gcHalfPure, Mesh.compacted, List.length_map]
    exact ⟨remap_lt m.verts _, remap_lt m.verts _⟩
  · -- faceInRange
    intro h' t' ht' hex'
    obtain ⟨h, t, ht, hex, rfl, rfl⟩ := hH.mp ht'
    simp only [gcHalfPure, Mesh.compacted, List.length_map]
    exact remap_lt m.faces _
  · -- inList
    intro h' t' ht' hex' h0'
    obtain ⟨h, t, ht, hex, rfl, rfl⟩ := hH.mp ht'
    simp only [gcHalfPure] at h0' ⊢
    obtain ⟨vt, hvt, hvex⟩ := remap_nonneg m.verts h0'
    have hf0 := (getAt_lt_length hvt).1
    obtain ⟨vt2, hvt2, hmem⟩ := hw.inList h t ht hex hf0
    rw [hvt] at hvt2
    cases hvt2
    refine ⟨gcVertPure m vt, hV.mpr ⟨_, vt, hvt, hvex, rfl, rfl⟩, ?_⟩
    simp only [gcVertPure]
    refine mem_gc_list.mpr ⟨h, hmem, rfl, ?_⟩
    rw [remap_live m.halfs ht hex]
    omega
  · -- deadReset
    intro h' t' ht' hex'
    obtain ⟨h, t, ht, hex, rfl, rfl⟩ := hH.mp ht'
    simp only [gcHalfPure] at hex'
    rw [hex] at hex'
    cases hex'
  · -- order
    intro a' b' va' vb' hab hva' hvb'
    obtain ⟨a, va, hva, haex, rfl, rfl⟩ := hV.mp hva'
    obtain ⟨b, vb, hvb, hbex, rfl, rfl⟩ := hV.mp hvb'
    have hne : a ≠ b := fun e => hab (by rw [e])
    rw [hfilter a b va vb hva hvb hbex, hfilter b a vb va hvb hva haex,
      ← hw.order a b va vb hne hva hvb, List.map_map, List.map_map]
    apply List.map_congr_left
    intro x hx
    obtain ⟨t, ht, hex, -⟩ := liveTo_eq_true.mp (List.mem_filter.mp hx).2
    simp only [Function.comp]
    exact hopp x t ht hex
  · -- halfHd
    intro h' t' ht'
    obtain ⟨h, t, ht, hex, rfl, rfl⟩ := hH.mp ht'
    simp only [gcHalfPure]
    rw [hw.halfHd h t ht]

theorem wf_gcWith {m : Mesh VD HD FD} (hw : m.WF) {vps hps fps : List Int}
    {r : GcResult VD HD FD} (h : m.gcWith vps hps fps = .ok r) : r.mesh.WF := by
  rw [(gcWith_eq_ok h).1]
  exact wf_compacted hw

/-- Every mesh reachable from the empty mesh is well formed. -/
theorem reachable_wf [Inhabited HD] {m : Mesh VD HD FD} (hr : Reachable m) : m.WF := by
  induction hr with
  | empty => exact wf_empty
  | addVertex vd _ ih => exact wf_addVertex ih vd
  | addEdge a b hd hdrev merge _ h ih => exact wf_addEdge ih h
  | addFace hs fd _ h ih => exact wf_addFace ih h
  | addFaceVerts vs autoflip fd _ h ih => exact wf_addFaceVerts ih h
  | removeFace f _ h ih => exact wf_removeFace ih h
  | removeHalf x _ h ih => exact wf_removeHalf ih h
  | removeVert v _ h ih => exact wf_removeVert ih h
  | gc vps hps fps _ h ih => exact wf_gcWith ih h

end GcWF

/-! ## Reachable meshes: the opposite pairing (C1) -/

section ReachableClaims

variable {VD HD FD : Type}

theorem reachable_addVertices [Inhabited HD] (vd : Nat → VD) (l : List Nat) :
    ∀ {m : Mesh VD HD FD}, Reachable m →
      Reachable (l.foldl (fun m i => (m.addVertex (vd i)).1) m) := by
  induction l with
  | nil => intro m h; exact h
  | cons i is ih =>
    intro m h
    exact ih (Reachable.addVertex (vd i) h)

theorem reachable_addFacesSeq [Inhabited HD] [Inhabited FD] {l : List (List Int)} :
    ∀ {m m' : Mesh VD HD FD}, Reachable m → addFacesSeq m l = .ok m' → Reachable m' := by
  induction l with
  | nil =>
    intro m m' h hr
    simp only [addFacesSeq, Except.ok.injEq] at hr
    rw [← hr]
    exact h
  | cons vs rest ih =>
    intro m m' h hr
    simp only [addFacesSeq] at hr
    cases h1 : m.addFaceVerts vs true default with
    | error e => simp [h1] at hr
    | ok p =>
      obtain ⟨m1, f⟩ := p
      simp only [h1] at hr
      exact ih (Reachable.addFaceVerts vs true default h h1) hr

theorem reachable_MakeQuadFacedCube [Inhabited HD] [Inhabited FD] (vd : Nat → VD)
    {m : Mesh VD HD FD} (h : MakeQuadFacedCube vd = .ok m) : Reachable m := by
  simp only [MakeQuadFacedCube] at h
  exact reachable_addFacesSeq (reachable_addVertices vd _ Reachable.empty) h

theorem quadCube_eq : quadCube = .ok quadCubeMesh := by decide

theorem reachable_quadCubeMesh : Reachable quadCubeMesh :=
  reachable_MakeQuadFacedCube cubeCorner quadCube_eq

theorem reachable_cubeMinusVertex : Reachable cubeMinusVertex :=
  Reachable.removeVert 0 reachable_quadCubeMesh (by decide)

/-- C1: in every mesh reached from the empty mesh by calls of `addVertex`, `addEdge`,
`addFace`, `remove` and `gc` (calls that return), every non-removed half-edge `h` has a
non-removed opposite with `opposite(opposite(h)) == h` and
`from(opposite(h)) == to(h)`. -/
theorem reachable_opposite_paired [Inhabited HD] {m : Mesh VD HD FD} (hr : Reachable m)
    (h : Int) (t : Triplet HalfTopo HD) (ht : getAt m.halfs h = .ok t)
    (hex : t.exists_ = true) :
    ∃ t2, getAt m.halfs t.topo.opposite = .ok t2 ∧ t2.exists_ = true ∧
      t2.topo.opposite = h ∧ t2.topo.efrom = t.topo.eto := by
  obtain ⟨t2, h1, h2, h3, h4, -⟩ := (reachable_wf hr).pairing h t ht hex
  exact ⟨t2, h1, h2, h3, h4⟩

theorem reachable_opposite_paired_witness :
    ∃ t, getAt cubeMinusVertex.halfs 2 = .ok t ∧ t.exists_ = true ∧
      ∃ t2, getAt cubeMinusVertex.halfs t.topo.opposite = .ok t2 ∧ t2.exists_ = true ∧
        t2.topo.opposite = 2 ∧ t2.topo.efrom = t.topo.eto :=
  ⟨⟨⟨2, 1, 2, 3, 0⟩, (), true⟩, by decide, rfl,
    reachable_opposite_paired reachable_cubeMinusVertex 2 _ (by decide) rfl⟩

end ReachableClaims

/-! ## The cascade of `remove(VertHandle)` (C8) -/

section Cascade

variable {VD HD FD : Type}

theorem KillStep.refl (m : Mesh VD HD FD) : KillStep m m := KillStep.of_same rfl rfl rfl

theorem KillStep.dead_stays {m m' : Mesh VD HD FD} (hk : KillStep m m') {h : Int}
    {t : Triplet HalfTopo HD} (ht : getAt m.halfs h = .ok t) (hd : t.exists_ = false) :
    ∃ t', getAt m'.halfs h = .ok t' ∧ t'.exists_ = false := by
  obtain ⟨t', ht', -, -, hor⟩ := hk.fwd h t ht
  refine ⟨t', ht', ?_⟩
  rcases hor with rfl | ⟨h1, -⟩
  · exact hd
  · exact h1

theorem KillStep.trans {m m1 m2 : Mesh VD HD FD} (h1 : KillStep m m1) (h2 : KillStep m1 m2) :
    KillStep m m2 := by
  constructor
  · rw [h2.verts, h1.verts]
  · rw [h2.faces, h1.faces]
  · intro h t ht
    obtain ⟨t1, ht1, ho1, hh1, hor1⟩ := h1.fwd h t ht
    obtain ⟨t2, ht2, ho2, hh2, hor2⟩ := h2.fwd h t1 ht1
    refine ⟨t2, ht2, by rw [ho2, ho1], by rw [hh2, hh1], ?_⟩
    rcases hor2 with rfl | hdead
    · exact hor1
    · exact Or.inr hdead
  · intro h t2 ht2
    obtain ⟨t1, ht1⟩ := h2.bwd h t2 ht2
    exact h1.bwd h t1 ht1
  · intro h t t2 ht hex ht2 hd2
    obtain ⟨t1, ht1, ho1, -, hor1⟩ := h1.fwd h t ht
    rcases hor1 with rfl | ⟨hd1, -⟩
    · exact h2.paired h t1 t2 ht1 hex ht2 hd2
    · obtain ⟨u1, hu1, hud1⟩ := h1.paired h t t1 ht hex ht1 hd1
      exact h2.dead_stays hu1 hud1

theorem facesRemove_dead_self {faces : List (Triplet FaceTopo FD)} {f : Int} (h0 : 0 ≤ f)
    (hlt : f.toNat < faces.length) : deadFaceAt (facesRemove faces f) f := by
  obtain ⟨ft, hft⟩ := getAt_isOk_iff.mpr ⟨h0, hlt⟩
  have hn : ¬ f < 0 := by omega
  refine ⟨killFaceIfLive ft, ?_, ?_⟩
  · simp only [facesRemove, hn, if_false]
    exact getAt_updAt.mpr ⟨ft, hft, by simp⟩
  · simp only [killFaceIfLive]
    cases hex : ft.exists_ <;> simp [hex, killFace]

theorem facesRemove_dead_mono {faces : List (Triplet FaceTopo FD)} {f g : Int}
    (hd : deadFaceAt faces g) : deadFaceAt (facesRemove faces f) g := by
  obtain ⟨ft, hft, hex⟩ := hd
  by_cases hn : f < 0
  · simp only [facesRemove, hn, if_true]
    exact ⟨ft, hft, hex⟩
  · simp only [facesRemove, hn, if_false]
    refine ⟨_, getAt_updAt.mpr ⟨ft, hft, rfl⟩, ?_⟩
    split_ifs <;> simp [killFaceIfLive, hex]

theorem removeHalf_total {m : Mesh VD HD FD} (hw : m.WF) {h : Int}
    {t : Triplet HalfTopo HD} (ht : getAt m.halfs h = .ok t) : ∃ m', m.removeHalf h = .ok m' := by
  cases hex : t.exists_ with
  | false =>
    exact ⟨m, removeHalf_removed (removedHalf_eq_ok.mpr ⟨t, ht, by simp [hex]⟩)⟩
  | true =>
    obtain ⟨t2, ht2, hex2, -⟩ := hw.pairing h t ht hex
    have f1 := hw.faceInRange h t ht hex
    have f2 := hw.faceInRange _ t2 ht2 hex2
    refine ⟨_, (removeHalf_live_eq_ok ht hex).mpr ⟨t2, ht2, ?_, ?_, rfl⟩⟩
    · omega
    · omega

theorem removeHalfs_total {l : List Int} : ∀ {m : Mesh VD HD FD}, m.WF →
    (∀ x ∈ l, ∃ t, getAt m.halfs x = .ok t) → ∃ m', removeHalfs m l = .ok m' := by
  induction l with
  | nil => intro m _ _; exact ⟨m, rfl⟩
  | cons x rest ih =>
    intro m hw hall
    obtain ⟨t, ht⟩ := hall x (List.mem_cons_self _ _)
    obtain ⟨m1, h1⟩ := removeHalf_total hw ht
    have hk := killStep_removeHalf hw h1
    obtain ⟨m', hm'⟩ := ih (wf_of_kill hw hk) (fun y hy => by
      obtain ⟨ty, hty⟩ := hall y (List.mem_cons_of_mem _ hy)
      obtain ⟨ty', hty', -⟩ := hk.fwd y ty hty
      exact ⟨ty', hty'⟩)
    exact ⟨m', by simp [removeHalfs, h1, hm']⟩

theorem removeHalf_faces_mono {m m' : Mesh VD HD FD} {h g : Int}
    (hr : m.removeHalf h = .ok m') (hd : deadFaceAt m.faces g) : deadFaceAt m'.faces g := by
  rcases removeHalf_cases hr with rfl | ⟨t, t2, _, _, _, _, _, rfl⟩
  · exact hd
  · exact facesRemove_dead_mono (facesRemove_dead_mono hd)

theorem removeHalf_cascaded {m m' : Mesh VD HD FD} (hw : m.WF) {x : Int}
    (hr : m.removeHalf x = .ok m') : Cascaded m m' := by
  intro h t ht hex hdead
  obtain ⟨t', ht', hd'⟩ := hdead
  rcases removeHalf_cases hr with rfl | ⟨tx, t2x, hgx, hexx, hg2x, hf1, hf2, rfl⟩
  · rw [ht] at ht'
    cases ht'
    rw [hex] at hd'
    cases hd'
  · have h0 := (getAt_lt_length ht).1
    have hx0 := (getAt_lt_length hgx).1
    have ho0 := (getAt_lt_length hg2x).1
    obtain ⟨t2x', hg2x', hex2x, hop2x, -, -⟩ := hw.pairing x tx hgx hexx
    rw [hg2x] at hg2x'
    cases hg2x'
    have hdeadX : deadHalfAt (updAt (updAt m.halfs x.toNat killHalfFrom)
        tx.topo.opposite.toNat killHalfTo) x := by
      refine ⟨_, getAt_updAt.mpr ⟨_, getAt_updAt.mpr ⟨tx, hgx, rfl⟩, rfl⟩, ?_⟩
      split_ifs <;> first | contradiction | simp [killHalfFrom, killHalfTo]
    have hdeadO : deadHalfAt (updAt (updAt m.halfs x.toNat killHalfFrom)
        tx.topo.opposite.toNat killHalfTo) tx.topo.opposite := by
      refine ⟨_, getAt_updAt.mpr ⟨_, getAt_updAt.mpr ⟨t2x, hg2x, rfl⟩, rfl⟩, ?_⟩
      simp [killHalfTo]
    have hface1 : 0 ≤ tx.topo.face → deadFaceAt
        (facesRemove (facesRemove m.faces tx.topo.face) t2x.topo.face) tx.topo.face := by
      intro hf0
      have := hw.faceInRange x tx hgx hexx
      exact facesRemove_dead_mono (facesRemove_dead_self hf0 (by omega))
    have hface2 : 0 ≤ t2x.topo.face → deadFaceAt
        (facesRemove (facesRemove m.faces tx.topo.face) t2x.topo.face) t2x.topo.face := by
      intro hf0
      have := hw.faceInRange _ t2x hg2x hex2x
      exact facesRemove_dead_self hf0 (by simp only [facesRemove_length]; omega)
    obtain ⟨y, hy, hyt⟩ := getAt_updAt.mp ht'
    obtain ⟨z, hz, rfl⟩ := getAt_updAt.mp hy
    rw [ht] at hz
    cases hz
    by_cases e1 : h.toNat = x.toNat
    · have : h = x := by omega
      subst this
      rw [hgx] at ht
      cases ht
      exact ⟨t2x, hg2x, hdeadO, hface1, hface2⟩
    · by_cases e2 : h.toNat = tx.topo.opposite.toNat
      · have : h = tx.topo.opposite := by omega
        subst this
        rw [hg2x] at ht
        cases ht
        refine ⟨tx, by rw [hop2x]; exact hgx, by rw [hop2x]; exact hdeadX, hface2, hface1⟩
      · simp [e1, e2] at hyt
        rw [hyt, hex] at hd'
        cases hd'

theorem cascaded_trans {m m1 m2 : Mesh VD HD FD} (hw1 : m1.WF) (k1 : KillStep m m1)
    (k2 : KillStep m1 m2) (c1 : Cascaded m m1) (c2 : Cascaded m1 m2)
    (hmono : ∀ g, deadFaceAt m1.faces g → deadFaceAt m2.faces g) : Cascaded m m2 := by
  intro h t ht hex hdead
  obtain ⟨t1, ht1, -, -, hor⟩ := k1.fwd h t ht
  rcases hor with rfl | ⟨hd1, -⟩
  · -- still there in `m1`: removed by the second part
    obtain ⟨u1, hu1, hud, hf1, hf2⟩ := c2 h t1 ht1 hex hdead
    obtain ⟨u1', hu1', hex1, -⟩ := hw1.pairing h t1 ht1 hex
    rw [hu1] at hu1'
    cases hu1'
    exact ⟨u1, k1.live_eq hu1 hex1, hud, hf1, hf2⟩
  · obtain ⟨u, hu, ⟨u1, hu1, hud1⟩, hf1, hf2⟩ := c1 h t ht hex ⟨t1, ht1, hd1⟩
    exact ⟨u, hu, k2.dead_stays hu1 hud1, fun h0 => hmono _ (hf1 h0), fun h0 => hmono _ (hf2 h0)⟩

theorem removeHalfs_cascade {l : List Int} : ∀ {m m' : Mesh VD HD FD}, m.WF →
    removeHalfs m l = .ok m' →
    KillStep m m' ∧ Cascaded m m' ∧ ∀ g, deadFaceAt m.faces g → deadFaceAt m'.faces g := by
  induction l with
  | nil =>
    intro m m' hw hr
    simp only [removeHalfs, Except.ok.injEq] at hr
    subst hr
    refine ⟨KillStep.refl m, ?_, fun _ h => h⟩
    intro h t ht hex hdead
    obtain ⟨t', ht', hd'⟩ := hdead
    rw [ht] at ht'
    cases ht'
    rw [hex] at hd'
    cases hd'
  | cons x rest ih =>
    intro m m' hw hr
    unfold removeHalfs at hr
    cases h1 : m.removeHalf x with
    | error e => simp [h1] at hr
    | ok m1 =>
      simp only [h1] at hr
      have k1 := killStep_removeHalf hw h1
      have hw1 := wf_of_kill hw k1
      obtain ⟨k2, c2, mono2⟩ := ih hw1 hr
      exact ⟨k1.trans k2, cascaded_trans hw1 k1 k2 (removeHalf_cascaded hw h1) c2 mono2,
        fun g hg => mono2 g (removeHalf_faces_mono h1 hg)⟩

end Cascade

section CascadeClaim

variable {VD HD FD : Type}

theorem getAt_updAt_ne {α : Type} (xs : List α) (i : Nat) (f : α → α) (w : Int)
    (h : w < 0 ∨ w.toNat ≠ i) : getAt (updAt xs i f) w = getAt xs w := by
  unfold getAt
  by_cases hn : w < 0
  · simp [hn]
  · have hne : w.toNat ≠ i := by
      rcases h with h | h
      · exact absurd h hn
      · exact h
    simp [hn, getElem?_updAt, hne]

/-- C8: for every well-formed mesh and non-removed vertex `v`, `remove(v)` returns;
afterwards `v` is removed and its outgoing list is empty, every half-edge that left
`v` and the opposite of each are removed, every face that owned one of those
half-edges is removed, and the `exists` flag of no other vertex has changed. -/
theorem removeVert_cascade {m : Mesh VD HD FD} (hw : m.WF) (v : Int)
    (vt : Triplet VertTopo VD) (hv : getAt m.verts v = .ok vt) (hex : vt.exists_ = true) :
    ∃ m', m.removeVert v = .ok m' ∧
      (∃ vt', getAt m'.verts v = .ok vt' ∧ vt'.exists_ = false ∧ vt'.topo.halfedges = []) ∧
      (∀ h t, getAt m.halfs h = .ok t → t.exists_ = true → t.topo.efrom = v →
        ∃ t2, getAt m.halfs t.topo.opposite = .ok t2 ∧
          m'.removedHalf h = .ok true ∧ m'.removedHalf t.topo.opposite = .ok true ∧
          (0 ≤ t.topo.face → m'.removedFace t.topo.face = .ok true) ∧
          (0 ≤ t2.topo.face → m'.removedFace t2.topo.face = .ok true)) ∧
      (∀ w, w ≠ v → m'.removedVert w = m.removedVert w) := by
  have hv0 := (getAt_lt_length hv).1
  have hw0 : (⟨updAt m.verts v.toNat killVert, m.halfs, m.faces⟩ : Mesh VD HD FD).WF := by
    refine wf_of_verts hw rfl rfl (by simp) ?_
    intro u ut hu
    refine ⟨_, getAt_updAt.mpr ⟨ut, hu, rfl⟩, Or.inl ?_⟩
    split_ifs <;> simp [killVert]
  obtain ⟨m1, h1⟩ := removeHalfs_total (l := vt.topo.halfedges) hw0
    (fun x hx => hw.listInRange v vt hv x hx)
  have hv1 := (removeHalfs_frame h1).1
  obtain ⟨k1, c1, -⟩ := removeHalfs_cascade hw0 h1
  have hdead := removeHalfs_dead hw0 h1
  refine ⟨_, (removeVert_live_eq_ok hv hex).mpr ⟨m1, h1, rfl⟩, ?_, ?_, ?_⟩
  · refine ⟨clearVert (killVert vt), ?_, by simp [clearVert, killVert], by simp [clearVert]⟩
    simp only [hv1]
    exact getAt_updAt.mpr ⟨_, getAt_updAt.mpr ⟨vt, hv, rfl⟩, by simp⟩
  · intro h t ht htex hfrom
    obtain ⟨vt2, hvt2, hmem⟩ := hw.inList h t ht htex (by rw [hfrom]; exact hv0)
    rw [hfrom, hv] at hvt2
    cases hvt2
    obtain ⟨t', ht', hd'⟩ := hdead h hmem t ht
    obtain ⟨t2, ht2, ⟨u, hu, hud⟩, hf1, hf2⟩ := c1 h t ht htex ⟨t', ht', hd'⟩
    refine ⟨t2, ht2, removedHalf_eq_ok.mpr ⟨t', ht', by simp [hd']⟩,
      removedHalf_eq_ok.mpr ⟨u, hu, by simp [hud]⟩, ?_, ?_⟩
    · intro h0
      obtain ⟨ft, hft, hfd⟩ := hf1 h0
      exact removedFace_eq_ok.mpr ⟨ft, hft, by simp [hfd]⟩
    · intro h0
      obtain ⟨ft, hft, hfd⟩ := hf2 h0
      exact removedFace_eq_ok.mpr ⟨ft, hft, by simp [hfd]⟩
  · intro w hwv
    have hne : w < 0 ∨ w.toNat ≠ v.toNat := by omega
    simp only [Mesh.removedVert, hv1, getAt_updAt_ne _ _ _ w hne]

theorem removeVert_cascade_witness :
    ∃ vt, getAt quadCubeMesh.verts 0 = .ok vt ∧ vt.exists_ = true ∧
    ∃ m', quadCubeMesh.removeVert 0 = .ok m' ∧
      (∃ vt', getAt m'.verts 0 = .ok vt' ∧ vt'.exists_ = false ∧ vt'.topo.halfedges = []) ∧
      (∀ h t, getAt quadCubeMesh.halfs h = .ok t → t.exists_ = true → t.topo.efrom = 0 →
        ∃ t2, getAt quadCubeMesh.halfs t.topo.opposite = .ok t2 ∧
          m'.removedHalf h = .ok true ∧ m'.removedHalf t.topo.opposite = .ok true ∧
          (0 ≤ t.topo.face → m'.removedFace t.topo.face = .ok true) ∧
          (0 ≤ t2.topo.face → m'.removedFace t2.topo.face = .ok true)) ∧
      (∀ w, w ≠ 0 → m'.removedVert w = quadCubeMesh.removedVert w) :=
  ⟨⟨⟨0, [0, 7, 21]⟩, (0, 1, 1), true⟩, by decide, rfl,
    removeVert_cascade (reachable_wf reachable_quadCubeMesh) 0
      ⟨⟨0, [0, 7, 21]⟩, (0, 1, 1), true⟩ (by decide) rfl⟩

end CascadeClaim

/-! ## `addEdge` on meshes without removed half-edges (C3) -/

section Merge

variable {VD HD FD : Type}

theorem NoRemoved.noDeadHalf {m : Mesh VD HD FD} (h : m.NoRemoved) : m.NoDeadHalf := by
  intro x t ht
  exact h.2.1 t (List.getElem?_mem (getAt_eq_ok.mp ht).2)

theorem findEdge_total {m : Mesh VD HD FD} (hw : m.WF) (hn : m.NoDeadHalf) {a : Int}
    {va : Triplet VertTopo VD} (hva : getAt m.verts a = .ok va) (b : Int) :
    ∃ f, m.findEdge a b = .ok f := by
  have hall : ∀ x ∈ va.topo.halfedges, ∃ t, getAt m.halfs x = .ok t ∧ t.topo.efrom = a := by
    intro x hx
    obtain ⟨t, ht⟩ := hw.listInRange a va hva x hx
    exact ⟨t, ht, hw.listFrom a va hva x hx t ht (hn x t ht)⟩
  obtain ⟨f, hf⟩ : ∃ f, findEdgeLoop m.halfs a b va.topo.halfedges = .ok f :=
    findEdgeLoop_total hall
  exact ⟨f, findEdge_eq_ok.mpr ⟨va, hva, hf⟩⟩

/-- `addEdge(a, b)` when both scans find a half-edge and the two are paired. -/
theorem addEdge_found {m : Mesh VD HD FD} {a b f1 f2 : Int} {hd hdrev : HD}
    {t1 t2 : Triplet HalfTopo HD} (hab : a ≠ b) (h1 : m.findEdge a b = .ok f1)
    (h2 : m.findEdge b a = .ok f2) (g1 : getAt m.halfs f1 = .ok t1)
    (g2 : getAt m.halfs f2 = .ok t2) (o1 : t1.topo.opposite = f2)
    (o2 : t2.topo.opposite = f1) : m.addEdge a b hd hdrev true = .ok (m, f1) := by
  have p1 := (getAt_isOk_iff.mp ⟨t1, g1⟩)
  have p2 := (getAt_isOk_iff.mp ⟨t2, g2⟩)
  have n1 : ¬ f1 < 0 := by omega
  have n2 : ¬ f2 < 0 := by omega
  have e1 : updAt m.halfs f1.toNat (setOpp f2) = m.halfs := by
    apply updAt_self_id
    intro x hx
    rw [(getAt_eq_ok.mp g1).2] at hx
    cases hx
    simp only [setOpp]
    rw [← o1]
  have e2 : updAt m.halfs f2.toNat (setOpp f1) = m.halfs := by
    apply updAt_self_id
    intro x hx
    rw [(getAt_eq_ok.mp g2).2] at hx
    cases hx
    simp only [setOpp]
    rw [← o2]
  have s1 : m.setOpposite f1 f2 = .ok m := by
    rw [setOpposite_eq_ok]
    refine ⟨p1.1, p1.2, ?_⟩
    rw [e1]
  have s2 : m.setOpposite f2 f1 = .ok m := by
    rw [setOpposite_eq_ok]
    refine ⟨p2.1, p2.2, ?_⟩
    rw [e2]
  simp only [Mesh.addEdge, hab, if_false, if_true, h1, h2, bind, Except.bind, Handle.invalid,
    n1, n2, decide_False, Bool.false_eq_true, s1, s2]

/-- `addEdge(a, b)` when it scans nothing or both scans find nothing. -/
theorem addEdge_created {m : Mesh VD HD FD} {a b : Int} (hd hdrev : HD) {merge : Bool}
    (hab : a ≠ b) (ha : 0 ≤ a) (halt : a.toNat < m.verts.length) (hb : 0 ≤ b)
    (hblt : b.toNat < m.verts.length)
    (h1 : merge = true → m.findEdge a b = .ok Handle.none)
    (h2 : merge = true → m.findEdge b a = .ok Handle.none) :
    m.addEdge a b hd hdrev merge = .ok (m.withNewEdge a b hd hdrev, (m.halfs.length : Int)) := by
  have f1 : (if merge = true then m.findEdge a b else .ok Handle.none) = .ok Handle.none := by
    cases merge
    · rfl
    · simpa using h1 rfl
  have f2 : (if merge = true then m.findEdge b a else .ok Handle.none) = .ok Handle.none := by
    cases merge
    · rfl
    · simpa using h2 rfl
  have hres : ∃ m4, m.addEdge a b hd hdrev merge = .ok (m4, (m.halfs.length : Int)) := by
    unfold Mesh.addEdge
    simp only [hab, if_false, bind_eq_ok]
    have hinv : Handle.invalid Handle.none = true := by decide
    obtain ⟨q, hq⟩ : ∃ q, m.pushHalf a b hd = .ok (q, (m.halfs.length : Int)) :=
      ⟨_, pushHalf_eq_ok.mpr ⟨ha, halt, rfl, rfl⟩⟩
    have hq' := (pushHalf_eq_ok.mp hq).2.2.2
    have hqv : q.verts.length = m.verts.length := by rw [hq']; simp
    have hqh : q.halfs.length = m.halfs.length + 1 := by rw [hq']; simp
    obtain ⟨p2, hp2⟩ : ∃ p2, q.pushHalf b a hdrev = .ok (p2, (q.halfs.length : Int)) :=
      ⟨_, pushHalf_eq_ok.mpr ⟨hb, by rw [hqv]; exact hblt, rfl, rfl⟩⟩
    have hp2' := (pushHalf_eq_ok.mp hp2).2.2.2
    have hph : p2.halfs.length = m.halfs.length + 2 := by rw [hp2']; simp [hqh]
    obtain ⟨m3, hm3⟩ : ∃ m3, p2.setOpposite (m.halfs.length : Int) (q.halfs.length : Int)
        = .ok m3 := ⟨_, setOpposite_eq_ok.mpr ⟨by omega, by omega, rfl⟩⟩
    have hm3' := (setOpposite_eq_ok.mp hm3).2.2
    have hm3h : m3.halfs.length = m.halfs.length + 2 := by rw [hm3']; simp [hph]
    obtain ⟨m4, hm4⟩ : ∃ m4, m3.setOpposite (q.halfs.length : Int) (m.halfs.length : Int)
        = .ok m4 := ⟨_, setOpposite_eq_ok.mpr ⟨by omega, by omega, rfl⟩⟩
    refine ⟨m4, Handle.none, f1, Handle.none, f2, (q, (m.halfs.length : Int)), ?_,
      (p2, (q.halfs.length : Int)), ?_, m3, hm3, m4, hm4, rfl⟩
    · simp only [hinv, if_true]
      exact hq
    · simp only [hinv, if_true]
      exact hp2
  obtain ⟨m4, hres⟩ := hres
  rw [hres]
  rcases addEdge_cases hab hres with ⟨g1, g2, hg1, hg2, hc⟩
  rw [f1] at hg1
  rw [f2] at hg2
  cases hg1
  cases hg2
  rcases hc with ⟨-, -, -, -, -, -, -, e⟩ | ⟨c, -⟩ | ⟨-, c⟩ | ⟨c, -⟩
  · rw [e]
  · simp [Handle.none] at c
  · simp [Handle.none] at c
  · simp [Handle.none] at c

end Merge

section MergeClaim

variable {VD HD FD : Type}

theorem addEdge_total {m : Mesh VD HD FD} (hw : m.WF) (hn : m.NoDeadHalf) {a b : Int}
    {va vb : Triplet VertTopo VD} (hva : getAt m.verts a = .ok va)
    (hvb : getAt m.verts b = .ok vb) (hd hdrev : HD) (merge : Bool) :
    ∃ m' h, m.addEdge a b hd hdrev merge = .ok (m', h) := by
  by_cases hab : a = b
  · exact ⟨m, Handle.none, by simp [Mesh.addEdge, hab]⟩
  · obtain ⟨f1, h1⟩ := findEdge_total hw hn hva b
    obtain ⟨f2, h2⟩ := findEdge_total hw hn hvb a
    obtain ⟨ha0, halt⟩ := getAt_isOk_iff.mp ⟨va, hva⟩
    obtain ⟨hb0, hblt⟩ := getAt_isOk_iff.mp ⟨vb, hvb⟩
    cases hm : merge with
    | false =>
      exact ⟨_, _, addEdge_created hd hdrev hab ha0 halt hb0 hblt (by simp) (by simp)⟩
    | true =>
      rcases findEdge_pair hw hab h1 h2 with ⟨rfl, rfl⟩ | ⟨t1, t2, g1, g2, -, -, -, -, -, -, o1, o2⟩
      · exact ⟨_, _, addEdge_created hd hdrev hab ha0 halt hb0 hblt (fun _ => h1) (fun _ => h2)⟩
      · exact ⟨m, f1, addEdge_found hab h1 h2 g1 g2 o1 o2⟩

/-- What holds of every mesh built by `addVertex` and `addEdge`: it is well formed,
has no removed half-edge, and the end vertices of its half-edges are valid. -/
theorem built_inv {m : Mesh VD HD FD} (hb : Built m) :
    m.WF ∧ m.NoDeadHalf ∧
      ∀ h t, getAt m.halfs h = .ok t → 0 ≤ t.topo.efrom ∧ 0 ≤ t.topo.eto := by
  induction hb with
  | empty =>
    refine ⟨wf_empty, ?_, ?_⟩
    · intro h t ht
      simp [Mesh.empty, getAt] at ht
    · intro h t ht
      simp [Mesh.empty, getAt] at ht
  | addVertex vd _ ih => exact ⟨wf_addVertex ih.1 vd, ih.2.1, ih.2.2⟩
  | addEdge a b hd hdrev merge _ hr ih =>
    obtain ⟨hw, hn, he⟩ := ih
    refine ⟨wf_addEdge hw hr, ?_⟩
    by_cases hab : a = b
    · simp only [Mesh.addEdge, hab, if_true, Except.ok.injEq, Prod.mk.injEq] at hr
      rw [← hr.1]
      exact ⟨hn, he⟩
    · rcases addEdge_wf_cases hw hab hr with ⟨rfl, -⟩ | ⟨h1, h2, h3, h4, -, rfl, -⟩
      · exact ⟨hn, he⟩
      · constructor
        · intro h t ht
          rcases getAt_halfs_withNewEdge.mp ht with h0 | ⟨-, rfl⟩ | ⟨-, rfl⟩
          · exact hn h t h0
          · rfl
          · rfl
        · intro h t ht
          rcases getAt_halfs_withNewEdge.mp ht with h0 | ⟨-, rfl⟩ | ⟨-, rfl⟩
          · exact he h t h0
          · exact ⟨h1, h3⟩
          · exact ⟨h3, h1⟩

/-- In a mesh built by `addVertex` and `addEdge`, `findEdge(a, b)` finds a half-edge
whenever there is one from `a` to `b`. -/
theorem findEdge_of_edge {m : Mesh VD HD FD} (hb : Built m) {a b h : Int}
    {t : Triplet HalfTopo HD} (ht : getAt m.halfs h = .ok t) (hfrom : t.topo.efrom = a)
    (hto : t.topo.eto = b) : ∃ f, m.findEdge a b = .ok f ∧ f ≠ Handle.none := by
  obtain ⟨hw, hn, he⟩ := built_inv hb
  have hex := hn h t ht
  obtain ⟨ha0, hb0⟩ := he h t ht
  rw [hfrom] at ha0
  rw [hto] at hb0
  obtain ⟨va, hva, hmem⟩ := hw.inList h t ht hex (by rw [hfrom]; exact ha0)
  rw [hfrom] at hva
  obtain ⟨f1, h1⟩ := findEdge_total hw hn hva b
  have hhead := findEdge_head hw hva hb0 h1
  refine ⟨f1, h1, ?_⟩
  intro e
  rw [e] at hhead
  simp only [if_true, List.head?_eq_none_iff] at hhead
  have : h ∈ va.topo.halfedges.filter (m.liveTo b) :=
    List.mem_filter.mpr ⟨hmem, liveTo_eq_true.mpr ⟨t, ht, hex, hto⟩⟩
  rw [hhead] at this
  simp at this

/-- In a mesh built by `addVertex` and `addEdge`, `addEdge(a, b)` with merge finds
the edge between two joined vertices and changes nothing. -/
theorem addEdge_joined {m : Mesh VD HD FD} (hb : Built m) {a b : Int} (hab : a ≠ b)
    (hj : m.Joined a b) (hd hdrev : HD) :
    ∃ h1 t1 t2, m.addEdge a b hd hdrev true = .ok (m, h1) ∧
      m.findEdge a b = .ok h1 ∧ m.findEdge b a = .ok t1.topo.opposite ∧
      getAt m.halfs h1 = .ok t1 ∧ t1.topo.efrom = a ∧ t1.topo.eto = b ∧
      getAt m.halfs t1.topo.opposite = .ok t2 ∧ t2.topo.efrom = b ∧ t2.topo.eto = a ∧
      t2.topo.opposite = h1 := by
  obtain ⟨hw, hn, he⟩ := built_inv hb
  -- a half-edge `a -> b`
  obtain ⟨h, t, ht, hfrom, hto⟩ : ∃ h t, getAt m.halfs h = .ok t ∧ t.topo.efrom = a ∧
      t.topo.eto = b := by
    obtain ⟨h, t, ht, hor⟩ := hj
    rcases hor with ⟨e1, e2⟩ | ⟨e1, e2⟩
    · exact ⟨h, t, ht, e1, e2⟩
    · obtain ⟨t2, ht2, -, -, hf2, hto2⟩ := hw.pairing h t ht (hn h t ht)
      exact ⟨_, t2, ht2, by rw [hf2, e2], by rw [hto2, e1]⟩
  obtain ⟨f1, h1, hne⟩ := findEdge_of_edge hb ht hfrom hto
  obtain ⟨t0, ht0, -, -, hf0, hto0⟩ := hw.pairing h t ht (hn h t ht)
  obtain ⟨f2, h2, -⟩ := findEdge_of_edge hb ht0 (by rw [hf0, hto]) (by rw [hto0, hfrom])
  rcases findEdge_pair hw hab h1 h2 with ⟨e, -⟩ |
    ⟨t1, t2, g1, g2, -, -, fr1, to1, fr2, to2, o1, o2⟩
  · exact absurd e hne
  · refine ⟨f1, t1, t2, addEdge_found hab h1 h2 g1 g2 o1 o2, h1, by rw [o1]; exact h2, g1, fr1,
      to1, by rw [o1]; exact g2, fr2, to2, o2⟩

/-- C3: in a mesh built by `addVertex` and `addEdge`, for distinct vertices `a`, `b`:
`addEdge(a, b)` with merge returns a half-edge `h1` from `a` to `b`, and a following
`addEdge(b, a)` returns the opposite of `h1`, a half-edge from `b` to `a` paired
with `h1`, and changes nothing; when `a` and `b` were already joined by an edge (in
either orientation), the first call too leaves the mesh exactly as it was (no
half-edge is created, no payload is written) and returns the half-edge that
`findEdge(a, b)` finds. -/
theorem addEdge_merge_same_pair {m : Mesh VD HD FD} (hb : Built m) {a b : Int}
    {va vb : Triplet VertTopo VD} (hva : getAt m.verts a = .ok va)
    (hvb : getAt m.verts b = .ok vb) (hab : a ≠ b) (hd hdrev hd2 hdrev2 : HD) :
    ∃ m1 h1 t1 t2, m.addEdge a b hd hdrev true = .ok (m1, h1) ∧
      getAt m1.halfs h1 = .ok t1 ∧ t1.topo.efrom = a ∧ t1.topo.eto = b ∧
      m1.addEdge b a hd2 hdrev2 true = .ok (m1, t1.topo.opposite) ∧
      getAt m1.halfs t1.topo.opposite = .ok t2 ∧ t2.topo.efrom = b ∧ t2.topo.eto = a ∧
      t2.topo.opposite = h1 ∧
      (m.Joined a b → m1 = m ∧ m1.halfs.length = m.halfs.length ∧
        m.findEdge a b = .ok h1) := by
  obtain ⟨hw, hn, he⟩ := built_inv hb
  obtain ⟨m1, h1, hr⟩ := addEdge_total hw hn hva hvb hd hdrev true
  have hb1 : Built m1 := Built.addEdge a b hd hdrev true hb hr
  -- the returned half-edge goes from `a` to `b`, and `findEdge(a, b)` now finds it
  have hj1 : (∃ t1, getAt m1.halfs h1 = .ok t1 ∧ t1.topo.efrom = a ∧ t1.topo.eto = b) ∧
      m1.findEdge a b = .ok h1 := by
    rcases addEdge_wf_cases hw hab hr with ⟨rfl, -, hf, t1, -, g1, -, -, e1, e2, -⟩ |
      ⟨-, -, -, -, rfl, rfl, hnone⟩
    · exact ⟨⟨t1, g1, e1, e2⟩, hf⟩
    · have hnew : getAt (m.withNewEdge a b hd hdrev).halfs (m.halfs.length : Int) = .ok
          ⟨⟨(m.halfs.length : Int), a, b, (m.halfs.length : Int) + 1, Handle.none⟩, hd, true⟩ :=
        getAt_halfs_withNewEdge.mpr (Or.inr (Or.inl ⟨rfl, rfl⟩))
      refine ⟨⟨_, hnew, rfl, rfl⟩, ?_⟩
      obtain ⟨f, hf, hfne⟩ := findEdge_of_edge hb1 hnew rfl rfl
      rcases findEdge_found hf with e | ⟨t, gt, tfr, tto⟩
      · exact absurd e hfne
      · rcases getAt_halfs_withNewEdge.mp gt with g0 | ⟨e, -⟩ | ⟨-, rfl⟩
        · -- an old half-edge `a -> b` would have been found by the first call
          obtain ⟨f0, hf0, hf0ne⟩ := findEdge_of_edge hb g0 tfr tto
          rw [(hnone rfl).1] at hf0
          exact absurd (Except.ok.inj hf0).symm hf0ne
        · rw [e] at hf
          exact hf
        · exact absurd tfr (Ne.symm hab)
  obtain ⟨⟨t1, g1, fr1, to1⟩, hfind⟩ := hj1
  obtain ⟨k, w1, w2, -, fk, fk2, gk, wfr, wto, gk2, w2fr, w2to, w2o⟩ :=
    addEdge_joined hb1 hab ⟨h1, t1, g1, Or.inl ⟨fr1, to1⟩⟩ hd hdrev
  rw [hfind] at fk
  have hk1 : k = h1 := (Except.ok.inj fk).symm
  subst hk1
  obtain ⟨k2, u1, u2, hk2, fu, -⟩ :=
    addEdge_joined hb1 (Ne.symm hab) ⟨k, t1, g1, Or.inr ⟨fr1, to1⟩⟩ hd2 hdrev2
  rw [fk2] at fu
  have hk2' : k2 = w1.topo.opposite := (Except.ok.inj fu).symm
  subst hk2'
  refine ⟨m1, k, w1, w2, hr, gk, wfr, wto, hk2, gk2, w2fr, w2to, w2o, ?_⟩
  intro hj
  obtain ⟨q, q1, q2, hq, hqf, -⟩ := addEdge_joined hb hab hj hd hdrev
  rw [hr] at hq
  simp only [Except.ok.injEq, Prod.mk.injEq] at hq
  obtain ⟨rfl, rfl⟩ := hq
  exact ⟨rfl, rfl, hqf⟩

end MergeClaim

/-! ## `addFace` over a vertex cycle (C5, C6) -/

section ExtLemmas

variable {VD HD FD : Type}

theorem ext_same (m : Mesh VD HD FD) : Ext m m := by
  constructor
  · rfl
  · rfl
  · exact Nat.le_refl _
  · exact fun _ _ h => h
  · intro v vt hv
    exact ⟨vt, [], hv, by simp, by simp⟩

theorem ext_chain {m m1 m2 : Mesh VD HD FD} (h1 : Ext m m1) (h2 : Ext m1 m2) : Ext m m2 := by
  constructor
  · rw [h2.faces, h1.faces]
  · rw [h2.vlen, h1.vlen]
  · exact Nat.le_trans h1.hlen h2.hlen
  · exact fun h t ht => h2.halfs h t (h1.halfs h t ht)
  · intro v vt hv
    obtain ⟨vt1, e1, hv1, hl1, hx1⟩ := h1.lists v vt hv
    obtain ⟨vt2, e2, hv2, hl2, hx2⟩ := h2.lists v vt1 hv1
    refine ⟨vt2, e1 ++ e2, hv2, by rw [hl2, hl1, List.append_assoc], ?_⟩
    intro x hx
    rcases List.mem_append.mp hx with h | h
    · exact hx1 x h
    · have := hx2 x h
      have := h1.hlen
      omega

theorem ext_withNewEdge {m : Mesh VD HD FD} {a b : Int} (hd hdrev : HD) (ha : 0 ≤ a)
    (hb : 0 ≤ b) : Ext m (m.withNewEdge a b hd hdrev) := by
  constructor
  · rfl
  · simp [Mesh.withNewEdge]
  · simp [Mesh.withNewEdge]
  · exact fun h t ht => getAt_halfs_withNewEdge.mpr (Or.inl ht)
  · intro v vt hv
    obtain ⟨vt', hvt', hl⟩ := getAt_verts_withNewEdge_of hd hdrev ha hb hv
    refine ⟨vt', (if v = a then [(m.halfs.length : Int)] else [])
      ++ (if v = b then [(m.halfs.length : Int) + 1] else []), hvt',
      by rw [hl, List.append_assoc], ?_⟩
    intro x hx
    rcases List.mem_append.mp hx with h | h
    · split at h
      · simp only [List.mem_singleton] at h
        omega
      · simp at h
    · split at h
      · simp only [List.mem_singleton] at h
        omega
      · simp at h

theorem findEdgeLoop_append {halfs halfs' : List (Triplet HalfTopo HD)} {a b : Int}
    (hsame : ∀ h t, getAt halfs h = .ok t → getAt halfs' h = .ok t) {ext : List Int} :
    ∀ {l : List Int}, (∀ x ∈ l, ∃ t, getAt halfs x = .ok t) →
      ∀ {h : Int}, findEdgeLoop halfs' a b (l ++ ext) = .ok h →
      ∃ g, findEdgeLoop halfs a b l = .ok g ∧
        ((0 ≤ g ∧ h = g) ∨ (g < 0 ∧ findEdgeLoop halfs' a b ext = .ok h)) := by
  intro l
  induction l with
  | nil =>
    intro _ h hr
    exact ⟨Handle.none, rfl, Or.inr ⟨by decide, by simpa using hr⟩⟩
  | cons x rest ih =>
    intro hall h hr
    obtain ⟨t, ht⟩ := hall x (List.mem_cons_self _ _)
    have ht' := hsame x t ht
    simp only [List.cons_append, findEdgeLoop, ht'] at hr
    simp only [findEdgeLoop, ht]
    by_cases hfrom : t.topo.efrom = a
    · by_cases hto : t.topo.eto = b
      · simp only [hfrom, ne_eq, not_true_eq_false, if_false, hto, if_true,
          Except.ok.injEq] at hr ⊢
        exact ⟨x, rfl, Or.inl ⟨(getAt_lt_length ht).1, hr.symm⟩⟩
      · simp only [hfrom, ne_eq, not_true_eq_false, if_false, hto] at hr ⊢
        exact ih (fun y hy => hall y (List.mem_cons_of_mem _ hy)) hr
    · simp [hfrom] at hr

/-- A scan that returns in the extended mesh returns in the old one: with the same
half-edge if the old mesh has one, and else the extended scan found nothing or a
new half-edge. -/
theorem findEdge_ext {m m' : Mesh VD HD FD} (hw : m.WF) (he : Ext m m') {a b h : Int}
    {va : Triplet VertTopo VD} (hva : getAt m.verts a = .ok va)
    (hr : m'.findEdge a b = .ok h) :
    ∃ g, m.findEdge a b = .ok g ∧
      ((0 ≤ g ∧ h = g) ∨ (g < 0 ∧ (h = Handle.none ∨ (m.halfs.length : Int) ≤ h))) := by
  obtain ⟨vt', ext, hvt', hl, hext⟩ := he.lists a va hva
  obtain ⟨vt'', hvt'', hloop⟩ := findEdge_eq_ok.mp hr
  rw [hvt'] at hvt''
  cases hvt''
  rw [hl] at hloop
  obtain ⟨g, hg, hor⟩ := findEdgeLoop_append he.halfs
    (fun x hx => hw.listInRange a va hva x hx) hloop
  refine ⟨g, findEdge_eq_ok.mpr ⟨va, hva, hg⟩, ?_⟩
  rcases hor with h1 | ⟨h1, h2⟩
  · exact Or.inl h1
  · right
    refine ⟨h1, ?_⟩
    rcases findEdgeLoop_spec h2 with ⟨e, -⟩ | ⟨pre, post, t, hlist, -⟩
    · exact Or.inl e
    · right
      apply hext
      rw [hlist]
      simp

end ExtLemmas

theorem addEdge_merge_same_pair_witness :
    ∃ m1 h1 t1 t2, twoVertexMesh.addEdge 0 1 () () true = .ok (m1, h1) ∧
      getAt m1.halfs h1 = .ok t1 ∧ t1.topo.efrom = 0 ∧ t1.topo.eto = 1 ∧
      m1.addEdge 1 0 () () true = .ok (m1, t1.topo.opposite) ∧
      getAt m1.halfs t1.topo.opposite = .ok t2 ∧ t2.topo.efrom = 1 ∧ t2.topo.eto = 0 ∧
      t2.topo.opposite = h1 ∧
      (twoVertexMesh.Joined 0 1 → m1 = twoVertexMesh ∧
        m1.halfs.length = twoVertexMesh.halfs.length ∧ twoVertexMesh.findEdge 0 1 = .ok h1) :=
  addEdge_merge_same_pair (Built.addVertex () (Built.addVertex () Built.empty))
    (by decide : getAt twoVertexMesh.verts 0 = .ok ⟨⟨0, []⟩, (), true⟩)
    (by decide : getAt twoVertexMesh.verts 1 = .ok ⟨⟨1, []⟩, (), true⟩)
    (by decide) () () () ()

section FaceCycle

variable {VD HD FD : Type}

theorem EdgeOK.mono {m0 m1 m2 : Mesh VD HD FD} (he : Ext m1 m2) {a b h : Int}
    (h1 : EdgeOK m0 m1 a b h) : EdgeOK m0 m2 a b h := by
  rcases h1 with h1 | ⟨hab, t, ht, r⟩
  · exact Or.inl h1
  · exact Or.inr ⟨hab, t, he.halfs h t ht, r⟩

/-- One merging `addEdge` of the loop: it only extends the mesh, and returns the
half-edge `a -> b`, the old one if the starting mesh had one. -/
theorem addEdge_edgeOK {m0 m m' : Mesh VD HD FD} (hw0 : m0.WF) (hw : m.WF) (he : Ext m0 m)
    {a b h : Int} {hd hdrev : HD} (hr : m.addEdge a b hd hdrev true = .ok (m', h)) :
    Ext m m' ∧ EdgeOK m0 m' a b h ∧ (m.NoDeadHalf → m'.NoDeadHalf) := by
  by_cases hab : a = b
  · simp only [Mesh.addEdge, hab, if_true, Except.ok.injEq, Prod.mk.injEq] at hr
    rw [← hr.1, ← hr.2]
    exact ⟨ext_same m, Or.inl ⟨hab, rfl⟩, id⟩
  · rcases addEdge_wf_cases hw hab hr with
      ⟨rfl, -, hf, t1, t2, ht1, -, -, hfrom, hto, -⟩ | ⟨ha, halt, hb, hblt, rfl, rfl, hf⟩
    · refine ⟨ext_same _, Or.inr ⟨hab, t1, ht1, hfrom, hto, ?_⟩, id⟩
      obtain ⟨va, hva⟩ := findEdge_eq_ok.mp hf
      have hr0 := getAt_lt_length hva.1
      obtain ⟨va0, hva0⟩ := getAt_of_lt m0.verts hr0.1 (by rw [← he.vlen]; exact hr0.2)
      obtain ⟨g, hg, hor⟩ := findEdge_ext hw0 he hva0 hf
      refine ⟨g, hg, ?_⟩
      rcases hor with h1 | ⟨h1, h2 | h2⟩
      · exact Or.inl h1
      · have := (getAt_lt_length ht1).1
        rw [h2] at this
        exact absurd this (by decide)
      · exact Or.inr ⟨h1, h2⟩
    · refine ⟨ext_withNewEdge hd hdrev ha hb, Or.inr ⟨hab, _,
        getAt_halfs_withNewEdge.mpr (Or.inr (Or.inl ⟨rfl, rfl⟩)), rfl, rfl, ?_⟩, ?_⟩
      · have hlt : a < (m0.verts.length : Int) := by
          rw [← he.vlen]
          omega
        obtain ⟨va0, hva0⟩ := getAt_of_lt m0.verts ha hlt
        obtain ⟨g, hg, hor⟩ := findEdge_ext hw0 he hva0 (hf rfl).1
        refine ⟨g, hg, ?_⟩
        rcases hor with ⟨h1, h2⟩ | ⟨h1, -⟩
        · rw [← h2] at h1
          exact absurd h1 (by decide)
        · right
          have := he.hlen
          exact ⟨h1, by omega⟩
      · intro hn h t ht
        rcases getAt_halfs_withNewEdge.mp ht with h0 | ⟨-, rfl⟩ | ⟨-, rfl⟩
        · exact hn h t h0
        · rfl
        · rfl

/-- The loop of `addEdge` calls only extends the mesh. -/
theorem addEdgesLoop_ext [Inhabited HD] {verts : List Int} :
    ∀ {is : List Nat} {m m' : Mesh VD HD FD} {hs : List Int}, m.WF →
      addEdgesLoop verts m is = .ok (m', hs) → Ext m m' ∧ (m.NoDeadHalf → m'.NoDeadHalf) := by
  intro is
  induction is with
  | nil =>
    intro m m' hs hw hr
    simp only [addEdgesLoop, Except.ok.injEq, Prod.mk.injEq] at hr
    rw [← hr.1]
    exact ⟨ext_same m, id⟩
  | cons i is ih =>
    intro m m' hs hw hr
    obtain ⟨m1, hh, rest, h1, h2, rfl⟩ := addEdgesLoop_cons.mp hr
    obtain ⟨e1, -, n1⟩ := addEdge_edgeOK hw hw (ext_same m) h1
    obtain ⟨e2, n2⟩ := ih (wf_addEdge hw h1) h2
    exact ⟨ext_chain e1 e2, fun h => n2 (n1 h)⟩

/-- The loop `halfs.push_back(addEdge(verts[i], verts[inext]))`: what it returns. -/
theorem addEdgesLoop_spec [Inhabited HD] {verts : List Int} {m0 : Mesh VD HD FD}
    (hw0 : m0.WF) : ∀ {is : List Nat} {m m' : Mesh VD HD FD} {hs : List Int}, m.WF →
      Ext m0 m → addEdgesLoop verts m is = .ok (m', hs) →
      m'.WF ∧ Ext m0 m' ∧ hs.length = is.length ∧
      ∀ k, k < is.length → EdgeOK m0 m' (cyclePair verts (is.getD k 0)).1
        (cyclePair verts (is.getD k 0)).2 (hs.getD k Handle.none) := by
  intro is
  induction is with
  | nil =>
    intro m m' hs hw he hr
    simp only [addEdgesLoop, Except.ok.injEq, Prod.mk.injEq] at hr
    rw [← hr.1, ← hr.2]
    exact ⟨hw, he, rfl, fun k hk => by simp at hk⟩
  | cons i is ih =>
    intro m m' hs hw he hr
    obtain ⟨m1, hh, rest, h1, h2, rfl⟩ := addEdgesLoop_cons.mp hr
    obtain ⟨e1, ok1, -⟩ := addEdge_edgeOK hw0 hw he h1
    have he1 := ext_chain he e1
    obtain ⟨hw', he', hlen, hall⟩ := ih (wf_addEdge hw h1) he1 h2
    refine ⟨hw', he', by simp [hlen], ?_⟩
    intro k hk
    cases k with
    | zero =>
      simp only [List.getD_cons_zero]
      exact ok1.mono (addEdgesLoop_ext (wf_addEdge hw h1) h2).1
    | succ k =>
      simp only [List.getD_cons_succ]
      exact hall k (by simpa using hk)

end FaceCycle

section FaceCycleTotal

variable {VD HD FD : Type}

theorem getD_mem_of_lt {l : List Int} {i : Nat} (hi : i < l.length) (d : Int) :
    l.getD i d ∈ l := by
  rw [List.getD_eq_getElem l d hi]
  exact List.getElem_mem hi

theorem mem_iff_getD {l : List Int} {x : Int} (d : Int) (hx : x ∈ l) :
    ∃ i, i < l.length ∧ l.getD i d = x := by
  obtain ⟨i, hi, e⟩ := List.mem_iff_getElem.mp hx
  exact ⟨i, hi, by rw [List.getD_eq_getElem l d hi]; exact e⟩

/-- The pairs of a reversed cycle are the pairs of the cycle, swapped. -/
theorem cyclePair_reverse {vs : List Int} {i : Nat} (hi : i < vs.length) :
    ∃ j, j < vs.length ∧
      cyclePair vs.reverse i = ((cyclePair vs j).2, (cyclePair vs j).1) := by
  have hn : 0 < vs.length := by omega
  by_cases hlast : i + 1 < vs.length
  · refine ⟨vs.length - 2 - i, by omega, ?_⟩
    have e1 : (i + 1) % vs.length = i + 1 := Nat.mod_eq_of_lt hlast
    have e2 : (vs.length - 2 - i + 1) % vs.length = vs.length - 1 - i := by
      rw [Nat.mod_eq_of_lt (by omega)]
      omega
    simp only [cyclePair, List.length_reverse, e1, e2, List.getD_eq_getElem?_getD]
    rw [List.getElem?_reverse hi, List.getElem?_reverse hlast]
    have e3 : vs.length - 1 - (i + 1) = vs.length - 2 - i := by omega
    rw [e3]
  · have hi' : i = vs.length - 1 := by omega
    refine ⟨vs.length - 1, by omega, ?_⟩
    have e1 : (vs.length - 1 + 1) % vs.length = 0 := by
      rw [Nat.sub_add_cancel hn, Nat.mod_self]
    subst hi'
    simp only [cyclePair, List.length_reverse, e1, List.getD_eq_getElem?_getD]
    rw [List.getElem?_reverse hi, List.getElem?_reverse hn]
    simp

/-- The pairs of a cycle are made of members of the cycle. -/
theorem cyclePair_mem {vs : List Int} {i : Nat} (hi : i < vs.length) :
    (cyclePair vs i).1 ∈ vs ∧ (cyclePair vs i).2 ∈ vs :=
  ⟨getD_mem_of_lt hi _, getD_mem_of_lt (Nat.mod_lt _ (by omega)) _⟩

theorem addEdgesLoop_total [Inhabited HD] {verts : List Int} :
    ∀ {is : List Nat} {m : Mesh VD HD FD}, m.WF → m.NoDeadHalf →
      (∀ i ∈ is, (∃ va, getAt m.verts (cyclePair verts i).1 = .ok va) ∧
        ∃ vb, getAt m.verts (cyclePair verts i).2 = .ok vb) →
      ∃ m' hs, addEdgesLoop verts m is = .ok (m', hs) := by
  intro is
  induction is with
  | nil => intro m _ _ _; exact ⟨m, [], rfl⟩
  | cons i is ih =>
    intro m hw hn hall
    obtain ⟨⟨va, hva⟩, vb, hvb⟩ := hall i (List.mem_cons_self _ _)
    obtain ⟨m1, hh, h1⟩ := addEdge_total hw hn hva hvb (default : HD) (default : HD) true
    obtain ⟨e1, -, n1⟩ := addEdge_edgeOK hw hw (ext_same m) h1
    have hall1 : ∀ j ∈ is, (∃ va, getAt m1.verts (cyclePair verts j).1 = .ok va) ∧
        ∃ vb, getAt m1.verts (cyclePair verts j).2 = .ok vb := by
      intro j hj
      obtain ⟨⟨xa, hxa⟩, xb, hxb⟩ := hall j (List.mem_cons_of_mem _ hj)
      obtain ⟨ya, -, hya, -⟩ := e1.lists _ _ hxa
      obtain ⟨yb, -, hyb, -⟩ := e1.lists _ _ hxb
      exact ⟨⟨ya, hya⟩, yb, hyb⟩
    obtain ⟨m', rest, h2⟩ := ih (wf_addEdge hw h1) (n1 hn) hall1
    exact ⟨m', hh :: rest, addEdgesLoop_cons.mpr ⟨m1, hh, rest, h1, h2, rfl⟩⟩

theorem autoflipLoop_total {m : Mesh VD HD FD} (hw : m.WF) (hn : m.NoDeadHalf)
    {verts : List Int} : ∀ {is : List Nat},
      (∀ i ∈ is, ∃ va, getAt m.verts (cyclePair verts i).1 = .ok va) →
      ∃ flip, autoflipLoop m verts is = .ok flip := by
  intro is
  induction is with
  | nil => intro _; exact ⟨false, rfl⟩
  | cons i is ih =>
    intro hall
    obtain ⟨va, hva⟩ := hall i (List.mem_cons_self _ _)
    obtain ⟨f, hf⟩ := findEdge_total hw hn hva (cyclePair verts i).2
    obtain ⟨flip, hflip⟩ := ih (fun j hj => hall j (List.mem_cons_of_mem _ hj))
    simp only [autoflipLoop, hf]
    rcases findEdge_found hf with e | ⟨t, ht, -⟩
    · rw [e]
      exact ⟨flip, by simpa [Handle.valid, Handle.none] using hflip⟩
    · simp only [ht]
      split_ifs
      · exact ⟨true, rfl⟩
      · exact ⟨flip, hflip⟩
      · exact ⟨flip, hflip⟩

/-- The autoflip loop answers `true` only on a half-edge owned by a face. -/
theorem autoflipLoop_true {m : Mesh VD HD FD} {verts : List Int} : ∀ {is : List Nat},
    autoflipLoop m verts is = .ok true →
    ∃ i ∈ is, ∃ h t, m.findEdge (cyclePair verts i).1 (cyclePair verts i).2 = .ok h ∧
      getAt m.halfs h = .ok t ∧ 0 ≤ t.topo.face := by
  intro is
  induction is with
  | nil => intro h; simp [autoflipLoop] at h
  | cons i is ih =>
    intro hr
    simp only [autoflipLoop] at hr
    cases hf : m.findEdge (cyclePair verts i).1 (cyclePair verts i).2 with
    | error e => simp [hf] at hr
    | ok f =>
      simp only [hf] at hr
      by_cases hv : Handle.valid f = true
      · simp only [hv, if_true] at hr
        cases hg : getAt m.halfs f with
        | error e => simp [hg] at hr
        | ok t =>
          simp only [hg] at hr
          by_cases hface : Handle.valid t.topo.face = true
          · exact ⟨i, List.mem_cons_self _ _, f, t, hf, hg, by simpa [Handle.valid] using hface⟩
          · simp only [hface] at hr
            obtain ⟨j, hj, r⟩ := ih hr
            exact ⟨j, List.mem_cons_of_mem _ hj, r⟩
      · simp only [hv] at hr
        obtain ⟨j, hj, r⟩ := ih hr
        exact ⟨j, List.mem_cons_of_mem _ hj, r⟩

/-- The autoflip loop answers `false` only when no scanned half-edge has an owner. -/
theorem autoflipLoop_false {m : Mesh VD HD FD} {verts : List Int} : ∀ {is : List Nat},
    autoflipLoop m verts is = .ok false →
    ∀ i ∈ is, ∀ h t, m.findEdge (cyclePair verts i).1 (cyclePair verts i).2 = .ok h →
      getAt m.halfs h = .ok t → t.topo.face < 0 := by
  intro is
  induction is with
  | nil => intro _ i hi; simp at hi
  | cons i is ih =>
    intro hr j hj h t hf hg
    simp only [autoflipLoop] at hr
    rcases List.mem_cons.mp hj with rfl | hj
    · have hv : Handle.valid h = true := by
        simpa [Handle.valid] using (getAt_lt_length hg).1
      simp only [hf, hv, if_true, hg] at hr
      by_cases hface : Handle.valid t.topo.face = true
      · simp [hface] at hr
      · simpa [Handle.valid] using hface
    · cases hf' : m.findEdge (cyclePair verts i).1 (cyclePair verts i).2 with
      | error e => simp [hf'] at hr
      | ok f =>
        simp only [hf'] at hr
        by_cases hv : Handle.valid f = true
        · simp only [hv, if_true] at hr
          cases hg' : getAt m.halfs f with
          | error e => simp [hg'] at hr
          | ok t' =>
            simp only [hg'] at hr
            by_cases hface : Handle.valid t'.topo.face = true
            · simp [hface] at hr
            · simp only [hface] at hr
              exact ih hr j hj h t hf hg
        · simp only [hv] at hr
          exact ih hr j hj h t hf hg

end FaceCycleTotal

section FaceOnWinding

variable {VD HD FD : Type}

/-- What `addFace(vertices)` builds once the winding `w` is chosen: the face is laid
on `w`, and each of its half-edges that was in the mesh before the call is the one
`findEdge` found there for its pair of the winding. -/
theorem addFace_builtOn [Inhabited HD] {m m1 m' : Mesh VD HD FD} (hw : m.WF) {w hs : List Int}
    {fd : FD} {f : Int} (hloop : addEdgesLoop w m (List.range w.length) = .ok (m1, hs))
    (hface : m1.addFace hs fd = .ok (m', f)) :
    ∃ ft, getAt m'.faces f = .ok ft ∧ ft.exists_ = true ∧ ft.topo.halfedges = hs ∧
      BuiltOn m' f ft w ∧
      ∀ h ∈ hs, ∀ t, getAt m.halfs h = .ok t →
        ∃ i, i < w.length ∧ m.findEdge (cyclePair w i).1 (cyclePair w i).2 = .ok h := by
  obtain ⟨-, -, hlen, hall⟩ := addEdgesLoop_spec hw hw (ext_same m) hloop
  simp only [List.length_range] at hlen hall
  obtain ⟨halfs, hset, rfl, rfl⟩ := addFace_eq_ok.mp hface
  obtain ⟨-, hrange, hget⟩ := setFaces_spec hset
  refine ⟨⟨⟨(m1.faces.length : Int), hs⟩, fd, true⟩, ?_, rfl, rfl, ⟨hlen, ?_⟩, ?_⟩
  · simp [getAt]
  · intro i hi
    have hmem : hs.getD i Handle.none ∈ hs := getD_mem_of_lt (by omega) _
    have hk := hall i hi
    rw [List.getD_eq_getElem _ _ (by simpa using hi), List.getElem_range] at hk
    rcases hk with ⟨-, e⟩ | ⟨-, t, ht, hfrom, hto, -⟩
    · have := (hrange _ hmem).1
      rw [e] at this
      exact absurd this (by decide)
    · refine ⟨setFace (m1.faces.length : Int) t, ?_, hfrom, hto, rfl⟩
      have := hget _ t ht
      rw [if_pos hmem] at this
      exact this
  · intro h hh t ht
    obtain ⟨i, hi, rfl⟩ := mem_iff_getD Handle.none hh
    rw [hlen] at hi
    have hk := hall i hi
    rw [List.getD_eq_getElem _ _ (by simpa using hi), List.getElem_range] at hk
    rcases hk with ⟨-, e⟩ | ⟨-, -, -, -, -, g, hg, hor⟩
    · have := (getAt_lt_length ht).1
      rw [e] at this
      exact absurd this (by decide)
    · refine ⟨i, hi, ?_⟩
      rcases hor with ⟨-, e⟩ | ⟨-, hge⟩
      · rw [e]
        exact hg
      · have := (getAt_lt_length ht).2
        omega

/-- On a winding of existing vertices whose consecutive members differ, in a mesh
without removed half-edge, `addFace(vertices)` runs to its end. -/
theorem addFace_on_winding_total [Inhabited HD] {m : Mesh VD HD FD} (hw : m.WF)
    (hn : m.NoDeadHalf) {w : List Int}
    (hv : ∀ v ∈ w, ∃ vt, getAt m.verts v = .ok vt)
    (hd : ∀ i, i < w.length → (cyclePair w i).1 ≠ (cyclePair w i).2) (fd : FD) :
    ∃ m1 hs m' f, addEdgesLoop w m (List.range w.length) = .ok (m1, hs) ∧
      m1.addFace hs fd = .ok (m', f) := by
  have hpairs : ∀ i ∈ List.range w.length,
      (∃ va, getAt m.verts (cyclePair w i).1 = .ok va) ∧
        ∃ vb, getAt m.verts (cyclePair w i).2 = .ok vb :=
    fun i hi => ⟨hv _ (cyclePair_mem (List.mem_range.mp hi)).1,
      hv _ (cyclePair_mem (List.mem_range.mp hi)).2⟩
  obtain ⟨m1, hs, hloop⟩ := addEdgesLoop_total hw hn hpairs
  obtain ⟨-, -, hlen, hall⟩ := addEdgesLoop_spec hw hw (ext_same m) hloop
  simp only [List.length_range] at hlen hall
  have hrange : ∀ x ∈ hs, 0 ≤ x ∧ x.toNat < m1.halfs.length := by
    intro x hx
    obtain ⟨i, hi, rfl⟩ := mem_iff_getD Handle.none hx
    rw [hlen] at hi
    have hk := hall i hi
    rw [List.getD_eq_getElem _ _ (by simpa using hi), List.getElem_range] at hk
    rcases hk with ⟨e, -⟩ | ⟨-, t, ht, -⟩
    · exact absurd e (hd i hi)
    · exact getAt_isOk_iff.mp ⟨t, ht⟩
  obtain ⟨halfs, hset⟩ := setFaces_total (f := (m1.faces.length : Int)) hrange
  exact ⟨m1, hs, _, _, hloop, addFace_eq_ok.mpr ⟨halfs, hset, rfl, rfl⟩⟩

end FaceOnWinding

section FaceClaims

variable {VD HD FD : Type}

/-- C5: in a well-formed mesh without removed elements, `addFace(vertices)` over
`n >= 3` existing vertices whose cyclically consecutive members differ returns a
face `f`: its half-edge list has length `n`, the `to` of its `i`-th half-edge is the
`from` of its `(i + 1) % n`-th, and each of these half-edges has `face == f`. -/
theorem addFace_closed_cycle [Inhabited HD] {m : Mesh VD HD FD} (hw : m.WF)
    (hn : m.NoRemoved) {vs : List Int} (h3 : 3 ≤ vs.length)
    (hv : ∀ v ∈ vs, ∃ vt, getAt m.verts v = .ok vt)
    (hd : ∀ i, i < vs.length → (cyclePair vs i).1 ≠ (cyclePair vs i).2)
    (autoflip : Bool) (fd : FD) :
    ∃ m' f ft, m.addFaceVerts vs autoflip fd = .ok (m', f) ∧
      getAt m'.faces f = .ok ft ∧ ft.exists_ = true ∧
      ft.topo.halfedges.length = vs.length ∧
      ∀ i, i < vs.length → ∃ t t',
        getAt m'.halfs (ft.topo.halfedges.getD i Handle.none) = .ok t ∧
        getAt m'.halfs (ft.topo.halfedges.getD ((i + 1) % vs.length) Handle.none) = .ok t' ∧
        t.topo.eto = t'.topo.efrom ∧ t.topo.face = f := by
  have hnd := NoRemoved.noDeadHalf hn
  have hpairs : ∀ i ∈ List.range vs.length,
      ∃ va, getAt m.verts (cyclePair vs i).1 = .ok va :=
    fun i hi => hv _ (cyclePair_mem (List.mem_range.mp hi)).1
  obtain ⟨w, hwind, hlen, hwv, hwd⟩ : ∃ w, m.faceWinding vs autoflip = .ok w ∧
      w.length = vs.length ∧ (∀ v ∈ w, ∃ vt, getAt m.verts v = .ok vt) ∧
      ∀ i, i < w.length → (cyclePair w i).1 ≠ (cyclePair w i).2 := by
    have hrev : ∀ i, i < vs.reverse.length →
        (cyclePair vs.reverse i).1 ≠ (cyclePair vs.reverse i).2 := by
      intro i hi
      obtain ⟨j, hj, e⟩ := cyclePair_reverse (by simpa using hi)
      rw [e]
      exact fun h => hd j hj h.symm
    cases autoflip with
    | false => exact ⟨vs, by simp [Mesh.faceWinding], rfl, hv, hd⟩
    | true =>
      obtain ⟨flip, hflip⟩ := autoflipLoop_total hw hnd hpairs
      cases flip with
      | false => exact ⟨vs, by simp [Mesh.faceWinding, hflip], rfl, hv, hd⟩
      | true =>
        exact ⟨vs.reverse, by simp [Mesh.faceWinding, hflip], by simp,
          fun v hv' => hv v (List.mem_reverse.mp hv'), hrev⟩
  obtain ⟨m1, hs, m', f, hloop, hface⟩ := addFace_on_winding_total hw hnd hwv hwd fd
  obtain ⟨ft, hft, hex, -, ⟨hl, hon⟩, -⟩ := addFace_builtOn hw hloop hface
  refine ⟨m', f, ft, addFaceVerts_eq_ok.mpr ⟨h3, w, m1, hs, hwind, hloop, hface⟩, hft, hex,
    by rw [hl, hlen], ?_⟩
  intro i hi
  rw [← hlen] at hi ⊢
  obtain ⟨t, ht, -, hto, hf⟩ := hon i hi
  obtain ⟨t', ht', hfrom, -⟩ := hon ((i + 1) % w.length) (Nat.mod_lt _ (by omega))
  exact ⟨t, t', ht, ht', by rw [hto, hfrom]; rfl, hf⟩

/-- C6: a call `addFace(vertices, autoflip = true)` that returns, on a well-formed
mesh in which the requested winding and the reversed one are not both claimed:
no half-edge of the new face was in the mesh before with an owner; the face is laid
on the requested winding when that winding is not claimed, and on the reversed
winding when it is. -/
theorem addFace_autoflip [Inhabited HD] {m m' : Mesh VD HD FD} (hw : m.WF) {vs : List Int}
    {fd : FD} {f : Int} (hr : m.addFaceVerts vs true fd = .ok (m', f))
    (hnot : ¬ (m.windingClaimed vs ∧ m.windingClaimed vs.reverse)) :
    ∃ ft, getAt m'.faces f = .ok ft ∧ ft.exists_ = true ∧
      (∀ h ∈ ft.topo.halfedges, ∀ t, getAt m.halfs h = .ok t → t.topo.face < 0) ∧
      (¬ m.windingClaimed vs → BuiltOn m' f ft vs) ∧
      (m.windingClaimed vs → BuiltOn m' f ft vs.reverse) := by
  obtain ⟨-, w, m1, hs, hwind, hloop, hface⟩ := addFaceVerts_eq_ok.mp hr
  obtain ⟨ft, hft, hex, hlist, hon, hold⟩ := addFace_builtOn hw hloop hface
  simp only [Mesh.faceWinding, if_true] at hwind
  cases hflip : autoflipLoop m vs (List.range vs.length) with
  | error e => simp [hflip] at hwind
  | ok flip =>
    simp only [hflip, Except.ok.injEq] at hwind
    have hfree : ¬ m.windingClaimed w := by
      cases flip with
      | false =>
        simp only [Bool.false_eq_true, if_false] at hwind
        subst hwind
        rintro ⟨i, hi, h, t, hf, hg, hface⟩
        have := autoflipLoop_false hflip i (List.mem_range.mpr hi) h t hf hg
        omega
      | true =>
        simp only [if_true] at hwind
        subst hwind
        obtain ⟨i, hi, h, t, hf, hg, hface⟩ := autoflipLoop_true hflip
        exact fun hc => hnot ⟨⟨i, List.mem_range.mp hi, h, t, hf, hg, hface⟩, hc⟩
    refine ⟨ft, hft, hex, ?_, ?_, ?_⟩
    · intro h hh t ht
      rw [hlist] at hh
      obtain ⟨i, hi, hf⟩ := hold h hh t ht
      by_contra hface
      exact hfree ⟨i, hi, h, t, hf, ht, by omega⟩
    · intro hnc
      cases flip with
      | false =>
        simp only [Bool.false_eq_true, if_false] at hwind
        rw [hwind]
        exact hon
      | true =>
        obtain ⟨i, hi, h, t, hf, hg, hface⟩ := autoflipLoop_true hflip
        exact absurd ⟨i, List.mem_range.mp hi, h, t, hf, hg, hface⟩ hnc
    · intro hc
      cases flip with
      | false =>
        simp only [Bool.false_eq_true, if_false] at hwind
        rw [← hwind] at hfree
        exact absurd hc hfree
      | true =>
        simp only [if_true] at hwind
        rw [hwind]
        exact hon

end FaceClaims
/-- A winding on which the autoflip loop answers `false` is not claimed. -/
theorem not_claimed_of_autoflipLoop {VD HD FD : Type} {m : Mesh VD HD FD} {w : List Int}
    (h : autoflipLoop m w (List.range w.length) = .ok false) : ¬ m.windingClaimed w := by
  rintro ⟨i, hi, g, t, hf, hg, hface⟩
  have := autoflipLoop_false h i (List.mem_range.mpr hi) g t hf hg
  omega

theorem addFace_closed_cycle_witness :
    ∃ m' f ft, threeVertexMesh.addFaceVerts [0, 1, 2] true () = .ok (m', f) ∧
      getAt m'.faces f = .ok ft ∧ ft.exists_ = true ∧
      ft.topo.halfedges.length = ([0, 1, 2] : List Int).length ∧
      ∀ i, i < ([0, 1, 2] : List Int).length → ∃ t t',
        getAt m'.halfs (ft.topo.halfedges.getD i Handle.none) = .ok t ∧
        getAt m'.halfs
          (ft.topo.halfedges.getD ((i + 1) % ([0, 1, 2] : List Int).length) Handle.none)
            = .ok t' ∧
        t.topo.eto = t'.topo.efrom ∧ t.topo.face = f :=
  addFace_closed_cycle (wf_addVertex (wf_addVertex (wf_addVertex wf_empty ()) ()) ())
    (⟨by decide, by decide, by decide⟩ : threeVertexMesh.NoRemoved) (by decide)
    (fun v hv => getAt_isOk_iff.mpr (by
      simp only [List.mem_cons, List.mem_singleton, List.not_mem_nil, or_false] at hv
      rcases hv with rfl | rfl | rfl <;> decide))
    (by decide) true ()

theorem addFace_autoflip_witness :
    triangleMesh.addFaceVerts [0, 1, 2] true () = .ok (twoTriangleMesh, 1) ∧
    triangleMesh.windingClaimed [0, 1, 2] ∧
    ∃ ft, getAt twoTriangleMesh.faces 1 = .ok ft ∧ ft.exists_ = true ∧
      (∀ h ∈ ft.topo.halfedges, ∀ t, getAt triangleMesh.halfs h = .ok t → t.topo.face < 0) ∧
      (¬ triangleMesh.windingClaimed [0, 1, 2] → BuiltOn twoTriangleMesh 1 ft [0, 1, 2]) ∧
      (triangleMesh.windingClaimed [0, 1, 2] →
        BuiltOn twoTriangleMesh 1 ft ([0, 1, 2] : List Int).reverse) :=
  ⟨by decide,
   ⟨0, by decide, 0, ⟨⟨0, 0, 1, 1, 0⟩, (), true⟩, by decide, by decide, by decide⟩,
   addFace_autoflip
    (wf_addFaceVerts (wf_addVertex (wf_addVertex (wf_addVertex wf_empty ()) ()) ())
      (by decide : threeVertexMesh.addFaceVerts [0, 1, 2] true () = .ok (triangleMesh, 0)))
    (by decide : triangleMesh.addFaceVerts [0, 1, 2] true () = .ok (twoTriangleMesh, 1))
    (fun hc => not_claimed_of_autoflipLoop (by decide) hc.2)⟩

/-! ## `AssertEdgesAreStiched` (C2) -/

section Stitched

variable {VD HD FD : Type}

theorem stitchedAt_eq_true {m : Mesh VD HD FD} {t : Triplet HalfTopo HD} :
    stitchedAt m t = .ok true ↔ m.StitchedHalf t := by
  unfold stitchedAt Mesh.StitchedHalf
  by_cases h1 : 0 ≤ t.topo.opposite ∧ 0 ≤ t.topo.face ∧ 0 ≤ t.topo.efrom ∧ 0 ≤ t.topo.eto
  · obtain ⟨a, b, c, d⟩ := h1
    simp only [Handle.valid, a, b, c, d, decide_True, Bool.and_self, Bool.not_true,
      Bool.false_eq_true, if_false, true_and]
    cases hv : getAt m.verts t.topo.efrom with
    | error e => simp
    | ok vt =>
      by_cases hc : t.topo.hd ∈ vt.topo.halfedges
      · cases hf : getAt m.faces t.topo.face with
        | error e => simp [Contains, hc]
        | ok ft =>
          by_cases hc2 : t.topo.hd ∈ ft.topo.halfedges
          · cases ho : getAt m.halfs t.topo.opposite with
            | error e => simp [Contains, hc, hc2]
            | ok ot => simp [Contains, hc, hc2]
          · simp [Contains, hc, hc2]
      · simp [Contains, hc]
  · have : (Handle.valid t.topo.opposite && Handle.valid t.topo.face
        && Handle.valid t.topo.efrom && Handle.valid t.topo.eto) = false := by
      simp only [Handle.valid, Bool.and_eq_false_iff, decide_eq_false_iff_not]
      tauto
    simp only [this, Bool.not_false, if_true]
    constructor
    · intro h
      simp at h
    · rintro ⟨a, b, c, d, -⟩
      exact absurd ⟨a, b, c, d⟩ h1

theorem assertStitchedLoop_iff {m : Mesh VD HD FD} : ∀ {l : List (Triplet HalfTopo HD)},
    assertStitchedLoop m l = .ok () ↔ ∀ t ∈ l, t.exists_ = true → m.StitchedHalf t := by
  intro l
  induction l with
  | nil => simp [assertStitchedLoop]
  | cons t rest ih =>
    simp only [assertStitchedLoop, List.mem_cons, forall_eq_or_imp]
    by_cases hex : t.exists_ = true
    · simp only [hex, if_true, true_implies]
      cases hs : stitchedAt m t with
      | error e =>
        constructor
        · intro h
          cases h
        · rintro ⟨h, -⟩
          rw [← stitchedAt_eq_true, hs] at h
          cases h
      | ok b =>
        cases b with
        | false =>
          constructor
          · intro h
            cases h
          · rintro ⟨h, -⟩
            rw [← stitchedAt_eq_true, hs] at h
            cases h
        | true =>
          simp only [ih]
          constructor
          · exact fun h => ⟨stitchedAt_eq_true.mp hs, h⟩
          · exact fun h => h.2
    · simp only [hex, if_false, false_implies, true_and, Bool.false_eq_true]
      exact ih

/-- The predicate `AssertEdgesAreStiched` returns normally exactly when every
non-removed half-edge satisfies the asserted condition. -/
theorem assertEdgesAreStiched_iff {m : Mesh VD HD FD} :
    AssertEdgesAreStiched m = .ok () ↔ ∀ t ∈ m.halfs, t.exists_ = true → m.StitchedHalf t :=
  assertStitchedLoop_iff

end Stitched
section StitchedKept

variable {VD HD FD : Type}

theorem mem_iff_getAt {α : Type} {xs : List α} {x : α} :
    x ∈ xs ↔ ∃ h, getAt xs h = .ok x := by
  constructor
  · intro hx
    obtain ⟨i, hi⟩ := List.mem_iff_getElem?.mp hx
    exact ⟨(i : Int), getAt_eq_ok.mpr ⟨by omega, by simpa using hi⟩⟩
  · rintro ⟨h, hh⟩
    exact List.mem_iff_getElem?.mpr ⟨h.toNat, (getAt_eq_ok.mp hh).2⟩

theorem notRemovedIn_iff {T D : Type} {xs : List (Triplet T D)} {h : Int} :
    notRemovedIn xs h = true ↔ ∀ x, getAt xs h = .ok x → x.exists_ = true := by
  unfold notRemovedIn
  cases hg : getAt xs h with
  | error e => simp
  | ok x => simp

theorem closed_iff {m : Mesh VD HD FD} :
    m.Closed ↔ ∀ t ∈ m.halfs, t.exists_ = true →
      notRemovedIn m.verts t.topo.efrom = true ∧ notRemovedIn m.verts t.topo.eto = true ∧
        notRemovedIn m.faces t.topo.face = true := by
  simp only [Mesh.Closed, Bool.and_eq_true, and_assoc]

/-- A mesh without removed elements refers to none. -/
theorem NoRemoved.closed {m : Mesh VD HD FD} (hn : m.NoRemoved) : m.Closed := by
  rw [closed_iff]
  intro t _ _
  refine ⟨notRemovedIn_iff.mpr ?_, notRemovedIn_iff.mpr ?_, notRemovedIn_iff.mpr ?_⟩
  · exact fun x hx => hn.1 x (mem_iff_getAt.mpr ⟨_, hx⟩)
  · exact fun x hx => hn.1 x (mem_iff_getAt.mpr ⟨_, hx⟩)
  · exact fun x hx => hn.2.2 x (mem_iff_getAt.mpr ⟨_, hx⟩)

/-- The half-edge overload of `addFace` keeps the stitching. -/
theorem stitched_addFace {m m' : Mesh VD HD FD} (hw : m.WF) (hc : m.Closed)
    (hst : ∀ t ∈ m.halfs, t.exists_ = true → m.StitchedHalf t) {hs : List Int} {fd : FD}
    {f : Int} (hr : m.addFace hs fd = .ok (m', f)) :
    m'.Closed ∧ ∀ t ∈ m'.halfs, t.exists_ = true → m'.StitchedHalf t := by
  obtain ⟨halfs, hset, rfl, rfl⟩ := addFace_eq_ok.mp hr
  obtain ⟨hlen, -, hpt⟩ := setFaces_spec hset
  have hinv : ∀ h t', getAt halfs h = .ok t' → ∃ t, getAt m.halfs h = .ok t ∧
      t' = if h ∈ hs then setFace (m.faces.length : Int) t else t := by
    intro h t' ht'
    obtain ⟨h0, hlt⟩ := getAt_lt_length ht'
    obtain ⟨t, ht⟩ := getAt_of_lt m.halfs h0 (by omega)
    have := hpt h t ht
    rw [ht'] at this
    exact ⟨t, ht, Except.ok.inj this⟩
  have hnew : getAt (m.faces ++ [(⟨⟨(m.faces.length : Int), hs⟩, fd, true⟩ :
      Triplet FaceTopo FD)]) (m.faces.length : Int) = .ok ⟨⟨(m.faces.length : Int), hs⟩, fd, true⟩ := by
    simp [getAt]
  rw [closed_iff] at hc ⊢
  constructor
  · intro t' hmem hex
    obtain ⟨h, ht'⟩ := mem_iff_getAt.mp hmem
    obtain ⟨t, ht, rfl⟩ := hinv h t' ht'
    have hex0 : t.exists_ = true := by
      split_ifs at hex
      · exact hex
      · exact hex
    obtain ⟨c1, c2, c3⟩ := hc t (mem_iff_getAt.mpr ⟨h, ht⟩) hex0
    by_cases hin : h ∈ hs
    · simp only [hin, if_true, setFace]
      refine ⟨c1, c2, notRemovedIn_iff.mpr ?_⟩
      intro x hx
      rw [hnew] at hx
      cases hx
      rfl
    · simp only [hin, if_false]
      refine ⟨c1, c2, notRemovedIn_iff.mpr ?_⟩
      intro x hx
      rcases getAt_append_cases hx with h1 | ⟨-, h2⟩
      · exact notRemovedIn_iff.mp c3 x h1
      · have := mem_iff_getAt.mpr ⟨_, h2⟩
        simp only [List.mem_singleton] at this
        rw [this]
  · intro t' hmem hex
    obtain ⟨h, ht'⟩ := mem_iff_getAt.mp hmem
    obtain ⟨t, ht, rfl⟩ := hinv h t' ht'
    have hex0 : t.exists_ = true := by
      split_ifs at hex
      · exact hex
      · exact hex
    obtain ⟨s1, s2, s3, s4, ⟨vt, hvt, hinv1⟩, ⟨ft, hft, hinf⟩, ⟨ot, hot, hoo⟩⟩ :=
      hst t (mem_iff_getAt.mpr ⟨h, ht⟩) hex0
    have hopp : ∃ ot', getAt halfs t.topo.opposite = .ok ot' ∧
        ot'.topo.opposite = t.topo.hd := by
      refine ⟨_, hpt _ ot hot, ?_⟩
      split_ifs
      · exact hoo
      · exact hoo
    by_cases hin : h ∈ hs
    · simp only [hin, if_true]
      refine ⟨s1, by simp [setFace], s3, s4, ⟨vt, hvt, hinv1⟩, ⟨_, hnew, ?_⟩, hopp⟩
      show t.topo.hd ∈ hs
      rw [hw.halfHd h t ht]
      exact hin
    · simp only [hin, if_false]
      exact ⟨s1, s2, s3, s4, ⟨vt, hvt, hinv1⟩, ⟨ft, getAt_append_left hft, hinf⟩, hopp⟩

/-- Compaction by `gc` keeps the stitching, when no non-removed half-edge refers to
a removed vertex or face. -/
theorem stitched_compacted {m : Mesh VD HD FD} (hw : m.WF) (hc : m.Closed)
    (hst : ∀ t ∈ m.halfs, t.exists_ = true → m.StitchedHalf t) :
    m.compacted.Closed ∧ ∀ t ∈ m.compacted.halfs, t.exists_ = true →
      m.compacted.StitchedHalf t := by
  rw [closed_iff] at hc ⊢
  constructor
  · intro t' _ _
    refine ⟨notRemovedIn_iff.mpr ?_, notRemovedIn_iff.mpr ?_, notRemovedIn_iff.mpr ?_⟩
    · intro x hx
      obtain ⟨i, t0, -, hex0, -, rfl⟩ := getAt_compact.mp hx
      exact hex0
    · intro x hx
      obtain ⟨i, t0, -, hex0, -, rfl⟩ := getAt_compact.mp hx
      exact hex0
    · intro x hx
      obtain ⟨i, t0, -, hex0, -, rfl⟩ := getAt_compact.mp hx
      exact hex0
  · intro t' hmem _
    obtain ⟨j, ht'⟩ := mem_iff_getAt.mp hmem
    obtain ⟨i, t, ht, hex, -, rfl⟩ := getAt_compact.mp ht'
    have hmem0 := mem_iff_getAt.mpr ⟨i, ht⟩
    obtain ⟨s1, s2, s3, s4, ⟨vt, hvt, hinv1⟩, ⟨ft, hft, hinf⟩, -⟩ := hst t hmem0 hex
    obtain ⟨c1, c2, c3⟩ := hc t hmem0 hex
    obtain ⟨t2, ht2, hex2, hopp2, -, -⟩ := hw.pairing i t ht hex
    have hhd := hw.halfHd i t ht
    have hvt_live := notRemovedIn_iff.mp c1 vt hvt
    have hft_live := notRemovedIn_iff.mp c3 ft hft
    obtain ⟨vto, hvto⟩ := getAt_of_lt m.verts s4 (hw.endsInRange i t ht hex).2
    have hvto_live := notRemovedIn_iff.mp c2 vto hvto
    have hhd0 : 0 ≤ remap m.halfs t.topo.hd := by
      rw [hhd, remap_live m.halfs ht hex]
      omega
    refine ⟨?_, ?_, ?_, ?_, ⟨gcVertPure m vt, ?_, ?_⟩, ⟨gcFacePure m ft, ?_, ?_⟩,
      ⟨gcHalfPure m t2, ?_, ?_⟩⟩
    · show 0 ≤ remap m.halfs t.topo.opposite
      rw [remap_live m.halfs ht2 hex2]
      omega
    · show 0 ≤ remap m.faces t.topo.face
      rw [remap_live m.faces hft hft_live]
      omega
    · show 0 ≤ remap m.verts t.topo.efrom
      rw [remap_live m.verts hvt hvt_live]
      omega
    · show 0 ≤ remap m.verts t.topo.eto
      rw [remap_live m.verts hvto hvto_live]
      omega
    · exact getAt_compact.mpr ⟨t.topo.efrom, vt, hvt, hvt_live, rfl, rfl⟩
    · exact mem_gc_list.mpr ⟨t.topo.hd, hinv1, rfl, hhd0⟩
    · exact getAt_compact.mpr ⟨t.topo.face, ft, hft, hft_live, rfl, rfl⟩
    · exact mem_gc_list.mpr ⟨t.topo.hd, hinf, rfl, hhd0⟩
    · exact getAt_compact.mpr ⟨t.topo.opposite, t2, ht2, hex2, rfl, rfl⟩
    · show remap m.halfs t2.topo.opposite = remap m.halfs t.topo.hd
      rw [hopp2, hhd]

end StitchedKept
theorem wf_twoTrianglesAndHole : twoTrianglesAndHole.WF :=
  wf_addFaceVerts
    (wf_addFaceVerts
      (wf_removeVert
        (wf_addVertex (wf_addVertex (wf_addVertex (wf_addVertex wf_empty ()) ()) ()) ())
        (by decide : (threeVertexMesh.addVertex ()).1.removeVert 0 = .ok holeMesh))
      (by decide : holeMesh.addFaceVerts [1, 2, 3] true () = .ok (oneTriangleAndHole, 0)))
    (by decide : oneTriangleAndHole.addFaceVerts [1, 2, 3] true ()
      = .ok (twoTrianglesAndHole, 1))

/-- C2, as the claim states it, fails. On the cube of `MakeQuadFacedCube` the
predicate holds, and it fails after `remove(FaceHandle(0))` of the non-removed
face 0, and also after `addFace({0, 2, 5})` over vertices; on a mesh with a
half-edge that leaves a removed vertex it holds and fails after `gc()`. -/
theorem stitched_not_kept :
    (AssertEdgesAreStiched quadCubeMesh = .ok () ∧ quadCubeMesh.removedFace 0 = .ok false ∧
      (quadCubeMesh.removeFace 0).map AssertEdgesAreStiched = .ok (.error .assertion)) ∧
    (quadCubeMesh.addFaceVerts [0, 2, 5] true ()).map (fun p => AssertEdgesAreStiched p.1)
      = .ok (.error .assertion) ∧
    (AssertEdgesAreStiched danglingEdgeMesh = .ok () ∧
      danglingEdgeMesh.gc.map AssertEdgesAreStiched = .ok (.error .assertion)) := by
  refine ⟨⟨?_, ?_, ?_⟩, ?_, ?_, ?_⟩ <;> decide

/-- C2, amended: on a well-formed mesh in which no non-removed half-edge refers to
a removed vertex or face, and on which `AssertEdgesAreStiched` returns normally, it
still returns normally after any sequence of returning `addFace(halfedges)` and `gc`
calls: every non-removed half-edge has a valid opposite, face, `from` and `to`, is in
the list of its `from` vertex and of its face, and is the opposite of its opposite. -/
theorem stitched_addFace_gc {VD HD FD : Type} {m m' : Mesh VD HD FD} (hw : m.WF)
    (hc : m.Closed) (hs : AssertEdgesAreStiched m = .ok ()) (hseq : FaceGcSteps m m') :
    AssertEdgesAreStiched m' = .ok () ∧
      ∀ t ∈ m'.halfs, t.exists_ = true → m'.StitchedHalf t := by
  have key : m'.WF ∧ m'.Closed ∧ ∀ t ∈ m'.halfs, t.exists_ = true → m'.StitchedHalf t := by
    induction hseq with
    | refl => exact ⟨hw, hc, assertEdgesAreStiched_iff.mp hs⟩
    | addFace hs fd _ hr ih =>
      obtain ⟨w1, c1, s1⟩ := ih
      exact ⟨wf_addFace w1 hr, stitched_addFace w1 c1 s1 hr⟩
    | gc vps hps fps _ hr ih =>
      obtain ⟨w1, c1, s1⟩ := ih
      rw [(gcWith_eq_ok hr).1]
      exact ⟨wf_compacted w1, stitched_compacted w1 c1 s1⟩
  exact ⟨assertEdgesAreStiched_iff.mpr key.2.2, key.2.2⟩

theorem stitched_addFace_gc_witness :
    twoTrianglesRefaced.gcWith [] [] [] = .ok ⟨twoTrianglesCollected, [], [], []⟩ ∧
    AssertEdgesAreStiched twoTrianglesCollected = .ok () ∧
      ∀ t ∈ twoTrianglesCollected.halfs, t.exists_ = true →
        twoTrianglesCollected.StitchedHalf t :=
  ⟨by decide,
   stitched_addFace_gc wf_twoTrianglesAndHole (by unfold Mesh.Closed; decide) (by decide)
    (FaceGcSteps.gc [] [] []
      (FaceGcSteps.addFace [0, 2, 4] () (FaceGcSteps.refl twoTrianglesAndHole)
        (by decide : twoTrianglesAndHole.addFace [0, 2, 4] () = .ok (twoTrianglesRefaced, 2)))
      (by decide : twoTrianglesRefaced.gcWith [] [] []
        = .ok ⟨twoTrianglesCollected, [], [], []⟩))⟩

/-! ## Garbage collection (C11, C12) -/

section GcTotal

variable {VD HD FD : Type} {T D : Type}

theorem hd_of_map_eq_range {xs : List (Triplet T D)} {hd : T → Int}
    (h : xs.map (fun t => hd t.topo) = (List.range xs.length).map Int.ofNat) {i : Int}
    {t : Triplet T D} (ht : getAt xs i = .ok t) : hd t.topo = i := by
  obtain ⟨h0, hi⟩ := getAt_eq_ok.mp ht
  have h1 : (xs.map (fun t => hd t.topo))[i.toNat]? = some (hd t.topo) := by
    simp [hi]
  rw [h] at h1
  have hlt : i.toNat < xs.length := by
    have := (getAt_lt_length ht).2
    omega
  simp only [List.getElem?_map, List.getElem?_range hlt, Option.map_some',
    Option.some.injEq] at h1
  rw [← h1]
  simp only [Int.ofNat_eq_coe]
  omega

theorem map_eq_range_of_hd {xs : List (Triplet T D)} {hd : T → Int}
    (h : ∀ i t, getAt xs i = .ok t → hd t.topo = i) :
    xs.map (fun t => hd t.topo) = (List.range xs.length).map Int.ofNat := by
  apply List.ext_getElem?
  intro n
  by_cases hn : n < xs.length
  · have hx : xs[n]? = some xs[n] := List.getElem?_eq_getElem hn
    have := h (n : Int) xs[n] (getAt_eq_ok.mpr ⟨by omega, by simp⟩)
    simp [hx, List.getElem?_range hn, this]
  · have h1 : (List.range xs.length)[n]? = none :=
      List.getElem?_eq_none (by simp only [List.length_range]; omega)
    simp [List.getElem?_eq_none (Nat.le_of_not_lt hn), h1]

theorem gcWith_total {m : Mesh VD HD FD} (hin : m.RefsInRange) {vps hps fps : List Int}
    (hv : ∀ h ∈ vps, inTable m.verts h) (hh : ∀ h ∈ hps, inTable m.halfs h)
    (hf : ∀ h ∈ fps, inTable m.faces h) : ∃ r, m.gcWith vps hps fps = .ok r := by
  obtain ⟨iv, ih, ifc⟩ := hin
  have upd : ∀ {T D : Type} (xs : List (Triplet T D)) (h : Int), inTable xs h →
      UpdateOldHandle (RemoveAndMap xs).2 h = .ok (remap xs h) :=
    fun xs h hh => UpdateOldHandle_eq_ok.mpr ⟨hh, rfl⟩
  have updc : ∀ {T D : Type} (xs : List (Triplet T D)) (l : List Int),
      (∀ h ∈ l, inTable xs h) →
      UpdateOldHandleContainer (RemoveAndMap xs).2 l = .ok (l.map (remap xs)) :=
    fun xs l hl => UpdateOldHandleContainer_eq_ok.mpr ⟨hl, rfl⟩
  obtain ⟨verts, h1⟩ : ∃ ys, forEachEntry
      (gcVert (RemoveAndMap m.verts).2 (RemoveAndMap m.halfs).2) (RemoveAndMap m.verts).1
      = .ok ys := by
    apply forEachEntry_total
    intro t ht
    simp only [RemoveAndMap, List.mem_filter] at ht
    obtain ⟨a, b⟩ := iv t ht.1 ht.2
    exact ⟨gcVertPure m t, by simp only [gcVert, upd _ _ a, updc _ _ b]; rfl⟩
  obtain ⟨halfs, h2⟩ : ∃ ys, forEachEntry
      (gcHalf (RemoveAndMap m.verts).2 (RemoveAndMap m.halfs).2 (RemoveAndMap m.faces).2)
      (RemoveAndMap m.halfs).1 = .ok ys := by
    apply forEachEntry_total
    intro t ht
    simp only [RemoveAndMap, List.mem_filter] at ht
    obtain ⟨a, b, c, d, e⟩ := ih t ht.1 ht.2
    exact ⟨gcHalfPure m t,
      by simp only [gcHalf, upd _ _ a, upd _ _ b, upd _ _ c, upd _ _ d, upd _ _ e]; rfl⟩
  obtain ⟨faces, h3⟩ : ∃ ys, forEachEntry
      (gcFace (RemoveAndMap m.halfs).2 (RemoveAndMap m.faces).2) (RemoveAndMap m.faces).1
      = .ok ys := by
    apply forEachEntry_total
    intro t ht
    simp only [RemoveAndMap, List.mem_filter] at ht
    obtain ⟨a, b⟩ := ifc t ht.1 ht.2
    exact ⟨gcFacePure m t, by simp only [gcFace, upd _ _ a, updc _ _ b]; rfl⟩
  exact ⟨⟨⟨verts, halfs, faces⟩, vps.map (remap m.verts), hps.map (remap m.halfs),
      fps.map (remap m.faces)⟩,
    by simp only [Mesh.gcWith, h1, h2, h3, updc _ _ hv, updc _ _ hh, updc _ _ hf]⟩

/-- The handles into a table move with their entries. -/
theorem moved_compact {xs : List (Triplet T D)} (g : Triplet T D → Triplet T D) :
    Moved xs ((xs.filter (fun t => t.exists_)).map g) g := by
  intro h t ht
  constructor
  · intro hex
    exact getAt_compact.mpr ⟨h, t, ht, hex, rfl, rfl⟩
  · intro hex
    rw [remap_dead xs ht hex]
    decide

end GcTotal

section GcCompacts

variable {VD HD FD : Type}

theorem hdIsPos_compacted {m : Mesh VD HD FD} (hpos : m.HdIsPos) : m.compacted.HdIsPos := by
  refine ⟨map_eq_range_of_hd ?_, map_eq_range_of_hd ?_, map_eq_range_of_hd ?_⟩
  · intro i t' ht'
    obtain ⟨i0, t, ht, -, hre, rfl⟩ := getAt_compact.mp ht'
    show remap m.verts t.topo.hd = i
    rw [hd_of_map_eq_range hpos.1 ht, hre]
  · intro i t' ht'
    obtain ⟨i0, t, ht, -, hre, rfl⟩ := getAt_compact.mp ht'
    show remap m.halfs t.topo.hd = i
    rw [hd_of_map_eq_range hpos.2.1 ht, hre]
  · intro i t' ht'
    obtain ⟨i0, t, ht, -, hre, rfl⟩ := getAt_compact.mp ht'
    show remap m.faces t.topo.hd = i
    rw [hd_of_map_eq_range hpos.2.2 ht, hre]

/-- C11: on a mesh in which each entry's own handle equals its position (and the
handles stored in non-removed entries or supplied by the caller are invalid or slots
of their tables), `gc(vps, hps, fps)` returns; the tables then hold the payloads of
the previously non-removed entries, in their previous order, all non-removed; each
entry's own handle equals its position again; and every handle, the supplied ones
included, of a non-removed entry is replaced by the position of that entry and every
handle of a removed entry by an invalid one. -/
theorem gc_compacts {m : Mesh VD HD FD} (hpos : m.HdIsPos) (hin : m.RefsInRange)
    {vps hps fps : List Int} (hv : ∀ h ∈ vps, inTable m.verts h)
    (hh : ∀ h ∈ hps, inTable m.halfs h) (hf : ∀ h ∈ fps, inTable m.faces h) :
    ∃ r, m.gcWith vps hps fps = .ok r ∧
      r.mesh.verts.map (fun t => (t.data, t.exists_))
        = (m.verts.filter (fun t => t.exists_)).map (fun t => (t.data, true)) ∧
      r.mesh.halfs.map (fun t => (t.data, t.exists_))
        = (m.halfs.filter (fun t => t.exists_)).map (fun t => (t.data, true)) ∧
      r.mesh.faces.map (fun t => (t.data, t.exists_))
        = (m.faces.filter (fun t => t.exists_)).map (fun t => (t.data, true)) ∧
      r.mesh.HdIsPos ∧
      Moved m.verts r.mesh.verts (gcVertPure m) ∧ Moved m.halfs r.mesh.halfs (gcHalfPure m) ∧
      Moved m.faces r.mesh.faces (gcFacePure m) ∧
      r.vps = vps.map (remap m.verts) ∧ r.hps = hps.map (remap m.halfs) ∧
      r.fps = fps.map (remap m.faces) := by
  obtain ⟨r, hr⟩ := gcWith_total hin hv hh hf
  obtain ⟨hm, e1, e2, e3⟩ := gcWith_eq_ok hr
  have live : ∀ {T D : Type} (xs : List (Triplet T D)) (g : Triplet T D → Triplet T D),
      (∀ t, (g t).data = t.data ∧ (g t).exists_ = t.exists_) →
      ((xs.filter (fun t => t.exists_)).map g).map (fun t => (t.data, t.exists_))
        = (xs.filter (fun t => t.exists_)).map (fun t => (t.data, true)) := by
    intro T D xs g hg
    rw [List.map_map]
    apply List.map_congr_left
    intro t ht
    simp only [Function.comp_apply, (hg t).1, (hg t).2, (List.mem_filter.mp ht).2]
  refine ⟨r, hr, ?_, ?_, ?_, ?_, ?_, ?_, ?_, e1, e2, e3⟩
  · rw [hm]
    exact live m.verts (gcVertPure m) (fun t => ⟨rfl, rfl⟩)
  · rw [hm]
    exact live m.halfs (gcHalfPure m) (fun t => ⟨rfl, rfl⟩)
  · rw [hm]
    exact live m.faces (gcFacePure m) (fun t => ⟨rfl, rfl⟩)
  · rw [hm]
    exact hdIsPos_compacted hpos
  · rw [hm]
    exact moved_compact _
  · rw [hm]
    exact moved_compact _
  · rw [hm]
    exact moved_compact _

theorem gc_compacts_witness :
    ∃ r, cubeMinusVertex.gcWith [0, 1] [0, 2] [0, 1] = .ok r ∧
      r.mesh.verts.map (fun t => (t.data, t.exists_))
        = (cubeMinusVertex.verts.filter (fun t => t.exists_)).map (fun t => (t.data, true)) ∧
      r.mesh.halfs.map (fun t => (t.data, t.exists_))
        = (cubeMinusVertex.halfs.filter (fun t => t.exists_)).map (fun t => (t.data, true)) ∧
      r.mesh.faces.map (fun t => (t.data, t.exists_))
        = (cubeMinusVertex.faces.filter (fun t => t.exists_)).map (fun t => (t.data, true)) ∧
      r.mesh.HdIsPos ∧
      Moved cubeMinusVertex.verts r.mesh.verts (gcVertPure cubeMinusVertex) ∧
      Moved cubeMinusVertex.halfs r.mesh.halfs (gcHalfPure cubeMinusVertex) ∧
      Moved cubeMinusVertex.faces r.mesh.faces (gcFacePure cubeMinusVertex) ∧
      r.vps = [0, 1].map (remap cubeMinusVertex.verts) ∧
      r.hps = [0, 2].map (remap cubeMinusVertex.halfs) ∧
      r.fps = [0, 1].map (remap cubeMinusVertex.faces) :=
  gc_compacts (by unfold Mesh.HdIsPos; decide) (by unfold Mesh.RefsInRange; decide)
    (by decide) (by decide) (by decide)

end GcCompacts

section TidyLemmas

variable {VD HD FD : Type}

theorem tidy_empty : (Mesh.empty : Mesh VD HD FD).Tidy := by
  constructor <;> intro _ _ h <;> simp [Mesh.empty, getAt] at h

theorem tidy_of_step {m m' : Mesh VD HD FD} (ht : m.Tidy) (hs : TidyStep m m') : m'.Tidy := by
  constructor
  · intro v vt' hv
    obtain ⟨vt, hvt, e⟩ := hs.verts v vt' hv
    rw [e]
    exact ht.vertHd v vt hvt
  · intro f ft' hf
    obtain ⟨ft, hft, e, -⟩ := hs.faces f ft' hf
    rw [e]
    exact ht.faceHd f ft hft
  · intro f ft' hf x hx
    obtain ⟨ft, hft, -, e | e⟩ := hs.faces f ft' hf
    · rw [e] at hx
      rcases ht.faceList f ft hft x hx with h | h
      · exact Or.inl h
      · exact Or.inr (Nat.lt_of_lt_of_le h hs.halfs)
    · exact Or.inl (e x hx)

theorem tidyStep_same (m : Mesh VD HD FD) : TidyStep m m :=
  ⟨fun _ vt h => ⟨vt, h, rfl⟩, Nat.le_refl _, fun _ ft h => ⟨ft, h, rfl, Or.inl rfl⟩⟩

theorem tidyStep_chain {m m1 m2 : Mesh VD HD FD} (h1 : TidyStep m m1) (h2 : TidyStep m1 m2) :
    TidyStep m m2 := by
  constructor
  · intro v vt2 hv
    obtain ⟨vt1, hv1, e1⟩ := h2.verts v vt2 hv
    obtain ⟨vt, hv0, e0⟩ := h1.verts v vt1 hv1
    exact ⟨vt, hv0, e1.trans e0⟩
  · exact Nat.le_trans h1.halfs h2.halfs
  · intro f ft2 hf
    obtain ⟨ft1, hf1, e1, l1⟩ := h2.faces f ft2 hf
    obtain ⟨ft, hf0, e0, l0⟩ := h1.faces f ft1 hf1
    refine ⟨ft, hf0, e1.trans e0, ?_⟩
    rcases l1 with l1 | l1
    · rcases l0 with l0 | l0
      · exact Or.inl (l1.trans l0)
      · exact Or.inr (by rw [l1]; exact l0)
    · exact Or.inr l1

theorem tidy_addVertex {m : Mesh VD HD FD} (ht : m.Tidy) (vd : VD) : (m.addVertex vd).1.Tidy := by
  constructor
  · intro v vt hv
    rcases getAt_append_cases hv with h | ⟨hle, h⟩
    · exact ht.vertHd v vt h
    · obtain ⟨h0, hlt⟩ := getAt_lt_length h
      simp only [List.length_singleton, Nat.cast_one] at hlt
      have hv0 : v - (m.verts.length : Int) = 0 := by omega
      rw [hv0] at h
      simp only [getAt, lt_self_iff_false, if_false, Int.toNat_zero, List.getElem?_cons_zero,
        Except.ok.injEq] at h
      rw [← h]
      simp only
      omega
  · exact ht.faceHd
  · exact ht.faceList

theorem tidyStep_addEdge {m m' : Mesh VD HD FD} (hw : m.WF) {a b h : Int} {hd hdrev : HD}
    {merge : Bool} (hr : m.addEdge a b hd hdrev merge = .ok (m', h)) : TidyStep m m' := by
  by_cases hab : a = b
  · simp only [Mesh.addEdge, hab, if_true, Except.ok.injEq, Prod.mk.injEq] at hr
    rw [← hr.1]
    exact tidyStep_same m
  · rcases addEdge_wf_cases hw hab hr with ⟨rfl, -⟩ | ⟨-, -, -, -, -, rfl, -⟩
    · exact tidyStep_same _
    · constructor
      · intro v vt' hv
        simp only [Mesh.withNewEdge] at hv
        obtain ⟨x, hx, rfl⟩ := getAt_updAt.mp hv
        obtain ⟨y, hy, rfl⟩ := getAt_updAt.mp hx
        refine ⟨y, hy, ?_⟩
        split_ifs <;> rfl
      · simp [Mesh.withNewEdge]
      · exact fun f ft hf => ⟨ft, hf, rfl, Or.inl rfl⟩

theorem facesRemove_getAt {faces : List (Triplet FaceTopo FD)} {f g : Int}
    {ft' : Triplet FaceTopo FD} (h : getAt (facesRemove faces f) g = .ok ft') :
    ∃ ft, getAt faces g = .ok ft ∧ ft'.topo.hd = ft.topo.hd ∧
      (ft'.topo.halfedges = ft.topo.halfedges ∨ ∀ x ∈ ft'.topo.halfedges, x < 0) := by
  unfold facesRemove at h
  split_ifs at h
  · exact ⟨ft', h, rfl, Or.inl rfl⟩
  · obtain ⟨x, hx, rfl⟩ := getAt_updAt.mp h
    refine ⟨x, hx, ?_⟩
    by_cases hi : g.toNat = f.toNat
    · simp only [hi, if_true, killFaceIfLive]
      by_cases hex : x.exists_ = true
      · simp only [hex, if_true, killFace, true_and]
        right
        intro y hy
        simp only [List.mem_map] at hy
        obtain ⟨_, -, rfl⟩ := hy
        decide
      · have hsame : (if x.exists_ = true then killFace x else x) = x := by simp [hex]
        rw [hsame]
        exact ⟨rfl, Or.inl rfl⟩
    · rw [if_neg hi]
      exact ⟨rfl, Or.inl rfl⟩

theorem tidyStep_removeFace {m m' : Mesh VD HD FD} {f : Int} (hr : m.removeFace f = .ok m') :
    TidyStep m m' := by
  obtain ⟨-, rfl⟩ := removeFace_eq_ok.mp hr
  exact ⟨fun _ vt h => ⟨vt, h, rfl⟩, Nat.le_refl _, fun g ft' h => facesRemove_getAt h⟩

theorem tidyStep_removeHalf {m m' : Mesh VD HD FD} {h : Int} (hr : m.removeHalf h = .ok m') :
    TidyStep m m' := by
  rcases removeHalf_cases hr with rfl | ⟨t, t2, -, -, -, -, -, rfl⟩
  · exact tidyStep_same _
  · refine ⟨fun _ vt h => ⟨vt, h, rfl⟩, by simp [length_updAt], ?_⟩
    intro g ft' hg
    obtain ⟨ft1, h1, e1, l1⟩ := facesRemove_getAt hg
    obtain ⟨ft, h0, e0, l0⟩ := facesRemove_getAt h1
    refine ⟨ft, h0, e1.trans e0, ?_⟩
    rcases l1 with l1 | l1
    · rcases l0 with l0 | l0
      · exact Or.inl (l1.trans l0)
      · exact Or.inr (by rw [l1]; exact l0)
    · exact Or.inr l1

theorem tidyStep_removeHalfs {l : List Int} : ∀ {m m' : Mesh VD HD FD},
    removeHalfs m l = .ok m' → TidyStep m m' := by
  induction l with
  | nil =>
    intro m m' hr
    simp only [removeHalfs, Except.ok.injEq] at hr
    rw [← hr]
    exact tidyStep_same m
  | cons x rest ih =>
    intro m m' hr
    simp only [removeHalfs] at hr
    cases h1 : m.removeHalf x with
    | error e => simp [h1] at hr
    | ok m1 =>
      simp only [h1] at hr
      exact tidyStep_chain (tidyStep_removeHalf h1) (ih hr)

theorem tidyStep_updVerts {m : Mesh VD HD FD} (i : Nat)
    (f : Triplet VertTopo VD → Triplet VertTopo VD) (hf : ∀ t, (f t).topo.hd = t.topo.hd) :
    TidyStep m { m with verts := updAt m.verts i f } := by
  refine ⟨?_, Nat.le_refl _, fun _ ft h => ⟨ft, h, rfl, Or.inl rfl⟩⟩
  intro v vt' hv
  obtain ⟨x, hx, rfl⟩ := getAt_updAt.mp hv
  refine ⟨x, hx, ?_⟩
  split_ifs
  · exact hf x
  · rfl

theorem tidyStep_removeVert {m m' : Mesh VD HD FD} {v : Int} (hr : m.removeVert v = .ok m') :
    TidyStep m m' := by
  by_cases hv : Handle.invalid v = true
  · rw [removeVert_invalid m hv] at hr
    cases hr
    exact tidyStep_same m
  · cases hg : getAt m.verts v with
    | error e => simp [Mesh.removeVert, hv, hg] at hr
    | ok vt =>
      by_cases hex : vt.exists_ = true
      · obtain ⟨m1, h1, rfl⟩ := (removeVert_live_eq_ok hg hex).mp hr
        exact tidyStep_chain
          (tidyStep_chain (tidyStep_updVerts v.toNat killVert (fun _ => rfl))
            (tidyStep_removeHalfs h1))
          (tidyStep_updVerts v.toNat clearVert (fun _ => rfl))
      · have : m.removedVert v = .ok true := by
          simp only [Mesh.removedVert, hg]
          simp at hex
          simp [hex]
        rw [removeVert_removed this] at hr
        cases hr
        exact tidyStep_same m

end TidyLemmas

section TidyMore

variable {VD HD FD : Type} {T D : Type}

theorem tidy_addFace {m m' : Mesh VD HD FD} (ht : m.Tidy) {hs : List Int} {fd : FD} {f : Int}
    (hr : m.addFace hs fd = .ok (m', f)) : m'.Tidy := by
  obtain ⟨halfs, hset, rfl, rfl⟩ := addFace_eq_ok.mp hr
  obtain ⟨hlen, hrange, -⟩ := setFaces_spec hset
  have hnew : ∀ g ft, getAt (m.faces ++ [(⟨⟨(m.faces.length : Int), hs⟩, fd, true⟩ :
      Triplet FaceTopo FD)]) g = .ok ft →
      getAt m.faces g = .ok ft ∨
        (g = m.faces.length ∧ ft = ⟨⟨(m.faces.length : Int), hs⟩, fd, true⟩) := by
    intro g ft hg
    rcases getAt_append_cases hg with h | ⟨hle, h⟩
    · exact Or.inl h
    · obtain ⟨h0, hlt⟩ := getAt_lt_length h
      simp only [List.length_singleton, Nat.cast_one] at hlt
      have hv0 : g - (m.faces.length : Int) = 0 := by omega
      rw [hv0] at h
      simp only [getAt, lt_self_iff_false, if_false, Int.toNat_zero, List.getElem?_cons_zero,
        Except.ok.injEq] at h
      exact Or.inr ⟨by omega, h.symm⟩
  constructor
  · exact ht.vertHd
  · intro g ft hg
    rcases hnew g ft hg with h | ⟨rfl, rfl⟩
    · exact ht.faceHd g ft h
    · rfl
  · intro g ft hg x hx
    show x < 0 ∨ x.toNat < halfs.length
    rw [hlen]
    rcases hnew g ft hg with h | ⟨rfl, rfl⟩
    · exact ht.faceList g ft h x hx
    · exact Or.inr (hrange x hx).2

theorem tidy_addEdgesLoop [Inhabited HD] {verts : List Int} {is : List Nat} :
    ∀ {m m' : Mesh VD HD FD} {hs : List Int}, m.WF → m.Tidy →
      addEdgesLoop verts m is = .ok (m', hs) → m'.Tidy := by
  induction is with
  | nil =>
    intro m m' hs _ ht hr
    simp only [addEdgesLoop, Except.ok.injEq, Prod.mk.injEq] at hr
    rw [← hr.1]
    exact ht
  | cons i is ih =>
    intro m m' hs hw ht hr
    obtain ⟨m1, hh, rest, h1, h2, rfl⟩ := addEdgesLoop_cons.mp hr
    exact ih (wf_addEdge hw h1) (tidy_of_step ht (tidyStep_addEdge hw h1)) h2

theorem tidy_addFaceVerts [Inhabited HD] {m m' : Mesh VD HD FD} (hw : m.WF) (ht : m.Tidy)
    {vs : List Int} {autoflip : Bool} {fd : FD} {f : Int}
    (hr : m.addFaceVerts vs autoflip fd = .ok (m', f)) : m'.Tidy := by
  obtain ⟨-, w, m1, hs, -, hloop, hface⟩ := addFaceVerts_eq_ok.mp hr
  exact tidy_addFace (tidy_addEdgesLoop hw ht hloop) hface

theorem remap_inTable (xs : List (Triplet T D)) (g : Triplet T D → Triplet T D) (h : Int) :
    inTable ((xs.filter (fun t => t.exists_)).map g) (remap xs h) := by
  have := remap_lt xs h
  by_cases h0 : remap xs h < 0
  · exact Or.inl h0
  · right
    simp only [List.length_map]
    omega

theorem tidy_compacted {m : Mesh VD HD FD} (ht : m.Tidy) : m.compacted.Tidy := by
  constructor
  · intro i t' ht'
    obtain ⟨i0, t, h0, -, hre, rfl⟩ := getAt_compact.mp ht'
    show remap m.verts t.topo.hd = i
    rw [ht.vertHd i0 t h0, hre]
  · intro i t' ht'
    obtain ⟨i0, t, h0, -, hre, rfl⟩ := getAt_compact.mp ht'
    show remap m.faces t.topo.hd = i
    rw [ht.faceHd i0 t h0, hre]
  · intro i t' ht' x hx
    obtain ⟨i0, t, h0, -, hre, rfl⟩ := getAt_compact.mp ht'
    obtain ⟨y, -, rfl, -⟩ := mem_gc_list.mp hx
    exact remap_inTable m.halfs (gcHalfPure m) y

/-- Every mesh reached from the empty one is tidy. -/
theorem reachable_tidy [Inhabited HD] {m : Mesh VD HD FD} (hr : Reachable m) : m.Tidy := by
  induction hr with
  | empty => exact tidy_empty
  | addVertex vd _ ih => exact tidy_addVertex ih vd
  | addEdge a b hd hdrev merge hm h ih =>
    exact tidy_of_step ih (tidyStep_addEdge (reachable_wf hm) h)
  | addFace hs fd _ h ih => exact tidy_addFace ih h
  | addFaceVerts vs autoflip fd hm h ih => exact tidy_addFaceVerts (reachable_wf hm) ih h
  | removeFace f _ h ih => exact tidy_of_step ih (tidyStep_removeFace h)
  | removeHalf x _ h ih => exact tidy_of_step ih (tidyStep_removeHalf h)
  | removeVert v _ h ih => exact tidy_of_step ih (tidyStep_removeVert h)
  | gc vps hps fps _ h ih =>
    rw [(gcWith_eq_ok h).1]
    exact tidy_compacted ih

/-- In a well-formed, tidy mesh every stored handle is invalid or a slot. -/
theorem refsInRange_of_wf {m : Mesh VD HD FD} (hw : m.WF) (ht : m.Tidy) : m.RefsInRange := by
  have inr : ∀ {α : Type} {xs : List α} {h : Int} {x : α}, getAt xs h = .ok x → inTable xs h :=
    fun hx => Or.inr (getAt_isOk_iff.mp ⟨_, hx⟩).2
  have lt : ∀ {α : Type} {xs : List α} {h : Int}, h < (xs.length : Int) → inTable xs h := by
    intro α xs h hlt
    by_cases h0 : h < 0
    · exact Or.inl h0
    · exact Or.inr (by omega)
  refine ⟨?_, ?_, ?_⟩
  · intro t hmem _
    obtain ⟨v, hv⟩ := mem_iff_getAt.mp hmem
    refine ⟨?_, ?_⟩
    · rw [ht.vertHd v t hv]
      exact inr hv
    · intro x hx
      obtain ⟨tx, htx⟩ := hw.listInRange v t hv x hx
      exact inr htx
  · intro t hmem hex
    obtain ⟨h, hh⟩ := mem_iff_getAt.mp hmem
    obtain ⟨t2, ht2, -⟩ := hw.pairing h t hh hex
    refine ⟨?_, lt (hw.endsInRange h t hh hex).1, lt (hw.endsInRange h t hh hex).2, inr ht2,
      lt (hw.faceInRange h t hh hex)⟩
    rw [hw.halfHd h t hh]
    exact inr hh
  · intro t hmem _
    obtain ⟨f, hf⟩ := mem_iff_getAt.mp hmem
    refine ⟨?_, ht.faceList f t hf⟩
    rw [ht.faceHd f t hf]
    exact inr hf

end TidyMore

section GcIdem

variable {VD HD FD : Type} {T D : Type}

theorem rank_all_live {xs : List (Triplet T D)} (hall : ∀ t ∈ xs, t.exists_ = true) {i : Nat}
    (hi : i ≤ xs.length) : rank xs i = i := by
  unfold rank liveCount
  rw [List.filter_eq_self.mpr (fun t ht => hall t (List.mem_of_mem_take ht))]
  simp [hi]

theorem remap_all_live {xs : List (Triplet T D)} (hall : ∀ t ∈ xs, t.exists_ = true) {h : Int}
    (hin : inTable xs h) : remap xs h = h := by
  rcases hin with hn | hlt
  · exact remap_neg xs hn
  · by_cases hn : h < 0
    · exact remap_neg xs hn
    · have hx : xs[h.toNat]? = some xs[h.toNat] := List.getElem?_eq_getElem hlt
      have hg : getAt xs h = .ok xs[h.toNat] := getAt_eq_ok.mpr ⟨by omega, hx⟩
      rw [remap_live xs hg (hall _ (List.getElem_mem hlt)), rank_all_live hall (Nat.le_of_lt hlt)]
      omega

theorem gc_list_fix {ys : List (Triplet T D)} (hall : ∀ t ∈ ys, t.exists_ = true)
    {l : List Int} (hl : ∀ x ∈ l, 0 ≤ x ∧ inTable ys x) :
    (l.map (remap ys)).filter (fun h => Handle.valid h) = l := by
  have h1 : l.map (remap ys) = l := by
    conv_rhs => rw [← List.map_id l]
    exact List.map_congr_left (fun x hx => remap_all_live hall (hl x hx).2)
  rw [h1, List.filter_eq_self]
  intro x hx
  simpa [Handle.valid] using (hl x hx).1

theorem compacted_all_live (xs : List (Triplet T D)) (g : Triplet T D → Triplet T D)
    (hg : ∀ t, (g t).exists_ = t.exists_) :
    ∀ t ∈ (xs.filter (fun t => t.exists_)).map g, t.exists_ = true := by
  intro t ht
  obtain ⟨t0, h0, rfl⟩ := List.mem_map.mp ht
  rw [hg]
  exact (List.mem_filter.mp h0).2

/-- Compacting twice is compacting once. -/
theorem compacted_idem (m : Mesh VD HD FD) : m.compacted.compacted = m.compacted := by
  have lv : ∀ t ∈ m.compacted.verts, t.exists_ = true :=
    compacted_all_live m.verts (gcVertPure m) (fun _ => rfl)
  have lh : ∀ t ∈ m.compacted.halfs, t.exists_ = true :=
    compacted_all_live m.halfs (gcHalfPure m) (fun _ => rfl)
  have lf : ∀ t ∈ m.compacted.faces, t.exists_ = true :=
    compacted_all_live m.faces (gcFacePure m) (fun _ => rfl)
  have fv : m.compacted.verts.filter (fun t => t.exists_) = m.compacted.verts :=
    List.filter_eq_self.mpr lv
  have fh : m.compacted.halfs.filter (fun t => t.exists_) = m.compacted.halfs :=
    List.filter_eq_self.mpr lh
  have ff : m.compacted.faces.filter (fun t => t.exists_) = m.compacted.faces :=
    List.filter_eq_self.mpr lf
  have hlist : ∀ l : List Int, ∀ x ∈ (l.map (remap m.halfs)).filter (fun h => Handle.valid h),
      0 ≤ x ∧ inTable m.compacted.halfs x := by
    intro l x hx
    obtain ⟨y, -, rfl, h0⟩ := mem_gc_list.mp hx
    exact ⟨h0, remap_inTable m.halfs (gcHalfPure m) y⟩
  have fixmap : ∀ {α : Type} (l : List α) (f : α → α), (∀ x ∈ l, f x = x) → l.map f = l := by
    intro α l f hf
    conv_rhs => rw [← List.map_id l]
    exact List.map_congr_left hf
  have e1 : m.compacted.compacted.verts = m.compacted.verts := by
    show (m.compacted.verts.filter (fun t => t.exists_)).map (gcVertPure m.compacted) = _
    rw [fv]
    apply fixmap
    intro t' ht'
    obtain ⟨t, -, rfl⟩ := List.mem_map.mp ht'
    simp only [gcVertPure]
    rw [remap_all_live lv (remap_inTable m.verts (gcVertPure m) t.topo.hd),
      gc_list_fix lh (hlist t.topo.halfedges)]
  have e2 : m.compacted.compacted.halfs = m.compacted.halfs := by
    show (m.compacted.halfs.filter (fun t => t.exists_)).map (gcHalfPure m.compacted) = _
    rw [fh]
    apply fixmap
    intro t' ht'
    obtain ⟨t, -, rfl⟩ := List.mem_map.mp ht'
    simp only [gcHalfPure]
    rw [remap_all_live lh (remap_inTable m.halfs (gcHalfPure m) t.topo.hd),
      remap_all_live lv (remap_inTable m.verts (gcVertPure m) t.topo.efrom),
      remap_all_live lv (remap_inTable m.verts (gcVertPure m) t.topo.eto),
      remap_all_live lh (remap_inTable m.halfs (gcHalfPure m) t.topo.opposite),
      remap_all_live lf (remap_inTable m.faces (gcFacePure m) t.topo.face)]
  have e3 : m.compacted.compacted.faces = m.compacted.faces := by
    show (m.compacted.faces.filter (fun t => t.exists_)).map (gcFacePure m.compacted) = _
    rw [ff]
    apply fixmap
    intro t' ht'
    obtain ⟨t, -, rfl⟩ := List.mem_map.mp ht'
    simp only [gcFacePure]
    rw [remap_all_live lf (remap_inTable m.faces (gcFacePure m) t.topo.hd),
      gc_list_fix lh (hlist t.topo.halfedges)]
  calc m.compacted.compacted
      = ⟨m.compacted.compacted.verts, m.compacted.compacted.halfs,
          m.compacted.compacted.faces⟩ := rfl
    _ = ⟨m.compacted.verts, m.compacted.halfs, m.compacted.faces⟩ := by rw [e1, e2, e3]

/-- Every handle of a compacted mesh is invalid or a slot. -/
theorem refsInRange_compacted (m : Mesh VD HD FD) : m.compacted.RefsInRange := by
  have hlist : ∀ l : List Int, ∀ x ∈ (l.map (remap m.halfs)).filter (fun h => Handle.valid h),
      inTable m.compacted.halfs x := by
    intro l x hx
    obtain ⟨y, -, rfl, -⟩ := mem_gc_list.mp hx
    exact remap_inTable m.halfs (gcHalfPure m) y
  refine ⟨?_, ?_, ?_⟩
  · intro t' ht' _
    obtain ⟨t, -, rfl⟩ := List.mem_map.mp ht'
    exact ⟨remap_inTable m.verts (gcVertPure m) _, hlist _⟩
  · intro t' ht' _
    obtain ⟨t, -, rfl⟩ := List.mem_map.mp ht'
    exact ⟨remap_inTable m.halfs (gcHalfPure m) _, remap_inTable m.verts (gcVertPure m) _,
      remap_inTable m.verts (gcVertPure m) _, remap_inTable m.halfs (gcHalfPure m) _,
      remap_inTable m.faces (gcFacePure m) _⟩
  · intro t' ht' _
    obtain ⟨t, -, rfl⟩ := List.mem_map.mp ht'
    exact ⟨remap_inTable m.faces (gcFacePure m) _, hlist _⟩

theorem gc_eq_ok {m m1 : Mesh VD HD FD} (h : m.gc = .ok m1) : m1 = m.compacted := by
  unfold Mesh.gc at h
  cases hg : m.gcWith [] [] [] with
  | error e => simp [hg] at h
  | ok r =>
    simp only [hg, Except.ok.injEq] at h
    rw [← h]
    exact (gcWith_eq_ok hg).1

theorem gc_total {m : Mesh VD HD FD} (hin : m.RefsInRange) : m.gc = .ok m.compacted := by
  obtain ⟨r, hr⟩ := gcWith_total hin
    (show ∀ h ∈ ([] : List Int), inTable m.verts h by simp)
    (show ∀ h ∈ ([] : List Int), inTable m.halfs h by simp)
    (show ∀ h ∈ ([] : List Int), inTable m.faces h by simp)
  unfold Mesh.gc
  simp only [hr, (gcWith_eq_ok hr).1]

/-- C12: on every mesh reached from the empty one by returning calls, `gc()`
returns a mesh `m1`, and `gc()` on `m1` returns `m1` again: the same vertex,
half-edge and face tables, topology, payloads and `exists` flags included. -/
theorem gc_idempotent [Inhabited HD] {m : Mesh VD HD FD} (hr : Reachable m) :
    ∃ m1, m.gc = .ok m1 ∧ m1.gc = .ok m1 := by
  refine ⟨m.compacted, gc_total (refsInRange_of_wf (reachable_wf hr) (reachable_tidy hr)), ?_⟩
  have := gc_total (refsInRange_compacted m)
  rw [compacted_idem] at this
  exact this

theorem gc_idempotent_witness :
    ∃ m1, cubeMinusVertex.gc = .ok m1 ∧ m1.gc = .ok m1 :=
  gc_idempotent reachable_cubeMinusVertex

end GcIdem

/-! ## `unite` (C13) -/

section UniteHelpers

variable {VD HD FD : Type}

/-- A fixed-point-free involution of `0 .. n-1` moves half of the indices up. -/
theorem involution_count (n : Nat) (opp : Nat → Nat) (hlt : ∀ j, j < n → opp j < n)
    (hinv : ∀ j, j < n → opp (opp j) = j) (hne : ∀ j, j < n → opp j ≠ j) :
    2 * ((List.range n).filter (fun j => decide (j < opp j))).length = n := by
  have hpart : ((List.range n).filter (fun j => decide (j < opp j))).length
      + ((List.range n).filter (fun j => decide (opp j < j))).length = n := by
    have h1 := List.length_eq_countP_add_countP (fun j => decide (j < opp j)) (List.range n)
    rw [List.length_range] at h1
    rw [← List.countP_eq_length_filter, ← List.countP_eq_length_filter]
    have h2 : List.countP (fun j => decide (¬ (decide (j < opp j) = true))) (List.range n)
        = List.countP (fun j => decide (opp j < j)) (List.range n) := by
      apply List.countP_congr
      intro j hj
      have hj' := List.mem_range.mp hj
      have := hne j hj'
      simp only [decide_eq_true_eq, decide_not, Bool.not_eq_true', decide_eq_false_iff_not]
      omega
    omega
  have hperm : ((List.range n).filter (fun j => decide (opp j < j))).Perm
      (((List.range n).filter (fun j => decide (j < opp j))).map opp) := by
    have nd1 : ((List.range n).filter (fun j => decide (opp j < j))).Nodup :=
      (List.nodup_range n).filter _
    have nd2 : (((List.range n).filter (fun j => decide (j < opp j))).map opp).Nodup := by
      apply List.Nodup.map_on _ ((List.nodup_range n).filter _)
      intro x hx y hy hxy
      have hx' := List.mem_range.mp (List.mem_filter.mp hx).1
      have hy' := List.mem_range.mp (List.mem_filter.mp hy).1
      rw [← hinv x hx', ← hinv y hy', hxy]
    apply (List.perm_ext_iff_of_nodup nd1 nd2).mpr
    intro x
    simp only [List.mem_filter, List.mem_range, decide_eq_true_eq, List.mem_map]
    constructor
    · rintro ⟨hx, hox⟩
      exact ⟨opp x, ⟨hlt x hx, by rw [hinv x hx]; exact hox⟩, hinv x hx⟩
    · rintro ⟨j, ⟨hj, hjo⟩, rfl⟩
      exact ⟨hlt j hj, by rw [hinv j hj]; exact hjo⟩
  have := hperm.length_eq
  rw [List.length_map] at this
  omega

theorem setAt_eq_ok {table table' : List Int} {h v : Int} :
    setAt table h v = .ok table' ↔
      0 ≤ h ∧ h.toNat < table.length ∧ table' = table.set h.toNat v := by
  unfold setAt modifyAt
  by_cases h0 : h < 0
  · simp only [h0, if_true]
    constructor
    · intro hh
      cases hh
    · rintro ⟨h1, -⟩
      omega
  · simp only [h0, if_false]
    by_cases hlt : h.toNat < table.length
    · rw [List.getElem?_eq_getElem hlt]
      simp only [Except.ok.injEq]
      constructor
      · intro hh
        exact ⟨by omega, hlt, hh.symm⟩
      · rintro ⟨-, -, hh⟩
        exact hh.symm
    · rw [List.getElem?_eq_none (Nat.le_of_not_lt hlt)]
      simp only
      constructor
      · intro hh
        cases hh
      · rintro ⟨-, h1, -⟩
        exact absurd h1 hlt

theorem liveIn_eq_true {T D : Type} {xs : List (Triplet T D)} {h : Int} :
    liveIn xs h = true ↔ ∃ t, getAt xs h = .ok t ∧ t.exists_ = true := by
  unfold liveIn
  cases hg : getAt xs h with
  | error e => simp
  | ok x => simp

end UniteHelpers

section UniteVerts

variable {VD HD FD : Type}

theorem copiedVerts_length (n : Nat) (vs : List (Triplet VertTopo VD)) :
    (copiedVerts n vs).length = vs.length := by
  induction vs generalizing n with
  | nil => rfl
  | cons v rest ih => simp [copiedVerts, ih]

theorem copiedVerts_mem {n : Nat} {vs : List (Triplet VertTopo VD)}
    {t : Triplet VertTopo VD} (ht : t ∈ copiedVerts n vs) :
    t.exists_ = true ∧ t.topo.halfedges = [] := by
  induction vs generalizing n with
  | nil => simp [copiedVerts] at ht
  | cons v rest ih =>
    simp only [copiedVerts, List.mem_cons] at ht
    rcases ht with rfl | ht
    · exact ⟨rfl, rfl⟩
    · exact ih ht

theorem uniteVerts_spec : ∀ (vs : List (Triplet VertTopo VD)) (c : Nat)
    (s : Mesh VD HD FD) (vtable : List Int),
    (∀ k v, vs[k]? = some v → v.topo.hd = ((c + k : Nat) : Int)) →
    c + vs.length ≤ vtable.length →
    ∃ vtable', uniteVerts s vtable vs
        = .ok ({ s with verts := s.verts ++ copiedVerts s.verts.length vs }, vtable') ∧
      vtable'.length = vtable.length ∧
      (∀ k, k < vs.length → vtable'[c + k]? = some ((s.verts.length + k : Nat) : Int)) ∧
      ∀ j, j < c → vtable'[j]? = vtable[j]? := by
  intro vs
  induction vs with
  | nil =>
    intro c s vtable _ _
    exact ⟨vtable, by simp [uniteVerts, copiedVerts], rfl, by simp, fun _ _ => rfl⟩
  | cons v rest ih =>
    intro c s vtable hhd hlen
    have hv : v.topo.hd = (c : Int) := by
      have := hhd 0 v (by simp)
      simpa using this
    simp only [List.length_cons] at hlen
    have hset : setAt vtable v.topo.hd (s.addVertex v.data).2
        = .ok (vtable.set c (s.verts.length : Int)) := by
      rw [setAt_eq_ok, hv]
      refine ⟨by omega, by simp; omega, ?_⟩
      simp [Mesh.addVertex]
    obtain ⟨vtable', hrun, hl, hnew, hold⟩ := ih (c + 1) (s.addVertex v.data).1
      (vtable.set c (s.verts.length : Int))
      (by
        intro k w hk
        have := hhd (k + 1) w (by simpa using hk)
        rw [this]
        congr 1
        omega)
      (by simp only [List.length_set]; omega)
    refine ⟨vtable', ?_, ?_, ?_, ?_⟩
    · simp only [uniteVerts, hset, hrun]
      simp [Mesh.addVertex, copiedVerts, List.append_assoc]
    · rw [hl, List.length_set]
    · intro k hk
      cases k with
      | zero =>
        simp only [Nat.add_zero]
        rw [hold c (by omega), List.getElem?_set_self (by omega)]
      | succ k =>
        have := hnew k (by simpa using hk)
        rw [show c + (k + 1) = c + 1 + k by omega, this]
        simp only [Mesh.addVertex, List.length_append, List.length_singleton]
        congr 2
        omega
    · intro j hj
      rw [hold j (by omega), List.getElem?_set_ne (by omega)]

end UniteVerts

section UniteEdges

variable {VD HD FD : Type}

theorem findEdge_total_live {m : Mesh VD HD FD} (hw : m.WF) {a : Int}
    {va : Triplet VertTopo VD} (hva : getAt m.verts a = .ok va)
    (hlive : ∀ x ∈ va.topo.halfedges, ∃ t, getAt m.halfs x = .ok t ∧ t.exists_ = true)
    (b : Int) : ∃ f, m.findEdge a b = .ok f := by
  have hall : ∀ x ∈ va.topo.halfedges, ∃ t, getAt m.halfs x = .ok t ∧ t.topo.efrom = a := by
    intro x hx
    obtain ⟨t, ht, hex⟩ := hlive x hx
    exact ⟨t, ht, hw.listFrom a va hva x hx t ht hex⟩
  obtain ⟨f, hf⟩ : ∃ f, findEdgeLoop m.halfs a b va.topo.halfedges = .ok f :=
    findEdgeLoop_total hall
  exact ⟨f, findEdge_eq_ok.mpr ⟨va, hva, hf⟩⟩

/-- When `findEdge(a, b)` returns the invalid handle, no non-removed half-edge goes
from `a` to `b`. -/
theorem findEdge_none_no_edge {m : Mesh VD HD FD} (hw : m.WF) {a b : Int} (ha : 0 ≤ a)
    (hr : m.findEdge a b = .ok Handle.none) {e : Int} {t : Triplet HalfTopo HD}
    (ht : getAt m.halfs e = .ok t) (hex : t.exists_ = true) (hfrom : t.topo.efrom = a) :
    t.topo.eto ≠ b := by
  obtain ⟨vt, hvt, hin⟩ := hw.inList e t ht hex (by rw [hfrom]; exact ha)
  rw [hfrom] at hvt
  obtain ⟨vt', hvt', hloop⟩ := findEdge_eq_ok.mp hr
  rw [hvt] at hvt'
  cases hvt'
  rcases findEdgeLoop_spec hloop with ⟨-, hall⟩ | ⟨pre, post, t', -, ht', -⟩
  · obtain ⟨t2, ht2, -, hne⟩ := hall e hin
    rw [ht] at ht2
    cases ht2
    exact hne
  · have := (getAt_lt_length ht').1
    exact absurd this (by decide)

theorem upCount_succ (m : Mesh VD HD FD) (k : Nat) :
    upCount m (k + 1) = upCount m k + if (k : Int) < oppAt m k then 1 else 0 := by
  unfold upCount
  rw [List.range_succ, List.filter_append, List.length_append]
  congr 1
  by_cases h : (k : Int) < oppAt m k
  · simp [h]
  · simp [h]

theorem oppAt_eq {m : Mesh VD HD FD} {k : Nat} {h : Triplet HalfTopo HD}
    (hk : getAt m.halfs (k : Int) = .ok h) : oppAt m k = h.topo.opposite := by
  have := (getAt_eq_ok.mp hk).2
  simp only [Int.toNat_ofNat] at this
  simp [oppAt, this]

theorem mem_updAt {α : Type} {xs : List α} {i : Nat} {f : α → α} {P : α → Prop}
    (hP : ∀ x ∈ xs, P x) (hf : ∀ x, P x → P (f x)) : ∀ y ∈ updAt xs i f, P y := by
  intro y hy
  obtain ⟨j, hj⟩ := List.mem_iff_getElem?.mp hy
  rw [getElem?_updAt] at hj
  split_ifs at hj
  · obtain ⟨x, hx, rfl⟩ := Option.map_eq_some'.mp hj
    exact hf x (hP x (List.mem_iff_getElem?.mpr ⟨j, hx⟩))
  · exact hP y (List.mem_iff_getElem?.mpr ⟨j, hj⟩)

end UniteEdges

section UniteStep

variable {VD HD FD : Type}

theorem getAt_set_self {α : Type} {xs : List α} {k : Nat} (hk : k < xs.length) (v : α) :
    getAt (xs.set k v) (k : Int) = .ok v := by
  rw [getAt_eq_ok]
  exact ⟨by omega, by simp [List.getElem?_set_self hk]⟩

theorem getAt_set_ne {α : Type} (xs : List α) {k : Nat} {j : Int} (v : α) (hne : j ≠ (k : Int)) :
    getAt (xs.set k v) j = getAt xs j := by
  unfold getAt
  by_cases hj : j < 0
  · simp [hj]
  · simp only [hj, if_false]
    rw [List.getElem?_set_ne (by omega)]

/-- One round of the second loop of `unite`. -/
theorem uniteHalfs_step {s0 m s : Mesh VD HD FD} {vtable htable : List Int} {k : Nat}
    {h : Triplet HalfTopo HD} (hs0 : s0.WF) (src : UniteSrc m)
    (hvt : ∀ j : Int, 0 ≤ j → j < m.verts.length →
      getAt vtable j = .ok ((s0.verts.length : Int) + j))
    (st : UniteState s0 m s k htable) (hk : getAt m.halfs (k : Int) = .ok h)
    (rest : List (Triplet HalfTopo HD)) :
    ∃ s1 htable1,
      uniteHalfs m vtable s htable (h :: rest) = uniteHalfs m vtable s1 htable1 rest ∧
      UniteState s0 m s1 (k + 1) htable1 := by
  obtain ⟨hf0, hflt, ht0, htlt, hne⟩ := src.ends k h hk
  obtain ⟨ho, hho, hoo, hofrom, hoto⟩ := src.opp k h hk
  have hhd := src.hd k h hk
  obtain ⟨newV, hV, hVlen, hVlive⟩ := st.verts
  obtain ⟨newH, hH, hHlen, hHlive⟩ := st.halfs
  have hslen : s.verts.length = s0.verts.length + m.verts.length := by
    rw [hV, List.length_append, hVlen]
  have hab : (s0.verts.length : Int) + h.topo.efrom ≠ (s0.verts.length : Int) + h.topo.eto := by
    omega
  have ha0 : (0 : Int) ≤ (s0.verts.length : Int) + h.topo.efrom := by omega
  have hb0 : (0 : Int) ≤ (s0.verts.length : Int) + h.topo.eto := by omega
  have halt : ((s0.verts.length : Int) + h.topo.efrom).toNat < s.verts.length := by omega
  have hblt : ((s0.verts.length : Int) + h.topo.eto).toNat < s.verts.length := by omega
  obtain ⟨va, hva⟩ := getAt_isOk_iff.mpr ⟨ha0, halt⟩
  obtain ⟨vb, hvb⟩ := getAt_isOk_iff.mpr ⟨hb0, hblt⟩
  obtain ⟨f1, h1⟩ := findEdge_total_live st.wf hva (st.lists _ va hva (by omega))
    ((s0.verts.length : Int) + h.topo.eto)
  obtain ⟨f2, h2⟩ := findEdge_total_live st.wf hvb (st.lists _ vb hvb (by omega))
    ((s0.verts.length : Int) + h.topo.efrom)
  have hklt : k < m.halfs.length := by
    have := (getAt_lt_length hk).2
    omega
  have hsetk : ∀ e, setAt htable h.topo.hd e = .ok (htable.set k e) := by
    intro e
    rw [hhd, setAt_eq_ok]
    exact ⟨by omega, by rw [st.tableLen]; simpa using hklt, by simp⟩
  have hoppne : h.topo.opposite ≠ (k : Int) := by
    intro hc
    rw [hc, hk] at hho
    cases hho
    exact hne hofrom
  rcases findEdge_pair st.wf hab h1 h2 with
    ⟨rfl, rfl⟩ | ⟨t1, t2, g1, g2, e1, e2, fa, fb, -, -, o1, o2⟩
  · -- both scans find nothing: a new pair of half-edges
    have hadd : s.addEdge ((s0.verts.length : Int) + h.topo.efrom)
        ((s0.verts.length : Int) + h.topo.eto) h.data ho.data true
        = .ok (s.withNewEdge ((s0.verts.length : Int) + h.topo.efrom)
            ((s0.verts.length : Int) + h.topo.eto) h.data ho.data, (s.halfs.length : Int)) :=
      addEdge_created _ _ hab ha0 halt hb0 hblt (fun _ => h1) (fun _ => h2)
    have hup : (k : Int) < h.topo.opposite := by
      by_contra hc
      have hlt : h.topo.opposite < (k : Int) := by omega
      obtain ⟨e, t, -, ht, hex, -, hfrom, hto⟩ := st.done _ ho hho hlt
      rw [hofrom] at hfrom
      rw [hoto] at hto
      exact findEdge_none_no_edge st.wf hb0 h2 ht hex hfrom hto
    refine ⟨s.withNewEdge ((s0.verts.length : Int) + h.topo.efrom)
      ((s0.verts.length : Int) + h.topo.eto) h.data ho.data,
      htable.set k (s.halfs.length : Int), ?_, ?_⟩
    · simp only [uniteHalfs, hvt _ hf0 hflt, hvt _ ht0 htlt, hho, hadd, hsetk]
    · constructor
      · exact wf_withNewEdge st.wf _ _ ha0 halt hb0 hblt hab
      · refine ⟨updAt (updAt newV h.topo.efrom.toNat (pushOut (s.halfs.length : Int)))
          h.topo.eto.toNat (pushOut ((s.halfs.length : Int) + 1)), ?_, by simp [hVlen], ?_⟩
        · simp only [Mesh.withNewEdge]
          have la : ((s0.verts.length : Int) + h.topo.efrom).toNat
              = s0.verts.length + h.topo.efrom.toNat := by omega
          have lb : ((s0.verts.length : Int) + h.topo.eto).toNat
              = s0.verts.length + h.topo.eto.toNat := by omega
          rw [la, lb, hV, updAt_append_right, updAt_append_right]
        · apply mem_updAt
          · apply mem_updAt hVlive
            intro x hx
            exact hx
          · intro x hx
            exact hx
      · refine ⟨newH ++ [⟨⟨(s.halfs.length : Int), (s0.verts.length : Int) + h.topo.efrom,
            (s0.verts.length : Int) + h.topo.eto, (s.halfs.length : Int) + 1, Handle.none⟩,
              h.data, true⟩,
          ⟨⟨(s.halfs.length : Int) + 1, (s0.verts.length : Int) + h.topo.eto,
            (s0.verts.length : Int) + h.topo.efrom, (s.halfs.length : Int), Handle.none⟩,
              ho.data, true⟩], ?_, ?_, ?_⟩
        · simp only [Mesh.withNewEdge, hH, List.append_assoc]
        · rw [List.length_append, hHlen, upCount_succ, oppAt_eq hk, if_pos hup]
          simp
          omega
        · intro t ht
          rcases List.mem_append.mp ht with h' | h'
          · exact hHlive t h'
          · simp only [List.mem_cons, List.mem_singleton, List.not_mem_nil, or_false] at h'
            rcases h' with rfl | rfl <;> rfl
      · exact st.faces
      · intro v vt' hv hge x hx
        obtain ⟨vt, hvt', -, -, -, hl, -⟩ := (getAt_verts_withNewEdge ha0 hb0).mp hv
        rw [hl] at hx
        rcases List.mem_append.mp hx with hx | hx
        · rcases List.mem_append.mp hx with hx | hx
          · obtain ⟨t, ht, hex⟩ := st.lists v vt hvt' hge x hx
            exact ⟨t, getAt_halfs_withNewEdge.mpr (Or.inl ht), hex⟩
          · split_ifs at hx
            · simp only [List.mem_singleton] at hx
              exact ⟨_, getAt_halfs_withNewEdge.mpr (Or.inr (Or.inl ⟨hx, rfl⟩)), rfl⟩
            · simp at hx
        · split_ifs at hx
          · simp only [List.mem_singleton] at hx
            exact ⟨_, getAt_halfs_withNewEdge.mpr (Or.inr (Or.inr ⟨hx, rfl⟩)), rfl⟩
          · simp at hx
      · rw [List.length_set]
        exact st.tableLen
      · intro j tj hj hjlt
        by_cases hjk : j = (k : Int)
        · subst hjk
          rw [hk] at hj
          cases hj
          refine ⟨(s.halfs.length : Int), _, getAt_set_self (by rw [st.tableLen]; exact hklt) _,
            getAt_halfs_withNewEdge.mpr (Or.inr (Or.inl ⟨rfl, rfl⟩)), rfl, ?_, rfl, rfl⟩
          rw [hH, List.length_append]
          omega
        · obtain ⟨e, t, he, ht, hex, hge, hfrom, hto⟩ := st.done j tj hj (by push_cast at hjlt; omega)
          exact ⟨e, t, by rw [getAt_set_ne _ _ hjk]; exact he,
            getAt_halfs_withNewEdge.mpr (Or.inl ht), hex, hge, hfrom, hto⟩
      · intro e t ht hge
        rcases getAt_halfs_withNewEdge.mp ht with h' | ⟨-, rfl⟩ | ⟨-, rfl⟩
        · obtain ⟨j, tj, hj, hor, hfrom, hto⟩ := st.only e t h' hge
          refine ⟨j, tj, hj, ?_, hfrom, hto⟩
          push_cast
          omega
        · exact ⟨k, h, hk, Or.inl (by push_cast; omega), rfl, rfl⟩
        · refine ⟨h.topo.opposite, ho, hho, Or.inr (by rw [hoo]; push_cast; omega), ?_, ?_⟩
          · show (s0.verts.length : Int) + h.topo.eto = s0.verts.length + ho.topo.efrom
            rw [hofrom]
          · show (s0.verts.length : Int) + h.topo.efrom = s0.verts.length + ho.topo.eto
            rw [hoto]
  · -- both scans find the pair made for the opposite half-edge
    have hadd : s.addEdge ((s0.verts.length : Int) + h.topo.efrom)
        ((s0.verts.length : Int) + h.topo.eto) h.data ho.data true = .ok (s, f1) :=
      addEdge_found hab h1 h2 g1 g2 o1 o2
    have hge1 : (s0.halfs.length : Int) ≤ f1 := by
      by_contra hc
      rw [hH] at g1
      rcases getAt_append_cases g1 with g | ⟨g, -⟩
      · have := (hs0.endsInRange f1 t1 g e1).1
        omega
      · omega
    have hdown : ¬ (k : Int) < h.topo.opposite := by
      obtain ⟨j, tj, hj, hor, hfrom, hto⟩ := st.only f1 t1 g1 hge1
      have hjk : j = (k : Int) := src.nopar j k tj h hj hk (by omega) (by omega)
      subst hjk
      rw [hk] at hj
      cases hj
      omega
    refine ⟨s, htable.set k f1, ?_, ?_⟩
    · simp only [uniteHalfs, hvt _ hf0 hflt, hvt _ ht0 htlt, hho, hadd, hsetk]
    · constructor
      · exact st.wf
      · exact st.verts
      · refine ⟨newH, hH, ?_, hHlive⟩
        rw [hHlen, upCount_succ, oppAt_eq hk, if_neg hdown]
        rfl
      · exact st.faces
      · exact st.lists
      · rw [List.length_set]
        exact st.tableLen
      · intro j tj hj hjlt
        by_cases hjk : j = (k : Int)
        · subst hjk
          rw [hk] at hj
          cases hj
          exact ⟨f1, t1, getAt_set_self (by rw [st.tableLen]; exact hklt) _, g1, e1, hge1,
            fa, fb⟩
        · obtain ⟨e, t, he, ht, hex, hge, hfrom, hto⟩ := st.done j tj hj (by push_cast at hjlt; omega)
          exact ⟨e, t, by rw [getAt_set_ne _ _ hjk]; exact he, ht, hex, hge, hfrom, hto⟩
      · intro e t ht hge
        obtain ⟨j, tj, hj, hor, hfrom, hto⟩ := st.only e t ht hge
        refine ⟨j, tj, hj, ?_, hfrom, hto⟩
        push_cast
        omega

end UniteStep

section UniteLoops

variable {VD HD FD : Type}

theorem wf_copiedVerts : ∀ (vs : List (Triplet VertTopo VD)) {s : Mesh VD HD FD}, s.WF →
    ({ s with verts := s.verts ++ copiedVerts s.verts.length vs } : Mesh VD HD FD).WF := by
  intro vs
  induction vs with
  | nil =>
    intro s hw
    simpa [copiedVerts] using hw
  | cons v rest ih =>
    intro s hw
    have := ih (wf_addVertex hw v.data)
    simpa [Mesh.addVertex, copiedVerts, List.append_assoc] using this

theorem uniteSrc_of {m : Mesh VD HD FD} (hm : m.WellFormed) (hnr : m.NoRemoved)
    (hnp : m.NoParallel) : UniteSrc m := by
  have hlive : ∀ j tj, getAt m.halfs j = .ok tj → tj.exists_ = true :=
    fun j tj hj => hnr.2.1 tj (mem_iff_getAt.mpr ⟨j, hj⟩)
  constructor
  · exact hnr
  · intro k v hk
    exact hm.tidy.vertHd k v (getAt_eq_ok.mpr ⟨by omega, by simpa using hk⟩)
  · exact hm.wf.halfHd
  · intro j tj hj
    obtain ⟨he, hne⟩ := hm.ends tj (mem_iff_getAt.mpr ⟨j, hj⟩) (hlive j tj hj)
    simp only [Bool.and_eq_true] at he
    obtain ⟨ta, hta, -⟩ := liveIn_eq_true.mp he.1
    obtain ⟨tb, htb, -⟩ := liveIn_eq_true.mp he.2
    have h1 := getAt_lt_length hta
    have h2 := getAt_lt_length htb
    exact ⟨h1.1, h1.2, h2.1, h2.2, hne⟩
  · intro j tj hj
    obtain ⟨t2, ht2, -, hopp, hfrom, hto⟩ := hm.wf.pairing j tj hj (hlive j tj hj)
    exact ⟨t2, ht2, hopp, hfrom, hto⟩
  · intro i j ti tj hi hj hfrom hto
    have := hnp ti (mem_iff_getAt.mpr ⟨i, hi⟩) tj (mem_iff_getAt.mpr ⟨j, hj⟩) (hlive i ti hi)
      (hlive j tj hj) hfrom hto
    rw [hm.wf.halfHd i ti hi, hm.wf.halfHd j tj hj] at this
    exact this
  · exact hm.tidy.faceHd
  · intro f ft hf x hx
    have := hm.faceLists ft (mem_iff_getAt.mpr ⟨f, hf⟩) (hnr.2.2 ft (mem_iff_getAt.mpr ⟨f, hf⟩))
      x hx
    obtain ⟨t, ht, -⟩ := liveIn_eq_true.mp this
    exact ⟨t, ht⟩

theorem uniteState_init {s0 m : Mesh VD HD FD} (hs0 : s0.WF) :
    UniteState s0 m { s0 with verts := s0.verts ++ copiedVerts s0.verts.length m.verts } 0
      (List.replicate m.halfs.length Handle.none) := by
  constructor
  · exact wf_copiedVerts m.verts hs0
  · exact ⟨_, rfl, copiedVerts_length _ _, fun t ht => (copiedVerts_mem ht).1⟩
  · exact ⟨[], by simp, by simp [upCount], by simp⟩
  · rfl
  · intro v vt hv hge x hx
    rcases getAt_append_cases hv with h | ⟨-, h⟩
    · have := (getAt_lt_length h).2
      omega
    · rw [(copiedVerts_mem (mem_iff_getAt.mpr ⟨_, h⟩)).2] at hx
      simp at hx
  · simp
  · intro j tj hj hlt
    have := (getAt_lt_length hj).1
    simp at hlt
    omega
  · intro e t ht hge
    have := (getAt_lt_length ht).2
    simp only at this
    omega

theorem uniteHalfs_loop {s0 m : Mesh VD HD FD} {vtable : List Int} (hs0 : s0.WF)
    (src : UniteSrc m)
    (hvt : ∀ j : Int, 0 ≤ j → j < m.verts.length →
      getAt vtable j = .ok ((s0.verts.length : Int) + j)) :
    ∀ (rest : List (Triplet HalfTopo HD)) (k : Nat) (s : Mesh VD HD FD) (htable : List Int),
      m.halfs.drop k = rest → k ≤ m.halfs.length → UniteState s0 m s k htable →
      ∃ s' htable', uniteHalfs m vtable s htable rest = .ok (s', htable') ∧
        UniteState s0 m s' m.halfs.length htable' := by
  intro rest
  induction rest with
  | nil =>
    intro k s htable hdrop hk st
    have hlen := congrArg List.length hdrop
    simp only [List.length_drop, List.length_nil] at hlen
    have hk' : k = m.halfs.length := by omega
    subst hk'
    exact ⟨s, htable, rfl, st⟩
  | cons h rest ih =>
    intro k s htable hdrop hk st
    have hlen := congrArg List.length hdrop
    simp only [List.length_drop, List.length_cons] at hlen
    have hget : m.halfs[k]? = some h := by
      have := congrArg (fun l => l[0]?) hdrop
      simpa [List.getElem?_drop] using this
    have hkk : getAt m.halfs (k : Int) = .ok h :=
      getAt_eq_ok.mpr ⟨by omega, by simpa using hget⟩
    obtain ⟨s1, htable1, hstep, st1⟩ := uniteHalfs_step hs0 src hvt st hkk rest
    have hdrop1 : m.halfs.drop (k + 1) = rest := by
      have := congrArg List.tail hdrop
      simpa [List.tail_drop] using this
    obtain ⟨s', htable', hrun, st'⟩ := ih (k + 1) s1 htable1 hdrop1 (by omega) st1
    exact ⟨s', htable', by rw [hstep, hrun], st'⟩

end UniteLoops

section UniteFacesLoop

variable {VD HD FD : Type}

theorem lookupAll_total {table : List Int} {P : Int → Prop} : ∀ {l : List Int},
    (∀ x ∈ l, ∃ e, getAt table x = .ok e ∧ P e) →
    ∃ hs, lookupAll table l = .ok hs ∧ ∀ e ∈ hs, P e := by
  intro l
  induction l with
  | nil => intro _; exact ⟨[], rfl, by simp⟩
  | cons x rest ih =>
    intro hall
    obtain ⟨e, he, hP⟩ := hall x (List.mem_cons_self _ _)
    obtain ⟨hs, hrun, hPs⟩ := ih (fun y hy => hall y (List.mem_cons_of_mem _ hy))
    refine ⟨e :: hs, by simp only [lookupAll, he, hrun], ?_⟩
    intro y hy
    rcases List.mem_cons.mp hy with rfl | hy
    · exact hP
    · exact hPs y hy

/-- One round of the third loop of `unite`. -/
theorem uniteFaces_step {s0 m s2 s : Mesh VD HD FD} {htable ftable : List Int} {k : Nat}
    {f : Triplet FaceTopo FD} (src : UniteSrc m)
    (st2 : UniteState s0 m s2 m.halfs.length htable) (st : UniteFaces s0 m s2 s k ftable)
    (hk : getAt m.faces (k : Int) = .ok f) (rest : List (Triplet FaceTopo FD)) :
    ∃ s1 ftable1,
      uniteFaces htable s ftable (f :: rest) = uniteFaces htable s1 ftable1 rest ∧
      UniteFaces s0 m s2 s1 (k + 1) ftable1 := by
  have hklt : k < m.faces.length := by
    have := (getAt_lt_length hk).2
    omega
  obtain ⟨hs, hlook, hhs⟩ : ∃ hs, lookupAll htable f.topo.halfedges = .ok hs ∧
      ∀ e ∈ hs, (s0.halfs.length : Int) ≤ e ∧ 0 ≤ e ∧ e.toNat < s.halfs.length := by
    apply lookupAll_total
    intro x hx
    obtain ⟨tx, htx⟩ := src.faceList k f hk x hx
    obtain ⟨e, t, he, ht, -, hge, -⟩ := st2.done x tx htx (getAt_lt_length htx).2
    have := getAt_isOk_iff.mp ⟨t, ht⟩
    exact ⟨e, he, hge, this.1, by rw [st.hlen]; exact this.2⟩
  obtain ⟨halfs, hset⟩ := setFaces_total (f := (s.faces.length : Int))
    (fun x hx => (hhs x hx).2)
  obtain ⟨hlen, -, hpt⟩ := setFaces_spec hset
  have hadd : s.addFace hs f.data
      = .ok (⟨s.verts, halfs, s.faces ++ [⟨⟨(s.faces.length : Int), hs⟩, f.data, true⟩]⟩,
          (s.faces.length : Int)) :=
    addFace_eq_ok.mpr ⟨halfs, hset, rfl, rfl⟩
  have hsetk : setAt ftable f.topo.hd (s.faces.length : Int)
      = .ok (ftable.set k (s.faces.length : Int)) := by
    rw [src.faceHd k f hk, setAt_eq_ok]
    exact ⟨by omega, by rw [st.tableLen]; simpa using hklt, by simp⟩
  refine ⟨⟨s.verts, halfs, s.faces ++ [⟨⟨(s.faces.length : Int), hs⟩, f.data, true⟩]⟩,
    ftable.set k (s.faces.length : Int), ?_, ?_⟩
  · simp only [uniteFaces, hlook, hadd, hsetk]
  · obtain ⟨newF, hF, hFlen, hFlive⟩ := st.faces
    constructor
    · exact st.verts
    · show halfs.length = s2.halfs.length
      rw [hlen, st.hlen]
    · intro h t ht
      obtain ⟨t', ht', hex, hfrom, hto, hold⟩ := st.halfs h t ht
      refine ⟨_, hpt h t' ht', ?_⟩
      by_cases hin : h ∈ hs
      · rw [if_pos hin]
        refine ⟨hex, hfrom, hto, ?_⟩
        intro hlt
        have := (hhs h hin).1
        omega
      · rw [if_neg hin]
        exact ⟨hex, hfrom, hto, hold⟩
    · refine ⟨newF ++ [⟨⟨(s.faces.length : Int), hs⟩, f.data, true⟩], ?_, by simp [hFlen], ?_⟩
      · show s.faces ++ _ = _
        rw [hF, List.append_assoc]
      · intro t ht
        rcases List.mem_append.mp ht with h' | h'
        · exact hFlive t h'
        · simp only [List.mem_singleton] at h'
          rw [h']
    · rw [List.length_set]
      exact st.tableLen

theorem uniteFaces_loop {s0 m s2 : Mesh VD HD FD} {htable : List Int} (src : UniteSrc m)
    (st2 : UniteState s0 m s2 m.halfs.length htable) :
    ∀ (rest : List (Triplet FaceTopo FD)) (k : Nat) (s : Mesh VD HD FD) (ftable : List Int),
      m.faces.drop k = rest → k ≤ m.faces.length → UniteFaces s0 m s2 s k ftable →
      ∃ s' ftable', uniteFaces htable s ftable rest = .ok (s', ftable') ∧
        UniteFaces s0 m s2 s' m.faces.length ftable' := by
  intro rest
  induction rest with
  | nil =>
    intro k s ftable hdrop hk st
    have hlen := congrArg List.length hdrop
    simp only [List.length_drop, List.length_nil] at hlen
    have hk' : k = m.faces.length := by omega
    subst hk'
    exact ⟨s, ftable, rfl, st⟩
  | cons f rest ih =>
    intro k s ftable hdrop hk st
    have hlen := congrArg List.length hdrop
    simp only [List.length_drop, List.length_cons] at hlen
    have hget : m.faces[k]? = some f := by
      have := congrArg (fun l => l[0]?) hdrop
      simpa [List.getElem?_drop] using this
    have hkk : getAt m.faces (k : Int) = .ok f :=
      getAt_eq_ok.mpr ⟨by omega, by simpa using hget⟩
    obtain ⟨s1, ftable1, hstep, st1⟩ := uniteFaces_step src st2 st hkk rest
    have hdrop1 : m.faces.drop (k + 1) = rest := by
      have := congrArg List.tail hdrop
      simpa [List.tail_drop] using this
    obtain ⟨s', ftable', hrun, st'⟩ := ih (k + 1) s1 ftable1 hdrop1 (by omega) st1
    exact ⟨s', ftable', by rw [hstep, hrun], st'⟩

end UniteFacesLoop

section UniteClaim

variable {VD HD FD : Type}

theorem liveCount_append {T D : Type} (xs ys : List (Triplet T D)) :
    liveCount (xs ++ ys) = liveCount xs + liveCount ys := by
  simp [liveCount, List.filter_append]

theorem liveCount_all_live {T D : Type} {xs : List (Triplet T D)}
    (h : ∀ t ∈ xs, t.exists_ = true) : liveCount xs = xs.length := by
  unfold liveCount
  rw [List.filter_eq_self.mpr h]

theorem liveCount_congr {T D : Type} {xs ys : List (Triplet T D)}
    (h : xs.map (fun t => t.exists_) = ys.map (fun t => t.exists_)) :
    liveCount xs = liveCount ys := by
  have key : ∀ zs : List (Triplet T D),
      liveCount zs = ((zs.map (fun t => t.exists_)).filter id).length := by
    intro zs
    simp [liveCount, List.filter_map, Function.comp_def]
  rw [key xs, key ys, h]

theorem upCount_all {m : Mesh VD HD FD} (src : UniteSrc m) :
    2 * upCount m m.halfs.length = m.halfs.length := by
  have hat : ∀ j, j < m.halfs.length → ∃ tj, getAt m.halfs (j : Int) = .ok tj ∧
      oppAt m j = tj.topo.opposite := by
    intro j hj
    have hx : m.halfs[j]? = some m.halfs[j] := List.getElem?_eq_getElem hj
    have hg : getAt m.halfs (j : Int) = .ok m.halfs[j] :=
      getAt_eq_ok.mpr ⟨by omega, by simp⟩
    exact ⟨_, hg, oppAt_eq hg⟩
  have hopp : ∀ j, j < m.halfs.length →
      0 ≤ oppAt m j ∧ (oppAt m j).toNat < m.halfs.length ∧
        oppAt m (oppAt m j).toNat = (j : Int) ∧ oppAt m j ≠ (j : Int) := by
    intro j hj
    obtain ⟨tj, hg, he⟩ := hat j hj
    obtain ⟨to_, hto, hoo, hofrom, -⟩ := src.opp j tj hg
    obtain ⟨-, -, -, -, hne⟩ := src.ends j tj hg
    have hr := getAt_lt_length hto
    have h0 : 0 ≤ oppAt m j := by rw [he]; exact hr.1
    have hlt : (oppAt m j).toNat < m.halfs.length := by rw [he]; omega
    refine ⟨h0, hlt, ?_, ?_⟩
    · have hto' : getAt m.halfs (((oppAt m j).toNat : Nat) : Int) = .ok to_ := by
        rw [Int.toNat_of_nonneg h0, he]
        exact hto
      rw [oppAt_eq hto', hoo]
    · intro hc
      rw [he] at hc
      rw [hc, hg] at hto
      cases hto
      exact hne hofrom
  have hcount := involution_count m.halfs.length (fun j => (oppAt m j).toNat)
    (fun j hj => (hopp j hj).2.1)
    (fun j hj => by
      have := (hopp j hj).2.2.1
      simp only [this, Int.toNat_ofNat])
    (fun j hj => by
      have h1 := (hopp j hj).1
      have h2 := (hopp j hj).2.2.2
      show (oppAt m j).toNat ≠ j
      omega)
  have hfilter : (List.range m.halfs.length).filter (fun (j : Nat) => decide ((j : Int) < oppAt m j))
      = (List.range m.halfs.length).filter (fun j => decide (j < (oppAt m j).toNat)) := by
    apply List.filter_congr
    intro j hj
    have h1 := (hopp j (List.mem_range.mp hj)).1
    simp only [decide_eq_decide]
    omega
  unfold upCount
  rw [hfilter]
  exact hcount

/-- C13: for a mesh `s` with the representation invariant and a well-formed mesh `m`
without removed element and without parallel duplicate edges, `s.unite(m)` returns;
afterwards the numbers of non-removed vertices, half-edges and faces are the sums of
those of `s` and `m`, every entry of the three tables of `s` is still in its slot,
unchanged, and no non-removed half-edge has one end among the vertices `s` held
before and the other among the copied ones (those after them in `_verts`). -/
theorem unite_disjoint {s m : Mesh VD HD FD} (hs : s.WF) (hm : m.WellFormed)
    (hnr : m.NoRemoved) (hnp : m.NoParallel) :
    ∃ s', s.unite m = .ok s' ∧
      s'.counts = (s.counts.1 + m.counts.1, s.counts.2.1 + m.counts.2.1,
        s.counts.2.2 + m.counts.2.2) ∧
      (∀ v vt, getAt s.verts v = .ok vt → getAt s'.verts v = .ok vt) ∧
      (∀ h t, getAt s.halfs h = .ok t → getAt s'.halfs h = .ok t) ∧
      (∀ f ft, getAt s.faces f = .ok ft → getAt s'.faces f = .ok ft) ∧
      ∀ h t, getAt s'.halfs h = .ok t → t.exists_ = true →
        (t.topo.efrom < s.verts.length ↔ t.topo.eto < s.verts.length) := by
  have src := uniteSrc_of hm hnr hnp
  obtain ⟨vtable, hrun1, hl1, hnew1, -⟩ := uniteVerts_spec m.verts 0 s
    (List.replicate m.verts.length Handle.none)
    (fun k v hk => by rw [src.vertHd k v hk]; simp) (by simp)
  have hvt : ∀ j : Int, 0 ≤ j → j < m.verts.length →
      getAt vtable j = .ok ((s.verts.length : Int) + j) := by
    intro j h0 hlt
    have := hnew1 j.toNat (by omega)
    rw [getAt_eq_ok]
    refine ⟨h0, ?_⟩
    simp only [Nat.zero_add] at this
    rw [this]
    congr 1
    push_cast
    omega
  obtain ⟨s2, htable, hrun2, st2⟩ := uniteHalfs_loop hs src hvt m.halfs 0 _
    (List.replicate m.halfs.length Handle.none) rfl (Nat.zero_le _) (uniteState_init hs)
  have st0 : UniteFaces s m s2 s2 0 (List.replicate m.faces.length Handle.none) :=
    ⟨rfl, rfl, fun h t ht => ⟨t, ht, rfl, rfl, rfl, fun _ => rfl⟩,
      ⟨[], by simp [st2.faces], rfl, by simp⟩, by simp⟩
  obtain ⟨s3, ftable, hrun3, st3⟩ := uniteFaces_loop src st2 m.faces 0 s2 _ rfl
    (Nat.zero_le _) st0
  obtain ⟨newV, hV, hVlen, hVlive⟩ := st2.verts
  obtain ⟨newH, hH, hHlen, hHlive⟩ := st2.halfs
  obtain ⟨newF, hF, hFlen, hFlive⟩ := st3.faces
  have hexists : s3.halfs.map (fun t => t.exists_) = s2.halfs.map (fun t => t.exists_) := by
    apply List.ext_getElem?
    intro n
    simp only [List.getElem?_map]
    by_cases hn : n < s2.halfs.length
    · have hx : s2.halfs[n]? = some s2.halfs[n] := List.getElem?_eq_getElem hn
      have hg : getAt s2.halfs (n : Int) = .ok s2.halfs[n] :=
        getAt_eq_ok.mpr ⟨by omega, by simp⟩
      obtain ⟨t', ht', hex, -⟩ := st3.halfs n _ hg
      have := (getAt_eq_ok.mp ht').2
      simp only [Int.toNat_ofNat] at this
      rw [this, hx]
      simp [hex]
    · rw [List.getElem?_eq_none (Nat.le_of_not_lt hn),
        List.getElem?_eq_none (by rw [st3.hlen]; exact Nat.le_of_not_lt hn)]
  refine ⟨s3, ?_, ?_, ?_, ?_, ?_, ?_⟩
  · simp only [Mesh.unite, Mesh.Vertices, Mesh.HalfEdges, Mesh.Faces,
      List.filter_eq_self.mpr hnr.1, List.filter_eq_self.mpr hnr.2.1,
      List.filter_eq_self.mpr hnr.2.2, hrun1, hrun2, hrun3]
  · simp only [Mesh.counts, Prod.mk.injEq]
    refine ⟨?_, ?_, ?_⟩
    · rw [st3.verts, hV, liveCount_append, liveCount_all_live hVlive, hVlen,
        liveCount_all_live hnr.1]
    · rw [liveCount_congr hexists, hH, liveCount_append, liveCount_all_live hHlive, hHlen,
        upCount_all src, liveCount_all_live hnr.2.1]
    · rw [hF, liveCount_append, liveCount_all_live hFlive, hFlen, liveCount_all_live hnr.2.2]
  · intro v vt hv
    rw [st3.verts, hV]
    exact getAt_append_left hv
  · intro h t ht
    have h2 : getAt s2.halfs h = .ok t := by
      rw [hH]
      exact getAt_append_left ht
    obtain ⟨t', ht', -, -, -, hold⟩ := st3.halfs h t h2
    rw [hold (getAt_lt_length ht).2] at ht'
    exact ht'
  · intro f ft hf
    rw [hF]
    exact getAt_append_left hf
  · intro h t ht hex
    obtain ⟨h0, hlt⟩ := getAt_lt_length ht
    obtain ⟨t2, ht2⟩ := getAt_of_lt s2.halfs h0 (by rw [← st3.hlen]; exact hlt)
    obtain ⟨t', ht', hex', hfrom, hto, -⟩ := st3.halfs h t2 ht2
    rw [ht] at ht'
    cases ht'
    rw [hfrom, hto]
    by_cases hold : h < (s.halfs.length : Int)
    · have hg := ht2
      rw [hH] at hg
      rcases getAt_append_cases hg with g | ⟨g, -⟩
      · have := hs.endsInRange h t2 g (by rw [← hex']; exact hex)
        exact ⟨fun _ => this.2, fun _ => this.1⟩
      · omega
    · obtain ⟨j, tj, hj, -, hf, ht'⟩ := st2.only h t2 ht2 (by omega)
      obtain ⟨a0, -, b0, -, -⟩ := src.ends j tj hj
      constructor
      · intro hc
        omega
      · intro hc
        omega

end UniteClaim

theorem reachable_twoTriangleMesh : Reachable twoTriangleMesh :=
  Reachable.addFaceVerts [0, 1, 2] true ()
    (Reachable.addFaceVerts [0, 1, 2] true ()
      (Reachable.addVertex () (Reachable.addVertex () (Reachable.addVertex () Reachable.empty)))
      (by decide : threeVertexMesh.addFaceVerts [0, 1, 2] true () = .ok (triangleMesh, 0)))
    (by decide : triangleMesh.addFaceVerts [0, 1, 2] true () = .ok (twoTriangleMesh, 1))

theorem wellFormed_twoTriangleMesh : twoTriangleMesh.WellFormed :=
  ⟨reachable_wf reachable_twoTriangleMesh, reachable_tidy reachable_twoTriangleMesh,
    by decide, by decide⟩

theorem unite_disjoint_witness :
    ∃ s', twoTrianglesAndHole.unite twoTriangleMesh = .ok s' ∧
      s'.counts = (twoTrianglesAndHole.counts.1 + twoTriangleMesh.counts.1,
        twoTrianglesAndHole.counts.2.1 + twoTriangleMesh.counts.2.1,
        twoTrianglesAndHole.counts.2.2 + twoTriangleMesh.counts.2.2) ∧
      (∀ v vt, getAt twoTrianglesAndHole.verts v = .ok vt → getAt s'.verts v = .ok vt) ∧
      (∀ h t, getAt twoTrianglesAndHole.halfs h = .ok t → getAt s'.halfs h = .ok t) ∧
      (∀ f ft, getAt twoTrianglesAndHole.faces f = .ok ft → getAt s'.faces f = .ok ft) ∧
      ∀ h t, getAt s'.halfs h = .ok t → t.exists_ = true →
        (t.topo.efrom < twoTrianglesAndHole.verts.length ↔
          t.topo.eto < twoTrianglesAndHole.verts.length) :=
  unite_disjoint wf_twoTrianglesAndHole wellFormed_twoTriangleMesh
    (⟨by decide, by decide, by decide⟩ : twoTriangleMesh.NoRemoved)
    (by unfold Mesh.NoParallel; decide)

/-! ## Traversals (C14, C15, C16) -/

section GrowLemmas

variable {VD HD FD : Type}

theorem grow_same (m : Mesh VD HD FD) (src : Int) (st : DfsState) : Grow m src st st :=
  ⟨rfl, fun _ h => h, Nat.le_refl _,
    ⟨[], by simp, List.nodup_nil, fun v => by simp, by simp, by simp⟩⟩

theorem grow_chain {m : Mesh VD HD FD} {src : Int} {st st1 st2 : DfsState}
    (h1 : Grow m src st st1) (h2 : Grow m src st1 st2) : Grow m src st st2 := by
  obtain ⟨n1, c1, nd1, i1, l1, a1⟩ := h1.calls
  obtain ⟨n2, c2, nd2, i2, l2, a2⟩ := h2.calls
  refine ⟨h2.len.trans h1.len, fun v h => h2.mono v (h1.mono v h),
    Nat.le_trans h2.count h1.count, n1 ++ n2, ?_, ?_, ?_, ?_, ?_⟩
  · rw [c2, c1, List.append_assoc]
  · rw [List.nodup_append]
    refine ⟨nd1, nd2, ?_⟩
    intro v hv1 hv2
    exact ((i2 v).mp hv2).1 ((i1 v).mp hv1).2
  · intro v
    rw [List.mem_append, i1, i2]
    constructor
    · rintro (⟨a, b⟩ | ⟨a, b⟩)
      · exact ⟨a, h2.mono v b⟩
      · exact ⟨fun h => a (h1.mono v h), b⟩
    · rintro ⟨a, b⟩
      by_cases hm : getAt st1.visited v = .ok true
      · exact Or.inl ⟨a, hm⟩
      · exact Or.inr ⟨hm, b⟩
  · intro v hv
    rcases List.mem_append.mp hv with h | h
    · exact l1 v h
    · exact l2 v h
  · intro v hv w hw
    rcases List.mem_append.mp hv with h | h
    · exact h2.mono w (a1 v h w hw)
    · exact a2 v h w hw

theorem grow_of_adj {m : Mesh VD HD FD} {a b : Int} {st st' : DfsState} (hab : m.Adj a b)
    (h : Grow m b st st') : Grow m a st st' := by
  obtain ⟨n1, c1, nd1, i1, l1, a1⟩ := h.calls
  exact ⟨h.len, h.mono, h.count, n1, c1, nd1, i1,
    fun v hv => ⟨(l1 v hv).1, Relation.ReflTransGen.head hab (l1 v hv).2⟩, a1⟩

theorem unmarkedCount_set : ∀ (vis : List Bool) (i : Nat), vis[i]? = some false →
    unmarkedCount (vis.set i true) + 1 = unmarkedCount vis := by
  intro vis
  induction vis with
  | nil => intro i h; simp at h
  | cons b rest ih =>
    intro i h
    cases i with
    | zero =>
      simp only [List.getElem?_cons_zero, Option.some.injEq] at h
      subst h
      simp [unmarkedCount]
    | succ i =>
      simp only [List.getElem?_cons_succ] at h
      have := ih i h
      simp only [unmarkedCount, List.set_cons_succ, List.countP_cons] at this ⊢
      omega

theorem modifyAt_mark {vis : List Bool} {v : Int} {b : Bool} (h : getAt vis v = .ok b) :
    modifyAt vis v (fun _ => true) = .ok (vis.set v.toNat true) := by
  obtain ⟨h0, hx⟩ := getAt_eq_ok.mp h
  unfold modifyAt
  simp [show ¬ v < 0 by omega, hx]

theorem getAt_mark {vis : List Bool} {v w : Int} {b : Bool} (h : getAt vis v = .ok b) :
    getAt (vis.set v.toNat true) w = .ok true ↔ (w = v ∨ getAt vis w = .ok true) := by
  obtain ⟨h0, hlt⟩ := getAt_lt_length h
  by_cases hw : w = v
  · subst hw
    have : getAt (vis.set w.toNat true) ((w.toNat : Nat) : Int) = .ok true :=
      getAt_set_self (by omega) true
    rw [Int.toNat_of_nonneg h0] at this
    simp [this]
  · rw [getAt_set_ne vis true (by omega : w ≠ ((v.toNat : Nat) : Int))]
    simp [hw]

theorem unmarkedCount_le_of_mono : ∀ (a b : List Bool), a.length = b.length →
    (∀ i : Nat, a[i]? = some true → b[i]? = some true) →
    unmarkedCount b ≤ unmarkedCount a := by
  intro a
  induction a with
  | nil =>
    intro b hl _
    cases b with
    | nil => exact Nat.le_refl _
    | cons _ _ => simp at hl
  | cons x xs ihx =>
    intro b hl hmono
    cases b with
    | nil => simp at hl
    | cons y ys =>
      have h1 := ihx ys (by simpa using hl) (fun i hi => by simpa using hmono (i + 1) (by simpa using hi))
      have h2 := hmono 0
      simp only [List.getElem?_cons_zero, Option.some.injEq] at h2
      simp only [unmarkedCount, List.countP_cons] at h1 ⊢
      cases x <;> cases y <;> simp_all
      omega

theorem unmarkedCount_lt_of_mono : ∀ (a b : List Bool), a.length = b.length →
    (∀ i : Nat, a[i]? = some true → b[i]? = some true) →
    ∀ j : Nat, a[j]? = some false → b[j]? = some true →
    unmarkedCount b < unmarkedCount a := by
  intro a
  induction a with
  | nil => intro b _ _ j hj; simp at hj
  | cons x xs iha =>
    intro b hl hmono j hj1 hj2
    cases b with
    | nil => simp at hl
    | cons y ys =>
      cases j with
      | zero =>
        simp only [List.getElem?_cons_zero, Option.some.injEq] at hj1 hj2
        subst hj1 hj2
        have := unmarkedCount_le_of_mono xs ys (by simpa using hl)
          (fun i hi => by simpa using hmono (i + 1) (by simpa using hi))
        simp only [unmarkedCount, List.countP_cons] at this ⊢
        simp
        omega
      | succ j =>
        have h1 := iha ys (by simpa using hl) (fun i hi => by simpa using hmono (i + 1) (by simpa using hi)) j
          (by simpa using hj1) (by simpa using hj2)
        have h2 := hmono 0
        simp only [List.getElem?_cons_zero, Option.some.injEq] at h2
        simp only [unmarkedCount, List.countP_cons] at h1 ⊢
        cases x <;> cases y <;> simp_all
        omega

end GrowLemmas

section DfsTree

variable {VD HD FD : Type}

/-- The loop over the outgoing half-edges, given what the recursive call does. -/
theorem dfsHalves_spec {m : Mesh VD HD FD} {root : Int} {d : Nat}
    {again : Int → DfsState → Except Fault (Option (DfsState × Bool))}
    (ih : ∀ v st, liveIn m.verts v = true → st.visited.length = m.verts.length →
      unmarkedCount st.visited < d →
      ∃ st', again v st = .ok (some (st', true)) ∧ Grow m v st st' ∧
        getAt st'.visited v = .ok true) :
    ∀ (l : List Int) (st : DfsState),
      (∀ hh ∈ l, ∃ t, getAt m.halfs hh = .ok t ∧
        (t.exists_ = true → t.topo.efrom = root ∧ liveIn m.verts t.topo.eto = true)) →
      st.visited.length = m.verts.length → unmarkedCount st.visited < d →
      ∃ st', dfsHalves m again l st = .ok (some (st', true)) ∧ Grow m root st st' ∧
        ∀ hh ∈ l, ∀ t, getAt m.halfs hh = .ok t → t.exists_ = true →
          getAt st'.visited t.topo.eto = .ok true := by
  intro l
  induction l with
  | nil =>
    intro st _ _ _
    exact ⟨st, rfl, grow_same m root st, by simp⟩
  | cons hh rest ihl =>
    intro st hall hlen hcount
    obtain ⟨t, ht, hlive⟩ := hall hh (List.mem_cons_self _ _)
    have hrest := fun x hx => hall x (List.mem_cons_of_mem _ hx)
    by_cases hex : t.exists_ = true
    · obtain ⟨hfrom, hto⟩ := hlive hex
      obtain ⟨st1, hrun1, g1, hm1⟩ := ih t.topo.eto st hto hlen hcount
      obtain ⟨st', hrun, g2, hall'⟩ := ihl st1 hrest (g1.len.trans hlen)
        (Nat.lt_of_le_of_lt g1.count hcount)
      refine ⟨st', ?_, grow_chain (grow_of_adj ⟨hh, t, ht, hex, hfrom, rfl⟩ g1) g2, ?_⟩
      · simp only [dfsHalves, Mesh.removedHalf, ht, hex, Bool.not_true, hrun1, hrun]
      · intro x hx tx htx hexx
        rcases List.mem_cons.mp hx with rfl | hx
        · rw [ht] at htx
          cases htx
          exact g2.mono _ hm1
        · exact hall' x hx tx htx hexx
    · have hex' : t.exists_ = false := by simpa using hex
      obtain ⟨st', hrun, g2, hall'⟩ := ihl st hrest hlen hcount
      refine ⟨st', ?_, g2, ?_⟩
      · simp only [dfsHalves, Mesh.removedHalf, ht, hex', Bool.not_false, hrun]
      · intro x hx tx htx hexx
        rcases List.mem_cons.mp hx with rfl | hx
        · rw [ht] at htx
          cases htx
          rw [hex'] at hexx
          cases hexx
        · exact hall' x hx tx htx hexx

/-- What a well-formed mesh gives the traversal at a non-removed vertex. -/
theorem wellFormed_vertex {m : Mesh VD HD FD} (hm : m.WellFormed) {root : Int}
    (hroot : liveIn m.verts root = true) :
    ∃ vt, getAt m.verts root = .ok vt ∧ vt.exists_ = true ∧ 0 ≤ root ∧
      (∀ hh ∈ vt.topo.halfedges, ∃ t, getAt m.halfs hh = .ok t ∧
        (t.exists_ = true → t.topo.efrom = root ∧ liveIn m.verts t.topo.eto = true)) ∧
      ∀ w, m.Adj root w → ∃ hh ∈ vt.topo.halfedges, ∃ t, getAt m.halfs hh = .ok t ∧
        t.exists_ = true ∧ t.topo.eto = w := by
  obtain ⟨vt, hvt, hex⟩ := liveIn_eq_true.mp hroot
  have h0 := (getAt_lt_length hvt).1
  refine ⟨vt, hvt, hex, h0, ?_, ?_⟩
  · intro hh hin
    obtain ⟨t, ht⟩ := hm.wf.listInRange root vt hvt hh hin
    refine ⟨t, ht, fun hext => ⟨hm.wf.listFrom root vt hvt hh hin t ht hext, ?_⟩⟩
    have := (hm.ends t (mem_iff_getAt.mpr ⟨hh, ht⟩) hext).1
    simp only [Bool.and_eq_true] at this
    exact this.2
  · rintro w ⟨hh, t, ht, hext, hfrom, hto⟩
    obtain ⟨vt', hvt', hin⟩ := hm.wf.inList hh t ht hext (by rw [hfrom]; exact h0)
    rw [hfrom, hvt] at hvt'
    cases hvt'
    exact ⟨hh, hin, t, ht, hext, hto⟩

/-- The functor `depthFirstSearchOneTree` on a non-removed vertex, with a callback
that always answers `true` and more depth than there are unmarked vertices. -/
theorem dfsTree_spec {m : Mesh VD HD FD} (hm : m.WellFormed) {cb : Int → Bool}
    (hcb : ∀ v, cb v = true) :
    ∀ (d : Nat) (root : Int) (st : DfsState), liveIn m.verts root = true →
      st.visited.length = m.verts.length → unmarkedCount st.visited < d →
      ∃ st', dfsTree m cb d root st = .ok (some (st', true)) ∧ Grow m root st st' ∧
        getAt st'.visited root = .ok true := by
  intro d
  induction d with
  | zero => intro _ _ _ _ h; omega
  | succ d ih =>
    intro root st hroot hlen hcount
    obtain ⟨vt, hvt, hex, h0, hlist, hadj⟩ := wellFormed_vertex hm hroot
    have hvalid : Handle.valid root = true := by simpa [Handle.valid] using h0
    have hrem : m.removedVert root = .ok false := by simp [Mesh.removedVert, hvt, hex]
    obtain ⟨b, hb⟩ := getAt_of_lt st.visited h0 (by rw [hlen]; exact (getAt_lt_length hvt).2)
    cases b with
    | true =>
      exact ⟨st, by simp only [dfsTree, hvalid, hrem, hb]; rfl, grow_same m root st, hb⟩
    | false =>
      have hmark := modifyAt_mark hb
      have hx : st.visited[root.toNat]? = some false := (getAt_eq_ok.mp hb).2
      have hc := unmarkedCount_set st.visited root.toNat hx
      obtain ⟨st', hrun, g, hto⟩ := dfsHalves_spec ih vt.topo.halfedges
        ⟨st.visited.set root.toNat true, st.calls ++ [root]⟩ hlist
        (by simp only [List.length_set]; exact hlen) (by simp only; omega)
      obtain ⟨new, c1, nd1, i1, l1, a1⟩ := g.calls
      have hroot' : getAt st'.visited root = .ok true :=
        g.mono root ((getAt_mark hb).mpr (Or.inl rfl))
      refine ⟨st', ?_, ?_, hroot'⟩
      · simp only [dfsTree, hvalid, hrem, hb, hcb, hmark, hvt]
        exact hrun
      · refine ⟨?_, ?_, ?_, root :: new, ?_, ?_, ?_, ?_, ?_⟩
        · rw [g.len]
          simp
        · intro v hv
          exact g.mono v ((getAt_mark hb).mpr (Or.inr hv))
        · have := g.count
          simp only at this
          omega
        · rw [c1]
          simp
        · rw [List.nodup_cons]
          refine ⟨?_, nd1⟩
          intro hin
          exact ((i1 root).mp hin).1 ((getAt_mark hb).mpr (Or.inl rfl))
        · intro v
          have i1' : v ∈ new ↔ (¬ (v = root ∨ getAt st.visited v = .ok true) ∧
              getAt st'.visited v = .ok true) :=
            (i1 v).trans (and_congr_left' (not_congr (getAt_mark hb)))
          rw [List.mem_cons, i1']
          constructor
          · rintro (rfl | ⟨a, b⟩)
            · exact ⟨by rw [hb]; simp, hroot'⟩
            · exact ⟨fun h => a (Or.inr h), b⟩
          · rintro ⟨a, b⟩
            by_cases hv : v = root
            · exact Or.inl hv
            · right
              refine ⟨?_, b⟩
              rintro (h | h)
              · exact hv h
              · exact a h
        · intro v hv
          rcases List.mem_cons.mp hv with rfl | hv
          · exact ⟨hroot, Relation.ReflTransGen.refl⟩
          · exact l1 v hv
        · intro v hv w hw
          rcases List.mem_cons.mp hv with rfl | hv
          · obtain ⟨hh, hin, t, ht, hext, rfl⟩ := hadj w hw
            exact hto hh hin t ht hext
          · exact a1 v hv w hw

end DfsTree

section DfsMain

variable {VD HD FD : Type}

/-- The choice of the next root. -/
theorem firstUnvisited_spec {m : Mesh VD HD FD} (hm : m.WellFormed) {vis : List Bool}
    (hlen : vis.length = m.verts.length) :
    ∀ (l : List (Triplet VertTopo VD)) (c : Nat), m.verts.drop c = l →
      ∃ r, firstUnvisited vis l = .ok r ∧
        ((r = Handle.none ∧
            ∀ v : Int, (c : Int) ≤ v → liveIn m.verts v = true → getAt vis v = .ok true) ∨
          (0 ≤ r ∧ liveIn m.verts r = true ∧ getAt vis r = .ok false)) := by
  intro l
  induction l with
  | nil =>
    intro c hdrop
    refine ⟨Handle.none, rfl, Or.inl ⟨rfl, ?_⟩⟩
    intro v hv hlive
    obtain ⟨vt, hvt, -⟩ := liveIn_eq_true.mp hlive
    have := (getAt_lt_length hvt).2
    have hl := congrArg List.length hdrop
    simp only [List.length_drop, List.length_nil] at hl
    omega
  | cons h rest ih =>
    intro c hdrop
    have hget : m.verts[c]? = some h := by
      have := congrArg (fun l => l[0]?) hdrop
      simpa [List.getElem?_drop] using this
    have hg : getAt m.verts (c : Int) = .ok h := getAt_eq_ok.mpr ⟨by omega, by simpa using hget⟩
    have hhd := hm.tidy.vertHd c h hg
    have hdrop1 : m.verts.drop (c + 1) = rest := by
      have := congrArg List.tail hdrop
      simpa [List.tail_drop] using this
    obtain ⟨r, hr, hor⟩ := ih (c + 1) hdrop1
    obtain ⟨b, hb⟩ := getAt_of_lt vis (by omega : (0 : Int) ≤ (c : Int))
      (by rw [hlen]; exact (getAt_lt_length hg).2)
    by_cases hex : h.exists_ = true
    · cases b with
      | false =>
        refine ⟨(c : Int), by simp only [firstUnvisited, hex, if_true, hhd, hb], Or.inr ?_⟩
        exact ⟨by omega, liveIn_eq_true.mpr ⟨h, hg, hex⟩, hb⟩
      | true =>
        refine ⟨r, by simp only [firstUnvisited, hex, if_true, hhd, hb]; exact hr, ?_⟩
        rcases hor with ⟨rfl, hall⟩ | hfound
        · left
          refine ⟨rfl, ?_⟩
          intro v hv hlive
          by_cases hvc : v = (c : Int)
          · rw [hvc]
            exact hb
          · exact hall v (by push_cast; omega) hlive
        · exact Or.inr hfound
    · refine ⟨r, by simp only [firstUnvisited, hex]; exact hr, ?_⟩
      rcases hor with ⟨rfl, hall⟩ | hfound
      · left
        refine ⟨rfl, ?_⟩
        intro v hv hlive
        by_cases hvc : v = (c : Int)
        · rw [hvc] at hlive
          obtain ⟨t, ht, hext⟩ := liveIn_eq_true.mp hlive
          rw [hg] at ht
          cases ht
          exact absurd hext hex
        · exact hall v (by push_cast; omega) hlive
      · exact Or.inr hfound

/-- The loop `while (true)` of `DepthFirstSearch` with a callback that always answers
`true`: it ends, having called the callback once on each vertex it marked, and
having marked every non-removed vertex. -/
theorem dfsLoop_spec {m : Mesh VD HD FD} (hm : m.WellFormed) {cb : Int → Bool}
    (hcb : ∀ v, cb v = true) (depth : Nat) :
    ∀ (n : Nat) (st : DfsState), st.visited.length = m.verts.length →
      unmarkedCount st.visited < n → unmarkedCount st.visited < depth →
      st.calls.Nodup → (∀ v, v ∈ st.calls ↔ getAt st.visited v = .ok true) →
      (∀ v ∈ st.calls, liveIn m.verts v = true) →
      ∃ st', dfsLoop m cb depth n st = .ok (some st') ∧ st'.calls.Nodup ∧
        (∀ v, v ∈ st'.calls ↔ liveIn m.verts v = true) := by
  intro n
  induction n with
  | zero => intro _ _ h; omega
  | succ n ih =>
    intro st hlen hcount hdepth hnd hmem hlive
    obtain ⟨r, hr, hor⟩ := firstUnvisited_spec hm hlen m.verts 0 rfl
    rcases hor with ⟨rfl, hall⟩ | ⟨h0, hrl, hrv⟩
    · refine ⟨st, by simp only [dfsLoop, hr]; rfl, hnd, ?_⟩
      intro v
      constructor
      · exact hlive v
      · intro hv
        obtain ⟨vt, hvt, -⟩ := liveIn_eq_true.mp hv
        exact (hmem v).mpr (hall v (by simpa using (getAt_lt_length hvt).1) hv)
    · obtain ⟨st1, hrun, g, hroot⟩ := dfsTree_spec hm hcb depth r st hrl hlen hdepth
      obtain ⟨new, c1, nd1, i1, l1, -⟩ := g.calls
      have hrnew : r ∈ new := (i1 r).mpr ⟨by rw [hrv]; simp, hroot⟩
      have hstrict : unmarkedCount st1.visited < unmarkedCount st.visited := by
        by_contra hc
        have hx : st.visited[r.toNat]? = some false := (getAt_eq_ok.mp hrv).2
        apply hc
        refine unmarkedCount_lt_of_mono st.visited st1.visited g.len.symm ?_ r.toNat hx
          (getAt_eq_ok.mp hroot).2
        intro i hi
        have := g.mono (i : Int) (getAt_eq_ok.mpr ⟨by omega, by simpa using hi⟩)
        simpa using (getAt_eq_ok.mp this).2
      obtain ⟨st', hrun', hnd', hall'⟩ := ih st1 (g.len.trans hlen) (by omega) (by omega)
        (by
          rw [c1, List.nodup_append]
          refine ⟨hnd, nd1, ?_⟩
          intro v hv1 hv2
          exact ((i1 v).mp hv2).1 ((hmem v).mp hv1))
        (by
          intro v
          rw [c1, List.mem_append, hmem, i1]
          constructor
          · rintro (h | ⟨-, h⟩)
            · exact g.mono v h
            · exact h
          · intro h
            by_cases hv : getAt st.visited v = .ok true
            · exact Or.inl hv
            · exact Or.inr ⟨hv, h⟩)
        (by
          intro v hv
          rw [c1] at hv
          rcases List.mem_append.mp hv with h | h
          · exact hlive v h
          · exact (l1 v h).1)
      refine ⟨st', ?_, hnd', hall'⟩
      have hinv : Handle.invalid r = false := by simpa [Handle.invalid] using h0
      simp only [dfsLoop, hr, hinv, hrun]
      exact hrun'

end DfsMain

section DfsClaim

variable {VD HD FD : Type}

theorem unmarkedCount_replicate (n : Nat) : unmarkedCount (List.replicate n false) = n := by
  induction n with
  | zero => rfl
  | succ n ih =>
    simp only [unmarkedCount, List.replicate_succ, List.countP_cons] at ih ⊢
    simp [ih]

/-- C14: on a well-formed mesh, with a callback that always returns `true`,
`DepthFirstSearch` ends (any bound above the number of vertex slots is enough for
the rounds and for the depth), and the callback has then been called exactly once
on every non-removed vertex and never on anything else. -/
theorem depthFirstSearch_visits {m : Mesh VD HD FD} (hm : m.WellFormed) {cb : Int → Bool}
    (hcb : ∀ v, cb v = true) (fuel : Nat) (hfuel : m.verts.length < fuel) :
    ∃ calls, DepthFirstSearch m cb fuel = .ok (some calls) ∧
      (∀ v, liveIn m.verts v = true → calls.count v = 1) ∧
      (∀ v, liveIn m.verts v = false → calls.count v = 0) := by
  obtain ⟨st', hrun, hnd, hmem⟩ := dfsLoop_spec hm hcb fuel fuel
    ⟨List.replicate m.verts.length false, []⟩ (by simp)
    (by simp only [unmarkedCount_replicate]; exact hfuel)
    (by simp only [unmarkedCount_replicate]; exact hfuel)
    List.nodup_nil
    (by
      intro v
      simp only [List.not_mem_nil, false_iff]
      intro h
      have := (getAt_eq_ok.mp h).2
      rw [List.getElem?_replicate] at this
      split_ifs at this
      cases this)
    (by simp)
  refine ⟨st'.calls, by simp only [DepthFirstSearch, hrun], ?_, ?_⟩
  · intro v hv
    exact List.count_eq_one_of_mem hnd ((hmem v).mpr hv)
  · intro v hv
    apply List.count_eq_zero_of_not_mem
    intro hin
    rw [(hmem v).mp hin] at hv
    cases hv

theorem wellFormed_cubeMinusVertex : cubeMinusVertex.WellFormed :=
  ⟨reachable_wf reachable_cubeMinusVertex, reachable_tidy reachable_cubeMinusVertex,
    by decide, by decide⟩

theorem depthFirstSearch_visits_witness :
    ∃ calls, DepthFirstSearch cubeMinusVertex (fun _ => true) 9 = .ok (some calls) ∧
      (∀ v, liveIn cubeMinusVertex.verts v = true → calls.count v = 1) ∧
      (∀ v, liveIn cubeMinusVertex.verts v = false → calls.count v = 0) :=
  depthFirstSearch_visits wellFormed_cubeMinusVertex (fun _ => rfl) 9 (by decide)

end DfsClaim

section CcSim

variable {VD HD FD : Type}

theorem ccHalves_sim (m : Mesh VD HD FD) (cid : Int) (base : List (Int × Int))
    {again : Int → DfsState → Except Fault (Option (DfsState × Bool))}
    {again' : Int → CcState → Except Fault (Option (CcState × Bool))}
    (h : ∀ v st, again' v (tagState cid base st) = tagResult cid base (again v st)) :
    ∀ (l : List Int) (st : DfsState),
      ccHalves m again' l (tagState cid base st)
        = tagResult cid base (dfsHalves m again l st) := by
  intro l
  induction l with
  | nil => intro st; rfl
  | cons hh rest ih =>
    intro st
    simp only [ccHalves, dfsHalves]
    cases hr : m.removedHalf hh with
    | error e => rfl
    | ok b =>
      cases b with
      | true => exact ih st
      | false =>
        simp only
        cases hg : getAt m.halfs hh with
        | error e => rfl
        | ok ht =>
          simp only [h]
          cases ha : again ht.topo.eto st with
          | error e => rfl
          | ok r =>
            cases r with
            | none => rfl
            | some p =>
              obtain ⟨st1, b⟩ := p
              cases b with
              | false => rfl
              | true => exact ih st1

/-- The functor of `ConnectedComponents` runs as the functor of `DepthFirstSearch`
with a callback that always answers `true`, recording `cid` with each call. -/
theorem ccTree_sim (m : Mesh VD HD FD) (cid : Int) (base : List (Int × Int)) :
    ∀ (d : Nat) (root : Int) (st : DfsState),
      ccTree m cid d root (tagState cid base st)
        = tagResult cid base (dfsTree m (fun _ => true) d root st) := by
  intro d
  induction d with
  | zero => intro root st; rfl
  | succ d ih =>
    intro root st
    simp only [ccTree, dfsTree]
    by_cases hv : Handle.valid root = true
    · simp only [hv, Bool.not_true, Bool.false_eq_true, if_false]
      cases hr : m.removedVert root with
      | error e => rfl
      | ok b =>
        cases b with
        | true => rfl
        | false =>
          simp only
          have hvis : (tagState cid base st).visited = st.visited := rfl
          rw [hvis]
          cases hg : getAt st.visited root with
          | error e => rfl
          | ok b =>
            cases b with
            | true => rfl
            | false =>
              simp only
              cases hm : modifyAt st.visited root (fun _ => true) with
              | error e => rfl
              | ok vis =>
                simp only
                cases hvt : getAt m.verts root with
                | error e => rfl
                | ok vt =>
                  simp only
                  have := ccHalves_sim m cid base ih vt.topo.halfedges
                    ⟨vis, st.calls ++ [root]⟩
                  simp only [tagState, List.map_append, List.map_cons, List.map_nil,
                    List.append_assoc] at this ⊢
                  exact this
    · simp only [hv]
      rfl

end CcSim

section CcLoop

variable {VD HD FD : Type}

theorem adj_symm {m : Mesh VD HD FD} (hw : m.WF) {a b : Int} (h : m.Adj a b) : m.Adj b a := by
  obtain ⟨hh, t, ht, hex, hfrom, hto⟩ := h
  obtain ⟨t2, ht2, hex2, -, hfrom2, hto2⟩ := hw.pairing hh t ht hex
  exact ⟨t.topo.opposite, t2, ht2, hex2, by rw [hfrom2, hto], by rw [hto2, hfrom]⟩

theorem connected_symm {m : Mesh VD HD FD} (hw : m.WF) {a b : Int} (h : m.Connected a b) :
    m.Connected b a := by
  unfold Mesh.Connected at h ⊢
  induction h with
  | refl => exact Relation.ReflTransGen.refl
  | tail _ hbc ih => exact Relation.ReflTransGen.head (adj_symm hw hbc) ih

theorem marked_of_connected {m : Mesh VD HD FD} {vis : List Bool}
    (hclosed : ∀ v, getAt vis v = .ok true → ∀ w, m.Adj v w → getAt vis w = .ok true)
    {a b : Int} (ha : getAt vis a = .ok true) (h : m.Connected a b) :
    getAt vis b = .ok true := by
  unfold Mesh.Connected at h
  induction h with
  | refl => exact ha
  | tail _ hbc ih => exact hclosed _ ih _ hbc

theorem ccInv_init (m : Mesh VD HD FD) :
    CcInv m 0 ⟨List.replicate m.verts.length false, []⟩ := by
  constructor
  · simp
  · simp
  · intro v
    simp only [List.map_nil, List.not_mem_nil, false_iff]
    intro h
    have := (getAt_eq_ok.mp h).2
    rw [List.getElem?_replicate] at this
    split_ifs at this
    cases this
  · simp
  · intro v h
    have := (getAt_eq_ok.mp h).2
    rw [List.getElem?_replicate] at this
    split_ifs at this
    cases this
  · simp
  · intro c hc
    omega
  · simp
  · simp

/-- One round of the loop of `ConnectedComponents`: the tree from an unmarked
non-removed vertex records its component under the next id. -/
theorem ccInv_step {m : Mesh VD HD FD} (hm : m.WellFormed) {k : Nat} {st : CcState}
    (inv : CcInv m k st) {r : Int}
    (hun : getAt st.visited r = .ok false) {st1 : DfsState}
    (g : Grow m r ⟨st.visited, []⟩ st1) (hroot : getAt st1.visited r = .ok true) :
    CcInv m (k + 1) (tagState (k : Int) st.records st1) := by
  obtain ⟨new, c1, nd1, i1, l1, a1⟩ := g.calls
  simp only [List.nil_append] at c1
  have hrec : (tagState (k : Int) st.records st1).records
      = st.records ++ new.map (fun v => (v, (k : Int))) := by
    simp [tagState, c1]
  have hfst : (tagState (k : Int) st.records st1).records.map Prod.fst
      = st.records.map Prod.fst ++ new := by
    rw [hrec, List.map_append, List.map_map]
    simp [Function.comp_def]
  have hvis : (tagState (k : Int) st.records st1).visited = st1.visited := rfl
  have hrnew : r ∈ new := (i1 r).mpr ⟨by simp only; rw [hun]; simp, hroot⟩
  have hold : ∀ p ∈ st.records, getAt st.visited p.1 = .ok true :=
    fun p hp => (inv.mem p.1).mp (List.mem_map_of_mem _ hp)
  have hsep : ∀ p ∈ st.records, ∀ w ∈ new, ¬ m.Connected p.1 w := by
    intro p hp w hw hc
    exact ((i1 w).mp hw).1 (marked_of_connected inv.closed (hold p hp) hc)
  constructor
  · rw [hvis, g.len]
    exact inv.len
  · rw [hfst, List.nodup_append]
    refine ⟨inv.nodup, nd1, ?_⟩
    intro v hv1 hv2
    exact ((i1 v).mp hv2).1 ((inv.mem v).mp hv1)
  · intro v
    rw [hfst, hvis, List.mem_append, inv.mem, i1]
    constructor
    · rintro (h | ⟨-, h⟩)
      · exact g.mono v h
      · exact h
    · intro h
      by_cases hv : getAt st.visited v = .ok true
      · exact Or.inl hv
      · exact Or.inr ⟨hv, h⟩
  · intro v hv
    rw [hfst] at hv
    rcases List.mem_append.mp hv with h | h
    · exact inv.live v h
    · exact (l1 v h).1
  · intro v hv w hw
    rw [hvis] at hv ⊢
    by_cases hv0 : getAt st.visited v = .ok true
    · exact g.mono w (inv.closed v hv0 w hw)
    · exact a1 v ((i1 v).mpr ⟨hv0, hv⟩) w hw
  · intro p hp
    rw [hrec] at hp
    rcases List.mem_append.mp hp with h | h
    · have := inv.ids p h
      push_cast
      omega
    · obtain ⟨v, -, rfl⟩ := List.mem_map.mp h
      simp only
      push_cast
      omega
  · intro c hc
    by_cases hck : c < k
    · obtain ⟨v, hv⟩ := inv.used c hck
      exact ⟨v, by rw [hrec]; exact List.mem_append_left _ hv⟩
    · have : c = k := by omega
      subst this
      exact ⟨r, by rw [hrec]; exact List.mem_append_right _ (List.mem_map_of_mem _ hrnew)⟩
  · intro p hp q hq
    rw [hrec] at hp hq
    rcases List.mem_append.mp hp with h1 | h1
    · rcases List.mem_append.mp hq with h2 | h2
      · exact inv.same p h1 q h2
      · obtain ⟨w, hw, rfl⟩ := List.mem_map.mp h2
        have := (inv.ids p h1).2
        constructor
        · intro h
          simp only at h
          omega
        · intro h
          exact absurd h (hsep p h1 w hw)
    · obtain ⟨v, hv, rfl⟩ := List.mem_map.mp h1
      rcases List.mem_append.mp hq with h2 | h2
      · have := (inv.ids q h2).2
        constructor
        · intro h
          simp only at h
          omega
        · intro h
          exact absurd (connected_symm hm.wf h) (hsep q h2 v hv)
      · obtain ⟨w, hw, rfl⟩ := List.mem_map.mp h2
        simp only [true_iff]
        exact Relation.ReflTransGen.trans (connected_symm hm.wf (l1 v hv).2) (l1 w hw).2
  · rw [hrec, List.map_append, List.pairwise_append]
    refine ⟨inv.sorted, ?_, ?_⟩
    · rw [List.map_map]
      apply List.pairwise_of_forall_mem_list
      intro x hx y hy
      simp only [List.mem_map, Function.comp_apply] at hx hy
      obtain ⟨_, -, rfl⟩ := hx
      obtain ⟨_, -, rfl⟩ := hy
      exact Int.le_refl _
    · intro a ha b hb
      obtain ⟨p, hp, rfl⟩ := List.mem_map.mp ha
      rw [List.map_map] at hb
      obtain ⟨_, -, rfl⟩ := List.mem_map.mp hb
      simp only [Function.comp_apply]
      have := (inv.ids p hp).2
      omega

end CcLoop

section CcClaims

variable {VD HD FD : Type}

/-- The loop `while (true)` of `ConnectedComponents` ends with every non-removed
vertex marked. -/
theorem ccLoop_spec {m : Mesh VD HD FD} (hm : m.WellFormed) (depth : Nat) :
    ∀ (n k : Nat) (st : CcState), CcInv m k st → unmarkedCount st.visited < n →
      unmarkedCount st.visited < depth →
      ∃ st' k', ccLoop m depth n (k : Int) st = .ok (some (st', ((k' : Nat) : Int))) ∧
        CcInv m k' st' ∧ ∀ v, liveIn m.verts v = true → getAt st'.visited v = .ok true := by
  intro n
  induction n with
  | zero => intro _ _ _ h; omega
  | succ n ih =>
    intro k st inv hcount hdepth
    obtain ⟨r, hr, hor⟩ := firstUnvisited_spec hm inv.len m.verts 0 rfl
    rcases hor with ⟨rfl, hall⟩ | ⟨h0, hrl, hrv⟩
    · refine ⟨st, k, by simp only [ccLoop, hr]; rfl, inv, ?_⟩
      intro v hv
      obtain ⟨vt, hvt, -⟩ := liveIn_eq_true.mp hv
      exact hall v (by simpa using (getAt_lt_length hvt).1) hv
    · obtain ⟨st1, hrun, g, hroot⟩ := dfsTree_spec hm (fun _ => rfl) depth r
        ⟨st.visited, []⟩ hrl inv.len hdepth
      have hsim := ccTree_sim m (k : Int) st.records depth r ⟨st.visited, []⟩
      rw [hrun] at hsim
      have hst : tagState (k : Int) st.records ⟨st.visited, []⟩ = st := by
        simp [tagState]
      rw [hst] at hsim
      have inv1 := ccInv_step hm inv hrv g hroot
      have hstrict : unmarkedCount st1.visited < unmarkedCount st.visited := by
        refine unmarkedCount_lt_of_mono st.visited st1.visited g.len.symm ?_ r.toNat
          (getAt_eq_ok.mp hrv).2 (getAt_eq_ok.mp hroot).2
        intro i hi
        have := g.mono (i : Int) (getAt_eq_ok.mpr ⟨by omega, by simpa using hi⟩)
        simpa using (getAt_eq_ok.mp this).2
      obtain ⟨st', k', hrun', inv', hall'⟩ := ih (k + 1) _ inv1
        (by show unmarkedCount st1.visited < n; omega)
        (by show unmarkedCount st1.visited < depth; omega)
      refine ⟨st', k', ?_, inv', hall'⟩
      have hinv : Handle.invalid r = false := by simpa [Handle.invalid] using h0
      simp only [ccLoop, hr, hinv, hsim, tagResult]
      push_cast at hrun'
      exact hrun'

/-- The run of `ConnectedComponents` on a well-formed mesh. -/
theorem connectedComponents_run {m : Mesh VD HD FD} (hm : m.WellFormed) (fuel : Nat)
    (hfuel : m.verts.length < fuel) :
    ∃ (k : Nat) (st : CcState), ConnectedComponents m fuel = .ok (some ((k : Int), st.records)) ∧
      CcInv m k st ∧ ∀ v, liveIn m.verts v = true → getAt st.visited v = .ok true := by
  obtain ⟨st', k', hrun, inv, hall⟩ := ccLoop_spec hm fuel fuel 0 _ (ccInv_init m)
    (by simp only [unmarkedCount_replicate]; exact hfuel)
    (by simp only [unmarkedCount_replicate]; exact hfuel)
  refine ⟨k', st', ?_, inv, hall⟩
  simp only [ConnectedComponents]
  simp only [Nat.cast_zero] at hrun
  rw [hrun]

/-- C15: on a well-formed mesh `ConnectedComponents` ends; the recorder has then been
called exactly once on every non-removed vertex, never on anything else, and two
recorded vertices have the same component id exactly when a path of non-removed
half-edges joins them. -/
theorem connectedComponents_partition {m : Mesh VD HD FD} (hm : m.WellFormed) (fuel : Nat)
    (hfuel : m.verts.length < fuel) :
    ∃ k records, ConnectedComponents m fuel = .ok (some (k, records)) ∧
      (∀ v, liveIn m.verts v = true → (records.map Prod.fst).count v = 1) ∧
      (∀ v, liveIn m.verts v = false → (records.map Prod.fst).count v = 0) ∧
      ∀ p ∈ records, ∀ q ∈ records, (p.2 = q.2 ↔ m.Connected p.1 q.1) := by
  obtain ⟨k, st, hrun, inv, hall⟩ := connectedComponents_run hm fuel hfuel
  refine ⟨k, st.records, hrun, ?_, ?_, inv.same⟩
  · intro v hv
    exact List.count_eq_one_of_mem inv.nodup ((inv.mem v).mpr (hall v hv))
  · intro v hv
    apply List.count_eq_zero_of_not_mem
    intro hin
    rw [inv.live v hin] at hv
    cases hv

/-- C16: on a well-formed mesh `ConnectedComponents` ends and returns `k`; the ids
given to the recorder are exactly `0, ..., k - 1`, in non-decreasing order of the
calls; and `k` is the number of connected components: there are `k` non-removed
vertices, no two of them joined by a path of non-removed half-edges, such that every
non-removed vertex is joined to one of them. -/
theorem connectedComponents_count {m : Mesh VD HD FD} (hm : m.WellFormed) (fuel : Nat)
    (hfuel : m.verts.length < fuel) :
    ∃ (k : Nat) (records : List (Int × Int)),
      ConnectedComponents m fuel = .ok (some ((k : Int), records)) ∧
      (∀ c : Int, (∃ v, (v, c) ∈ records) ↔ (0 ≤ c ∧ c < k)) ∧
      (records.map Prod.snd).Pairwise (fun a b => a ≤ b) ∧
      ∃ roots : List Int, roots.length = k ∧
        (∀ r ∈ roots, liveIn m.verts r = true) ∧
        roots.Pairwise (fun a b => ¬ m.Connected a b) ∧
        ∀ v, liveIn m.verts v = true → ∃ r ∈ roots, m.Connected r v := by
  obtain ⟨k, st, hrun, inv, hall⟩ := connectedComponents_run hm fuel hfuel
  refine ⟨k, st.records, hrun, ?_, inv.sorted, ?_⟩
  · intro c
    constructor
    · rintro ⟨v, hv⟩
      exact inv.ids (v, c) hv
    · rintro ⟨h0, hlt⟩
      obtain ⟨v, hv⟩ := inv.used c.toNat (by omega)
      rw [Int.toNat_of_nonneg h0] at hv
      exact ⟨v, hv⟩
  · -- one recorded vertex for each id below `j`
    have build : ∀ j : Nat, j ≤ k → ∃ roots : List Int, roots.length = j ∧
        (∀ i : Nat, i < j → ∀ r, roots[i]? = some r → (r, (i : Int)) ∈ st.records) := by
      intro j
      induction j with
      | zero => intro _; exact ⟨[], rfl, fun i hi => by omega⟩
      | succ j ih =>
        intro hj
        obtain ⟨roots, hl, hr⟩ := ih (by omega)
        obtain ⟨v, hv⟩ := inv.used j (by omega)
        refine ⟨roots ++ [v], by simp [hl], ?_⟩
        intro i hi r hri
        by_cases hij : i < j
        · rw [List.getElem?_append_left (by omega)] at hri
          exact hr i hij r hri
        · have : i = j := by omega
          subst this
          rw [List.getElem?_append_right (by omega), hl] at hri
          simp only [Nat.sub_self, List.getElem?_cons_zero, Option.some.injEq] at hri
          rw [← hri]
          exact hv
    obtain ⟨roots, hl, hr⟩ := build k (Nat.le_refl _)
    refine ⟨roots, hl, ?_, ?_, ?_⟩
    · intro r hrm
      obtain ⟨i, hi⟩ := List.mem_iff_getElem?.mp hrm
      have hik : i < k := by
        by_contra hc
        rw [List.getElem?_eq_none (by omega)] at hi
        cases hi
      exact inv.live r (List.mem_map_of_mem _ (hr i hik r hi))
    · rw [List.pairwise_iff_getElem]
      intro i j hi hj hij
      have h1 := hr i (by omega) _ (List.getElem?_eq_getElem hi)
      have h2 := hr j (by omega) _ (List.getElem?_eq_getElem hj)
      intro hc
      have := (inv.same _ h1 _ h2).mpr hc
      simp only [Nat.cast_inj] at this
      omega
    · intro v hv
      obtain ⟨p, hp, rfl⟩ := List.mem_map.mp ((inv.mem v).mpr (hall v hv))
      obtain ⟨h0, hlt⟩ := inv.ids p hp
      have hik : p.2.toNat < k := by omega
      have hx : roots[p.2.toNat]? = some roots[p.2.toNat] :=
        List.getElem?_eq_getElem (by omega)
      have h1 := hr p.2.toNat hik _ hx
      have hlt' : p.2.toNat < roots.length := by omega
      refine ⟨roots[p.2.toNat], List.getElem_mem hlt', ?_⟩
      apply (inv.same _ h1 p hp).mp
      simp only
      omega

theorem connectedComponents_partition_witness :
    ∃ k records, ConnectedComponents cubeMinusVertex 9 = .ok (some (k, records)) ∧
      (∀ v, liveIn cubeMinusVertex.verts v = true → (records.map Prod.fst).count v = 1) ∧
      (∀ v, liveIn cubeMinusVertex.verts v = false → (records.map Prod.fst).count v = 0) ∧
      ∀ p ∈ records, ∀ q ∈ records, (p.2 = q.2 ↔ cubeMinusVertex.Connected p.1 q.1) :=
  connectedComponents_partition wellFormed_cubeMinusVertex 9 (by decide)

end CcClaims

theorem reachable_holeMesh : Reachable holeMesh :=
  Reachable.removeVert 0
    (Reachable.addVertex () (Reachable.addVertex () (Reachable.addVertex ()
      (Reachable.addVertex () Reachable.empty))))
    (by decide : (threeVertexMesh.addVertex ()).1.removeVert 0 = .ok holeMesh)

theorem wellFormed_holeMesh : holeMesh.WellFormed :=
  ⟨reachable_wf reachable_holeMesh, reachable_tidy reachable_holeMesh, by decide, by decide⟩

theorem connectedComponents_count_witness :
    ∃ (k : Nat) (records : List (Int × Int)),
      ConnectedComponents holeMesh 5 = .ok (some ((k : Int), records)) ∧
      (∀ c : Int, (∃ v, (v, c) ∈ records) ↔ (0 ≤ c ∧ c < k)) ∧
      (records.map Prod.snd).Pairwise (fun a b => a ≤ b) ∧
      ∃ roots : List Int, roots.length = k ∧
        (∀ r ∈ roots, liveIn holeMesh.verts r = true) ∧
        roots.Pairwise (fun a b => ¬ holeMesh.Connected a b) ∧
        ∀ v, liveIn holeMesh.verts v = true → ∃ r ∈ roots, holeMesh.Connected r v :=
  connectedComponents_count wellFormed_holeMesh 5 (by decide)

/-! ## `RemoveDanglingComponents` (C17) -/

/-- Once both vertices of the edge are removed, a round of the loop changes nothing
and the loop goes on. -/
theorem removeDanglingLoop_stuck (n : Nat) :
    removeDanglingLoop 2 n edgeMeshRemoved = .ok none := by
  induction n with
  | zero => rfl
  | succ n ih =>
    have h1 : countDegrees (List.replicate 2 0) edgeMeshRemoved.halfs = .ok [0, 0] := by decide
    have h2 : danglingOf [0, 0] = [0, 1] := by decide
    have h3 : removeVerts edgeMeshRemoved [0, 1] = .ok edgeMeshRemoved := by decide
    simp only [removeDanglingLoop, h1, h2, h3]
    exact ih

/-- C17 fails on the code: on the mesh of two vertices joined by a single edge,
`RemoveDanglingComponents` does not return, whatever the number of rounds allowed.
The first round removes both vertices; from then on both have `cdegrees[i] == 0`,
so `danglcs` is never empty and the loop never breaks. -/
theorem removeDanglingComponents_loops (fuel : Nat) :
    RemoveDanglingComponents edgeMesh fuel = .ok none := by
  cases fuel with
  | zero => rfl
  | succ n =>
    have h1 : countDegrees (List.replicate 2 0) edgeMesh.halfs = .ok [1, 1] := by decide
    have h2 : danglingOf [1, 1] = [0, 1] := by decide
    have h3 : removeVerts edgeMesh [0, 1] = .ok edgeMeshRemoved := by decide
    have hl : edgeMesh.verts.length = 2 := by decide
    simp only [RemoveDanglingComponents, hl, removeDanglingLoop, h1, h2, h3]
    exact removeDanglingLoop_stuck n

/-! ## `ConstructInternalLoopFrom` (C18, C19) -/

section LoopSearch

variable {VD HD FD : Type}

theorem toOf_eq {m : Mesh VD HD FD} {h : Int} {t : Triplet HalfTopo HD}
    (ht : getAt m.halfs h = .ok t) : m.toOf h = t.topo.eto := by
  simp [Mesh.toOf, ht]

theorem fromOf_eq {m : Mesh VD HD FD} {h : Int} {t : Triplet HalfTopo HD}
    (ht : getAt m.halfs h = .ok t) : m.fromOf h = t.topo.efrom := by
  simp [Mesh.fromOf, ht]

theorem faceOf_eq {m : Mesh VD HD FD} {h : Int} {t : Triplet HalfTopo HD}
    (ht : getAt m.halfs h = .ok t) : m.faceOf h = t.topo.face := by
  simp [Mesh.faceOf, ht]

/-- When `hasSharedVert` ends `false`, every half-edge of the path is a slot of
`_halfs` and ends neither at `startV` nor at `vh`. -/
theorem sharedVertLoop_false {m : Mesh VD HD FD} {startV vh : Int} :
    ∀ {p : List Int}, sharedVertLoop m startV vh p = .ok false →
      ∀ h ∈ p, (∃ t, getAt m.halfs h = .ok t) ∧ m.toOf h ≠ startV ∧ m.toOf h ≠ vh := by
  intro p
  induction p with
  | nil => intro _ h hh; simp at hh
  | cons a rest ih =>
    intro hrun h hh
    unfold sharedVertLoop at hrun
    cases ha : getAt m.halfs a with
    | error e => simp [ha] at hrun
    | ok t =>
      simp only [ha] at hrun
      by_cases h1 : t.topo.eto = startV
      · simp [h1] at hrun
      · by_cases h2 : t.topo.eto = vh
        · rw [if_neg h1, if_pos h2] at hrun
          simp at hrun
        · rw [if_neg h1, if_neg h2] at hrun
          rcases List.mem_cons.mp hh with rfl | hh
          · exact ⟨⟨t, ha⟩, by rwa [toOf_eq ha], by rwa [toOf_eq ha]⟩
          · exact ih hrun h hh

/-- When `hasSharedFace` ends `false`, no half-edge of the path shares a face with
the next half-edge, whose faces are `fh` and `fhoppo`. -/
theorem sharedFaceLoop_false {m : Mesh VD HD FD} {fh fhoppo : Int} :
    ∀ {p : List Int}, sharedFaceLoop m fh fhoppo p = .ok false →
      ∀ h ∈ p, fh ≠ m.faceOf h ∧ fh ≠ m.faceOf (m.oppOf h) ∧
        fhoppo ≠ m.faceOf h ∧ fhoppo ≠ m.faceOf (m.oppOf h) := by
  intro p
  induction p with
  | nil => intro _ h hh; simp at hh
  | cons a rest ih =>
    intro hrun h hh
    unfold sharedFaceLoop at hrun
    cases ha : getAt m.halfs a with
    | error e => simp [ha] at hrun
    | ok t =>
      simp only [ha] at hrun
      cases ho : getAt m.halfs t.topo.opposite with
      | error e => simp [ho] at hrun
      | ok o =>
        simp only [ho] at hrun
        by_cases hc : fh = t.topo.face ∨ fh = o.topo.face ∨ fhoppo = t.topo.face ∨
            fhoppo = o.topo.face
        · simp [hc] at hrun
        · rw [if_neg hc] at hrun
          rcases List.mem_cons.mp hh with rfl | hh
          · rw [faceOf_eq ha, oppOf_eq ha, faceOf_eq ho]
            refine ⟨fun e => hc (Or.inl e), fun e => hc (Or.inr (Or.inl e)),
              fun e => hc (Or.inr (Or.inr (Or.inl e))), fun e => hc (Or.inr (Or.inr (Or.inr e)))⟩
          · exact ih hrun h hh

theorem intersectLoop_false {intersectFun : Int → Int → Bool} {nexth : Int} :
    ∀ {p : List Int}, intersectLoop intersectFun nexth p = false →
      ∀ h ∈ p, intersectFun h nexth = false := by
  intro p
  induction p with
  | nil => intro _ h hh; simp at hh
  | cons a rest ih =>
    intro hrun h hh
    unfold intersectLoop at hrun
    by_cases hc : intersectFun a nexth = true
    · simp [hc] at hrun
    · rw [if_neg hc] at hrun
      rcases List.mem_cons.mp hh with rfl | hh
      · simpa using hc
      · exact ih hrun h hh

/-- What a half-edge `x` that passes the tests of the loop body satisfies. -/
theorem validNext_true {m : Mesh VD HD FD} {intersectFun : Int → Int → Bool}
    {startV : Int} {p : List Int} {x : Int}
    (hrun : validNext m intersectFun startV p x = .ok true) :
    x ∉ p ∧ (∃ t, getAt m.halfs x = .ok t) ∧ m.oppOf x ∉ p ∧
      (∃ d, m.degree (m.toOf x) = .ok d ∧ 4 ≤ d) ∧
      (∀ h ∈ p, (∃ t, getAt m.halfs h = .ok t) ∧ m.toOf h ≠ startV ∧ m.toOf h ≠ m.toOf x) ∧
      (∀ h ∈ p, NoSharedFace m h x) ∧ ∀ h ∈ p, intersectFun h x = false := by
  unfold validNext at hrun
  by_cases h1 : Contains p x = true
  · simp [h1] at hrun
  · rw [if_neg h1] at hrun
    cases hx : getAt m.halfs x with
    | error e => simp [hx] at hrun
    | ok tn =>
      simp only [hx] at hrun
      by_cases h2 : Contains p tn.topo.opposite = true
      · simp [h2] at hrun
      · rw [if_neg h2] at hrun
        cases hd : m.degree tn.topo.eto with
        | error e => simp [hd] at hrun
        | ok d =>
          simp only [hd] at hrun
          by_cases h3 : d < 4
          · simp [h3] at hrun
          · rw [if_neg h3] at hrun
            cases hsv : sharedVertLoop m startV tn.topo.eto p with
            | error e => simp [hsv] at hrun
            | ok b =>
              cases b with
              | true => simp [hsv] at hrun
              | false =>
                simp only [hsv] at hrun
                cases ho : getAt m.halfs tn.topo.opposite with
                | error e => simp [ho] at hrun
                | ok tno =>
                  simp only [ho] at hrun
                  cases hsf : sharedFaceLoop m tn.topo.face tno.topo.face p with
                  | error e => simp [hsf] at hrun
                  | ok b2 =>
                    cases b2 with
                    | true => simp [hsf] at hrun
                    | false =>
                      simp only [hsf] at hrun
                      have hi : intersectLoop intersectFun x p = false := by
                        simpa using hrun
                      have c1 : x ∉ p := by simpa [Contains] using h1
                      have c2 : tn.topo.opposite ∉ p := by simpa [Contains] using h2
                      refine ⟨c1, ⟨tn, rfl⟩, by rwa [oppOf_eq hx], ⟨d, by rwa [toOf_eq hx],
                        by omega⟩, ?_, ?_, intersectLoop_false hi⟩
                      · rw [toOf_eq hx]; exact sharedVertLoop_false hsv
                      · intro h hh
                        have := sharedFaceLoop_false hsf h hh
                        unfold NoSharedFace
                        rw [faceOf_eq hx, oppOf_eq hx, faceOf_eq ho]
                        exact this

end LoopSearch

section LoopSound

variable {VD HD FD : Type}

theorem startOK_fromOf {m : Mesh VD HD FD} {initial : Int} (hs : StartOK m initial) :
    ∃ ti, getAt m.halfs initial = .ok ti ∧ 0 ≤ ti.topo.efrom ∧ 0 ≤ ti.topo.eto ∧
      ∃ d, m.degree (m.toOf initial) = .ok d ∧ 4 ≤ d := by
  obtain ⟨ti, d1, d2, hti, hd1, _, hd2, h4⟩ := hs
  refine ⟨ti, hti, ?_, ?_, d2, by rwa [toOf_eq hti], h4⟩
  · by_contra hneg
    have : getAt m.verts ti.topo.efrom = .error .outOfBounds := by
      unfold getAt; rw [if_pos (by omega)]
    simp [Mesh.degree, this] at hd1
  · by_contra hneg
    have : getAt m.verts ti.topo.eto = .error .outOfBounds := by
      unfold getAt; rw [if_pos (by omega)]
    simp [Mesh.degree, this] at hd2

theorem liveIn_of_ends {m : Mesh VD HD FD} (hwf : m.WF) {h : Int} {t : Triplet HalfTopo HD}
    (ht : getAt m.halfs h = .ok t) (h1 : 0 ≤ t.topo.efrom) (h2 : 0 ≤ t.topo.eto) :
    liveIn m.halfs h = true := by
  rw [liveIn_eq_true]
  refine ⟨t, ht, ?_⟩
  cases hex : t.exists_ with
  | true => rfl
  | false =>
    rcases hwf.deadReset h t ht hex with hd | hd <;> omega

/-- A half-edge of the outgoing list of `v`, in a mesh whose lists hold no removed
half-edge, is a non-removed half-edge from `v`. -/
theorem listsLive_from {m : Mesh VD HD FD} (hwf : m.WF) (hl : m.ListsLive) {v x : Int}
    {vt : Triplet VertTopo VD} (hv : getAt m.verts v = .ok vt) (hx : x ∈ vt.topo.halfedges) :
    liveIn m.halfs x = true ∧ m.fromOf x = v := by
  have hlive := hl vt (mem_iff_getAt.mpr ⟨v, hv⟩) x hx
  refine ⟨hlive, ?_⟩
  obtain ⟨t, ht⟩ := hwf.listInRange v vt hv x hx
  have hex : t.exists_ = true := by simpa [liveIn, ht] using hlive
  rw [fromOf_eq ht]
  exact hwf.listFrom v vt hv x hx t ht hex

/-- Every path the extension rule builds satisfies the invariant of the search. -/
theorem admissible_inv {m : Mesh VD HD FD} (hwf : m.WF) (hl : m.ListsLive)
    {intersectFun : Int → Int → Bool} {initial : Int} {p : List Int}
    (hp : Admissible m intersectFun initial p) : PathInv m intersectFun initial p := by
  induction hp with
  | start hs =>
    obtain ⟨ti, hti, h1, h2, hd⟩ := startOK_fromOf hs
    refine ⟨rfl, ?_, List.chain'_singleton _, by simp, ?_, by simp, by simp, by simp⟩
    · intro h hh
      rw [List.mem_singleton.mp hh]
      exact liveIn_of_ends hwf hti h1 h2
    · intro h hh
      rw [List.mem_singleton.mp hh]
      exact hd
  | extend hp hback hv hx hvalid ih =>
    rename_i p back x vt
    obtain ⟨c1, _, _, cdeg, cvert, cface, cinter⟩ := validNext_true hvalid
    obtain ⟨xlive, xfrom⟩ := listsLive_from hwf hl hv hx
    refine ⟨?_, ?_, ?_, ?_, ?_, ?_, ?_, ?_⟩
    · have := ih.head
      cases p with
      | nil => simp at hback
      | cons a rest => simpa using this
    · intro h hh
      rcases List.mem_append.mp hh with hh | hh
      · exact ih.live h hh
      · rw [List.mem_singleton.mp hh]; exact xlive
    · rw [List.chain'_append]
      refine ⟨ih.chain, List.chain'_singleton _, ?_⟩
      intro a ha b hb
      rw [hback] at ha
      simp only [Option.mem_def, Option.some.injEq] at ha
      simp only [List.head?_cons, Option.mem_def, Option.some.injEq] at hb
      subst ha; subst hb
      exact xfrom.symm
    · rw [List.map_append, List.nodup_append]
      refine ⟨ih.nodup, by simp, ?_⟩
      intro a ha1 ha2
      simp only [List.map_cons, List.map_nil, List.mem_singleton] at ha2
      obtain ⟨h, hh, rfl⟩ := List.mem_map.mp ha1
      exact (cvert h hh).2.2 ha2
    · intro h hh
      rcases List.mem_append.mp hh with hh | hh
      · exact ih.degree h hh
      · rw [List.mem_singleton.mp hh]; exact cdeg
    · intro h hh
      rw [List.dropLast_concat] at hh
      exact (cvert h hh).2.1
    · rw [List.pairwise_append]
      refine ⟨ih.faces, by simp, ?_⟩
      intro a ha b hb
      rw [List.mem_singleton.mp hb]
      exact cface a ha
    · rw [List.pairwise_append]
      refine ⟨ih.inter, by simp, ?_⟩
      intro a ha b hb
      rw [List.mem_singleton.mp hb]
      exact cinter a ha

/-- The half-edges of `validNextHs` are the half-edges of the list that pass the
tests of the loop body. -/
theorem validNextHs_mem {m : Mesh VD HD FD} {intersectFun : Int → Int → Bool}
    {startV : Int} {p : List Int} :
    ∀ {l vs : List Int}, validNextHs m intersectFun startV p l = .ok vs →
      ∀ x, x ∈ vs ↔ (x ∈ l ∧ validNext m intersectFun startV p x = .ok true) := by
  intro l
  induction l with
  | nil =>
    intro vs hrun x
    simp only [validNextHs, Except.ok.injEq] at hrun
    subst hrun
    simp
  | cons a rest ih =>
    intro vs hrun x
    unfold validNextHs at hrun
    cases ha : validNext m intersectFun startV p a with
    | error e => simp [ha] at hrun
    | ok b =>
      simp only [ha] at hrun
      cases hr : validNextHs m intersectFun startV p rest with
      | error e => simp [hr] at hrun
      | ok vs1 =>
        simp only [hr, Except.ok.injEq] at hrun
        subst hrun
        have := ih hr x
        cases b with
        | true =>
          simp only [if_true, List.mem_cons, this]
          constructor
          · rintro (rfl | ⟨h1, h2⟩)
            · exact ⟨Or.inl rfl, ha⟩
            · exact ⟨Or.inr h1, h2⟩
          · rintro ⟨rfl | h1, h2⟩
            · exact Or.inl rfl
            · exact Or.inr ⟨h1, h2⟩
        | false =>
          simp only [Bool.false_eq_true, if_false, List.mem_cons, this]
          constructor
          · rintro ⟨h1, h2⟩
            exact ⟨Or.inr h1, h2⟩
          · rintro ⟨rfl | h1, h2⟩
            · rw [ha] at h2; simp at h2
            · exact ⟨h1, h2⟩

end LoopSound

section LoopResult

variable {VD HD FD : Type}

/-- One round of the search on a non-empty queue, when the reads succeed: the front
path is returned if it is closed, and otherwise replaced by its valid extensions at
the back of the queue (in both branches of the source, one for a single valid
extension and one for the rest). -/
theorem loopSearch_step {m : Mesh VD HD FD} (intersectFun : Int → Int → Bool) (startV : Int)
    (n : Nat) {cur : List Int} (Q : List (List Int)) {back : Int} {tb : Triplet HalfTopo HD}
    (hback : cur.getLast? = some back) (htb : getAt m.halfs back = .ok tb) :
    (tb.topo.eto = startV →
      loopSearch m intersectFun startV (n + 1) (cur :: Q) = .ok (some cur)) ∧
    (tb.topo.eto ≠ startV → ∀ vt valid, getAt m.verts tb.topo.eto = .ok vt →
      validNextHs m intersectFun startV cur vt.topo.halfedges = .ok valid →
      loopSearch m intersectFun startV (n + 1) (cur :: Q)
        = loopSearch m intersectFun startV n (Q ++ valid.map (fun nexth => cur ++ [nexth]))) := by
  constructor
  · intro hc
    simp only [loopSearch, hback, htb, hc, if_true]
  · intro hc vt valid hvt hvalid
    simp only [loopSearch, hback, htb, hc, if_false, hvt, hvalid]
    by_cases h : valid.length = 1
    · rw [if_pos h]
      match valid, h with
      | [y], _ => rfl
    · rw [if_neg h]

/-- Whatever the search returns from a queue of paths built by the extension rule
is the empty list or a closed path built by the extension rule. -/
theorem loopSearch_sound {m : Mesh VD HD FD} {intersectFun : Int → Int → Bool}
    {initial : Int} :
    ∀ (n : Nat) (Q : List (List Int)), (∀ q ∈ Q, Admissible m intersectFun initial q) →
      ∀ p, loopSearch m intersectFun (m.fromOf initial) n Q = .ok (some p) →
        p = [] ∨ (Admissible m intersectFun initial p ∧ m.Closes initial p) := by
  intro n
  induction n with
  | zero => intro Q _ p hrun; simp [loopSearch] at hrun
  | succ n ih =>
    intro Q hQ p hrun
    cases Q with
    | nil =>
      simp only [loopSearch, Except.ok.injEq, Option.some.injEq] at hrun
      exact Or.inl hrun.symm
    | cons cur rest =>
      cases hback : cur.getLast? with
      | none => simp [loopSearch, hback] at hrun
      | some back =>
        cases htb : getAt m.halfs back with
        | error e => simp [loopSearch, hback, htb] at hrun
        | ok tb =>
          have hstep := loopSearch_step intersectFun (m.fromOf initial) n rest hback htb
          by_cases hc : tb.topo.eto = m.fromOf initial
          · rw [hstep.1 hc] at hrun
            simp only [Except.ok.injEq, Option.some.injEq] at hrun
            subst hrun
            exact Or.inr ⟨hQ cur (List.mem_cons_self _ _), back, hback, by rwa [toOf_eq htb]⟩
          · cases hvt : getAt m.verts tb.topo.eto with
            | error e => simp [loopSearch, hback, htb, hc, hvt] at hrun
            | ok vt =>
              cases hvalid : validNextHs m intersectFun (m.fromOf initial) cur
                  vt.topo.halfedges with
              | error e => simp [loopSearch, hback, htb, hc, hvt, hvalid] at hrun
              | ok valid =>
                rw [hstep.2 hc vt valid hvt hvalid] at hrun
                refine ih _ ?_ p hrun
                intro q hq
                rcases List.mem_append.mp hq with hq | hq
                · exact hQ q (List.mem_cons_of_mem _ hq)
                · obtain ⟨x, hx, rfl⟩ := List.mem_map.mp hq
                  obtain ⟨hx1, hx2⟩ := (validNextHs_mem hvalid x).mp hx
                  exact Admissible.extend (hQ cur (List.mem_cons_self _ _)) hback
                    (by rw [toOf_eq htb]; exact hvt) hx1 hx2

/-- What `ConstructInternalLoopFrom` returns is the empty list or a closed path
built by the extension rule. -/
theorem constructInternalLoopFrom_sound {m : Mesh VD HD FD} {intersectFun : Int → Int → Bool}
    {initial : Int} {fuel : Nat} {p : List Int}
    (hrun : ConstructInternalLoopFrom m initial intersectFun fuel = .ok (some p)) :
    p = [] ∨ (Admissible m intersectFun initial p ∧ m.Closes initial p) := by
  unfold ConstructInternalLoopFrom at hrun
  cases hti : getAt m.halfs initial with
  | error e => simp [hti] at hrun
  | ok ti =>
    simp only [hti] at hrun
    cases hd1 : m.degree ti.topo.efrom with
    | error e => simp [hd1] at hrun
    | ok d1 =>
      simp only [hd1] at hrun
      by_cases h1 : d1 < 4
      · simp only [h1, if_true, Except.ok.injEq, Option.some.injEq] at hrun
        exact Or.inl hrun.symm
      · rw [if_neg h1] at hrun
        cases hd2 : m.degree ti.topo.eto with
        | error e => simp [hd2] at hrun
        | ok d2 =>
          simp only [hd2] at hrun
          by_cases h2 : d2 < 4
          · simp only [h2, if_true, Except.ok.injEq, Option.some.injEq] at hrun
            exact Or.inl hrun.symm
          · rw [if_neg h2, ← fromOf_eq hti] at hrun
            refine loopSearch_sound fuel [[initial]] ?_ p hrun
            intro q hq
            rw [List.mem_singleton.mp hq]
            exact Admissible.start ⟨ti, d1, d2, hti, hd1, by omega, hd2, by omega⟩

end LoopResult

section LoopClaim

variable {VD HD FD : Type}

/-- On a mesh that satisfies the representation invariant and has no removed
half-edge left in a vertex's outgoing list, a non-empty list returned by
`ConstructInternalLoopFrom` starts with the start edge, is made of non-removed
half-edges that chain (`to` of one is `from` of the next), ends at `from` of the
start edge, has pairwise distinct end vertices of degree at least 4, no two of its
half-edges have a face in common (the faces on both sides of each counted), and
`intersectFun` is false for every pair of an earlier and a later half-edge. -/
theorem constructInternalLoopFrom_loop {m : Mesh VD HD FD} (hwf : m.WF) (hl : m.ListsLive)
    {intersectFun : Int → Int → Bool} {initial : Int} {fuel : Nat} {p : List Int}
    (hrun : ConstructInternalLoopFrom m initial intersectFun fuel = .ok (some p))
    (hne : p ≠ []) :
    p.head? = some initial ∧ (∀ h ∈ p, liveIn m.halfs h = true) ∧
      p.Chain' (fun a b => m.toOf a = m.fromOf b) ∧
      (∃ back, p.getLast? = some back ∧ m.toOf back = m.fromOf initial) ∧
      (p.map m.toOf).Nodup ∧ (∀ h ∈ p, ∃ d, m.degree (m.toOf h) = .ok d ∧ 4 ≤ d) ∧
      p.Pairwise (NoSharedFace m) ∧ p.Pairwise (fun a b => intersectFun a b = false) := by
  rcases constructInternalLoopFrom_sound hrun with h | ⟨hadm, hclosed⟩
  · exact absurd h hne
  · have inv := admissible_inv hwf hl hadm
    exact ⟨inv.head, inv.live, inv.chain, hclosed, inv.nodup, inv.degree, inv.faces, inv.inter⟩

end LoopClaim

theorem reachable_addParallel :
    ∀ (n : Nat) {m m' : Mesh Unit Dummy Dummy}, Reachable m → addParallel n m = .ok m' →
      Reachable m' := by
  intro n
  induction n with
  | zero =>
    intro m m' h hr
    simp only [addParallel, Except.ok.injEq] at hr
    rw [← hr]
    exact h
  | succ n ih =>
    intro m m' h hr
    simp only [addParallel] at hr
    cases h1 : m.addEdge 0 1 () () false with
    | error e => simp [h1] at hr
    | ok p =>
      obtain ⟨m1, f⟩ := p
      simp only [h1] at hr
      exact ih (Reachable.addEdge 0 1 () () false h h1) hr

theorem reachable_addPairFaces {l : List Int} :
    ∀ {m m' : Mesh Unit Dummy Dummy}, Reachable m → addPairFaces m l = .ok m' →
      Reachable m' := by
  induction l with
  | nil =>
    intro m m' h hr
    simp only [addPairFaces, Except.ok.injEq] at hr
    rw [← hr]
    exact h
  | cons a rest ih =>
    intro m m' h hr
    simp only [addPairFaces] at hr
    cases h1 : m.addFace [a, a + 1] () with
    | error e => simp [h1] at hr
    | ok p =>
      obtain ⟨m1, f⟩ := p
      simp only [h1] at hr
      exact ih (Reachable.addFace [a, a + 1] () h h1) hr

theorem reachable_removeHalfs {VD HD FD : Type} [Inhabited HD] {l : List Int} :
    ∀ {m m' : Mesh VD HD FD}, Reachable m → removeHalfs m l = .ok m' → Reachable m' := by
  induction l with
  | nil =>
    intro m m' h hr
    simp only [removeHalfs, Except.ok.injEq] at hr
    rw [← hr]
    exact h
  | cons a rest ih =>
    intro m m' h hr
    simp only [removeHalfs] at hr
    cases h1 : m.removeHalf a with
    | error e => simp [h1] at hr
    | ok m1 =>
      simp only [h1] at hr
      exact ih (Reachable.removeHalf a h h1) hr

theorem reachable_octahedron : Reachable octahedron :=
  reachable_addFacesSeq (reachable_addVertices (fun _ => ()) _ Reachable.empty)
    (by decide : addFacesSeq ((List.range 6).foldl (fun m _ => (m.addVertex ()).1) Mesh.empty)
      [[0, 2, 3], [0, 3, 4], [0, 4, 5], [0, 5, 2], [1, 3, 2], [1, 4, 3], [1, 5, 4], [1, 2, 5]]
        = .ok octahedron)

theorem reachable_fourEdges : Reachable fourEdges :=
  reachable_addParallel 4
    (Reachable.addVertex () (Reachable.addVertex () Reachable.empty))
    (by decide : addParallel 4 twoVertexMesh = .ok fourEdges)

theorem reachable_fourEdgeMesh : Reachable fourEdgeMesh :=
  reachable_addPairFaces reachable_fourEdges
    (by decide : addPairFaces fourEdges [0, 2, 4, 6] = .ok fourEdgeMesh)

theorem reachable_staleEdgeMesh : Reachable staleEdgeMesh :=
  reachable_removeHalfs
    (reachable_addPairFaces reachable_fourEdges
      (by decide : addPairFaces fourEdges [0] = .ok oneFaceMesh))
    (by decide : removeHalfs oneFaceMesh [3, 5, 7] = .ok staleEdgeMesh)

theorem reachable_staleStartMesh : Reachable staleStartMesh :=
  Reachable.removeHalf 1
    (reachable_addPairFaces reachable_fourEdges
      (by decide : addPairFaces fourEdges [2, 4, 6] = .ok threeFaceMesh))
    (by decide : threeFaceMesh.removeHalf 1 = .ok staleStartMesh)

theorem listsLive_octahedron : octahedron.ListsLive := by
  unfold Mesh.ListsLive
  decide

/-- C18 fails on the code: the search does not skip the removed half-edges that
`remove(HalfHandle)` leaves in the outgoing lists. The mesh `staleEdgeMesh` is reached
through the member functions and `AssertEdgesAreStiched` passes on it, yet from the
half-edge `0`
(`0 -> 1`) the search returns `[0, 3]`, where `3` is a removed half-edge still in the
outgoing list of vertex `1` whose `from()` was reset: `to(0)` is `1` and `from(3)`
is invalid, so the two do not chain. -/
theorem constructInternalLoopFrom_unchained :
    Reachable staleEdgeMesh ∧ AssertEdgesAreStiched staleEdgeMesh = .ok () ∧
      ConstructInternalLoopFrom staleEdgeMesh 0 (fun _ _ => false) 3 = .ok (some [0, 3]) ∧
      staleEdgeMesh.toOf 0 = 1 ∧ staleEdgeMesh.fromOf 3 = -1 ∧
      liveIn staleEdgeMesh.halfs 3 = false :=
  ⟨reachable_staleEdgeMesh, by decide, by decide, by decide, by decide, by decide⟩

theorem constructInternalLoopFrom_loop_witness :
    ConstructInternalLoopFrom octahedron 0 (fun _ _ => false) 9 = .ok (some [0, 18, 20, 8]) ∧
      ([0, 18, 20, 8] : List Int) ≠ [] ∧
      ([0, 18, 20, 8] : List Int).head? = some 0 ∧
      (∀ h ∈ ([0, 18, 20, 8] : List Int), liveIn octahedron.halfs h = true) ∧
      ([0, 18, 20, 8] : List Int).Chain' (fun a b => octahedron.toOf a = octahedron.fromOf b) ∧
      (∃ back, ([0, 18, 20, 8] : List Int).getLast? = some back ∧
        octahedron.toOf back = octahedron.fromOf 0) ∧
      (([0, 18, 20, 8] : List Int).map octahedron.toOf).Nodup ∧
      (∀ h ∈ ([0, 18, 20, 8] : List Int),
        ∃ d, octahedron.degree (octahedron.toOf h) = .ok d ∧ 4 ≤ d) ∧
      ([0, 18, 20, 8] : List Int).Pairwise (NoSharedFace octahedron) ∧
      ([0, 18, 20, 8] : List Int).Pairwise (fun a b => (fun _ _ => false) a b = false) :=
  ⟨by decide, by decide,
    constructInternalLoopFrom_loop (reachable_wf reachable_octahedron) listsLive_octahedron
      (by decide : ConstructInternalLoopFrom octahedron 0 (fun _ _ => false) 9
        = .ok (some [0, 18, 20, 8])) (by decide)⟩

section LoopTotal

variable {VD HD FD : Type}

theorem sharedVertLoop_total (m : Mesh VD HD FD) (startV vh : Int) :
    ∀ {p : List Int}, (∀ h ∈ p, (∃ t, getAt m.halfs h = .ok t) ∧ m.toOf h ≠ startV) →
      ∃ b, sharedVertLoop m startV vh p = .ok b := by
  intro p
  induction p with
  | nil => intro _; exact ⟨false, rfl⟩
  | cons a rest ih =>
    intro hp
    obtain ⟨⟨t, ht⟩, hne⟩ := hp a (List.mem_cons_self _ _)
    rw [toOf_eq ht] at hne
    unfold sharedVertLoop
    simp only [ht, if_neg hne]
    by_cases h2 : t.topo.eto = vh
    · exact ⟨true, by rw [if_pos h2]⟩
    · rw [if_neg h2]
      exact ih (fun h hh => hp h (List.mem_cons_of_mem _ hh))

theorem sharedFaceLoop_total {m : Mesh VD HD FD} (fh fhoppo : Int) :
    ∀ {p : List Int},
      (∀ h ∈ p, ∃ t o, getAt m.halfs h = .ok t ∧ getAt m.halfs t.topo.opposite = .ok o) →
      ∃ b, sharedFaceLoop m fh fhoppo p = .ok b := by
  intro p
  induction p with
  | nil => intro _; exact ⟨false, rfl⟩
  | cons a rest ih =>
    intro hp
    obtain ⟨t, o, ht, ho⟩ := hp a (List.mem_cons_self _ _)
    unfold sharedFaceLoop
    simp only [ht, ho]
    by_cases hc : fh = t.topo.face ∨ fh = o.topo.face ∨ fhoppo = t.topo.face ∨
        fhoppo = o.topo.face
    · exact ⟨true, by rw [if_pos hc]⟩
    · rw [if_neg hc]
      exact ih (fun h hh => hp h (List.mem_cons_of_mem _ hh))

/-- A non-removed half-edge of a well-formed mesh and its opposite are slots of
`_halfs`, and its end vertex is a slot of `_verts`. -/
theorem wellFormed_half {m : Mesh VD HD FD} (hm : m.WellFormed) {x : Int}
    (hx : liveIn m.halfs x = true) :
    ∃ t o vt, getAt m.halfs x = .ok t ∧ getAt m.halfs t.topo.opposite = .ok o ∧
      getAt m.verts t.topo.eto = .ok vt := by
  obtain ⟨t, ht, hex⟩ := liveIn_eq_true.mp hx
  obtain ⟨o, ho, -⟩ := hm.wf.pairing x t ht hex
  have hends := (hm.ends t (mem_iff_getAt.mpr ⟨x, ht⟩) hex).1
  simp only [Bool.and_eq_true] at hends
  obtain ⟨vt, hvt, -⟩ := liveIn_eq_true.mp hends.2
  exact ⟨t, o, vt, ht, ho, hvt⟩

/-- On a well-formed mesh the tests of the loop body run through for a non-removed
half-edge `x` and an open path `p` of non-removed half-edges. -/
theorem validNext_total {m : Mesh VD HD FD} (hm : m.WellFormed)
    (intersectFun : Int → Int → Bool) {startV : Int} {p : List Int}
    (hlive : ∀ h ∈ p, liveIn m.halfs h = true) (hopen : ∀ h ∈ p, m.toOf h ≠ startV)
    {x : Int} (hx : liveIn m.halfs x = true) :
    ∃ b, validNext m intersectFun startV p x = .ok b := by
  obtain ⟨tn, tno, vt, htn, htno, hvt⟩ := wellFormed_half hm hx
  unfold validNext
  by_cases h1 : Contains p x = true
  · exact ⟨false, by rw [if_pos h1]⟩
  · rw [if_neg h1]
    simp only [htn]
    by_cases h2 : Contains p tn.topo.opposite = true
    · exact ⟨false, by rw [if_pos h2]⟩
    · rw [if_neg h2]
      simp only [Mesh.degree, hvt]
      by_cases h3 : vt.topo.halfedges.length < 4
      · exact ⟨false, by rw [if_pos h3]⟩
      · rw [if_neg h3]
        obtain ⟨b, hb⟩ := sharedVertLoop_total m startV tn.topo.eto
          (p := p) (fun h hh => by
            obtain ⟨t, _, _, ht, _, _⟩ := wellFormed_half hm (hlive h hh)
            exact ⟨⟨t, ht⟩, hopen h hh⟩)
        simp only [hb]
        cases b with
        | true => exact ⟨false, rfl⟩
        | false =>
          simp only [htno]
          obtain ⟨b2, hb2⟩ := sharedFaceLoop_total (m := m) tn.topo.face tno.topo.face
            (p := p) (fun h hh => by
              obtain ⟨t, o, _, ht, ho, _⟩ := wellFormed_half hm (hlive h hh)
              exact ⟨t, o, ht, ho⟩)
          simp only [hb2]
          cases b2 with
          | true => exact ⟨false, rfl⟩
          | false => exact ⟨_, rfl⟩

theorem validNextHs_total {m : Mesh VD HD FD} (hm : m.WellFormed)
    (intersectFun : Int → Int → Bool) {startV : Int} {p : List Int}
    (hlive : ∀ h ∈ p, liveIn m.halfs h = true) (hopen : ∀ h ∈ p, m.toOf h ≠ startV) :
    ∀ {l : List Int}, (∀ x ∈ l, liveIn m.halfs x = true) →
      ∃ vs, validNextHs m intersectFun startV p l = .ok vs ∧ vs.length ≤ l.length := by
  intro l
  induction l with
  | nil => intro _; exact ⟨[], rfl, Nat.le_refl _⟩
  | cons a rest ih =>
    intro hl
    obtain ⟨b, hb⟩ := validNext_total hm intersectFun hlive hopen
      (hl a (List.mem_cons_self _ _))
    obtain ⟨vs, hvs, hlen⟩ := ih (fun x hx => hl x (List.mem_cons_of_mem _ hx))
    unfold validNextHs
    simp only [hb, hvs]
    refine ⟨_, rfl, ?_⟩
    cases b with
    | true => simp only [if_true, List.length_cons]; omega
    | false => simp only [Bool.false_eq_true, if_false, List.length_cons]; omega

end LoopTotal

section LoopWeight

variable {VD HD FD : Type}

theorem treeSize_pos (D r : Nat) : 0 < treeSize D r := by
  cases r <;> simp [treeSize]

theorem length_le_maxDegree {m : Mesh VD HD FD} {vt : Triplet VertTopo VD} (hvt : vt ∈ m.verts) :
    vt.topo.halfedges.length ≤ m.maxDegree := by
  unfold Mesh.maxDegree
  generalize m.verts = vs at hvt
  induction vs with
  | nil => simp at hvt
  | cons a rest ih =>
    simp only [List.map_cons, List.foldr_cons]
    rcases List.mem_cons.mp hvt with rfl | h
    · exact Nat.le_max_left _ _
    · exact Nat.le_trans (ih h) (Nat.le_max_right _ _)

/-- A list of pairwise different vertex slots is no longer than `_verts`. -/
theorem nodup_length_le {l : List Int} {V : Nat} (hnd : l.Nodup)
    (hr : ∀ a ∈ l, 0 ≤ a ∧ a < V) : l.length ≤ V := by
  have hsub : l.toFinset ⊆ Finset.Ico (0 : Int) V := by
    intro a ha
    rw [List.mem_toFinset] at ha
    rw [Finset.mem_Ico]
    exact hr a ha
  have hcard := Finset.card_le_card hsub
  rw [List.toFinset_card_of_nodup hnd, Int.card_Ico] at hcard
  simpa using hcard

/-- A path built by the extension rule has at most as many half-edges as the mesh
has vertex slots: its end vertices are pairwise different slots. -/
theorem admissible_length_le {m : Mesh VD HD FD} (hwf : m.WF) (hl : m.ListsLive)
    {intersectFun : Int → Int → Bool} {initial : Int} {p : List Int}
    (hp : Admissible m intersectFun initial p) : p.length ≤ m.verts.length := by
  have inv := admissible_inv hwf hl hp
  have := nodup_length_le (V := m.verts.length) inv.nodup (by
    intro a ha
    obtain ⟨h, hh, rfl⟩ := List.mem_map.mp ha
    obtain ⟨d, hd, -⟩ := inv.degree h hh
    unfold Mesh.degree at hd
    cases hg : getAt m.verts (m.toOf h) with
    | error e => simp [hg] at hd
    | ok vt => exact getAt_lt_length hg)
  simpa using this

theorem queueWeight_cons (m : Mesh VD HD FD) (cur : List Int) (Q : List (List Int)) :
    queueWeight m (cur :: Q)
      = treeSize m.maxDegree (m.verts.length - cur.length) + queueWeight m Q := by
  simp [queueWeight]

theorem queueWeight_push (m : Mesh VD HD FD) (cur valid : List Int) (Q : List (List Int)) :
    queueWeight m (Q ++ valid.map (fun nexth => cur ++ [nexth]))
      = queueWeight m Q
        + valid.length * treeSize m.maxDegree (m.verts.length - (cur.length + 1)) := by
  simp only [queueWeight, List.map_append, List.sum_append, List.map_map]
  congr 1
  induction valid with
  | nil => simp
  | cons a rest ih =>
    simp only [List.map_cons, List.sum_cons, ih, Function.comp, List.length_append,
      List.length_cons, List.length_nil]
    ring

/-- A round of the search on an open path lowers the weight of the queue. -/
theorem queueWeight_step (m : Mesh VD HD FD) (cur valid : List Int) (Q : List (List Int))
    (hk : valid.length ≤ m.maxDegree) (hlen : valid ≠ [] → cur.length + 1 ≤ m.verts.length) :
    queueWeight m (Q ++ valid.map (fun nexth => cur ++ [nexth])) < queueWeight m (cur :: Q) := by
  rw [queueWeight_cons, queueWeight_push]
  cases valid with
  | nil =>
    have := treeSize_pos m.maxDegree (m.verts.length - cur.length)
    simp only [List.length_nil, Nat.zero_mul, Nat.add_zero]
    omega
  | cons a rest =>
    have h1 := hlen (by simp)
    have h2 : m.verts.length - cur.length = (m.verts.length - (cur.length + 1)) + 1 := by omega
    rw [h2, treeSize]
    have := Nat.mul_le_mul_right (treeSize m.maxDegree (m.verts.length - (cur.length + 1))) hk
    omega

end LoopWeight

section LoopComplete

variable {VD HD FD : Type}

/-- A non-empty prefix of a path built by the extension rule is built by the
extension rule. -/
theorem admissible_prefix {m : Mesh VD HD FD} {intersectFun : Int → Int → Bool}
    {initial : Int} {c : List Int} (hc : Admissible m intersectFun initial c) :
    ∀ q, q <+: c → q ≠ [] → Admissible m intersectFun initial q := by
  induction hc with
  | start hs =>
    intro q hq hne
    rcases List.prefix_concat_iff.mp (show q <+: [] ++ [initial] from hq) with h | h
    · rw [h]; exact Admissible.start hs
    · exact absurd (List.prefix_nil.mp h) hne
  | extend hp hback hv hx hvalid ih =>
    intro q hq hne
    rcases List.prefix_concat_iff.mp hq with h | h
    · rw [h]; exact Admissible.extend hp hback hv hx hvalid
    · exact ih q h hne

/-- The last step of a path built by the extension rule. -/
theorem admissible_concat {m : Mesh VD HD FD} {intersectFun : Int → Int → Bool}
    {initial : Int} {cur : List Int} {x : Int} (hne : cur ≠ [])
    (hc : Admissible m intersectFun initial (cur ++ [x])) :
    ∃ back vt, cur.getLast? = some back ∧ getAt m.verts (m.toOf back) = .ok vt ∧
      x ∈ vt.topo.halfedges ∧ validNext m intersectFun (m.fromOf initial) cur x = .ok true := by
  generalize hl : cur ++ [x] = l at hc
  cases hc with
  | start hs =>
    have := congrArg List.length hl
    simp only [List.length_append, List.length_cons, List.length_nil] at this
    have : cur.length = 0 := by omega
    exact absurd (List.length_eq_zero.mp this) hne
  | extend hp hback hv hx hvalid =>
    rename_i p back y vt
    obtain ⟨h1, h2⟩ := List.append_inj' hl rfl
    simp only [List.cons.injEq, and_true] at h2
    subst h1; subst h2
    exact ⟨back, vt, hback, hv, hx, hvalid⟩

theorem bfsOrdered_push {cur : List Int} {Q : List (List Int)} (valid : List Int)
    (h : BfsOrdered (cur :: Q)) :
    BfsOrdered (Q ++ valid.map (fun nexth => cur ++ [nexth])) := by
  obtain ⟨h1, h2⟩ := h
  rw [List.pairwise_cons] at h1
  have hchild : ∀ b ∈ valid.map (fun nexth => cur ++ [nexth]), b.length = cur.length + 1 := by
    intro b hb
    obtain ⟨x, _, rfl⟩ := List.mem_map.mp hb
    simp
  constructor
  · rw [List.pairwise_append]
    refine ⟨h1.2, ?_, ?_⟩
    · rw [List.pairwise_map]
      exact List.pairwise_of_forall (fun a b => by simp)
    · intro a ha b hb
      rw [hchild b hb]
      exact h2 cur (List.mem_cons_self _ _) a (List.mem_cons_of_mem _ ha)
  · intro a ha b hb
    rcases List.mem_append.mp ha with ha | ha <;> rcases List.mem_append.mp hb with hb | hb
    · exact h2 a (List.mem_cons_of_mem _ ha) b (List.mem_cons_of_mem _ hb)
    · rw [hchild b hb]
      have := h1.1 a ha
      omega
    · rw [hchild a ha]
      have := h2 cur (List.mem_cons_self _ _) b (List.mem_cons_of_mem _ hb)
      omega
    · rw [hchild a ha, hchild b hb]
      omega

/-- With enough rounds, the search on a queue in breadth-first order returns; and
if some closed path built by the extension rule extends a path of the queue, the
result is not empty and no such closed path is shorter. -/
theorem loopSearch_complete {m : Mesh VD HD FD} (hm : m.WellFormed) (hl : m.ListsLive)
    {intersectFun : Int → Int → Bool} {initial : Int} :
    ∀ (n : Nat) (Q : List (List Int)), (∀ q ∈ Q, Admissible m intersectFun initial q) →
      BfsOrdered Q → queueWeight m Q < n →
      ∃ p, loopSearch m intersectFun (m.fromOf initial) n Q = .ok (some p) ∧
        ∀ c, Admissible m intersectFun initial c → m.Closes initial c →
          (∃ q ∈ Q, q <+: c) → p ≠ [] ∧ p.length ≤ c.length := by
  intro n
  induction n with
  | zero => intro Q _ _ hw; omega
  | succ n ih =>
    intro Q hQ hord hw
    cases Q with
    | nil =>
      refine ⟨[], rfl, ?_⟩
      rintro c _ _ ⟨q, hq, _⟩
      simp at hq
    | cons cur rest =>
      have hcur := hQ cur (List.mem_cons_self _ _)
      have inv := admissible_inv hm.wf hl hcur
      have hne : cur ≠ [] := by
        intro h
        have := inv.head
        rw [h] at this
        simp at this
      cases hback : cur.getLast? with
      | none => exact absurd (List.getLast?_eq_none_iff.mp hback) hne
      | some back =>
        have hmem : back ∈ cur := by
          rw [← List.dropLast_append_getLast? back hback]
          simp
        obtain ⟨tb, -, vt, htb, -, hvt⟩ := wellFormed_half hm (inv.live back hmem)
        have hstep := loopSearch_step intersectFun (m.fromOf initial) n rest hback htb
        by_cases hc : tb.topo.eto = m.fromOf initial
        · refine ⟨cur, hstep.1 hc, ?_⟩
          rintro c _ _ ⟨q, hq, hpre⟩
          refine ⟨hne, Nat.le_trans ?_ hpre.length_le⟩
          rcases List.mem_cons.mp hq with rfl | hq
          · exact Nat.le_refl _
          · exact (List.pairwise_cons.mp hord.1).1 q hq
        · have hopen : ∀ h ∈ cur, m.toOf h ≠ m.fromOf initial := by
            intro h hh
            rw [← List.dropLast_append_getLast? back hback] at hh
            rcases List.mem_append.mp hh with hh | hh
            · exact inv.inner h hh
            · rw [List.mem_singleton.mp hh, toOf_eq htb]
              exact hc
          obtain ⟨valid, hvalid, hlen⟩ := validNextHs_total hm intersectFun inv.live hopen
            (l := vt.topo.halfedges) (hl vt (mem_iff_getAt.mpr ⟨_, hvt⟩))
          have hQ' : ∀ q ∈ rest ++ valid.map (fun nexth => cur ++ [nexth]),
              Admissible m intersectFun initial q := by
            intro q hq
            rcases List.mem_append.mp hq with hq | hq
            · exact hQ q (List.mem_cons_of_mem _ hq)
            · obtain ⟨x, hx, rfl⟩ := List.mem_map.mp hq
              obtain ⟨hx1, hx2⟩ := (validNextHs_mem hvalid x).mp hx
              exact Admissible.extend hcur hback (by rw [toOf_eq htb]; exact hvt) hx1 hx2
          have hw' : queueWeight m (rest ++ valid.map (fun nexth => cur ++ [nexth])) < n := by
            have := queueWeight_step m cur valid rest
              (Nat.le_trans hlen (length_le_maxDegree (mem_iff_getAt.mpr ⟨_, hvt⟩)))
              (by
                intro hv
                obtain ⟨x, hx⟩ := List.exists_mem_of_ne_nil valid hv
                have := admissible_length_le hm.wf hl
                  (hQ' (cur ++ [x]) (List.mem_append_right _ (List.mem_map_of_mem _ hx)))
                simpa using this)
            omega
          obtain ⟨p, hrun, hspec⟩ := ih _ hQ' (bfsOrdered_push valid hord) hw'
          refine ⟨p, by rw [hstep.2 hc vt valid hvt hvalid]; exact hrun, ?_⟩
          rintro c hadm hclosed ⟨q, hq, hpre⟩
          apply hspec c hadm hclosed
          rcases List.mem_cons.mp hq with rfl | hq
          · obtain ⟨t, rfl⟩ := hpre
            cases t with
            | nil =>
              exfalso
              obtain ⟨b, hb1, hb2⟩ := hclosed
              rw [List.append_nil, hback] at hb1
              simp only [Option.some.injEq] at hb1
              subst hb1
              rw [toOf_eq htb] at hb2
              exact hc hb2
            | cons x t' =>
              have hpre2 : q ++ [x] <+: q ++ x :: t' := ⟨t', by simp⟩
              have hadm2 := admissible_prefix hadm _ hpre2 (by simp)
              obtain ⟨back2, vt2, hb2, hv2, hx2, hval2⟩ := admissible_concat hne hadm2
              rw [hback] at hb2
              simp only [Option.some.injEq] at hb2
              subst hb2
              rw [toOf_eq htb, hvt] at hv2
              simp only [Except.ok.injEq] at hv2
              subst hv2
              refine ⟨q ++ [x], List.mem_append_right _ (List.mem_map_of_mem _ ?_), hpre2⟩
              exact (validNextHs_mem hvalid x).mpr ⟨hx2, hval2⟩
          · exact ⟨q, List.mem_append_left _ hq, hpre⟩

end LoopComplete

section ShortestClaim

variable {VD HD FD : Type}

theorem admissible_start {m : Mesh VD HD FD} {intersectFun : Int → Int → Bool}
    {initial : Int} {c : List Int} (hc : Admissible m intersectFun initial c) :
    StartOK m initial ∧ [initial] <+: c := by
  induction hc with
  | start hs => exact ⟨hs, List.prefix_refl _⟩
  | extend _ _ _ _ _ ih => exact ⟨ih.1, ih.2.trans (List.prefix_append _ _)⟩

/-- On a well-formed mesh with no removed half-edge left in a vertex's outgoing
list, the search is complete and finds a shortest loop: if some closed path
starting with the start edge can be
built by the extension rule, then `ConstructInternalLoopFrom` returns (within
`searchBound` rounds of its loop) a non-empty closed path built by the extension
rule, and no closed path built by the extension rule has fewer half-edges. -/
theorem constructInternalLoopFrom_shortest {m : Mesh VD HD FD} (hm : m.WellFormed)
    (hl : m.ListsLive) {intersectFun : Int → Int → Bool} {initial : Int} {c : List Int}
    (hc : Admissible m intersectFun initial c) (hcl : m.Closes initial c)
    (fuel : Nat) (hfuel : searchBound m ≤ fuel) :
    ∃ p, ConstructInternalLoopFrom m initial intersectFun fuel = .ok (some p) ∧ p ≠ [] ∧
      Admissible m intersectFun initial p ∧ m.Closes initial p ∧
      ∀ c2, Admissible m intersectFun initial c2 → m.Closes initial c2 →
        p.length ≤ c2.length := by
  obtain ⟨hs, hpre⟩ := admissible_start hc
  have hQ : ∀ q ∈ [[initial]], Admissible m intersectFun initial q := by
    intro q hq
    rw [List.mem_singleton.mp hq]
    exact Admissible.start hs
  have hord : BfsOrdered [[initial]] := by
    refine ⟨List.pairwise_singleton _ _, ?_⟩
    intro a ha b hb
    rw [List.mem_singleton.mp ha, List.mem_singleton.mp hb]
    omega
  have hw : queueWeight m [[initial]] < fuel := by
    unfold searchBound at hfuel
    simp only [queueWeight, List.map_cons, List.map_nil, List.sum_cons, List.sum_nil,
      List.length_cons, List.length_nil, Nat.zero_add, Nat.add_zero]
    omega
  obtain ⟨p, hrun, hspec⟩ := loopSearch_complete hm hl fuel [[initial]] hQ hord hw
  have hrun2 : ConstructInternalLoopFrom m initial intersectFun fuel = .ok (some p) := by
    obtain ⟨ti, d1, d2, hti, hd1, h1, hd2, h2⟩ := hs
    unfold ConstructInternalLoopFrom
    simp only [hti, hd1, hd2]
    rw [if_neg (by omega), if_neg (by omega), ← fromOf_eq hti]
    exact hrun
  have hne := (hspec c hc hcl ⟨[initial], List.mem_singleton.mpr rfl, hpre⟩).1
  rcases loopSearch_sound fuel [[initial]] hQ p hrun with h | ⟨hadm, hclosed⟩
  · exact absurd h hne
  · refine ⟨p, hrun2, hne, hadm, hclosed, ?_⟩
    intro c2 hc2 hcl2
    exact (hspec c2 hc2 hcl2
      ⟨[initial], List.mem_singleton.mpr rfl, (admissible_start hc2).2⟩).2

end ShortestClaim

theorem wellFormed_octahedron : octahedron.WellFormed :=
  ⟨reachable_wf reachable_octahedron, reachable_tidy reachable_octahedron,
    by decide, by decide⟩

theorem admissible_octahedron :
    Admissible octahedron (fun _ _ => false) 0 [0, 18, 20, 8] ∧
      octahedron.Closes 0 [0, 18, 20, 8] :=
  (constructInternalLoopFrom_sound
    (by decide : ConstructInternalLoopFrom octahedron 0 (fun _ _ => false) 9
      = .ok (some [0, 18, 20, 8]))).resolve_left (by decide)

theorem constructInternalLoopFrom_shortest_witness :
    searchBound octahedron ≤ 1366 ∧
      ∃ p, ConstructInternalLoopFrom octahedron 0 (fun _ _ => false) 1366 = .ok (some p) ∧
        p ≠ [] ∧ Admissible octahedron (fun _ _ => false) 0 p ∧ octahedron.Closes 0 p ∧
        ∀ c2, Admissible octahedron (fun _ _ => false) 0 c2 → octahedron.Closes 0 c2 →
          p.length ≤ c2.length :=
  ⟨by decide,
    constructInternalLoopFrom_shortest wellFormed_octahedron listsLive_octahedron
      admissible_octahedron.1 admissible_octahedron.2 1366 (by decide)⟩

theorem admissible_staleStartMesh :
    Admissible staleStartMesh (fun _ _ => false) 3 [3, 4] :=
  Admissible.extend
    (Admissible.start ⟨⟨⟨3, 1, 0, 2, 0⟩, (), true⟩, 4, 4, by decide, by decide, by decide,
      by decide, by decide⟩)
    (rfl : ([3] : List Int).getLast? = some 3)
    (by decide : getAt staleStartMesh.verts (staleStartMesh.toOf 3)
      = .ok ⟨⟨0, [0, 2, 4, 6]⟩, (), true⟩)
    (by decide : (4 : Int) ∈ [0, 2, 4, 6]) (by decide)

/-- C19 fails on the code: the search does not skip the removed half-edges that
`remove(HalfHandle)` leaves in the outgoing lists. The mesh `staleStartMesh` is
reached through the member functions and `AssertEdgesAreStiched` passes on it; from
the half-edge `3`
(`1 -> 0`) the extension rule builds the closed path `[3, 4]`; but the search reads
the outgoing list of vertex `0`, comes first to the removed half-edge `0`, whose
`to()` was reset, and calls `degree` on the invalid handle: an access outside
`_verts`, not a result. -/
theorem constructInternalLoopFrom_stale_fault :
    Reachable staleStartMesh ∧ AssertEdgesAreStiched staleStartMesh = .ok () ∧
      Admissible staleStartMesh (fun _ _ => false) 3 [3, 4] ∧
      staleStartMesh.Closes 3 [3, 4] ∧
      ∀ fuel, 0 < fuel →
        ConstructInternalLoopFrom staleStartMesh 3 (fun _ _ => false) fuel
          = .error .outOfBounds := by
  refine ⟨reachable_staleStartMesh, by decide, admissible_staleStartMesh,
    ⟨4, rfl, by decide⟩, ?_⟩
  intro fuel hfuel
  cases fuel with
  | zero => omega
  | succ n => rfl

/-! ## `DecomposeOnInternalLoop` (C20) -/

section RelatedSet

variable {VD HD FD : Type}

theorem mem_setInsert {x y : Int} : ∀ {l : List Int}, y ∈ setInsert x l ↔ y = x ∨ y ∈ l := by
  intro l
  induction l with
  | nil => simp [setInsert]
  | cons a rest ih =>
    unfold setInsert
    by_cases h1 : x < a
    · simp [h1]
    · rw [if_neg h1]
      by_cases h2 : x = a
      · rw [if_pos h2]
        subst h2
        simp
      · rw [if_neg h2, List.mem_cons, ih, List.mem_cons]
        tauto

theorem nodup_setInsert {x : Int} : ∀ {l : List Int}, x ∉ l → l.Nodup →
    (setInsert x l).Nodup := by
  intro l
  induction l with
  | nil => intro _ _; simp [setInsert]
  | cons a rest ih =>
    intro hx hnd
    unfold setInsert
    by_cases h1 : x < a
    · rw [if_pos h1]
      exact List.nodup_cons.mpr ⟨hx, hnd⟩
    · rw [if_neg h1]
      have h2 : x ≠ a := fun h => hx (by rw [h]; exact List.mem_cons_self _ _)
      rw [if_neg h2]
      obtain ⟨ha, hr⟩ := List.nodup_cons.mp hnd
      refine List.nodup_cons.mpr ⟨?_, ih (fun h => hx (List.mem_cons_of_mem _ h)) hr⟩
      rw [mem_setInsert]
      rintro (rfl | h)
      · exact h2 rfl
      · exact ha h

/-- The handles of the outgoing list that a pass can still add to the set. -/
theorem filter_length_lt {l : List Int} {P Q : Int → Bool} (hsub : ∀ x, Q x = true → P x = true)
    {x : Int} (hx : x ∈ l) (hP : P x = true) (hQ : Q x = false) :
    (l.filter Q).length < (l.filter P).length := by
  induction l with
  | nil => simp at hx
  | cons a rest ih =>
    have hle : (rest.filter Q).length ≤ (rest.filter P).length := by
      clear ih hx
      induction rest with
      | nil => simp
      | cons b r ihr =>
        simp only [List.filter_cons]
        cases hq : Q b with
        | true => simp only [hsub b hq, if_true, List.length_cons]; omega
        | false =>
          cases hp : P b with
          | true => simp only [if_true, List.length_cons, Bool.false_eq_true, if_false]; omega
          | false => simpa using ihr
    simp only [List.filter_cons]
    rcases List.mem_cons.mp hx with rfl | hx
    · simp only [hP, hQ, if_true, Bool.false_eq_true, if_false, List.length_cons]
      omega
    · have := ih hx
      cases hq : Q a with
      | true => simp only [hsub a hq, if_true, List.length_cons]; omega
      | false =>
        cases hp : P a with
        | true => simp only [if_true, List.length_cons, Bool.false_eq_true, if_false]; omega
        | false => simpa using this

/-- The reads of the innermost loop succeed when `relatedH`, its opposite and the
handles of the set are slots of `_halfs`. -/
theorem faceAcross_total {m : Mesh VD HD FD} {relatedH : Int} {tr topp : Triplet HalfTopo HD}
    (hr : getAt m.halfs relatedH = .ok tr) (ho : getAt m.halfs tr.topo.opposite = .ok topp) :
    ∀ {related : List Int}, (∀ x ∈ related, ∃ t, getAt m.halfs x = .ok t) →
      ∃ b, faceAcross m relatedH related = .ok b := by
  intro related
  induction related with
  | nil => intro _; exact ⟨false, rfl⟩
  | cons a rest ih =>
    intro hin
    obtain ⟨tn, htn⟩ := hin a (List.mem_cons_self _ _)
    unfold faceAcross
    simp only [hr, ho, htn]
    by_cases hc : topp.topo.face = tn.topo.face
    · exact ⟨true, by rw [if_pos hc]⟩
    · rw [if_neg hc]
      exact ih (fun x hx => hin x (List.mem_cons_of_mem _ hx))

/-- A pass over (the rest of) the outgoing list runs through; the set only grows,
by handles of the list that are not on the loop, and keeps being duplicate-free; when
the flag comes back `false` the set is as before, and when the flag is raised the
set has gained a handle of the list. -/
theorem relatedPass_spec (m : Mesh VD HD FD) (loop : List Int) :
    ∀ (l related : List Int) (found : Bool),
      (∀ x ∈ l, ∃ t o, getAt m.halfs x = .ok t ∧ getAt m.halfs t.topo.opposite = .ok o) →
      (∀ x ∈ related, ∃ t, getAt m.halfs x = .ok t) → related.Nodup →
      ∃ related2 found2, relatedPass m loop l related found = .ok (related2, found2) ∧
        related2.Nodup ∧ (∀ x ∈ related, x ∈ related2) ∧
        (∀ x ∈ related2, x ∈ related ∨ (x ∈ l ∧ x ∉ loop)) ∧
        (found2 = false → related2 = related ∧ found = false) ∧
        (found2 = true → found = true ∨ ∃ x ∈ l, x ∉ related ∧ x ∈ related2) := by
  intro l
  induction l with
  | nil =>
    intro related found _ _ hnd
    exact ⟨related, found, rfl, hnd, fun _ h => h, fun _ h => Or.inl h,
      fun h => ⟨rfl, h⟩, fun h => Or.inl h⟩
  | cons a rest ih =>
    intro related found hl hrel hnd
    have hl2 : ∀ x ∈ rest, ∃ t o, getAt m.halfs x = .ok t ∧
        getAt m.halfs t.topo.opposite = .ok o := fun x hx => hl x (List.mem_cons_of_mem _ hx)
    unfold relatedPass
    by_cases h1 : Contains related a = true
    · rw [if_pos h1]
      obtain ⟨r2, f2, hrun, hnd2, hsub, hsup, hfalse, htrue⟩ := ih related found hl2 hrel hnd
      refine ⟨r2, f2, hrun, hnd2, hsub, ?_, hfalse, ?_⟩
      · intro x hx
        rcases hsup x hx with h | ⟨h, h'⟩
        · exact Or.inl h
        · exact Or.inr ⟨List.mem_cons_of_mem _ h, h'⟩
      · intro h
        rcases htrue h with h | ⟨x, hx, hx2⟩
        · exact Or.inl h
        · exact Or.inr ⟨x, List.mem_cons_of_mem _ hx, hx2⟩
    · rw [if_neg h1]
      by_cases h2 : Contains loop a = true
      · rw [if_pos h2]
        obtain ⟨r2, f2, hrun, hnd2, hsub, hsup, hfalse, htrue⟩ :=
          ih related found hl2 hrel hnd
        refine ⟨r2, f2, hrun, hnd2, hsub, ?_, hfalse, ?_⟩
        · intro x hx
          rcases hsup x hx with h | ⟨h, h'⟩
          · exact Or.inl h
          · exact Or.inr ⟨List.mem_cons_of_mem _ h, h'⟩
        · intro h
          rcases htrue h with h | ⟨x, hx, hx2⟩
          · exact Or.inl h
          · exact Or.inr ⟨x, List.mem_cons_of_mem _ hx, hx2⟩
      · rw [if_neg h2]
        obtain ⟨ta, toa, hta, htoa⟩ := hl a (List.mem_cons_self _ _)
        obtain ⟨b, hb⟩ := faceAcross_total hta htoa hrel
        simp only [hb]
        have ha1 : a ∉ related := by simpa [Contains] using h1
        have ha2 : a ∉ loop := by simpa [Contains] using h2
        cases b with
        | true =>
          have hrel2 : ∀ x ∈ setInsert a related, ∃ t, getAt m.halfs x = .ok t := by
            intro x hx
            rcases mem_setInsert.mp hx with rfl | hx
            · exact ⟨ta, hta⟩
            · exact hrel x hx
          obtain ⟨r2, f2, hrun, hnd2, hsub, hsup, hfalse, htrue⟩ :=
            ih (setInsert a related) true hl2 hrel2 (nodup_setInsert ha1 hnd)
          refine ⟨r2, f2, hrun, hnd2, ?_, ?_, ?_, ?_⟩
          · intro x hx
            exact hsub x (mem_setInsert.mpr (Or.inr hx))
          · intro x hx
            rcases hsup x hx with h | ⟨h, h'⟩
            · rcases mem_setInsert.mp h with rfl | h
              · exact Or.inr ⟨List.mem_cons_self _ _, ha2⟩
              · exact Or.inl h
            · exact Or.inr ⟨List.mem_cons_of_mem _ h, h'⟩
          · intro h
            have := (hfalse h).2
            cases this
          · intro _
            exact Or.inr ⟨a, List.mem_cons_self _ _, ha1,
              hsub a (mem_setInsert.mpr (Or.inl rfl))⟩
        | false =>
          obtain ⟨r2, f2, hrun, hnd2, hsub, hsup, hfalse, htrue⟩ :=
            ih related found hl2 hrel hnd
          refine ⟨r2, f2, hrun, hnd2, hsub, ?_, hfalse, ?_⟩
          · intro x hx
            rcases hsup x hx with h | ⟨h, h'⟩
            · exact Or.inl h
            · exact Or.inr ⟨List.mem_cons_of_mem _ h, h'⟩
          · intro h
            rcases htrue h with h | ⟨x, hx, hx2⟩
            · exact Or.inl h
            · exact Or.inr ⟨x, List.mem_cons_of_mem _ hx, hx2⟩

end RelatedSet

section RelatedFix

variable {VD HD FD : Type}

/-- With more passes allowed than the outgoing list has handles outside the set, the
loop that grows `relatedHsNotOnLoopSide` ends: the result is duplicate-free, contains
the set it started from, and has gained only handles of the list that are not on the
loop. -/
theorem relatedFix_spec {m : Mesh VD HD FD} {loop l : List Int}
    (hl : ∀ x ∈ l, ∃ t o, getAt m.halfs x = .ok t ∧ getAt m.halfs t.topo.opposite = .ok o) :
    ∀ (fuel : Nat) (related : List Int),
      (∀ x ∈ related, ∃ t, getAt m.halfs x = .ok t) → related.Nodup →
      (l.filter (fun x => !(related.contains x))).length < fuel →
      ∃ R, relatedFix m loop l fuel related = .ok (some R) ∧ R.Nodup ∧
        (∀ x ∈ related, x ∈ R) ∧ (∀ x ∈ R, x ∈ related ∨ (x ∈ l ∧ x ∉ loop)) := by
  intro fuel
  induction fuel with
  | zero => intro related _ _ h; omega
  | succ n ih =>
    intro related hrel hnd hfuel
    obtain ⟨r2, f2, hrun, hnd2, hsub, hsup, hfalse, htrue⟩ :=
      relatedPass_spec m loop l related false hl hrel hnd
    unfold relatedFix
    simp only [hrun]
    cases f2 with
    | false =>
      obtain ⟨rfl, -⟩ := hfalse rfl
      exact ⟨r2, rfl, hnd, fun _ h => h, fun _ h => Or.inl h⟩
    | true =>
      rcases htrue rfl with h | ⟨x, hx, hx1, hx2⟩
      · cases h
      · have hrel2 : ∀ y ∈ r2, ∃ t, getAt m.halfs y = .ok t := by
          intro y hy
          rcases hsup y hy with h | ⟨h, -⟩
          · exact hrel y h
          · obtain ⟨t, _, ht, _⟩ := hl y h
            exact ⟨t, ht⟩
        have hlt := filter_length_lt (l := l) (P := fun x => !(related.contains x))
          (Q := fun x => !(r2.contains x))
          (by
            intro y hy
            simp only [Bool.not_eq_true', List.contains_eq_any_beq, List.any_eq_false,
              beq_iff_eq, Bool.not_eq_true] at hy ⊢
            intro z hz hzy
            exact hy z (hsub z hz) hzy)
          hx (by simpa using hx1) (by simpa using hx2)
        obtain ⟨R, hR, hRnd, hRsub, hRsup⟩ := ih r2 hrel2 hnd2 (by omega)
        refine ⟨R, hR, hRnd, fun y hy => hRsub y (hsub y hy), ?_⟩
        intro y hy
        rcases hRsup y hy with h | h
        · exact hsup y h
        · exact Or.inr h

end RelatedFix

section CutHelpers

variable {VD HD FD : Type}

theorem map_updAt_fix {α β : Type} (g : α → β) (f : α → α) (hfix : ∀ t, g (f t) = g t)
    (xs : List α) (k : Nat) : (updAt xs k f).map g = xs.map g := by
  apply List.ext_getElem?
  intro j
  rw [List.getElem?_map, getElem?_updAt, List.getElem?_map]
  by_cases hj : j = k
  · rw [if_pos hj]
    cases xs[j]? with
    | none => rfl
    | some x => simp [hfix]
  · rw [if_neg hj]

theorem not_mem_take_map {α β : Type} (f : α → β) {p : List α} (hnd : (p.map f).Nodup)
    {i : Nat} (hi : i < p.length) (d : α) : f (p.getD i d) ∉ (p.take i).map f := by
  rw [List.getD_eq_getElem p d hi]
  intro hmem
  obtain ⟨y, hy, hfy⟩ := List.mem_map.mp hmem
  obtain ⟨j, hj, hjy⟩ := List.getElem_of_mem hy
  rw [List.length_take] at hj
  rw [List.getElem_take] at hjy
  have hj2 : j < p.length := by omega
  have hj3 : j < (p.map f).length := by simpa using hj2
  have hi3 : i < (p.map f).length := by simpa using hi
  have h1 : (p.map f)[j] = (p.map f)[i] := by
    simp only [List.getElem_map]
    rw [hjy]
    exact hfy
  have := (List.Nodup.getElem_inj_iff hnd).mp h1
  omega

theorem take_succ_map {α β : Type} (f : α → β) {p : List α} {i : Nat} (hi : i < p.length)
    (d : α) : (p.take (i + 1)).map f = (p.take i).map f ++ [f (p.getD i d)] := by
  rw [List.take_succ, List.map_append, List.getD_eq_getElem p d hi,
    List.getElem?_eq_getElem hi]
  rfl

theorem getAt_snoc_self {α : Type} (xs : List α) (y : α) :
    getAt (xs ++ [y]) (xs.length : Int) = .ok y := by
  rw [getAt_natCast]
  simp

theorem getAt_snoc_ne {α : Type} {xs : List α} {y x : α} {u : Int}
    (hu : getAt (xs ++ [y]) u = .ok x) (hne : u ≠ (xs.length : Int)) : getAt xs u = .ok x := by
  rcases getAt_append_cases hu with h | ⟨h1, h2⟩
  · exact h
  · exfalso
    obtain ⟨h0, hlt⟩ := getAt_lt_length h2
    simp only [List.length_singleton, Nat.cast_one] at hlt
    omega

/-- A non-removed half-edge and its opposite in a mesh with the representation
invariant. -/
theorem wf_live_pair {m : Mesh VD HD FD} (hwf : m.WF) {x : Int}
    (hx : liveIn m.halfs x = true) :
    ∃ t o, getAt m.halfs x = .ok t ∧ getAt m.halfs t.topo.opposite = .ok o ∧
      o.exists_ = true ∧ o.topo.opposite = x ∧ o.topo.efrom = t.topo.eto ∧
      o.topo.eto = t.topo.efrom := by
  obtain ⟨t, ht, hex⟩ := liveIn_eq_true.mp hx
  obtain ⟨o, ho, h1, h2, h3, h4⟩ := hwf.pairing x t ht hex
  exact ⟨t, o, ht, ho, h1, h2, h3, h4⟩

end CutHelpers

section Redirect

variable {VD HD FD : Type}

/-- An in-place update of a slot of `_halfs`, seen through the reads of the table. -/
theorem modifyHalf_obs {m : Mesh VD HD FD} {k : Int} {tk : Triplet HalfTopo HD}
    (f : Triplet HalfTopo HD → Triplet HalfTopo HD) (hk : getAt m.halfs k = .ok tk) :
    ∃ m2, m.modifyHalf k f = .ok m2 ∧ m2.verts = m.verts ∧ m2.faces = m.faces ∧
      m2.halfs.length = m.halfs.length ∧ getAt m2.halfs k = .ok (f tk) ∧
      ∀ x, x ≠ k → getAt m2.halfs x = getAt m.halfs x := by
  obtain ⟨h0, hlt⟩ := getAt_isOk_iff.mp ⟨tk, hk⟩
  refine ⟨{ m with halfs := updAt m.halfs k.toNat f }, modifyHalf_eq_ok_updAt.mpr ⟨h0, hlt, rfl⟩,
    rfl, rfl, by simp [length_updAt], ?_, ?_⟩
  · exact getAt_updAt.mpr ⟨tk, hk, by simp⟩
  · intro x hx
    apply getAt_updAt_ne
    by_cases hn : x < 0
    · exact Or.inl hn
    · right
      omega

/-- An in-place update of a slot of `_verts`, seen through the reads of the table. -/
theorem modifyVert_obs {m : Mesh VD HD FD} {k : Int} {tk : Triplet VertTopo VD}
    (f : Triplet VertTopo VD → Triplet VertTopo VD) (hk : getAt m.verts k = .ok tk) :
    ∃ m2, m.modifyVert k f = .ok m2 ∧ m2.halfs = m.halfs ∧ m2.faces = m.faces ∧
      m2.verts.length = m.verts.length ∧ getAt m2.verts k = .ok (f tk) ∧
      (∀ x, x ≠ k → getAt m2.verts x = getAt m.verts x) ∧
      ((∀ t, (f t).exists_ = t.exists_) →
        m2.verts.map (fun t => t.exists_) = m.verts.map (fun t => t.exists_)) := by
  obtain ⟨h0, hlt⟩ := getAt_isOk_iff.mp ⟨tk, hk⟩
  have hmod : modifyAt m.verts k f = .ok (updAt m.verts k.toNat f) :=
    modifyAt_eq_ok_updAt.mpr ⟨h0, hlt, rfl⟩
  refine ⟨{ m with verts := updAt m.verts k.toNat f }, by simp [Mesh.modifyVert, hmod],
    rfl, rfl, by simp [length_updAt], ?_, ?_, ?_⟩
  · exact getAt_updAt.mpr ⟨tk, hk, by simp⟩
  · intro x hx
    apply getAt_updAt_ne
    by_cases hn : x < 0
    · exact Or.inl hn
    · right
      omega
  · intro hfix
    exact map_updAt_fix (fun t => t.exists_) f hfix m.verts k.toNat

/-- The loop that redirects the half-edges of the set `R` to `vh2` runs through when
every half-edge of `R` leaves `vh` and its opposite ends at `vh`: afterwards the
half-edges of `R` leave `vh2`, a half-edge whose `to` has changed ended at `vh` and
ends at `vh2`, and nothing else has changed. -/
theorem redirectLoop_spec (vh vh2 hh : Int) :
    ∀ (R : List Int) (m : Mesh VD HD FD), R.Nodup →
      (∀ x ∈ R, ∃ t o, getAt m.halfs x = .ok t ∧ t.topo.efrom = vh ∧
        getAt m.halfs t.topo.opposite = .ok o ∧ o.topo.eto = vh) →
      (∀ x ∈ R, ∀ y ∈ R, m.oppOf x = m.oppOf y → x = y) →
      ∃ m2, redirectLoop vh vh2 hh m R = .ok m2 ∧ m2.verts = m.verts ∧ m2.faces = m.faces ∧
        m2.halfs.length = m.halfs.length ∧
        ∀ x t, getAt m.halfs x = .ok t → ∃ t2, getAt m2.halfs x = .ok t2 ∧
          t2.topo.opposite = t.topo.opposite ∧
          t2.topo.efrom = (if x ∈ R then vh2 else t.topo.efrom) ∧
          (t2.topo.eto = t.topo.eto ∨ (t.topo.eto = vh ∧ t2.topo.eto = vh2)) := by
  intro R
  induction R with
  | nil =>
    intro m _ _ _
    exact ⟨m, rfl, rfl, rfl, rfl, fun x t ht => ⟨t, ht, rfl, by simp, Or.inl rfl⟩⟩
  | cons a rest ih =>
    intro m hnd hR hinj
    obtain ⟨ha, hrest⟩ := List.nodup_cons.mp hnd
    obtain ⟨ta, oa, hta, hfrom, hoa, hto⟩ := hR a (List.mem_cons_self _ _)
    obtain ⟨m1, hm1, hv1, hf1, hl1, hself1, hother1⟩ := modifyHalf_obs (setFrom vh2) hta
    -- the opposite of `a` after the first write
    have hoa1 : ∃ oa1, getAt m1.halfs ta.topo.opposite = .ok oa1 ∧ oa1.topo.eto = vh ∧
        oa1.topo.opposite = oa.topo.opposite := by
      by_cases he : ta.topo.opposite = a
      · rw [he] at hoa ⊢
        rw [hta] at hoa
        simp only [Except.ok.injEq] at hoa
        subst hoa
        exact ⟨_, hself1, hto, rfl⟩
      · rw [hother1 _ he]
        exact ⟨oa, hoa, hto, rfl⟩
    obtain ⟨oa1, hoa1, hto1, hopp1⟩ := hoa1
    -- the second write, when the opposite is not the loop half-edge
    have hsecond : ∃ m2, (if ta.topo.opposite ≠ hh then m1.modifyHalf ta.topo.opposite (setTo vh2)
          else .ok m1) = .ok m2 ∧ m2.verts = m.verts ∧ m2.faces = m.faces ∧
        m2.halfs.length = m.halfs.length ∧
        ∀ x t, getAt m.halfs x = .ok t → ∃ t2, getAt m2.halfs x = .ok t2 ∧
          t2.topo.opposite = t.topo.opposite ∧
          t2.topo.efrom = (if x = a then vh2 else t.topo.efrom) ∧
          (t2.topo.eto = t.topo.eto ∨
            (x = ta.topo.opposite ∧ t.topo.eto = vh ∧ t2.topo.eto = vh2)) := by
      have base : ∀ x t, getAt m.halfs x = .ok t → ∃ t1, getAt m1.halfs x = .ok t1 ∧
          t1.topo.opposite = t.topo.opposite ∧
          t1.topo.efrom = (if x = a then vh2 else t.topo.efrom) ∧ t1.topo.eto = t.topo.eto := by
        intro x t ht
        by_cases hx : x = a
        · subst hx
          rw [hta] at ht
          simp only [Except.ok.injEq] at ht
          subst ht
          exact ⟨_, hself1, rfl, by simp [setFrom], rfl⟩
        · rw [hother1 x hx]
          exact ⟨t, ht, rfl, by simp [hx], rfl⟩
      by_cases hc : ta.topo.opposite ≠ hh
      · rw [if_pos hc]
        obtain ⟨m2, hm2, hv2, hf2, hl2, hself2, hother2⟩ := modifyHalf_obs (setTo vh2) hoa1
        refine ⟨m2, hm2, by rw [hv2, hv1], by rw [hf2, hf1], by rw [hl2, hl1], ?_⟩
        intro x t ht
        obtain ⟨t1, ht1, h1, h2, h3⟩ := base x t ht
        by_cases hx : x = ta.topo.opposite
        · subst hx
          rw [hoa1] at ht1
          simp only [Except.ok.injEq] at ht1
          subst ht1
          refine ⟨_, hself2, h1, h2, Or.inr ⟨rfl, ?_, rfl⟩⟩
          rw [← h3]; exact hto1
        · rw [hother2 x hx]
          exact ⟨t1, ht1, h1, h2, Or.inl h3⟩
      · rw [if_neg hc]
        refine ⟨m1, rfl, hv1, hf1, hl1, ?_⟩
        intro x t ht
        obtain ⟨t1, ht1, h1, h2, h3⟩ := base x t ht
        exact ⟨t1, ht1, h1, h2, Or.inl h3⟩
    obtain ⟨m2, hm2, hv2, hf2, hl2, hobs2⟩ := hsecond
    -- the rest of the set in the mesh after the two writes
    have hR2 : ∀ x ∈ rest, ∃ t o, getAt m2.halfs x = .ok t ∧ t.topo.efrom = vh ∧
        getAt m2.halfs t.topo.opposite = .ok o ∧ o.topo.eto = vh := by
      intro x hx
      have hxa : x ≠ a := fun h => ha (h ▸ hx)
      obtain ⟨t, o, ht, htf, ho, hot⟩ := hR x (List.mem_cons_of_mem _ hx)
      obtain ⟨t2, ht2, h1, h2, _⟩ := hobs2 x t ht
      obtain ⟨o2, ho2, g1, _, g3⟩ := hobs2 _ o ho
      refine ⟨t2, o2, ht2, by rw [h2, if_neg hxa]; exact htf, by rw [h1]; exact ho2, ?_⟩
      rcases g3 with g3 | ⟨g3, _, _⟩
      · rw [g3]; exact hot
      · exfalso
        apply hxa
        apply hinj x (List.mem_cons_of_mem _ hx) a (List.mem_cons_self _ _)
        rw [oppOf_eq ht, oppOf_eq hta]
        exact g3
    have hinj2 : ∀ x ∈ rest, ∀ y ∈ rest, m2.oppOf x = m2.oppOf y → x = y := by
      intro x hx y hy hxy
      obtain ⟨t, _, ht, _, _, _⟩ := hR x (List.mem_cons_of_mem _ hx)
      obtain ⟨u, _, hu, _, _, _⟩ := hR y (List.mem_cons_of_mem _ hy)
      obtain ⟨t2, ht2, h1, _, _⟩ := hobs2 x t ht
      obtain ⟨u2, hu2, k1, _, _⟩ := hobs2 y u hu
      apply hinj x (List.mem_cons_of_mem _ hx) y (List.mem_cons_of_mem _ hy)
      rw [oppOf_eq ht, oppOf_eq hu, ← h1, ← k1, ← oppOf_eq ht2, ← oppOf_eq hu2]
      exact hxy
    obtain ⟨m3, hm3, hv3, hf3, hl3, hobs3⟩ := ih m2 hrest hR2 hinj2
    refine ⟨m3, ?_, by rw [hv3, hv2], by rw [hf3, hf2], by rw [hl3, hl2], ?_⟩
    · unfold redirectLoop
      simp only [hta, hfrom, ne_eq, not_true_eq_false, if_false, hm1, hoa1, hto1]
      simp only [ne_eq] at hm2
      simp only [hm2]
      exact hm3
    · intro x t ht
      obtain ⟨t2, ht2, h1, h2, h3⟩ := hobs2 x t ht
      obtain ⟨t3, ht3, k1, k2, k3⟩ := hobs3 x t2 ht2
      refine ⟨t3, ht3, by rw [k1, h1], ?_, ?_⟩
      · rw [k2, h2]
        by_cases hxa : x = a
        · subst hxa
          simp [ha]
        · by_cases hxr : x ∈ rest
          · simp [hxr]
          · simp [hxa, hxr]
      · rcases h3 with h3 | ⟨_, h3, h4⟩
        · rcases k3 with k3 | ⟨k3, k4⟩
          · exact Or.inl (by rw [k3, h3])
          · exact Or.inr ⟨by rw [← h3]; exact k3, k4⟩
        · rcases k3 with k3 | ⟨k3, k4⟩
          · exact Or.inr ⟨h3, by rw [k3]; exact h4⟩
          · exact Or.inr ⟨h3, k4⟩

end Redirect

section CutStep

variable {VD HD FD : Type}

/-- A non-removed half-edge of `m` that leaves a vertex `v` not handled so far, in
the state after `i` rounds: it still leaves `v`, and its opposite still ends at `v`. -/
theorem cutInv_leaving {m : Mesh VD HD FD} (hwf : m.WF) {p : List Int} {i : Nat}
    {st : Cut VD HD FD} (inv : CutInv m p i st) {v x : Int}
    (hv : v ∉ (p.take i).map m.toOf) (hx : liveIn m.halfs x = true) (hfrom : m.fromOf x = v) :
    ∃ t o, getAt st.mesh.halfs x = .ok t ∧ t.topo.efrom = v ∧
      getAt st.mesh.halfs t.topo.opposite = .ok o ∧ o.topo.eto = v ∧
      t.topo.opposite = m.oppOf x ∧ o.topo.opposite = x := by
  obtain ⟨t0, o0, ht0, ho0, -, hopp, -, hoto⟩ := wf_live_pair hwf hx
  rw [fromOf_eq ht0] at hfrom
  obtain ⟨t, ht, h1, h2, -⟩ := inv.halfs x t0 ht0
  obtain ⟨o, ho, k1, -, k3⟩ := inv.halfs _ o0 ho0
  refine ⟨t, o, ht, ?_, by rw [h1]; exact ho, ?_, by rw [h1, oppOf_eq ht0], by rw [k1, hopp]⟩
  · rw [h2 (by rw [hfrom]; exact hv)]
    exact hfrom
  · rw [k3 (by rw [hoto, hfrom]; exact hv), hoto]
    exact hfrom

/-- The set that the round for the end vertex `v` builds from the outgoing list of
`v`: it exists when enough passes are allowed, is duplicate-free, holds the opposite
of the loop half-edge, and all its members are non-removed half-edges of `m` that
leave `v` and are not on the loop. -/
theorem cutInv_related {m : Mesh VD HD FD} (hwf : m.WF) (hl : m.ListsLive) {p : List Int}
    (hp : LoopFacts m p) {i : Nat} {st : Cut VD HD FD} (inv : CutInv m p i st)
    {hh : Int} (hhp : hh ∈ p) {vt0 : Triplet VertTopo VD}
    (hvt0 : getAt m.verts (m.toOf hh) = .ok vt0)
    (hv : m.toOf hh ∉ (p.take i).map m.toOf) {fuel : Nat} (hfuel : m.maxDegree < fuel)
    (vd : VD) :
    ∃ R, relatedFix (st.mesh.addVertex vd).1 p vt0.topo.halfedges fuel [m.oppOf hh]
        = .ok (some R) ∧ R.Nodup ∧ m.oppOf hh ∈ R ∧
      ∀ x ∈ R, liveIn m.halfs x = true ∧ m.fromOf x = m.toOf hh ∧ x ∉ p := by
  obtain ⟨th0, oh0, hth0, hoh0, hoex, -, hofrom, -⟩ := wf_live_pair hwf (hp.live hh hhp)
  have hoppLive : liveIn m.halfs (m.oppOf hh) = true := by
    rw [oppOf_eq hth0]
    exact liveIn_eq_true.mpr ⟨oh0, hoh0, hoex⟩
  have hoppFrom : m.fromOf (m.oppOf hh) = m.toOf hh := by
    rw [oppOf_eq hth0, fromOf_eq hoh0, toOf_eq hth0]
    exact hofrom
  have hlist : ∀ x ∈ vt0.topo.halfedges, ∃ t o, getAt (st.mesh.addVertex vd).1.halfs x = .ok t ∧
      getAt (st.mesh.addVertex vd).1.halfs t.topo.opposite = .ok o := by
    intro x hx
    obtain ⟨h1, h2⟩ := listsLive_from hwf hl hvt0 hx
    obtain ⟨t, o, ht, -, ho, -⟩ := cutInv_leaving hwf inv hv h1 h2
    exact ⟨t, o, ht, ho⟩
  have hrel : ∀ x ∈ [m.oppOf hh], ∃ t, getAt (st.mesh.addVertex vd).1.halfs x = .ok t := by
    intro x hx
    rw [List.mem_singleton.mp hx]
    obtain ⟨t, _, ht, _⟩ := cutInv_leaving hwf inv hv hoppLive hoppFrom
    exact ⟨t, ht⟩
  obtain ⟨R, hR, hnd, hsub, hsup⟩ := relatedFix_spec hlist fuel [m.oppOf hh] hrel
    (List.nodup_singleton _)
    (Nat.lt_of_le_of_lt (Nat.le_trans (List.length_filter_le _ _)
      (length_le_maxDegree (mem_iff_getAt.mpr ⟨_, hvt0⟩))) hfuel)
  refine ⟨R, hR, hnd, hsub _ (List.mem_singleton.mpr rfl), ?_⟩
  intro x hx
  rcases hsup x hx with h | ⟨h1, h2⟩
  · rw [List.mem_singleton.mp h]
    exact ⟨hoppLive, hoppFrom, hp.noOpp hh hhp⟩
  · obtain ⟨k1, k2⟩ := listsLive_from hwf hl hvt0 h1
    exact ⟨k1, k2, h2⟩

end CutStep

section CutRun

variable {VD HD FD : Type}

theorem degree_eq_ok {m : Mesh VD HD FD} {v : Int} {d : Nat} :
    m.degree v = .ok d ↔ ∃ vt, getAt m.verts v = .ok vt ∧ d = vt.topo.halfedges.length := by
  unfold Mesh.degree
  cases hg : getAt m.verts v with
  | error e => simp
  | ok vt => simp [eq_comm]

/-- One round of the first loop of `DecomposeOnInternalLoop` runs through in a state
that satisfies the invariant, and what it does to the tables: a new vertex that
takes over the set `R` of half-edges; the half-edges of `R` now leave the new
vertex; a half-edge whose `to` has changed ended at the end vertex `v` of the round. -/
theorem cutStep_run {m : Mesh VD HD FD} (hwf : m.WF) (hl : m.ListsLive) {p : List Int}
    (hp : LoopFacts m p) {i : Nat} {st : Cut VD HD FD} (inv : CutInv m p i st)
    (hi : i < p.length) {fuel : Nat} (hfuel : m.maxDegree < fuel) :
    ∃ vt0 R m5, getAt m.verts (m.toOf (p.getD i Handle.none)) = .ok vt0 ∧
      cutStep fuel p i st = .ok (some ⟨m5, st.thisVhs ++ [m.toOf (p.getD i Handle.none)],
        st.anotherVhs ++ [(st.mesh.verts.length : Int)]⟩) ∧
      m5.faces = st.mesh.faces ∧ m5.halfs.length = st.mesh.halfs.length ∧
      m5.verts.length = st.mesh.verts.length + 1 ∧
      m5.verts.map (fun t => t.exists_) = st.mesh.verts.map (fun t => t.exists_) ++ [true] ∧
      (∀ x ∈ R, ∃ t, getAt st.mesh.halfs x = .ok t ∧
        t.topo.efrom = m.toOf (p.getD i Handle.none)) ∧
      (∀ x t, getAt st.mesh.halfs x = .ok t → ∃ t5, getAt m5.halfs x = .ok t5 ∧
        t5.topo.opposite = t.topo.opposite ∧
        t5.topo.efrom = (if x ∈ R then (st.mesh.verts.length : Int) else t.topo.efrom) ∧
        (t5.topo.eto = t.topo.eto ∨ t.topo.eto = m.toOf (p.getD i Handle.none))) ∧
      (∃ vt5, getAt m5.verts (m.toOf (p.getD i Handle.none)) = .ok vt5 ∧
        vt5.topo.halfedges = vt0.topo.halfedges.filter (fun h => !(Contains R h))) ∧
      (∃ vt5, getAt m5.verts (st.mesh.verts.length : Int) = .ok vt5 ∧
        vt5.topo.halfedges = R) ∧
      ∀ u, u ≠ m.toOf (p.getD i Handle.none) → u ≠ (st.mesh.verts.length : Int) →
        getAt m5.verts u = getAt (st.mesh.verts ++
          [(⟨⟨(st.mesh.verts.length : Int), []⟩, vt0.data, true⟩ : Triplet VertTopo VD)]) u := by
  have hhp : p.getD i Handle.none ∈ p := getD_mem_of_lt hi _
  have hv := not_mem_take_map m.toOf hp.nodupTo hi Handle.none
  -- the loop half-edge of the round
  obtain ⟨th0, oh0, hth0, hoh0, -, -, -, -⟩ := wf_live_pair hwf (hp.live _ hhp)
  obtain ⟨th, hth, hthopp, -, hthto⟩ := inv.halfs _ th0 hth0
  have hto : th.topo.eto = m.toOf (p.getD i Handle.none) := by
    rw [toOf_eq hth0]
    exact hthto (by rw [← toOf_eq hth0]; exact hv)
  have hopp : th.topo.opposite = m.oppOf (p.getD i Handle.none) := by
    rw [hthopp, oppOf_eq hth0]
  -- its end vertex
  obtain ⟨d, hd, hd4⟩ := hp.degree _ hhp
  obtain ⟨vt0, hvt0, hdlen⟩ := degree_eq_ok.mp hd
  have hlen4 : 4 ≤ vt0.topo.halfedges.length := by omega
  have hvtM := inv.verts _ vt0 hvt0 hv
  -- the set of the round
  obtain ⟨R, hR, hRnd, -, hRmem⟩ := cutInv_related hwf hl hp inv hhp hvt0 hv hfuel vt0.data
  have hRM : ∀ x ∈ R, ∃ t o, getAt (st.mesh.addVertex vt0.data).1.halfs x = .ok t ∧
      t.topo.efrom = m.toOf (p.getD i Handle.none) ∧
      getAt (st.mesh.addVertex vt0.data).1.halfs t.topo.opposite = .ok o ∧
      o.topo.eto = m.toOf (p.getD i Handle.none) := by
    intro x hx
    obtain ⟨k1, k2, -⟩ := hRmem x hx
    obtain ⟨t, o, ht, h1, ho, h2, -, -⟩ := cutInv_leaving hwf inv hv k1 k2
    exact ⟨t, o, ht, h1, ho, h2⟩
  have hinj : ∀ x ∈ R, ∀ y ∈ R, (st.mesh.addVertex vt0.data).1.oppOf x
      = (st.mesh.addVertex vt0.data).1.oppOf y → x = y := by
    intro x hx y hy hxy
    obtain ⟨k1, k2, -⟩ := hRmem x hx
    obtain ⟨j1, j2, -⟩ := hRmem y hy
    obtain ⟨t, o, ht, -, ho, -, -, hox⟩ := cutInv_leaving hwf inv hv k1 k2
    obtain ⟨u, q, hu, -, hq, -, -, hqy⟩ := cutInv_leaving hwf inv hv j1 j2
    have e1 : (st.mesh.addVertex vt0.data).1.oppOf x = t.topo.opposite := oppOf_eq ht
    have e2 : (st.mesh.addVertex vt0.data).1.oppOf y = u.topo.opposite := oppOf_eq hu
    rw [e1, e2] at hxy
    rw [hxy, hq] at ho
    simp only [Except.ok.injEq] at ho
    rw [← hox, ← hqy, ho]
  obtain ⟨m2, hm2, hv2, hf2, hl2, hobs2⟩ := redirectLoop_spec
    (m.toOf (p.getD i Handle.none)) (st.mesh.verts.length : Int) (p.getD i Handle.none)
    R (st.mesh.addVertex vt0.data).1 hRnd hRM hinj
  -- the next loop half-edge and its opposite
  have hnmem : p.getD ((i + 1) % p.length) Handle.none ∈ p :=
    getD_mem_of_lt (Nat.mod_lt _ (by omega)) _
  obtain ⟨tn0, on0, htn0, hon0, -, -, -, honto⟩ := wf_live_pair hwf (hp.live _ hnmem)
  obtain ⟨tnM, htnM, htnMopp, -, -⟩ := inv.halfs _ tn0 htn0
  obtain ⟨onM, honM, -, -, honMto⟩ := inv.halfs _ on0 hon0
  obtain ⟨tn2, htn2, htn2opp, -, -⟩ := hobs2 _ tnM htnM
  obtain ⟨on2, hon2, hon2opp, hon2from, hon2to⟩ := hobs2 _ onM honM
  have hnextTo : onM.topo.eto = m.toOf (p.getD i Handle.none) := by
    have h1 := hp.next i hi
    rw [fromOf_eq htn0] at h1
    rw [honMto (by rw [honto, h1]; exact hv), honto, h1]
  have hnopp : tn2.topo.opposite = tn0.topo.opposite := by rw [htn2opp, htnMopp]
  obtain ⟨m3, hm3, hv3, hf3, hl3, hself3, hother3⟩ := modifyHalf_obs
    (setTo (st.mesh.verts.length : Int)) hon2
  -- the two outgoing lists
  have hverts3 : m3.verts = st.mesh.verts ++
      [(⟨⟨(st.mesh.verts.length : Int), []⟩, vt0.data, true⟩ : Triplet VertTopo VD)] := by
    rw [hv3, hv2]
    rfl
  have hvne : m.toOf (p.getD i Handle.none) ≠ (st.mesh.verts.length : Int) := by
    have := (getAt_lt_length hvtM).2
    omega
  have hv3v : getAt m3.verts (m.toOf (p.getD i Handle.none)) = .ok vt0 := by
    rw [hverts3]
    exact getAt_append_left hvtM
  obtain ⟨m4, hm4, hh4, hf4, hl4, hself4, hother4, hex4⟩ := modifyVert_obs (eraseRelated R) hv3v
  have hv4n : getAt m4.verts (st.mesh.verts.length : Int)
      = .ok ⟨⟨(st.mesh.verts.length : Int), []⟩, vt0.data, true⟩ := by
    rw [hother4 _ (Ne.symm hvne), hverts3]
    exact getAt_snoc_self _ _
  obtain ⟨m5, hm5, hh5, hf5, hl5, hself5, hother5, hex5⟩ := modifyVert_obs (insertRelated R) hv4n
  refine ⟨vt0, R, m5, hvt0, ?_, ?_, ?_, ?_, ?_, ?_, ?_, ?_, ?_, ?_⟩
  · unfold cutStep
    simp only [hth, hto, hvtM, hopp]
    rw [if_neg (by omega)]
    simp only [hR]
    have e1 : (st.mesh.addVertex vt0.data).2 = (st.mesh.verts.length : Int) := rfl
    simp only [e1, hm2, htn2, hnopp, hm3, hm4, hm5]
  · rw [hf5, hf4, hf3, hf2]
    rfl
  · rw [hh5, hh4, hl3, hl2]
    rfl
  · rw [hl5, hl4, hverts3]
    simp
  · rw [hex5 (fun t => rfl), hex4 (fun t => rfl), hverts3]
    simp
  · intro x hx
    obtain ⟨t, _, ht, h1, _, _⟩ := hRM x hx
    exact ⟨t, ht, h1⟩
  · intro x t ht
    obtain ⟨t2, ht2, h1, h2, h3⟩ := hobs2 x t ht
    rw [hh5, hh4]
    by_cases hx : x = tn0.topo.opposite
    · subst hx
      rw [hon2] at ht2
      simp only [Except.ok.injEq] at ht2
      subst ht2
      refine ⟨_, hself3, h1, h2, Or.inr ?_⟩
      have : t = onM := by
        have ht2 : getAt st.mesh.halfs tn0.topo.opposite = .ok t := ht
        rw [honM] at ht2
        simp only [Except.ok.injEq] at ht2
        exact ht2.symm
      rw [this]
      exact hnextTo
    · rw [hother3 x hx]
      refine ⟨t2, ht2, h1, h2, ?_⟩
      rcases h3 with h3 | ⟨h3, _⟩
      · exact Or.inl h3
      · exact Or.inr h3
  · exact ⟨_, by rw [hother5 _ hvne]; exact hself4, rfl⟩
  · exact ⟨_, hself5, by simp [insertRelated]⟩
  · intro u hu1 hu2
    rw [hother5 u hu2, hother4 u hu1, hverts3]

end CutRun

section CutLoop

variable {VD HD FD : Type}

/-- One round of the first loop of `DecomposeOnInternalLoop` keeps the invariant. -/
theorem cutStep_inv {m : Mesh VD HD FD} (hwf : m.WF) (hl : m.ListsLive) {p : List Int}
    (hp : LoopFacts m p) {i : Nat} {st : Cut VD HD FD} (inv : CutInv m p i st)
    (hi : i < p.length) {fuel : Nat} (hfuel : m.maxDegree < fuel) :
    ∃ st2, cutStep fuel p i st = .ok (some st2) ∧ CutInv m p (i + 1) st2 := by
  obtain ⟨vt0, R, m5, hvt0, hrun, hf, hhl, hvl, hex, hRfrom, hobs, hvv, hvn, hvo⟩ :=
    cutStep_run hwf hl hp inv hi hfuel
  have hv := not_mem_take_map m.toOf hp.nodupTo hi Handle.none
  have hvtM := inv.verts _ vt0 hvt0 hv
  have htake := take_succ_map m.toOf hi Handle.none
  have hVi : (st.mesh.verts.length : Int) = (m.verts.length : Int) + (i : Int) := by
    rw [inv.vlen]
    push_cast
    rfl
  refine ⟨_, hrun, ?_, ?_, ?_, ?_, ?_, ?_, ?_, ?_, ?_⟩
  · show st.thisVhs ++ [m.toOf (p.getD i Handle.none)] = _
    rw [htake, inv.thisVhs]
  · show st.anotherVhs ++ [(st.mesh.verts.length : Int)] = _
    rw [List.range_succ, List.map_append, inv.anotherVhs, hVi]
    rfl
  · show m5.faces = m.faces
    rw [hf, inv.faces]
  · show m5.verts.length = m.verts.length + (i + 1)
    rw [hvl, inv.vlen]
    omega
  · show m5.verts.map (fun t => t.exists_) = _
    rw [hex, inv.exs, List.append_assoc, List.replicate_succ']
  · show m5.halfs.length = m.halfs.length
    rw [hhl, inv.hlen]
  · intro x t ht
    obtain ⟨tM, htM, h1, h2, h3⟩ := inv.halfs x t ht
    obtain ⟨t5, ht5, k1, k2, k3⟩ := hobs x tM htM
    refine ⟨t5, ht5, by rw [k1, h1], ?_, ?_⟩
    · intro hnot
      rw [htake, List.mem_append, List.mem_singleton] at hnot
      have hnot1 : t.topo.efrom ∉ (p.take i).map m.toOf := fun h => hnot (Or.inl h)
      have hxR : x ∉ R := by
        intro hx
        obtain ⟨t2, ht2, hfrom⟩ := hRfrom x hx
        rw [htM] at ht2
        simp only [Except.ok.injEq] at ht2
        subst ht2
        exact hnot (Or.inr (by rw [← h2 hnot1]; exact hfrom))
      rw [k2, if_neg hxR]
      exact h2 hnot1
    · intro hnot
      rw [htake, List.mem_append, List.mem_singleton] at hnot
      have hnot1 : t.topo.eto ∉ (p.take i).map m.toOf := fun h => hnot (Or.inl h)
      rcases k3 with k3 | k3
      · rw [k3]
        exact h3 hnot1
      · exact absurd (by rw [← h3 hnot1]; exact k3) (fun h => hnot (Or.inr h))
  · intro u vt hu hnot
    rw [htake, List.mem_append, List.mem_singleton] at hnot
    have hM := inv.verts u vt hu (fun h => hnot (Or.inl h))
    have hne : u ≠ (st.mesh.verts.length : Int) := by
      have := (getAt_lt_length hM).2
      omega
    show getAt m5.verts u = .ok vt
    rw [hvo u (fun h => hnot (Or.inr h)) hne]
    exact getAt_append_left hM
  · intro u vt5 hu x hx
    have hu5 : getAt m5.verts u = .ok vt5 := hu
    by_cases h1 : u = (st.mesh.verts.length : Int)
    · obtain ⟨vt, hvt, hlist⟩ := hvn
      rw [h1, hvt] at hu5
      simp only [Except.ok.injEq] at hu5
      subst hu5
      rw [hlist] at hx
      obtain ⟨tM, htM, -⟩ := hRfrom x hx
      obtain ⟨t5, ht5, -, k2, -⟩ := hobs x tM htM
      exact ⟨t5, ht5, by rw [k2, if_pos hx, h1]⟩
    · by_cases h2 : u = m.toOf (p.getD i Handle.none)
      · obtain ⟨vt, hvt, hlist⟩ := hvv
        rw [h2, hvt] at hu5
        simp only [Except.ok.injEq] at hu5
        subst hu5
        rw [hlist, List.mem_filter] at hx
        obtain ⟨hx1, hx2⟩ := hx
        have hxR : x ∉ R := by simpa [Contains] using hx2
        obtain ⟨tM, htM, hfrom⟩ := inv.lists _ vt0 hvtM x hx1
        obtain ⟨t5, ht5, -, k2, -⟩ := hobs x tM htM
        exact ⟨t5, ht5, by rw [k2, if_neg hxR, hfrom, h2]⟩
      · rw [hvo u h2 h1] at hu5
        have hM := getAt_snoc_ne hu5 h1
        obtain ⟨tM, htM, hfrom⟩ := inv.lists u vt5 hM x hx
        obtain ⟨t5, ht5, -, k2, -⟩ := hobs x tM htM
        have hxR : x ∉ R := by
          intro hxR
          obtain ⟨t2, ht2, hfrom2⟩ := hRfrom x hxR
          rw [htM] at ht2
          simp only [Except.ok.injEq] at ht2
          subst ht2
          exact h2 (by rw [← hfrom, hfrom2])
        exact ⟨t5, ht5, by rw [k2, if_neg hxR, hfrom]⟩

/-- The first loop of `DecomposeOnInternalLoop` runs through from any state that
satisfies the invariant, and ends in a state that satisfies it for the whole loop. -/
theorem cutLoop_inv {m : Mesh VD HD FD} (hwf : m.WF) (hl : m.ListsLive) {p : List Int}
    (hp : LoopFacts m p) {fuel : Nat} (hfuel : m.maxDegree < fuel) :
    ∀ (k i : Nat) (st : Cut VD HD FD), i + k = p.length → CutInv m p i st →
      ∃ st2, cutLoop fuel p (List.range' i k) st = .ok (some st2) ∧
        CutInv m p p.length st2 := by
  intro k
  induction k with
  | zero =>
    intro i st hik inv
    have : i = p.length := by omega
    subst this
    exact ⟨st, rfl, inv⟩
  | succ k ih =>
    intro i st hik inv
    obtain ⟨st1, hrun1, inv1⟩ := cutStep_inv hwf hl hp inv (by omega) hfuel
    obtain ⟨st2, hrun2, inv2⟩ := ih (i + 1) st1 (by omega) inv1
    refine ⟨st2, ?_, inv2⟩
    rw [List.range'_succ]
    simp only [cutLoop, hrun1]
    exact hrun2

end CutLoop

section Detach

variable {VD HD FD : Type}

/-- The loop that detaches the opposites runs through on half-edges that are
pairwise different, none the opposite of another, each with its opposite a slot of
`_halfs`; it changes `opposite` fields only. -/
theorem detachLoop_spec :
    ∀ (l : List Int) (m : Mesh VD HD FD), l.Nodup →
      (∀ x ∈ l, ∃ t o, getAt m.halfs x = .ok t ∧ getAt m.halfs t.topo.opposite = .ok o) →
      (∀ x ∈ l, ∀ y ∈ l, m.oppOf x ≠ y) →
      ∃ m2, detachLoop m l = .ok m2 ∧ m2.verts = m.verts ∧ m2.faces = m.faces ∧
        m2.halfs.length = m.halfs.length ∧
        ∀ x t, getAt m.halfs x = .ok t → ∃ t2, getAt m2.halfs x = .ok t2 ∧
          t2.topo.efrom = t.topo.efrom ∧ t2.topo.eto = t.topo.eto := by
  intro l
  induction l with
  | nil =>
    intro m _ _ _
    exact ⟨m, rfl, rfl, rfl, rfl, fun x t ht => ⟨t, ht, rfl, rfl⟩⟩
  | cons a rest ih =>
    intro m hnd hin hno
    obtain ⟨ha, hrest⟩ := List.nodup_cons.mp hnd
    obtain ⟨ta, oa, hta, hoa⟩ := hin a (List.mem_cons_self _ _)
    obtain ⟨m1, hm1, hv1, hf1, hl1, hself1, hother1⟩ := modifyHalf_obs (setOpp Handle.none) hoa
    have hta1 : ∃ ta1, getAt m1.halfs a = .ok ta1 := by
      by_cases he : a = ta.topo.opposite
      · rw [he]; exact ⟨_, hself1⟩
      · rw [hother1 a he]; exact ⟨ta, hta⟩
    obtain ⟨ta1, hta1⟩ := hta1
    obtain ⟨m2, hm2, hv2, hf2, hl2, hself2, hother2⟩ := modifyHalf_obs (setOpp Handle.none) hta1
    have hkeep : ∀ x, x ≠ a → x ≠ ta.topo.opposite → getAt m2.halfs x = getAt m.halfs x := by
      intro x h1 h2
      rw [hother2 x h1, hother1 x h2]
    have hends : ∀ x t, getAt m.halfs x = .ok t → ∃ t2, getAt m2.halfs x = .ok t2 ∧
        t2.topo.efrom = t.topo.efrom ∧ t2.topo.eto = t.topo.eto := by
      intro x t ht
      have h1 : ∃ t1, getAt m1.halfs x = .ok t1 ∧ t1.topo.efrom = t.topo.efrom ∧
          t1.topo.eto = t.topo.eto := by
        by_cases he : x = ta.topo.opposite
        · subst he
          rw [hoa] at ht
          simp only [Except.ok.injEq] at ht
          subst ht
          exact ⟨_, hself1, rfl, rfl⟩
        · rw [hother1 x he]; exact ⟨t, ht, rfl, rfl⟩
      obtain ⟨t1, ht1, k1, k2⟩ := h1
      by_cases he : x = a
      · subst he
        rw [hta1] at ht1
        simp only [Except.ok.injEq] at ht1
        subst ht1
        exact ⟨_, hself2, k1, k2⟩
      · rw [hother2 x he]; exact ⟨t1, ht1, k1, k2⟩
    have hin2 : ∀ x ∈ rest, ∃ t o, getAt m2.halfs x = .ok t ∧
        getAt m2.halfs t.topo.opposite = .ok o := by
      intro x hx
      obtain ⟨t, o, ht, ho⟩ := hin x (List.mem_cons_of_mem _ hx)
      have hxa : x ≠ a := fun h => ha (h ▸ hx)
      have hxo : x ≠ ta.topo.opposite := by
        intro h
        apply hno a (List.mem_cons_self _ _) x (List.mem_cons_of_mem _ hx)
        rw [oppOf_eq hta, h]
      obtain ⟨o2, ho2, -, -⟩ := hends _ o ho
      exact ⟨t, o2, by rw [hkeep x hxa hxo]; exact ht, ho2⟩
    have hno2 : ∀ x ∈ rest, ∀ y ∈ rest, m2.oppOf x ≠ y := by
      intro x hx y hy
      have hxa : x ≠ a := fun h => ha (h ▸ hx)
      have hxo : x ≠ ta.topo.opposite := by
        intro h
        apply hno a (List.mem_cons_self _ _) x (List.mem_cons_of_mem _ hx)
        rw [oppOf_eq hta, h]
      have : m2.oppOf x = m.oppOf x := by
        unfold Mesh.oppOf
        rw [hkeep x hxa hxo]
      rw [this]
      exact hno x (List.mem_cons_of_mem _ hx) y (List.mem_cons_of_mem _ hy)
    obtain ⟨m3, hm3, hv3, hf3, hl3, hobs3⟩ := ih m2 hrest hin2 hno2
    refine ⟨m3, ?_, by rw [hv3, hv2, hv1], by rw [hf3, hf2, hf1], by rw [hl3, hl2, hl1], ?_⟩
    · unfold detachLoop
      simp only [hta, hm1, hm2]
      exact hm3
    · intro x t ht
      obtain ⟨t2, ht2, k1, k2⟩ := hends x t ht
      obtain ⟨t3, ht3, j1, j2⟩ := hobs3 x t2 ht2
      exact ⟨t3, ht3, by rw [j1, k1], by rw [j2, k2]⟩

end Detach

section Sewing

variable {VD HD FD : Type}

theorem stretch_same (m : Mesh VD HD FD) : Stretch m m :=
  ⟨fun _ t ht => ⟨t, ht, rfl, rfl⟩, fun _ vt hvt => ⟨vt, [], hvt, by simp⟩⟩

theorem stretch_chain {m m2 m3 : Mesh VD HD FD} (h1 : Stretch m m2) (h2 : Stretch m2 m3) :
    Stretch m m3 := by
  constructor
  · intro x t ht
    obtain ⟨t2, ht2, a1, a2⟩ := h1.halfs x t ht
    obtain ⟨t3, ht3, b1, b2⟩ := h2.halfs x t2 ht2
    exact ⟨t3, ht3, by rw [b1, a1], by rw [b2, a2]⟩
  · intro u vt hvt
    obtain ⟨vt2, e1, hvt2, a1⟩ := h1.verts u vt hvt
    obtain ⟨vt3, e2, hvt3, b1⟩ := h2.verts u vt2 hvt2
    exact ⟨vt3, e1 ++ e2, hvt3, by rw [b1, a1, List.append_assoc]⟩

/-- Under the assertion of `findEdge` (every handle of the list is a half-edge from
`a`), `findEdge` is the plain scan for the first half-edge that ends at `b`. -/
theorem findEdgeLoop_eq_firstTo {m : Mesh VD HD FD} {a : Int} (b : Int) :
    ∀ {l : List Int}, (∀ x ∈ l, ∃ t, getAt m.halfs x = .ok t ∧ t.topo.efrom = a) →
      findEdgeLoop m.halfs a b l = firstTo m b l := by
  intro l
  induction l with
  | nil => intro _; rfl
  | cons x rest ih =>
    intro hl
    obtain ⟨t, ht, hfrom⟩ := hl x (List.mem_cons_self _ _)
    unfold findEdgeLoop firstTo
    simp only [ht, hfrom, ne_eq, not_true_eq_false, if_false]
    by_cases hb : t.topo.eto = b
    · simp [hb]
    · simp only [hb, if_false]
      exact ih (fun y hy => hl y (List.mem_cons_of_mem _ hy))

theorem findEdge_eq_firstTo {m : Mesh VD HD FD} (hlf : m.ListsFrom) {a : Int}
    {va : Triplet VertTopo VD} (ha : getAt m.verts a = .ok va) (b : Int) :
    m.findEdge a b = firstTo m b va.topo.halfedges := by
  unfold Mesh.findEdge
  simp only [ha]
  exact findEdgeLoop_eq_firstTo b (hlf a va ha)

/-- The scan runs through a list of slots of `_halfs`: it returns the invalid handle
and no half-edge of the list ends at `b`, or a half-edge of the list that ends at
`b`. -/
theorem firstTo_total {m : Mesh VD HD FD} (b : Int) :
    ∀ {l : List Int}, (∀ x ∈ l, ∃ t, getAt m.halfs x = .ok t) →
      ∃ g, firstTo m b l = .ok g ∧
        ((g = Handle.none ∧ ∀ x ∈ l, m.toOf x ≠ b) ∨ (g ∈ l ∧ m.toOf g = b)) := by
  intro l
  induction l with
  | nil => intro _; exact ⟨Handle.none, rfl, Or.inl ⟨rfl, by simp⟩⟩
  | cons x rest ih =>
    intro hl
    obtain ⟨t, ht⟩ := hl x (List.mem_cons_self _ _)
    unfold firstTo
    simp only [ht]
    by_cases hb : t.topo.eto = b
    · exact ⟨x, by rw [if_pos hb], Or.inr ⟨List.mem_cons_self _ _, by rw [toOf_eq ht]; exact hb⟩⟩
    · rw [if_neg hb]
      obtain ⟨g, hg, hcase⟩ := ih (fun y hy => hl y (List.mem_cons_of_mem _ hy))
      refine ⟨g, hg, ?_⟩
      rcases hcase with ⟨h1, h2⟩ | ⟨h1, h2⟩
      · left
        refine ⟨h1, ?_⟩
        intro y hy
        rcases List.mem_cons.mp hy with rfl | hy
        · rw [toOf_eq ht]; exact hb
        · exact h2 y hy
      · exact Or.inr ⟨List.mem_cons_of_mem _ h1, h2⟩

/-- A half-edge found by the scan is still the one found after calls that keep the
`to` of the old half-edges and append to the list. -/
theorem firstTo_stretch {m m2 : Mesh VD HD FD} (hs : Stretch m m2) {b g : Int} (hg0 : 0 ≤ g)
    (ext : List Int) :
    ∀ {l : List Int}, firstTo m b l = .ok g → firstTo m2 b (l ++ ext) = .ok g := by
  intro l
  induction l with
  | nil =>
    intro h
    simp only [firstTo, Except.ok.injEq] at h
    rw [← h] at hg0
    exact absurd hg0 (by decide)
  | cons x rest ih =>
    intro h
    unfold firstTo at h
    cases hx : getAt m.halfs x with
    | error e => simp [hx] at h
    | ok t =>
      simp only [hx] at h
      obtain ⟨t2, ht2, -, hto⟩ := hs.halfs x t hx
      rw [List.cons_append]
      unfold firstTo
      simp only [ht2, hto]
      by_cases hb : t.topo.eto = b
      · rw [if_pos hb] at h ⊢
        exact h
      · rw [if_neg hb] at h ⊢
        exact ih h

/-- The scan on a list without a half-edge that ends at `b`, extended by a half-edge
that does: it finds the new one. -/
theorem firstTo_snoc {m m2 : Mesh VD HD FD} (hs : Stretch m m2) {b g : Int}
    {tg : Triplet HalfTopo HD} (hg : getAt m2.halfs g = .ok tg) (hgb : tg.topo.eto = b) :
    ∀ {l : List Int}, firstTo m b l = .ok Handle.none → firstTo m2 b (l ++ [g]) = .ok g := by
  intro l
  induction l with
  | nil =>
    intro _
    simp [firstTo, hg, hgb]
  | cons x rest ih =>
    intro h
    unfold firstTo at h
    cases hx : getAt m.halfs x with
    | error e => simp [hx] at h
    | ok t =>
      simp only [hx] at h
      obtain ⟨t2, ht2, -, hto⟩ := hs.halfs x t hx
      rw [List.cons_append]
      unfold firstTo
      simp only [ht2, hto]
      by_cases hb : t.topo.eto = b
      · rw [if_pos hb] at h
        simp only [Except.ok.injEq] at h
        have := (getAt_lt_length hx).1
        rw [h] at this
        exact absurd this (by decide)
      · rw [if_neg hb] at h ⊢
        exact ih h

theorem paired_symm {m : Mesh VD HD FD} {a b q1 q2 : Int} (h : Paired m a b q1 q2) :
    Paired m b a q2 q1 := by
  obtain ⟨t1, t2, va, vb, h1, h2, h3, h4, h5, h6, h7, h8, h9, h10, h11, h12⟩ := h
  exact ⟨t2, t1, vb, va, h5, h6, h7, h8, h1, h2, h3, h4, h11, h12, h9, h10⟩

/-- Two sewn half-edges stay sewn through calls that keep the ends of the old
half-edges, append to the lists, and leave the `opposite` of the two untouched. -/
theorem paired_stretch {m m2 : Mesh VD HD FD} {a b q1 q2 : Int} (h : Paired m a b q1 q2)
    (hs : Stretch m m2) (ho1 : m2.oppOf q1 = m.oppOf q1) (ho2 : m2.oppOf q2 = m.oppOf q2) :
    Paired m2 a b q1 q2 := by
  obtain ⟨t1, t2, va, vb, h1, h2, h3, h4, h5, h6, h7, h8, h9, h10, h11, h12⟩ := h
  obtain ⟨s1, hs1, a1, a2⟩ := hs.halfs q1 t1 h1
  obtain ⟨s2, hs2, b1, b2⟩ := hs.halfs q2 t2 h5
  obtain ⟨wa, ea, hwa, hla⟩ := hs.verts a va h9
  obtain ⟨wb, eb, hwb, hlb⟩ := hs.verts b vb h11
  rw [oppOf_eq hs1, oppOf_eq h1] at ho1
  rw [oppOf_eq hs2, oppOf_eq h5] at ho2
  refine ⟨s1, s2, wa, wb, hs1, by rw [a1, h2], by rw [a2, h3], by rw [ho1, h4], hs2,
    by rw [b1, h6], by rw [b2, h7], by rw [ho2, h8], hwa, ?_, hwb, ?_⟩
  · rw [hla]
    exact firstTo_stretch hs (getAt_lt_length h1).1 ea h10
  · rw [hlb]
    exact firstTo_stretch hs (getAt_lt_length h5).1 eb h12

end Sewing

section EnsureHalf

variable {VD HD FD : Type}

theorem firstTo_congr {m m2 : Mesh VD HD FD} (b : Int) :
    ∀ {l : List Int}, (∀ x ∈ l, getAt m2.halfs x = getAt m.halfs x) →
      firstTo m2 b l = firstTo m b l := by
  intro l
  induction l with
  | nil => intro _; rfl
  | cons x rest ih =>
    intro h
    unfold firstTo
    rw [h x (List.mem_cons_self _ _), ih (fun y hy => h y (List.mem_cons_of_mem _ hy))]

/-- One of the two blocks `if (hh.invalid()) { .. }` of `addEdge`, on a mesh whose
lists agree with the `from` fields: when the scan of the list of `a` for a half-edge
to `b` has returned `g`, the block leaves a half-edge `p` from `a` to `b` that is the
first such in the list of `a`; the old slots of `_halfs` and the other vertices are
untouched, a new slot is `p`. -/
theorem ensureHalf_spec {m : Mesh VD HD FD} (hlf : m.ListsFrom) {a b : Int}
    {va : Triplet VertTopo VD} (ha : getAt m.verts a = .ok va) {g : Int}
    (hg : firstTo m b va.topo.halfedges = .ok g) (hd : HD) :
    ∃ m1 p, (if Handle.invalid g then m.pushHalf a b hd else .ok (m, g)) = .ok (m1, p) ∧
      m1.ListsFrom ∧ m1.faces = m.faces ∧ m1.verts.length = m.verts.length ∧
      m1.verts.map (fun t => t.exists_) = m.verts.map (fun t => t.exists_) ∧
      Stretch m m1 ∧ (∀ x t, getAt m.halfs x = .ok t → getAt m1.halfs x = .ok t) ∧
      (∃ t1, getAt m1.halfs p = .ok t1 ∧ t1.topo.efrom = a ∧ t1.topo.eto = b) ∧
      (∃ va1, getAt m1.verts a = .ok va1 ∧ firstTo m1 b va1.topo.halfedges = .ok p) ∧
      (∀ u, u ≠ a → getAt m1.verts u = getAt m.verts u) ∧
      ∀ x t1, getAt m1.halfs x = .ok t1 → getAt m.halfs x = .ok t1 ∨ x = p := by
  have hin : ∀ x ∈ va.topo.halfedges, ∃ t, getAt m.halfs x = .ok t := by
    intro x hx
    obtain ⟨t, ht, -⟩ := hlf a va ha x hx
    exact ⟨t, ht⟩
  obtain ⟨g2, hg2, hcase⟩ := firstTo_total (m := m) b hin
  rw [hg] at hg2
  simp only [Except.ok.injEq] at hg2
  subst hg2
  rcases hcase with ⟨hnone, hno⟩ | ⟨hmem, hto⟩
  · -- no half-edge from `a` to `b` yet: one is created
    have hinv : Handle.invalid g = true := by rw [hnone]; decide
    rw [if_pos hinv]
    obtain ⟨h0, hlt⟩ := getAt_isOk_iff.mp ⟨va, ha⟩
    have hs : Stretch m
        { verts := updAt m.verts a.toNat (pushOut (m.halfs.length : Int))
          halfs := m.halfs ++ [⟨⟨(m.halfs.length : Int), a, b, Handle.none, Handle.none⟩, hd, true⟩]
          faces := m.faces } := by
      constructor
      · intro x t ht
        exact ⟨t, getAt_append_left ht, rfl, rfl⟩
      · intro u vt hvt
        by_cases hu : u = a
        · subst hu
          rw [ha] at hvt
          simp only [Except.ok.injEq] at hvt
          subst hvt
          exact ⟨pushOut (m.halfs.length : Int) va, [(m.halfs.length : Int)],
            getAt_updAt.mpr ⟨va, ha, by simp⟩, rfl⟩
        · refine ⟨vt, [], ?_, by simp⟩
          show getAt (updAt m.verts a.toNat _) u = _
          rw [getAt_updAt_ne]
          · exact hvt
          · have := (getAt_lt_length hvt).1
            right
            omega
    refine ⟨_, _, pushHalf_eq_ok.mpr ⟨h0, hlt, rfl, rfl⟩, ?_, rfl, by simp,
      map_updAt_fix (fun (t : Triplet VertTopo VD) => t.exists_)
        (pushOut (m.halfs.length : Int)) (fun t => rfl) m.verts a.toNat, hs,
      fun x t ht => getAt_append_left ht, ⟨_, getAt_snoc_self _ _, rfl, rfl⟩, ?_, ?_, ?_⟩
    · -- the lists still agree with the `from` fields
      intro u vt hu x hx
      have hu2 : getAt (updAt m.verts a.toNat (pushOut (m.halfs.length : Int))) u = .ok vt := hu
      obtain ⟨vt0, hvt0, hvt⟩ := getAt_updAt.mp hu2
      show ∃ t, getAt (m.halfs ++ _) x = .ok t ∧ _
      by_cases hua : u.toNat = a.toNat
      · have hua2 : u = a := by
          have := (getAt_lt_length hvt0).1
          omega
        subst hua2
        rw [ha] at hvt0
        simp only [Except.ok.injEq] at hvt0
        subst hvt0
        simp only [if_true] at hvt
        subst hvt
        simp only [pushOut, List.mem_append, List.mem_singleton] at hx
        rcases hx with hx | hx
        · obtain ⟨t, ht, hfrom⟩ := hlf u va ha x hx
          exact ⟨t, getAt_append_left ht, hfrom⟩
        · rw [hx]
          exact ⟨_, getAt_snoc_self _ _, rfl⟩
      · rw [if_neg hua] at hvt
        rw [hvt] at hx
        obtain ⟨t, ht, hfrom⟩ := hlf u vt0 hvt0 x hx
        exact ⟨t, getAt_append_left ht, hfrom⟩
    · refine ⟨pushOut (m.halfs.length : Int) va, getAt_updAt.mpr ⟨va, ha, by simp⟩, ?_⟩
      show firstTo _ b (va.topo.halfedges ++ [(m.halfs.length : Int)]) = _
      exact firstTo_snoc hs (getAt_snoc_self _ _) rfl (by rw [hg, hnone])
    · intro u hu
      show getAt (updAt m.verts a.toNat _) u = _
      apply getAt_updAt_ne
      by_cases hn : u < 0
      · exact Or.inl hn
      · right
        omega
    · intro x t1 hx
      have hx2 : getAt (m.halfs ++ [(⟨⟨(m.halfs.length : Int), a, b, Handle.none, Handle.none⟩,
          hd, true⟩ : Triplet HalfTopo HD)]) x = .ok t1 := hx
      rcases getAt_append_cases hx2 with h | ⟨h1, h2⟩
      · exact Or.inl h
      · right
        obtain ⟨-, hlt2⟩ := getAt_lt_length h2
        simp only [List.length_singleton, Nat.cast_one] at hlt2
        omega
  · -- the half-edge exists: nothing changes
    obtain ⟨tg, htg, hfrom⟩ := hlf a va ha g hmem
    have hinv : Handle.invalid g = false := by
      have := (getAt_lt_length htg).1
      simp only [Handle.invalid, decide_eq_false_iff_not]
      omega
    rw [hinv]
    refine ⟨m, g, by simp, hlf, rfl, rfl, rfl, stretch_same m, fun _ _ h => h,
      ⟨tg, htg, hfrom, by rw [← toOf_eq htg]; exact hto⟩, ⟨va, ha, hg⟩, fun _ _ => rfl,
      fun _ _ h => Or.inl h⟩

end EnsureHalf

section AddEdgeLists

variable {VD HD FD : Type}

theorem listsFrom_of_stretch {m m2 : Mesh VD HD FD} (hlf : m.ListsFrom)
    (hv : m2.verts = m.verts) (hs : Stretch m m2) : m2.ListsFrom := by
  intro u vt hu x hx
  rw [hv] at hu
  obtain ⟨t, ht, hfrom⟩ := hlf u vt hu x hx
  obtain ⟨t2, ht2, h1, -⟩ := hs.halfs x t ht
  exact ⟨t2, ht2, by rw [h1, hfrom]⟩

/-- A write to the `opposite` of one half-edge, seen through the reads. -/
theorem setOpposite_obs {m : Mesh VD HD FD} {k : Int} {tk : Triplet HalfTopo HD} (o : Int)
    (hk : getAt m.halfs k = .ok tk) :
    ∃ m2, m.setOpposite k o = .ok m2 ∧ m2.verts = m.verts ∧ m2.faces = m.faces ∧
      getAt m2.halfs k = .ok (setOpp o tk) ∧
      (∀ x, x ≠ k → getAt m2.halfs x = getAt m.halfs x) ∧ Stretch m m2 ∧
      ∀ x t, getAt m.halfs x = .ok t → ∃ t2, getAt m2.halfs x = .ok t2 ∧
        t2.topo.face = t.topo.face := by
  obtain ⟨m2, hm2, hv, hf, -, hself, hother⟩ := modifyHalf_obs (setOpp o) hk
  have hpt : ∀ x t, getAt m.halfs x = .ok t → ∃ t2, getAt m2.halfs x = .ok t2 ∧
      t2.topo.efrom = t.topo.efrom ∧ t2.topo.eto = t.topo.eto ∧ t2.topo.face = t.topo.face := by
    intro x t ht
    by_cases hx : x = k
    · subst hx
      rw [hk] at ht
      simp only [Except.ok.injEq] at ht
      subst ht
      exact ⟨_, hself, rfl, rfl, rfl⟩
    · rw [hother x hx]
      exact ⟨t, ht, rfl, rfl, rfl⟩
  refine ⟨m2, hm2, hv, hf, hself, hother, ⟨?_, ?_⟩, ?_⟩
  · intro x t ht
    obtain ⟨t2, ht2, h1, h2, -⟩ := hpt x t ht
    exact ⟨t2, ht2, h1, h2⟩
  · intro u vt hu
    exact ⟨vt, [], by rw [hv]; exact hu, by simp⟩
  · intro x t ht
    obtain ⟨t2, ht2, -, -, h3⟩ := hpt x t ht
    exact ⟨t2, ht2, h3⟩

/-- `addEdge(a, b)` with merging, on a mesh whose lists agree with the `from` fields
(the opposites need not be paired): it returns a half-edge `p1` from `a` to `b` sewn
to a half-edge `p2` from `b` to `a`; the half-edges that do not join `a` and `b` are
untouched, and no old half-edge changes its ends or its face. -/
theorem addEdge_lists {m : Mesh VD HD FD} (hlf : m.ListsFrom) {a b : Int} (hab : a ≠ b)
    {va vb : Triplet VertTopo VD} (ha : getAt m.verts a = .ok va)
    (hb : getAt m.verts b = .ok vb) (hd hdrev : HD) :
    ∃ m4 p1 p2, m.addEdge a b hd hdrev true = .ok (m4, p1) ∧ m4.ListsFrom ∧
      m4.faces = m.faces ∧ m4.verts.length = m.verts.length ∧
      m4.verts.map (fun t => t.exists_) = m.verts.map (fun t => t.exists_) ∧
      Stretch m m4 ∧ Paired m4 a b p1 p2 ∧
      (∀ x t, getAt m.halfs x = .ok t → ¬ (t.topo.efrom = a ∧ t.topo.eto = b) →
        ¬ (t.topo.efrom = b ∧ t.topo.eto = a) → getAt m4.halfs x = .ok t) ∧
      ∀ x t, getAt m.halfs x = .ok t → ∃ t4, getAt m4.halfs x = .ok t4 ∧
        t4.topo.face = t.topo.face := by
  have hina : ∀ x ∈ va.topo.halfedges, ∃ t, getAt m.halfs x = .ok t := fun x hx => by
    obtain ⟨t, ht, -⟩ := hlf a va ha x hx
    exact ⟨t, ht⟩
  have hinb : ∀ x ∈ vb.topo.halfedges, ∃ t, getAt m.halfs x = .ok t := fun x hx => by
    obtain ⟨t, ht, -⟩ := hlf b vb hb x hx
    exact ⟨t, ht⟩
  obtain ⟨g1, hg1, -⟩ := firstTo_total (m := m) b hina
  obtain ⟨g2, hg2, -⟩ := firstTo_total (m := m) a hinb
  obtain ⟨m1, p1, hrun1, hlf1, hf1, hvl1, hex1, hs1, hkeep1, ⟨t1, ht1, ht1f, ht1t⟩,
    ⟨va1, hva1, hfirst1⟩, hvo1, hnew1⟩ := ensureHalf_spec hlf ha hg1 hd
  have hb1 : getAt m1.verts b = .ok vb := by rw [hvo1 b (Ne.symm hab)]; exact hb
  have hg2' : firstTo m1 a vb.topo.halfedges = .ok g2 := by
    have hc : firstTo m1 a vb.topo.halfedges = firstTo m a vb.topo.halfedges :=
      firstTo_congr a (fun x hx => by
        obtain ⟨t, ht⟩ := hinb x hx
        rw [ht]
        exact hkeep1 x t ht)
    rw [hc]
    exact hg2
  obtain ⟨m2, p2, hrun2, hlf2, hf2, hvl2, hex2, hs2, hkeep2, ⟨t2, ht2, ht2f, ht2t⟩,
    ⟨vb2, hvb2, hfirst2⟩, hvo2, hnew2⟩ := ensureHalf_spec hlf1 hb1 hg2' hdrev
  have ht1' : getAt m2.halfs p1 = .ok t1 := hkeep2 p1 t1 ht1
  have hne : p1 ≠ p2 := by
    intro h
    rw [h, ht2] at ht1'
    simp only [Except.ok.injEq] at ht1'
    rw [ht1'] at ht2f
    exact hab (ht1f.symm.trans ht2f)
  obtain ⟨m3, hm3, hv3, hf3, hself3, hother3, hs3, hface3⟩ := setOpposite_obs p2 ht1'
  have ht2' : getAt m3.halfs p2 = .ok t2 := by rw [hother3 p2 (Ne.symm hne)]; exact ht2
  obtain ⟨m4, hm4, hv4, hf4, hself4, hother4, hs4, hface4⟩ := setOpposite_obs p1 ht2'
  have hs24 : Stretch m2 m4 := stretch_chain hs3 hs4
  have hs04 : Stretch m m4 := stretch_chain (stretch_chain hs1 hs2) hs24
  have hva2 : getAt m2.verts a = .ok va1 := by rw [hvo2 a hab]; exact hva1
  refine ⟨m4, p1, p2, ?_, ?_, by rw [hf4, hf3, hf2, hf1], by rw [hv4, hv3, hvl2, hvl1],
    by rw [hv4, hv3, hex2, hex1], hs04, ?_, ?_, ?_⟩
  · unfold Mesh.addEdge
    rw [if_neg hab]
    simp only [if_true]
    rw [findEdge_eq_firstTo hlf ha b, findEdge_eq_firstTo hlf hb a]
    exact bind_eq_ok.mpr ⟨g1, hg1, bind_eq_ok.mpr ⟨g2, hg2, bind_eq_ok.mpr ⟨(m1, p1), hrun1,
      bind_eq_ok.mpr ⟨(m2, p2), hrun2, bind_eq_ok.mpr ⟨m3, hm3,
        bind_eq_ok.mpr ⟨m4, hm4, rfl⟩⟩⟩⟩⟩⟩
  · exact listsFrom_of_stretch hlf2 (by rw [hv4, hv3]) hs24
  · refine ⟨setOpp p2 t1, setOpp p1 t2, va1, vb2, ?_, ht1f, ht1t, rfl, hself4, ht2f, ht2t, rfl,
      by rw [hv4, hv3]; exact hva2, ?_, by rw [hv4, hv3]; exact hvb2, ?_⟩
    · rw [hother4 p1 hne]; exact hself3
    · have h1 : firstTo m2 b va1.topo.halfedges = .ok p1 := by
        have := firstTo_stretch hs2 (getAt_lt_length ht1).1 [] hfirst1
        simpa using this
      have := firstTo_stretch hs24 (getAt_lt_length ht1).1 [] h1
      simpa using this
    · have := firstTo_stretch hs24 (getAt_lt_length ht2).1 [] hfirst2
      simpa using this
  · intro x t ht hn1 hn2
    have h2 : getAt m2.halfs x = .ok t := hkeep2 x t (hkeep1 x t ht)
    have hx1 : x ≠ p1 := by
      intro h
      rw [h, ht1'] at h2
      simp only [Except.ok.injEq] at h2
      exact hn1 ⟨by rw [← h2]; exact ht1f, by rw [← h2]; exact ht1t⟩
    have hx2 : x ≠ p2 := by
      intro h
      rw [h, ht2] at h2
      simp only [Except.ok.injEq] at h2
      exact hn2 ⟨by rw [← h2]; exact ht2f, by rw [← h2]; exact ht2t⟩
    rw [hother4 x hx2, hother3 x hx1]
    exact h2
  · intro x t ht
    have h2 : getAt m2.halfs x = .ok t := hkeep2 x t (hkeep1 x t ht)
    obtain ⟨t3, ht3, k3⟩ := hface3 x t h2
    obtain ⟨t4, ht4, k4⟩ := hface4 x t3 ht3
    exact ⟨t4, ht4, by rw [k4, k3]⟩

end AddEdgeLists

section AddEdgesLists

variable {VD HD FD : Type}

theorem getD_inj_of_nodup {w : List Int} (hnd : w.Nodup) {i j : Nat} (hi : i < w.length)
    (hj : j < w.length) (h : w.getD i Handle.none = w.getD j Handle.none) : i = j := by
  rw [List.getD_eq_getElem w _ hi, List.getD_eq_getElem w _ hj] at h
  exact (List.Nodup.getElem_inj_iff hnd).mp h

/-- The cyclic pairs of a winding of at least three pairwise different vertices are
pairwise different, also up to the order of the two vertices. -/
theorem cyclePair_distinct {w : List Int} (hn : 3 ≤ w.length) (hnd : w.Nodup) {i j : Nat}
    (hi : i < w.length) (hj : j < w.length) (hij : i ≠ j) :
    cyclePair w i ≠ cyclePair w j ∧
      cyclePair w i ≠ ((cyclePair w j).2, (cyclePair w j).1) := by
  have hi2 : (i + 1) % w.length < w.length := Nat.mod_lt _ (by omega)
  have hj2 : (j + 1) % w.length < w.length := Nat.mod_lt _ (by omega)
  constructor
  · intro h
    simp only [cyclePair, Prod.mk.injEq] at h
    exact hij (getD_inj_of_nodup hnd hi hj h.1)
  · intro h
    simp only [cyclePair, Prod.mk.injEq] at h
    have e1 := getD_inj_of_nodup hnd hi hj2 h.1
    have e2 := getD_inj_of_nodup hnd hi2 hj h.2
    by_cases hc : j + 1 < w.length
    · rw [Nat.mod_eq_of_lt hc] at e1
      by_cases hc2 : i + 1 < w.length
      · rw [Nat.mod_eq_of_lt hc2] at e2
        omega
      · have : i + 1 = w.length := by omega
        rw [this, Nat.mod_self] at e2
        omega
    · have : j + 1 = w.length := by omega
      rw [this, Nat.mod_self] at e1
      rw [e1, Nat.mod_eq_of_lt (by omega)] at e2
      omega

theorem cyclePair_ne {w : List Int} (hn : 3 ≤ w.length) (hnd : w.Nodup) {i : Nat}
    (hi : i < w.length) : (cyclePair w i).1 ≠ (cyclePair w i).2 := by
  intro h
  simp only [cyclePair] at h
  have e := getD_inj_of_nodup hnd hi (Nat.mod_lt _ (by omega)) h
  by_cases hc : i + 1 < w.length
  · rw [Nat.mod_eq_of_lt hc] at e
    omega
  · have : i + 1 = w.length := by omega
    rw [this, Nat.mod_self] at e
    omega

/-- The second loop of `addFace(vertices)` on a mesh whose lists agree with the `from`
fields, for a winding `w` of at least three pairwise different vertices: it runs
through; each half-edge it collects is sewn to a half-edge back; the half-edges
that do not join the two vertices of one of its pairs are untouched, and no old
half-edge changes its ends or its face. -/
theorem addEdgesLoop_lists [Inhabited HD] {w : List Int} (hn : 3 ≤ w.length) (hnd : w.Nodup) :
    ∀ (is : List Nat) (m : Mesh VD HD FD), m.ListsFrom →
      (∀ v ∈ w, ∃ vt, getAt m.verts v = .ok vt) → (∀ i ∈ is, i < w.length) → is.Nodup →
      ∃ m2 hs, addEdgesLoop w m is = .ok (m2, hs) ∧ m2.ListsFrom ∧ m2.faces = m.faces ∧
        m2.verts.length = m.verts.length ∧
        m2.verts.map (fun t => t.exists_) = m.verts.map (fun t => t.exists_) ∧
        Stretch m m2 ∧ hs.length = is.length ∧
        (∀ q ∈ hs, ∃ t, getAt m2.halfs q = .ok t) ∧
        (∀ i ∈ is, ∃ q1 q2, q1 ∈ hs ∧ Paired m2 (cyclePair w i).1 (cyclePair w i).2 q1 q2) ∧
        (∀ x t, getAt m.halfs x = .ok t →
          (∀ i ∈ is, (t.topo.efrom, t.topo.eto) ≠ cyclePair w i ∧
            (t.topo.eto, t.topo.efrom) ≠ cyclePair w i) → getAt m2.halfs x = .ok t) ∧
        ∀ x t, getAt m.halfs x = .ok t → ∃ t2, getAt m2.halfs x = .ok t2 ∧
          t2.topo.face = t.topo.face := by
  intro is
  induction is with
  | nil =>
    intro m hlf _ _ _
    exact ⟨m, [], rfl, hlf, rfl, rfl, rfl, stretch_same m, rfl, by simp, by simp,
      fun x t ht _ => ht, fun x t ht => ⟨t, ht, rfl⟩⟩
  | cons i rest ih =>
    intro m hlf hin hlt hnodup
    obtain ⟨hi_not, hrest_nd⟩ := List.nodup_cons.mp hnodup
    have hi := hlt i (List.mem_cons_self _ _)
    obtain ⟨hamem, hbmem⟩ := cyclePair_mem hi
    obtain ⟨va, hva⟩ := hin _ hamem
    obtain ⟨vb, hvb⟩ := hin _ hbmem
    obtain ⟨m1, p1, p2, hrun1, hlf1, hf1, hvl1, hex1, hs1, hpair1, hkeep1, hface1⟩ :=
      addEdge_lists hlf (cyclePair_ne hn hnd hi) hva hvb (default : HD) default
    have hin1 : ∀ v ∈ w, ∃ vt, getAt m1.verts v = .ok vt := by
      intro v hv
      obtain ⟨vt, hvt⟩ := hin v hv
      obtain ⟨vt2, _, hvt2, _⟩ := hs1.verts v vt hvt
      exact ⟨vt2, hvt2⟩
    obtain ⟨m2, hs, hrun2, hlf2, hf2, hvl2, hex2, hs2, hlen2, hrange2, hpairs2, hkeep2, hface2⟩ :=
      ih m1 hlf1 hin1 (fun j hj => hlt j (List.mem_cons_of_mem _ hj)) hrest_nd
    obtain ⟨t1, t2, wa, wb, g1, g2, g3, g4, g5, g6, g7, g8, g9, g10, g11, g12⟩ := hpair1
    have hp1keep : getAt m2.halfs p1 = .ok t1 := by
      apply hkeep2 p1 t1 g1
      intro j hj
      have hjlt := hlt j (List.mem_cons_of_mem _ hj)
      have hne : i ≠ j := fun h => hi_not (h ▸ hj)
      obtain ⟨d1, d2⟩ := cyclePair_distinct hn hnd hi hjlt hne
      rw [g2, g3]
      constructor
      · intro h
        exact d1 (by rw [← h])
      · intro h
        apply d2
        rw [← h]
    have hp2keep : getAt m2.halfs p2 = .ok t2 := by
      apply hkeep2 p2 t2 g5
      intro j hj
      have hjlt := hlt j (List.mem_cons_of_mem _ hj)
      have hne : i ≠ j := fun h => hi_not (h ▸ hj)
      obtain ⟨d1, d2⟩ := cyclePair_distinct hn hnd hi hjlt hne
      rw [g6, g7]
      constructor
      · intro h
        apply d2
        rw [← h]
      · intro h
        exact d1 (by rw [← h])
    refine ⟨m2, p1 :: hs, addEdgesLoop_cons.mpr ⟨m1, p1, hs, hrun1, hrun2, rfl⟩, hlf2,
      by rw [hf2, hf1], by rw [hvl2, hvl1], by rw [hex2, hex1], stretch_chain hs1 hs2,
      by simp [hlen2], ?_, ?_, ?_, ?_⟩
    · intro q hq
      rcases List.mem_cons.mp hq with rfl | hq
      · exact ⟨t1, hp1keep⟩
      · exact hrange2 q hq
    · intro j hj
      rcases List.mem_cons.mp hj with rfl | hj
      · refine ⟨p1, p2, List.mem_cons_self _ _, ?_⟩
        apply paired_stretch ⟨t1, t2, wa, wb, g1, g2, g3, g4, g5, g6, g7, g8, g9, g10, g11, g12⟩
          hs2
        · rw [oppOf_eq hp1keep, oppOf_eq g1]
        · rw [oppOf_eq hp2keep, oppOf_eq g5]
      · obtain ⟨q1, q2, hq1, hp⟩ := hpairs2 j hj
        exact ⟨q1, q2, List.mem_cons_of_mem _ hq1, hp⟩
    · intro x t ht hall
      apply hkeep2 x t
      · apply hkeep1 x t ht
        · rintro ⟨e1, e2⟩
          exact (hall i (List.mem_cons_self _ _)).1 (by rw [e1, e2])
        · rintro ⟨e1, e2⟩
          exact (hall i (List.mem_cons_self _ _)).2 (by rw [e1, e2])
      · intro j hj
        exact hall j (List.mem_cons_of_mem _ hj)
    · intro x t ht
      obtain ⟨t1', ht1', k1⟩ := hface1 x t ht
      obtain ⟨t2', ht2', k2⟩ := hface2 x t1' ht1'
      exact ⟨t2', ht2', by rw [k2, k1]⟩

end AddEdgesLists

section AddFaceLists

variable {VD HD FD : Type}

theorem autoflipLoop_lists {m : Mesh VD HD FD} (hlf : m.ListsFrom) (w : List Int) :
    ∀ (is : List Nat), (∀ i ∈ is, ∃ va, getAt m.verts (cyclePair w i).1 = .ok va) →
      ∃ flip, autoflipLoop m w is = .ok flip := by
  intro is
  induction is with
  | nil => intro _; exact ⟨false, rfl⟩
  | cons i rest ih =>
    intro hall
    obtain ⟨va, hva⟩ := hall i (List.mem_cons_self _ _)
    have hin : ∀ x ∈ va.topo.halfedges, ∃ t, getAt m.halfs x = .ok t := fun x hx => by
      obtain ⟨t, ht, -⟩ := hlf _ va hva x hx
      exact ⟨t, ht⟩
    obtain ⟨g, hg, hcase⟩ := firstTo_total (m := m) (cyclePair w i).2 hin
    obtain ⟨flip, hflip⟩ := ih (fun j hj => hall j (List.mem_cons_of_mem _ hj))
    unfold autoflipLoop
    rw [findEdge_eq_firstTo hlf hva, hg]
    simp only
    rcases hcase with ⟨h1, -⟩ | ⟨h1, -⟩
    · rw [h1]
      exact ⟨flip, by simpa [Handle.valid, Handle.none] using hflip⟩
    · obtain ⟨t, ht⟩ := hin g h1
      simp only [ht]
      split_ifs
      · exact ⟨true, rfl⟩
      · exact ⟨flip, hflip⟩
      · exact ⟨flip, hflip⟩

/-- `addFace(vertices, autoflip = true, fd)` on a mesh whose lists agree with the
`from` fields (the opposites need not be paired), for at least three pairwise
different vertices: it returns; the new face has one half-edge per vertex; between
each two consecutive vertices (cyclically) there are two half-edges sewn together,
one of them on the new face; the old half-edges keep their ends, keep their face or
get the new one, and keep their opposite unless they join two of the vertices. -/
theorem addFaceVerts_lists [Inhabited HD] {m : Mesh VD HD FD} (hlf : m.ListsFrom)
    {vs : List Int} (hn : 3 ≤ vs.length) (hnd : vs.Nodup)
    (hin : ∀ v ∈ vs, ∃ vt, getAt m.verts v = .ok vt) (fd : FD) :
    ∃ m2 hs, m.addFaceVerts vs true fd = .ok (m2, (m.faces.length : Int)) ∧ m2.ListsFrom ∧
      m2.faces = m.faces ++ [⟨⟨(m.faces.length : Int), hs⟩, fd, true⟩] ∧
      hs.length = vs.length ∧ m2.verts.length = m.verts.length ∧
      m2.verts.map (fun t => t.exists_) = m.verts.map (fun t => t.exists_) ∧
      Stretch m m2 ∧
      (∀ i, i < vs.length → ∃ q1 q2, Paired m2 (cyclePair vs i).1 (cyclePair vs i).2 q1 q2 ∧
        (m2.faceOf q1 = (m.faces.length : Int) ∨ m2.faceOf q2 = (m.faces.length : Int))) ∧
      (∀ x t, getAt m.halfs x = .ok t → t.topo.efrom ∉ vs ∨ t.topo.eto ∉ vs →
        m2.oppOf x = m.oppOf x) ∧
      ∀ x t, getAt m.halfs x = .ok t → ∃ t2, getAt m2.halfs x = .ok t2 ∧
        (t2.topo.face = t.topo.face ∨ t2.topo.face = (m.faces.length : Int)) := by
  -- the winding
  obtain ⟨flip, hflip⟩ := autoflipLoop_lists hlf vs (List.range vs.length)
    (fun i hi => hin _ (cyclePair_mem (List.mem_range.mp hi)).1)
  have hwind : m.faceWinding vs true = .ok (if flip then vs.reverse else vs) := by
    simp [Mesh.faceWinding, hflip]
  have hwn : 3 ≤ (if flip then vs.reverse else vs).length := by
    cases flip <;> simpa using hn
  have hwl : (if flip then vs.reverse else vs).length = vs.length := by
    cases flip <;> simp
  have hwnd : (if flip then vs.reverse else vs).Nodup := by
    cases flip
    · simpa using hnd
    · simpa using hnd
  have hwmem : ∀ v, v ∈ (if flip then vs.reverse else vs) ↔ v ∈ vs := by
    intro v
    cases flip <;> simp
  -- the edges
  obtain ⟨m1, hs, hrun1, hlf1, hf1, hvl1, hex1, hs1, hlen1, hrange1, hpairs1, hkeep1, hface1⟩ :=
    addEdgesLoop_lists hwn hwnd (List.range (if flip then vs.reverse else vs).length) m hlf
      (fun v hv => hin v ((hwmem v).mp hv)) (fun i hi => List.mem_range.mp hi)
      (List.nodup_range _)
  -- the face
  have hst : ∃ halfs2, setFaces (m1.faces.length : Int) m1.halfs hs = .ok halfs2 :=
    setFaces_total (fun x hx => by
      obtain ⟨t, ht⟩ := hrange1 x hx
      exact getAt_isOk_iff.mp ⟨t, ht⟩)
  obtain ⟨halfs2, hset⟩ := hst
  obtain ⟨hlen2, -, hpt2⟩ := setFaces_spec hset
  have hs12 : Stretch m1 ⟨m1.verts, halfs2,
      m1.faces ++ [⟨⟨(m1.faces.length : Int), hs⟩, fd, true⟩]⟩ := by
    constructor
    · intro x t ht
      refine ⟨_, hpt2 x t ht, ?_, ?_⟩ <;> split_ifs <;> rfl
    · intro u vt hu
      exact ⟨vt, [], hu, by simp⟩
  have hopp12 : ∀ x, Mesh.oppOf (⟨m1.verts, halfs2,
      m1.faces ++ [⟨⟨(m1.faces.length : Int), hs⟩, fd, true⟩]⟩ : Mesh VD HD FD) x
      = m1.oppOf x := by
    intro x
    unfold Mesh.oppOf
    cases hx : getAt m1.halfs x with
    | error e =>
      have : getAt halfs2 x = .error e := by
        unfold getAt at hx ⊢
        by_cases hneg : x < 0
        · simpa [hneg] using hx
        · simp only [hneg, if_false] at hx ⊢
          have hnone : m1.halfs[x.toNat]? = none := by
            cases hg : m1.halfs[x.toNat]? with
            | none => rfl
            | some y => simp [hg] at hx
          have hnone2 : halfs2[x.toNat]? = none := by
            rw [List.getElem?_eq_none_iff] at hnone ⊢
            omega
          simpa [hnone, hnone2] using hx
      simp only [this]
    | ok t =>
      simp only [hpt2 x t hx]
      split_ifs <;> rfl
  refine ⟨_, hs, addFaceVerts_eq_ok.mpr ⟨hn, _, m1, hs, hwind, hrun1,
    addFace_eq_ok.mpr ⟨halfs2, hset, by rw [hf1], rfl⟩⟩, ?_, ?_, by rw [hlen1]; simp [hwl],
    hvl1, hex1, stretch_chain hs1 hs12, ?_, ?_, ?_⟩
  · exact listsFrom_of_stretch hlf1 rfl hs12
  · show m1.faces ++ _ = m.faces ++ _
    rw [hf1]
  · -- the sewn pairs
    have hsewn : ∀ j, j < (if flip then vs.reverse else vs).length → ∃ q1 q2,
        Paired (⟨m1.verts, halfs2, m1.faces ++ [⟨⟨(m1.faces.length : Int), hs⟩, fd, true⟩]⟩ :
          Mesh VD HD FD) (cyclePair (if flip then vs.reverse else vs) j).1
          (cyclePair (if flip then vs.reverse else vs) j).2 q1 q2 ∧
        Mesh.faceOf (⟨m1.verts, halfs2,
          m1.faces ++ [⟨⟨(m1.faces.length : Int), hs⟩, fd, true⟩]⟩ : Mesh VD HD FD) q1
          = (m.faces.length : Int) := by
      intro j hj
      obtain ⟨q1, q2, hq1, hp⟩ := hpairs1 j (List.mem_range.mpr hj)
      refine ⟨q1, q2, paired_stretch hp hs12 (hopp12 q1) (hopp12 q2), ?_⟩
      obtain ⟨t, ht⟩ := hrange1 q1 hq1
      have := hpt2 q1 t ht
      rw [if_pos hq1] at this
      rw [faceOf_eq this, hf1]
      rfl
    intro i hi
    cases flip with
    | false =>
      obtain ⟨q1, q2, hp, hface⟩ := hsewn i (by simpa using hi)
      exact ⟨q1, q2, by simpa using hp, Or.inl hface⟩
    | true =>
      have hcr : ∃ j, j < vs.reverse.length ∧ cyclePair vs.reverse.reverse i
          = ((cyclePair vs.reverse j).2, (cyclePair vs.reverse j).1) :=
        cyclePair_reverse (by simpa using hi)
      obtain ⟨j, hj, hrev⟩ := hcr
      rw [List.reverse_reverse] at hrev
      obtain ⟨q1, q2, hp, hface⟩ := hsewn j (by simpa using hj)
      refine ⟨q2, q1, ?_, Or.inr hface⟩
      rw [hrev]
      simp only [if_true] at hp
      exact paired_symm hp
  · intro x t ht hout
    rw [hopp12 x]
    have : getAt m1.halfs x = .ok t := by
      apply hkeep1 x t ht
      intro j hj
      have hjlt := List.mem_range.mp hj
      obtain ⟨c1, c2⟩ := cyclePair_mem hjlt
      rw [hwmem] at c1 c2
      constructor
      · intro h
        rcases hout with h1 | h1
        · exact h1 (by rw [show t.topo.efrom = (cyclePair _ j).1 from by rw [← h]]; exact c1)
        · exact h1 (by rw [show t.topo.eto = (cyclePair _ j).2 from by rw [← h]]; exact c2)
      · intro h
        rcases hout with h1 | h1
        · exact h1 (by rw [show t.topo.efrom = (cyclePair _ j).2 from by rw [← h]]; exact c2)
        · exact h1 (by rw [show t.topo.eto = (cyclePair _ j).1 from by rw [← h]]; exact c1)
    rw [oppOf_eq this, oppOf_eq ht]
  · intro x t ht
    obtain ⟨t1, ht1, k1⟩ := hface1 x t ht
    refine ⟨_, hpt2 x t1 ht1, ?_⟩
    split_ifs
    · right
      simp [setFace, hf1]
    · left
      exact k1

end AddFaceLists

section CopyLoop

variable {VD HD FD : Type}

/-- The half-edge that the last loop picks between two vertices with sewn
half-edges: the scan and the assertion go through, and the result is one of the
two. -/
theorem cutHalf_spec {m : Mesh VD HD FD} {fh1 fh2 a b q1 q2 : Int}
    (hp : Paired m a b q1 q2)
    (hf : m.faceOf q1 = fh1 ∨ m.faceOf q1 = fh2 ∨ m.faceOf q2 = fh1 ∨ m.faceOf q2 = fh2) :
    ∃ hh, cutHalf m fh1 fh2 a b = .ok hh ∧ (hh = q1 ∨ hh = q2) := by
  obtain ⟨t1, t2, va, vb, h1, -, -, h4, h5, -, -, -, h9, h10, -, -⟩ := hp
  rw [faceOf_eq h1, faceOf_eq h5] at hf
  unfold cutHalf
  simp only [h9, h10, h1]
  by_cases hc : t1.topo.face ≠ fh1 ∧ t1.topo.face ≠ fh2
  · rw [if_pos hc, h4]
    simp only [h5]
    have : t2.topo.face = fh1 ∨ t2.topo.face = fh2 := by
      rcases hf with h | h | h | h
      · exact absurd h hc.1
      · exact absurd h hc.2
      · exact Or.inl h
      · exact Or.inr h
    rw [if_pos this]
    exact ⟨q2, rfl, Or.inr rfl⟩
  · rw [if_neg hc]
    simp only [h1]
    have : t1.topo.face = fh1 ∨ t1.topo.face = fh2 := by
      by_contra hn
      exact hc ⟨fun h => hn (Or.inl h), fun h => hn (Or.inr h)⟩
    rw [if_pos this]
    exact ⟨q1, rfl, Or.inl rfl⟩

/-- A copy of a payload changes no topology. -/
theorem copyData_spec {m : Mesh VD HD FD} {dst src : Int} {ts topp td : Triplet HalfTopo HD}
    (hs : getAt m.halfs src = .ok ts) (ho : getAt m.halfs ts.topo.opposite = .ok topp)
    (hd : getAt m.halfs dst = .ok td) :
    ∃ m2, copyData m dst src = .ok m2 ∧ m2.verts = m.verts ∧ m2.faces = m.faces ∧
      ∀ x t, getAt m.halfs x = .ok t → ∃ t2, getAt m2.halfs x = .ok t2 ∧ t2.topo = t.topo := by
  obtain ⟨m2, hm2, hv, hf, -, hself, hother⟩ :=
    modifyHalf_obs (fun ht => { ht with data := topp.data }) hd
  refine ⟨m2, by simp only [copyData, hs, ho]; exact hm2, hv, hf, ?_⟩
  intro x t ht
  by_cases hx : x = dst
  · subst hx
    rw [hd] at ht
    simp only [Except.ok.injEq] at ht
    subst ht
    exact ⟨_, hself, rfl⟩
  · rw [hother x hx]
    exact ⟨t, ht, rfl⟩

/-- Sewn half-edges stay sewn, on the same faces, when only payloads change. -/
theorem sewnOn_topo {m m2 : Mesh VD HD FD} {fh1 fh2 a b : Int} (h : SewnOn m fh1 fh2 a b)
    (hv : m2.verts = m.verts)
    (hh : ∀ x t, getAt m.halfs x = .ok t → ∃ t2, getAt m2.halfs x = .ok t2 ∧ t2.topo = t.topo) :
    SewnOn m2 fh1 fh2 a b := by
  obtain ⟨q1, q2, hp, hf⟩ := h
  have hs : Stretch m m2 := by
    constructor
    · intro x t ht
      obtain ⟨t2, ht2, e⟩ := hh x t ht
      exact ⟨t2, ht2, by rw [e], by rw [e]⟩
    · intro u vt hu
      exact ⟨vt, [], by rw [hv]; exact hu, by simp⟩
  have hsame : ∀ q t, getAt m.halfs q = .ok t → m2.oppOf q = m.oppOf q ∧
      m2.faceOf q = m.faceOf q := by
    intro q t ht
    obtain ⟨t2, ht2, e⟩ := hh q t ht
    exact ⟨by rw [oppOf_eq ht2, oppOf_eq ht, e], by rw [faceOf_eq ht2, faceOf_eq ht, e]⟩
  obtain ⟨t1, t2, va, vb, h1, g2, g3, g4, h5, g6, g7, g8, g9, g10, g11, g12⟩ := hp
  have hp2 : Paired m a b q1 q2 := ⟨t1, t2, va, vb, h1, g2, g3, g4, h5, g6, g7, g8, g9, g10,
    g11, g12⟩
  refine ⟨q1, q2, paired_stretch hp2 hs (hsame q1 t1 h1).1 (hsame q2 t2 h5).1, ?_⟩
  rw [(hsame q1 t1 h1).2, (hsame q2 t2 h5).2]
  exact hf

/-- The last loop of `DecomposeOnInternalLoop` runs through when the half-edges
between consecutive vertices of both vertex cycles are sewn on the two new faces;
it changes payloads only. -/
theorem copyLoop_spec {thisVhs anotherVhs : List Int} {fh1 fh2 : Int} :
    ∀ (is : List Nat) (m : Mesh VD HD FD),
      (∀ i ∈ is, SewnOn m fh1 fh2 (cyclePair anotherVhs i).1 (cyclePair anotherVhs i).2 ∧
        SewnOn m fh1 fh2 (cyclePair thisVhs i).1 (cyclePair thisVhs i).2) →
      ∃ m2, copyLoop thisVhs anotherVhs fh1 fh2 m is = .ok m2 ∧ m2.verts = m.verts ∧
        m2.faces = m.faces := by
  intro is
  induction is with
  | nil => intro m _; exact ⟨m, rfl, rfl, rfl⟩
  | cons i rest ih =>
    intro m hall
    obtain ⟨⟨a1, a2, hpa, hfa⟩, ⟨b1, b2, hpb, hfb⟩⟩ := hall i (List.mem_cons_self _ _)
    obtain ⟨aHH, hrunA, hA⟩ := cutHalf_spec hpa hfa
    obtain ⟨tHH, hrunT, hT⟩ := cutHalf_spec hpb hfb
    obtain ⟨ta1, ta2, -, -, k1, -, -, k4, k5, -, -, k8, -, -, -, -⟩ := hpa
    obtain ⟨tb1, tb2, -, -, j1, -, -, j4, j5, -, -, j8, -, -, -, -⟩ := hpb
    -- both half-edges and their opposites are slots
    have hAin : ∃ t o, getAt m.halfs aHH = .ok t ∧ getAt m.halfs t.topo.opposite = .ok o := by
      rcases hA with rfl | rfl
      · exact ⟨ta1, ta2, k1, by rw [k4]; exact k5⟩
      · exact ⟨ta2, ta1, k5, by rw [k8]; exact k1⟩
    have hTin : ∃ t o, getAt m.halfs tHH = .ok t ∧ getAt m.halfs t.topo.opposite = .ok o := by
      rcases hT with rfl | rfl
      · exact ⟨tb1, tb2, j1, by rw [j4]; exact j5⟩
      · exact ⟨tb2, tb1, j5, by rw [j8]; exact j1⟩
    obtain ⟨tA, oA, htA, hoA⟩ := hAin
    obtain ⟨tT, oT, htT, hoT⟩ := hTin
    obtain ⟨m1, hm1, hv1, hf1, hh1⟩ := copyData_spec htT hoT htA
    obtain ⟨tA1, htA1, eA⟩ := hh1 _ tA htA
    obtain ⟨oA1, hoA1, -⟩ := hh1 _ oA hoA
    obtain ⟨tT1, htT1, -⟩ := hh1 _ tT htT
    obtain ⟨m2, hm2, hv2, hf2, hh2⟩ := copyData_spec htA1 (by rw [eA]; exact hoA1) htT1
    have hh12 : ∀ x t, getAt m.halfs x = .ok t → ∃ t2, getAt m2.halfs x = .ok t2 ∧
        t2.topo = t.topo := by
      intro x t ht
      obtain ⟨t1, ht1, e1⟩ := hh1 x t ht
      obtain ⟨t2, ht2, e2⟩ := hh2 x t1 ht1
      exact ⟨t2, ht2, by rw [e2, e1]⟩
    obtain ⟨m3, hm3, hv3, hf3⟩ := ih m2 (fun j hj =>
      ⟨sewnOn_topo (hall j (List.mem_cons_of_mem _ hj)).1 (by rw [hv2, hv1]) hh12,
        sewnOn_topo (hall j (List.mem_cons_of_mem _ hj)).2 (by rw [hv2, hv1]) hh12⟩)
    refine ⟨m3, ?_, by rw [hv3, hv2, hv1], by rw [hf3, hf2, hf1]⟩
    unfold copyLoop
    simp only [hrunA, hrunT]
    have hvalid : (Handle.valid aHH && Handle.valid tHH) = true := by
      have h1 := (getAt_lt_length htA).1
      have h2 := (getAt_lt_length htT).1
      simp [Handle.valid, h1, h2]
    simp only [hvalid, Bool.not_true, Bool.false_eq_true, if_false, hm1, hm2]
    exact hm3

end CopyLoop

section LoopFactsOf

variable {VD HD FD : Type}

theorem chain_getD {R : Int → Int → Prop} :
    ∀ {l : List Int}, l.Chain' R → ∀ i, i + 1 < l.length →
      R (l.getD i Handle.none) (l.getD (i + 1) Handle.none) := by
  intro l
  induction l with
  | nil => intro _ i hi; simp at hi
  | cons a rest ih =>
    intro hc i hi
    cases rest with
    | nil => simp at hi
    | cons b rest2 =>
      rw [List.chain'_cons] at hc
      cases i with
      | zero => simpa using hc.1
      | succ k =>
        have := ih hc.2 k (by simpa using hi)
        simpa using this

/-- A non-removed half-edge of a well-formed mesh is not its own opposite, and is
the opposite of its opposite. -/
theorem wellFormed_opp {m : Mesh VD HD FD} (hm : m.WellFormed) {x : Int}
    (hx : liveIn m.halfs x = true) : m.oppOf x ≠ x ∧ m.oppOf (m.oppOf x) = x := by
  obtain ⟨t, o, ht, ho, -, hopp, hfrom, -⟩ := wf_live_pair hm.wf hx
  obtain ⟨-, hex⟩ := liveIn_eq_true.mp hx
  have hne := (hm.ends t (mem_iff_getAt.mpr ⟨x, ht⟩) (by
    obtain ⟨t2, ht2, hex2⟩ := liveIn_eq_true.mp hx
    rw [ht] at ht2
    simp only [Except.ok.injEq] at ht2
    rw [ht2]
    exact hex2)).2
  constructor
  · intro h
    rw [oppOf_eq ht] at h
    rw [h, ht] at ho
    simp only [Except.ok.injEq] at ho
    rw [← ho] at hfrom
    exact hne hfrom
  · rw [oppOf_eq ht, oppOf_eq ho]
    exact hopp

/-- No two half-edges of a path built by the extension rule are opposite to each
other. -/
theorem admissible_noOpp {m : Mesh VD HD FD} (hm : m.WellFormed) (hl : m.ListsLive)
    {intersectFun : Int → Int → Bool} {initial : Int} {p : List Int}
    (hp : Admissible m intersectFun initial p) : ∀ a ∈ p, m.oppOf a ∉ p := by
  induction hp with
  | start hs =>
    intro a ha
    rw [List.mem_singleton.mp ha, List.mem_singleton]
    obtain ⟨ti, hti, h1, h2, -⟩ := startOK_fromOf hs
    exact (wellFormed_opp hm (liveIn_of_ends hm.wf hti h1 h2)).1
  | extend hp hback hv hx hvalid ih =>
    rename_i q back x vt
    intro a ha
    obtain ⟨c1, -, c3, -, -, -, -⟩ := validNext_true hvalid
    obtain ⟨xlive, -⟩ := listsLive_from hm.wf hl hv hx
    have inv := admissible_inv hm.wf hl hp
    rw [List.mem_append, List.mem_singleton]
    rcases List.mem_append.mp ha with ha | ha
    · rintro (h | h)
      · exact ih a ha h
      · apply c3
        rw [← h, (wellFormed_opp hm (inv.live a ha)).2]
        exact ha
    · rw [List.mem_singleton.mp ha]
      rintro (h | h)
      · exact c3 h
      · exact (wellFormed_opp hm xlive).1 h

/-- What `DecomposeOnInternalLoop` needs holds of every closed path built by the
extension rule of `ConstructInternalLoopFrom`. -/
theorem loopFacts_of_admissible {m : Mesh VD HD FD} (hm : m.WellFormed) (hl : m.ListsLive)
    {intersectFun : Int → Int → Bool} {initial : Int} {p : List Int}
    (hp : Admissible m intersectFun initial p) (hc : m.Closes initial p) : LoopFacts m p := by
  have inv := admissible_inv hm.wf hl hp
  obtain ⟨back, hback, hclose⟩ := hc
  have hne : p ≠ [] := by
    intro h
    rw [h] at hback
    simp at hback
  have hpos : 0 < p.length := List.length_pos.mpr hne
  have hhead : p.getD 0 Handle.none = initial := by
    have := inv.head
    cases p with
    | nil => simp at this
    | cons a rest => simpa using this
  have hlast : p.getD (p.length - 1) Handle.none = back := by
    rw [List.getLast?_eq_getElem?] at hback
    rw [List.getD_eq_getElem?_getD, hback]
    rfl
  refine ⟨inv.live, inv.nodup, inv.degree, admissible_noOpp hm hl hp, ?_, ?_⟩
  · intro i hi
    by_cases hlt : i + 1 < p.length
    · rw [Nat.mod_eq_of_lt hlt]
      exact (chain_getD inv.chain i hlt).symm
    · have hi2 : i = p.length - 1 := by omega
      have : (i + 1) % p.length = 0 := by
        rw [hi2, Nat.sub_add_cancel hpos, Nat.mod_self]
      rw [this, hhead, hi2, hlast]
      exact hclose.symm
  · have h1 : p.headD Handle.none = initial := by
      rw [← hhead]
      cases p <;> rfl
    have h2 : p.getLastD Handle.none = back := by
      rw [List.getLastD_eq_getLast?, hback]
      rfl
    rw [h1, h2]
    exact hclose.symm

end LoopFactsOf

section DecomposeTotal

variable {VD HD FD : Type}

theorem listsFrom_of_wf {m : Mesh VD HD FD} (hwf : m.WF) (hl : m.ListsLive) : m.ListsFrom := by
  intro u vt hu x hx
  obtain ⟨t, ht⟩ := hwf.listInRange u vt hu x hx
  obtain ⟨-, hfrom⟩ := listsLive_from hwf hl hu hx
  exact ⟨t, ht, by rw [← fromOf_eq ht]; exact hfrom⟩

theorem cutInv_init {m : Mesh VD HD FD} (hwf : m.WF) (hl : m.ListsLive) (p : List Int) :
    CutInv m p 0 ⟨m, [], []⟩ :=
  ⟨rfl, rfl, rfl, rfl, by simp, rfl, fun _ t ht => ⟨t, ht, rfl, fun _ => rfl, fun _ => rfl⟩,
    fun _ _ hu _ => hu, listsFrom_of_wf hwf hl⟩

/-- On a mesh with the representation invariant and no removed half-edge left in an
outgoing list, `DecomposeOnInternalLoop` returns for every loop of at least three
half-edges that has the properties of a result of `ConstructInternalLoopFrom`: it has
added one vertex per loop half-edge and two faces, each with one half-edge per loop
half-edge, and returns the handles of these two faces. -/
theorem decompose_total [Inhabited HD] {m : Mesh VD HD FD} (hwf : m.WF) (hl : m.ListsLive)
    {p : List Int} (hp : LoopFacts m p) (hn : 3 ≤ p.length) (fd1 fd2 : FD) {fuel : Nat}
    (hfuel : m.maxDegree < fuel) :
    ∃ m2 hs1 hs2, DecomposeOnInternalLoop m p fd1 fd2 fuel
        = .ok (some (m2, (m.faces.length : Int), (m.faces.length : Int) + 1)) ∧
      m2.verts.length = m.verts.length + p.length ∧
      m2.verts.map (fun t => t.exists_)
        = m.verts.map (fun t => t.exists_) ++ List.replicate p.length true ∧
      m2.faces = m.faces ++ [⟨⟨(m.faces.length : Int), hs1⟩, fd1, true⟩,
        ⟨⟨(m.faces.length : Int) + 1, hs2⟩, fd2, true⟩] ∧
      hs1.length = p.length ∧ hs2.length = p.length := by
  -- the first loop
  obtain ⟨st, hcut, inv⟩ := cutLoop_inv hwf hl hp hfuel p.length 0 ⟨m, [], []⟩ (by omega)
    (cutInv_init hwf hl p)
  rw [← List.range_eq_range'] at hcut
  have hthis : st.thisVhs = p.map m.toOf := by rw [inv.thisVhs, List.take_length]
  -- the detaching loop
  have hpnd : p.Nodup := List.Nodup.of_map _ hp.nodupTo
  have hpin : ∀ x ∈ p, ∃ t o, getAt st.mesh.halfs x = .ok t ∧
      getAt st.mesh.halfs t.topo.opposite = .ok o ∧ t.topo.opposite = m.oppOf x := by
    intro x hx
    obtain ⟨t0, o0, ht0, ho0, -, -, -, -⟩ := wf_live_pair hwf (hp.live x hx)
    obtain ⟨t, ht, h1, -, -⟩ := inv.halfs x t0 ht0
    obtain ⟨o, ho, -, -, -⟩ := inv.halfs _ o0 ho0
    exact ⟨t, o, ht, by rw [h1]; exact ho, by rw [h1, oppOf_eq ht0]⟩
  obtain ⟨D, hD, hDv, hDf, hDl, hDobs⟩ := detachLoop_spec p st.mesh hpnd
    (fun x hx => by
      obtain ⟨t, o, ht, ho, -⟩ := hpin x hx
      exact ⟨t, o, ht, ho⟩)
    (fun x hx y hy => by
      obtain ⟨t, o, ht, -, hopp⟩ := hpin x hx
      rw [oppOf_eq ht, hopp]
      exact fun h => hp.noOpp x hx (h ▸ hy))
  have hDs : Stretch st.mesh D :=
    ⟨hDobs, fun u vt hu => ⟨vt, [], by rw [hDv]; exact hu, by simp⟩⟩
  have hDlf : D.ListsFrom := listsFrom_of_stretch inv.lists hDv hDs
  have hDvl : D.verts.length = m.verts.length + p.length := by rw [hDv, inv.vlen]
  -- the two vertex cycles
  have hthis_nd : st.thisVhs.Nodup := by rw [hthis]; exact hp.nodupTo
  have hthis_len : st.thisVhs.length = p.length := by rw [hthis, List.length_map]
  have hthis_old : ∀ v ∈ st.thisVhs, 0 ≤ v ∧ v < (m.verts.length : Int) := by
    intro v hv
    rw [hthis] at hv
    obtain ⟨x, hx, rfl⟩ := List.mem_map.mp hv
    obtain ⟨d, hd, -⟩ := hp.degree x hx
    obtain ⟨vt, hvt, -⟩ := degree_eq_ok.mp hd
    exact getAt_lt_length hvt
  have hanother_len : st.anotherVhs.length = p.length := by
    rw [inv.anotherVhs, List.length_map, List.length_range]
  have hanother_new : ∀ v ∈ st.anotherVhs, (m.verts.length : Int) ≤ v ∧
      v < (m.verts.length : Int) + (p.length : Int) := by
    intro v hv
    rw [inv.anotherVhs] at hv
    obtain ⟨j, hj, rfl⟩ := List.mem_map.mp hv
    have := List.mem_range.mp hj
    omega
  have hanother_nd : st.anotherVhs.Nodup := by
    rw [inv.anotherVhs]
    apply List.Nodup.map _ (List.nodup_range _)
    intro a b hab
    simp only at hab
    omega
  -- the first face
  obtain ⟨E, hs1, hE, hElf, hEf, hs1len, hEvl, hEex, hEs, hEsewn, -, -⟩ :=
    addFaceVerts_lists hDlf (by rw [hthis_len]; exact hn) hthis_nd
      (fun v hv => by
        obtain ⟨h0, h1⟩ := hthis_old v hv
        exact getAt_of_lt D.verts h0 (by rw [hDvl]; push_cast; omega)) fd1
  have hEfl : (E.faces.length : Int) = (m.faces.length : Int) + 1 := by
    rw [hEf, hDf, inv.faces]
    simp
  -- the second face
  obtain ⟨G, hs2, hG, hGlf, hGf, hs2len, hGvl, hGex, hGs, hGsewn, hGopp, hGface⟩ :=
    addFaceVerts_lists hElf (by rw [hanother_len]; exact hn) hanother_nd
      (fun v hv => by
        obtain ⟨h0, h1⟩ := hanother_new v hv
        exact getAt_of_lt E.verts (by omega) (by rw [hEvl, hDvl]; push_cast; omega)) fd2
  rw [hDf, inv.faces] at hE hEsewn
  rw [hEfl] at hG hGsewn hGface
  -- the last loop
  have hsewnA : ∀ i, i < p.length → SewnOn G (m.faces.length : Int) ((m.faces.length : Int) + 1)
      (cyclePair st.anotherVhs i).1 (cyclePair st.anotherVhs i).2 := by
    intro i hi
    obtain ⟨q1, q2, hpair, hface⟩ := hGsewn i (by rw [hanother_len]; exact hi)
    refine ⟨q1, q2, hpair, ?_⟩
    rcases hface with h | h
    · exact Or.inr (Or.inl h)
    · exact Or.inr (Or.inr (Or.inr h))
  have hsewnT : ∀ i, i < p.length → SewnOn G (m.faces.length : Int) ((m.faces.length : Int) + 1)
      (cyclePair st.thisVhs i).1 (cyclePair st.thisVhs i).2 := by
    intro i hi
    obtain ⟨q1, q2, hpair, hface⟩ := hEsewn i (by rw [hthis_len]; exact hi)
    have hi3 : i < st.thisVhs.length := by rw [hthis_len]; exact hi
    obtain ⟨c1, c2⟩ := cyclePair_mem hi3
    obtain ⟨t1, t2, va, vb, g1, g2, g3, g4, g5, g6, g7, g8, g9, g10, g11, g12⟩ := hpair
    have hnotA : ∀ v ∈ st.thisVhs, v ∉ st.anotherVhs := by
      intro v hv hv2
      have := (hthis_old v hv).2
      have := (hanother_new v hv2).1
      omega
    have ho1 : G.oppOf q1 = E.oppOf q1 :=
      hGopp q1 t1 g1 (Or.inl (by rw [g2]; exact hnotA _ c1))
    have ho2 : G.oppOf q2 = E.oppOf q2 :=
      hGopp q2 t2 g5 (Or.inl (by rw [g6]; exact hnotA _ c2))
    refine ⟨q1, q2, paired_stretch ⟨t1, t2, va, vb, g1, g2, g3, g4, g5, g6, g7, g8, g9, g10,
      g11, g12⟩ hGs ho1 ho2, ?_⟩
    obtain ⟨s1, hs1', k1⟩ := hGface q1 t1 g1
    obtain ⟨s2, hs2', k2⟩ := hGface q2 t2 g5
    rw [faceOf_eq hs1', faceOf_eq hs2']
    rw [faceOf_eq g1, faceOf_eq g5] at hface
    rcases hface with h | h
    · rcases k1 with k | k
      · exact Or.inl (by rw [k, h])
      · exact Or.inr (Or.inl k)
    · rcases k2 with k | k
      · exact Or.inr (Or.inr (Or.inl (by rw [k, h])))
      · exact Or.inr (Or.inr (Or.inr k))
  have hall : ∀ i ∈ List.range st.anotherVhs.length,
      SewnOn G (m.faces.length : Int) ((m.faces.length : Int) + 1)
        (cyclePair st.anotherVhs i).1 (cyclePair st.anotherVhs i).2 ∧
      SewnOn G (m.faces.length : Int) ((m.faces.length : Int) + 1)
        (cyclePair st.thisVhs i).1 (cyclePair st.thisVhs i).2 := by
    intro i hi
    have hi2 : i < p.length := by
      rw [← hanother_len]
      exact List.mem_range.mp hi
    exact ⟨hsewnA i hi2, hsewnT i hi2⟩
  obtain ⟨m4, hm4, hv4, hf4⟩ := copyLoop_spec (List.range st.anotherVhs.length) G hall
  rw [hanother_len] at hm4
  refine ⟨m4, hs1, hs2, ?_, by rw [hv4, hGvl, hEvl, hDvl], by rw [hv4, hGex, hEex, hDv, inv.exs],
    ?_, by rw [hs1len, hthis_len], by rw [hs2len, hanother_len]⟩
  · unfold DecomposeOnInternalLoop
    have hne : p.isEmpty = false := by
      cases p with
      | nil => simp at hn
      | cons a rest => rfl
    simp only [hne, Bool.false_eq_true, if_false, hp.closes, ne_eq, not_true_eq_false, hcut, hD,
      hE, hG, hthis_len, hanother_len, hm4]
  · rw [hf4, hGf, hEfl, hEf, hDf, inv.faces]
    simp

end DecomposeTotal

section DecomposeClaim

variable {VD HD FD : Type}

/-- C20 (amended): on a mesh with the representation invariant and no removed half-edge
left in a vertex's outgoing list, for every loop of length `L >= 3` that
`ConstructInternalLoopFrom` returns, `DecomposeOnInternalLoop` (each `while` loop given
more passes than the largest outgoing list has entries) returns two valid, distinct face
handles; the mesh has exactly `L` more vertices, all old slots as before and the new ones
live, and exactly two more faces, the ones the returned handles name, both live, with `L`
boundary half-edges each, `2 L` together. For the empty loop it returns a pair of invalid
handles and the mesh unchanged. -/
theorem decomposeOnInternalLoop_cuts [Inhabited HD] {m : Mesh VD HD FD} (hm : m.WellFormed)
    (hl : m.ListsLive) {intersectFun : Int → Int → Bool} {initial : Int} {fuel0 : Nat}
    {p : List Int}
    (hrun : ConstructInternalLoopFrom m initial intersectFun fuel0 = .ok (some p))
    (hn : 3 ≤ p.length) (fd1 fd2 : FD) {fuel : Nat} (hfuel : m.maxDegree < fuel) :
    (DecomposeOnInternalLoop m [] fd1 fd2 fuel = .ok (some (m, Handle.none, Handle.none)) ∧
      Handle.invalid Handle.none = true) ∧
    ∃ m2 fh1 fh2 hs1 hs2,
      DecomposeOnInternalLoop m p fd1 fd2 fuel = .ok (some (m2, fh1, fh2)) ∧
      Handle.valid fh1 = true ∧ Handle.valid fh2 = true ∧ fh1 ≠ fh2 ∧
      m2.verts.length = m.verts.length + p.length ∧
      m2.verts.map (fun t => t.exists_)
        = m.verts.map (fun t => t.exists_) ++ List.replicate p.length true ∧
      m2.faces.length = m.faces.length + 2 ∧
      m2.faces = m.faces ++ [⟨⟨fh1, hs1⟩, fd1, true⟩, ⟨⟨fh2, hs2⟩, fd2, true⟩] ∧
      getAt m2.faces fh1 = .ok ⟨⟨fh1, hs1⟩, fd1, true⟩ ∧
      getAt m2.faces fh2 = .ok ⟨⟨fh2, hs2⟩, fd2, true⟩ ∧
      hs1.length = p.length ∧ hs2.length = p.length ∧
      hs1.length + hs2.length = 2 * p.length := by
  refine ⟨⟨rfl, rfl⟩, ?_⟩
  have hne : p ≠ [] := by
    intro h
    rw [h] at hn
    simp at hn
  obtain ⟨hadm, hcl⟩ := (constructInternalLoopFrom_sound hrun).resolve_left hne
  obtain ⟨m2, hs1, hs2, hdec, hv, hex, hf, h1, h2⟩ :=
    decompose_total hm.wf hl (loopFacts_of_admissible hm hl hadm hcl) hn fd1 fd2 hfuel
  refine ⟨m2, (m.faces.length : Int), (m.faces.length : Int) + 1, hs1, hs2, hdec, ?_, ?_, ?_,
    hv, hex, ?_, hf, ?_, ?_, h1, h2, by omega⟩
  · simp [Handle.valid]
  · simp only [Handle.valid, decide_eq_true_eq]
    omega
  · omega
  · rw [hf]
    simp
  · have h : getAt (m.faces ++ [⟨⟨(m.faces.length : Int), hs1⟩, fd1, true⟩]
        ++ [(⟨⟨(m.faces.length : Int) + 1, hs2⟩, fd2, true⟩ : Triplet FaceTopo FD)])
        (m.faces.length : Int) = .ok ⟨⟨(m.faces.length : Int), hs1⟩, fd1, true⟩ :=
      getAt_append_left (getAt_snoc_self m.faces ⟨⟨(m.faces.length : Int), hs1⟩, fd1, true⟩)
    rw [hf]
    simpa using h
  · have h := getAt_snoc_self
      (m.faces ++ [(⟨⟨(m.faces.length : Int), hs1⟩, fd1, true⟩ : Triplet FaceTopo FD)])
      ⟨⟨(m.faces.length : Int) + 1, hs2⟩, fd2, true⟩
    rw [hf]
    simpa using h

end DecomposeClaim

theorem decomposeOnInternalLoop_cuts_witness :
    (DecomposeOnInternalLoop octahedron [] () () 5
        = .ok (some (octahedron, Handle.none, Handle.none)) ∧
      Handle.invalid Handle.none = true) ∧
    ∃ m2 fh1 fh2 hs1 hs2,
      DecomposeOnInternalLoop octahedron [0, 18, 20, 8] () () 5 = .ok (some (m2, fh1, fh2)) ∧
      Handle.valid fh1 = true ∧ Handle.valid fh2 = true ∧ fh1 ≠ fh2 ∧
      m2.verts.length = octahedron.verts.length + [(0 : Int), 18, 20, 8].length ∧
      m2.verts.map (fun t => t.exists_)
        = octahedron.verts.map (fun t => t.exists_)
          ++ List.replicate [(0 : Int), 18, 20, 8].length true ∧
      m2.faces.length = octahedron.faces.length + 2 ∧
      m2.faces = octahedron.faces ++ [⟨⟨fh1, hs1⟩, (), true⟩, ⟨⟨fh2, hs2⟩, (), true⟩] ∧
      getAt m2.faces fh1 = .ok ⟨⟨fh1, hs1⟩, (), true⟩ ∧
      getAt m2.faces fh2 = .ok ⟨⟨fh2, hs2⟩, (), true⟩ ∧
      hs1.length = [(0 : Int), 18, 20, 8].length ∧ hs2.length = [(0 : Int), 18, 20, 8].length ∧
      hs1.length + hs2.length = 2 * [(0 : Int), 18, 20, 8].length :=
  decomposeOnInternalLoop_cuts wellFormed_octahedron listsLive_octahedron
    (by decide : ConstructInternalLoopFrom octahedron 0 (fun _ _ => false) 9
      = .ok (some [0, 18, 20, 8]))
    (by decide) () () (by decide : octahedron.maxDegree < 5)

/-- C20 fails as stated for loops of fewer than three half-edges. The mesh `fourEdgeMesh`
(two vertices joined by four edges, a face on one half-edge of each) is reached through
the member functions and `AssertEdgesAreStiched` passes on it; from the half-edge `0`
`ConstructInternalLoopFrom` returns the loop `[0, 3]` of length two; on this loop
`DecomposeOnInternalLoop` reaches `addFace` with two vertices, whose
`assert(verts.size() >= 3)` fails: no pair of face handles is returned. -/
theorem decomposeOnInternalLoop_short_loop :
    Reachable fourEdgeMesh ∧ AssertEdgesAreStiched fourEdgeMesh = .ok () ∧
      ConstructInternalLoopFrom fourEdgeMesh 0 (fun _ _ => false) 3 = .ok (some [0, 3]) ∧
      1 ≤ [(0 : Int), 3].length ∧
      ∀ fuel, 1 < fuel →
        DecomposeOnInternalLoop fourEdgeMesh [0, 3] () () fuel = .error .assertion := by
  refine ⟨reachable_fourEdgeMesh, by decide, by decide, by decide, ?_⟩
  intro fuel hfuel
  obtain ⟨n, rfl⟩ : ∃ n, fuel = n + 2 := ⟨fuel - 2, by omega⟩
  rfl

/-! ## MakeQuadFacedCube (C22) -/

/-- C22: the mesh built by `MakeQuadFacedCube` (the call returns) has exactly 8 vertices,
24 half-edges and 6 faces, none removed; every vertex has degree 3; every face has 4
boundary half-edges; the half-edges come in 12 opposite pairs (the opposite of a
half-edge is another half-edge, whose opposite it is, with the end vertices swapped);
every half-edge has a valid owning face and is in the half-edge list of exactly one
face, its owner; and `AssertEdgesAreStiched` passes on it. -/
theorem makeQuadFacedCube_shape :
    MakeQuadFacedCube cubeCorner = .ok quadCubeMesh ∧
      quadCubeMesh.verts.length = 8 ∧ quadCubeMesh.halfs.length = 24 ∧
      quadCubeMesh.faces.length = 6 ∧ quadCubeMesh.counts = (8, 24, 6) ∧
      (∀ vt ∈ quadCubeMesh.verts, quadCubeMesh.degree vt.topo.hd = .ok 3) ∧
      (∀ ft ∈ quadCubeMesh.faces, ft.topo.halfedges.length = 4) ∧
      (∀ ht ∈ quadCubeMesh.halfs, quadCubeMesh.oppOf ht.topo.hd ≠ ht.topo.hd ∧
        quadCubeMesh.oppOf (quadCubeMesh.oppOf ht.topo.hd) = ht.topo.hd ∧
        quadCubeMesh.fromOf (quadCubeMesh.oppOf ht.topo.hd) = ht.topo.eto ∧
        quadCubeMesh.toOf (quadCubeMesh.oppOf ht.topo.hd) = ht.topo.efrom) ∧
      ((quadCubeMesh.halfs.filter
        (fun ht => decide (ht.topo.hd < quadCubeMesh.oppOf ht.topo.hd))).length = 12) ∧
      (∀ ht ∈ quadCubeMesh.halfs, Handle.valid ht.topo.face = true ∧
        (quadCubeMesh.faces.filter (fun ft => Contains ft.topo.halfedges ht.topo.hd)).map
          (fun ft => ft.topo.hd) = [ht.topo.face]) ∧
      AssertEdgesAreStiched quadCubeMesh = .ok () := by
  refine ⟨by decide, by decide, by decide, by decide, by decide, by decide, by decide,
    by decide, by decide, by decide, by decide⟩

/-! ## Termination of ConstructInternalLoopFrom (C28) -/

section LoopEnds

variable {VD HD FD : Type}

/-- On any mesh, the end vertices of a path built by the extension rule are pairwise
different, and each is a vertex slot of degree at least 4. -/
theorem admissible_ends {m : Mesh VD HD FD} {intersectFun : Int → Int → Bool}
    {initial : Int} {p : List Int} (hp : Admissible m intersectFun initial p) :
    (p.map m.toOf).Nodup ∧ ∀ h ∈ p, ∃ d, m.degree (m.toOf h) = .ok d ∧ 4 ≤ d := by
  induction hp with
  | start hs =>
    obtain ⟨ti, -, -, -, hd⟩ := startOK_fromOf hs
    refine ⟨by simp, ?_⟩
    intro h hh
    rw [List.mem_singleton.mp hh]
    exact hd
  | extend hp hback hv hx hvalid ih =>
    rename_i p back x vt
    obtain ⟨-, -, -, cdeg, cvert, -, -⟩ := validNext_true hvalid
    constructor
    · rw [List.map_append, List.map_singleton]
      refine List.Nodup.append ih.1 (List.nodup_singleton _) ?_
      intro a ha hb
      rw [List.mem_singleton] at hb
      obtain ⟨h, hh, rfl⟩ := List.mem_map.mp ha
      exact (cvert h hh).2.2 hb
    · intro h hh
      rcases List.mem_append.mp hh with h1 | h1
      · exact ih.2 h h1
      · rw [List.mem_singleton.mp h1]
        exact cdeg

/-- On any mesh, a path built by the extension rule has at most as many half-edges as
the mesh has vertex slots. -/
theorem admissible_short {m : Mesh VD HD FD} {intersectFun : Int → Int → Bool}
    {initial : Int} {p : List Int} (hp : Admissible m intersectFun initial p) :
    p.length ≤ m.verts.length := by
  obtain ⟨hnd, hdeg⟩ := admissible_ends hp
  have hle : (p.map m.toOf).length ≤ m.verts.length := nodup_length_le hnd (by
    intro a ha
    obtain ⟨h, hh, rfl⟩ := List.mem_map.mp ha
    obtain ⟨d, hd, -⟩ := hdeg h hh
    obtain ⟨vt, hvt, -⟩ := degree_eq_ok.mp hd
    exact getAt_lt_length hvt)
  simpa using hle

theorem validNextHs_length {m : Mesh VD HD FD} {intersectFun : Int → Int → Bool}
    {startV : Int} {p : List Int} :
    ∀ {l vs : List Int}, validNextHs m intersectFun startV p l = .ok vs →
      vs.length ≤ l.length := by
  intro l
  induction l with
  | nil =>
    intro vs hrun
    simp only [validNextHs, Except.ok.injEq] at hrun
    subst hrun
    exact Nat.le_refl _
  | cons a rest ih =>
    intro vs hrun
    unfold validNextHs at hrun
    cases ha : validNext m intersectFun startV p a with
    | error e => simp [ha] at hrun
    | ok b =>
      simp only [ha] at hrun
      cases hr : validNextHs m intersectFun startV p rest with
      | error e => simp [hr] at hrun
      | ok vs1 =>
        simp only [hr, Except.ok.injEq] at hrun
        subst hrun
        have := ih hr
        cases b with
        | true => simp only [if_true, List.length_cons]; omega
        | false => simp only [Bool.false_eq_true, if_false, List.length_cons]; omega

/-- On any mesh, the loop of the search on a queue of paths built by the extension
rule ends within as many rounds as the weight of the queue says: it does not reach
the bound of the model. -/
theorem loopSearch_ends {m : Mesh VD HD FD} {intersectFun : Int → Int → Bool}
    {initial : Int} :
    ∀ (n : Nat) (Q : List (List Int)), (∀ q ∈ Q, Admissible m intersectFun initial q) →
      queueWeight m Q < n →
      loopSearch m intersectFun (m.fromOf initial) n Q ≠ .ok none := by
  intro n
  induction n with
  | zero => intro Q _ hw; omega
  | succ n ih =>
    intro Q hQ hw
    cases Q with
    | nil => simp [loopSearch]
    | cons cur rest =>
      have hcur := hQ cur (List.mem_cons_self _ _)
      cases hback : cur.getLast? with
      | none => simp [loopSearch, hback]
      | some back =>
        cases htb : getAt m.halfs back with
        | error e => simp [loopSearch, hback, htb]
        | ok tb =>
          have hstep := loopSearch_step intersectFun (m.fromOf initial) n rest hback htb
          by_cases hc : tb.topo.eto = m.fromOf initial
          · rw [hstep.1 hc]
            simp
          · cases hvt : getAt m.verts tb.topo.eto with
            | error e => simp [loopSearch, hback, htb, hc, hvt]
            | ok vt =>
              cases hvalid : validNextHs m intersectFun (m.fromOf initial) cur
                  vt.topo.halfedges with
              | error e => simp [loopSearch, hback, htb, hc, hvt, hvalid]
              | ok valid =>
                rw [hstep.2 hc vt valid hvt hvalid]
                have hnew : ∀ x ∈ valid, Admissible m intersectFun initial (cur ++ [x]) := by
                  intro x hx
                  obtain ⟨hx1, hx2⟩ := (validNextHs_mem hvalid x).mp hx
                  exact Admissible.extend hcur hback (by rw [toOf_eq htb]; exact hvt) hx1 hx2
                apply ih
                · intro q hq
                  rcases List.mem_append.mp hq with h1 | h1
                  · exact hQ q (List.mem_cons_of_mem _ h1)
                  · obtain ⟨x, hx, rfl⟩ := List.mem_map.mp h1
                    exact hnew x hx
                · have hk : valid.length ≤ m.maxDegree :=
                    Nat.le_trans (validNextHs_length hvalid)
                      (length_le_maxDegree (mem_iff_getAt.mpr ⟨_, hvt⟩))
                  have hlen : valid ≠ [] → cur.length + 1 ≤ m.verts.length := by
                    intro hne
                    obtain ⟨x, hx⟩ := List.exists_mem_of_ne_nil valid hne
                    have := admissible_short (hnew x hx)
                    simpa using this
                  have := queueWeight_step m cur valid rest hk hlen
                  omega

/-- C28: for every mesh, start edge and intersect function, `ConstructInternalLoopFrom`
ends within `searchBound` rounds of its loop, by a `return` or by a failed assertion or
an access outside a table, never by running on: every path built by the extension rule
(the queue starts with the path of the start edge, and a round replaces the front path
by its extensions that pass the tests of the loop body) has pairwise different end
vertices, so it has at most as many half-edges as the mesh has vertex slots. -/
theorem constructInternalLoopFrom_terminates (m : Mesh VD HD FD) (initial : Int)
    (intersectFun : Int → Int → Bool) :
    (∀ fuel, searchBound m ≤ fuel →
      (∃ e, ConstructInternalLoopFrom m initial intersectFun fuel = .error e) ∨
        ∃ p, ConstructInternalLoopFrom m initial intersectFun fuel = .ok (some p)) ∧
    ∀ p, Admissible m intersectFun initial p →
      (p.map m.toOf).Nodup ∧ p.length ≤ m.verts.length := by
  refine ⟨?_, fun p hp => ⟨(admissible_ends hp).1, admissible_short hp⟩⟩
  intro fuel hfuel
  have hne : ConstructInternalLoopFrom m initial intersectFun fuel ≠ .ok none := by
    unfold ConstructInternalLoopFrom
    cases hti : getAt m.halfs initial with
    | error e => simp
    | ok ti =>
      simp only
      cases hd1 : m.degree ti.topo.efrom with
      | error e => simp
      | ok d1 =>
        simp only
        by_cases h1 : d1 < 4
        · simp [h1]
        · rw [if_neg h1]
          cases hd2 : m.degree ti.topo.eto with
          | error e => simp
          | ok d2 =>
            simp only
            by_cases h2 : d2 < 4
            · simp [h2]
            · rw [if_neg h2, ← fromOf_eq hti]
              apply loopSearch_ends
              · intro q hq
                rw [List.mem_singleton.mp hq]
                exact Admissible.start ⟨ti, d1, d2, hti, hd1, by omega, hd2, by omega⟩
              · unfold searchBound at hfuel
                simp only [queueWeight, List.map_cons, List.map_nil, List.sum_cons,
                  List.sum_nil, List.length_cons, List.length_nil, Nat.zero_add, Nat.add_zero]
                omega
  cases hrun : ConstructInternalLoopFrom m initial intersectFun fuel with
  | error e => exact Or.inl ⟨e, rfl⟩
  | ok r =>
    cases r with
    | none => exact absurd hrun hne
    | some p => exact Or.inr ⟨p, rfl⟩

end LoopEnds

theorem constructInternalLoopFrom_terminates_witness :
    searchBound octahedron ≤ 1366 ∧
    ((∃ e, ConstructInternalLoopFrom octahedron 0 (fun _ _ => false) 1366 = .error e) ∨
      ∃ p, ConstructInternalLoopFrom octahedron 0 (fun _ _ => false) 1366 = .ok (some p)) ∧
    ((([0, 18, 20, 8] : List Int).map octahedron.toOf).Nodup ∧
      ([0, 18, 20, 8] : List Int).length ≤ octahedron.verts.length) :=
  ⟨by decide,
    (constructInternalLoopFrom_terminates octahedron 0 (fun _ _ => false)).1 1366 (by decide),
    (constructInternalLoopFrom_terminates octahedron 0 (fun _ _ => false)).2 [0, 18, 20, 8]
      admissible_octahedron.1⟩

/-! ## DecomposeAll (C21) -/

section DecomposeAllProofs

variable {VD HD FD : Type}

/-- What the scan of a round keeps: `minLoop` is empty or the result of a search from a
non-removed half-edge, and no search from a non-removed half-edge scanned so far gave
a non-empty loop with fewer half-edges. -/
theorem minLoopScan_spec {m : Mesh VD HD FD} {intersectFun : Int → Int → Bool} {fuel : Nat}
    (P : List Int → Prop) :
    ∀ (is : List Nat) (minLoop res : List Int),
      minLoopScan m intersectFun CompareLoopDefault fuel is minLoop = .ok (some res) →
      (minLoop ≠ [] → P minLoop) →
      (∀ i ∈ is, ∀ loop, m.removedHalf (i : Int) = .ok false →
        ConstructInternalLoopFrom m (i : Int) intersectFun fuel = .ok (some loop) →
        loop ≠ [] → P loop) →
      (res ≠ [] → P res) ∧ (minLoop ≠ [] → res ≠ [] ∧ res.length ≤ minLoop.length) ∧
      ∀ i ∈ is, ∀ loop, m.removedHalf (i : Int) = .ok false →
        ConstructInternalLoopFrom m (i : Int) intersectFun fuel = .ok (some loop) →
        loop ≠ [] → res ≠ [] ∧ res.length ≤ loop.length := by
  intro is
  induction is with
  | nil =>
    intro minLoop res hrun hP _
    simp only [minLoopScan, Except.ok.injEq, Option.some.injEq] at hrun
    subst hrun
    exact ⟨hP, fun h => ⟨h, Nat.le_refl _⟩, fun i hi => by simp at hi⟩
  | cons i rest ih =>
    intro minLoop res hrun hP hall
    unfold minLoopScan at hrun
    cases hrem : m.removedHalf (i : Int) with
    | error e => simp [hrem] at hrun
    | ok b =>
      cases b with
      | true =>
        simp only [hrem] at hrun
        obtain ⟨h1, h2, h3⟩ := ih minLoop res hrun hP
          (fun j hj => hall j (List.mem_cons_of_mem _ hj))
        refine ⟨h1, h2, ?_⟩
        intro j hj loop hj1 hj2 hj3
        rcases List.mem_cons.mp hj with rfl | hj
        · rw [hrem] at hj1
          cases hj1
        · exact h3 j hj loop hj1 hj2 hj3
      | false =>
        simp only [hrem] at hrun
        cases hloop : ConstructInternalLoopFrom m (i : Int) intersectFun fuel with
        | error e => simp [hloop] at hrun
        | ok r =>
          cases r with
          | none => simp [hloop] at hrun
          | some loop =>
            simp only [hloop] at hrun
            by_cases hc : (!loop.isEmpty && (minLoop.isEmpty || CompareLoopDefault loop minLoop))
                = true
            · rw [if_pos hc] at hrun
              simp only [Bool.and_eq_true, Bool.not_eq_true', List.isEmpty_eq_false,
                Bool.or_eq_true, List.isEmpty_iff, CompareLoopDefault, decide_eq_true_eq] at hc
              obtain ⟨hne, hcmp⟩ := hc
              obtain ⟨h1, h2, h3⟩ := ih loop res hrun
                (fun _ => hall i (List.mem_cons_self _ _) loop hrem hloop hne)
                (fun j hj => hall j (List.mem_cons_of_mem _ hj))
              obtain ⟨h2a, h2b⟩ := h2 hne
              refine ⟨h1, ?_, ?_⟩
              · intro hm
                refine ⟨h2a, ?_⟩
                rcases hcmp with hcmp | hcmp
                · exact absurd hcmp hm
                · omega
              · intro j hj loop2 hj1 hj2 hj3
                rcases List.mem_cons.mp hj with rfl | hj
                · rw [hloop] at hj2
                  cases hj2
                  exact ⟨h2a, h2b⟩
                · exact h3 j hj loop2 hj1 hj2 hj3
            · rw [if_neg hc] at hrun
              obtain ⟨h1, h2, h3⟩ := ih minLoop res hrun hP
                (fun j hj => hall j (List.mem_cons_of_mem _ hj))
              refine ⟨h1, h2, ?_⟩
              intro j hj loop2 hj1 hj2 hj3
              rcases List.mem_cons.mp hj with rfl | hj
              · rw [hloop] at hj2
                cases hj2
                simp only [Bool.and_eq_true, Bool.not_eq_true', List.isEmpty_eq_false,
                  Bool.or_eq_true, List.isEmpty_iff, CompareLoopDefault, decide_eq_true_eq,
                  not_and, not_or] at hc
                obtain ⟨hm, hlt⟩ := hc hj3
                obtain ⟨h2a, h2b⟩ := h2 hm
                exact ⟨h2a, by omega⟩
              · exact h3 j hj loop2 hj1 hj2 hj3

/-- A scan that returns has run the search from every non-removed half-edge of its
list to a return. -/
theorem minLoopScan_ran {m : Mesh VD HD FD} {intersectFun : Int → Int → Bool}
    {compareLoop : List Int → List Int → Bool} {fuel : Nat} :
    ∀ (is : List Nat) (minLoop res : List Int),
      minLoopScan m intersectFun compareLoop fuel is minLoop = .ok (some res) →
      ∀ i ∈ is, m.removedHalf (i : Int) = .ok false →
        ∃ loop, ConstructInternalLoopFrom m (i : Int) intersectFun fuel = .ok (some loop) := by
  intro is
  induction is with
  | nil => intro _ _ _ i hi; simp at hi
  | cons j rest ih =>
    intro minLoop res hrun i hi hr
    unfold minLoopScan at hrun
    cases hrem : m.removedHalf (j : Int) with
    | error e => simp [hrem] at hrun
    | ok b =>
      cases b with
      | true =>
        simp only [hrem] at hrun
        rcases List.mem_cons.mp hi with rfl | hi
        · rw [hrem] at hr
          cases hr
        · exact ih minLoop res hrun i hi hr
      | false =>
        simp only [hrem] at hrun
        cases hloop : ConstructInternalLoopFrom m (j : Int) intersectFun fuel with
        | error e => simp [hloop] at hrun
        | ok r =>
          cases r with
          | none => simp [hloop] at hrun
          | some loop =>
            simp only [hloop] at hrun
            rcases List.mem_cons.mp hi with rfl | hi
            · exact ⟨loop, hloop⟩
            · split at hrun
              · exact ih _ res hrun i hi hr
              · exact ih _ res hrun i hi hr

/-- The `minLoop` of a round: it is empty or the non-empty result of the search from a
non-removed half-edge, and no search from a non-removed half-edge gives a non-empty
loop with fewer half-edges; it is empty only when every such search gives the empty
list. -/
theorem findMinLoop_spec {m : Mesh VD HD FD} {intersectFun : Int → Int → Bool} {fuel : Nat}
    {minLoop : List Int}
    (hrun : findMinLoop m intersectFun CompareLoopDefault fuel = .ok (some minLoop)) :
    (minLoop ≠ [] → ∃ i : Nat, i < m.halfs.length ∧ m.removedHalf (i : Int) = .ok false ∧
      ConstructInternalLoopFrom m (i : Int) intersectFun fuel = .ok (some minLoop)) ∧
    ∀ (h : Int) (loop : List Int), m.removedHalf h = .ok false →
      ConstructInternalLoopFrom m h intersectFun fuel = .ok (some loop) → loop ≠ [] →
      minLoop ≠ [] ∧ minLoop.length ≤ loop.length := by
  obtain ⟨h1, -, h3⟩ := minLoopScan_spec
    (fun l => ∃ i : Nat, i < m.halfs.length ∧ m.removedHalf (i : Int) = .ok false ∧
      ConstructInternalLoopFrom m (i : Int) intersectFun fuel = .ok (some l))
    (List.range m.halfs.length) [] minLoop hrun (fun h => absurd rfl h)
    (fun i hi loop hr hl _ => ⟨i, List.mem_range.mp hi, hr, hl⟩)
  refine ⟨h1, ?_⟩
  intro h loop hr hl hne
  obtain ⟨ht, hht, -⟩ := removedHalf_eq_ok.mp hr
  obtain ⟨h0, hlt⟩ := getAt_lt_length hht
  have hcast : ((h.toNat : Nat) : Int) = h := Int.toNat_of_nonneg h0
  have := h3 h.toNat (List.mem_range.mpr (by omega)) loop (by rw [hcast]; exact hr)
    (by rw [hcast]; exact hl) hne
  exact this

/-- What `DecomposeAll` returns: the scan of the last round, on the mesh returned, found
no loop. -/
theorem decomposeRounds_final [Inhabited HD] [Inhabited FD] {intersectFun : Int → Int → Bool}
    {compareLoop : List Int → List Int → Bool} {fuel : Nat} :
    ∀ (n : Nat) (m : Mesh VD HD FD) (cutFaces : List (Int × Int)) (m2 : Mesh VD HD FD)
      (res : List (Int × Int)),
      decomposeRounds intersectFun compareLoop fuel n m cutFaces = .ok (some (m2, res)) →
      findMinLoop m2 intersectFun compareLoop fuel = .ok (some []) := by
  intro n
  induction n with
  | zero => intro m cutFaces m2 res hrun; simp [decomposeRounds] at hrun
  | succ n ih =>
    intro m cutFaces m2 res hrun
    unfold decomposeRounds at hrun
    cases hscan : findMinLoop m intersectFun compareLoop fuel with
    | error e => simp [hscan] at hrun
    | ok r =>
      cases r with
      | none => simp [hscan] at hrun
      | some minLoop =>
        simp only [hscan] at hrun
        by_cases hne : (!minLoop.isEmpty) = true
        · rw [if_pos hne] at hrun
          cases hdec : DecomposeOnInternalLoop m minLoop (default : FD) default fuel with
          | error e => simp [hdec] at hrun
          | ok r2 =>
            cases r2 with
            | none => simp [hdec] at hrun
            | some r3 =>
              obtain ⟨m1, fh1, fh2⟩ := r3
              simp only [hdec] at hrun
              by_cases hv : (Handle.valid fh1 && Handle.valid fh2) = true
              · rw [if_pos hv] at hrun
                exact ih _ _ _ _ hrun
              · rw [if_neg hv] at hrun
                exact ih _ _ _ _ hrun
        · rw [if_neg hne] at hrun
          simp only [Except.ok.injEq, Option.some.injEq, Prod.mk.injEq] at hrun
          obtain ⟨rfl, -⟩ := hrun
          simp only [Bool.not_eq_true', Bool.not_eq_false, List.isEmpty_iff] at hne
          rw [hscan, hne]

/-- On a mesh on which `AssertEdgesAreStiched` passes and whose vertices all have degree
below 4, the search from a non-removed half-edge returns the empty list at once. -/
theorem constructInternalLoopFrom_low_degree {m : Mesh VD HD FD}
    (hs : AssertEdgesAreStiched m = .ok ())
    (hdeg : ∀ vt ∈ m.verts, vt.topo.halfedges.length < 4) (intersectFun : Int → Int → Bool)
    (fuel : Nat) {h : Int} (hr : m.removedHalf h = .ok false) :
    ConstructInternalLoopFrom m h intersectFun fuel = .ok (some []) := by
  obtain ⟨ht, hht, hex⟩ := removedHalf_eq_ok.mp hr
  have hex2 : ht.exists_ = true := by
    cases h2 : ht.exists_ with
    | true => rfl
    | false => rw [h2] at hex; cases hex
  obtain ⟨-, -, -, -, ⟨vt, hvt, -⟩, -, -⟩ :=
    assertEdgesAreStiched_iff.mp hs ht (mem_iff_getAt.mpr ⟨h, hht⟩) hex2
  have hd := hdeg vt (mem_iff_getAt.mpr ⟨_, hvt⟩)
  simp only [ConstructInternalLoopFrom, hht, Mesh.degree, hvt, hd, if_true]

theorem minLoopScan_low_degree {m : Mesh VD HD FD}
    (hs : AssertEdgesAreStiched m = .ok ())
    (hdeg : ∀ vt ∈ m.verts, vt.topo.halfedges.length < 4) (intersectFun : Int → Int → Bool)
    (compareLoop : List Int → List Int → Bool) (fuel : Nat) :
    ∀ (is : List Nat), (∀ i ∈ is, i < m.halfs.length) →
      minLoopScan m intersectFun compareLoop fuel is [] = .ok (some []) := by
  intro is
  induction is with
  | nil => intro _; rfl
  | cons i rest ih =>
    intro hin
    have hi := hin i (List.mem_cons_self _ _)
    have hrest := ih (fun j hj => hin j (List.mem_cons_of_mem _ hj))
    obtain ⟨ht, hht⟩ : ∃ ht, getAt m.halfs (i : Int) = .ok ht :=
      getAt_of_lt m.halfs (by omega) (by omega)
    unfold minLoopScan
    cases hex : ht.exists_ with
    | false =>
      have : m.removedHalf (i : Int) = .ok true :=
        removedHalf_eq_ok.mpr ⟨ht, hht, by rw [hex]; rfl⟩
      simp only [this]
      exact hrest
    | true =>
      have hr : m.removedHalf (i : Int) = .ok false :=
        removedHalf_eq_ok.mpr ⟨ht, hht, by rw [hex]; rfl⟩
      simp only [hr, constructInternalLoopFrom_low_degree hs hdeg intersectFun fuel hr,
        List.isEmpty_nil, Bool.not_true, Bool.false_and, Bool.false_eq_true, if_false]
      exact hrest

/-- C21: in a round of `DecomposeAll` with the default comparator, the loop `minLoop`
that the scan finds and the round splits is the result of the search from a non-removed
half-edge of the current mesh, and no search from a non-removed half-edge gives a
non-empty loop with fewer half-edges; a round with a non-empty `minLoop` splits on it
and goes on; `DecomposeAll` returns only with a mesh on which the search from every
non-removed half-edge gives the empty list; and on a mesh that passes the entry check
`AssertEdgesAreStiched` and has no vertex of degree 4 or more, the call returns in its
first round, with the empty list and the mesh unchanged. -/
theorem decomposeAll_min_loop [Inhabited HD] [Inhabited FD] (m : Mesh VD HD FD)
    (intersectFun : Int → Int → Bool) (fuel : Nat) :
    (∀ minLoop, findMinLoop m intersectFun CompareLoopDefault fuel = .ok (some minLoop) →
      (minLoop ≠ [] → ∃ i : Nat, i < m.halfs.length ∧ m.removedHalf (i : Int) = .ok false ∧
        ConstructInternalLoopFrom m (i : Int) intersectFun fuel = .ok (some minLoop)) ∧
      (∀ (h : Int) (loop : List Int), m.removedHalf h = .ok false →
        ConstructInternalLoopFrom m h intersectFun fuel = .ok (some loop) → loop ≠ [] →
        minLoop ≠ [] ∧ minLoop.length ≤ loop.length) ∧
      (minLoop ≠ [] → ∀ n cutFaces m1 fh1 fh2,
        DecomposeOnInternalLoop m minLoop (default : FD) default fuel
            = .ok (some (m1, fh1, fh2)) →
        decomposeRounds intersectFun CompareLoopDefault fuel (n + 1) m cutFaces
          = decomposeRounds intersectFun CompareLoopDefault fuel n m1
              (if Handle.valid fh1 && Handle.valid fh2 then cutFaces ++ [(fh1, fh2)]
                else cutFaces))) ∧
    (∀ rounds m2 res,
      DecomposeAll m intersectFun CompareLoopDefault fuel rounds = .ok (some (m2, res)) →
      ∀ h, m2.removedHalf h = .ok false →
        ConstructInternalLoopFrom m2 h intersectFun fuel = .ok (some [])) ∧
    (AssertEdgesAreStiched m = .ok () → (∀ vt ∈ m.verts, vt.topo.halfedges.length < 4) →
      ∀ rounds, 0 < rounds →
        DecomposeAll m intersectFun CompareLoopDefault fuel rounds = .ok (some (m, []))) := by
  refine ⟨?_, ?_, ?_⟩
  · intro minLoop hscan
    obtain ⟨h1, h2⟩ := findMinLoop_spec hscan
    refine ⟨h1, h2, ?_⟩
    intro hne n cutFaces m1 fh1 fh2 hdec
    have hne2 : (!minLoop.isEmpty) = true := by
      cases minLoop with
      | nil => exact absurd rfl hne
      | cons a rest => rfl
    rw [decomposeRounds]
    simp only [hscan, hne2, if_true, hdec]
    split <;> rfl
  · intro rounds m2 res hrun h hr
    unfold DecomposeAll at hrun
    cases hs : AssertEdgesAreStiched m with
    | error e => simp [hs] at hrun
    | ok u =>
      simp only [hs] at hrun
      have hfin := decomposeRounds_final rounds m [] m2 res hrun
      obtain ⟨ht, hht, -⟩ := removedHalf_eq_ok.mp hr
      obtain ⟨h0, hlt⟩ := getAt_lt_length hht
      have hcast : ((h.toNat : Nat) : Int) = h := Int.toNat_of_nonneg h0
      obtain ⟨loop, hloop⟩ := minLoopScan_ran (List.range m2.halfs.length) [] [] hfin h.toNat
        (List.mem_range.mpr (by omega)) (by rw [hcast]; exact hr)
      rw [hcast] at hloop
      by_cases hne : loop = []
      · rw [hloop, hne]
      · exact absurd rfl ((findMinLoop_spec hfin).2 h loop hr hloop hne).1
  · intro hs hdeg rounds hpos
    obtain ⟨n, rfl⟩ : ∃ n, rounds = n + 1 := ⟨rounds - 1, by omega⟩
    simp only [DecomposeAll, hs, decomposeRounds, findMinLoop,
      minLoopScan_low_degree hs hdeg intersectFun CompareLoopDefault fuel
        (List.range m.halfs.length) (fun i hi => List.mem_range.mp hi),
      List.isEmpty_nil, Bool.not_true, Bool.false_eq_true, if_false]

end DecomposeAllProofs

theorem findMinLoop_octahedron :
    findMinLoop octahedron (fun _ _ => false) CompareLoopDefault 40
      = .ok (some [0, 18, 20, 8]) := by decide

theorem stitched_quadCubeMesh : AssertEdgesAreStiched quadCubeMesh = .ok () := by decide

theorem lowDegree_quadCubeMesh : ∀ vt ∈ quadCubeMesh.verts, vt.topo.halfedges.length < 4 := by
  decide

theorem decomposeAll_min_loop_witness :
    ((∃ i : Nat, i < octahedron.halfs.length ∧ octahedron.removedHalf (i : Int) = .ok false ∧
        ConstructInternalLoopFrom octahedron (i : Int) (fun _ _ => false) 40
          = .ok (some [0, 18, 20, 8])) ∧
      ∀ (h : Int) (loop : List Int), octahedron.removedHalf h = .ok false →
        ConstructInternalLoopFrom octahedron h (fun _ _ => false) 40 = .ok (some loop) →
        loop ≠ [] → ([0, 18, 20, 8] : List Int) ≠ [] ∧
          ([0, 18, 20, 8] : List Int).length ≤ loop.length) ∧
    AssertEdgesAreStiched quadCubeMesh = .ok () ∧
    (∀ vt ∈ quadCubeMesh.verts, vt.topo.halfedges.length < 4) ∧
    DecomposeAll quadCubeMesh (fun _ _ => false) CompareLoopDefault 40 1
      = .ok (some (quadCubeMesh, [])) ∧
    ∀ h, quadCubeMesh.removedHalf h = .ok false →
      ConstructInternalLoopFrom quadCubeMesh h (fun _ _ => false) 40 = .ok (some []) :=
  ⟨⟨((decomposeAll_min_loop octahedron (fun _ _ => false) 40).1 [0, 18, 20, 8]
        findMinLoop_octahedron).1 (by decide),
      ((decomposeAll_min_loop octahedron (fun _ _ => false) 40).1 [0, 18, 20, 8]
        findMinLoop_octahedron).2.1⟩,
    stitched_quadCubeMesh, lowDegree_quadCubeMesh,
    (decomposeAll_min_loop quadCubeMesh (fun _ _ => false) 40).2.2 stitched_quadCubeMesh
      lowDegree_quadCubeMesh 1 (by decide),
    (decomposeAll_min_loop quadCubeMesh (fun _ _ => false) 40).2.1 1 quadCubeMesh []
      ((decomposeAll_min_loop quadCubeMesh (fun _ _ => false) 40).2.2 stitched_quadCubeMesh
        lowDegree_quadCubeMesh 1 (by decide))⟩

/-! ## The trials of InitializSpatialRegionPlanes (C24) -/

section PickProofs

variable {Point Plane Line Depth : Type}

theorem edgeKept_refl (e : GraphEdge (MixedGraphEdge Point)) : EdgeKept e e :=
  ⟨rfl, rfl, rfl, rfl, rfl, fun h => h⟩

theorem edgeKept_trans {a b c : GraphEdge (MixedGraphEdge Point)} (h1 : EdgeKept a b)
    (h2 : EdgeKept b c) : EdgeKept a c :=
  ⟨h2.1.trans h1.1, h2.2.1.trans h1.2.1, h2.2.2.1.trans h1.2.2.1,
    h2.2.2.2.1.trans h1.2.2.2.1, h2.2.2.2.2.1.trans h1.2.2.2.2.1,
    fun h => h2.2.2.2.2.2 (h1.2.2.2.2.2 h)⟩

theorem resolveAnchors_kept (f : Point → Point) (e : GraphEdge (MixedGraphEdge Point)) :
    EdgeKept e (resolveAnchors f e) ∧ (resolveAnchors f e).data.determined = true :=
  ⟨⟨rfl, rfl, rfl, rfl, by simp [resolveAnchors], fun _ => rfl⟩, rfl⟩

theorem edgesPicked_nil (edges : List (GraphEdge (MixedGraphEdge Point))) :
    EdgesPicked [] edges edges :=
  ⟨rfl, fun _ e he => ⟨e, he, edgeKept_refl e, fun h => by simp at h, fun _ => rfl⟩⟩

/-- One write of the loop of `pickChoice`, followed by the writes for the handles of
`l`. -/
theorem edgesPicked_cons {edges edges1 edges2 : List (GraphEdge (MixedGraphEdge Point))}
    {eh : Int} {l : List Int}
    {f : GraphEdge (MixedGraphEdge Point) → GraphEdge (MixedGraphEdge Point)}
    (hf : ∀ e, EdgeKept e (f e) ∧ (f e).data.determined = true)
    (h1 : modifyAt edges eh f = .ok edges1) (h2 : EdgesPicked l edges1 edges2) :
    EdgesPicked (eh :: l) edges edges2 := by
  obtain ⟨h0, hlt, rfl⟩ := modifyAt_eq_ok_updAt.mp h1
  refine ⟨by rw [h2.1, length_updAt], ?_⟩
  intro x e he
  by_cases hx : x.toNat = eh.toNat
  · have hxe : x = eh := by
      have := (getAt_lt_length he).1
      omega
    subst hxe
    have h3 : getAt (updAt edges x.toNat f) x = .ok (f e) :=
      getAt_updAt.mpr ⟨e, he, by simp⟩
    obtain ⟨e2, he2, hk, hin, hout⟩ := h2.2 x (f e) h3
    refine ⟨e2, he2, edgeKept_trans (hf e).1 hk, fun _ => hk.2.2.2.2.2 (hf e).2, ?_⟩
    intro hnot
    exact absurd (List.mem_cons_self _ _) hnot
  · have h3 : getAt (updAt edges eh.toNat f) x = .ok e := by
      rw [getAt_updAt_ne _ _ _ _ (Or.inr hx)]
      exact he
    obtain ⟨e2, he2, hk, hin, hout⟩ := h2.2 x e h3
    refine ⟨e2, he2, hk, ?_, ?_⟩
    · intro hmem
      rcases List.mem_cons.mp hmem with rfl | hmem
      · exact absurd rfl hx
      · exact hin hmem
    · intro hnot
      exact hout (fun h => hnot (List.mem_cons_of_mem _ h))

theorem regionEdgeAsserted_congr (context : RecContext Line) (ccId : Int)
    {d d2 : MixedGraphEdge Point} (ht : d2.type = d.type) (h1 : d2.riri = d.riri)
    (h2 : d2.rili = d.rili) :
    regionEdgeAsserted context ccId d2 = regionEdgeAsserted context ccId d := by
  unfold regionEdgeAsserted
  rw [ht, h1, h2]

/-- The loop of `RegionCCVertexData::pickChoice`: what a run that returns has done, and
that it returns when every handle of the list is an edge slot whose edge passes the
assertion. -/
theorem pickRegionEdges_spec (context : RecContext Line)
    (geom : Geometry Point Plane Line Depth) (ccId : Int) (plane : Plane) :
    ∀ (l : List Int) (edges : List (GraphEdge (MixedGraphEdge Point))),
      (∀ edges2, pickRegionEdges context geom ccId plane l edges = .ok edges2 →
        EdgesPicked l edges edges2 ∧ ∀ eh ∈ l, ∃ e, getAt edges eh = .ok e) ∧
      ((∀ eh ∈ l, ∃ e, getAt edges eh = .ok e ∧
          regionEdgeAsserted context ccId e.data = .ok true) →
        ∃ edges2, pickRegionEdges context geom ccId plane l edges = .ok edges2) := by
  intro l
  induction l with
  | nil =>
    intro edges
    refine ⟨?_, fun _ => ⟨edges, rfl⟩⟩
    intro edges2 hrun
    simp only [pickRegionEdges, Except.ok.injEq] at hrun
    subst hrun
    exact ⟨edgesPicked_nil edges, fun eh h => by simp at h⟩
  | cons eh rest ih =>
    intro edges
    constructor
    · intro edges2 hrun
      unfold pickRegionEdges at hrun
      cases he : getAt edges eh with
      | error x => simp [he] at hrun
      | ok et =>
        simp only [he] at hrun
        cases ha : regionEdgeAsserted context ccId et.data with
        | error x => simp [ha] at hrun
        | ok b =>
          cases b with
          | false => simp [ha] at hrun
          | true =>
            simp only [ha] at hrun
            cases hm : modifyAt edges eh (resolveAnchors (geom.onPlane plane)) with
            | error x => simp [hm] at hrun
            | ok edges1 =>
              simp only [hm] at hrun
              obtain ⟨hp, hin⟩ := (ih edges1).1 edges2 hrun
              refine ⟨edgesPicked_cons (resolveAnchors_kept _) hm hp, ?_⟩
              intro x hx
              rcases List.mem_cons.mp hx with rfl | hx
              · exact ⟨et, he⟩
              · obtain ⟨e1, he1⟩ := hin x hx
                obtain ⟨h0, hlt⟩ := getAt_lt_length he1
                rw [modifyAt_length hm] at hlt
                exact getAt_of_lt edges h0 hlt
    · intro hall
      obtain ⟨et, he, ha⟩ := hall eh (List.mem_cons_self _ _)
      have hm := modifyAt_isOk (f := resolveAnchors (geom.onPlane plane)) he
      have hp := edgesPicked_cons (resolveAnchors_kept _) hm (edgesPicked_nil _)
      obtain ⟨edges2, h2⟩ := (ih _).2 (by
        intro x hx
        obtain ⟨e, hxe, hxa⟩ := hall x (List.mem_cons_of_mem _ hx)
        obtain ⟨e2, he2, hk, -, -⟩ := hp.2 x e hxe
        exact ⟨e2, he2, by
          rw [regionEdgeAsserted_congr context ccId hk.2.1 hk.2.2.1 hk.2.2.2.1]
          exact hxa⟩)
      refine ⟨edges2, ?_⟩
      unfold pickRegionEdges
      simp only [he, ha, hm]
      exact h2

/-- The loop of `LineCCVertexData::pickChoice`: what a run that returns has done, and
that it returns when every handle of the list is an edge slot whose edge passes the
assertion and whose line is reconstructed. -/
theorem pickLineEdges_spec (context : RecContext Line)
    (geom : Geometry Point Plane Line Depth) (ccId : Int) (depthFactor : Depth) :
    ∀ (l : List Int) (edges : List (GraphEdge (MixedGraphEdge Point))),
      (∀ edges2, pickLineEdges context geom ccId depthFactor l edges = .ok edges2 →
        EdgesPicked l edges edges2 ∧ ∀ eh ∈ l, ∃ e, getAt edges eh = .ok e) ∧
      ((∀ eh ∈ l, ∃ e, getAt edges eh = .ok e ∧ e.data.type = EdgeType.RegionLine ∧
          context.lineConnectedComponentIds e.data.rili.2 = some ccId ∧
          ∃ line, context.reconstructedLines e.data.rili.2 = some line) →
        ∃ edges2, pickLineEdges context geom ccId depthFactor l edges = .ok edges2) := by
  intro l
  induction l with
  | nil =>
    intro edges
    refine ⟨?_, fun _ => ⟨edges, rfl⟩⟩
    intro edges2 hrun
    simp only [pickLineEdges, Except.ok.injEq] at hrun
    subst hrun
    exact ⟨edgesPicked_nil edges, fun eh h => by simp at h⟩
  | cons eh rest ih =>
    intro edges
    constructor
    · intro edges2 hrun
      unfold pickLineEdges at hrun
      cases he : getAt edges eh with
      | error x => simp [he] at hrun
      | ok et =>
        simp only [he] at hrun
        by_cases ht : et.data.type ≠ EdgeType.RegionLine
        · simp [ht] at hrun
        · rw [if_neg ht] at hrun
          cases hc : mapAt context.lineConnectedComponentIds et.data.rili.2 with
          | error x => simp [hc] at hrun
          | ok c =>
            simp only [hc] at hrun
            by_cases hcc : c ≠ ccId
            · simp [hcc] at hrun
            · rw [if_neg hcc] at hrun
              cases hl : mapAt context.reconstructedLines et.data.rili.2 with
              | error x => simp [hl] at hrun
              | ok line =>
                simp only [hl] at hrun
                cases hm : modifyAt edges eh (resolveAnchors (geom.onLine line depthFactor)) with
                | error x => simp [hm] at hrun
                | ok edges1 =>
                  simp only [hm] at hrun
                  obtain ⟨hp, hin⟩ := (ih edges1).1 edges2 hrun
                  refine ⟨edgesPicked_cons (resolveAnchors_kept _) hm hp, ?_⟩
                  intro x hx
                  rcases List.mem_cons.mp hx with rfl | hx
                  · exact ⟨et, he⟩
                  · obtain ⟨e1, he1⟩ := hin x hx
                    obtain ⟨h0, hlt⟩ := getAt_lt_length he1
                    rw [modifyAt_length hm] at hlt
                    exact getAt_of_lt edges h0 hlt
    · intro hall
      obtain ⟨et, he, ht, hc, line, hl⟩ := hall eh (List.mem_cons_self _ _)
      have hm := modifyAt_isOk (f := resolveAnchors (geom.onLine line depthFactor)) he
      have hp := edgesPicked_cons (resolveAnchors_kept _) hm (edgesPicked_nil _)
      obtain ⟨edges2, h2⟩ := (ih _).2 (by
        intro x hx
        obtain ⟨e, hxe, hxt, hxc, hxl⟩ := hall x (List.mem_cons_of_mem _ hx)
        obtain ⟨e2, he2, hk, -, -⟩ := hp.2 x e hxe
        exact ⟨e2, he2, by rw [hk.2.1]; exact hxt, by rw [hk.2.2.2.1]; exact hxc,
          by rw [hk.2.2.2.1]; exact hxl⟩)
      refine ⟨edges2, ?_⟩
      unfold pickLineEdges
      simp only [he, ht, ne_eq, not_true_eq_false, if_false, mapAt, hc, hl, hm]
      exact h2

/-- C25: for both vertex kinds, a call of `pickChoice` on the vertex `v` that returns
has set the flag `determined` of every edge incident to `v` (every handle in
`g.topo(v).uppers`), kept the number of anchors of every edge, and left every edge not
incident to `v`, and every vertex, as it was; and the call returns when the conditions
it asserts hold (the choice is one of `v`, its `choiceId` is the position of a
candidate, and every edge incident to `v` passes the assertion of the loop, with a
reconstructed line for a line component). -/
theorem pickChoice_frame (self : MixedGraphVertex Plane Depth) (context : RecContext Line)
    (geom : Geometry Point Plane Line Depth) (g : MixedGraph Point Plane Depth) (v : Int)
    (choice : Choice) :
    (∀ g2 plane, RegionCCVertexData.pickChoice self context geom g v choice = .ok (g2, plane) →
      PickFrame g g2 v) ∧
    (∀ g2 depthFactor,
      LineCCVertexData.pickChoice self context geom g v choice = .ok (g2, depthFactor) →
      PickFrame g g2 v) ∧
    (choice.vertHandle = v →
      (∃ plane, getAt self.candidatePlanesByRoot choice.choiceId = .ok plane) →
      (∃ vt, getAt g.verts v = .ok vt ∧ ∀ eh ∈ vt.uppers, ∃ e, getAt g.edges eh = .ok e ∧
        regionEdgeAsserted context self.ccId e.data = .ok true) →
      ∃ g2 plane, RegionCCVertexData.pickChoice self context geom g v choice
        = .ok (g2, plane)) ∧
    (choice.vertHandle = v →
      (∃ depthFactor, getAt self.candidateDepthFactors choice.choiceId = .ok depthFactor) →
      (∃ vt, getAt g.verts v = .ok vt ∧ ∀ eh ∈ vt.uppers, ∃ e, getAt g.edges eh = .ok e ∧
        e.data.type = EdgeType.RegionLine ∧
        context.lineConnectedComponentIds e.data.rili.2 = some self.ccId ∧
        ∃ line, context.reconstructedLines e.data.rili.2 = some line) →
      ∃ g2 depthFactor, LineCCVertexData.pickChoice self context geom g v choice
        = .ok (g2, depthFactor)) := by
  refine ⟨?_, ?_, ?_, ?_⟩
  · intro g2 plane hrun
    unfold RegionCCVertexData.pickChoice at hrun
    by_cases hc : choice.vertHandle ≠ v
    · simp [hc] at hrun
    · rw [if_neg hc] at hrun
      cases hp : getAt self.candidatePlanesByRoot choice.choiceId with
      | error x => simp [hp] at hrun
      | ok plane1 =>
        simp only [hp] at hrun
        cases hv : getAt g.verts v with
        | error x => simp [hv] at hrun
        | ok vt =>
          simp only [hv] at hrun
          cases he : pickRegionEdges context geom self.ccId plane1 vt.uppers g.edges with
          | error x => simp [he] at hrun
          | ok edges1 =>
            simp only [he, Except.ok.injEq, Prod.mk.injEq] at hrun
            obtain ⟨rfl, -⟩ := hrun
            obtain ⟨h1, h2⟩ := (pickRegionEdges_spec context geom self.ccId plane1
              vt.uppers g.edges).1 edges1 he
            exact ⟨rfl, vt, hv, h2, h1⟩
  · intro g2 depthFactor hrun
    unfold LineCCVertexData.pickChoice at hrun
    by_cases hc : choice.vertHandle ≠ v
    · simp [hc] at hrun
    · rw [if_neg hc] at hrun
      cases hp : getAt self.candidateDepthFactors choice.choiceId with
      | error x => simp [hp] at hrun
      | ok d1 =>
        simp only [hp] at hrun
        cases hv : getAt g.verts v with
        | error x => simp [hv] at hrun
        | ok vt =>
          simp only [hv] at hrun
          cases he : pickLineEdges context geom self.ccId d1 vt.uppers g.edges with
          | error x => simp [he] at hrun
          | ok edges1 =>
            simp only [he, Except.ok.injEq, Prod.mk.injEq] at hrun
            obtain ⟨rfl, -⟩ := hrun
            obtain ⟨h1, h2⟩ := (pickLineEdges_spec context geom self.ccId d1
              vt.uppers g.edges).1 edges1 he
            exact ⟨rfl, vt, hv, h2, h1⟩
  · rintro hc ⟨plane, hp⟩ ⟨vt, hv, hall⟩
    obtain ⟨edges2, he⟩ := (pickRegionEdges_spec context geom self.ccId plane
      vt.uppers g.edges).2 hall
    refine ⟨{ g with edges := edges2 }, plane, ?_⟩
    unfold RegionCCVertexData.pickChoice
    simp only [hc, ne_eq, not_true_eq_false, if_false, hp, hv, he]
  · rintro hc ⟨d, hp⟩ ⟨vt, hv, hall⟩
    obtain ⟨edges2, he⟩ := (pickLineEdges_spec context geom self.ccId d
      vt.uppers g.edges).2 hall
    refine ⟨{ g with edges := edges2 }, d, ?_⟩
    unfold LineCCVertexData.pickChoice
    simp only [hc, ne_eq, not_true_eq_false, if_false, hp, hv, he]

end PickProofs

theorem pickChoice_frame_witness :
    (RegionCCVertexData.pickChoice ⟨VertType.RegionCC, 0, [5], [], false⟩
        tinyContext tinyGeometry tinyGraph 0 ⟨0, 0⟩
      = .ok ({ tinyGraph with edges :=
          [⟨[0, 1], ⟨EdgeType.RegionLine, (0, 0), (0, 0), true, [6, 7]⟩⟩,
            ⟨[0, 0], ⟨EdgeType.RegionRegion, (0, 1), (0, 0), true, [9]⟩⟩] }, 5) ∧
      PickFrame tinyGraph { tinyGraph with edges :=
          [⟨[0, 1], ⟨EdgeType.RegionLine, (0, 0), (0, 0), true, [6, 7]⟩⟩,
            ⟨[0, 0], ⟨EdgeType.RegionRegion, (0, 1), (0, 0), true, [9]⟩⟩] } 0) ∧
    (LineCCVertexData.pickChoice ⟨VertType.LineCC, 0, [], [3], false⟩
        tinyContext tinyGeometry tinyGraph 1 ⟨1, 0⟩
      = .ok ({ tinyGraph with edges :=
          [⟨[0, 1], ⟨EdgeType.RegionLine, (0, 0), (0, 0), true, [22, 23]⟩⟩,
            ⟨[0, 0], ⟨EdgeType.RegionRegion, (0, 1), (0, 0), false, [4]⟩⟩] }, 3) ∧
      PickFrame tinyGraph { tinyGraph with edges :=
          [⟨[0, 1], ⟨EdgeType.RegionLine, (0, 0), (0, 0), true, [22, 23]⟩⟩,
            ⟨[0, 0], ⟨EdgeType.RegionRegion, (0, 1), (0, 0), false, [4]⟩⟩] } 1) :=
  ⟨⟨rfl, (pickChoice_frame ⟨VertType.RegionCC, 0, [5], [], false⟩ tinyContext
      tinyGeometry tinyGraph 0 ⟨0, 0⟩).1 _ 5 (by rfl)⟩,
    ⟨rfl, (pickChoice_frame ⟨VertType.LineCC, 0, [], [3], false⟩ tinyContext
      tinyGeometry tinyGraph 1 ⟨1, 0⟩).2.1 _ 3 (by rfl)⟩⟩

/-! ## The expansion loop of a solver trial (C23) -/

section SolverProofs

variable {Point Plane Line Depth : Type}

theorem getAt_map {α β : Type} (f : α → β) {xs : List α} {h : Int} {y : β} :
    getAt (xs.map f) h = .ok y ↔ ∃ x, getAt xs h = .ok x ∧ f x = y := by
  simp only [getAt_eq_ok, List.getElem?_map, Option.map_eq_some']
  constructor
  · rintro ⟨h0, x, hx, rfl⟩
    exact ⟨x, ⟨h0, hx⟩, rfl⟩
  · rintro ⟨x, ⟨h0, hx⟩, rfl⟩
    exact ⟨h0, x, hx, rfl⟩

theorem getAt_mem {α : Type} {xs : List α} {h : Int} {x : α} (hx : getAt xs h = .ok x) :
    x ∈ xs :=
  List.mem_iff_getElem?.mpr ⟨h.toNat, (getAt_eq_ok.mp hx).2⟩

theorem getAt_getD {xs : List Int} {h v : Int} (hx : getAt xs h = .ok v) :
    0 ≤ h ∧ h.toNat < xs.length ∧ xs.getD h.toNat Handle.none = v := by
  obtain ⟨h0, hx2⟩ := getAt_eq_ok.mp hx
  refine ⟨h0, (List.getElem?_eq_some_iff.mp hx2).1, ?_⟩
  rw [List.getD_eq_getElem?_getD, hx2]
  rfl

/-- Every choice that `registerChoices` pushes is a choice of the vertex
`selfHandle`. -/
theorem registerChoices_mem {scores : List Int} {selfHandle : Int} {maxChoiceNum : Nat}
    {choices : List Choice} {probabilities : List Int} {c : Choice}
    (hc : c ∈ (registerChoices scores selfHandle maxChoiceNum choices probabilities).1) :
    c ∈ choices ∨ c.vertHandle = selfHandle := by
  unfold registerChoices at hc
  simp only [List.mem_append, List.mem_map] at hc
  rcases hc with hc | ⟨s, hs, rfl⟩
  · exact Or.inl hc
  · right
    have h1 := List.mem_of_mem_take hs
    have h2 := (List.perm_insertionSort _ _).mem_iff.mp h1
    obtain ⟨i, -, rfl⟩ := List.mem_map.mp h2
    rfl

/-- The loop over the region components of a round changes neither the edges nor the
types, component ids and flags of the vertices, and every choice it adds is a choice
of an undetermined region component vertex listed in the handle table under an id of
the set. -/
theorem collectRegionChoices_spec (oracles : Oracles Point Plane Depth)
    (regionCCIdToVHandles : List Int) :
    ∀ (ids : List Int) (g : MixedGraph Point Plane Depth) (choices : List Choice)
      (probabilities : List Int) (g2 : MixedGraph Point Plane Depth) (choices2 : List Choice)
      (probabilities2 : List Int),
      collectRegionChoices oracles regionCCIdToVHandles ids g choices probabilities
        = .ok (g2, choices2, probabilities2) →
      g2.edges = g.edges ∧ vertKeys g2 = vertKeys g ∧ vertFlags g2 = vertFlags g ∧
      ∀ c ∈ choices2, c ∈ choices ∨ ∃ id ∈ ids,
        getAt regionCCIdToVHandles id = .ok c.vertHandle ∧
        getAt (vertFlags g) c.vertHandle = .ok false ∧
        ∃ k, getAt (vertKeys g) c.vertHandle = .ok (VertType.RegionCC, k) := by
  intro ids
  induction ids with
  | nil =>
    intro g choices probabilities g2 choices2 probabilities2 hrun
    simp only [collectRegionChoices, Except.ok.injEq, Prod.mk.injEq] at hrun
    obtain ⟨rfl, rfl, rfl⟩ := hrun
    exact ⟨rfl, rfl, rfl, fun c hc => Or.inl hc⟩
  | cons id rest ih =>
    intro g choices probabilities g2 choices2 probabilities2 hrun
    unfold collectRegionChoices at hrun
    cases hvh : getAt regionCCIdToVHandles id with
    | error e => simp [hvh] at hrun
    | ok vh =>
      simp only [hvh] at hrun
      cases hvt : getAt g.verts vh with
      | error e => simp [hvt] at hrun
      | ok vt =>
        simp only [hvt] at hrun
        by_cases hdet : vt.data.determined = true
        · rw [if_pos hdet] at hrun
          obtain ⟨h1, h2, h3, h4⟩ := ih g choices probabilities g2 choices2 probabilities2 hrun
          refine ⟨h1, h2, h3, ?_⟩
          intro c hc
          rcases h4 c hc with h | ⟨i, hi, h⟩
          · exact Or.inl h
          · exact Or.inr ⟨i, List.mem_cons_of_mem _ hi, h⟩
        · rw [if_neg hdet] at hrun
          by_cases hty : vt.data.type ≠ VertType.RegionCC
          · simp [hty] at hrun
          · rw [if_neg hty] at hrun
            simp only [ne_eq, not_not] at hty
            cases hm : modifyAt g.verts vh (setPlanes (oracles.regionCandidates g vh)) with
            | error e => simp [hm] at hrun
            | ok verts1 =>
              simp only [hm] at hrun
              obtain ⟨h0, hlt, rfl⟩ := modifyAt_eq_ok_updAt.mp hm
              obtain ⟨h1, h2, h3, h4⟩ := ih _ _ _ g2 choices2 probabilities2 hrun
              have hk : vertKeys (⟨updAt g.verts vh.toNat
                  (setPlanes (oracles.regionCandidates g vh)), g.edges⟩ :
                  MixedGraph Point Plane Depth) = vertKeys g := by
                unfold vertKeys
                apply map_updAt_fix
                intro t
                rfl
              have hfl : vertFlags (⟨updAt g.verts vh.toNat
                  (setPlanes (oracles.regionCandidates g vh)), g.edges⟩ :
                  MixedGraph Point Plane Depth) = vertFlags g := by
                unfold vertFlags
                apply map_updAt_fix
                intro t
                rfl
              refine ⟨h1, h2.trans hk, h3.trans hfl, ?_⟩
              intro c hc
              have hflag : getAt (vertFlags g) vh = .ok false :=
                (getAt_map _).mpr ⟨vt, hvt, by simpa using hdet⟩
              have hkey : getAt (vertKeys g) vh = .ok (VertType.RegionCC, vt.data.ccId) :=
                (getAt_map _).mpr ⟨vt, hvt, by rw [hty]⟩
              rcases h4 c hc with h | ⟨i, hi, ha, hb, hcc⟩
              · rcases registerChoices_mem h with h | h
                · exact Or.inl h
                · right
                  rw [h]
                  exact ⟨id, List.mem_cons_self _ _, hvh, hflag, _, hkey⟩
              · right
                rw [hfl] at hb
                rw [hk] at hcc
                exact ⟨i, List.mem_cons_of_mem _ hi, ha, hb, hcc⟩

/-- The loop over the line components of a round changes neither the edges nor the
types, component ids and flags of the vertices, and every choice it adds is a choice
of an undetermined line component vertex listed in the handle table under an id of the
set. -/
theorem collectLineChoices_spec (oracles : Oracles Point Plane Depth)
    (lineCCidToVHandles : List Int) :
    ∀ (ids : List Int) (g : MixedGraph Point Plane Depth) (choices : List Choice)
      (probabilities : List Int) (g2 : MixedGraph Point Plane Depth) (choices2 : List Choice)
      (probabilities2 : List Int),
      collectLineChoices oracles lineCCidToVHandles ids g choices probabilities
        = .ok (g2, choices2, probabilities2) →
      g2.edges = g.edges ∧ vertKeys g2 = vertKeys g ∧ vertFlags g2 = vertFlags g ∧
      ∀ c ∈ choices2, c ∈ choices ∨ ∃ id ∈ ids,
        getAt lineCCidToVHandles id = .ok c.vertHandle ∧
        getAt (vertFlags g) c.vertHandle = .ok false ∧
        ∃ k, getAt (vertKeys g) c.vertHandle = .ok (VertType.LineCC, k) := by
  intro ids
  induction ids with
  | nil =>
    intro g choices probabilities g2 choices2 probabilities2 hrun
    simp only [collectLineChoices, Except.ok.injEq, Prod.mk.injEq] at hrun
    obtain ⟨rfl, rfl, rfl⟩ := hrun
    exact ⟨rfl, rfl, rfl, fun c hc => Or.inl hc⟩
  | cons id rest ih =>
    intro g choices probabilities g2 choices2 probabilities2 hrun
    unfold collectLineChoices at hrun
    cases hvh : getAt lineCCidToVHandles id with
    | error e => simp [hvh] at hrun
    | ok vh =>
      simp only [hvh] at hrun
      cases hvt : getAt g.verts vh with
      | error e => simp [hvt] at hrun
      | ok vt =>
        simp only [hvt] at hrun
        by_cases hdet : vt.data.determined = true
        · rw [if_pos hdet] at hrun
          obtain ⟨h1, h2, h3, h4⟩ := ih g choices probabilities g2 choices2 probabilities2 hrun
          refine ⟨h1, h2, h3, ?_⟩
          intro c hc
          rcases h4 c hc with h | ⟨i, hi, h⟩
          · exact Or.inl h
          · exact Or.inr ⟨i, List.mem_cons_of_mem _ hi, h⟩
        · rw [if_neg hdet] at hrun
          by_cases hty : vt.data.type ≠ VertType.LineCC
          · simp [hty] at hrun
          · rw [if_neg hty] at hrun
            simp only [ne_eq, not_not] at hty
            cases hm : modifyAt g.verts vh (setDepths (oracles.lineCandidates g vh)) with
            | error e => simp [hm] at hrun
            | ok verts1 =>
              simp only [hm] at hrun
              obtain ⟨h0, hlt, rfl⟩ := modifyAt_eq_ok_updAt.mp hm
              obtain ⟨h1, h2, h3, h4⟩ := ih _ _ _ g2 choices2 probabilities2 hrun
              have hk : vertKeys (⟨updAt g.verts vh.toNat
                  (setDepths (oracles.lineCandidates g vh)), g.edges⟩ :
                  MixedGraph Point Plane Depth) = vertKeys g := by
                unfold vertKeys
                apply map_updAt_fix
                intro t
                rfl
              have hfl : vertFlags (⟨updAt g.verts vh.toNat
                  (setDepths (oracles.lineCandidates g vh)), g.edges⟩ :
                  MixedGraph Point Plane Depth) = vertFlags g := by
                unfold vertFlags
                apply map_updAt_fix
                intro t
                rfl
              refine ⟨h1, h2.trans hk, h3.trans hfl, ?_⟩
              intro c hc
              have hflag : getAt (vertFlags g) vh = .ok false :=
                (getAt_map _).mpr ⟨vt, hvt, by simpa using hdet⟩
              have hkey : getAt (vertKeys g) vh = .ok (VertType.LineCC, vt.data.ccId) :=
                (getAt_map _).mpr ⟨vt, hvt, by rw [hty]⟩
              rcases h4 c hc with h | ⟨i, hi, ha, hb, hcc⟩
              · rcases registerChoices_mem h with h | h
                · exact Or.inl h
                · right
                  rw [h]
                  exact ⟨id, List.mem_cons_self _ _, hvh, hflag, _, hkey⟩
              · right
                rw [hfl] at hb
                rw [hk] at hcc
                exact ⟨i, List.mem_cons_of_mem _ hi, ha, hb, hcc⟩

theorem regionPickChoice_verts {self : MixedGraphVertex Plane Depth} {context : RecContext Line}
    {geom : Geometry Point Plane Line Depth} {g g2 : MixedGraph Point Plane Depth} {v : Int}
    {choice : Choice} {plane : Plane}
    (hrun : RegionCCVertexData.pickChoice self context geom g v choice = .ok (g2, plane)) :
    g2.verts = g.verts := by
  unfold RegionCCVertexData.pickChoice at hrun
  split at hrun
  · cases hrun
  · split at hrun
    · cases hrun
    · split at hrun
      · cases hrun
      · split at hrun
        · cases hrun
        · simp only [Except.ok.injEq, Prod.mk.injEq] at hrun
          obtain ⟨rfl, -⟩ := hrun
          rfl

theorem linePickChoice_verts {self : MixedGraphVertex Plane Depth} {context : RecContext Line}
    {geom : Geometry Point Plane Line Depth} {g g2 : MixedGraph Point Plane Depth} {v : Int}
    {choice : Choice} {depthFactor : Depth}
    (hrun : LineCCVertexData.pickChoice self context geom g v choice = .ok (g2, depthFactor)) :
    g2.verts = g.verts := by
  unfold LineCCVertexData.pickChoice at hrun
  split at hrun
  · cases hrun
  · split at hrun
    · cases hrun
    · split at hrun
      · cases hrun
      · split at hrun
        · cases hrun
        · simp only [Except.ok.injEq, Prod.mk.injEq] at hrun
          obtain ⟨rfl, -⟩ := hrun
          rfl

end SolverProofs

section SolverRounds

variable {Point Plane Line Depth : Type}

theorem map_updAt_const {α β : Type} (g : α → β) (f : α → α) (c : β)
    (hc : ∀ t, g (f t) = c) (xs : List α) (k : Nat) :
    (updAt xs k f).map g = (xs.map g).set k c := by
  apply List.ext_getElem?
  intro j
  rw [List.getElem?_map, getElem?_updAt, List.getElem?_set, List.getElem?_map]
  by_cases hj : j = k
  · subst hj
    rw [if_pos rfl, if_pos rfl]
    cases hx : xs[j]? with
    | none =>
      have : ¬ j < xs.length := not_lt.mpr (List.getElem?_eq_none_iff.mp hx)
      simp [this]
    | some x =>
      have : j < xs.length := (List.getElem?_eq_some_iff.mp hx).1
      simp [this, hc]
  · rw [if_neg hj, if_neg (fun h => hj h.symm)]

theorem tablesOK_congr {g g2 : MixedGraph Point Plane Depth} {rt lt : List Int}
    (hk : vertKeys g2 = vertKeys g) (hT : TablesOK g rt lt) : TablesOK g2 rt lt := by
  unfold TablesOK at hT ⊢
  rw [hk]
  exact hT

/-- What "made choice" does: the chosen vertex becomes determined, no other flag, no
type and no component id changes, and the component id of the chosen vertex is erased
from the set of its kind. -/
theorem makeChoice_spec {context : RecContext Line} {geom : Geometry Point Plane Line Depth}
    {st st1 : Trial Point Plane Depth} {choice : Choice}
    (hrun : makeChoice context geom st choice = .ok st1) :
    ∃ exeVD, getAt st.g.verts choice.vertHandle = .ok exeVD ∧
      vertKeys st1.g = vertKeys st.g ∧
      vertFlags st1.g = (vertFlags st.g).set choice.vertHandle.toNat true ∧
      (exeVD.data.type = VertType.RegionCC →
        st1.regionCCIdsNotDeterminedYet = st.regionCCIdsNotDeterminedYet.erase exeVD.data.ccId ∧
        st1.lineCCIdsNotDeterminedYet = st.lineCCIdsNotDeterminedYet) ∧
      (exeVD.data.type = VertType.LineCC →
        st1.lineCCIdsNotDeterminedYet = st.lineCCIdsNotDeterminedYet.erase exeVD.data.ccId ∧
        st1.regionCCIdsNotDeterminedYet = st.regionCCIdsNotDeterminedYet) := by
  unfold makeChoice at hrun
  cases hv : getAt st.g.verts choice.vertHandle with
  | error e => simp [hv] at hrun
  | ok exeVD =>
    simp only [hv] at hrun
    refine ⟨exeVD, rfl, ?_⟩
    have hfin : ∀ (st' : Trial Point Plane Depth), st'.g.verts = st.g.verts →
        (match modifyAt st'.g.verts choice.vertHandle setDetermined with
          | .error e => (.error e : Except Fault (Trial Point Plane Depth))
          | .ok verts1 => .ok { st' with g := { st'.g with verts := verts1 } }) = .ok st1 →
        vertKeys st1.g = vertKeys st.g ∧
        vertFlags st1.g = (vertFlags st.g).set choice.vertHandle.toNat true ∧
        st1.regionCCIdsNotDeterminedYet = st'.regionCCIdsNotDeterminedYet ∧
        st1.lineCCIdsNotDeterminedYet = st'.lineCCIdsNotDeterminedYet := by
      intro st' hverts hm
      cases hm2 : modifyAt st'.g.verts choice.vertHandle setDetermined with
      | error e => simp [hm2] at hm
      | ok verts1 =>
        simp only [hm2, Except.ok.injEq] at hm
        subst hm
        obtain ⟨-, -, rfl⟩ := modifyAt_eq_ok_updAt.mp hm2
        refine ⟨?_, ?_, rfl, rfl⟩
        · unfold vertKeys
          simp only [hverts]
          apply map_updAt_fix
          intro t
          rfl
        · unfold vertFlags
          simp only [hverts]
          apply map_updAt_const
          intro t
          rfl
    by_cases hR : exeVD.data.type = VertType.RegionCC
    · simp only [hR, if_true] at hrun
      cases hp : getAt st.planes exeVD.data.ccId with
      | error e => simp [hp] at hrun
      | ok p0 =>
        simp only [hp] at hrun
        cases hpick : RegionCCVertexData.pickChoice exeVD.data context geom st.g
            choice.vertHandle choice with
        | error e => simp [hpick] at hrun
        | ok r =>
          obtain ⟨g1, plane⟩ := r
          simp only [hpick] at hrun
          cases hmp : modifyAt st.planes exeVD.data.ccId (fun _ => plane) with
          | error e => simp [hmp] at hrun
          | ok planes1 =>
            simp only [hmp] at hrun
            obtain ⟨h1, h2, h3, h4⟩ := hfin
              ⟨g1, st.regionCCIdsNotDeterminedYet.erase exeVD.data.ccId,
                st.lineCCIdsNotDeterminedYet, planes1, st.depthFactors⟩
              (regionPickChoice_verts hpick) hrun
            refine ⟨h1, h2, fun _ => ⟨h3, h4⟩, ?_⟩
            intro hL
            rw [hR] at hL
            cases hL
    · simp only [hR, if_false] at hrun
      by_cases hL : exeVD.data.type = VertType.LineCC
      · simp only [hL, if_true] at hrun
        cases hp : getAt st.depthFactors exeVD.data.ccId with
        | error e => simp [hp] at hrun
        | ok p0 =>
          simp only [hp] at hrun
          cases hpick : LineCCVertexData.pickChoice exeVD.data context geom st.g
              choice.vertHandle choice with
          | error e => simp [hpick] at hrun
          | ok r =>
            obtain ⟨g1, depthFactor⟩ := r
            simp only [hpick] at hrun
            cases hmp : modifyAt st.depthFactors exeVD.data.ccId (fun _ => depthFactor) with
            | error e => simp [hmp] at hrun
            | ok depths1 =>
              simp only [hmp] at hrun
              obtain ⟨h1, h2, h3, h4⟩ := hfin
                ⟨g1, st.regionCCIdsNotDeterminedYet,
                  st.lineCCIdsNotDeterminedYet.erase exeVD.data.ccId, st.planes, depths1⟩
                (linePickChoice_verts hpick) hrun
              exact ⟨h1, h2, fun h => absurd h hR, fun _ => ⟨h4, h3⟩⟩
      · simp only [hL, if_false] at hrun
        obtain ⟨h1, h2, h3, h4⟩ := hfin st rfl hrun
        exact ⟨h1, h2, fun h => absurd h hR, fun h => absurd h hL⟩

end SolverRounds

section SolverLoop

variable {Point Plane Line Depth : Type}

/-- The vertex listed under the id `id` of a handle table of the graph has the type of
the table and the component id `id`. -/
theorem tablesOK_region {g : MixedGraph Point Plane Depth} {rt lt : List Int}
    (hT : TablesOK g rt lt) {id vh : Int} (hvh : getAt rt id = .ok vh) :
    getAt (vertKeys g) vh = .ok (VertType.RegionCC, id) := by
  obtain ⟨h0, hlt, hd⟩ := getAt_getD hvh
  have := hT.1 id.toNat hlt
  rw [hd, Int.toNat_of_nonneg h0] at this
  exact this

theorem tablesOK_line {g : MixedGraph Point Plane Depth} {rt lt : List Int}
    (hT : TablesOK g rt lt) {id vh : Int} (hvh : getAt lt id = .ok vh) :
    getAt (vertKeys g) vh = .ok (VertType.LineCC, id) := by
  obtain ⟨h0, hlt, hd⟩ := getAt_getD hvh
  have := hT.2 id.toNat hlt
  rw [hd, Int.toNat_of_nonneg h0] at this
  exact this

/-- One round of the expansion loop: what it does to the flags of the vertices; a
round that ends the loop leaves both sets as they are; and with the handle tables of
the graph, a round after which the loop goes on takes exactly one id out of the two
sets. -/
theorem expansionRound_spec {context : RecContext Line}
    {geom : Geometry Point Plane Line Depth} {oracles : Oracles Point Plane Depth}
    {useWeightedRandomSelection : Bool} {rt lt : List Int} {st st1 : Trial Point Plane Depth}
    {b : Bool}
    (hrun : expansionRound context geom oracles useWeightedRandomSelection rt lt st
      = .ok (b, st1)) :
    RoundFlags b st.g st1.g ∧
    (b = false → st1.regionCCIdsNotDeterminedYet = st.regionCCIdsNotDeterminedYet ∧
      st1.lineCCIdsNotDeterminedYet = st.lineCCIdsNotDeterminedYet) ∧
    (TablesOK st.g rt lt → b = true →
      st1.regionCCIdsNotDeterminedYet.length + st1.lineCCIdsNotDeterminedYet.length + 1
        = st.regionCCIdsNotDeterminedYet.length + st.lineCCIdsNotDeterminedYet.length) := by
  unfold expansionRound at hrun
  cases hr : collectRegionChoices oracles rt st.regionCCIdsNotDeterminedYet st.g [] [] with
  | error e => simp [hr] at hrun
  | ok r1 =>
    obtain ⟨g1, choices1, probabilities1⟩ := r1
    simp only [hr] at hrun
    obtain ⟨-, rk, rf, rc⟩ := collectRegionChoices_spec oracles rt _ _ _ _ _ _ _ hr
    cases hl : collectLineChoices oracles lt st.lineCCIdsNotDeterminedYet g1 choices1
        probabilities1 with
    | error e => simp [hl] at hrun
    | ok r2 =>
      obtain ⟨g2, choices, probabilities⟩ := r2
      simp only [hl] at hrun
      obtain ⟨-, lk, lf, lc⟩ := collectLineChoices_spec oracles lt _ _ _ _ _ _ _ hl
      have hk2 : vertKeys g2 = vertKeys st.g := lk.trans rk
      have hf2 : vertFlags g2 = vertFlags st.g := lf.trans rf
      by_cases hlen : choices.length ≠ probabilities.length
      · simp [hlen] at hrun
      · rw [if_neg hlen] at hrun
        by_cases hsum : probabilities.sum = 0
        · rw [if_pos hsum] at hrun
          simp only [Except.ok.injEq, Prod.mk.injEq] at hrun
          obtain ⟨rfl, rfl⟩ := hrun
          refine ⟨⟨hk2, fun _ => hf2, ?_⟩, fun _ => ⟨rfl, rfl⟩, ?_⟩
          · intro h
            cases h
          · intro _ h
            cases h
        · rw [if_neg hsum] at hrun
          cases hch : getAt choices
              ((selectChoice oracles useWeightedRandomSelection g2 probabilities : Nat) : Int) with
          | error e => simp [hch] at hrun
          | ok choice =>
            simp only [hch] at hrun
            cases hmk : makeChoice context geom { st with g := g2 } choice with
            | error e => simp [hmk] at hrun
            | ok st2 =>
              simp only [hmk, Except.ok.injEq, Prod.mk.injEq] at hrun
              obtain ⟨rfl, rfl⟩ := hrun
              obtain ⟨exeVD, hexe, mk, mf, mR, mL⟩ := makeChoice_spec hmk
              have hexek : getAt (vertKeys st.g) choice.vertHandle
                  = .ok (exeVD.data.type, exeVD.data.ccId) := by
                rw [← hk2]
                exact (getAt_map _).mpr ⟨exeVD, hexe, rfl⟩
              have hmem := getAt_mem hch
              have hsrc : (∃ id ∈ st.regionCCIdsNotDeterminedYet,
                    getAt rt id = .ok choice.vertHandle ∧
                    getAt (vertFlags st.g) choice.vertHandle = .ok false) ∨
                  (∃ id ∈ st.lineCCIdsNotDeterminedYet,
                    getAt lt id = .ok choice.vertHandle ∧
                    getAt (vertFlags st.g) choice.vertHandle = .ok false) := by
                rcases lc choice hmem with h | ⟨id, hid, h1, h2, -⟩
                · rcases rc choice h with h | ⟨id, hid, h1, h2, -⟩
                  · simp at h
                  · exact Or.inl ⟨id, hid, h1, h2⟩
                · right
                  rw [rf] at h2
                  exact ⟨id, hid, h1, h2⟩
              have hflag : getAt (vertFlags st.g) choice.vertHandle = .ok false := by
                rcases hsrc with ⟨_, _, _, h⟩ | ⟨_, _, _, h⟩ <;> exact h
              refine ⟨⟨mk.trans hk2, ?_, ?_⟩, ?_, ?_⟩
              · intro h
                cases h
              · intro _
                refine ⟨choice.vertHandle, hflag, ?_⟩
                rw [mf]
                exact congrArg (fun l => l.set choice.vertHandle.toNat true) hf2
              · intro h
                cases h
              intro hT _
              rcases hsrc with ⟨id, hid, h1, -⟩ | ⟨id, hid, h1, -⟩
              · have hkey := tablesOK_region hT h1
                rw [hexek] at hkey
                simp only [Except.ok.injEq, Prod.mk.injEq] at hkey
                obtain ⟨hty, hcc⟩ := hkey
                obtain ⟨e1, e2⟩ := mR hty
                rw [e1, e2, hcc, List.length_erase_of_mem hid]
                have := List.length_pos_of_mem hid
                simp only
                omega
              · have hkey := tablesOK_line hT h1
                rw [hexek] at hkey
                simp only [Except.ok.injEq, Prod.mk.injEq] at hkey
                obtain ⟨hty, hcc⟩ := hkey
                obtain ⟨e1, e2⟩ := mL hty
                rw [e1, e2, hcc, List.length_erase_of_mem hid]
                have := List.length_pos_of_mem hid
                simp only
                omega

/-- With the handle tables of the graph, the expansion loop ends within as many rounds
as the two sets hold ids: it does not reach a larger bound of the model, and a loop
that returns has run at most that many rounds. -/
theorem expansion_spec (context : RecContext Line)
    (geom : Geometry Point Plane Line Depth) (oracles : Oracles Point Plane Depth)
    (useWeightedRandomSelection : Bool) {rt lt : List Int} :
    ∀ (fuel : Nat) (st : Trial Point Plane Depth), TablesOK st.g rt lt →
      st.regionCCIdsNotDeterminedYet.length + st.lineCCIdsNotDeterminedYet.length < fuel →
      (∃ e, expansion context geom oracles useWeightedRandomSelection rt lt fuel st
          = .error e) ∨
        ∃ st2 k, expansion context geom oracles useWeightedRandomSelection rt lt fuel st
            = .ok (some (st2, k)) ∧
          k ≤ st.regionCCIdsNotDeterminedYet.length + st.lineCCIdsNotDeterminedYet.length := by
  intro fuel
  induction fuel with
  | zero => intro st _ h; omega
  | succ n ih =>
    intro st hT hfuel
    unfold expansion
    by_cases hpos : st.regionCCIdsNotDeterminedYet.length
        + st.lineCCIdsNotDeterminedYet.length > 0
    · rw [if_pos hpos]
      cases hround : expansionRound context geom oracles useWeightedRandomSelection rt lt st with
      | error e => exact Or.inl ⟨e, rfl⟩
      | ok r =>
        obtain ⟨b, st1⟩ := r
        obtain ⟨hfl, -, hdec⟩ := expansionRound_spec hround
        cases b with
        | false =>
          right
          exact ⟨st1, 1, rfl, hpos⟩
        | true =>
          have hm := hdec hT rfl
          simp only
          rcases ih st1 (tablesOK_congr hfl.1 hT) (by omega) with ⟨e, he⟩ | ⟨st2, k, he, hk⟩
          · exact Or.inl ⟨e, by rw [he]⟩
          · right
            exact ⟨st2, k + 1, by rw [he], by omega⟩
    · rw [if_neg hpos]
      exact Or.inr ⟨st, 0, rfl, Nat.zero_le _⟩

/-- The handle tables of a graph list pairwise different vertices: together they are no
longer than the table of the vertices. -/
theorem tablesOK_length {g : MixedGraph Point Plane Depth} {rt lt : List Int}
    (hT : TablesOK g rt lt) : rt.length + lt.length ≤ g.verts.length := by
  have hnd : ((List.range rt.length).map (fun i => rt.getD i Handle.none)
      ++ (List.range lt.length).map (fun i => lt.getD i Handle.none)).Nodup := by
    refine List.Nodup.append ?_ ?_ ?_
    · refine List.Nodup.map_on ?_ (List.nodup_range _)
      intro i hi j hj hij
      have h1 := hT.1 i (List.mem_range.mp hi)
      have h2 := hT.1 j (List.mem_range.mp hj)
      rw [hij, h2] at h1
      simp only [Except.ok.injEq, Prod.mk.injEq, true_and] at h1
      omega
    · refine List.Nodup.map_on ?_ (List.nodup_range _)
      intro i hi j hj hij
      have h1 := hT.2 i (List.mem_range.mp hi)
      have h2 := hT.2 j (List.mem_range.mp hj)
      rw [hij, h2] at h1
      simp only [Except.ok.injEq, Prod.mk.injEq, true_and] at h1
      omega
    · intro a ha hb
      obtain ⟨i, hi, rfl⟩ := List.mem_map.mp ha
      obtain ⟨j, hj, hij⟩ := List.mem_map.mp hb
      have h1 := hT.1 i (List.mem_range.mp hi)
      have h2 := hT.2 j (List.mem_range.mp hj)
      rw [hij, h1] at h2
      simp at h2
  have hle := nodup_length_le (V := g.verts.length) hnd (by
    intro a ha
    have hin : ∃ k, getAt (vertKeys g) a = .ok k := by
      rcases List.mem_append.mp ha with h | h
      · obtain ⟨i, hi, rfl⟩ := List.mem_map.mp h
        exact ⟨_, hT.1 i (List.mem_range.mp hi)⟩
      · obtain ⟨i, hi, rfl⟩ := List.mem_map.mp h
        exact ⟨_, hT.2 i (List.mem_range.mp hi)⟩
    obtain ⟨k, hk⟩ := hin
    have := getAt_lt_length hk
    unfold vertKeys at this
    rw [List.length_map] at this
    exact this)
  simpa using hle

/-- C23: for every mixed graph with its two handle tables (each id of a table listed
with the vertex of that kind and component id), and whatever candidates, probabilities
and random draws the trial meets, the expansion loop ends within as many rounds as the
graph has vertices, by leaving the loop or by a failed assertion or an access outside
a table, never by running on; and every round that returns either ends the loop and
leaves every flag `determined` as it is, or sets the flag of exactly one vertex that
was not determined and leaves every other flag as it is, so that no determined vertex
becomes undetermined. -/
theorem expansion_rounds (context : RecContext Line) (geom : Geometry Point Plane Line Depth)
    (oracles : Oracles Point Plane Depth) (useWeightedRandomSelection : Bool)
    (regionCCIdToVHandles lineCCidToVHandles : List Int) (g : MixedGraph Point Plane Depth)
    (planes : List Plane) (depthFactors : List Depth)
    (hT : TablesOK g regionCCIdToVHandles lineCCidToVHandles) :
    (∀ fuel, g.verts.length < fuel →
      (∃ e, expansion context geom oracles useWeightedRandomSelection regionCCIdToVHandles
          lineCCidToVHandles fuel
          (initialTrial g regionCCIdToVHandles.length lineCCidToVHandles.length planes
            depthFactors) = .error e) ∨
        ∃ st2 k, expansion context geom oracles useWeightedRandomSelection
            regionCCIdToVHandles lineCCidToVHandles fuel
            (initialTrial g regionCCIdToVHandles.length lineCCidToVHandles.length planes
              depthFactors) = .ok (some (st2, k)) ∧ k ≤ g.verts.length) ∧
    ∀ (st st1 : Trial Point Plane Depth) (b : Bool),
      expansionRound context geom oracles useWeightedRandomSelection regionCCIdToVHandles
        lineCCidToVHandles st = .ok (b, st1) → RoundFlags b st.g st1.g := by
  refine ⟨?_, fun st st1 b hrun => (expansionRound_spec hrun).1⟩
  intro fuel hfuel
  have hlen := tablesOK_length hT
  have hk : vertKeys (initialTrial g regionCCIdToVHandles.length lineCCidToVHandles.length
      planes depthFactors).g = vertKeys g := by
    simp [initialTrial, vertKeys, List.map_map, Function.comp]
  have hm : (initialTrial g regionCCIdToVHandles.length lineCCidToVHandles.length
      planes depthFactors).regionCCIdsNotDeterminedYet.length
      + (initialTrial g regionCCIdToVHandles.length lineCCidToVHandles.length
      planes depthFactors).lineCCIdsNotDeterminedYet.length
      = regionCCIdToVHandles.length + lineCCidToVHandles.length := by
    simp only [initialTrial, List.length_map, List.length_range]
  rcases expansion_spec context geom oracles useWeightedRandomSelection fuel _
      (tablesOK_congr hk hT) (by rw [hm]; omega) with h | ⟨st2, k, h1, h2⟩
  · exact Or.inl h
  · exact Or.inr ⟨st2, k, h1, by rw [hm] at h2; omega⟩

end SolverLoop

theorem expansion_rounds_witness :
    TablesOK tinyGraph [0] [1] ∧
    expansion tinyContext tinyGeometry tinyOracles false [0] [1] 3
      (initialTrial tinyGraph ([0] : List Int).length ([1] : List Int).length [0] [0])
      = .ok (some (tinyAfterLoop, 2)) ∧
    ((∃ e, expansion tinyContext tinyGeometry tinyOracles false [0] [1] 3
        (initialTrial tinyGraph ([0] : List Int).length ([1] : List Int).length [0] [0])
        = .error e) ∨
      ∃ st2 k, expansion tinyContext tinyGeometry tinyOracles false [0] [1] 3
          (initialTrial tinyGraph ([0] : List Int).length ([1] : List Int).length [0] [0])
          = .ok (some (st2, k)) ∧ k ≤ tinyGraph.verts.length) ∧
    RoundFlags true (initialTrial tinyGraph 1 1 [0] [0]).g tinyAfterRound.g :=
  ⟨⟨by decide, by decide⟩, by rfl,
    (expansion_rounds tinyContext tinyGeometry tinyOracles false [0] [1] tinyGraph [0] [0]
      ⟨by decide, by decide⟩).1 3 (by decide),
    (expansion_rounds tinyContext tinyGeometry tinyOracles false [0] [1] tinyGraph [0] [0]
      ⟨by decide, by decide⟩).2 (initialTrial tinyGraph 1 1 [0] [0]) tinyAfterRound true
      (by rfl)⟩

/-! ## The workflow of SearchAndAddFaces without a move (C26) -/

section SearchStuck

theorem searchStart_wireEdge (epj : Int → Int → Frac) :
    searchStart wireEdge epj (fun _ => true)
      = .ok (none, ⟨⟨[[0], [1]], [100, 100], [some 0, some 1]⟩, [0, 1], []⟩) := by
  have hq : quadLoopI wireEdge epj (fun _ => true) 2 [0, 1] (0, [[], []])
      = .ok (0, [[], []]) := by
    have hs0 : skipped wireEdge (fun _ => true) 0 = .ok false := rfl
    have hs1 : skipped wireEdge (fun _ => true) 1 = .ok false := rfl
    have hs2 : skipped wireEdge (fun _ => true) ((0 + 1 : Nat) : Int) = .ok false := rfl
    cases h : (epj 0 1).lt ⟨9, 10⟩ with
    | true =>
      simp only [quadLoopI, quadLoopJ, Nat.cast_zero, Nat.cast_one, hs0, hs1, hs2, h, if_true,
        List.range', Nat.reduceAdd, Nat.reduceSub]
    | false =>
      simp only [quadLoopI, quadLoopJ, Nat.cast_zero, Nat.cast_one, hs0, hs1, hs2, h,
        List.range', Nat.reduceAdd, Nat.reduceSub]
      rfl
  have hq2 : quadLoopI wireEdge epj (fun _ => true) wireEdge.halfs.length
      (List.range wireEdge.halfs.length) (0, List.replicate wireEdge.halfs.length [])
      = .ok (0, [[], []]) := hq
  unfold searchStart
  rw [hq2]
  rfl

theorem workflow_wireEdge_sub (epj : Int → Int → Frac) (fuel : Nat) :
    workflow wireEdge epj (fun _ => true) fuel .SubMatting wireEdgeSub = .ok none ∧
    workflow wireEdge epj (fun _ => true) fuel .SubForce wireEdgeSub = .ok none ∧
    workflow wireEdge epj (fun _ => true) fuel .SubMerge wireEdgeSub = .ok none := by
  induction fuel with
  | zero => exact ⟨rfl, rfl, rfl⟩
  | succ n ih =>
    have h1 : workflowStep wireEdge epj (fun _ => true) .SubMatting wireEdgeSub
        = .ok (.SubForce, wireEdgeSub) := rfl
    have h2 : workflowStep wireEdge epj (fun _ => true) .SubForce wireEdgeSub
        = .ok (.SubMerge, wireEdgeSub) := rfl
    have h3 : workflowStep wireEdge epj (fun _ => true) .SubMerge wireEdgeSub
        = .ok (.SubMatting, wireEdgeSub) := rfl
    refine ⟨?_, ?_, ?_⟩
    · simp only [workflow, h1]
      exact ih.2.1
    · simp only [workflow, h2]
      exact ih.2.2
    · simp only [workflow, h3]
      exact ih.1

theorem workflow_wireEdge (epj : Int → Int → Frac) (fuel : Nat) :
    workflow wireEdge epj (fun _ => true) fuel .TopForce wireEdgeTop = .ok none := by
  have h1 : workflowStep wireEdge epj (fun _ => true) .TopForce wireEdgeTop
      = .ok (.TopMerge, wireEdgeTop) := rfl
  have h2 : workflowStep wireEdge epj (fun _ => true) .TopMerge wireEdgeTop
      = .ok (.SubMatting, wireEdgeSub) := rfl
  cases fuel with
  | zero => rfl
  | succ n =>
    simp only [workflow, h1]
    cases n with
    | zero => rfl
    | succ k =>
      simp only [workflow, h2]
      exact (workflow_wireEdge_sub epj k).1

/-- C26, as the code has it: on the mesh of two vertices joined by one edge, with the
mask that lets every half-edge through and any scorer, no forced connection, merge or
best merge applies, and the workflow of `SearchAndAddFaces` goes round the labels
`SubMatting`, `SubForce`, `SubMerge` without ever reaching `Label_End`: within no number
of labels does the call return. -/
theorem searchAndAddFaces_no_move_spins (epj : Int → Int → Frac) (fuel : Nat) :
    SearchAndAddFaces wireEdge epj (fun _ => true) fuel = .ok none ∧
      workflowStep wireEdge epj (fun _ => true) .SubMatting wireEdgeSub
        = .ok (.SubForce, wireEdgeSub) ∧
      workflowStep wireEdge epj (fun _ => true) .SubForce wireEdgeSub
        = .ok (.SubMerge, wireEdgeSub) ∧
      workflowStep wireEdge epj (fun _ => true) .SubMerge wireEdgeSub
        = .ok (.SubMatting, wireEdgeSub) := by
  refine ⟨?_, rfl, rfl, rfl⟩
  have hs : searchLoops wireEdge epj (fun _ => true) fuel = .ok none := by
    unfold searchLoops
    rw [searchStart_wireEdge]
    exact workflow_wireEdge epj fuel
  unfold SearchAndAddFaces
  rw [hs]

end SearchStuck
/-! ## The loops of SearchAndAddFaces (C27, C30) -/

section SearchBasics

variable {VD HD FD : Type}

theorem loopOf_eq_ok {l : List (Option Nat)} {h : Int} {p : Nat} :
    loopOf l h = .ok p ↔ getAt l h = .ok (some p) := by
  unfold loopOf
  cases hg : getAt l h with
  | error e => simp
  | ok o => cases o <;> simp

theorem mem_insertIntoMasterList (pr : List Int) (p q : Nat) (l : List Nat) :
    q ∈ insertIntoMasterList pr p l ↔ q = p ∨ q ∈ l := by
  induction l with
  | nil => simp [insertIntoMasterList]
  | cons a rest ih =>
    unfold insertIntoMasterList
    split
    · simp
    · simp only [List.mem_cons, ih]
      tauto

theorem mem_removeLoop (p q : Nat) (l : List Nat) : q ∈ removeLoop p l ↔ q ∈ l ∧ q ≠ p := by
  simp [removeLoop]

theorem halfArrAt_set (l : List (List Int)) (p q : Nat) (a : List Int) :
    halfArrAt (l.set p a) q = if q = p ∧ p < l.length then a else halfArrAt l q := by
  unfold halfArrAt
  rw [List.getD_eq_getElem?_getD, List.getD_eq_getElem?_getD, List.getElem?_set]
  by_cases hq : p = q
  · subst hq
    by_cases hlt : p < l.length
    · simp [hlt]
    · simp [hlt, List.getElem?_eq_none (Nat.le_of_not_lt hlt)]
  · have hq2 : ¬ q = p := fun h => hq h.symm
    simp [hq, hq2]

theorem priorityAt_set (l : List Int) (p q : Nat) (a : Int) :
    priorityAt (l.set p a) q = if q = p ∧ p < l.length then a else priorityAt l q := by
  unfold priorityAt
  rw [List.getD_eq_getElem?_getD, List.getD_eq_getElem?_getD, List.getElem?_set]
  by_cases hq : p = q
  · subst hq
    by_cases hlt : p < l.length
    · simp [hlt]
    · simp [hlt, List.getElem?_eq_none (Nat.le_of_not_lt hlt)]
  · have hq2 : ¬ q = p := fun h => hq h.symm
    simp [hq, hq2]

theorem setLoops_spec (p : Nat) : ∀ (hs : List Int) {l l2 : List (Option Nat)},
    setLoops p hs l = .ok l2 →
      (∀ h ∈ hs, getAt l2 h = .ok (some p)) ∧ (∀ h, h ∉ hs → getAt l2 h = getAt l h) ∧
        ∀ h q, getAt l h = .ok (some q) → ∃ q2, getAt l2 h = .ok (some q2) := by
  intro hs
  induction hs with
  | nil =>
    intro l l2 hr
    simp only [setLoops, Except.ok.injEq] at hr
    subst hr
    exact ⟨fun h hh => absurd hh (List.not_mem_nil _), fun _ _ => rfl, fun h q hq => ⟨q, hq⟩⟩
  | cons x rest ih =>
    intro l l2 hr
    unfold setLoops at hr
    cases hm : modifyAt l x (fun _ => some p) with
    | error e => simp [hm] at hr
    | ok l1 =>
      simp only [hm] at hr
      obtain ⟨h0, hlt, rfl⟩ := modifyAt_eq_ok_updAt.mp hm
      obtain ⟨i1, i2, i3⟩ := ih hr
      have hx1 : getAt (updAt l x.toNat (fun _ => some p)) x = .ok (some p) := by
        obtain ⟨y, hy⟩ := getAt_isOk_iff.mpr ⟨h0, hlt⟩
        exact getAt_updAt.mpr ⟨y, hy, by simp⟩
      refine ⟨?_, ?_, ?_⟩
      · intro h hh
        by_cases hr2 : h ∈ rest
        · exact i1 h hr2
        · rcases List.mem_cons.mp hh with rfl | hh2
          · rw [i2 h hr2]
            exact hx1
          · exact absurd hh2 hr2
      · intro h hh
        have hne : h ≠ x := fun e => hh (e ▸ List.mem_cons_self _ _)
        have hnr : h ∉ rest := fun e => hh (List.mem_cons_of_mem _ e)
        rw [i2 h hnr]
        apply getAt_updAt_ne
        by_cases hn : h < 0
        · exact Or.inl hn
        · right
          intro e
          apply hne
          omega
      · intro h q hq
        by_cases hx : h = x
        · subst hx
          exact i3 h p hx1
        · have : getAt (updAt l x.toNat (fun _ => some p)) h = getAt l h := by
            apply getAt_updAt_ne
            by_cases hn : h < 0
            · exact Or.inl hn
            · right
              intro e
              apply hx
              omega
          exact i3 h q (this.trans hq)

theorem closedE_true {m : Mesh VD HD FD} {arr : List Int}
    (h : closedE m arr = .ok true) : m.ClosedLoop arr := by
  unfold closedE at h
  cases hf : arr.head? with
  | none => simp [hf] at h
  | some f =>
    cases hb : arr.getLast? with
    | none => simp [hf, hb] at h
    | some b =>
      simp only [hf, hb, fromE, toE] at h
      cases h1 : getAt m.halfs f with
      | error e => simp [h1] at h
      | ok tf =>
        cases h2 : getAt m.halfs b with
        | error e => simp [h1, h2] at h
        | ok tb =>
          simp only [h1, h2, Except.ok.injEq, decide_eq_true_eq] at h
          exact ⟨f, b, hf, hb, by rw [toOf_eq h2, fromOf_eq h1, h]⟩

theorem connectLoop_spec {m : Mesh VD HD FD} {epj : Int → Int → Frac} {L L1 : Loops}
    {p0 p1 : Nat} (hc : connectLoop m epj L p0 p1 = .ok L1) :
    p0 ≠ p1 ∧ (∃ b f, (halfArrAt L.halfArr p0).getLast? = some b ∧
      (halfArrAt L.halfArr p1).head? = some f ∧ m.toOf b = m.fromOf f) ∧
      L1.halfArr = L.halfArr.set p0 (halfArrAt L.halfArr p0 ++ halfArrAt L.halfArr p1) ∧
      (∃ pr, L1.priority = L.priority.set p0 pr) ∧
      setLoops p0 (halfArrAt L.halfArr p1) L.half2loop = .ok L1.half2loop := by
  unfold connectLoop at hc
  by_cases hp : p0 = p1
  · simp [hp] at hc
  · simp only [hp, if_false] at hc
    cases hb : (halfArrAt L.halfArr p0).getLast? with
    | none => simp [hb] at hc
    | some b =>
      cases hf : (halfArrAt L.halfArr p1).head? with
      | none => simp [hb, hf] at hc
      | some f =>
        simp only [hb, hf, fromE, toE] at hc
        cases h1 : getAt m.halfs b with
        | error e => simp [h1] at hc
        | ok tb =>
          cases h2 : getAt m.halfs f with
          | error e => simp [h1, h2] at hc
          | ok tf =>
            simp only [h1, h2] at hc
            by_cases he : tb.topo.eto = tf.topo.efrom
            · simp only [he, if_true] at hc
              cases h3 : setLoops p0 (halfArrAt L.halfArr p1) L.half2loop with
              | error e => simp [h3] at hc
              | ok l2 =>
                simp only [h3, Except.ok.injEq] at hc
                subst hc
                exact ⟨hp, ⟨b, f, rfl, rfl, by rw [toOf_eq h1, fromOf_eq h2, he]⟩, rfl,
                  ⟨_, rfl⟩, rfl⟩
            · simp [he] at hc

end SearchBasics
section SearchConnect

variable {VD HD FD : Type}

theorem cur_lt {m : Mesh VD HD FD} {emsk : Int → Bool} {L : Loops} (hL : LoopInv m emsk L)
    {p : Nat} (hp : L.Cur p) : p < L.halfArr.length := by
  obtain ⟨h, hh⟩ := hp
  exact (hL.seeded h p hh).2.2.1

theorem mem_halfArr_iff {m : Mesh VD HD FD} {emsk : Int → Bool} {L : Loops}
    (hL : LoopInv m emsk L) {p : Nat} (hp : L.Cur p) (h : Int) :
    h ∈ halfArrAt L.halfArr p ↔ getAt L.half2loop h = .ok (some p) :=
  ⟨fun hx => hL.own p hp h hx, fun hx => (hL.seeded h p hx).2.2.2⟩

theorem connectLoop_inv {m : Mesh VD HD FD} {emsk : Int → Bool} {epj : Int → Int → Frac}
    {L L1 : Loops} {p0 p1 : Nat} (hL : LoopInv m emsk L) (h0 : L.Cur p0) (h1 : L.Cur p1)
    (hc : connectLoop m epj L p0 p1 = .ok L1) :
    LoopInv m emsk L1 ∧ (∀ q, L1.Cur q ↔ L.Cur q ∧ q ≠ p1) ∧
      (∀ q, q ≠ p0 → halfArrAt L1.halfArr q = halfArrAt L.halfArr q) ∧
      (∀ q, q ≠ p0 → priorityAt L1.priority q = priorityAt L.priority q) := by
  obtain ⟨hne, ⟨b, f, hb, hf, hbf⟩, hA, ⟨pr, hP⟩, hS⟩ := connectLoop_spec hc
  obtain ⟨s1, s2, s3⟩ := setLoops_spec p0 _ hS
  have hlt0 : p0 < L.halfArr.length := cur_lt hL h0
  have harr0 : halfArrAt L1.halfArr p0 = halfArrAt L.halfArr p0 ++ halfArrAt L.halfArr p1 := by
    rw [hA, halfArrAt_set]
    simp [hlt0]
  have harr : ∀ q, q ≠ p0 → halfArrAt L1.halfArr q = halfArrAt L.halfArr q := by
    intro q hq
    rw [hA, halfArrAt_set]
    simp [hq]
  have hm1 := mem_halfArr_iff hL h1
  have hcur : ∀ q, L1.Cur q ↔ L.Cur q ∧ q ≠ p1 := by
    intro q
    constructor
    · rintro ⟨h, hh⟩
      by_cases hx : h ∈ halfArrAt L.halfArr p1
      · have := (s1 h hx).symm.trans hh
        simp only [Except.ok.injEq, Option.some.injEq] at this
        subst this
        exact ⟨h0, hne⟩
      · rw [s2 h hx] at hh
        refine ⟨⟨h, hh⟩, ?_⟩
        rintro rfl
        exact hx ((hm1 h).mpr hh)
    · rintro ⟨⟨h, hh⟩, hq⟩
      refine ⟨h, ?_⟩
      have hx : h ∉ halfArrAt L.halfArr p1 := by
        intro hx
        have := ((hm1 h).mp hx).symm.trans hh
        simp only [Except.ok.injEq, Option.some.injEq] at this
        exact hq this.symm
      rw [s2 h hx]
      exact hh
  refine ⟨⟨?_, ?_, ?_, ?_, ?_, ?_⟩, hcur, harr, ?_⟩
  · rw [hA, hP, List.length_set, List.length_set]
    exact hL.len
  · intro h hl hk
    obtain ⟨p, hp⟩ := hL.total h hl hk
    exact s3 h p hp
  · intro h p hh
    have hlen : L1.halfArr.length = L.halfArr.length := by rw [hA, List.length_set]
    by_cases hx : h ∈ halfArrAt L.halfArr p1
    · have := (s1 h hx).symm.trans hh
      simp only [Except.ok.injEq, Option.some.injEq] at this
      subst this
      obtain ⟨a, b2, -, -⟩ := hL.seeded h p1 ((hm1 h).mp hx)
      refine ⟨a, b2, by omega, ?_⟩
      rw [harr0]
      exact List.mem_append_right _ hx
    · rw [s2 h hx] at hh
      obtain ⟨a, b2, c, d⟩ := hL.seeded h p hh
      refine ⟨a, b2, by omega, ?_⟩
      by_cases hp : p = p0
      · subst hp
        rw [harr0]
        exact List.mem_append_left _ d
      · rw [harr p hp]
        exact d
  · intro p hp x hx
    obtain ⟨hp1, hp2⟩ := (hcur p).mp hp
    by_cases hxa : x ∈ halfArrAt L.halfArr p1
    · by_cases hpp : p = p0
      · subst hpp
        exact s1 x hxa
      · rw [harr p hpp] at hx
        have := ((hm1 x).mp hxa).symm.trans (hL.own p hp1 x hx)
        simp only [Except.ok.injEq, Option.some.injEq] at this
        exact absurd this.symm hp2
    · rw [s2 x hxa]
      by_cases hpp : p = p0
      · subst hpp
        rw [harr0] at hx
        rcases List.mem_append.mp hx with hx | hx
        · exact hL.own p hp1 x hx
        · exact absurd hx hxa
      · rw [harr p hpp] at hx
        exact hL.own p hp1 x hx
  · intro p hp
    obtain ⟨hp1, hp2⟩ := (hcur p).mp hp
    by_cases hpp : p = p0
    · subst hpp
      rw [harr0]
      refine List.Nodup.append (hL.nodup p hp1) (hL.nodup p1 h1) ?_
      intro x hx0 hx1
      have := (hL.own p hp1 x hx0).symm.trans (hL.own p1 h1 x hx1)
      simp only [Except.ok.injEq, Option.some.injEq] at this
      exact hne this
    · rw [harr p hpp]
      exact hL.nodup p hp1
  · intro p hp
    obtain ⟨hp1, hp2⟩ := (hcur p).mp hp
    by_cases hpp : p = p0
    · subst hpp
      unfold Mesh.Linked
      rw [harr0, List.chain'_append]
      refine ⟨hL.linked p hp1, hL.linked p1 h1, ?_⟩
      intro x hx y hy
      rw [hb] at hx
      rw [hf] at hy
      simp only [Option.mem_def, Option.some.injEq] at hx hy
      subst hx
      subst hy
      exact hbf
    · unfold Mesh.Linked
      rw [harr p hpp]
      exact hL.linked p hp1
  · intro q hq
    rw [hP, priorityAt_set]
    simp [hq]

theorem workInv_connect {m : Mesh VD HD FD} {emsk : Int → Bool} {epj : Int → Int → Frac}
    {w : Work} {L1 : Loops} {p0 p1 : Nat} (hw : WorkInv m emsk w)
    (h0 : w.loops.Cur p0) (h1 : w.loops.Cur p1) (hf0 : p0 ∉ w.faceLoopArr)
    (hf1 : p1 ∉ w.faceLoopArr) (hc : connectLoop m epj w.loops p0 p1 = .ok L1) :
    WorkInv m emsk ⟨L1, removeLoop p1 (removeLoop p0 w.list), w.faceLoopArr⟩ ∧ L1.Cur p0 := by
  obtain ⟨i1, i2, i3, i4⟩ := connectLoop_inv hw.loops h0 h1 hc
  have hne := (connectLoop_spec hc).1
  refine ⟨⟨i1, hw.faceNodup, ?_, ?_, ?_, ?_, ?_⟩, (i2 p0).mpr ⟨h0, hne⟩⟩
  · intro p hp
    exact (i2 p).mpr ⟨hw.faceCur p hp, fun e => hf1 (e ▸ hp)⟩
  · intro p hp
    show m.ClosedLoop (halfArrAt L1.halfArr p)
    rw [i3 p (fun e => hf0 (e ▸ hp))]
    exact hw.faceClosed p hp
  · intro p hp
    show priorityAt L1.priority p = 0
    rw [i4 p (fun e => hf0 (e ▸ hp))]
    exact hw.faceZero p hp
  · intro p hp
    obtain ⟨hp1, hp2⟩ := (mem_removeLoop _ _ _).mp hp
    obtain ⟨hp3, -⟩ := (mem_removeLoop _ _ _).mp hp1
    exact (i2 p).mpr ⟨hw.listCur p hp3, hp2⟩
  · intro p hp
    obtain ⟨hp1, -⟩ := (mem_removeLoop _ _ _).mp hp
    obtain ⟨hp3, -⟩ := (mem_removeLoop _ _ _).mp hp1
    exact hw.listOpen p hp3

theorem workInv_close {m : Mesh VD HD FD} {emsk : Int → Bool} {w : Work} {p : Nat}
    {l2 : List Nat} (hw : WorkInv m emsk w) (hp : w.loops.Cur p) (hf : p ∉ w.faceLoopArr)
    (hc : closedE m (halfArrAt w.loops.halfArr p) = .ok true)
    (hl : ∀ q ∈ l2, q ∈ w.list ∧ q ≠ p) :
    WorkInv m emsk ⟨⟨w.loops.halfArr, w.loops.priority.set p 0, w.loops.half2loop⟩, l2,
      w.faceLoopArr ++ [p]⟩ := by
  have hlt := cur_lt hw.loops hp
  refine ⟨⟨?_, hw.loops.total, hw.loops.seeded, hw.loops.own, hw.loops.nodup,
    hw.loops.linked⟩, ?_, ?_, ?_, ?_, ?_, ?_⟩
  · show (w.loops.priority.set p 0).length = w.loops.halfArr.length
    rw [List.length_set]
    exact hw.loops.len
  · show (w.faceLoopArr ++ [p]).Nodup
    refine List.Nodup.append hw.faceNodup (List.nodup_singleton p) ?_
    intro x hx hx2
    rw [List.mem_singleton] at hx2
    exact hf (hx2 ▸ hx)
  · intro q hq
    rcases List.mem_append.mp hq with hq | hq
    · exact hw.faceCur q hq
    · rw [List.mem_singleton] at hq
      exact hq ▸ hp
  · intro q hq
    rcases List.mem_append.mp hq with hq | hq
    · exact hw.faceClosed q hq
    · rw [List.mem_singleton] at hq
      subst hq
      exact closedE_true hc
  · intro q hq
    show priorityAt (w.loops.priority.set p 0) q = 0
    rw [priorityAt_set]
    rcases List.mem_append.mp hq with hq | hq
    · have hqp : q ≠ p := fun e => hf (e ▸ hq)
      simp only [hqp, false_and, if_false]
      exact hw.faceZero q hq
    · rw [List.mem_singleton] at hq
      have hlt2 : p < w.loops.priority.length := by
        rw [hw.loops.len]
        exact hlt
      simp [hq, hlt2]
  · intro q hq
    exact hw.listCur q (hl q hq).1
  · intro q hq hq2
    rcases List.mem_append.mp hq2 with hq2 | hq2
    · exact hw.listOpen q (hl q hq).1 hq2
    · rw [List.mem_singleton] at hq2
      exact (hl q hq).2 hq2

theorem workInv_insert {m : Mesh VD HD FD} {emsk : Int → Bool} {w : Work} {p : Nat}
    (hw : WorkInv m emsk w) (hp : w.loops.Cur p) (hf : p ∉ w.faceLoopArr) :
    WorkInv m emsk ⟨w.loops, insertIntoMasterList w.loops.priority p w.list,
      w.faceLoopArr⟩ := by
  refine ⟨hw.loops, hw.faceNodup, hw.faceCur, hw.faceClosed, hw.faceZero, ?_, ?_⟩
  · intro q hq
    rcases (mem_insertIntoMasterList _ _ _ _).mp hq with rfl | hq
    · exact hp
    · exact hw.listCur q hq
  · intro q hq
    rcases (mem_insertIntoMasterList _ _ _ _).mp hq with rfl | hq
    · exact hf
    · exact hw.listOpen q hq

theorem connectMove_inv {m : Mesh VD HD FD} {emsk : Int → Bool} {epj : Int → Int → Frac}
    {w : Work} {p0 p1 : Nat} {r : Int × Work} (hw : WorkInv m emsk w)
    (h0 : w.loops.Cur p0) (h1 : w.loops.Cur p1) (hf0 : p0 ∉ w.faceLoopArr)
    (hf1 : p1 ∉ w.faceLoopArr) (hc : connectMove m epj w p0 p1 = .ok r) :
    WorkInv m emsk r.2 ∧ (r.1 = 2 ∨ (r.1 = 1 ∧ r.2.faceLoopArr = w.faceLoopArr)) := by
  unfold connectMove at hc
  cases h2 : connectLoop m epj w.loops p0 p1 with
  | error e => simp [h2] at hc
  | ok L1 =>
    simp only [h2] at hc
    obtain ⟨i1, i2⟩ := workInv_connect hw h0 h1 hf0 hf1 h2
    unfold closeOrInsert at hc
    cases h3 : closedE m (halfArrAt L1.halfArr p0) with
    | error e => simp [h3] at hc
    | ok c =>
      cases c with
      | true =>
        simp only [h3, Except.ok.injEq] at hc
        subst hc
        refine ⟨?_, Or.inl rfl⟩
        refine workInv_close i1 i2 hf0 h3 ?_
        intro q hq
        obtain ⟨hq1, -⟩ := (mem_removeLoop _ _ _).mp hq
        obtain ⟨-, hq3⟩ := (mem_removeLoop _ _ _).mp hq1
        exact ⟨hq, hq3⟩
      | false =>
        simp only [h3, Except.ok.injEq] at hc
        subst hc
        exact ⟨workInv_insert i1 i2 hf0, Or.inr ⟨rfl, rfl⟩⟩

end SearchConnect
section SearchPasses

variable {VD HD FD : Type}

theorem passedOver_false {m : Mesh VD HD FD} {emsk : Int → Bool} {L : Loops} {endh endvh : Int}
    (h : passedOver m emsk L endh endvh = .ok false) :
    ∃ p, loopOf L.half2loop endvh = .ok p ∧ priorityAt L.priority p ≠ 0 := by
  unfold passedOver at h
  cases h1 : skipped m emsk endvh with
  | error e => simp [h1] at h
  | ok s =>
    cases s with
    | true => simp [h1] at h
    | false =>
      simp only [h1] at h
      cases h2 : oppositeE m endvh with
      | error e => simp [h2] at h
      | ok o =>
        simp only [h2] at h
        by_cases ho : o = endh
        · simp [ho] at h
        · simp only [ho, if_false] at h
          cases h3 : loopOf L.half2loop endvh with
          | error e => simp [h3] at h
          | ok p =>
            simp only [h3] at h
            by_cases hp : priorityAt L.priority p = 0
            · simp [hp] at h
            · exact ⟨p, rfl, hp⟩

theorem not_face_of_priority {m : Mesh VD HD FD} {emsk : Int → Bool} {w : Work}
    (hw : WorkInv m emsk w) {p : Nat} (hp : priorityAt w.loops.priority p ≠ 0) :
    p ∉ w.faceLoopArr :=
  fun h => hp (hw.faceZero p h)

theorem forceScan_spec {m : Mesh VD HD FD} {emsk : Int → Bool} {L : Loops} {endh : Int} :
    ∀ (hs : List Int) {s s2 : Option Nat × Nat}, forceScan m emsk L endh hs s = .ok s2 →
      (∀ p, s.1 = some p → L.Cur p ∧ priorityAt L.priority p ≠ 0) →
      ∀ p, s2.1 = some p → L.Cur p ∧ priorityAt L.priority p ≠ 0 := by
  intro hs
  induction hs with
  | nil =>
    intro s s2 hr hs
    simp only [forceScan, Except.ok.injEq] at hr
    subst hr
    exact hs
  | cons endvh rest ih =>
    intro s s2 hr hs
    unfold forceScan at hr
    cases h1 : passedOver m emsk L endh endvh with
    | error e => simp [h1] at hr
    | ok b =>
      cases b with
      | true =>
        simp only [h1] at hr
        exact ih hr hs
      | false =>
        simp only [h1] at hr
        obtain ⟨p, hp, hpr⟩ := passedOver_false h1
        simp only [hp] at hr
        have hnew : ∀ q, (if s.2 = 0 then some p else s.1) = some q →
            L.Cur q ∧ priorityAt L.priority q ≠ 0 := by
          intro q hq
          by_cases h0 : s.2 = 0
          · simp only [h0, if_true, Option.some.injEq] at hq
            subst hq
            exact ⟨⟨endvh, loopOf_eq_ok.mp hp⟩, hpr⟩
          · simp only [h0, if_false] at hq
            exact hs q hq
        by_cases hgt : s.2 + 1 > 1
        · simp only [hgt, if_true, Except.ok.injEq] at hr
          subst hr
          exact hnew
        · simp only [hgt, if_false] at hr
          exact ih hr hnew

theorem forceLoop_inv {m : Mesh VD HD FD} {emsk : Int → Bool} {epj : Int → Int → Frac}
    {w : Work} (hw : WorkInv m emsk w) : ∀ (l : List Nat) {r : Int × Work},
    (∀ q ∈ l, q ∈ w.list) → forceLoop m epj emsk w l = .ok r → WorkInv m emsk r.2 := by
  intro l
  induction l with
  | nil =>
    intro r _ hr
    simp only [forceLoop, Except.ok.injEq] at hr
    subst hr
    exact hw
  | cons loop rest ih =>
    intro r hl hr
    unfold forceLoop at hr
    cases h1 : (halfArrAt w.loops.halfArr loop).getLast? with
    | none => simp [h1] at hr
    | some endh =>
      simp only [h1] at hr
      cases h2 : toE m endh with
      | error e => simp [h2] at hr
      | ok endv =>
        simp only [h2] at hr
        cases h3 : halfedgesE m endv with
        | error e => simp [h3] at hr
        | ok hs =>
          simp only [h3] at hr
          cases h4 : forceScan m emsk w.loops endh hs (none, 0) with
          | error e => simp [h4] at hr
          | ok s =>
            simp only [h4] at hr
            by_cases h5 : s.2 ≠ 1
            · rw [if_pos h5] at hr
              exact ih (fun q hq => hl q (List.mem_cons_of_mem _ hq)) hr
            · rw [if_neg h5] at hr
              cases h6 : s.1 with
              | none => simp [h6] at hr
              | some nextLoop =>
                simp only [h6] at hr
                obtain ⟨c1, c2⟩ := forceScan_spec hs h4 (fun p hp => by cases hp) nextLoop h6
                have hin := hl loop (List.mem_cons_self _ _)
                exact (connectMove_inv hw (hw.listCur loop hin) c1 (hw.listOpen loop hin)
                  (not_face_of_priority hw c2) hr).1

theorem force_inv {m : Mesh VD HD FD} {emsk : Int → Bool} {epj : Int → Int → Frac}
    {w : Work} {r : Int × Work} (hw : WorkInv m emsk w)
    (hr : detectAndPerformForceConnectionOnce m epj emsk w = .ok r) : WorkInv m emsk r.2 :=
  forceLoop_inv hw w.list (fun _ hq => hq) hr

theorem mergeScan_spec {m : Mesh VD HD FD} {emsk : Int → Bool} {L : Loops} {loop : Nat}
    {endh : Int} : ∀ (hs : List Int) {p : Nat},
    mergeScan m emsk L loop endh hs = .ok (some p) →
      L.Cur p ∧ priorityAt L.priority p ≠ 0 := by
  intro hs
  induction hs with
  | nil =>
    intro p hr
    simp [mergeScan] at hr
  | cons endvh rest ih =>
    intro p hr
    unfold mergeScan at hr
    cases h1 : passedOver m emsk L endh endvh with
    | error e => simp [h1] at hr
    | ok b =>
      cases b with
      | true =>
        simp only [h1] at hr
        exact ih hr
      | false =>
        simp only [h1] at hr
        obtain ⟨p1, hp, hpr⟩ := passedOver_false h1
        simp only [hp] at hr
        cases h2 : (halfArrAt L.halfArr loop).head? with
        | none => simp [h2] at hr
        | some f =>
          cases h3 : (halfArrAt L.halfArr p1).getLast? with
          | none => simp [h2, h3] at hr
          | some b =>
            simp only [h2, h3] at hr
            cases h4 : fromE m f with
            | error e => simp [h4] at hr
            | ok vf =>
              simp only [h4] at hr
              cases h5 : toE m b with
              | error e => simp [h5] at hr
              | ok vb =>
                simp only [h5] at hr
                by_cases h6 : vf ≠ vb
                · rw [if_pos h6] at hr
                  exact ih hr
                · rw [if_neg h6] at hr
                  cases h7 : sameOppositeLoop m L loop p1 with
                  | error e => simp [h7] at hr
                  | ok c =>
                    cases c with
                    | true =>
                      simp only [h7] at hr
                      exact ih hr
                    | false =>
                      simp only [h7, Except.ok.injEq, Option.some.injEq] at hr
                      subst hr
                      exact ⟨⟨endvh, loopOf_eq_ok.mp hp⟩, hpr⟩

theorem closeLoop_inv {m : Mesh VD HD FD} {emsk : Int → Bool} {w : Work} {loop : Nat}
    (hw : WorkInv m emsk w) (hin : loop ∈ w.list)
    (hc : closedE m (halfArrAt w.loops.halfArr loop) = .ok true) :
    WorkInv m emsk (closeLoop w loop) :=
  workInv_close hw (hw.listCur loop hin) (hw.listOpen loop hin) hc
    (fun _ hq => (mem_removeLoop _ _ _).mp hq)

theorem mergeLoop_inv {m : Mesh VD HD FD} {emsk : Int → Bool} {epj : Int → Int → Frac}
    {w : Work} (hw : WorkInv m emsk w) : ∀ (l : List Nat) {r : Int × Work},
    (∀ q ∈ l, q ∈ w.list) → mergeLoop m epj emsk w l = .ok r → WorkInv m emsk r.2 := by
  intro l
  induction l with
  | nil =>
    intro r _ hr
    simp only [mergeLoop, Except.ok.injEq] at hr
    subst hr
    exact hw
  | cons loop rest ih =>
    intro r hl hr
    have hin := hl loop (List.mem_cons_self _ _)
    unfold mergeLoop at hr
    cases h0 : closedE m (halfArrAt w.loops.halfArr loop) with
    | error e => simp [h0] at hr
    | ok c =>
      cases c with
      | true =>
        simp only [h0, Except.ok.injEq] at hr
        subst hr
        exact closeLoop_inv hw hin h0
      | false =>
        simp only [h0] at hr
        cases h1 : (halfArrAt w.loops.halfArr loop).getLast? with
        | none => simp [h1] at hr
        | some endh =>
          simp only [h1] at hr
          cases h2 : toE m endh with
          | error e => simp [h2] at hr
          | ok endv =>
            simp only [h2] at hr
            cases h3 : halfedgesE m endv with
            | error e => simp [h3] at hr
            | ok hs =>
              simp only [h3] at hr
              cases h4 : mergeScan m emsk w.loops loop endh hs with
              | error e => simp [h4] at hr
              | ok o =>
                cases o with
                | none =>
                  simp only [h4] at hr
                  exact ih (fun q hq => hl q (List.mem_cons_of_mem _ hq)) hr
                | some loop1 =>
                  simp only [h4] at hr
                  obtain ⟨c1, c2⟩ := mergeScan_spec hs h4
                  cases h5 : connectLoop m epj w.loops loop loop1 with
                  | error e => simp [h5] at hr
                  | ok L1 =>
                    simp only [h5] at hr
                    obtain ⟨i1, i2⟩ := workInv_connect hw (hw.listCur loop hin) c1
                      (hw.listOpen loop hin) (not_face_of_priority hw c2) h5
                    cases h6 : closedE m (halfArrAt L1.halfArr loop) with
                    | error e => simp [h6] at hr
                    | ok c =>
                      cases c with
                      | false => simp [h6] at hr
                      | true =>
                        simp only [h6, Except.ok.injEq] at hr
                        subst hr
                        refine workInv_close i1 i2 (hw.listOpen loop hin) h6 ?_
                        intro q hq
                        obtain ⟨hq1, -⟩ := (mem_removeLoop _ _ _).mp hq
                        obtain ⟨-, hq3⟩ := (mem_removeLoop _ _ _).mp hq1
                        exact ⟨hq, hq3⟩

theorem merge_inv {m : Mesh VD HD FD} {emsk : Int → Bool} {epj : Int → Int → Frac}
    {w : Work} {r : Int × Work} (hw : WorkInv m emsk w)
    (hr : detectAndPerformMergeOnce m epj emsk w = .ok r) : WorkInv m emsk r.2 :=
  mergeLoop_inv hw w.list (fun _ hq => hq) hr

theorem lastOrLong_mem (halfArr : List (List Int)) : ∀ (l : List Nat) (cur : Nat),
    lastOrLong halfArr l cur = cur ∨ lastOrLong halfArr l cur ∈ l := by
  intro l
  induction l with
  | nil => intro cur; exact Or.inl rfl
  | cons a rest ih =>
    intro cur
    unfold lastOrLong
    split
    · exact Or.inr (List.mem_cons_self _ _)
    · rcases ih a with h | h
      · rw [h]
        exact Or.inr (List.mem_cons_self _ _)
      · exact Or.inr (List.mem_cons_of_mem _ h)

theorem bestScan_spec {m : Mesh VD HD FD} {emsk : Int → Bool} {epj : Int → Int → Frac}
    {L : Loops} {loop : Nat} {endh : Int} :
    ∀ (hs : List Int) {s s2 : Int × Frac × Option Nat},
      bestScan m epj emsk L loop endh hs s = .ok s2 →
      (∀ p, s.2.2 = some p → L.Cur p ∧ priorityAt L.priority p ≠ 0) →
      ∀ p, s2.2.2 = some p → L.Cur p ∧ priorityAt L.priority p ≠ 0 := by
  intro hs
  induction hs with
  | nil =>
    intro s s2 hr hs
    simp only [bestScan, Except.ok.injEq] at hr
    subst hr
    exact hs
  | cons endvh rest ih =>
    intro s s2 hr hs
    unfold bestScan at hr
    cases h1 : passedOver m emsk L endh endvh with
    | error e => simp [h1] at hr
    | ok b =>
      cases b with
      | true =>
        simp only [h1] at hr
        exact ih hr hs
      | false =>
        simp only [h1] at hr
        obtain ⟨p1, hp, hpr⟩ := passedOver_false h1
        simp only [hp] at hr
        cases h7 : sameOppositeLoop m L loop p1 with
        | error e => simp [h7] at hr
        | ok c =>
          cases c with
          | true =>
            simp only [h7] at hr
            exact ih hr hs
          | false =>
            simp only [h7] at hr
            split at hr
            · refine ih hr ?_
              intro q hq
              simp only [Option.some.injEq] at hq
              subst hq
              exact ⟨⟨endvh, loopOf_eq_ok.mp hp⟩, hpr⟩
            · exact ih hr hs

theorem best_inv {m : Mesh VD HD FD} {emsk : Int → Bool} {epj : Int → Int → Frac}
    {w : Work} {r : Int × Work} (hw : WorkInv m emsk w)
    (hr : performBestMergeOnce m epj emsk w = .ok r) : WorkInv m emsk r.2 := by
  unfold performBestMergeOnce at hr
  cases hl : w.list with
  | nil =>
    simp only [hl, Except.ok.injEq] at hr
    subst hr
    exact hw
  | cons front rest =>
    simp only [hl] at hr
    have hin : (if (halfArrAt w.loops.halfArr
        (lastOrLong w.loops.halfArr (front :: rest) front)).length = 1 then front
        else lastOrLong w.loops.halfArr (front :: rest) front) ∈ w.list := by
      rw [hl]
      split
      · exact List.mem_cons_self _ _
      · rcases lastOrLong_mem w.loops.halfArr (front :: rest) front with h | h
        · rw [h]
          exact List.mem_cons_self _ _
        · exact h
    generalize (if (halfArrAt w.loops.halfArr
        (lastOrLong w.loops.halfArr (front :: rest) front)).length = 1 then front
        else lastOrLong w.loops.halfArr (front :: rest) front) = loop at hr hin
    cases h0 : closedE m (halfArrAt w.loops.halfArr loop) with
    | error e => simp [h0] at hr
    | ok c =>
      cases c with
      | true =>
        simp only [h0, Except.ok.injEq] at hr
        subst hr
        exact closeLoop_inv hw hin h0
      | false =>
        simp only [h0] at hr
        cases h1 : (halfArrAt w.loops.halfArr loop).getLast? with
        | none => simp [h1] at hr
        | some endh =>
          simp only [h1] at hr
          cases h2 : toE m endh with
          | error e => simp [h2] at hr
          | ok endv =>
            simp only [h2] at hr
            cases h3 : halfedgesE m endv with
            | error e => simp [h3] at hr
            | ok hs =>
              simp only [h3] at hr
              cases h4 : bestScan m epj emsk w.loops loop endh hs
                  (Handle.none, ⟨-1, 1⟩, none) with
              | error e => simp [h4] at hr
              | ok s =>
                simp only [h4] at hr
                split at hr
                · simp only [Except.ok.injEq] at hr
                  subst hr
                  exact hw
                · cases h6 : s.2.2 with
                  | none => simp [h6] at hr
                  | some bestLoop1 =>
                    simp only [h6] at hr
                    obtain ⟨c1, c2⟩ := bestScan_spec hs h4 (fun p hp => by cases hp)
                      bestLoop1 h6
                    exact (connectMove_inv hw (hw.listCur loop hin) c1 (hw.listOpen loop hin)
                      (not_face_of_priority hw c2) hr).1

end SearchPasses
section SearchWorkflow

variable {VD HD FD : Type}

theorem workInv_nil {m : Mesh VD HD FD} {emsk : Int → Bool} {w : Work}
    (hw : WorkInv m emsk w) : WorkInv m emsk ⟨w.loops, [], w.faceLoopArr⟩ :=
  ⟨hw.loops, hw.faceNodup, hw.faceCur, hw.faceClosed, hw.faceZero,
    fun _ hp => absurd hp (List.not_mem_nil _), fun _ hp => absurd hp (List.not_mem_nil _)⟩

theorem workflowStep_inv {m : Mesh VD HD FD} {emsk : Int → Bool} {epj : Int → Int → Frac}
    {l : Label} {s : Search} {r : Label × Search} (hs : SearchInv m emsk l s)
    (hr : workflowStep m epj emsk l s = .ok r) : SearchInv m emsk r.1 r.2 := by
  cases l with
  | End =>
    simp only [workflowStep, Except.ok.injEq] at hr
    subst hr
    exact hs
  | TopForce =>
    simp only [workflowStep] at hr
    split at hr
    · simp only [Except.ok.injEq] at hr
      subst hr
      exact workInv_nil hs
    · cases h1 : detectAndPerformForceConnectionOnce m epj emsk
          ⟨s.loops, s.masterList, s.faceLoopArr⟩ with
      | error e => simp [h1] at hr
      | ok r1 =>
        simp only [h1, Except.ok.injEq] at hr
        subst hr
        have := force_inv hs h1
        by_cases h0 : r1.1 = 0
        · simp only [h0, if_true]
          exact this
        · simp only [h0, if_false]
          exact this
  | TopMerge =>
    simp only [workflowStep] at hr
    split at hr
    · simp only [Except.ok.injEq] at hr
      subst hr
      exact workInv_nil hs
    · cases h1 : detectAndPerformMergeOnce m epj emsk
          ⟨s.loops, s.masterList, s.faceLoopArr⟩ with
      | error e => simp [h1] at hr
      | ok r1 =>
        simp only [h1] at hr
        have := merge_inv hs h1
        split at hr
        · simp only [Except.ok.injEq] at hr
          subst hr
          exact this
        · simp only [Except.ok.injEq] at hr
          subst hr
          exact this
  | SubMatting =>
    simp only [workflowStep] at hr
    split at hr
    · simp only [Except.ok.injEq] at hr
      subst hr
      exact workInv_nil hs
    · cases h1 : performBestMergeOnce m epj emsk
          ⟨s.loops, s.workingCopy, s.faceLoopArr⟩ with
      | error e => simp [h1] at hr
      | ok r1 =>
        simp only [h1] at hr
        have := best_inv hs h1
        split at hr
        · simp only [Except.ok.injEq] at hr
          subst hr
          exact this
        · simp only [Except.ok.injEq] at hr
          subst hr
          exact this
  | SubForce =>
    simp only [workflowStep] at hr
    split at hr
    · simp only [Except.ok.injEq] at hr
      subst hr
      exact workInv_nil hs
    · cases h1 : detectAndPerformForceConnectionOnce m epj emsk
          ⟨s.loops, s.workingCopy, s.faceLoopArr⟩ with
      | error e => simp [h1] at hr
      | ok r1 =>
        simp only [h1] at hr
        have := force_inv hs h1
        split at hr
        · simp only [Except.ok.injEq] at hr
          subst hr
          exact this
        · simp only [Except.ok.injEq] at hr
          subst hr
          by_cases h0 : r1.1 = 0
          · simp only [h0, if_true]
            exact this
          · simp only [h0, if_false]
            exact this
  | SubMerge =>
    simp only [workflowStep] at hr
    split at hr
    · simp only [Except.ok.injEq] at hr
      subst hr
      exact workInv_nil hs
    · cases h1 : detectAndPerformMergeOnce m epj emsk
          ⟨s.loops, s.workingCopy, s.faceLoopArr⟩ with
      | error e => simp [h1] at hr
      | ok r1 =>
        simp only [h1] at hr
        have := merge_inv hs h1
        split at hr
        · simp only [Except.ok.injEq] at hr
          subst hr
          exact this
        · simp only [Except.ok.injEq] at hr
          subst hr
          exact this

theorem workflow_inv {m : Mesh VD HD FD} {emsk : Int → Bool} {epj : Int → Int → Frac} :
    ∀ (fuel : Nat) {l : Label} {s s2 : Search}, SearchInv m emsk l s →
      workflow m epj emsk fuel l s = .ok (some s2) →
      WorkInv m emsk ⟨s2.loops, [], s2.faceLoopArr⟩ := by
  intro fuel
  induction fuel with
  | zero =>
    intro l s s2 hs hr
    cases l <;> simp only [workflow, Except.ok.injEq, Option.some.injEq] at hr <;>
      first
      | exact absurd hr (by simp)
      | (subst hr; exact hs)
  | succ n ih =>
    intro l s s2 hs hr
    by_cases hl : l = .End
    · subst hl
      simp only [workflow, Except.ok.injEq, Option.some.injEq] at hr
      subst hr
      exact hs
    · have hstep : workflow m epj emsk (n + 1) l s =
          match workflowStep m epj emsk l s with
          | .error e => .error e
          | .ok r => workflow m epj emsk n r.1 r.2 := by
        cases l <;> first | rfl | exact absurd rfl hl
      rw [hstep] at hr
      cases h1 : workflowStep m epj emsk l s with
      | error e => simp [h1] at hr
      | ok r =>
        simp only [h1] at hr
        exact ih (workflowStep_inv hs h1) hr

end SearchWorkflow
section SearchSeed

variable {VD HD FD : Type}

theorem halfArrAt_append_left (l : List (List Int)) (a : List Int) {p : Nat}
    (hp : p < l.length) : halfArrAt (l ++ [a]) p = halfArrAt l p := by
  unfold halfArrAt
  rw [List.getD_eq_getElem?_getD, List.getD_eq_getElem?_getD, List.getElem?_append_left hp]

theorem halfArrAt_append_self (l : List (List Int)) (a : List Int) :
    halfArrAt (l ++ [a]) l.length = a := by
  unfold halfArrAt
  rw [List.getD_eq_getElem?_getD]
  simp

theorem seedInv_nil (m : Mesh VD HD FD) (emsk : Int → Bool) : SeedInv m emsk 0 ⟨[], [], []⟩ :=
  ⟨rfl, rfl, fun h hh => absurd hh (Nat.not_lt_zero _), fun h p hp => by
    simp [getAt] at hp⟩

theorem seedLoops_spec {m : Mesh VD HD FD} (hwf : m.WF) (emsk : Int → Bool) :
    ∀ (rest pre : List (Triplet HalfTopo HD)) (L : Loops), m.halfs = pre ++ rest →
      SeedInv m emsk pre.length L →
      SeedInv m emsk m.halfs.length (seedLoops emsk rest pre.length L) := by
  intro rest
  induction rest with
  | nil =>
    intro pre L hm hL
    have : m.halfs.length = pre.length := by rw [hm]; simp
    rw [this]
    exact hL
  | cons t rest ih =>
    intro pre L hm hL
    have hm2 : m.halfs = (pre ++ [t]) ++ rest := by rw [hm]; simp
    have hlen2 : (pre ++ [t]).length = pre.length + 1 := by simp
    have ht : getAt m.halfs (pre.length : Int) = .ok t := by
      rw [hm]
      have h1 : getAt (pre ++ [t]) (pre.length : Int) = .ok t := getAt_snoc_self pre t
      have h2 : getAt ((pre ++ [t]) ++ rest) (pre.length : Int) = .ok t :=
        getAt_append_left h1
      rwa [List.append_assoc] at h2
    unfold seedLoops
    by_cases hskip : (!t.exists_ || !emsk (pre.length : Int)) = true
    · rw [if_pos hskip]
      have := ih (pre ++ [t]) { L with half2loop := L.half2loop ++ [none] } hm2
      rw [hlen2] at this
      apply this
      refine ⟨hL.len, ?_, ?_, ?_⟩
      · show (L.half2loop ++ [none]).length = pre.length + 1
        rw [List.length_append, hL.size]
        rfl
      · intro h hlt hlive hmask
        obtain ⟨th, hth, hex⟩ := liveIn_eq_true.mp hlive
        have h0 := (getAt_lt_length hth).1
        by_cases hh : h.toNat < pre.length
        · obtain ⟨p, hp⟩ := hL.total h hh hlive hmask
          exact ⟨p, getAt_append_left hp⟩
        · have he : h = (pre.length : Int) := by omega
          subst he
          rw [ht] at hth
          simp only [Except.ok.injEq] at hth
          subst hth
          simp [hex, hmask] at hskip
      · intro h p hp
        rcases getAt_append_cases hp with h1 | ⟨h1, h2⟩
        · exact hL.seeded h p h1
        · obtain ⟨h3, h4⟩ := getAt_lt_length h2
          simp only [List.length_singleton, Nat.cast_one] at h4
          have he : h - (L.half2loop.length : Int) = 0 := by omega
          rw [he] at h2
          simp [getAt] at h2
    · rw [if_neg hskip]
      simp only [Bool.or_eq_true, Bool.not_eq_true', not_or, Bool.not_eq_false] at hskip
      have := ih (pre ++ [t]) ⟨L.halfArr ++ [[t.topo.hd]], L.priority ++ [PRIORITY_INIT],
        L.half2loop ++ [some L.halfArr.length]⟩ hm2
      rw [hlen2] at this
      apply this
      have hhd : t.topo.hd = (pre.length : Int) := hwf.halfHd _ t ht
      have hlive : liveIn m.halfs (pre.length : Int) = true :=
        liveIn_eq_true.mpr ⟨t, ht, hskip.1⟩
      refine ⟨?_, ?_, ?_, ?_⟩
      · show (L.priority ++ [PRIORITY_INIT]).length = (L.halfArr ++ [[t.topo.hd]]).length
        rw [List.length_append, List.length_append, hL.len]
        rfl
      · show (L.half2loop ++ [some L.halfArr.length]).length = pre.length + 1
        rw [List.length_append, hL.size]
        rfl
      · intro h hlt hl hmask
        obtain ⟨th, hth, hex⟩ := liveIn_eq_true.mp hl
        have h0 := (getAt_lt_length hth).1
        by_cases hh : h.toNat < pre.length
        · obtain ⟨p, hp⟩ := hL.total h hh hl hmask
          exact ⟨p, getAt_append_left hp⟩
        · have he : h = (pre.length : Int) := by omega
          subst he
          refine ⟨L.halfArr.length, ?_⟩
          have h5 := getAt_snoc_self L.half2loop (some L.halfArr.length)
          rw [hL.size] at h5
          exact h5
      · intro h p hp
        show _ ∧ _ ∧ p < (L.halfArr ++ [[t.topo.hd]]).length ∧
          halfArrAt (L.halfArr ++ [[t.topo.hd]]) p = [h]
        rw [List.length_append]
        rcases getAt_append_cases hp with h1 | ⟨h1, h2⟩
        · obtain ⟨a, b, c, d⟩ := hL.seeded h p h1
          refine ⟨a, b, by omega, ?_⟩
          rw [halfArrAt_append_left _ _ c]
          exact d
        · obtain ⟨h3, h4⟩ := getAt_lt_length h2
          simp only [List.length_singleton, Nat.cast_one] at h4
          have he : h - (L.half2loop.length : Int) = 0 := by omega
          rw [he] at h2
          simp only [getAt, lt_self_iff_false, if_false, Int.toNat_zero, List.length_singleton,
            Nat.lt_one_iff, List.getElem?_eq_getElem, List.getElem_cons_zero,
            Except.ok.injEq, Option.some.injEq] at h2
          subst h2
          have hh : h = (pre.length : Int) := by
            rw [hL.size] at he
            omega
          subst hh
          refine ⟨hlive, hskip.2, by simp, ?_⟩
          rw [halfArrAt_append_self, hhd]

theorem seedInv_priority {m : Mesh VD HD FD} {emsk : Int → Bool} {i : Nat} {L : Loops}
    (hL : SeedInv m emsk i L) {pr : List Int} (hpr : pr.length = L.priority.length) :
    SeedInv m emsk i ⟨L.halfArr, pr, L.half2loop⟩ :=
  ⟨hpr.trans hL.len, hL.size, hL.total, hL.seeded⟩

theorem loopInv_of_seed {m : Mesh VD HD FD} {emsk : Int → Bool} {L : Loops}
    (hL : SeedInv m emsk m.halfs.length L) : LoopInv m emsk L := by
  refine ⟨hL.len, ?_, ?_, ?_, ?_, ?_⟩
  · intro h hl hk
    obtain ⟨t, ht, -⟩ := liveIn_eq_true.mp hl
    obtain ⟨h0, hlt⟩ := getAt_lt_length ht
    exact hL.total h (by omega) hl hk
  · intro h p hp
    obtain ⟨a, b, c, d⟩ := hL.seeded h p hp
    exact ⟨a, b, c, by rw [d]; exact List.mem_singleton_self h⟩
  · rintro p ⟨h, hh⟩ x hx
    rw [(hL.seeded h p hh).2.2.2, List.mem_singleton] at hx
    rw [hx]
    exact hh
  · rintro p ⟨h, hh⟩
    rw [(hL.seeded h p hh).2.2.2]
    exact List.nodup_singleton h
  · rintro p ⟨h, hh⟩
    unfold Mesh.Linked
    rw [(hL.seeded h p hh).2.2.2]
    exact List.chain'_singleton h

theorem mem_foldl_insert (pr : List Int) : ∀ (l acc : List Nat) (q : Nat),
    q ∈ l.foldl (fun a p => insertIntoMasterList pr p a) acc → q ∈ acc ∨ q ∈ l := by
  intro l
  induction l with
  | nil => intro acc q hq; exact Or.inl hq
  | cons a rest ih =>
    intro acc q hq
    rw [List.foldl_cons] at hq
    rcases ih _ q hq with h | h
    · rcases (mem_insertIntoMasterList _ _ _ _).mp h with rfl | h
      · exact Or.inr (List.mem_cons_self _ _)
      · exact Or.inl h
    · exact Or.inr (List.mem_cons_of_mem _ h)

theorem mem_sortMasterList {L : Loops} {q : Nat} (hq : q ∈ sortMasterList L) : L.Cur q := by
  unfold sortMasterList at hq
  rcases mem_foldl_insert _ _ _ _ hq with h | h
  · exact absurd h (List.not_mem_nil _)
  · rw [List.mem_filterMap] at h
    obtain ⟨o, ho, hoq⟩ := h
    simp only [id_eq] at hoq
    subst hoq
    exact mem_iff_getAt.mp ho

theorem workInv_start {m : Mesh VD HD FD} {emsk : Int → Bool} {L : Loops}
    (hL : SeedInv m emsk m.halfs.length L) : WorkInv m emsk ⟨L, sortMasterList L, []⟩ :=
  ⟨loopInv_of_seed hL, List.nodup_nil, fun _ hp => absurd hp (List.not_mem_nil _),
    fun _ hp => absurd hp (List.not_mem_nil _), fun _ hp => absurd hp (List.not_mem_nil _),
    fun _ hp => mem_sortMasterList hp, fun _ _ hp => absurd hp (List.not_mem_nil _)⟩

end SearchSeed
section SearchTriangle

variable {VD HD FD : Type}

theorem toE_eq {m : Mesh VD HD FD} {h v : Int} (hv : toE m h = .ok v) : m.toOf h = v := by
  unfold toE at hv
  cases hg : getAt m.halfs h with
  | error e => simp [hg] at hv
  | ok t =>
    simp only [hg, Except.ok.injEq] at hv
    rw [toOf_eq hg, hv]

theorem skipped_false {m : Mesh VD HD FD} {emsk : Int → Bool} {h : Int}
    (hs : skipped m emsk h = .ok false) : liveIn m.halfs h = true ∧ emsk h = true := by
  unfold skipped at hs
  cases hr : m.removedHalf h with
  | error e => simp [hr] at hs
  | ok r =>
    simp only [hr, Except.ok.injEq, Bool.or_eq_false_iff, Bool.not_eq_false'] at hs
    obtain ⟨t, ht, hb⟩ := removedHalf_eq_ok.mp hr
    refine ⟨liveIn_eq_true.mpr ⟨t, ht, ?_⟩, hs.2⟩
    rw [hs.1] at hb
    simpa using hb.symm

theorem opposite_ends {m : Mesh VD HD FD} (hwf : m.WF) {h o : Int}
    (hl : liveIn m.halfs h = true) (ho : oppositeE m h = .ok o) :
    m.fromOf o = m.toOf h ∧ m.toOf o = m.fromOf h := by
  obtain ⟨t, t2, ht, ht2, -, -, h1, h2⟩ := wf_live_pair hwf hl
  unfold oppositeE at ho
  simp only [ht, Except.ok.injEq] at ho
  subst ho
  rw [fromOf_eq ht2, toOf_eq ht2, toOf_eq ht, fromOf_eq ht]
  exact ⟨h1, h2⟩

theorem setPriorities_spec {l : List (Option Nat)} {v : Int} :
    ∀ (hs : List Int) {pr pr2 : List Int}, setPriorities l v hs pr = .ok pr2 →
      pr2.length = pr.length ∧ ∀ x ∈ hs, ∃ p, getAt l x = .ok (some p) := by
  intro hs
  induction hs with
  | nil =>
    intro pr pr2 hr
    simp only [setPriorities, Except.ok.injEq] at hr
    subst hr
    exact ⟨rfl, fun x hx => absurd hx (List.not_mem_nil _)⟩
  | cons h rest ih =>
    intro pr pr2 hr
    unfold setPriorities at hr
    cases h1 : setPriorityOf l pr h v with
    | error e => simp [h1] at hr
    | ok pr1 =>
      simp only [h1] at hr
      obtain ⟨i1, i2⟩ := ih hr
      unfold setPriorityOf at h1
      cases h2 : loopOf l h with
      | error e => simp [h2] at h1
      | ok p =>
        simp only [h2] at h1
        refine ⟨i1.trans (modifyAt_length h1), ?_⟩
        intro x hx
        rcases List.mem_cons.mp hx with rfl | hx
        · exact ⟨p, loopOf_eq_ok.mp h2⟩
        · exact i2 x hx

theorem triLoopH3_spec {m : Mesh VD HD FD} (hwf : m.WF) {emsk : Int → Bool}
    {l : List (Option Nat)} {n : Nat} {h1 h2 h2to : Int} (hl2 : liveIn m.halfs h2 = true)
    (hto2 : m.toOf h2 = h2to) (hfrom : m.fromOf h1 = m.fromOf h2) :
    ∀ (cands : List Int) {s s2 : List Int × Option (Int × Int × Int)},
      (∀ x ∈ cands, liveIn m.halfs x = true → m.fromOf x = m.toOf h1) →
      triLoopH3 m emsk l h1 h2 h2to cands s = .ok s2 →
      (s.1.length = n ∧ ∀ t, s.2 = some t → TriOK m l t) →
      s2.1.length = n ∧ ∀ t, s2.2 = some t → TriOK m l t := by
  intro cands
  induction cands with
  | nil =>
    intro s s2 _ hr hs
    simp only [triLoopH3, Except.ok.injEq] at hr
    subst hr
    exact hs
  | cons c rest ih =>
    intro s s2 hc hr hs
    have hc2 : ∀ x ∈ rest, liveIn m.halfs x = true → m.fromOf x = m.toOf h1 :=
      fun x hx => hc x (List.mem_cons_of_mem _ hx)
    unfold triLoopH3 at hr
    cases h3 : skipped m emsk c with
    | error e => simp [h3] at hr
    | ok b =>
      cases b with
      | true =>
        simp only [h3] at hr
        exact ih hc2 hr hs
      | false =>
        simp only [h3] at hr
        have hlc := (skipped_false h3).1
        cases h4 : toE m c with
        | error e => simp [h4] at hr
        | ok cto =>
          simp only [h4] at hr
          by_cases he : h2to = cto
          · rw [if_pos he] at hr
            cases h5 : oppositeE m h1 with
            | error e => simp [h5] at hr
            | ok h1op =>
              simp only [h5] at hr
              cases h6 : oppositeE m h2 with
              | error e => simp [h6] at hr
              | ok h2op =>
                simp only [h6] at hr
                cases h7 : oppositeE m c with
                | error e => simp [h7] at hr
                | ok h3op =>
                  simp only [h7] at hr
                  cases h8 : setPriorities l PRIORITY_TRI_LOOP [h1, h2, c, h1op, h2op, h3op]
                      s.1 with
                  | error e => simp [h8] at hr
                  | ok pr1 =>
                    simp only [h8] at hr
                    obtain ⟨j1, j2⟩ := setPriorities_spec _ h8
                    obtain ⟨o1, o2⟩ := opposite_ends hwf hl2 h6
                    refine ih hc2 hr ⟨j1.trans hs.1, ?_⟩
                    intro t ht
                    simp only [Option.some.injEq] at ht
                    subst ht
                    refine ⟨?_, ?_, ?_, ?_⟩
                    · intro x hx
                      apply j2 x
                      simp only [List.mem_cons, List.mem_singleton, List.not_mem_nil,
                        or_false] at hx ⊢
                      rcases hx with rfl | rfl | rfl
                      · exact Or.inl rfl
                      · exact Or.inr (Or.inr (Or.inl rfl))
                      · exact Or.inr (Or.inr (Or.inr (Or.inr (Or.inl rfl))))
                    · exact (hc c (List.mem_cons_self _ _) hlc).symm
                    · show m.toOf c = m.fromOf h2op
                      rw [o1, toE_eq h4, hto2, he]
                    · show m.toOf h2op = m.fromOf h1
                      rw [o2, hfrom]
          · rw [if_neg he] at hr
            exact ih hc2 hr hs

theorem triLoopJ_spec {m : Mesh VD HD FD} (hwf : m.WF) {emsk : Int → Bool}
    {l : List (Option Nat)} {n : Nat} {i : Nat} {h1 : Int} {h3cands : List Int}
    (hc : ∀ x ∈ h3cands, liveIn m.halfs x = true → m.fromOf x = m.toOf h1) :
    ∀ (rest : List Int) (j : Nat) {s s2 : List Int × Option (Int × Int × Int)},
      (∀ x ∈ rest, liveIn m.halfs x = true → m.fromOf x = m.fromOf h1) →
      triLoopJ m emsk l i h1 h3cands j rest s = .ok s2 →
      (s.1.length = n ∧ ∀ t, s.2 = some t → TriOK m l t) →
      s2.1.length = n ∧ ∀ t, s2.2 = some t → TriOK m l t := by
  intro rest
  induction rest with
  | nil =>
    intro j s s2 _ hr hs
    simp only [triLoopJ, Except.ok.injEq] at hr
    subst hr
    exact hs
  | cons h2 rest ih =>
    intro j s s2 hf hr hs
    have hf2 : ∀ x ∈ rest, liveIn m.halfs x = true → m.fromOf x = m.fromOf h1 :=
      fun x hx => hf x (List.mem_cons_of_mem _ hx)
    unfold triLoopJ at hr
    by_cases hij : i = j
    · rw [if_pos hij] at hr
      exact ih _ hf2 hr hs
    · rw [if_neg hij] at hr
      cases h3 : skipped m emsk h2 with
      | error e => simp [h3] at hr
      | ok b =>
        cases b with
        | true =>
          simp only [h3] at hr
          exact ih _ hf2 hr hs
        | false =>
          simp only [h3] at hr
          have hl2 := (skipped_false h3).1
          cases h4 : toE m h2 with
          | error e => simp [h4] at hr
          | ok h2to =>
            simp only [h4] at hr
            cases h5 : triLoopH3 m emsk l h1 h2 h2to h3cands s with
            | error e => simp [h5] at hr
            | ok s1 =>
              simp only [h5] at hr
              exact ih _ hf2 hr (triLoopH3_spec hwf hl2 (toE_eq h4)
                (hf h2 (List.mem_cons_self _ _) hl2).symm h3cands hc h5 hs)

theorem halfedgesE_from {m : Mesh VD HD FD} (hwf : m.WF) {v : Int} {hs : List Int}
    (hv : halfedgesE m v = .ok hs) :
    ∀ x ∈ hs, liveIn m.halfs x = true → m.fromOf x = v := by
  unfold halfedgesE at hv
  cases hg : getAt m.verts v with
  | error e => simp [hg] at hv
  | ok vt =>
    simp only [hg, Except.ok.injEq] at hv
    subst hv
    intro x hx hl
    obtain ⟨t, ht, hex⟩ := liveIn_eq_true.mp hl
    rw [fromOf_eq ht]
    exact hwf.listFrom v vt hg x hx t ht hex

theorem triLoopI_spec {m : Mesh VD HD FD} (hwf : m.WF) {emsk : Int → Bool}
    {l : List (Option Nat)} {n : Nat} {halfedges : List Int} {v : Int}
    (hv : ∀ x ∈ halfedges, liveIn m.halfs x = true → m.fromOf x = v) :
    ∀ (rest : List Int) (i : Nat) {s s2 : List Int × Option (Int × Int × Int)},
      (∀ x ∈ rest, x ∈ halfedges) →
      triLoopI m emsk l halfedges i rest s = .ok s2 →
      (s.1.length = n ∧ ∀ t, s.2 = some t → TriOK m l t) →
      s2.1.length = n ∧ ∀ t, s2.2 = some t → TriOK m l t := by
  intro rest
  induction rest with
  | nil =>
    intro i s s2 _ hr hs
    simp only [triLoopI, Except.ok.injEq] at hr
    subst hr
    exact hs
  | cons h1 rest ih =>
    intro i s s2 hin hr hs
    have hin2 : ∀ x ∈ rest, x ∈ halfedges := fun x hx => hin x (List.mem_cons_of_mem _ hx)
    unfold triLoopI at hr
    cases h3 : skipped m emsk h1 with
    | error e => simp [h3] at hr
    | ok b =>
      cases b with
      | true =>
        simp only [h3] at hr
        exact ih _ hin2 hr hs
      | false =>
        simp only [h3] at hr
        have hl1 := (skipped_false h3).1
        cases h4 : toE m h1 with
        | error e => simp [h4] at hr
        | ok h1to =>
          simp only [h4] at hr
          cases h5 : halfedgesE m h1to with
          | error e => simp [h5] at hr
          | ok h3cands =>
            simp only [h5] at hr
            cases h6 : getPriorityOf l s.1 h1 with
            | error e => simp [h6] at hr
            | ok p =>
              simp only [h6] at hr
              split at hr
              · exact ih _ hin2 hr hs
              · cases h7 : triLoopJ m emsk l i h1 h3cands 0 halfedges s with
                | error e => simp [h7] at hr
                | ok s1 =>
                  simp only [h7] at hr
                  have hfrom1 : m.fromOf h1 = v := hv h1 (hin h1 (List.mem_cons_self _ _)) hl1
                  have hc : ∀ x ∈ h3cands, liveIn m.halfs x = true → m.fromOf x = m.toOf h1 := by
                    intro x hx hlx
                    rw [toE_eq h4]
                    exact halfedgesE_from hwf h5 x hx hlx
                  exact ih _ hin2 hr (triLoopJ_spec hwf hc halfedges 0
                    (fun x hx hlx => (hv x hx hlx).trans hfrom1.symm) h7 hs)

theorem triLoopV_spec {m : Mesh VD HD FD} (hwf : m.WF) {emsk : Int → Bool}
    {l : List (Option Nat)} {n : Nat} :
    ∀ (vs : List (Triplet VertTopo VD)) {s s2 : List Int × Option (Int × Int × Int)},
      (∀ v ∈ vs, v ∈ m.verts) →
      triLoopV m emsk l vs s = .ok s2 →
      (s.1.length = n ∧ ∀ t, s.2 = some t → TriOK m l t) →
      s2.1.length = n ∧ ∀ t, s2.2 = some t → TriOK m l t := by
  intro vs
  induction vs with
  | nil =>
    intro s s2 _ hr hs
    simp only [triLoopV, Except.ok.injEq] at hr
    subst hr
    exact hs
  | cons v rest ih =>
    intro s s2 hin hr hs
    have hin2 : ∀ x ∈ rest, x ∈ m.verts := fun x hx => hin x (List.mem_cons_of_mem _ hx)
    unfold triLoopV at hr
    split at hr
    · cases h1 : triLoopI m emsk l v.topo.halfedges 0 v.topo.halfedges s with
      | error e => simp [h1] at hr
      | ok s1 =>
        simp only [h1] at hr
        obtain ⟨vi, hvi⟩ := mem_iff_getAt.mp (hin v (List.mem_cons_self _ _))
        have hv : ∀ x ∈ v.topo.halfedges, liveIn m.halfs x = true → m.fromOf x = vi := by
          intro x hx hl
          obtain ⟨t, ht, hex⟩ := liveIn_eq_true.mp hl
          rw [fromOf_eq ht]
          exact hwf.listFrom vi v hvi x hx t ht hex
        exact ih hin2 hr (triLoopI_spec hwf hv v.topo.halfedges 0 (fun _ hx => hx) h1 hs)
    · exact ih hin2 hr hs

theorem quadPriorities_length {l : List (Option Nat)} {ids : List (List Nat)} :
    ∀ (hs : List (Triplet HalfTopo HD)) {pr pr2 : List Int},
      quadPriorities l ids hs pr = .ok pr2 → pr2.length = pr.length := by
  intro hs
  induction hs with
  | nil =>
    intro pr pr2 hr
    simp only [quadPriorities, Except.ok.injEq] at hr
    subst hr
    rfl
  | cons h rest ih =>
    intro pr pr2 hr
    unfold quadPriorities at hr
    split at hr
    · exact ih hr
    · split at hr
      · exact ih hr
      · cases h1 : getAt ids h.topo.hd with
        | error e => simp [h1] at hr
        | ok s =>
          simp only [h1] at hr
          split at hr
          · cases h2 : setPriorities l PRIORITY_2QUA_LOOP [h.topo.hd, h.topo.opposite] pr with
            | error e => simp [h2] at hr
            | ok pr1 =>
              simp only [h2] at hr
              exact (ih hr).trans (setPriorities_spec _ h2).1
          · split at hr
            · cases h2 : setPriorities l PRIORITY_QUA_LOOP [h.topo.hd, h.topo.opposite] pr with
              | error e => simp [h2] at hr
              | ok pr1 =>
                simp only [h2] at hr
                exact (ih hr).trans (setPriorities_spec _ h2).1
            · exact ih hr

theorem searchStart_spec {m : Mesh VD HD FD} (hwf : m.WF) {epj : Int → Int → Frac}
    {emsk : Int → Bool} {st : Option (Int × Int × Int) × Work}
    (hr : searchStart m epj emsk = .ok st) :
    SeedInv m emsk m.halfs.length st.2.loops ∧ st.2.list = sortMasterList st.2.loops ∧
      st.2.faceLoopArr = [] ∧ ∀ t, st.1 = some t → TriOK m st.2.loops.half2loop t := by
  have hseed : SeedInv m emsk m.halfs.length (seedLoops emsk m.halfs 0 ⟨[], [], []⟩) :=
    seedLoops_spec hwf emsk m.halfs [] ⟨[], [], []⟩ rfl (seedInv_nil m emsk)
  unfold searchStart at hr
  cases h1 : triLoopV m emsk (seedLoops emsk m.halfs 0 ⟨[], [], []⟩).half2loop m.verts
      ((seedLoops emsk m.halfs 0 ⟨[], [], []⟩).priority, none) with
  | error e => simp [h1] at hr
  | ok tri =>
    simp only [h1] at hr
    cases h2 : quadLoopI m epj emsk m.halfs.length (List.range m.halfs.length)
        (0, List.replicate m.halfs.length []) with
    | error e => simp [h2] at hr
    | ok quad =>
      simp only [h2] at hr
      cases h3 : quadPriorities (seedLoops emsk m.halfs 0 ⟨[], [], []⟩).half2loop quad.2
          m.halfs tri.1 with
      | error e => simp [h3] at hr
      | ok priority =>
        simp only [h3, Except.ok.injEq] at hr
        subst hr
        obtain ⟨t1, t2⟩ := triLoopV_spec hwf m.verts (fun _ hx => hx) h1
          ⟨rfl, fun t ht => by cases ht⟩
        exact ⟨seedInv_priority hseed ((quadPriorities_length _ h3).trans t1), rfl, rfl, t2⟩

end SearchTriangle
section SearchFirstMove

variable {VD HD FD : Type}

theorem firstMoveJ_inv {m : Mesh VD HD FD} {emsk : Int → Bool} {epj : Int → Int → Frac}
    {halfsarr : List Int} : ∀ (js : List Nat) {w : Work} {r : Int × Work},
    WorkInv m emsk w → w.faceLoopArr = [] → firstMoveJ m epj halfsarr js w = .ok r →
      WorkInv m emsk r.2 := by
  intro js
  induction js with
  | nil =>
    intro w r hw _ hr
    simp only [firstMoveJ, Except.ok.injEq] at hr
    subst hr
    exact hw
  | cons j rest ih =>
    intro w r hw hF hr
    unfold firstMoveJ at hr
    cases h1 : getAt halfsarr (j : Int) with
    | error e => rw [h1] at hr; cases hr
    | ok hj =>
      rw [h1] at hr
      dsimp only at hr
      cases h2 : getAt halfsarr (((j + 1) % 3 : Nat) : Int) with
      | error e => rw [h2] at hr; cases hr
      | ok hjnext =>
        rw [h2] at hr
        dsimp only at hr
        cases h3 : oppositeE m hj with
        | error e => simp [h3] at hr
        | ok hpos =>
          simp only [h3] at hr
          cases h4 : getAt m.halfs hjnext with
          | error e => simp [h4] at hr
          | ok tnext =>
            simp only [h4] at hr
            cases h5 : loopOf w.loops.half2loop hpos with
            | error e => simp [h5] at hr
            | ok loop0 =>
              simp only [h5] at hr
              cases h6 : loopOf w.loops.half2loop tnext.topo.hd with
              | error e => simp [h6] at hr
              | ok loop1 =>
                simp only [h6] at hr
                cases h7 : connectMove m epj w loop0 loop1 with
                | error e => simp [h7] at hr
                | ok r1 =>
                  simp only [h7] at hr
                  have hnf : ∀ q, q ∉ w.faceLoopArr := by
                    intro q
                    rw [hF]
                    exact List.not_mem_nil q
                  obtain ⟨i1, i2⟩ := connectMove_inv hw ⟨hpos, loopOf_eq_ok.mp h5⟩
                    ⟨tnext.topo.hd, loopOf_eq_ok.mp h6⟩ (hnf _) (hnf _) h7
                  split at hr
                  · simp only [Except.ok.injEq] at hr
                    subst hr
                    exact i1
                  · rename_i hne
                    rcases i2 with h | ⟨-, h⟩
                    · exact absurd h hne
                    · exact ih i1 (h.trans hF) hr

theorem removeLoopsOf_spec {l : List (Option Nat)} : ∀ (hs : List Int) {lst lst2 : List Nat},
    removeLoopsOf l hs lst = .ok lst2 →
      ∀ q ∈ lst2, q ∈ lst ∧ ∀ x ∈ hs, getAt l x ≠ .ok (some q) := by
  intro hs
  induction hs with
  | nil =>
    intro lst lst2 hr q hq
    simp only [removeLoopsOf, Except.ok.injEq] at hr
    subst hr
    exact ⟨hq, fun x hx => absurd hx (List.not_mem_nil _)⟩
  | cons h rest ih =>
    intro lst lst2 hr q hq
    unfold removeLoopsOf at hr
    cases h1 : getAt l h with
    | error e => simp [h1] at hr
    | ok o =>
      cases o with
      | none =>
        simp only [h1] at hr
        obtain ⟨i1, i2⟩ := ih hr q hq
        refine ⟨i1, ?_⟩
        intro x hx
        rcases List.mem_cons.mp hx with rfl | hx
        · rw [h1]
          simp
        · exact i2 x hx
      | some p =>
        simp only [h1] at hr
        obtain ⟨i1, i2⟩ := ih hr q hq
        obtain ⟨i3, i4⟩ := (mem_removeLoop _ _ _).mp i1
        refine ⟨i3, ?_⟩
        intro x hx
        rcases List.mem_cons.mp hx with rfl | hx
        · rw [h1]
          simpa using fun e => i4 e.symm
        · exact i2 x hx

theorem live_ends_ne {m : Mesh VD HD FD} (hm : m.WellFormed) {x : Int}
    (hl : liveIn m.halfs x = true) : m.fromOf x ≠ m.toOf x := by
  obtain ⟨t, ht, hex⟩ := liveIn_eq_true.mp hl
  rw [fromOf_eq ht, toOf_eq ht]
  exact (hm.ends t (getAt_mem ht) hex).2

theorem firstMove_tri_inv {m : Mesh VD HD FD} (hm : m.WellFormed) {emsk : Int → Bool}
    {w : Work} (hL : SeedInv m emsk m.halfs.length w.loops) (hw : WorkInv m emsk w)
    (hF : w.faceLoopArr = []) {a b c : Int} (htri : TriOK m w.loops.half2loop (a, b, c))
    {list1 : List Nat} {l2 : List (Option Nat)}
    (h1 : removeLoopsOf w.loops.half2loop [a, b, c] w.list = .ok list1)
    (h2 : setLoops w.loops.halfArr.length [a, b, c] w.loops.half2loop = .ok l2) :
    WorkInv m emsk ⟨⟨w.loops.halfArr ++ [[a, b, c]], w.loops.priority ++ [0], l2⟩, list1,
      w.faceLoopArr ++ [w.loops.halfArr.length]⟩ := by
  obtain ⟨s1, s2, s3⟩ := setLoops_spec _ _ h2
  obtain ⟨t1, t2, t3, t4⟩ := htri
  have hlive : ∀ x ∈ [a, b, c], liveIn m.halfs x = true ∧ emsk x = true := by
    intro x hx
    obtain ⟨p, hp⟩ := t1 x hx
    exact ⟨(hL.seeded x p hp).1, (hL.seeded x p hp).2.1⟩
  have ha := live_ends_ne hm (hlive a (by simp)).1
  have hb := live_ends_ne hm (hlive b (by simp)).1
  have hc := live_ends_ne hm (hlive c (by simp)).1
  have hab : a ≠ b := by
    rintro rfl
    exact ha t2.symm
  have hbc : b ≠ c := by
    rintro rfl
    exact hb t3.symm
  have hac : a ≠ c := by
    rintro rfl
    exact ha t4.symm
  have hold : ∀ h p, h ∉ [a, b, c] → getAt l2 h = .ok (some p) →
      getAt w.loops.half2loop h = .ok (some p) := by
    intro h p hh hp
    rw [s2 h hh] at hp
    exact hp
  have hnew : ∀ h p, h ∈ [a, b, c] → getAt l2 h = .ok (some p) → p = w.loops.halfArr.length := by
    intro h p hh hp
    have := (s1 h hh).symm.trans hp
    simp only [Except.ok.injEq, Option.some.injEq] at this
    exact this.symm
  have hcurA : (⟨w.loops.halfArr ++ [[a, b, c]], w.loops.priority ++ [0], l2⟩ : Loops).Cur
      w.loops.halfArr.length := ⟨a, s1 a (by simp)⟩
  have harr : ∀ h p, h ∉ [a, b, c] → getAt l2 h = .ok (some p) →
      halfArrAt (w.loops.halfArr ++ [[a, b, c]]) p = [h] := by
    intro h p hh hp
    obtain ⟨-, -, c1, d1⟩ := hL.seeded h p (hold h p hh hp)
    rw [halfArrAt_append_left _ _ c1]
    exact d1
  refine ⟨⟨?_, ?_, ?_, ?_, ?_, ?_⟩, ?_, ?_, ?_, ?_, ?_, ?_⟩
  · show (w.loops.priority ++ [0]).length = (w.loops.halfArr ++ [[a, b, c]]).length
    rw [List.length_append, List.length_append, hL.len]
    rfl
  · intro h hl hk
    obtain ⟨p, hp⟩ := hw.loops.total h hl hk
    exact s3 h p hp
  · intro h p hp
    show _ ∧ _ ∧ p < (w.loops.halfArr ++ [[a, b, c]]).length ∧
      h ∈ halfArrAt (w.loops.halfArr ++ [[a, b, c]]) p
    rw [List.length_append]
    by_cases hh : h ∈ [a, b, c]
    · have hpn := hnew h p hh hp
      subst hpn
      refine ⟨(hlive h hh).1, (hlive h hh).2, by simp, ?_⟩
      rw [halfArrAt_append_self]
      exact hh
    · obtain ⟨a1, b1, c1, -⟩ := hL.seeded h p (hold h p hh hp)
      refine ⟨a1, b1, by omega, ?_⟩
      rw [harr h p hh hp]
      exact List.mem_singleton_self h
  · rintro p ⟨h, hp⟩ x hx
    show getAt l2 x = .ok (some p)
    by_cases hh : h ∈ [a, b, c]
    · have hpn := hnew h p hh hp
      subst hpn
      have hx2 : x ∈ halfArrAt (w.loops.halfArr ++ [[a, b, c]]) w.loops.halfArr.length := hx
      rw [halfArrAt_append_self] at hx2
      exact s1 x hx2
    · have hx2 : x ∈ halfArrAt (w.loops.halfArr ++ [[a, b, c]]) p := hx
      rw [harr h p hh hp, List.mem_singleton] at hx2
      rw [hx2]
      exact hp
  · rintro p ⟨h, hp⟩
    show (halfArrAt (w.loops.halfArr ++ [[a, b, c]]) p).Nodup
    by_cases hh : h ∈ [a, b, c]
    · have hpn := hnew h p hh hp
      subst hpn
      rw [halfArrAt_append_self]
      simp [hab, hbc, hac]
    · rw [harr h p hh hp]
      exact List.nodup_singleton h
  · rintro p ⟨h, hp⟩
    show List.Chain' _ (halfArrAt (w.loops.halfArr ++ [[a, b, c]]) p)
    by_cases hh : h ∈ [a, b, c]
    · have hpn := hnew h p hh hp
      subst hpn
      rw [halfArrAt_append_self]
      simp [t2, t3]
    · rw [harr h p hh hp]
      exact List.chain'_singleton h
  · show (w.faceLoopArr ++ [w.loops.halfArr.length]).Nodup
    rw [hF]
    simp
  · intro p hp
    rw [hF] at hp
    simp only [List.nil_append, List.mem_singleton] at hp
    subst hp
    exact hcurA
  · intro p hp
    rw [hF] at hp
    simp only [List.nil_append, List.mem_singleton] at hp
    subst hp
    show m.ClosedLoop (halfArrAt (w.loops.halfArr ++ [[a, b, c]]) w.loops.halfArr.length)
    rw [halfArrAt_append_self]
    exact ⟨a, c, rfl, rfl, t4⟩
  · intro p hp
    rw [hF] at hp
    simp only [List.nil_append, List.mem_singleton] at hp
    subst hp
    show priorityAt (w.loops.priority ++ [0]) w.loops.halfArr.length = 0
    unfold priorityAt
    rw [List.getD_eq_getElem?_getD, ← hL.len]
    simp
  · intro q hq
    obtain ⟨q1, q2⟩ := removeLoopsOf_spec _ h1 q hq
    obtain ⟨h, hh⟩ := hw.listCur q q1
    refine ⟨h, ?_⟩
    have hnot : h ∉ [a, b, c] := fun hin => q2 h hin hh
    show getAt l2 h = .ok (some q)
    rw [s2 h hnot]
    exact hh
  · intro q hq hq2
    obtain ⟨q1, -⟩ := removeLoopsOf_spec _ h1 q hq
    rw [hF] at hq2
    simp only [List.nil_append, List.mem_singleton] at hq2
    have := cur_lt hw.loops (hw.listCur q q1)
    omega

theorem firstMove_inv {m : Mesh VD HD FD} (hm : m.WellFormed) {emsk : Int → Bool}
    {epj : Int → Int → Frac} {tri : Option (Int × Int × Int)} {w : Work} {r : Int × Work}
    (hL : SeedInv m emsk m.halfs.length w.loops) (hw : WorkInv m emsk w)
    (hF : w.faceLoopArr = []) (htri : ∀ t, tri = some t → TriOK m w.loops.half2loop t)
    (hr : firstMove m epj emsk tri w = .ok r) : WorkInv m emsk r.2 := by
  unfold firstMove at hr
  cases h1 : findV3 m emsk m.verts with
  | error e => simp [h1] at hr
  | ok v3 =>
    simp only [h1] at hr
    split at hr
    · cases h2 : halfedgesE m v3 with
      | error e => simp [h2] at hr
      | ok halfs =>
        simp only [h2] at hr
        cases h3 : maskedOf m emsk halfs with
        | error e => simp [h3] at hr
        | ok halfsarr =>
          simp only [h3] at hr
          split at hr
          · exact firstMoveJ_inv _ hw hF hr
          · simp at hr
    · cases tri with
      | none =>
        simp only [Except.ok.injEq] at hr
        subst hr
        exact hw
      | some t =>
        simp only at hr
        cases h2 : removeLoopsOf w.loops.half2loop [t.1, t.2.1, t.2.2] w.list with
        | error e => simp [h2] at hr
        | ok list1 =>
          simp only [h2] at hr
          cases h3 : setLoops w.loops.halfArr.length [t.1, t.2.1, t.2.2]
              w.loops.half2loop with
          | error e => simp [h3] at hr
          | ok l2 =>
            simp only [h3, Except.ok.injEq] at hr
            subst hr
            exact firstMove_tri_inv hm hL hw hF (htri t rfl) h2 h3

theorem searchLoops_inv {m : Mesh VD HD FD} (hm : m.WellFormed) {emsk : Int → Bool}
    {epj : Int → Int → Frac} {fuel : Nat} {s : Search}
    (hr : searchLoops m epj emsk fuel = .ok (some s)) :
    WorkInv m emsk ⟨s.loops, [], s.faceLoopArr⟩ := by
  unfold searchLoops at hr
  cases h1 : searchStart m epj emsk with
  | error e => simp [h1] at hr
  | ok st =>
    simp only [h1] at hr
    obtain ⟨i1, i2, i3, i4⟩ := searchStart_spec hm.wf h1
    cases h2 : firstMove m epj emsk st.1 st.2 with
    | error e => simp [h2] at hr
    | ok r =>
      simp only [h2] at hr
      have hw0 : WorkInv m emsk st.2 := by
        have := workInv_start i1
        rw [← i2] at this
        have h3 : st.2 = ⟨st.2.loops, st.2.list, []⟩ := by
          rw [← i3]
        rw [h3]
        exact this
      have hw1 := firstMove_inv hm i1 hw0 i3 i4 h2
      refine workflow_inv fuel ?_ hr
      by_cases h0 : r.1 = 2
      · simp only [h0, if_true]
        exact hw1
      · simp only [h0, if_false]
        exact hw1

end SearchFirstMove
section SearchFaces

variable {VD HD FD : Type}

theorem addFace_frame {m : Mesh VD HD FD} {hs : List Int} {fd : FD}
    {r : Mesh VD HD FD × Int} (hr : m.addFace hs fd = .ok r) :
    r.1.faces = m.faces ++ [⟨⟨(m.faces.length : Int), hs⟩, fd, true⟩] ∧
      ∀ h, r.1.fromOf h = m.fromOf h ∧ r.1.toOf h = m.toOf h ∧
        liveIn r.1.halfs h = liveIn m.halfs h := by
  obtain ⟨m1, f⟩ := r
  obtain ⟨halfs, h1, -, rfl⟩ := addFace_eq_ok.mp hr
  refine ⟨rfl, ?_⟩
  obtain ⟨hlen, -, hget⟩ := setFaces_spec h1
  intro h
  simp only [Mesh.fromOf, Mesh.toOf, liveIn]
  cases hg : getAt m.halfs h with
  | ok t =>
    rw [hget h t hg]
    by_cases hh : h ∈ hs
    · simp [hh, setFace]
    · simp [hh]
  | error e =>
    cases hg2 : getAt halfs h with
    | ok t2 =>
      obtain ⟨h0, hlt⟩ := getAt_isOk_iff.mp ⟨t2, hg2⟩
      obtain ⟨t, ht⟩ := getAt_isOk_iff.mpr ⟨h0, hlen ▸ hlt⟩
      rw [hg] at ht
      cases ht
    | error e2 => simp

theorem addFaceLoops_spec [Inhabited FD] : ∀ (arrs : List (List Int)) {m m2 : Mesh VD HD FD},
    addFaceLoops m arrs = .ok m2 →
      ∃ added : List (Triplet FaceTopo FD), m2.faces = m.faces ++ added ∧
        added.map (fun ft => ft.topo.halfedges) = arrs ∧
        (∀ ft ∈ added, ft.exists_ = true) ∧
        ∀ h, m2.fromOf h = m.fromOf h ∧ m2.toOf h = m.toOf h ∧
          liveIn m2.halfs h = liveIn m.halfs h := by
  intro arrs
  induction arrs with
  | nil =>
    intro m m2 hr
    simp only [addFaceLoops, Except.ok.injEq] at hr
    subst hr
    exact ⟨[], by simp, rfl, fun _ h => absurd h (List.not_mem_nil _), fun _ => ⟨rfl, rfl, rfl⟩⟩
  | cons arr rest ih =>
    intro m m2 hr
    unfold addFaceLoops at hr
    cases h1 : m.addFace arr default with
    | error e => simp [h1] at hr
    | ok r =>
      simp only [h1] at hr
      obtain ⟨f1, f2⟩ := addFace_frame h1
      obtain ⟨added, a1, a2, a3, a4⟩ := ih hr
      refine ⟨⟨⟨(m.faces.length : Int), arr⟩, default, true⟩ :: added, ?_, ?_, ?_, ?_⟩
      · rw [a1, f1]
        simp
      · simp [a2]
      · intro ft hft
        rcases List.mem_cons.mp hft with rfl | hft
        · rfl
        · exact a3 ft hft
      · intro h
        obtain ⟨b1, b2, b3⟩ := a4 h
        obtain ⟨c1, c2, c3⟩ := f2 h
        exact ⟨b1.trans c1, b2.trans c2, b3.trans c3⟩

theorem searchAndAddFaces_spec [Inhabited FD] {m m2 : Mesh VD HD FD} (hm : m.WellFormed)
    {epj : Int → Int → Frac} {emsk : Int → Bool} {fuel : Nat}
    (hr : SearchAndAddFaces m epj emsk fuel = .ok (some m2)) :
    ∃ (s : Search) (added : List (Triplet FaceTopo FD)),
      searchLoops m epj emsk fuel = .ok (some s) ∧
      WorkInv m emsk ⟨s.loops, [], s.faceLoopArr⟩ ∧
      m2.faces = m.faces ++ added ∧
      added.map (fun ft => ft.topo.halfedges) = s.faceLoopArr.map (halfArrAt s.loops.halfArr) ∧
      (∀ ft ∈ added, ft.exists_ = true) ∧
      ∀ h, m2.fromOf h = m.fromOf h ∧ m2.toOf h = m.toOf h ∧
        liveIn m2.halfs h = liveIn m.halfs h := by
  unfold SearchAndAddFaces at hr
  cases h1 : searchLoops m epj emsk fuel with
  | error e => simp [h1] at hr
  | ok o =>
    cases o with
    | none => simp [h1] at hr
    | some s =>
      simp only [h1] at hr
      cases h2 : addFaceLoops m (s.faceLoopArr.map (halfArrAt s.loops.halfArr)) with
      | error e => simp [h2] at hr
      | ok m1 =>
        simp only [h2, Except.ok.injEq, Option.some.injEq] at hr
        subst hr
        obtain ⟨added, a1, a2, a3, a4⟩ := addFaceLoops_spec _ h2
        exact ⟨s, added, rfl, searchLoops_inv hm h1, a1, a2, a3, a4⟩

theorem face_of_added {s : Search} {added : List (Triplet FaceTopo FD)}
    (ha : added.map (fun ft => ft.topo.halfedges)
      = s.faceLoopArr.map (halfArrAt s.loops.halfArr))
    {ft : Triplet FaceTopo FD} (hft : ft ∈ added) :
    ∃ p ∈ s.faceLoopArr, ft.topo.halfedges = halfArrAt s.loops.halfArr p := by
  have : ft.topo.halfedges ∈ added.map (fun ft => ft.topo.halfedges) :=
    List.mem_map.mpr ⟨ft, hft, rfl⟩
  rw [ha] at this
  obtain ⟨p, hp, he⟩ := List.mem_map.mp this
  exact ⟨p, hp, he.symm⟩

theorem linked_congr {m m2 : Mesh VD HD FD}
    (hf : ∀ h, m2.fromOf h = m.fromOf h ∧ m2.toOf h = m.toOf h ∧
      liveIn m2.halfs h = liveIn m.halfs h) {arr : List Int} :
    (m.Linked arr → m2.Linked arr) ∧ (m.ClosedLoop arr → m2.ClosedLoop arr) := by
  constructor
  · intro h
    unfold Mesh.Linked at h ⊢
    refine List.Chain'.imp ?_ h
    intro a b hab
    rw [(hf a).2.1, (hf b).1]
    exact hab
  · rintro ⟨f, b, h1, h2, h3⟩
    exact ⟨f, b, h1, h2, by rw [(hf b).2.1, (hf f).1]; exact h3⟩

theorem reachable_wireTriangle : Reachable wireTriangle :=
  Reachable.addEdge 2 0 () () true
    (Reachable.addEdge 1 2 () () true
      (Reachable.addEdge 0 1 () () true
        (Reachable.addVertex () (Reachable.addVertex () (Reachable.addVertex ()
          Reachable.empty)))
        (by decide : threeVertexMesh.addEdge 0 1 () () true
          = .ok (meshOf ((threeVertexMesh.addEdge 0 1 () () true).map Prod.fst), 0)))
      (by decide : (meshOf ((threeVertexMesh.addEdge 0 1 () () true).map Prod.fst)).addEdge
          1 2 () () true
        = .ok (meshOf ((threeVertexMesh.addEdge 0 1 () () true).bind fun r1 =>
          (r1.1.addEdge 1 2 () () true).map Prod.fst), 2)))
    (by decide : (meshOf ((threeVertexMesh.addEdge 0 1 () () true).bind fun r1 =>
        (r1.1.addEdge 1 2 () () true).map Prod.fst)).addEdge 2 0 () () true
      = .ok (wireTriangle, 4))

theorem wellFormed_wireTriangle : wireTriangle.WellFormed :=
  ⟨reachable_wf reachable_wireTriangle, reachable_tidy reachable_wireTriangle,
    by decide, by decide⟩

theorem searchAndAddFaces_wireTriangle :
    SearchAndAddFaces wireTriangle (fun _ _ => ⟨0, 1⟩) (fun _ => true) 10
      = .ok (some facedTriangle) := by
  decide

/-- C27: every face that `SearchAndAddFaces` adds to a well-formed mesh is a closed
loop of masked, non-removed half-edges: the call appends faces to `_faces`, each
non-removed, and the list of each holds non-removed half-edges that the mask lets
through, each ending where the next starts and the last ending at the from-vertex of
the first (so the list is not empty and no open loop is among the faces). -/
theorem searchAndAddFaces_closed_loops [Inhabited FD] {m m2 : Mesh VD HD FD}
    (hm : m.WellFormed) {epj : Int → Int → Frac} {emsk : Int → Bool} {fuel : Nat}
    (hr : SearchAndAddFaces m epj emsk fuel = .ok (some m2)) :
    ∃ added : List (Triplet FaceTopo FD), m2.faces = m.faces ++ added ∧
      ∀ ft ∈ added, ft.exists_ = true ∧
        (∀ h ∈ ft.topo.halfedges, liveIn m2.halfs h = true ∧ emsk h = true) ∧
        m2.Linked ft.topo.halfedges ∧ m2.ClosedLoop ft.topo.halfedges := by
  obtain ⟨s, added, -, hw, a1, a2, a3, a4⟩ := searchAndAddFaces_spec hm hr
  refine ⟨added, a1, ?_⟩
  intro ft hft
  obtain ⟨p, hp, he⟩ := face_of_added a2 hft
  have hcur := hw.faceCur p hp
  refine ⟨a3 ft hft, ?_, ?_, ?_⟩
  · intro h hh
    rw [he] at hh
    obtain ⟨b1, b2, -, -⟩ := hw.loops.seeded h p (hw.loops.own p hcur h hh)
    exact ⟨(a4 h).2.2.trans b1, b2⟩
  · rw [he]
    exact (linked_congr a4).1 (hw.loops.linked p hcur)
  · rw [he]
    exact (linked_congr a4).2 (hw.faceClosed p hp)

theorem searchAndAddFaces_closed_loops_witness :
    SearchAndAddFaces wireTriangle (fun _ _ => ⟨0, 1⟩) (fun _ => true) 10
        = .ok (some facedTriangle) ∧
      ∃ added : List (Triplet FaceTopo Dummy), facedTriangle.faces = wireTriangle.faces ++ added ∧
        ∀ ft ∈ added, ft.exists_ = true ∧
          (∀ h ∈ ft.topo.halfedges, liveIn facedTriangle.halfs h = true ∧
            (fun _ => true) h = true) ∧
          facedTriangle.Linked ft.topo.halfedges ∧ facedTriangle.ClosedLoop ft.topo.halfedges :=
  ⟨searchAndAddFaces_wireTriangle,
    searchAndAddFaces_closed_loops wellFormed_wireTriangle searchAndAddFaces_wireTriangle⟩

/-- C30: within one call of `SearchAndAddFaces` on a well-formed mesh the loops
partition the masked half-edges (at `Label_End` every non-removed half-edge that the mask
lets through has a loop, and the `halfArr` of the loop of a half-edge holds, once each,
the half-edges of that loop), so that no half-edge occurs twice in the list of a face
added by the call and no half-edge occurs in the lists of two faces added by the
call. -/
theorem searchAndAddFaces_partition [Inhabited FD] {m m2 : Mesh VD HD FD}
    (hm : m.WellFormed) {epj : Int → Int → Frac} {emsk : Int → Bool} {fuel : Nat}
    (hr : SearchAndAddFaces m epj emsk fuel = .ok (some m2)) :
    ∃ (s : Search) (added : List (Triplet FaceTopo FD)),
      searchLoops m epj emsk fuel = .ok (some s) ∧ LoopInv m emsk s.loops ∧
      m2.faces = m.faces ++ added ∧
      added.map (fun ft => ft.topo.halfedges)
        = s.faceLoopArr.map (halfArrAt s.loops.halfArr) ∧
      (∀ ft ∈ added, ft.topo.halfedges.Nodup) ∧
      added.Pairwise (fun f g => ∀ h ∈ f.topo.halfedges, h ∉ g.topo.halfedges) := by
  obtain ⟨s, added, hs, hw, a1, a2, -, -⟩ := searchAndAddFaces_spec hm hr
  refine ⟨s, added, hs, hw.loops, a1, a2, ?_, ?_⟩
  · intro ft hft
    obtain ⟨p, hp, he⟩ := face_of_added a2 hft
    rw [he]
    exact hw.loops.nodup p (hw.faceCur p hp)
  · have hpair : (s.faceLoopArr.map (halfArrAt s.loops.halfArr)).Pairwise
        (fun a b => ∀ h ∈ a, h ∉ b) := by
      rw [List.pairwise_map]
      have hn : s.faceLoopArr.Pairwise (fun p q => p ≠ q) := hw.faceNodup
      refine List.Pairwise.imp_of_mem ?_ hn
      intro p q hp hq hne h h1 h2
      have e1 := hw.loops.own p (hw.faceCur p hp) h h1
      have e2 := hw.loops.own q (hw.faceCur q hq) h h2
      have := e1.symm.trans e2
      simp only [Except.ok.injEq, Option.some.injEq] at this
      exact hne this
    rw [← a2, List.pairwise_map] at hpair
    exact hpair

theorem searchAndAddFaces_partition_witness :
    SearchAndAddFaces wireTriangle (fun _ _ => ⟨0, 1⟩) (fun _ => true) 10
        = .ok (some facedTriangle) ∧
      ∃ (s : Search) (added : List (Triplet FaceTopo Dummy)),
        searchLoops wireTriangle (fun _ _ => ⟨0, 1⟩) (fun _ => true) 10 = .ok (some s) ∧
        LoopInv wireTriangle (fun _ => true) s.loops ∧
        facedTriangle.faces = wireTriangle.faces ++ added ∧
        added.map (fun ft => ft.topo.halfedges)
          = s.faceLoopArr.map (halfArrAt s.loops.halfArr) ∧
        (∀ ft ∈ added, ft.topo.halfedges.Nodup) ∧
        added.Pairwise (fun f g => ∀ h ∈ f.topo.halfedges, h ∉ g.topo.halfedges) :=
  ⟨searchAndAddFaces_wireTriangle,
    searchAndAddFaces_partition wellFormed_wireTriangle searchAndAddFaces_wireTriangle⟩

end SearchFaces

/-! ## DecomposeOnInternalLoop keeps the edges stitched (C29) -/

section RedirectFrame

variable {VD HD FD : Type}

theorem getAt_updAt_at {α : Type} {xs : List α} {k : Int} (f : α → α) (hk : 0 ≤ k) {x : Int}
    {t : α} (ht : getAt xs x = .ok t) :
    getAt (updAt xs k.toNat f) x = .ok (if x = k then f t else t) := by
  have h0 := (getAt_lt_length ht).1
  have h1 : getAt (updAt xs k.toNat f) x = .ok (if x.toNat = k.toNat then f t else t) :=
    getAt_updAt.mpr ⟨t, ht, rfl⟩
  rw [h1]
  by_cases hx : x = k
  · subst hx
    simp
  · have : ¬ x.toNat = k.toNat := by omega
    simp [hx, this]

theorem getAt_updAt_back {α : Type} {xs : List α} {k : Int} (f : α → α) {x : Int}
    {y : α} (hy : getAt (updAt xs k.toNat f) x = .ok y) : ∃ t, getAt xs x = .ok t := by
  obtain ⟨t, ht, -⟩ := getAt_updAt.mp hy
  exact ⟨t, ht⟩

theorem redirectLoop_res (vh vh2 hh : Int) :
    ∀ (R : List Int) {m m2 : Mesh VD HD FD}, redirectLoop vh vh2 hh m R = .ok m2 →
      m2.verts = m.verts ∧ m2.faces = m.faces ∧ EndsMoved vh vh2 hh R m.halfs m2.halfs := by
  intro R
  induction R with
  | nil =>
    intro m m2 hr
    simp only [redirectLoop, Except.ok.injEq] at hr
    subst hr
    exact ⟨rfl, rfl, rfl, fun x t ht => ⟨t, ht, rfl, rfl, rfl, rfl, by simp, Or.inl rfl⟩⟩
  | cons a rest ih =>
    intro m m2 hr
    unfold redirectLoop at hr
    cases h1 : getAt m.halfs a with
    | error e => simp [h1] at hr
    | ok tn =>
      simp only [h1] at hr
      by_cases hfrom : tn.topo.efrom ≠ vh
      · rw [if_pos hfrom] at hr
        cases hr
      · rw [if_neg hfrom] at hr
        cases h2 : m.modifyHalf a (setFrom vh2) with
        | error e => simp [h2] at hr
        | ok m1 =>
          simp only [h2] at hr
          obtain ⟨ha0, -, rfl⟩ := modifyHalf_eq_ok_updAt.mp h2
          cases h3 : getAt (updAt m.halfs a.toNat (setFrom vh2)) tn.topo.opposite with
          | error e => simp [h3] at hr
          | ok topp =>
            simp only [h3] at hr
            by_cases hto : topp.topo.eto ≠ vh
            · rw [if_pos hto] at hr
              cases hr
            · rw [if_neg hto] at hr
              have hto2 : topp.topo.eto = vh := not_not.mp hto
              obtain ⟨to0, hto0⟩ := getAt_updAt_back _ h3
              have ho0 := (getAt_lt_length hto0).1
              have hto3 : to0.topo.eto = vh := by
                have := getAt_updAt_at (setFrom vh2) ha0 hto0
                rw [h3] at this
                simp only [Except.ok.injEq] at this
                rw [this] at hto2
                split at hto2
                · exact hto2
                · exact hto2
              cases h4 : (if tn.topo.opposite ≠ hh then
                  Mesh.modifyHalf { m with halfs := updAt m.halfs a.toNat (setFrom vh2) }
                    tn.topo.opposite (setTo vh2)
                  else .ok { m with halfs := updAt m.halfs a.toNat (setFrom vh2) }) with
              | error e => simp [h4] at hr
              | ok m1b =>
                simp only [h4] at hr
                obtain ⟨i1, i2, i3, i4⟩ := ih hr
                -- the state after the two writes of the round
                have hmid : m1b.verts = m.verts ∧ m1b.faces = m.faces ∧
                    m1b.halfs.length = m.halfs.length ∧
                    ∀ x t, getAt m.halfs x = .ok t → ∃ t1, getAt m1b.halfs x = .ok t1 ∧
                      t1.topo.hd = t.topo.hd ∧ t1.topo.opposite = t.topo.opposite ∧
                      t1.topo.face = t.topo.face ∧ t1.exists_ = t.exists_ ∧
                      t1.topo.efrom = (if x = a then vh2 else t.topo.efrom) ∧
                      (t1.topo.eto = t.topo.eto ∨
                        (t.topo.eto = vh ∧ t1.topo.eto = vh2 ∧ x ≠ hh)) := by
                  by_cases hne : tn.topo.opposite ≠ hh
                  · rw [if_pos hne] at h4
                    obtain ⟨-, -, rfl⟩ := modifyHalf_eq_ok_updAt.mp h4
                    refine ⟨rfl, rfl, by simp [length_updAt], ?_⟩
                    intro x t ht
                    have hx1 := getAt_updAt_at (setFrom vh2) ha0 ht
                    have hx2 := getAt_updAt_at (setTo vh2) ho0 hx1
                    refine ⟨_, hx2, ?_⟩
                    by_cases hO : x = tn.topo.opposite
                    · have hteq : t = to0 := by
                        rw [hO, hto0] at ht
                        simp only [Except.ok.injEq] at ht
                        exact ht.symm
                      rw [if_pos hO]
                      by_cases hA : x = a
                      · rw [if_pos hA, if_pos hA]
                        exact ⟨rfl, rfl, rfl, rfl, rfl,
                          Or.inr ⟨hteq ▸ hto3, rfl, fun e => hne (hO ▸ e)⟩⟩
                      · rw [if_neg hA, if_neg hA]
                        exact ⟨rfl, rfl, rfl, rfl, rfl,
                          Or.inr ⟨hteq ▸ hto3, rfl, fun e => hne (hO ▸ e)⟩⟩
                    · rw [if_neg hO]
                      by_cases hA : x = a
                      · rw [if_pos hA, if_pos hA]
                        exact ⟨rfl, rfl, rfl, rfl, rfl, Or.inl rfl⟩
                      · rw [if_neg hA, if_neg hA]
                        exact ⟨rfl, rfl, rfl, rfl, rfl, Or.inl rfl⟩
                  · rw [if_neg hne] at h4
                    simp only [Except.ok.injEq] at h4
                    subst h4
                    refine ⟨rfl, rfl, by simp [length_updAt], ?_⟩
                    intro x t ht
                    refine ⟨_, getAt_updAt_at (setFrom vh2) ha0 ht, ?_⟩
                    by_cases hA : x = a
                    · rw [if_pos hA, if_pos hA]
                      exact ⟨rfl, rfl, rfl, rfl, rfl, Or.inl rfl⟩
                    · rw [if_neg hA, if_neg hA]
                      exact ⟨rfl, rfl, rfl, rfl, rfl, Or.inl rfl⟩
                obtain ⟨j1, j2, j3, j4⟩ := hmid
                refine ⟨i1.trans j1, i2.trans j2, i3.trans j3, ?_⟩
                intro x t ht
                obtain ⟨t1, ht1, a1, a2, a3, a4, a5, a6⟩ := j4 x t ht
                obtain ⟨t2, ht2, b1, b2, b3, b4, b5, b6⟩ := i4 x t1 ht1
                refine ⟨t2, ht2, b1.trans a1, b2.trans a2, b3.trans a3, b4.trans a4, ?_, ?_⟩
                · rw [b5, a5]
                  by_cases hA : x = a
                  · simp [hA]
                  · by_cases hR : x ∈ rest
                    · simp [hR]
                    · simp [hA, hR]
                · rcases b6 with b6 | ⟨b6, b7, b8⟩
                  · rcases a6 with a6 | ⟨a6, a7, a8⟩
                    · exact Or.inl (b6.trans a6)
                    · exact Or.inr ⟨a6, b6.trans a7, a8⟩
                  · rcases a6 with a6 | ⟨a6, a7, a8⟩
                    · exact Or.inr ⟨a6 ▸ b6, b7, b8⟩
                    · exact Or.inr ⟨a6, b7, b8⟩

end RedirectFrame
section CutSharp

variable {VD HD FD : Type}

/-- One round of the first loop of `DecomposeOnInternalLoop`, with every field of the
half-edges: the set `R` of the round holds the opposite of the loop half-edge and
non-removed half-edges that leave the end vertex and are not on the loop; the
half-edges of `R` now leave the new vertex; a half-edge whose `to` has changed ended
at the end vertex, now ends at the new vertex and is not the loop half-edge, unless it
is the opposite of the next loop half-edge, which ends at the new vertex in any case;
no other field of a half-edge has changed. -/
theorem cutStep_sharp {m : Mesh VD HD FD} (hwf : m.WF) (hl : m.ListsLive) {p : List Int}
    (hp : LoopFacts m p) {i : Nat} {st : Cut VD HD FD} (inv : CutInv m p i st)
    (hi : i < p.length) {fuel : Nat} (hfuel : m.maxDegree < fuel) :
    ∃ vt0 R m5, getAt m.verts (m.toOf (p.getD i Handle.none)) = .ok vt0 ∧
      cutStep fuel p i st = .ok (some ⟨m5, st.thisVhs ++ [m.toOf (p.getD i Handle.none)],
        st.anotherVhs ++ [(st.mesh.verts.length : Int)]⟩) ∧
      (m.oppOf (p.getD i Handle.none) ∈ R ∧
        ∀ x ∈ R, liveIn m.halfs x = true ∧ m.fromOf x = m.toOf (p.getD i Handle.none) ∧ x ∉ p) ∧
      (∀ x t, getAt st.mesh.halfs x = .ok t → ∃ t5, getAt m5.halfs x = .ok t5 ∧
        t5.topo.hd = t.topo.hd ∧ t5.topo.opposite = t.topo.opposite ∧
        t5.topo.face = t.topo.face ∧ t5.exists_ = t.exists_ ∧
        t5.topo.efrom = (if x ∈ R then (st.mesh.verts.length : Int) else t.topo.efrom) ∧
        (t5.topo.eto = t.topo.eto ∨ (t.topo.eto = m.toOf (p.getD i Handle.none) ∧
          t5.topo.eto = (st.mesh.verts.length : Int) ∧
          (x ≠ p.getD i Handle.none ∨
            x = m.oppOf (p.getD ((i + 1) % p.length) Handle.none))))) ∧
      m5.toOf (m.oppOf (p.getD ((i + 1) % p.length) Handle.none))
        = (st.mesh.verts.length : Int) ∧
      (∃ vt5, getAt m5.verts (m.toOf (p.getD i Handle.none)) = .ok vt5 ∧
        vt5.topo.halfedges = vt0.topo.halfedges.filter (fun h => !(Contains R h))) ∧
      (∃ vt5, getAt m5.verts (st.mesh.verts.length : Int) = .ok vt5 ∧
        vt5.topo.halfedges = R) ∧
      ∀ u, u ≠ m.toOf (p.getD i Handle.none) → u ≠ (st.mesh.verts.length : Int) →
        getAt m5.verts u = getAt (st.mesh.verts ++
          [(⟨⟨(st.mesh.verts.length : Int), []⟩, vt0.data, true⟩ : Triplet VertTopo VD)]) u := by
  have hhp : p.getD i Handle.none ∈ p := getD_mem_of_lt hi _
  have hv := not_mem_take_map m.toOf hp.nodupTo hi Handle.none
  -- the loop half-edge of the round
  obtain ⟨th0, oh0, hth0, hoh0, -, -, -, -⟩ := wf_live_pair hwf (hp.live _ hhp)
  obtain ⟨th, hth, hthopp, -, hthto⟩ := inv.halfs _ th0 hth0
  have hto : th.topo.eto = m.toOf (p.getD i Handle.none) := by
    rw [toOf_eq hth0]
    exact hthto (by rw [← toOf_eq hth0]; exact hv)
  have hopp : th.topo.opposite = m.oppOf (p.getD i Handle.none) := by
    rw [hthopp, oppOf_eq hth0]
  -- its end vertex
  obtain ⟨d, hd, hd4⟩ := hp.degree _ hhp
  obtain ⟨vt0, hvt0, hdlen⟩ := degree_eq_ok.mp hd
  have hlen4 : 4 ≤ vt0.topo.halfedges.length := by omega
  have hvtM := inv.verts _ vt0 hvt0 hv
  -- the set of the round
  obtain ⟨R, hR, hRnd, hRopp, hRmem⟩ := cutInv_related hwf hl hp inv hhp hvt0 hv hfuel vt0.data
  have hRM : ∀ x ∈ R, ∃ t o, getAt (st.mesh.addVertex vt0.data).1.halfs x = .ok t ∧
      t.topo.efrom = m.toOf (p.getD i Handle.none) ∧
      getAt (st.mesh.addVertex vt0.data).1.halfs t.topo.opposite = .ok o ∧
      o.topo.eto = m.toOf (p.getD i Handle.none) := by
    intro x hx
    obtain ⟨k1, k2, -⟩ := hRmem x hx
    obtain ⟨t, o, ht, h1, ho, h2, -, -⟩ := cutInv_leaving hwf inv hv k1 k2
    exact ⟨t, o, ht, h1, ho, h2⟩
  have hinj : ∀ x ∈ R, ∀ y ∈ R, (st.mesh.addVertex vt0.data).1.oppOf x
      = (st.mesh.addVertex vt0.data).1.oppOf y → x = y := by
    intro x hx y hy hxy
    obtain ⟨k1, k2, -⟩ := hRmem x hx
    obtain ⟨j1, j2, -⟩ := hRmem y hy
    obtain ⟨t, o, ht, -, ho, -, -, hox⟩ := cutInv_leaving hwf inv hv k1 k2
    obtain ⟨u, q, hu, -, hq, -, -, hqy⟩ := cutInv_leaving hwf inv hv j1 j2
    have e1 : (st.mesh.addVertex vt0.data).1.oppOf x = t.topo.opposite := oppOf_eq ht
    have e2 : (st.mesh.addVertex vt0.data).1.oppOf y = u.topo.opposite := oppOf_eq hu
    rw [e1, e2] at hxy
    rw [hxy, hq] at ho
    simp only [Except.ok.injEq] at ho
    rw [← hox, ← hqy, ho]
  obtain ⟨m2, hm2, hv2, hf2, hl2, hobs2⟩ := redirectLoop_spec
    (m.toOf (p.getD i Handle.none)) (st.mesh.verts.length : Int) (p.getD i Handle.none)
    R (st.mesh.addVertex vt0.data).1 hRnd hRM hinj
  obtain ⟨-, -, -, hsharp⟩ := redirectLoop_res _ _ _ R hm2
  -- the next loop half-edge and its opposite
  have hnmem : p.getD ((i + 1) % p.length) Handle.none ∈ p :=
    getD_mem_of_lt (Nat.mod_lt _ (by omega)) _
  obtain ⟨tn0, on0, htn0, hon0, -, -, -, honto⟩ := wf_live_pair hwf (hp.live _ hnmem)
  obtain ⟨tnM, htnM, htnMopp, -, -⟩ := inv.halfs _ tn0 htn0
  obtain ⟨onM, honM, -, -, honMto⟩ := inv.halfs _ on0 hon0
  obtain ⟨tn2, htn2, htn2opp, -, -⟩ := hobs2 _ tnM htnM
  obtain ⟨on2, hon2, hon2opp, hon2from, hon2to⟩ := hobs2 _ onM honM
  have hnextTo : onM.topo.eto = m.toOf (p.getD i Handle.none) := by
    have h1 := hp.next i hi
    rw [fromOf_eq htn0] at h1
    rw [honMto (by rw [honto, h1]; exact hv), honto, h1]
  have hnopp : tn2.topo.opposite = tn0.topo.opposite := by rw [htn2opp, htnMopp]
  obtain ⟨m3, hm3, hv3, hf3, hl3, hself3, hother3⟩ := modifyHalf_obs
    (setTo (st.mesh.verts.length : Int)) hon2
  -- the two outgoing lists
  have hverts3 : m3.verts = st.mesh.verts ++
      [(⟨⟨(st.mesh.verts.length : Int), []⟩, vt0.data, true⟩ : Triplet VertTopo VD)] := by
    rw [hv3, hv2]
    rfl
  have hvne : m.toOf (p.getD i Handle.none) ≠ (st.mesh.verts.length : Int) := by
    have := (getAt_lt_length hvtM).2
    omega
  have hv3v : getAt m3.verts (m.toOf (p.getD i Handle.none)) = .ok vt0 := by
    rw [hverts3]
    exact getAt_append_left hvtM
  obtain ⟨m4, hm4, hh4, hf4, hl4, hself4, hother4, hex4⟩ := modifyVert_obs (eraseRelated R) hv3v
  have hv4n : getAt m4.verts (st.mesh.verts.length : Int)
      = .ok ⟨⟨(st.mesh.verts.length : Int), []⟩, vt0.data, true⟩ := by
    rw [hother4 _ (Ne.symm hvne), hverts3]
    exact getAt_snoc_self _ _
  obtain ⟨m5, hm5, hh5, hf5, hl5, hself5, hother5, hex5⟩ := modifyVert_obs (insertRelated R) hv4n
  have hoN : tn0.topo.opposite = m.oppOf (p.getD ((i + 1) % p.length) Handle.none) :=
    (oppOf_eq htn0).symm
  refine ⟨vt0, R, m5, hvt0, ?_, ⟨hRopp, hRmem⟩, ?_, ?_, ?_, ?_, ?_⟩
  · unfold cutStep
    simp only [hth, hto, hvtM, hopp]
    rw [if_neg (by omega)]
    simp only [hR]
    have e1 : (st.mesh.addVertex vt0.data).2 = (st.mesh.verts.length : Int) := rfl
    simp only [e1, hm2, htn2, hnopp, hm3, hm4, hm5]
  · intro x t ht
    obtain ⟨t2, ht2, h1, h2, h3, h4, h5, h6⟩ := hsharp x t ht
    rw [hh5, hh4]
    by_cases hx : x = tn0.topo.opposite
    · subst hx
      rw [hon2] at ht2
      simp only [Except.ok.injEq] at ht2
      subst ht2
      refine ⟨_, hself3, h1, h2, h3, h4, h5, Or.inr ⟨?_, rfl, Or.inr hoN⟩⟩
      have : t = onM := by
        have ht2 : getAt st.mesh.halfs tn0.topo.opposite = .ok t := ht
        rw [honM] at ht2
        simp only [Except.ok.injEq] at ht2
        exact ht2.symm
      rw [this]
      exact hnextTo
    · rw [hother3 x hx]
      refine ⟨t2, ht2, h1, h2, h3, h4, h5, ?_⟩
      rcases h6 with h6 | ⟨h6, h7, h8⟩
      · exact Or.inl h6
      · exact Or.inr ⟨h6, h7, Or.inl h8⟩
  · rw [← hoN]
    have : getAt m5.halfs tn0.topo.opposite
        = .ok (setTo (st.mesh.verts.length : Int) on2) := by
      rw [hh5, hh4]
      exact hself3
    rw [toOf_eq this]
    rfl
  · exact ⟨_, by rw [hother5 _ hvne]; exact hself4, rfl⟩
  · exact ⟨_, hself5, by simp [insertRelated]⟩
  · intro u hu1 hu2
    rw [hother5 u hu2, hother4 u hu1, hverts3]

end CutSharp
section CutMoreProofs

variable {VD HD FD : Type}

theorem loop_toOf_inj {m : Mesh VD HD FD} {p : List Int} (hp : LoopFacts m p) {x y : Int}
    (hx : x ∈ p) (hy : y ∈ p) (h : m.toOf x = m.toOf y) : x = y :=
  List.inj_on_of_nodup_map hp.nodupTo hx hy h

theorem loop_opp_ends {m : Mesh VD HD FD} (hwf : m.WF) {p : List Int} (hp : LoopFacts m p)
    {x : Int} (hx : x ∈ p) :
    ∃ o, getAt m.halfs (m.oppOf x) = .ok o ∧ o.exists_ = true ∧ o.topo.opposite = x ∧
      m.fromOf (m.oppOf x) = m.toOf x ∧ m.toOf (m.oppOf x) = m.fromOf x := by
  obtain ⟨t, o, ht, ho, h1, h2, h3, h4⟩ := wf_live_pair hwf (hp.live x hx)
  rw [oppOf_eq ht]
  exact ⟨o, ho, h1, h2, by rw [fromOf_eq ho, toOf_eq ht, h3],
    by rw [toOf_eq ho, fromOf_eq ht, h4]⟩

theorem cutMore_init {m : Mesh VD HD FD} (hm : m.WellFormed) (p : List Int) :
    CutMore m p 0 ⟨m, [], []⟩ := by
  refine ⟨fun x t ht => ⟨t, ht, rfl, rfl, rfl, Or.inl rfl, Or.inl rfl⟩, ?_,
    fun x _ => ⟨rfl, rfl⟩, fun j hj => absurd hj (Nat.not_lt_zero _),
    fun j hj => absurd hj (Nat.not_lt_zero _)⟩
  intro x hx
  obtain ⟨t, ht, hex⟩ := liveIn_eq_true.mp hx
  have hends := (hm.ends t (getAt_mem ht) hex).1
  simp only [Bool.and_eq_true] at hends
  obtain ⟨vt, hvt, -⟩ := liveIn_eq_true.mp hends.1
  obtain ⟨vt2, hvt2, hin⟩ := hm.wf.inList x t ht hex (getAt_lt_length hvt).1
  show ∃ vt, getAt m.verts (m.fromOf x) = .ok vt ∧ x ∈ vt.topo.halfedges
  rw [fromOf_eq ht]
  exact ⟨vt2, hvt2, hin⟩

/-- One round of the first loop of `DecomposeOnInternalLoop` keeps both invariants. -/
theorem cutStep_more {m : Mesh VD HD FD} (hwf : m.WF) (hl : m.ListsLive) {p : List Int}
    (hp : LoopFacts m p) {i : Nat} {st : Cut VD HD FD} (inv : CutInv m p i st)
    (more : CutMore m p i st) (hi : i < p.length) {fuel : Nat} (hfuel : m.maxDegree < fuel) :
    ∃ st2, cutStep fuel p i st = .ok (some st2) ∧ CutInv m p (i + 1) st2 ∧
      CutMore m p (i + 1) st2 := by
  obtain ⟨st2, hrun, inv2⟩ := cutStep_inv hwf hl hp inv hi hfuel
  obtain ⟨vt0, R, m5, hvt0, hrun2, ⟨hRopp, hRmem⟩, hobs, hoN, ⟨vtA, hvtA, hlistA⟩,
    ⟨vtB, hvtB, hlistB⟩, hother⟩ := cutStep_sharp hwf hl hp inv hi hfuel
  have hst2 : st2 = ⟨m5, st.thisVhs ++ [m.toOf (p.getD i Handle.none)],
      st.anotherVhs ++ [(st.mesh.verts.length : Int)]⟩ := by
    have := hrun.symm.trans hrun2
    simp only [Except.ok.injEq, Option.some.injEq] at this
    exact this
  refine ⟨st2, hrun, inv2, ?_⟩
  subst hst2
  have hhp : p.getD i Handle.none ∈ p := getD_mem_of_lt hi _
  have hnp : p.getD ((i + 1) % p.length) Handle.none ∈ p :=
    getD_mem_of_lt (Nat.mod_lt _ (by omega)) _
  have hv := not_mem_take_map m.toOf hp.nodupTo hi Handle.none
  have hvtM := inv.verts _ vt0 hvt0 hv
  have hvlt := getAt_lt_length hvt0
  have hVi : (st.mesh.verts.length : Int) = (m.verts.length : Int) + (i : Int) := by
    rw [inv.vlen]
    push_cast
    rfl
  refine ⟨?_, ?_, ?_, ?_, ?_⟩
  · intro x t ht
    obtain ⟨t2, ht2, a1, a2, a3, a4, a5⟩ := more.fields x t ht
    obtain ⟨t5, ht5, b1, -, b3, b4, b5, b6⟩ := hobs x t2 ht2
    refine ⟨t5, ht5, b1.trans a1, b3.trans a2, b4.trans a3, ?_, ?_⟩
    · by_cases hx : x ∈ R
      · rw [if_pos hx] at b5
        right
        refine ⟨i, Nat.lt_succ_self i, ?_, by rw [b5, hVi]⟩
        rw [← fromOf_eq ht]
        exact (hRmem x hx).2.1
      · rw [if_neg hx] at b5
        rcases a4 with a4 | ⟨j, hj, c1, c2⟩
        · exact Or.inl (b5.trans a4)
        · exact Or.inr ⟨j, Nat.lt_succ_of_lt hj, c1, b5.trans c2⟩
    · rcases b6 with b6 | ⟨b6, b7, -⟩
      · rcases a5 with a5 | ⟨j, hj, c1, c2⟩
        · exact Or.inl (b6.trans a5)
        · exact Or.inr ⟨j, Nat.lt_succ_of_lt hj, c1, b6.trans c2⟩
      · rcases a5 with a5 | ⟨j, hj, c1, c2⟩
        · exact Or.inr ⟨i, Nat.lt_succ_self i, by rw [← a5, b6], by rw [b7, hVi]⟩
        · exfalso
          rw [c2] at b6
          omega
  · intro x hx
    obtain ⟨t, ht, -⟩ := liveIn_eq_true.mp hx
    obtain ⟨t2, ht2, -⟩ := more.fields x t ht
    obtain ⟨t5, ht5, -, -, -, -, b5, -⟩ := hobs x t2 ht2
    obtain ⟨vt, hvt, hin⟩ := more.inList x hx
    show ∃ vt, getAt m5.verts (m5.fromOf x) = .ok vt ∧ x ∈ vt.topo.halfedges
    rw [fromOf_eq ht5, b5]
    rw [fromOf_eq ht2] at hvt
    by_cases hxR : x ∈ R
    · rw [if_pos hxR]
      exact ⟨vtB, hvtB, by rw [hlistB]; exact hxR⟩
    · rw [if_neg hxR]
      by_cases hf : t2.topo.efrom = m.toOf (p.getD i Handle.none)
      · rw [hf]
        refine ⟨vtA, hvtA, ?_⟩
        rw [hlistA]
        rw [hf, hvtM] at hvt
        simp only [Except.ok.injEq] at hvt
        subst hvt
        simp only [List.mem_filter, Bool.not_eq_true', Contains]
        exact ⟨hin, by simpa using hxR⟩
      · have hlt := getAt_lt_length hvt
        rw [hother _ hf (by omega)]
        exact ⟨vt, getAt_append_left hvt, hin⟩
  · intro x hx
    obtain ⟨t, ht, -⟩ := liveIn_eq_true.mp (hp.live x hx)
    obtain ⟨t2, ht2, -⟩ := more.fields x t ht
    obtain ⟨t5, ht5, -, -, -, -, b5, b6⟩ := hobs x t2 ht2
    obtain ⟨e1, e2⟩ := more.loopEnds x hx
    rw [fromOf_eq ht2] at e1
    rw [toOf_eq ht2] at e2
    show m5.fromOf x = m.fromOf x ∧ m5.toOf x = m.toOf x
    rw [fromOf_eq ht5, toOf_eq ht5]
    have hxR : x ∉ R := fun h => (hRmem x h).2.2 hx
    rw [if_neg hxR] at b5
    refine ⟨b5.trans e1, ?_⟩
    rcases b6 with b6 | ⟨b6, -, b8⟩
    · exact b6.trans e2
    · exfalso
      have hxx : x = p.getD i Handle.none := loop_toOf_inj hp hx hhp (by rw [← e2, b6])
      rcases b8 with b8 | b8
      · exact b8 hxx
      · exact hp.noOpp _ hnp (b8 ▸ hx)
  · intro j hj
    show m5.fromOf (m.oppOf (p.getD j Handle.none)) = _
    by_cases hji : j = i
    · subst hji
      obtain ⟨o, ho, -⟩ := loop_opp_ends hwf hp hhp
      obtain ⟨t2, ht2, -⟩ := more.fields _ o ho
      obtain ⟨t5, ht5, -, -, -, -, b5, -⟩ := hobs _ t2 ht2
      rw [fromOf_eq ht5, b5, if_pos hRopp, hVi]
    · have hj2 : j < i := by omega
      have hjp : p.getD j Handle.none ∈ p := getD_mem_of_lt (by omega) _
      obtain ⟨o, ho, -, -, hof, -⟩ := loop_opp_ends hwf hp hjp
      obtain ⟨t2, ht2, -⟩ := more.fields _ o ho
      obtain ⟨t5, ht5, -, -, -, -, b5, -⟩ := hobs _ t2 ht2
      have hold := more.oppFrom j hj2
      rw [fromOf_eq ht2] at hold
      have hnR : m.oppOf (p.getD j Handle.none) ∉ R := by
        intro h
        have h2 := (hRmem _ h).2.1
        rw [hof] at h2
        have := loop_toOf_inj hp hjp hhp h2
        exact hji (getD_inj_of_nodup (List.Nodup.of_map _ hp.nodupTo) (by omega) hi this)
      rw [fromOf_eq ht5, b5, if_neg hnR]
      exact hold
  · intro j hj
    show m5.toOf (m.oppOf (p.getD ((j + 1) % p.length) Handle.none)) = _
    by_cases hji : j = i
    · subst hji
      rw [hoN, hVi]
    · have hj2 : j < i := by omega
      have hjp : p.getD ((j + 1) % p.length) Handle.none ∈ p :=
        getD_mem_of_lt (Nat.mod_lt _ (by omega)) _
      obtain ⟨o, ho, -⟩ := loop_opp_ends hwf hp hjp
      obtain ⟨t2, ht2, -⟩ := more.fields _ o ho
      obtain ⟨t5, ht5, -, -, -, -, -, b6⟩ := hobs _ t2 ht2
      have hold := more.oppTo j hj2
      rw [toOf_eq ht2] at hold
      rw [toOf_eq ht5]
      rcases b6 with b6 | ⟨b6, -, -⟩
      · exact b6.trans hold
      · exfalso
        rw [hold] at b6
        omega

theorem cutLoop_more {m : Mesh VD HD FD} (hwf : m.WF) (hl : m.ListsLive) {p : List Int}
    (hp : LoopFacts m p) {fuel : Nat} (hfuel : m.maxDegree < fuel) :
    ∀ (k i : Nat) (st : Cut VD HD FD), i + k = p.length → CutInv m p i st →
      CutMore m p i st →
      ∃ st2, cutLoop fuel p (List.range' i k) st = .ok (some st2) ∧
        CutInv m p p.length st2 ∧ CutMore m p p.length st2 := by
  intro k
  induction k with
  | zero =>
    intro i st hik inv more
    have : i = p.length := by omega
    subst this
    exact ⟨st, rfl, inv, more⟩
  | succ k ih =>
    intro i st hik inv more
    obtain ⟨st1, hrun1, inv1, more1⟩ := cutStep_more hwf hl hp inv more (by omega) hfuel
    obtain ⟨st2, hrun2, inv2, more2⟩ := ih (i + 1) st1 (by omega) inv1 more1
    refine ⟨st2, ?_, inv2, more2⟩
    rw [List.range'_succ]
    unfold cutLoop
    simp only [hrun1]
    exact hrun2

end CutMoreProofs
section DetachFrame

variable {VD HD FD : Type}

/-- The loop that detaches the opposites, on half-edges that are pairwise different and
none the opposite of another: the half-edges of the list and their opposites have lost
their `opposite`, and no other field of a half-edge has changed. -/
theorem detachLoop_res :
    ∀ (l : List Int) {m D : Mesh VD HD FD}, l.Nodup →
      (∀ x ∈ l, ∀ y ∈ l, m.oppOf x ≠ y) → detachLoop m l = .ok D →
      D.verts = m.verts ∧ D.faces = m.faces ∧ D.halfs.length = m.halfs.length ∧
        ∀ x t, getAt m.halfs x = .ok t → ∃ t2, getAt D.halfs x = .ok t2 ∧
          t2.topo.hd = t.topo.hd ∧ t2.topo.efrom = t.topo.efrom ∧
          t2.topo.eto = t.topo.eto ∧ t2.topo.face = t.topo.face ∧ t2.exists_ = t.exists_ ∧
          (t2.topo.opposite = t.topo.opposite ∨ t2.topo.opposite = Handle.none) ∧
          ((x ∈ l ∨ ∃ y ∈ l, m.oppOf y = x) → t2.topo.opposite = Handle.none) ∧
          (x ∉ l → (∀ y ∈ l, m.oppOf y ≠ x) → t2.topo.opposite = t.topo.opposite) := by
  intro l
  induction l with
  | nil =>
    intro m D _ _ hr
    simp only [detachLoop, Except.ok.injEq] at hr
    subst hr
    refine ⟨rfl, rfl, rfl, fun x t ht =>
      ⟨t, ht, rfl, rfl, rfl, rfl, rfl, Or.inl rfl, ?_, fun _ _ => rfl⟩⟩
    rintro (h | ⟨y, hy, -⟩)
    · exact absurd h (List.not_mem_nil _)
    · exact absurd hy (List.not_mem_nil _)
  | cons hh rest ih =>
    intro m D hnd hno hr
    obtain ⟨hhn, hrnd⟩ := List.nodup_cons.mp hnd
    unfold detachLoop at hr
    cases h1 : getAt m.halfs hh with
    | error e => simp [h1] at hr
    | ok th =>
      simp only [h1] at hr
      cases h2 : m.modifyHalf th.topo.opposite (setOpp Handle.none) with
      | error e => simp [h2] at hr
      | ok m1 =>
        simp only [h2] at hr
        obtain ⟨ho0, -, rfl⟩ := modifyHalf_eq_ok_updAt.mp h2
        cases h3 : Mesh.modifyHalf
            { m with halfs := updAt m.halfs th.topo.opposite.toNat (setOpp Handle.none) } hh
            (setOpp Handle.none) with
        | error e => simp [h3] at hr
        | ok m2 =>
          simp only [h3] at hr
          obtain ⟨hh0, -, rfl⟩ := modifyHalf_eq_ok_updAt.mp h3
          have hoh : m.oppOf hh = th.topo.opposite := oppOf_eq h1
          -- the table after the two writes of the round
          have hmid : ∀ x t, getAt m.halfs x = .ok t →
              getAt (updAt (updAt m.halfs th.topo.opposite.toNat (setOpp Handle.none))
                hh.toNat (setOpp Handle.none)) x
                = .ok (if x = hh then setOpp Handle.none
                    (if x = th.topo.opposite then setOpp Handle.none t else t)
                  else (if x = th.topo.opposite then setOpp Handle.none t else t)) :=
            fun x t ht => getAt_updAt_at _ hh0 (getAt_updAt_at _ ho0 ht)
          have hkeep : ∀ y ∈ rest, Mesh.oppOf
              { m with halfs := updAt (updAt m.halfs th.topo.opposite.toNat
                (setOpp Handle.none)) hh.toNat (setOpp Handle.none) } y = m.oppOf y := by
            intro y hy
            have hy1 : y ≠ hh := fun e => hhn (e ▸ hy)
            have hy2 : y ≠ th.topo.opposite := fun e =>
              hno hh (List.mem_cons_self _ _) y (List.mem_cons_of_mem _ hy) (by rw [hoh, e])
            unfold Mesh.oppOf
            cases hg : getAt m.halfs y with
            | error e =>
              cases hg2 : getAt (updAt (updAt m.halfs th.topo.opposite.toNat
                  (setOpp Handle.none)) hh.toNat (setOpp Handle.none)) y with
              | error e2 => rfl
              | ok t2 =>
                obtain ⟨t1, ht1⟩ := getAt_updAt_back _ hg2
                obtain ⟨t0, ht0⟩ := getAt_updAt_back _ ht1
                rw [hg] at ht0
                cases ht0
            | ok t =>
              simp only [hmid y t hg, if_neg hy1, if_neg hy2]
          obtain ⟨i1, i2, i3, i4⟩ := ih hrnd (fun x hx y hy => by
            rw [hkeep x hx]
            exact hno x (List.mem_cons_of_mem _ hx) y (List.mem_cons_of_mem _ hy)) hr
          refine ⟨i1, i2, by rw [i3]; simp [length_updAt], ?_⟩
          intro x t ht
          obtain ⟨t2, ht2, b1, b2, b3, b4, b5, bo, b6, b7⟩ := i4 x _ (hmid x t ht)
          have hfields : ∀ (c1 c2 : Prop) [Decidable c1] [Decidable c2],
              (if c1 then setOpp Handle.none (if c2 then setOpp Handle.none t else t)
                else (if c2 then setOpp Handle.none t else t)).topo.hd = t.topo.hd ∧
              (if c1 then setOpp Handle.none (if c2 then setOpp Handle.none t else t)
                else (if c2 then setOpp Handle.none t else t)).topo.efrom = t.topo.efrom ∧
              (if c1 then setOpp Handle.none (if c2 then setOpp Handle.none t else t)
                else (if c2 then setOpp Handle.none t else t)).topo.eto = t.topo.eto ∧
              (if c1 then setOpp Handle.none (if c2 then setOpp Handle.none t else t)
                else (if c2 then setOpp Handle.none t else t)).topo.face = t.topo.face ∧
              (if c1 then setOpp Handle.none (if c2 then setOpp Handle.none t else t)
                else (if c2 then setOpp Handle.none t else t)).exists_ = t.exists_ ∧
              ((if c1 then setOpp Handle.none (if c2 then setOpp Handle.none t else t)
                else (if c2 then setOpp Handle.none t else t)).topo.opposite = t.topo.opposite ∨
               (if c1 then setOpp Handle.none (if c2 then setOpp Handle.none t else t)
                else (if c2 then setOpp Handle.none t else t)).topo.opposite = Handle.none) ∧
              (c1 ∨ c2 →
               (if c1 then setOpp Handle.none (if c2 then setOpp Handle.none t else t)
                else (if c2 then setOpp Handle.none t else t)).topo.opposite = Handle.none) := by
            intro c1 c2 _ _
            by_cases h1 : c1 <;> by_cases h2 : c2 <;> simp [h1, h2, setOpp]
          obtain ⟨f1, f2, f3, f4, f5, f6, f7⟩ := hfields (x = hh) (x = th.topo.opposite)
          have hmidNone : (x = hh ∨ x = th.topo.opposite) → t2.topo.opposite = Handle.none := by
            intro hc
            rcases bo with h | h
            · rw [h]; exact f7 hc
            · exact h
          refine ⟨t2, ht2, b1.trans f1, b2.trans f2, b3.trans f3, b4.trans f4, b5.trans f5,
            ?_, ?_, ?_⟩
          · rcases bo with h | h
            · rcases f6 with g | g
              · exact Or.inl (h.trans g)
              · exact Or.inr (h.trans g)
            · exact Or.inr h
          · rintro (h | ⟨y, hy, hyx⟩)
            · rcases List.mem_cons.mp h with h | h
              · exact hmidNone (Or.inl h)
              · exact b6 (Or.inl h)
            · rcases List.mem_cons.mp hy with h | hy
              · exact hmidNone (Or.inr (by rw [← hyx, h, hoh]))
              · exact b6 (Or.inr ⟨y, hy, by rw [hkeep y hy]; exact hyx⟩)
          · intro hx hall
            have hx1 : x ≠ hh := fun e => hx (e ▸ List.mem_cons_self _ _)
            have hx2 : x ≠ th.topo.opposite := fun e =>
              hall hh (List.mem_cons_self _ _) (by rw [hoh, e])
            rw [b7 (fun h => hx (List.mem_cons_of_mem _ h)) (fun y hy => by
              rw [hkeep y hy]
              exact hall y (List.mem_cons_of_mem _ hy))]
            simp [hx1, hx2]

end DetachFrame
section SewOne

variable {VD HD FD : Type}

/-- `addEdge(a, b)` with merging, on a pair of vertices where one half-edge `e` waits to
be sewn: it appends one half-edge `a -> b`, at the end of the outgoing list of `a`, makes
it and `e` the opposite of each other, and changes nothing else. -/
theorem addEdge_sew {M : Mesh VD HD FD} (hlf : M.ListsFrom) {a b e : Int}
    (hs : M.Sewable a b e) (hd hdrev : HD) :
    ∃ M4, M.addEdge a b hd hdrev true = .ok (M4, (M.halfs.length : Int)) ∧
      M4.faces = M.faces ∧ M4.halfs.length = M.halfs.length + 1 ∧
      M4.verts.length = M.verts.length ∧
      (∀ x t, getAt M.halfs x = .ok t →
        getAt M4.halfs x = .ok (if x = e then setOpp (M.halfs.length : Int) t else t)) ∧
      getAt M4.halfs (M.halfs.length : Int)
        = .ok ⟨⟨(M.halfs.length : Int), a, b, e, Handle.none⟩, hd, true⟩ ∧
      ∀ u vt, getAt M.verts u = .ok vt →
        getAt M4.verts u = .ok (if u = a then pushOut (M.halfs.length : Int) vt else vt) := by
  obtain ⟨hab, va, vb, ha, hb, hnone, he, hea, huniq⟩ := hs
  have hina : ∀ x ∈ va.topo.halfedges, ∃ t, getAt M.halfs x = .ok t := fun x hx => by
    obtain ⟨t, ht, -⟩ := hlf a va ha x hx
    exact ⟨t, ht⟩
  have hinb : ∀ x ∈ vb.topo.halfedges, ∃ t, getAt M.halfs x = .ok t := fun x hx => by
    obtain ⟨t, ht, -⟩ := hlf b vb hb x hx
    exact ⟨t, ht⟩
  obtain ⟨g1, hg1, hc1⟩ := firstTo_total (m := M) b hina
  have hg1n : g1 = Handle.none := by
    rcases hc1 with ⟨h, -⟩ | ⟨h1, h2⟩
    · exact h
    · exact absurd h2 (hnone g1 h1)
  obtain ⟨g2, hg2, hc2⟩ := firstTo_total (m := M) a hinb
  have hg2e : g2 = e := by
    rcases hc2 with ⟨-, h⟩ | ⟨h1, h2⟩
    · exact absurd hea (h e he)
    · exact huniq g2 h1 h2
  subst hg1n
  subst hg2e
  obtain ⟨te, hte⟩ := hinb g2 he
  have he0 := getAt_lt_length hte
  have ha0 := getAt_lt_length ha
  have hn0 : (0 : Int) ≤ (M.halfs.length : Int) := Int.ofNat_nonneg _
  have hne : g2 ≠ (M.halfs.length : Int) := by omega
  refine ⟨⟨updAt M.verts a.toNat (pushOut (M.halfs.length : Int)),
    updAt (updAt (M.halfs ++ [⟨⟨(M.halfs.length : Int), a, b, Handle.none, Handle.none⟩, hd, true⟩])
      (M.halfs.length : Int).toNat (setOpp g2)) g2.toNat (setOpp (M.halfs.length : Int)),
    M.faces⟩, ?_, rfl, ?_, ?_, ?_, ?_, ?_⟩
  · unfold Mesh.addEdge
    rw [if_neg hab]
    simp only [if_true]
    rw [findEdge_eq_firstTo hlf ha b, findEdge_eq_firstTo hlf hb a]
    refine bind_eq_ok.mpr ⟨Handle.none, hg1, bind_eq_ok.mpr ⟨g2, hg2, bind_eq_ok.mpr
      ⟨(⟨updAt M.verts a.toNat (pushOut (M.halfs.length : Int)),
          M.halfs ++ [⟨⟨(M.halfs.length : Int), a, b, Handle.none, Handle.none⟩, hd, true⟩],
          M.faces⟩, (M.halfs.length : Int)), ?_, bind_eq_ok.mpr
      ⟨(⟨updAt M.verts a.toNat (pushOut (M.halfs.length : Int)),
          M.halfs ++ [⟨⟨(M.halfs.length : Int), a, b, Handle.none, Handle.none⟩, hd, true⟩],
          M.faces⟩, g2), ?_, bind_eq_ok.mpr ⟨_, setOpposite_eq_ok.mpr ⟨hn0, ?_, rfl⟩,
        bind_eq_ok.mpr ⟨_, setOpposite_eq_ok.mpr ⟨he0.1, ?_, rfl⟩, rfl⟩⟩⟩⟩⟩⟩
    · have : Handle.invalid Handle.none = true := by decide
      rw [this, if_pos rfl]
      exact pushHalf_eq_ok.mpr ⟨ha0.1, by omega, rfl, rfl⟩
    · have : Handle.invalid g2 = false := by
        simp only [Handle.invalid, decide_eq_false_iff_not, not_lt]
        exact he0.1
      rw [this]
      rfl
    · simp
    · simp only [length_updAt, List.length_append, List.length_singleton]
      omega
  · simp [length_updAt]
  · simp [length_updAt]
  · intro x t ht
    have hx := getAt_lt_length ht
    have h1 : getAt (M.halfs ++ [(⟨⟨(M.halfs.length : Int), a, b, Handle.none, Handle.none⟩,
        hd, true⟩ : Triplet HalfTopo HD)]) x = .ok t := getAt_append_left ht
    have h2 := getAt_updAt_at (setOpp g2) hn0 h1
    rw [if_neg (by omega : x ≠ (M.halfs.length : Int))] at h2
    exact getAt_updAt_at (setOpp (M.halfs.length : Int)) he0.1 h2
  · have h1 := getAt_snoc_self M.halfs
      (⟨⟨(M.halfs.length : Int), a, b, Handle.none, Handle.none⟩, hd, true⟩ :
        Triplet HalfTopo HD)
    have h2 := getAt_updAt_at (setOpp g2) hn0 h1
    rw [if_pos rfl] at h2
    have h3 := getAt_updAt_at (setOpp (M.halfs.length : Int)) he0.1 h2
    rw [if_neg (Ne.symm hne)] at h3
    exact h3
  · intro u vt hu
    exact getAt_updAt_at (pushOut (M.halfs.length : Int)) ha0.1 hu

end SewOne
section SewLoop

variable {VD HD FD : Type} [Inhabited HD]

theorem sewnTo_init (M : Mesh VD HD FD) (w : List Int) (e : Nat → Int) : SewnTo M w e 0 M where
  faces := rfl
  hlen := rfl
  vlen := rfl
  old := fun _ t ht => ⟨t, ht, rfl, rfl, rfl, rfl, rfl,
    fun _ hj => absurd hj (Nat.not_lt_zero _), fun _ => rfl⟩
  fresh := fun _ hj => absurd hj (Nat.not_lt_zero _)
  verts := fun _ vt hu => ⟨vt, hu, rfl, rfl,
    fun _ hj => absurd hj (Nat.not_lt_zero _), fun _ => rfl⟩

/-- The outgoing lists agree with the `from` fields through the rounds of the sewing. -/
theorem sewnTo_listsFrom {M : Mesh VD HD FD} (hlf : M.ListsFrom) {w : List Int}
    {e : Nat → Int} {k : Nat} {Mk : Mesh VD HD FD} (h : SewnTo M w e k Mk) : Mk.ListsFrom := by
  intro u vt2 hu x hx
  have hu0 := getAt_lt_length hu
  obtain ⟨vt, hvt⟩ := getAt_of_lt M.verts hu0.1 (by
    have := h.vlen
    omega)
  obtain ⟨vt2', hvt2, -, -, c3, c4⟩ := h.verts u vt hvt
  rw [hu] at hvt2
  cases hvt2
  have hold : ∀ y ∈ vt.topo.halfedges, ∃ t, getAt Mk.halfs y = .ok t ∧ t.topo.efrom = u := by
    intro y hy
    obtain ⟨t, ht, hf⟩ := hlf u vt hvt y hy
    obtain ⟨t2, ht2, -, b2, -⟩ := h.old y t ht
    exact ⟨t2, ht2, b2.trans hf⟩
  by_cases hj : ∃ j, j < k ∧ u = w.getD j Handle.none
  · obtain ⟨j, hj1, hj2⟩ := hj
    rw [c3 j hj1 hj2] at hx
    rcases List.mem_append.mp hx with hx | hx
    · exact hold x hx
    · rw [List.mem_singleton] at hx
      subst hx
      exact ⟨_, h.fresh j hj1, hj2.symm⟩
  · push_neg at hj
    rw [c4 hj] at hx
    exact hold x hx

/-- One round of the second loop of `addFace(vertices)` on a winding all of whose pairs
wait to be sewn: the round creates the half-edge of its pair and sews it. -/
theorem sewnTo_step {M : Mesh VD HD FD} (hlf : M.ListsFrom) {w : List Int}
    (hn : 3 ≤ w.length) (hnd : w.Nodup) {e : Nat → Int}
    (hsew : ∀ i, i < w.length → M.Sewable (cyclePair w i).1 (cyclePair w i).2 (e i))
    {k : Nat} {Mk : Mesh VD HD FD} (hk : k < w.length) (h : SewnTo M w e k Mk) :
    ∃ Mk1, Mk.addEdge (cyclePair w k).1 (cyclePair w k).2 default default true
        = .ok (Mk1, (M.halfs.length : Int) + (k : Int)) ∧ SewnTo M w e (k + 1) Mk1 := by
  have hslot : ∀ i, i < w.length →
      ∃ t, getAt M.halfs (e i) = .ok t ∧ t.topo.efrom = (cyclePair w i).2 := by
    intro i hi
    obtain ⟨-, va, vb, -, hb, -, he, -, -⟩ := hsew i hi
    exact hlf _ vb hb _ he
  have hnext : ∀ i j, i < w.length → j < w.length →
      (i + 1) % w.length = (j + 1) % w.length → i = j := by
    intro i j hi hj hij
    by_cases h1 : i + 1 < w.length <;> by_cases h2 : j + 1 < w.length
    · rw [Nat.mod_eq_of_lt h1, Nat.mod_eq_of_lt h2] at hij
      omega
    · have : j + 1 = w.length := by omega
      rw [Nat.mod_eq_of_lt h1, this, Nat.mod_self] at hij
      omega
    · have : i + 1 = w.length := by omega
      rw [Nat.mod_eq_of_lt h2, this, Nat.mod_self] at hij
      omega
    · omega
  have hmodlt : ∀ i, (i + 1) % w.length < w.length := fun i => Nat.mod_lt _ (by omega)
  have heinj : ∀ i j, i < w.length → j < w.length → e i = e j → i = j := by
    intro i j hi hj hij
    obtain ⟨ti, hti, hfi⟩ := hslot i hi
    obtain ⟨tj, htj, hfj⟩ := hslot j hj
    rw [hij, htj] at hti
    cases hti
    have hg : w.getD ((i + 1) % w.length) Handle.none
        = w.getD ((j + 1) % w.length) Handle.none := hfi.symm.trans hfj
    exact hnext i j hi hj (getD_inj_of_nodup hnd (hmodlt i) (hmodlt j) hg)
  obtain ⟨hab, va, vb, ha, hb, hnone, he, hea, huniq⟩ := hsew k hk
  have hto : ∀ y t, getAt M.halfs y = .ok t → Mk.toOf y = M.toOf y := by
    intro y t ht
    obtain ⟨t2, ht2, -, -, h3, -⟩ := h.old y t ht
    rw [toOf_eq ht2, toOf_eq ht, h3]
  obtain ⟨va2, hva2, -, -, -, hva2l⟩ := h.verts _ va ha
  have hval : va2.topo.halfedges = va.topo.halfedges := hva2l (fun j hj hjk => by
    have hjk2 : w.getD k Handle.none = w.getD j Handle.none := hjk
    have := getD_inj_of_nodup hnd hk (by omega) hjk2
    omega)
  obtain ⟨vb2, hvb2, -, -, hvb2a, hvb2l⟩ := h.verts _ vb hb
  have hlfk := sewnTo_listsFrom hlf h
  have hsk : Mk.Sewable (cyclePair w k).1 (cyclePair w k).2 (e k) := by
    refine ⟨hab, va2, vb2, hva2, hvb2, ?_, ?_, ?_, ?_⟩
    · intro y hy
      rw [hval] at hy
      obtain ⟨t, ht, -⟩ := hlf _ va ha y hy
      rw [hto y t ht]
      exact hnone y hy
    · by_cases hj : ∃ j, j < k ∧ (cyclePair w k).2 = w.getD j Handle.none
      · obtain ⟨j, hj1, hj2⟩ := hj
        rw [hvb2a j hj1 hj2]
        exact List.mem_append_left _ he
      · push_neg at hj
        rw [hvb2l hj]
        exact he
    · obtain ⟨t, ht, -⟩ := hslot k hk
      rw [hto _ t ht]
      exact hea
    · intro y hy hya
      by_cases hj : ∃ j, j < k ∧ (cyclePair w k).2 = w.getD j Handle.none
      · obtain ⟨j, hj1, hj2⟩ := hj
        rw [hvb2a j hj1 hj2] at hy
        rcases List.mem_append.mp hy with hy | hy
        · obtain ⟨t, ht, -⟩ := hlf _ vb hb y hy
          rw [hto y t ht] at hya
          exact huniq y hy hya
        · exfalso
          rw [List.mem_singleton] at hy
          subst hy
          rw [toOf_eq (h.fresh j hj1)] at hya
          have hya2 : w.getD ((j + 1) % w.length) Handle.none = w.getD k Handle.none := hya
          have hj3 : w.getD ((k + 1) % w.length) Handle.none = w.getD j Handle.none := hj2
          have e1 : (j + 1) % w.length = k := getD_inj_of_nodup hnd (hmodlt j) hk hya2
          have e2 : (k + 1) % w.length = j := getD_inj_of_nodup hnd (hmodlt k) (by omega) hj3
          by_cases h1 : k + 1 < w.length
          · rw [Nat.mod_eq_of_lt h1] at e2
            omega
          · have hk1 : k + 1 = w.length := by omega
            rw [hk1, Nat.mod_self] at e2
            have hj0 : j = 0 := e2.symm
            subst hj0
            have e3 : (0 + 1) % w.length = 1 := Nat.mod_eq_of_lt (by omega)
            rw [e3] at e1
            omega
      · push_neg at hj
        rw [hvb2l hj] at hy
        obtain ⟨t, ht, -⟩ := hlf _ vb hb y hy
        rw [hto y t ht] at hya
        exact huniq y hy hya
  obtain ⟨M4, hrun, hf4, hl4, hv4, hold4, hnew4, hverts4⟩ :=
    addEdge_sew hlfk hsk (default : HD) (default : HD)
  have hlenk : (Mk.halfs.length : Int) = (M.halfs.length : Int) + (k : Int) := by
    rw [h.hlen]
    push_cast
    rfl
  rw [hlenk] at hrun hold4 hnew4 hverts4
  refine ⟨M4, hrun, ⟨by rw [hf4, h.faces], by rw [hl4, h.hlen]; omega, by rw [hv4, h.vlen],
    ?_, ?_, ?_⟩⟩
  · intro x t ht
    obtain ⟨t2, ht2, b1, b2, b3, b4, b5, b6, b7⟩ := h.old x t ht
    have h4 := hold4 x t2 ht2
    by_cases hx : x = e k
    · rw [if_pos hx] at h4
      refine ⟨_, h4, b1, b2, b3, b4, b5, ?_, ?_⟩
      · intro j hj hxj
        have hjk : j = k := heinj j k (by omega) hk (hxj.symm.trans hx)
        rw [hjk]
        rfl
      · intro hall
        exact absurd hx (hall k (Nat.lt_succ_self k))
    · rw [if_neg hx] at h4
      refine ⟨_, h4, b1, b2, b3, b4, b5, ?_, ?_⟩
      · intro j hj hxj
        have hjk : j < k := by
          rcases Nat.lt_succ_iff_lt_or_eq.mp hj with h1 | h1
          · exact h1
          · rw [h1] at hxj
            exact absurd hxj hx
        exact b6 j hjk hxj
      · intro hall
        exact b7 (fun j hj => hall j (by omega))
  · intro j hj
    rcases Nat.lt_succ_iff_lt_or_eq.mp hj with hjk | hjk
    · have h4 := hold4 _ _ (h.fresh j hjk)
      have hne : (M.halfs.length : Int) + (j : Int) ≠ e k := by
        obtain ⟨t, ht, -⟩ := hslot k hk
        have := getAt_lt_length ht
        omega
      rw [if_neg hne] at h4
      exact h4
    · rw [hjk]
      exact hnew4
  · intro u vt hu
    obtain ⟨vt2, hvt2, c1, c2, c3, c4⟩ := h.verts u vt hu
    have h4 := hverts4 u vt2 hvt2
    by_cases hx : u = (cyclePair w k).1
    · rw [if_pos hx] at h4
      refine ⟨_, h4, c1, c2, ?_, ?_⟩
      · intro j hj huj
        have hx2 : u = w.getD k Handle.none := hx
        have hjk : j = k := getD_inj_of_nodup hnd (by omega) hk (huj.symm.trans hx2)
        rw [hjk]
        show vt2.topo.halfedges ++ [_] = _
        rw [c4 (fun i hi hui => by
          have := getD_inj_of_nodup hnd (by omega) hk (hui.symm.trans hx2)
          omega)]
      · intro hall
        exact absurd hx (hall k (Nat.lt_succ_self k))
    · rw [if_neg hx] at h4
      refine ⟨_, h4, c1, c2, ?_, ?_⟩
      · intro j hj huj
        have hjk : j < k := by
          rcases Nat.lt_succ_iff_lt_or_eq.mp hj with h1 | h1
          · exact h1
          · rw [h1] at huj
            exact absurd huj hx
        exact c3 j hjk huj
      · intro hall
        exact c4 (fun j hj => hall j (by omega))

/-- The second loop of `addFace(vertices)` on a winding all of whose pairs wait to be
sewn: it runs through, collects the new half-edges in the order of the rounds, and has
sewn every pair. -/
theorem addEdgesLoop_sew {M : Mesh VD HD FD} (hlf : M.ListsFrom) {w : List Int}
    (hn : 3 ≤ w.length) (hnd : w.Nodup) {e : Nat → Int}
    (hsew : ∀ i, i < w.length → M.Sewable (cyclePair w i).1 (cyclePair w i).2 (e i)) :
    ∀ (r k : Nat) (Mk : Mesh VD HD FD), k + r = w.length → SewnTo M w e k Mk →
      ∃ M2, addEdgesLoop w Mk (List.range' k r)
          = .ok (M2, (List.range' k r).map (fun (j : Nat) => (M.halfs.length : Int) + (j : Int))) ∧
        SewnTo M w e w.length M2 := by
  intro r
  induction r with
  | zero =>
    intro k Mk hk h
    have hkl : k = w.length := by omega
    rw [hkl] at h
    exact ⟨Mk, rfl, h⟩
  | succ r ih =>
    intro k Mk hk h
    obtain ⟨Mk1, hrun, h1⟩ := sewnTo_step hlf hn hnd hsew (by omega : k < w.length) h
    obtain ⟨M2, hrec, h2⟩ := ih (k + 1) Mk1 (by omega) h1
    refine ⟨M2, ?_, h2⟩
    rw [List.range'_succ]
    unfold addEdgesLoop
    rw [hrun]
    simp only
    rw [hrec]
    rfl

end SewLoop
section SewFace

variable {VD HD FD : Type} [Inhabited HD]

/-- `addFace(vertices, autoflip = true, fd)` on a mesh that is stitched but for the set
`S`, when the winding it settles on is `w` and every pair of consecutive vertices of `w`
waits to be sewn, the half-edges waiting being the set `E` within `S`: the call returns,
and the mesh is stitched but for `S` without `E`. The old half-edges keep their ends and
the outgoing lists of the vertices off the winding are as before. -/
theorem addFaceVerts_stitch {M : Mesh VD HD FD} (hlf : M.ListsFrom) {S E : Int → Prop}
    (hsb : M.StitchedBut S) (hS : ∀ x, S x → ∃ t, getAt M.halfs x = .ok t)
    (hES : ∀ x, E x → S x) {vs w : List Int} (hwind : M.faceWinding vs true = .ok w)
    (hvs : 3 ≤ vs.length) (hn : 3 ≤ w.length) (hnd : w.Nodup)
    (hsew : ∀ i, i < w.length → ∃ e, E e ∧ M.Sewable (cyclePair w i).1 (cyclePair w i).2 e)
    (hE : ∀ x, E x → ∃ i, i < w.length ∧ M.Sewable (cyclePair w i).1 (cyclePair w i).2 x)
    (fd : FD) :
    ∃ M2, M.addFaceVerts vs true fd = .ok (M2, (M.faces.length : Int)) ∧ M2.ListsFrom ∧
      M2.StitchedBut (fun x => S x ∧ ¬ E x) ∧ M2.verts.length = M.verts.length ∧
      M2.faces.length = M.faces.length + 1 ∧
      (∀ x t, getAt M.halfs x = .ok t → ∃ t2, getAt M2.halfs x = .ok t2 ∧
        t2.topo.efrom = t.topo.efrom ∧ t2.topo.eto = t.topo.eto) ∧
      ∀ u vt, getAt M.verts u = .ok vt → u ∉ w →
        ∃ vt2, getAt M2.verts u = .ok vt2 ∧ vt2.topo.halfedges = vt.topo.halfedges := by
  choose! e he using hsew
  have hsew2 : ∀ i, i < w.length → M.Sewable (cyclePair w i).1 (cyclePair w i).2 (e i) :=
    fun i hi => (he i hi).2
  have hslot : ∀ i, i < w.length → ∃ t, getAt M.halfs (e i) = .ok t := by
    intro i hi
    obtain ⟨-, va, vb, -, hb, -, hmem, -, -⟩ := hsew2 i hi
    obtain ⟨t, ht, -⟩ := hlf _ vb hb _ hmem
    exact ⟨t, ht⟩
  -- a half-edge of `E` is the one of its round
  have hEe : ∀ x, E x → ∃ i, i < w.length ∧ x = e i := by
    intro x hx
    obtain ⟨i, hi, -, va, vb, -, hb, -, hmem, hto, -⟩ := hE x hx
    obtain ⟨-, va2, vb2, -, hb2, -, -, -, huniq⟩ := hsew2 i hi
    rw [hb] at hb2
    cases hb2
    exact ⟨i, hi, huniq x hmem hto⟩
  obtain ⟨M1, hrun1, hsw⟩ := addEdgesLoop_sew hlf hn hnd hsew2 w.length 0 M (by omega)
    (sewnTo_init M w e)
  rw [← List.range_eq_range'] at hrun1
  have hmem : ∀ x, x ∈ (List.range w.length).map
      (fun (j : Nat) => (M.halfs.length : Int) + (j : Int))
      ↔ ∃ j, j < w.length ∧ x = (M.halfs.length : Int) + (j : Int) := by
    intro x
    simp only [List.mem_map, List.mem_range]
    constructor
    · rintro ⟨j, hj, rfl⟩
      exact ⟨j, hj, rfl⟩
    · rintro ⟨j, hj, rfl⟩
      exact ⟨j, hj, rfl⟩
  obtain ⟨halfs2, hset⟩ : ∃ halfs2, setFaces (M1.faces.length : Int) M1.halfs
      ((List.range w.length).map (fun (j : Nat) => (M.halfs.length : Int) + (j : Int)))
      = .ok halfs2 :=
    setFaces_total (fun x hx => by
      obtain ⟨j, hj, rfl⟩ := (hmem x).mp hx
      have := hsw.hlen
      omega)
  obtain ⟨hlen2, -, hpt2⟩ := setFaces_spec hset
  -- the reads of the new table
  have hold : ∀ x t, getAt M.halfs x = .ok t → ∃ t2, getAt halfs2 x = .ok t2 ∧
      t2.topo.hd = t.topo.hd ∧ t2.topo.efrom = t.topo.efrom ∧ t2.topo.eto = t.topo.eto ∧
      t2.topo.face = t.topo.face ∧ t2.exists_ = t.exists_ ∧
      (∀ j, j < w.length → x = e j →
        t2.topo.opposite = (M.halfs.length : Int) + (j : Int)) ∧
      ((∀ j, j < w.length → x ≠ e j) → t2.topo.opposite = t.topo.opposite) := by
    intro x t ht
    obtain ⟨t2, ht2, b⟩ := hsw.old x t ht
    have h2 := hpt2 x t2 ht2
    have hx := getAt_lt_length ht
    rw [if_neg (fun hc => by
      obtain ⟨j, -, hj⟩ := (hmem x).mp hc
      omega)] at h2
    exact ⟨t2, h2, b⟩
  have hfresh : ∀ j, j < w.length →
      getAt halfs2 ((M.halfs.length : Int) + (j : Int))
        = .ok ⟨⟨(M.halfs.length : Int) + (j : Int), (cyclePair w j).1, (cyclePair w j).2,
            e j, (M1.faces.length : Int)⟩, default, true⟩ := by
    intro j hj
    have h2 := hpt2 _ _ (hsw.fresh j hj)
    rw [if_pos ((hmem _).mpr ⟨j, hj, rfl⟩)] at h2
    exact h2
  have hlf1 := sewnTo_listsFrom hlf hsw
  have hlist : ∀ u vt, getAt M.verts u = .ok vt → ∃ vt2, getAt M1.verts u = .ok vt2 ∧
      ∀ y ∈ vt.topo.halfedges, y ∈ vt2.topo.halfedges := by
    intro u vt hu
    obtain ⟨vt2, hvt2, -, -, c3, c4⟩ := hsw.verts u vt hu
    refine ⟨vt2, hvt2, fun y hy => ?_⟩
    by_cases hj : ∃ j, j < w.length ∧ u = w.getD j Handle.none
    · obtain ⟨j, hj1, hj2⟩ := hj
      rw [c3 j hj1 hj2]
      exact List.mem_append_left _ hy
    · push_neg at hj
      rw [c4 hj]
      exact hy
  refine ⟨⟨M1.verts, halfs2, M1.faces ++ [⟨⟨(M1.faces.length : Int),
      (List.range w.length).map (fun (j : Nat) => (M.halfs.length : Int) + (j : Int))⟩,
      fd, true⟩]⟩,
    addFaceVerts_eq_ok.mpr ⟨hvs, w, M1, _, hwind, hrun1,
      addFace_eq_ok.mpr ⟨halfs2, hset, by rw [hsw.faces], rfl⟩⟩, ?_, ?_, hsw.vlen,
    by simp [hsw.faces], ?_, ?_⟩
  · -- the lists agree with the `from` fields
    intro u vt2 hu x hx
    obtain ⟨t, ht, hf⟩ := hlf1 u vt2 hu x hx
    have h2 := hpt2 x t ht
    refine ⟨_, h2, ?_⟩
    split_ifs
    · exact hf
    · exact hf
  · -- stitched but for the rest of `S`
    intro x t2 hx hlive
    have hx0 := getAt_lt_length hx
    have hxl : x < (M.halfs.length : Int) + (w.length : Int) := by
      have h1 := hx0.2
      rw [hlen2, hsw.hlen] at h1
      push_cast at h1
      exact h1
    by_cases hxn : x < (M.halfs.length : Int)
    · obtain ⟨t, ht⟩ := getAt_of_lt M.halfs hx0.1 hxn
      obtain ⟨t2', ht2, b1, b2, b3, b4, b5, b6, b7⟩ := hold x t ht
      have hx2 : getAt halfs2 x = .ok t2 := hx
      rw [ht2] at hx2
      cases hx2
      obtain ⟨s1, s2, s3, s4, ⟨vt, hvt, hxv⟩, ⟨ft, hft, hxf⟩, s7⟩ :=
        hsb x t ht (b5.symm.trans hlive)
      refine ⟨b1.trans s1, by rw [b4]; exact s2, by rw [b2]; exact s3, by rw [b3]; exact s4,
        ?_, ?_, ?_⟩
      · obtain ⟨vt2, hvt2, hsub⟩ := hlist _ vt hvt
        exact ⟨vt2, by rw [b2]; exact hvt2, hsub x hxv⟩
      · refine ⟨ft, ?_, hxf⟩
        rw [b4]
        show getAt (M1.faces ++ _) _ = _
        rw [hsw.faces]
        exact getAt_append_left hft
      · intro hns
        by_cases hEx : E x
        · obtain ⟨i, hi, hxi⟩ := hEe x hEx
          have ho := b6 i hi hxi
          rw [ho]
          refine ⟨fun hc => ?_, _, hfresh i hi, hxi.symm⟩
          obtain ⟨tn, htn⟩ := hS _ hc.1
          have := getAt_lt_length htn
          omega
        · have hSx : ¬ S x := fun hc => hns ⟨hc, hEx⟩
          obtain ⟨hnso, ot, hot, hoo⟩ := s7 hSx
          have ho := b7 (fun j hj hxj => hEx (hxj ▸ (he j hj).1))
          rw [ho]
          refine ⟨fun hc => hnso hc.1, ?_⟩
          obtain ⟨ot2, hot2, -, -, -, -, -, -, d7⟩ := hold _ ot hot
          exact ⟨ot2, hot2, (d7 (fun j hj hoj => hnso (hoj ▸ hES _ (he j hj).1))).trans hoo⟩
    · have hj : (x - (M.halfs.length : Int)).toNat < w.length := by omega
      have hxe : x = (M.halfs.length : Int) + ((x - (M.halfs.length : Int)).toNat : Int) := by
        omega
      generalize (x - (M.halfs.length : Int)).toNat = j at hj hxe
      subst hxe
      have hx2 : getAt halfs2 ((M.halfs.length : Int) + (j : Int)) = .ok t2 := hx
      rw [hfresh j hj] at hx2
      cases hx2
      obtain ⟨-, va, vb, ha, hb, -, -, -, -⟩ := hsew2 j hj
      obtain ⟨vt2, hvt2, -, -, c3, -⟩ := hsw.verts _ va ha
      refine ⟨rfl, Int.ofNat_nonneg _, (getAt_lt_length ha).1, (getAt_lt_length hb).1,
        ⟨vt2, hvt2, ?_⟩, ⟨(⟨⟨(M1.faces.length : Int), (List.range w.length).map
          (fun (j : Nat) => (M.halfs.length : Int) + (j : Int))⟩, fd, true⟩ :
            Triplet FaceTopo FD), ?_, (hmem _).mpr ⟨j, hj, rfl⟩⟩, ?_⟩
      · rw [c3 j hj rfl]
        exact List.mem_append_right _ (List.mem_singleton.mpr rfl)
      · exact getAt_snoc_self M1.faces _
      · intro _
        refine ⟨fun hc => hc.2 (he j hj).1, ?_⟩
        obtain ⟨te, hte⟩ := hslot j hj
        obtain ⟨te2, hte2, -, -, -, -, -, d6, -⟩ := hold _ te hte
        exact ⟨te2, hte2, d6 j hj rfl⟩
  · intro x t ht
    obtain ⟨t2, ht2, -, b2, b3, -⟩ := hold x t ht
    exact ⟨t2, ht2, b2, b3⟩
  · intro u vt hu huw
    obtain ⟨vt2, hvt2, -, -, -, c4⟩ := hsw.verts u vt hu
    exact ⟨vt2, hvt2, c4 (fun j hj huj => huw (huj ▸ getD_mem_of_lt hj _))⟩

end SewFace
section Winding

variable {VD HD FD : Type}

/-- The autoflip loop reverses the winding when the first pair of vertices is joined
by a half-edge with a valid face: here the pair is `(b, a)` of a pair `(a, b)` that
waits to be sewn, and the waiting half-edge has a face. -/
theorem faceWinding_flip {M : Mesh VD HD FD} (hlf : M.ListsFrom) {vs : List Int}
    (hpos : 0 < vs.length) {a b e : Int} (hs : M.Sewable a b e)
    (hpair : cyclePair vs 0 = (b, a)) {te : Triplet HalfTopo HD}
    (hte : getAt M.halfs e = .ok te) (hface : 0 ≤ te.topo.face) :
    M.faceWinding vs true = .ok vs.reverse := by
  obtain ⟨-, va, vb, -, hb, -, he, hea, huniq⟩ := hs
  have hinb : ∀ x ∈ vb.topo.halfedges, ∃ t, getAt M.halfs x = .ok t := fun x hx => by
    obtain ⟨t, ht, -⟩ := hlf b vb hb x hx
    exact ⟨t, ht⟩
  obtain ⟨g, hg, hc⟩ := firstTo_total (m := M) a hinb
  have hge : g = e := by
    rcases hc with ⟨-, h⟩ | ⟨h1, h2⟩
    · exact absurd hea (h e he)
    · exact huniq g h1 h2
  subst hge
  have h1 : (cyclePair vs 0).1 = b := by rw [hpair]
  have h2 : (cyclePair vs 0).2 = a := by rw [hpair]
  obtain ⟨n, hn⟩ : ∃ n, vs.length = n + 1 := ⟨vs.length - 1, by omega⟩
  have hfind : M.findEdge (cyclePair vs 0).1 (cyclePair vs 0).2 = .ok g := by
    rw [h1, h2, findEdge_eq_firstTo hlf hb a]
    exact hg
  have hvalid : Handle.valid g = true := by
    simp only [Handle.valid, decide_eq_true_eq]
    exact (getAt_lt_length hte).1
  have hfv : Handle.valid te.topo.face = true := by
    simp only [Handle.valid, decide_eq_true_eq]
    exact hface
  have hloop : autoflipLoop M vs (List.range (n + 1)) = .ok true := by
    rw [List.range_succ_eq_map]
    unfold autoflipLoop
    rw [hfind]
    simp only [hvalid, if_true, hte, hfv]
  unfold Mesh.faceWinding
  rw [hn]
  simp only [if_true, hloop]

/-- The autoflip loop leaves the winding as it is when no pair of consecutive vertices
is joined by a half-edge from the first to the second. -/
theorem autoflipLoop_keep {M : Mesh VD HD FD} (hlf : M.ListsFrom) {vs : List Int} :
    ∀ (is : List Nat), (∀ i ∈ is, ∃ va, getAt M.verts (cyclePair vs i).1 = .ok va ∧
        ∀ y ∈ va.topo.halfedges, M.toOf y ≠ (cyclePair vs i).2) →
      autoflipLoop M vs is = .ok false := by
  intro is
  induction is with
  | nil => intro _; rfl
  | cons i rest ih =>
    intro hall
    obtain ⟨va, ha, hnone⟩ := hall i (List.mem_cons_self _ _)
    have hina : ∀ x ∈ va.topo.halfedges, ∃ t, getAt M.halfs x = .ok t := fun x hx => by
      obtain ⟨t, ht, -⟩ := hlf _ va ha x hx
      exact ⟨t, ht⟩
    obtain ⟨g, hg, hc⟩ := firstTo_total (m := M) (cyclePair vs i).2 hina
    have hgn : g = Handle.none := by
      rcases hc with ⟨h, -⟩ | ⟨h1, h2⟩
      · exact h
      · exact absurd h2 (hnone g h1)
    subst hgn
    unfold autoflipLoop
    rw [findEdge_eq_firstTo hlf ha, hg]
    have hv : Handle.valid Handle.none = false := by decide
    simp only [hv]
    exact ih (fun j hj => hall j (List.mem_cons_of_mem _ hj))

theorem faceWinding_keep {M : Mesh VD HD FD} (hlf : M.ListsFrom) {vs : List Int}
    (hnone : ∀ i, i < vs.length → ∃ va, getAt M.verts (cyclePair vs i).1 = .ok va ∧
      ∀ y ∈ va.topo.halfedges, M.toOf y ≠ (cyclePair vs i).2) :
    M.faceWinding vs true = .ok vs := by
  unfold Mesh.faceWinding
  simp only [if_true]
  rw [autoflipLoop_keep hlf (List.range vs.length)
    (fun i hi => hnone i (List.mem_range.mp hi))]
  rfl

end Winding

section CopyFrame

variable {VD HD FD : Type}

/-- A copy of a payload, when it returns, has changed no topology and no tombstone. -/
theorem copyData_res {m m2 : Mesh VD HD FD} {dst src : Int}
    (h : copyData m dst src = .ok m2) :
    m2.verts = m.verts ∧ m2.faces = m.faces ∧ m2.halfs.length = m.halfs.length ∧
      ∀ x t, getAt m.halfs x = .ok t →
        ∃ t2, getAt m2.halfs x = .ok t2 ∧ t2.topo = t.topo ∧ t2.exists_ = t.exists_ := by
  unfold copyData at h
  cases h1 : getAt m.halfs src with
  | error e => simp [h1] at h
  | ok ts =>
    simp only [h1] at h
    cases h2 : getAt m.halfs ts.topo.opposite with
    | error e => simp [h2] at h
    | ok topp =>
      simp only [h2] at h
      obtain ⟨hd0, -, rfl⟩ := modifyHalf_eq_ok_updAt.mp h
      refine ⟨rfl, rfl, length_updAt _ _ _, fun x t ht => ?_⟩
      refine ⟨_, getAt_updAt_at _ hd0 ht, ?_, ?_⟩ <;> split_ifs <;> rfl

/-- The last loop of `DecomposeOnInternalLoop`, when it returns, has changed no topology
and no tombstone. -/
theorem copyLoop_res {thisVhs anotherVhs : List Int} {fh1 fh2 : Int} :
    ∀ (is : List Nat) {m m2 : Mesh VD HD FD},
      copyLoop thisVhs anotherVhs fh1 fh2 m is = .ok m2 →
      m2.verts = m.verts ∧ m2.faces = m.faces ∧ m2.halfs.length = m.halfs.length ∧
        ∀ x t, getAt m.halfs x = .ok t →
          ∃ t2, getAt m2.halfs x = .ok t2 ∧ t2.topo = t.topo ∧ t2.exists_ = t.exists_ := by
  intro is
  induction is with
  | nil =>
    intro m m2 h
    simp only [copyLoop, Except.ok.injEq] at h
    subst h
    exact ⟨rfl, rfl, rfl, fun x t ht => ⟨t, ht, rfl, rfl⟩⟩
  | cons i rest ih =>
    intro m m2 h
    unfold copyLoop at h
    cases h1 : cutHalf m fh1 fh2 (cyclePair anotherVhs i).1 (cyclePair anotherVhs i).2 with
    | error e => simp [h1] at h
    | ok a =>
      simp only [h1] at h
      cases h2 : cutHalf m fh1 fh2 (cyclePair thisVhs i).1 (cyclePair thisVhs i).2 with
      | error e => simp [h2] at h
      | ok b =>
        simp only [h2] at h
        by_cases hv : (!(Handle.valid a && Handle.valid b)) = true
        · rw [if_pos hv] at h
          cases h
        · rw [if_neg hv] at h
          cases h3 : copyData m a b with
          | error e => simp [h3] at h
          | ok m1 =>
            simp only [h3] at h
            cases h4 : copyData m1 b a with
            | error e => simp [h4] at h
            | ok m3 =>
              simp only [h4] at h
              obtain ⟨a1, a2, a3, a4⟩ := copyData_res h3
              obtain ⟨b1, b2, b3, b4⟩ := copyData_res h4
              obtain ⟨c1, c2, c3, c4⟩ := ih h
              refine ⟨by rw [c1, b1, a1], by rw [c2, b2, a2], by rw [c3, b3, a3], ?_⟩
              intro x t ht
              obtain ⟨t1, ht1, e1, f1⟩ := a4 x t ht
              obtain ⟨t2, ht2, e2, f2⟩ := b4 x t1 ht1
              obtain ⟨t3, ht3, e3, f3⟩ := c4 x t2 ht2
              exact ⟨t3, ht3, by rw [e3, e2, e1], by rw [f3, f2, f1]⟩

/-- Two tables of the same size with the same ends slot by slot give the same `from()`
and `to()` for every handle. -/
theorem ends_congr {M D : Mesh VD HD FD} (hlen : D.halfs.length = M.halfs.length)
    (h : ∀ x t, getAt M.halfs x = .ok t → ∃ t2, getAt D.halfs x = .ok t2 ∧
      t2.topo.efrom = t.topo.efrom ∧ t2.topo.eto = t.topo.eto ∧ t2.exists_ = t.exists_) :
    ∀ y, D.fromOf y = M.fromOf y ∧ D.toOf y = M.toOf y ∧
      liveIn D.halfs y = liveIn M.halfs y := by
  intro y
  unfold Mesh.fromOf Mesh.toOf liveIn
  cases hy : getAt M.halfs y with
  | ok t =>
    obtain ⟨t2, ht2, e1, e2, e3⟩ := h y t hy
    simp only [ht2]
    exact ⟨e1, e2, e3⟩
  | error e =>
    cases hy2 : getAt D.halfs y with
    | ok t2 =>
      exfalso
      obtain ⟨h0, h1⟩ := getAt_isOk_iff.mp ⟨t2, hy2⟩
      rw [hlen] at h1
      obtain ⟨t, ht⟩ := getAt_isOk_iff.mpr ⟨h0, h1⟩
      rw [hy] at ht
      cases ht
    | error e2 => exact ⟨rfl, rfl, rfl⟩

end CopyFrame
section Detached

variable {VD HD FD : Type}

theorem noParallel_eq {m : Mesh VD HD FD} (hm : m.WellFormed) (hnp : m.NoParallel) {x y : Int}
    (hx : liveIn m.halfs x = true) (hy : liveIn m.halfs y = true)
    (hf : m.fromOf x = m.fromOf y) (ht : m.toOf x = m.toOf y) : x = y := by
  obtain ⟨tx, htx, hex⟩ := liveIn_eq_true.mp hx
  obtain ⟨ty, hty, hey⟩ := liveIn_eq_true.mp hy
  rw [fromOf_eq htx, fromOf_eq hty] at hf
  rw [toOf_eq htx, toOf_eq hty] at ht
  have := hnp tx (getAt_mem htx) ty (getAt_mem hty) hex hey hf ht
  rw [hm.wf.halfHd x tx htx, hm.wf.halfHd y ty hty] at this
  exact this

/-- The ends of a non-removed half-edge of a well-formed mesh are two different slots
of `_verts`. -/
theorem live_ends {m : Mesh VD HD FD} (hm : m.WellFormed) {x : Int}
    (hx : liveIn m.halfs x = true) :
    (0 ≤ m.fromOf x ∧ m.fromOf x < (m.verts.length : Int)) ∧
      (0 ≤ m.toOf x ∧ m.toOf x < (m.verts.length : Int)) ∧ m.fromOf x ≠ m.toOf x := by
  obtain ⟨t, ht, hex⟩ := liveIn_eq_true.mp hx
  obtain ⟨hlv, hne⟩ := hm.ends t (getAt_mem ht) hex
  rw [Bool.and_eq_true] at hlv
  obtain ⟨v1, hv1, -⟩ := liveIn_eq_true.mp hlv.1
  obtain ⟨v2, hv2, -⟩ := liveIn_eq_true.mp hlv.2
  rw [fromOf_eq ht, toOf_eq ht]
  exact ⟨getAt_lt_length hv1, getAt_lt_length hv2, hne⟩

/-- A half-edge whose two ends are valid after the first loop was a non-removed
half-edge before it, and each end is the old one or has moved from the end vertex of a
round to the new vertex of that round. -/
theorem cut_back {m : Mesh VD HD FD} (hm : m.WellFormed) {p : List Int} (hp : LoopFacts m p)
    {st : Cut VD HD FD} (more : CutMore m p p.length st) {y : Int}
    {t : Triplet HalfTopo HD} (ht : getAt m.halfs y = .ok t)
    (h1 : 0 ≤ st.mesh.fromOf y) (h2 : 0 ≤ st.mesh.toOf y) :
    liveIn m.halfs y = true ∧
      (st.mesh.fromOf y = m.fromOf y ∨ ∃ j, j < p.length ∧
        m.fromOf y = m.toOf (p.getD j Handle.none) ∧
        st.mesh.fromOf y = (m.verts.length : Int) + (j : Int)) ∧
      (st.mesh.toOf y = m.toOf y ∨ ∃ j, j < p.length ∧
        m.toOf y = m.toOf (p.getD j Handle.none) ∧
        st.mesh.toOf y = (m.verts.length : Int) + (j : Int)) := by
  obtain ⟨t2, ht2, -, -, -, f5, f6⟩ := more.fields y t ht
  have hv : ∀ j, j < p.length → 0 ≤ m.toOf (p.getD j Handle.none) := fun j hj =>
    (live_ends hm (hp.live _ (getD_mem_of_lt hj _))).2.1.1
  rw [fromOf_eq ht2] at h1 ⊢
  rw [toOf_eq ht2] at h2 ⊢
  rw [fromOf_eq ht, toOf_eq ht]
  refine ⟨liveIn_of_ends hm.wf ht ?_ ?_, f5, f6⟩
  · rcases f5 with h | ⟨j, hj, e1, -⟩
    · rw [← h]
      exact h1
    · rw [e1]
      exact hv j hj
  · rcases f6 with h | ⟨j, hj, e1, -⟩
    · rw [← h]
      exact h2
    · rw [e1]
      exact hv j hj

/-- After the first loop and the detaching, between the two ends of a loop half-edge `x`
only `x` is left: its former opposite has moved to the new vertices. -/
theorem sewable_this {m : Mesh VD HD FD} (hm : m.WellFormed) (hnp : m.NoParallel)
    {p : List Int} (hp : LoopFacts m p) {st : Cut VD HD FD}
    (more : CutMore m p p.length st) (hlf : st.mesh.ListsFrom)
    (hvl : st.mesh.verts.length = m.verts.length + p.length)
    (hhl : st.mesh.halfs.length = m.halfs.length) {x : Int} (hx : x ∈ p) :
    st.mesh.Sewable (m.toOf x) (m.fromOf x) x := by
  have hxl := hp.live x hx
  obtain ⟨⟨f0, f1⟩, ⟨t0, t1⟩, hne⟩ := live_ends hm hxl
  obtain ⟨o, ho, hol, -, hof, hot⟩ := loop_opp_ends hm.wf hp hx
  have holive : liveIn m.halfs (m.oppOf x) = true := liveIn_eq_true.mpr ⟨o, ho, hol⟩
  obtain ⟨k, hk, hxk⟩ := mem_iff_getD Handle.none hx
  obtain ⟨va, hva⟩ := getAt_of_lt st.mesh.verts t0 (by rw [hvl]; push_cast; omega)
  obtain ⟨vb, hvb⟩ := getAt_of_lt st.mesh.verts f0 (by rw [hvl]; push_cast; omega)
  obtain ⟨hle1, hle2⟩ := more.loopEnds x hx
  have hback : ∀ y a b, (0 ≤ a ∧ a < (m.verts.length : Int)) →
      (0 ≤ b ∧ b < (m.verts.length : Int)) → st.mesh.fromOf y = a → st.mesh.toOf y = b →
      (∃ ty, getAt st.mesh.halfs y = .ok ty) →
      liveIn m.halfs y = true ∧ m.fromOf y = a ∧ m.toOf y = b := by
    intro y a b ha hb hya hyb ⟨ty, hty⟩
    have hy0 := getAt_lt_length hty
    obtain ⟨t, ht⟩ := getAt_of_lt m.halfs hy0.1 (by rw [← hhl]; exact hy0.2)
    obtain ⟨hl, r5, r6⟩ := cut_back hm hp more ht (by rw [hya]; exact ha.1)
      (by rw [hyb]; exact hb.1)
    refine ⟨hl, ?_, ?_⟩
    · rcases r5 with h | ⟨j, -, -, h⟩
      · rw [← h]
        exact hya
      · omega
    · rcases r6 with h | ⟨j, -, -, h⟩
      · rw [← h]
        exact hyb
      · omega
  refine ⟨Ne.symm hne, va, vb, hva, hvb, ?_, ?_, hle2, ?_⟩
  · intro y hy hyb
    obtain ⟨ty, hty, hfy⟩ := hlf _ va hva y hy
    obtain ⟨hl, e1, e2⟩ := hback y _ _ ⟨t0, t1⟩ ⟨f0, f1⟩ (by rw [fromOf_eq hty]; exact hfy) hyb
      ⟨ty, hty⟩
    have hyo : y = m.oppOf x := noParallel_eq hm hnp hl holive (by rw [e1, hof])
      (by rw [e2, hot])
    have h3 := more.oppFrom k hk
    rw [hxk, ← hyo, fromOf_eq hty, hfy] at h3
    omega
  · obtain ⟨vt, hvt, hmem⟩ := more.inList x hxl
    rw [hle1, hvb] at hvt
    cases hvt
    exact hmem
  · intro y hy hya
    obtain ⟨ty, hty, hfy⟩ := hlf _ vb hvb y hy
    obtain ⟨hl, e1, e2⟩ := hback y _ _ ⟨f0, f1⟩ ⟨t0, t1⟩ (by rw [fromOf_eq hty]; exact hfy) hya
      ⟨ty, hty⟩
    exact noParallel_eq hm hnp hl hxl e1 e2

/-- After the first loop and the detaching, between the new vertices of two consecutive
rounds only the former opposite of the loop half-edge between the two rounds is left. -/
theorem sewable_other {m : Mesh VD HD FD} (hm : m.WellFormed) (hnp : m.NoParallel)
    {p : List Int} (hp : LoopFacts m p) (hn : 2 ≤ p.length) {st : Cut VD HD FD}
    (more : CutMore m p p.length st) (hlf : st.mesh.ListsFrom)
    (hvl : st.mesh.verts.length = m.verts.length + p.length)
    (hhl : st.mesh.halfs.length = m.halfs.length) {i : Nat} (hi : i < p.length) :
    st.mesh.Sewable ((m.verts.length : Int) + (i : Int))
      ((m.verts.length : Int) + (((i + 1) % p.length : Nat) : Int))
      (m.oppOf (p.getD ((i + 1) % p.length) Handle.none)) := by
  have hi2 : (i + 1) % p.length < p.length := Nat.mod_lt _ (by omega)
  have hii : (i + 1) % p.length ≠ i := by
    by_cases h : i + 1 < p.length
    · rw [Nat.mod_eq_of_lt h]
      omega
    · have : i + 1 = p.length := by omega
      rw [this, Nat.mod_self]
      omega
  generalize hi3 : (i + 1) % p.length = i2 at hi2 hii
  have hx : p.getD i2 Handle.none ∈ p := getD_mem_of_lt hi2 _
  have hxi : p.getD i Handle.none ∈ p := getD_mem_of_lt hi _
  have hxl := hp.live _ hx
  have hnext : m.fromOf (p.getD i2 Handle.none) = m.toOf (p.getD i Handle.none) := by
    rw [← hi3]
    exact hp.next i hi
  obtain ⟨o, ho, hol, -, hof, hot⟩ := loop_opp_ends hm.wf hp hx
  have holive : liveIn m.halfs (m.oppOf (p.getD i2 Handle.none)) = true :=
    liveIn_eq_true.mpr ⟨o, ho, hol⟩
  obtain ⟨va, hva⟩ := getAt_of_lt st.mesh.verts
    (by omega : (0 : Int) ≤ (m.verts.length : Int) + (i : Int)) (by rw [hvl]; push_cast; omega)
  obtain ⟨vb, hvb⟩ := getAt_of_lt st.mesh.verts
    (by omega : (0 : Int) ≤ (m.verts.length : Int) + (i2 : Int))
    (by rw [hvl]; push_cast; omega)
  have hinj : ∀ j k, j < p.length → k < p.length →
      m.toOf (p.getD j Handle.none) = m.toOf (p.getD k Handle.none) → j = k := by
    intro j k hj hk h
    have := loop_toOf_inj hp (getD_mem_of_lt hj _) (getD_mem_of_lt hk _) h
    have hnd : p.Nodup := by
      have := hp.nodupTo
      exact List.Nodup.of_map _ this
    exact getD_inj_of_nodup hnd hj hk this
  have hback : ∀ y (a b : Nat), a < p.length → b < p.length →
      st.mesh.fromOf y = (m.verts.length : Int) + (a : Int) →
      st.mesh.toOf y = (m.verts.length : Int) + (b : Int) →
      (∃ ty, getAt st.mesh.halfs y = .ok ty) →
      liveIn m.halfs y = true ∧ m.fromOf y = m.toOf (p.getD a Handle.none) ∧
        m.toOf y = m.toOf (p.getD b Handle.none) := by
    intro y a b ha hb hya hyb ⟨ty, hty⟩
    have hy0 := getAt_lt_length hty
    obtain ⟨t, ht⟩ := getAt_of_lt m.halfs hy0.1 (by rw [← hhl]; exact hy0.2)
    obtain ⟨hl, r5, r6⟩ := cut_back hm hp more ht (by rw [hya]; omega) (by rw [hyb]; omega)
    obtain ⟨⟨-, g1⟩, ⟨-, g2⟩, -⟩ := live_ends hm hl
    refine ⟨hl, ?_, ?_⟩
    · rcases r5 with h | ⟨j, hj, e1, h⟩
      · omega
      · have : j = a := by omega
        rw [e1, this]
    · rcases r6 with h | ⟨j, hj, e1, h⟩
      · omega
      · have : j = b := by omega
        rw [e1, this]
  refine ⟨by omega, va, vb, hva, hvb, ?_, ?_, ?_, ?_⟩
  · intro y hy hyb
    obtain ⟨ty, hty, hfy⟩ := hlf _ va hva y hy
    obtain ⟨hl, e1, e2⟩ := hback y i i2 hi hi2 (by rw [fromOf_eq hty]; exact hfy) hyb ⟨ty, hty⟩
    have hyx : y = p.getD i2 Handle.none := noParallel_eq hm hnp hl hxl (by rw [e1, hnext]) e2
    obtain ⟨hle1, -⟩ := more.loopEnds _ hx
    obtain ⟨⟨-, g1⟩, -, -⟩ := live_ends hm hxl
    rw [← hyx, fromOf_eq hty, hfy] at hle1
    omega
  · obtain ⟨vt, hvt, hmem⟩ := more.inList _ holive
    rw [more.oppFrom i2 hi2, hvb] at hvt
    cases hvt
    exact hmem
  · have := more.oppTo i hi
    rw [hi3] at this
    exact this
  · intro y hy hya
    obtain ⟨ty, hty, hfy⟩ := hlf _ vb hvb y hy
    obtain ⟨hl, e1, e2⟩ := hback y i2 i hi2 hi (by rw [fromOf_eq hty]; exact hfy) hya ⟨ty, hty⟩
    exact noParallel_eq hm hnp hl holive (by rw [e1, hof]) (by rw [e2, hot, hnext])

/-- After the first loop and the detaching the mesh is stitched but for the loop
half-edges and their former opposites. -/
theorem stitchedBut_detached {m : Mesh VD HD FD} (hm : m.WellFormed)
    (hst : ∀ t ∈ m.halfs, t.exists_ = true → m.StitchedHalf t)
    {p : List Int} (hp : LoopFacts m p) {st : Cut VD HD FD}
    (more : CutMore m p p.length st) (hfc : st.mesh.faces = m.faces)
    (hhl : st.mesh.halfs.length = m.halfs.length)
    (hopp : ∀ y t, getAt m.halfs y = .ok t → ∃ t2, getAt st.mesh.halfs y = .ok t2 ∧
      ((y ∈ p ∨ ∃ z ∈ p, m.oppOf z = y) → t2.topo.opposite = Handle.none) ∧
      (y ∉ p → (∀ z ∈ p, m.oppOf z ≠ y) → t2.topo.opposite = t.topo.opposite)) :
    st.mesh.StitchedBut (fun y => y ∈ p ∨ ∃ z ∈ p, m.oppOf z = y) := by
  intro x t2 hx hlive
  have hx0 := getAt_lt_length hx
  obtain ⟨t, ht⟩ := getAt_of_lt m.halfs hx0.1 (by rw [← hhl]; exact hx0.2)
  obtain ⟨t2', ht2, f1, f2, f3, f5, f6⟩ := more.fields x t ht
  rw [hx] at ht2
  cases ht2
  have htl : t.exists_ = true := f3.symm.trans hlive
  have hxl : liveIn m.halfs x = true := liveIn_eq_true.mpr ⟨t, ht, htl⟩
  obtain ⟨-, s2, s3, s4, -, ⟨ft, hft, hxf⟩, ⟨ot, hot, hoo⟩⟩ := hst t (getAt_mem ht) htl
  have hhd := hm.wf.halfHd x t ht
  have hv : ∀ j, j < p.length → 0 ≤ m.toOf (p.getD j Handle.none) := fun j hj =>
    (live_ends hm (hp.live _ (getD_mem_of_lt hj _))).2.1.1
  refine ⟨f1.trans hhd, by rw [f2]; exact s2, ?_, ?_, ?_, ?_, ?_⟩
  · rcases f5 with h | ⟨j, -, -, h⟩
    · rw [h]
      exact s3
    · omega
  · rcases f6 with h | ⟨j, -, -, h⟩
    · rw [h]
      exact s4
    · omega
  · obtain ⟨vt, hvt, hmem⟩ := more.inList x hxl
    rw [fromOf_eq hx] at hvt
    exact ⟨vt, hvt, hmem⟩
  · refine ⟨ft, ?_, by rw [← hhd]; exact hxf⟩
    rw [hfc, f2]
    exact hft
  · intro hnS
    have hnS2 : x ∉ p ∧ ∀ z ∈ p, m.oppOf z ≠ x :=
      ⟨fun h => hnS (Or.inl h), fun z hz h => hnS (Or.inr ⟨z, hz, h⟩)⟩
    obtain ⟨t2', ht2, -, hkeep⟩ := hopp x t ht
    rw [hx] at ht2
    cases ht2
    rw [hkeep hnS2.1 hnS2.2]
    have hox : m.oppOf x = t.topo.opposite := oppOf_eq ht
    obtain ⟨-, hinv⟩ := wellFormed_opp hm hxl
    have hnSo : ¬ (t.topo.opposite ∈ p ∨ ∃ z ∈ p, m.oppOf z = t.topo.opposite) := by
      rintro (h | ⟨z, hz, h⟩)
      · exact hnS2.2 _ h (by rw [← hox, hinv])
      · apply hnS2.1
        have hz2 := (wellFormed_opp hm (hp.live z hz)).2
        rw [h, ← hox, hinv] at hz2
        rw [hz2]
        exact hz
    refine ⟨hnSo, ?_⟩
    obtain ⟨ot2, hot2, -, hk2⟩ := hopp _ ot hot
    refine ⟨ot2, hot2, ?_⟩
    rw [hk2 (fun h => hnSo (Or.inl h)) (fun z hz h => hnSo (Or.inr ⟨z, hz, h⟩)), hoo, hhd]

end Detached
section StitchedPieces

variable {VD HD FD : Type}

theorem getD_map_lt {f : Int → Int} {p : List Int} {j : Nat} (hj : j < p.length) :
    (p.map f).getD j Handle.none = f (p.getD j Handle.none) := by
  rw [List.getD_eq_getElem _ _ (by rw [List.length_map]; exact hj),
    List.getD_eq_getElem _ _ hj, List.getElem_map]

theorem getD_range_map {f : Nat → Int} {n j : Nat} (hj : j < n) :
    ((List.range n).map f).getD j Handle.none = f j := by
  rw [List.getD_eq_getElem _ _ (by rw [List.length_map, List.length_range]; exact hj),
    List.getElem_map, List.getElem_range]

/-- Every index of a cycle is the successor of one. -/
theorem cycle_pred {n k : Nat} (hk : k < n) : ∃ j, j < n ∧ (j + 1) % n = k := by
  by_cases h0 : k = 0
  · refine ⟨n - 1, by omega, ?_⟩
    have : n - 1 + 1 = n := by omega
    rw [this, Nat.mod_self, h0]
  · exact ⟨k - 1, by omega, by
      have : k - 1 + 1 = k := by omega
      rw [this, Nat.mod_eq_of_lt hk]⟩

/-- On a mesh without parallel duplicate edges a loop that `ConstructInternalLoopFrom`
has returned has at least three half-edges. -/
theorem loop_three {m : Mesh VD HD FD} (hm : m.WellFormed) (hnp : m.NoParallel)
    {p : List Int} (hp : LoopFacts m p) (hne : p ≠ []) : 3 ≤ p.length := by
  match p, hp, hne with
  | [x], hp, _ =>
    exfalso
    have hx := hp.live x (List.mem_singleton.mpr rfl)
    exact (live_ends hm hx).2.2 hp.closes
  | [x, y], hp, _ =>
    exfalso
    have hx : x ∈ [x, y] := List.mem_cons_self _ _
    have hy : y ∈ [x, y] := List.mem_cons_of_mem _ (List.mem_singleton.mpr rfl)
    obtain ⟨o, ho, hol, -, hof, hot⟩ := loop_opp_ends hm.wf hp hx
    have h0 : m.fromOf y = m.toOf x := hp.next 0 (by simp)
    have h1 : m.fromOf x = m.toOf y := by
      have := hp.next 1 (by simp)
      simpa using this
    have hyo : y = m.oppOf x := noParallel_eq hm hnp (hp.live y hy)
      (liveIn_eq_true.mpr ⟨o, ho, hol⟩) (by rw [h0, hof]) (by rw [← h1, hot])
    exact hp.noOpp x hx (hyo ▸ hy)
  | _ :: _ :: _ :: _, _, _ => simp

/-- A pair that waits to be sewn still waits after a call that keeps the ends of the old
half-edges and the outgoing lists of the two vertices. -/
theorem sewable_frame {M M2 : Mesh VD HD FD} (hlf : M.ListsFrom) {a b e : Int}
    (hs : M.Sewable a b e)
    (hends : ∀ x t, getAt M.halfs x = .ok t → ∃ t2, getAt M2.halfs x = .ok t2 ∧
      t2.topo.efrom = t.topo.efrom ∧ t2.topo.eto = t.topo.eto)
    (hverts : ∀ u, u = a ∨ u = b → ∀ vt, getAt M.verts u = .ok vt →
      ∃ vt2, getAt M2.verts u = .ok vt2 ∧ vt2.topo.halfedges = vt.topo.halfedges) :
    M2.Sewable a b e := by
  obtain ⟨hab, va, vb, ha, hb, hnone, he, hea, huniq⟩ := hs
  obtain ⟨va2, hva2, hla⟩ := hverts a (Or.inl rfl) va ha
  obtain ⟨vb2, hvb2, hlb⟩ := hverts b (Or.inr rfl) vb hb
  have hto : ∀ u vt, getAt M.verts u = .ok vt → ∀ y ∈ vt.topo.halfedges,
      M2.toOf y = M.toOf y := by
    intro u vt hu y hy
    obtain ⟨t, ht, -⟩ := hlf u vt hu y hy
    obtain ⟨t2, ht2, -, h3⟩ := hends y t ht
    rw [toOf_eq ht2, toOf_eq ht, h3]
  refine ⟨hab, va2, vb2, hva2, hvb2, ?_, by rw [hlb]; exact he, ?_, ?_⟩
  · intro y hy
    rw [hla] at hy
    rw [hto a va ha y hy]
    exact hnone y hy
  · rw [hto b vb hb e he]
    exact hea
  · intro y hy hya
    rw [hlb] at hy
    rw [hto b vb hb y hy] at hya
    exact huniq y hy hya

/-- The detaching loop keeps what the first loop has established of the ends, the
handles, the faces and the lists. -/
theorem cutMore_detach {m : Mesh VD HD FD} {p : List Int} {i : Nat} {st : Cut VD HD FD}
    (more : CutMore m p i st) {D : Mesh VD HD FD} (hv : D.verts = st.mesh.verts)
    (hl : D.halfs.length = st.mesh.halfs.length)
    (h : ∀ x t, getAt st.mesh.halfs x = .ok t → ∃ t2, getAt D.halfs x = .ok t2 ∧
      t2.topo.hd = t.topo.hd ∧ t2.topo.efrom = t.topo.efrom ∧ t2.topo.eto = t.topo.eto ∧
      t2.topo.face = t.topo.face ∧ t2.exists_ = t.exists_) :
    CutMore m p i ⟨D, st.thisVhs, st.anotherVhs⟩ := by
  have hc := ends_congr hl (fun x t ht => by
    obtain ⟨t2, ht2, -, e2, e3, -, e5⟩ := h x t ht
    exact ⟨t2, ht2, e2, e3, e5⟩)
  constructor
  · intro x t ht
    obtain ⟨t1, ht1, f1, f2, f3, f5, f6⟩ := more.fields x t ht
    obtain ⟨t2, ht2, e1, e2, e3, e4, e5⟩ := h x t1 ht1
    refine ⟨t2, ht2, e1.trans f1, e4.trans f2, e5.trans f3, ?_, ?_⟩
    · rw [e2]
      exact f5
    · rw [e3]
      exact f6
  · intro x hx
    obtain ⟨vt, hvt, hmem⟩ := more.inList x hx
    refine ⟨vt, ?_, hmem⟩
    show getAt D.verts (D.fromOf x) = _
    rw [hv, (hc x).1]
    exact hvt
  · intro x hx
    show D.fromOf x = _ ∧ D.toOf x = _
    rw [(hc x).1, (hc x).2.1]
    exact more.loopEnds x hx
  · intro j hj
    show D.fromOf _ = _
    rw [(hc _).1]
    exact more.oppFrom j hj
  · intro j hj
    show D.toOf _ = _
    rw [(hc _).2.1]
    exact more.oppTo j hj

end StitchedPieces
section StitchedKeptTotal

variable {VD HD FD : Type}

/-- On a well-formed, stitched mesh without parallel duplicate edges and without removed
half-edges in the outgoing lists, `DecomposeOnInternalLoop` returns for every loop of at
least three half-edges that has the properties of a result of
`ConstructInternalLoopFrom`, and the mesh it leaves is stitched. -/
theorem decompose_stitched [Inhabited HD] {m : Mesh VD HD FD} (hm : m.WellFormed)
    (hl : m.ListsLive) (hnp : m.NoParallel)
    (hst : ∀ t ∈ m.halfs, t.exists_ = true → m.StitchedHalf t)
    {p : List Int} (hp : LoopFacts m p) (hn : 3 ≤ p.length) (fd1 fd2 : FD) {fuel : Nat}
    (hfuel : m.maxDegree < fuel) :
    ∃ m2 fh1 fh2, DecomposeOnInternalLoop m p fd1 fd2 fuel = .ok (some (m2, fh1, fh2)) ∧
      ∀ t ∈ m2.halfs, t.exists_ = true → m2.StitchedHalf t := by
  have hwf := hm.wf
  obtain ⟨m2, hs1, hs2, hdec, -⟩ := decompose_total hwf hl hp hn fd1 fd2 hfuel
  refine ⟨m2, _, _, hdec, ?_⟩
  -- the first loop
  obtain ⟨st, hcut, inv, more⟩ := cutLoop_more hwf hl hp hfuel p.length 0 ⟨m, [], []⟩
    (by omega) (cutInv_init hwf hl p) (cutMore_init hm p)
  rw [← List.range_eq_range'] at hcut
  have hthis : st.thisVhs = p.map m.toOf := by rw [inv.thisVhs, List.take_length]
  -- the detaching loop
  have hpnd : p.Nodup := List.Nodup.of_map _ hp.nodupTo
  have hpin : ∀ x ∈ p, ∃ t o, getAt st.mesh.halfs x = .ok t ∧
      getAt st.mesh.halfs t.topo.opposite = .ok o ∧ t.topo.opposite = m.oppOf x := by
    intro x hx
    obtain ⟨t0, o0, ht0, ho0, -, -, -, -⟩ := wf_live_pair hwf (hp.live x hx)
    obtain ⟨t, ht, h1, -, -⟩ := inv.halfs x t0 ht0
    obtain ⟨o, ho, -, -, -⟩ := inv.halfs _ o0 ho0
    exact ⟨t, o, ht, by rw [h1]; exact ho, by rw [h1, oppOf_eq ht0]⟩
  have hoz : ∀ z ∈ p, st.mesh.oppOf z = m.oppOf z := by
    intro z hz
    obtain ⟨tz, oz, htz, -, hzo⟩ := hpin z hz
    rw [oppOf_eq htz, hzo]
  have hno : ∀ x ∈ p, ∀ y ∈ p, st.mesh.oppOf x ≠ y := by
    intro x hx y hy
    rw [hoz x hx]
    exact fun h => hp.noOpp x hx (h ▸ hy)
  obtain ⟨D, hD, hDv, hDf, hDl, -⟩ := detachLoop_spec p st.mesh hpnd
    (fun x hx => by
      obtain ⟨t, o, ht, ho, -⟩ := hpin x hx
      exact ⟨t, o, ht, ho⟩) hno
  obtain ⟨-, -, -, hDres⟩ := detachLoop_res p hpnd hno hD
  have hDlen : D.halfs.length = m.halfs.length := hDl.trans inv.hlen
  have hDvl : D.verts.length = m.verts.length + p.length := by rw [hDv, inv.vlen]
  have hDfc : D.faces = m.faces := hDf.trans inv.faces
  have hDlf : D.ListsFrom := by
    intro u vt hu x hx
    rw [hDv] at hu
    obtain ⟨t, ht, hf⟩ := inv.lists u vt hu x hx
    obtain ⟨t2, ht2, -, e2, -⟩ := hDres x t ht
    exact ⟨t2, ht2, e2.trans hf⟩
  have moreD : CutMore m p p.length ⟨D, st.thisVhs, st.anotherVhs⟩ :=
    cutMore_detach more hDv hDl (fun x t ht => by
      obtain ⟨t2, ht2, e1, e2, e3, e4, e5, -⟩ := hDres x t ht
      exact ⟨t2, ht2, e1, e2, e3, e4, e5⟩)
  have hoppD : ∀ y t, getAt m.halfs y = .ok t → ∃ t2, getAt D.halfs y = .ok t2 ∧
      ((y ∈ p ∨ ∃ z ∈ p, m.oppOf z = y) → t2.topo.opposite = Handle.none) ∧
      (y ∉ p → (∀ z ∈ p, m.oppOf z ≠ y) → t2.topo.opposite = t.topo.opposite) := by
    intro y t ht
    obtain ⟨t1, ht1, ho1, -⟩ := inv.halfs y t ht
    obtain ⟨t2, ht2, -, -, -, -, -, -, g1, g2⟩ := hDres y t1 ht1
    refine ⟨t2, ht2, ?_, ?_⟩
    · rintro (h | ⟨z, hz, h⟩)
      · exact g1 (Or.inl h)
      · exact g1 (Or.inr ⟨z, hz, by rw [hoz z hz]; exact h⟩)
    · intro h1 h2
      rw [g2 h1 (fun z hz => by rw [hoz z hz]; exact h2 z hz), ho1]
  have hSB : D.StitchedBut (fun y => y ∈ p ∨ ∃ z ∈ p, m.oppOf z = y) :=
    stitchedBut_detached hm hst hp moreD hDfc hDlen hoppD
  -- the two vertex cycles
  have hthis_len : st.thisVhs.length = p.length := by rw [hthis, List.length_map]
  have hthis_nd : st.thisVhs.Nodup := by rw [hthis]; exact hp.nodupTo
  have hthis_old : ∀ v ∈ st.thisVhs, v < (m.verts.length : Int) := by
    intro v hv
    rw [hthis] at hv
    obtain ⟨x, hx, rfl⟩ := List.mem_map.mp hv
    exact (live_ends hm (hp.live x hx)).2.1.2
  have hanother_len : st.anotherVhs.length = p.length := by
    rw [inv.anotherVhs, List.length_map, List.length_range]
  have hanother_nd : st.anotherVhs.Nodup := by
    rw [inv.anotherVhs]
    apply List.Nodup.map _ (List.nodup_range _)
    intro a b hab
    simp only at hab
    omega
  have hmodlt : ∀ j, (j + 1) % p.length < p.length := fun j => Nat.mod_lt _ (by omega)
  have hpairT : ∀ j, j < p.length → cyclePair st.thisVhs j
      = (m.fromOf (p.getD ((j + 1) % p.length) Handle.none),
         m.toOf (p.getD ((j + 1) % p.length) Handle.none)) := by
    intro j hj
    unfold cyclePair
    rw [hthis_len, hthis, getD_map_lt hj, getD_map_lt (hmodlt j), hp.next j hj]
  have hpairA : ∀ j, j < p.length → cyclePair st.anotherVhs j
      = ((m.verts.length : Int) + (j : Int),
         (m.verts.length : Int) + (((j + 1) % p.length : Nat) : Int)) := by
    intro j hj
    unfold cyclePair
    rw [hanother_len, inv.anotherVhs, getD_range_map hj, getD_range_map (hmodlt j)]
  -- the first face
  have hSslot : ∀ x, (x ∈ p ∨ ∃ z ∈ p, m.oppOf z = x) → ∃ t, getAt D.halfs x = .ok t := by
    intro x hx
    have hlive : liveIn m.halfs x = true := by
      rcases hx with h | ⟨z, hz, rfl⟩
      · exact hp.live x h
      · obtain ⟨o, ho, hol, -⟩ := loop_opp_ends hwf hp hz
        exact liveIn_eq_true.mpr ⟨o, ho, hol⟩
    obtain ⟨t, ht, -⟩ := liveIn_eq_true.mp hlive
    obtain ⟨t2, ht2, -⟩ := hoppD x t ht
    exact ⟨t2, ht2⟩
  have hsewT : ∀ x ∈ p, D.Sewable (m.toOf x) (m.fromOf x) x := fun x hx =>
    sewable_this hm hnp hp moreD hDlf hDvl hDlen hx
  have h1L : (0 + 1) % p.length = 1 := Nat.mod_eq_of_lt (by omega)
  have hx1 : p.getD 1 Handle.none ∈ p := getD_mem_of_lt (by omega) _
  have hwind1 : D.faceWinding st.thisVhs true = .ok st.thisVhs.reverse := by
    obtain ⟨t0, ht0, hex0⟩ := liveIn_eq_true.mp (hp.live _ hx1)
    obtain ⟨t1, ht1, -, -, f3, -⟩ := moreD.fields _ t0 ht0
    have hface : 0 ≤ t1.topo.face := (hSB _ t1 ht1 (f3.trans hex0)).2.1
    refine faceWinding_flip hDlf (by rw [hthis_len]; omega) (hsewT _ hx1) ?_ ht1 hface
    have := hpairT 0 (by omega)
    rw [h1L] at this
    exact this
  have hsew1 : ∀ i, i < st.thisVhs.reverse.length → ∃ e, e ∈ p ∧
      D.Sewable (cyclePair st.thisVhs.reverse i).1 (cyclePair st.thisVhs.reverse i).2 e := by
    intro i hi
    rw [List.length_reverse] at hi
    obtain ⟨j, hj, hrev⟩ := cyclePair_reverse hi
    rw [hthis_len] at hj
    refine ⟨_, getD_mem_of_lt (hmodlt j) Handle.none, ?_⟩
    rw [hrev, hpairT j hj]
    exact hsewT _ (getD_mem_of_lt (hmodlt j) _)
  have hE1 : ∀ x, x ∈ p → ∃ i, i < st.thisVhs.reverse.length ∧
      D.Sewable (cyclePair st.thisVhs.reverse i).1 (cyclePair st.thisVhs.reverse i).2 x := by
    intro x hx
    obtain ⟨k, hk, hxk⟩ := mem_iff_getD Handle.none hx
    obtain ⟨j, hj, hjk⟩ := cycle_pred hk
    have hrj : j < st.thisVhs.reverse.length := by
      rw [List.length_reverse, hthis_len]
      exact hj
    obtain ⟨i, hi, hrev⟩ := cyclePair_reverse hrj
    rw [List.reverse_reverse, hpairT j hj, hjk, hxk] at hrev
    refine ⟨i, hi, ?_⟩
    have e1 : (cyclePair st.thisVhs.reverse i).2 = m.fromOf x := (congrArg Prod.fst hrev).symm
    have e2 : (cyclePair st.thisVhs.reverse i).1 = m.toOf x := (congrArg Prod.snd hrev).symm
    rw [e1, e2]
    exact hsewT x hx
  obtain ⟨E, hE, hElf, hESB, hEvl, hEfl, hEends, hEverts⟩ :=
    addFaceVerts_stitch (E := fun x => x ∈ p) hDlf hSB hSslot (fun x hx => Or.inl hx) hwind1
      (by rw [hthis_len]; exact hn) (by rw [List.length_reverse, hthis_len]; exact hn)
      (List.nodup_reverse.mpr hthis_nd) hsew1 hE1 fd1
  -- the second face
  have hsewO : ∀ i, i < p.length → E.Sewable ((m.verts.length : Int) + (i : Int))
      ((m.verts.length : Int) + (((i + 1) % p.length : Nat) : Int))
      (m.oppOf (p.getD ((i + 1) % p.length) Handle.none)) := by
    intro i hi
    refine sewable_frame hDlf
      (sewable_other hm hnp hp (by omega) moreD hDlf hDvl hDlen hi) hEends ?_
    intro u hu vt hvt
    refine hEverts u vt hvt ?_
    intro hmem
    rw [List.mem_reverse] at hmem
    have := hthis_old u hmem
    rcases hu with h | h <;> omega
  have hwind2 : E.faceWinding st.anotherVhs true = .ok st.anotherVhs := by
    refine faceWinding_keep hElf (fun i hi => ?_)
    rw [hanother_len] at hi
    obtain ⟨-, va, vb, ha, -, hnone, -⟩ := hsewO i hi
    rw [hpairA i hi]
    exact ⟨va, ha, hnone⟩
  have hS2slot : ∀ x, ((x ∈ p ∨ ∃ z ∈ p, m.oppOf z = x) ∧ ¬ x ∈ p) →
      ∃ t, getAt E.halfs x = .ok t := by
    intro x hx
    obtain ⟨t, ht⟩ := hSslot x hx.1
    obtain ⟨t2, ht2, -⟩ := hEends x t ht
    exact ⟨t2, ht2⟩
  have hES2 : ∀ x, (∃ z ∈ p, m.oppOf z = x) →
      ((x ∈ p ∨ ∃ z ∈ p, m.oppOf z = x) ∧ ¬ x ∈ p) := by
    rintro x ⟨z, hz, rfl⟩
    exact ⟨Or.inr ⟨z, hz, rfl⟩, hp.noOpp z hz⟩
  have hsew2 : ∀ i, i < st.anotherVhs.length → ∃ e, (∃ z ∈ p, m.oppOf z = e) ∧
      E.Sewable (cyclePair st.anotherVhs i).1 (cyclePair st.anotherVhs i).2 e := by
    intro i hi
    rw [hanother_len] at hi
    refine ⟨_, ⟨_, getD_mem_of_lt (hmodlt i) Handle.none, rfl⟩, ?_⟩
    rw [hpairA i hi]
    exact hsewO i hi
  have hE2 : ∀ x, (∃ z ∈ p, m.oppOf z = x) → ∃ i, i < st.anotherVhs.length ∧
      E.Sewable (cyclePair st.anotherVhs i).1 (cyclePair st.anotherVhs i).2 x := by
    rintro x ⟨z, hz, rfl⟩
    obtain ⟨k, hk, hzk⟩ := mem_iff_getD Handle.none hz
    obtain ⟨j, hj, hjk⟩ := cycle_pred hk
    refine ⟨j, by rw [hanother_len]; exact hj, ?_⟩
    have := hsewO j hj
    rw [hpairA j hj, hjk]
    rw [hjk, hzk] at this
    exact this
  obtain ⟨G, hG, hGlf, hGSB, hGvl, hGfl, hGends, hGverts⟩ :=
    addFaceVerts_stitch (E := fun x => ∃ z ∈ p, m.oppOf z = x) hElf hESB hS2slot hES2 hwind2
      (by rw [hanother_len]; exact hn) (by rw [hanother_len]; exact hn) hanother_nd hsew2 hE2
      fd2
  -- the last loop changes payloads only
  have hne : p.isEmpty = false := by
    cases p with
    | nil => simp at hn
    | cons a rest => rfl
  unfold DecomposeOnInternalLoop at hdec
  simp only [hne, Bool.false_eq_true, if_false, hp.closes, ne_eq, not_true_eq_false, hcut, hD,
    hE, hG, hthis_len, hanother_len] at hdec
  cases hc : copyLoop st.thisVhs st.anotherVhs (D.faces.length : Int) (E.faces.length : Int) G
      (List.range p.length) with
  | error e =>
    rw [hc] at hdec
    cases hdec
  | ok m4 =>
    rw [hc] at hdec
    simp only [Except.ok.injEq, Option.some.injEq, Prod.mk.injEq] at hdec
    obtain ⟨hm4, -, -⟩ := hdec
    subst hm4
    obtain ⟨c1, c2, c3, c4⟩ := copyLoop_res _ hc
    intro t4 ht4 hlive
    obtain ⟨x, hx4⟩ := mem_iff_getAt.mp ht4
    have hx0 := getAt_lt_length hx4
    obtain ⟨tG, htG⟩ := getAt_of_lt G.halfs hx0.1 (by rw [← c3]; exact hx0.2)
    obtain ⟨t4', ht4', e1, e2⟩ := c4 x tG htG
    rw [hx4] at ht4'
    cases ht4'
    obtain ⟨s1, s2, s3, s4, ⟨vt, hvt, hxv⟩, ⟨ft, hft, hxf⟩, s7⟩ :=
      hGSB x tG htG (e2.symm.trans hlive)
    obtain ⟨-, ot, hot, hoo⟩ := s7 (by
      rintro ⟨⟨h | h, h2⟩, h3⟩
      · exact h2 h
      · exact h3 h)
    obtain ⟨ot4, hot4, e3, -⟩ := c4 _ ot hot
    unfold Mesh.StitchedHalf
    rw [e1, c1, c2, s1]
    exact ⟨(getAt_lt_length hot).1, s2, s3, s4, ⟨vt, hvt, hxv⟩, ⟨ft, hft, hxf⟩,
      ⟨ot4, hot4, by rw [e3]; exact hoo⟩⟩

end StitchedKeptTotal
section StitchedKeptClaim

variable {VD HD FD : Type}

/-- C29 (amended): on a well-formed mesh without parallel duplicate edges and without
removed half-edges in the outgoing lists, on which `AssertEdgesAreStiched` holds, for
every loop that `ConstructInternalLoopFrom` returns, `DecomposeOnInternalLoop` (each
`while` loop given more passes than the largest outgoing list has entries) returns, and
`AssertEdgesAreStiched` holds on the mesh after the split: every non-removed half-edge
has valid `opposite`, `face`, `from` and `to`, is in the list of its `from` vertex and
of its face, and is the opposite of its opposite. -/
theorem decomposeOnInternalLoop_stitched [Inhabited HD] {m : Mesh VD HD FD}
    (hm : m.WellFormed) (hl : m.ListsLive) (hnp : m.NoParallel)
    (hst : AssertEdgesAreStiched m = .ok ()) {intersectFun : Int → Int → Bool}
    {initial : Int} {fuel0 : Nat} {p : List Int}
    (hrun : ConstructInternalLoopFrom m initial intersectFun fuel0 = .ok (some p))
    (fd1 fd2 : FD) {fuel : Nat} (hfuel : m.maxDegree < fuel) :
    ∃ m2 fh1 fh2, DecomposeOnInternalLoop m p fd1 fd2 fuel = .ok (some (m2, fh1, fh2)) ∧
      AssertEdgesAreStiched m2 = .ok () ∧
      ∀ t ∈ m2.halfs, t.exists_ = true → m2.StitchedHalf t := by
  by_cases hne : p = []
  · subst hne
    exact ⟨m, Handle.none, Handle.none, rfl, hst, assertEdgesAreStiched_iff.mp hst⟩
  · obtain ⟨hadm, hcl⟩ := (constructInternalLoopFrom_sound hrun).resolve_left hne
    have hp := loopFacts_of_admissible hm hl hadm hcl
    obtain ⟨m2, fh1, fh2, h1, h2⟩ := decompose_stitched hm hl hnp
      (assertEdgesAreStiched_iff.mp hst) hp (loop_three hm hnp hp hne) fd1 fd2 hfuel
    exact ⟨m2, fh1, fh2, h1, assertEdgesAreStiched_iff.mpr h2, h2⟩

theorem decomposeOnInternalLoop_stitched_witness :
    ∃ m2 fh1 fh2,
      DecomposeOnInternalLoop octahedron [0, 18, 20, 8] () () 5 = .ok (some (m2, fh1, fh2)) ∧
      AssertEdgesAreStiched m2 = .ok () ∧
      ∀ t ∈ m2.halfs, t.exists_ = true → m2.StitchedHalf t :=
  decomposeOnInternalLoop_stitched wellFormed_octahedron listsLive_octahedron
    (by unfold Mesh.NoParallel; decide) (by decide)
    (by decide : ConstructInternalLoopFrom octahedron 0 (fun _ _ => false) 9
      = .ok (some [0, 18, 20, 8]))
    () () (by decide : octahedron.maxDegree < 5)

theorem reachable_octParMesh : Reachable octParMesh :=
  Reachable.addFace [24, 25] ()
    (Reachable.addEdge 2 3 () () false reachable_octahedron
      (by decide : octahedron.addEdge 2 3 () () false = .ok (octEdgeMesh, 24)))
    (by decide : octEdgeMesh.addFace [24, 25] () = .ok (octParMesh, 8))

/-- C29 fails as stated on a mesh with a parallel duplicate edge. The mesh `octParMesh`
(the octahedron with a second edge between the vertices `2` and `3` and a face on the two
half-edges `24`, `25` of it) is reached through the member functions, is well-formed, has
no removed half-edge, and `AssertEdgesAreStiched` passes on it; from the half-edge `6`
`ConstructInternalLoopFrom` returns the loop `[6, 10, 14, 2]`, whose last half-edge goes
from `2` to `3`. `DecomposeOnInternalLoop` returns on this loop, and on the mesh it leaves
`AssertEdgesAreStiched` fails: `addEdge(3, 2)` of the first `addFace` has found the
half-edge `25` of the second edge in the list of the vertex `3` and has sewn it to the
loop half-edge `2` instead of a new half-edge, so that `24` has the opposite `25`, whose
opposite is `2` and whose face is the new face `9`, not the face `8` that `24` is on. -/
theorem decomposeOnInternalLoop_parallel_unstitched :
    Reachable octParMesh ∧ octParMesh.WellFormed ∧ octParMesh.ListsLive ∧
      AssertEdgesAreStiched octParMesh = .ok () ∧
      ConstructInternalLoopFrom octParMesh 6 (fun _ _ => false) 30
        = .ok (some [6, 10, 14, 2]) ∧
      DecomposeOnInternalLoop octParMesh [6, 10, 14, 2] () () 20
        = .ok (some (octParCut, 9, 10)) ∧
      AssertEdgesAreStiched octParCut = .error .assertion ∧
      liveIn octParCut.halfs 24 = true ∧ octParCut.oppOf 24 = 25 ∧
      octParCut.oppOf 25 = 2 ∧ octParCut.faceOf 24 = 8 ∧ octParCut.faceOf 25 = 9 :=
  ⟨reachable_octParMesh,
    ⟨reachable_wf reachable_octParMesh, reachable_tidy reachable_octParMesh,
      by decide, by decide⟩,
    by unfold Mesh.ListsLive; decide, by decide, by decide, by decide, by decide, by decide,
    by decide, by decide, by decide, by decide⟩

end StitchedKeptClaim

end Panoramix
